import Mathlib

/-!
# PIBT with orientation: a shallow embedding of `pibt2`

The development embeds `plan.cpp` (the action primitive and the plan container) and
`pibt.cpp` (the planning kernel `funcPIBT`, the cycle handler, the swap subprotocol and the
timestep driver `run`) as executable Lean definitions and proves properties of them.

Modelling conventions.
* A `Node*` is represented by the node id (`Nat`); tables indexed by `v->id` are functions on
  ids.  A nullable pointer is an `Option`.
* An `Agent*` is represented by the agent index; the heap of `Agent` records is the function
  `PIBT.agents`.
* `halt`, `exit`, `abort` and dereferencing a null pointer end the computation: `Outcome.halted`.
* Recursion and `while` loops carry an explicit budget; `Outcome.starved` reports that the
  budget was exhausted.
* The random engine `MT` is an abstract state (`Nat`) threaded through the functional
  specifications `Env.shuffle` and `Env.getRandomFloat`.
* `int` values are unbounded integers.  The `float` values (the costs of the candidate
  comparator, the distances of the swap tests) are integers and are kept as the integers they
  denote; the conversion of an `int` and the addition round as `float` does (`float_of_int`,
  `float_add`).

Contents: the embedding, concrete instances, the predicates of the invariants, the theorems.
The safety of the plan is proved by an invariant of `funcPIBT` over the three kinds of agents
of a planning phase: unplanned (`v_next` is null), tentative (`v_next` is set, `ott_next` is
empty: a reservation that may be withdrawn) and decided (`ott_next` is set).  The statements
about the headings and the counters need no assumption on the starts and rest on a weaker
invariant (`PIBT.Weak`); the absence of conflicts rests on `PIBT.Inv` and needs pairwise
distinct starts.
-/

namespace PIBT2

/-- Result of a computation that may stop the program or exhaust the budget of the model. -/
inductive Outcome (α : Type) where
  | ok (a : α)
  | halted
  | starved
  deriving DecidableEq, Repr

/-- Sequencing of computations that may stop. -/
def Outcome.bind {α β : Type} (x : Outcome α) (f : α → Outcome β) : Outcome β :=
  match x with
  | .ok a => f a
  | .halted => .halted
  | .starved => .starved

/-- Modelled from the spec: `enum class Orientation` of `orientation.hpp` (not among the
sources); the spec lists the four values `X_PLUS, X_MINUS, Y_PLUS, Y_MINUS`. -/
inductive Orientation where
  | X_PLUS
  | X_MINUS
  | Y_PLUS
  | Y_MINUS
  deriving DecidableEq, Repr

/-- The graph: `getNodesSize`, and for every node id its `neighbor` list and `pos`. -/
structure Graph where
  size : Nat
  neighbor : Nat → List Nat
  pos_x : Nat → Int
  pos_y : Nat → Int

/-- A configuration `std::vector<Node*>`. -/
abbrev Config := List (Option Nat)

/-- The plan container of `plan.hpp`: `configs` and `orientations`. -/
structure Plan where
  configs : List Config
  orientations : List (List Orientation)
  deriving DecidableEq, Repr

/-- The table `dir_to_angle`. -/
def dir_to_angle : Orientation → Int
  | .X_PLUS => 0
  | .Y_PLUS => 90
  | .X_MINUS => 180
  | .Y_MINUS => 270

/-- The helper `orientationToString`. -/
def orientationToString : Orientation → String
  | .X_PLUS => "X_PLUS"
  | .X_MINUS => "X_MINUS"
  | .Y_PLUS => "Y_PLUS"
  | .Y_MINUS => "Y_MINUS"

/-- `Plan::getRelativePosition`. -/
def Plan.getRelativePosition (G : Graph) (current target : Nat) : Outcome Orientation :=
  if target ∈ G.neighbor current then
    if G.pos_x target > G.pos_x current then .ok .X_PLUS
    else if G.pos_x target < G.pos_x current then .ok .X_MINUS
    else if G.pos_y target > G.pos_y current then .ok .Y_PLUS
    else if G.pos_y target < G.pos_y current then .ok .Y_MINUS
    else .halted
  else .halted

/-- `Plan::getAngleDifference`. -/
def Plan.getAngleDifference (dir1 dir2 : Orientation) : Int :=
  let angle1 := dir_to_angle dir1
  let angle2 := dir_to_angle dir2
  let diff : Int := Int.natAbs (angle1 - angle2)
  min diff (360 - diff)

/-- `Plan::rotateCounterClockwise`. -/
def Plan.rotateCounterClockwise : Orientation → Orientation
  | .X_PLUS => .Y_PLUS
  | .Y_PLUS => .X_MINUS
  | .X_MINUS => .Y_MINUS
  | .Y_MINUS => .X_PLUS

/-- `Plan::computeAction`. -/
def Plan.computeAction (G : Graph) (current target : Nat) (current_orient : Orientation) :
    Outcome (Nat × Orientation) :=
  if current = target then .ok (current, current_orient)
  else if target ∈ G.neighbor current then
    (Plan.getRelativePosition G current target).bind fun relative_pos =>
      let angle_diff := Plan.getAngleDifference current_orient relative_pos
      if angle_diff = 0 then .ok (target, relative_pos)
      else if angle_diff = 90 then .ok (current, relative_pos)
      else if angle_diff = 180 then .ok (current, Plan.rotateCounterClockwise current_orient)
      else .halted
  else .halted

/-- The heading and vertex returned by the `k+1`-st of successive invocations of
`computeAction (v, t, .)`, each one fed the heading returned by the previous one. -/
def Plan.computeAction_iter (G : Graph) (v t : Nat) : Nat → Orientation →
    Outcome (Nat × Orientation)
  | 0, h => Plan.computeAction G v t h
  | k + 1, h => (Plan.computeAction G v t h).bind fun r => Plan.computeAction_iter G v t k r.2

/-- `Plan::empty`. -/
def Plan.empty (p : Plan) : Bool := p.configs.isEmpty

/-- `Plan::size`. -/
def Plan.size (p : Plan) : Int := p.configs.length

/-- `Plan::getMakespan`. -/
def Plan.getMakespan (p : Plan) : Int := p.size - 1

/-- `Plan::get(t, i)`. -/
def Plan.get (p : Plan) (t i : Int) : Outcome (Option Nat) :=
  if p.empty then .halted
  else if ¬ (0 ≤ t ∧ t < (p.configs.length : Int)) then .halted
  else if ¬ (0 ≤ i ∧ i < ((p.configs.headD []).length : Int)) then .halted
  else match (p.configs.getD t.toNat [])[i.toNat]? with
    | some v => .ok v
    | none => .halted

/-- `Plan::getOrientation(t, i)`. -/
def Plan.getOrientation (p : Plan) (t i : Int) : Outcome Orientation :=
  if p.orientations.isEmpty then .halted
  else if ¬ (0 ≤ t ∧ t < (p.orientations.length : Int)) then .halted
  else if ¬ (0 ≤ i ∧ i < ((p.orientations.headD []).length : Int)) then .halted
  else match (p.orientations.getD t.toNat [])[i.toNat]? with
    | some o => .ok o
    | none => .halted

/-- `Plan::addWithOrientation`. -/
def Plan.addWithOrientation (p : Plan) (c : Config) (orients : List Orientation) :
    Outcome Plan :=
  if ¬ p.configs.isEmpty ∧ (p.configs.headD []).length ≠ c.length then .halted
  else if c.length ≠ orients.length then .halted
  else .ok { configs := p.configs ++ [c], orientations := p.orientations ++ [orients] }

/-- The PIBT agent record `struct Agent`. -/
structure Agent where
  id : Nat
  v_now : Nat
  v_next : Option Nat
  g : Nat
  ott_now : Option Orientation
  ott_next : Option Orientation
  elapsed : Int
  init_d : Int
  tie_breaker : Rat
  swap_completed : Bool

/-- An entry of the request chain `struct Request`. -/
structure Request where
  agent : Nat
  requested_node : Nat

/-- What the solver reads but never writes: the problem instance, the graph, the distance
table behind `pathDist(i, v, dir)` (its body is not among the sources), the functional
behaviour of the random engine and of the wall clock. -/
structure Env where
  G : Graph
  num : Nat
  start : Nat → Nat
  goal : Nat → Nat
  max_timestep : Int
  disable_dist_init : Bool
  pathDist : Nat → Nat → Orientation → Int
  shuffle : Nat → List Nat → List Nat × Nat
  getRandomFloat : Nat → Rat × Nat
  seed : Nat
  overCompTime : Int → Bool

/-- The mutable members of `class PIBT` (with those inherited from the solver base class
that `run` writes). -/
structure PIBT where
  agents : Nat → Agent
  A : List Nat
  occupied_now : Nat → Option Nat
  occupied_next : Nat → Option Nat
  reserved_nodes : Nat → Option Nat
  push_count_table : Nat → Nat → Int
  request_chain : List Request
  cycle_detected : Bool
  cycle_handled : Bool
  initial_requester : Option Nat
  MT : Nat
  solution : Plan
  solved : Bool

/-- The debugging accessor `SAFE_VALUE`: aborts on an empty optional. -/
def SAFE_VALUE {α : Type} (opt : Option α) : Outcome α :=
  match opt with
  | some v => .ok v
  | none => .halted

/-- Overwrites the record of one agent. -/
def PIBT.setAgent (s : PIBT) (i : Nat) (a : Agent) : PIBT :=
  { s with agents := Function.update s.agents i a }

/-- Assignment `occupied_next[v] = x`. -/
def PIBT.setOccupiedNext (s : PIBT) (v : Nat) (x : Option Nat) : PIBT :=
  { s with occupied_next := Function.update s.occupied_next v x }

/-- Assignment `occupied_now[v] = x`. -/
def PIBT.setOccupiedNow (s : PIBT) (v : Nat) (x : Option Nat) : PIBT :=
  { s with occupied_now := Function.update s.occupied_now v x }

/-- Assignment `reserved_nodes[i] = x`. -/
def PIBT.setReserved (s : PIBT) (i : Nat) (x : Option Nat) : PIBT :=
  { s with reserved_nodes := Function.update s.reserved_nodes i x }

/-- Assignment `push_count_table[i][j] = x`. -/
def PIBT.setPushCount (s : PIBT) (i j : Nat) (x : Int) : PIBT :=
  { s with push_count_table :=
      Function.update s.push_count_table i (Function.update (s.push_count_table i) j x) }

/-- The priority comparator `compare` of `PIBT::run`. -/
def PIBT.run_compare (a b : Agent) : Bool :=
  if a.elapsed ≠ b.elapsed then decide (a.elapsed > b.elapsed)
  else if a.init_d ≠ b.init_d then decide (a.init_d > b.init_d)
  else decide (a.tie_breaker > b.tie_breaker)

/-- Insertion of one element into a list ordered by `lt`, behind the elements before it. -/
def insert_sorted {α : Type} (lt : α → α → Bool) (x : α) : List α → List α
  | [] => [x]
  | y :: ys => if lt y x then y :: insert_sorted lt x ys else x :: y :: ys

/-- The call `std::sort(first, last, lt)`: the result is a permutation ordered by `lt`; the
order it leaves between elements that `lt` does not separate is unspecified, the model keeps
their input order. -/
def std_sort {α : Type} (lt : α → α → Bool) : List α → List α
  | [] => []
  | x :: xs => insert_sorted lt x (std_sort lt xs)

/-- The constant `std::numeric_limits<float>::max()`. -/
def FLT_MAX : Int := 340282346638528859811704183484516925440

/-- The number of low-order bits that a `float` (IEEE 754 binary32, 24 significant bits) drops
from the natural number `n`: the least `e` with `n / 2 ^ e < 2 ^ 24`.  The first argument
bounds the recursion. -/
def float_shift : Nat → Nat → Nat
  | 0, _ => 0
  | fuel + 1, n => if n < 16777216 then 0 else float_shift fuel (n / 2) + 1

/-- The natural number `n` rounded to the nearest `float`, ties to the even significand. -/
def float_round_nat (n : Nat) : Nat :=
  let e := float_shift n n
  let q := n / 2 ^ e
  let r := n % 2 ^ e
  if 2 * r < 2 ^ e then q * 2 ^ e
  else if 2 * r = 2 ^ e ∧ q % 2 = 0 then q * 2 ^ e
  else (q + 1) * 2 ^ e

/-- The conversion of an integer to `float`, as in `float dist = pathDist(...)`.  The values
of type `float` that `pibt.cpp` computes are integers; they are kept as the integers they
denote.  Integers of magnitude below `2 ^ 24` are converted exactly, the others are rounded
to 24 significant bits (no value of `int`, and no sum the code forms, reaches the range in
which a `float` overflows). -/
def float_of_int (x : Int) : Int :=
  if -16777216 < x ∧ x < 16777216 then x
  else if 0 ≤ x then (float_round_nat x.toNat : Int)
  else - (float_round_nat (-x).toNat : Int)

/-- The sum of two integer-valued `float`s: the exact sum, rounded to a `float`. -/
def float_add (a b : Int) : Int := float_of_int (a + b)

/-- The four headings in the order the loops of `pibt.cpp` visit them. -/
def all_orientations : List Orientation :=
  [.X_PLUS, .X_MINUS, .Y_PLUS, .Y_MINUS]

/-- `PIBT::getMinDistToGoal`; the result is a `float`, each table entry is converted by
`float dist = pathDist(agent_id, node, current_dir)`. -/
def PIBT.getMinDistToGoal (E : Env) (agent_id node : Nat) (current_dir : Orientation) : Int :=
  all_orientations.foldl
    (fun min_dist _goal_dir =>
      min min_dist (float_of_int (E.pathDist agent_id node current_dir))) FLT_MAX

/-- `PIBT::getMinDistAllDirections`; the result is a `float`. -/
def PIBT.getMinDistAllDirections (E : Env) (agent_id node : Nat) : Int :=
  all_orientations.foldl
    (fun min_dist current_dir => min min_dist (PIBT.getMinDistToGoal E agent_id node current_dir))
    FLT_MAX

/-- The cost `d_v` that the comparator `compare` of `funcPIBT` computes for a candidate `v`:
the distance term followed by the turn penalty.  The variable `d_v` is a `float`, and the
additions `+ 1`, `+= 1`, `+= 2`, `+= 3` are additions of `float`s. -/
def PIBT.funcPIBT_d (E : Env) (s : PIBT) (ai v : Nat) : Outcome Int :=
  let a := s.agents ai
  (if v = a.v_now then
      (SAFE_VALUE a.ott_now).bind fun o =>
        .ok (float_add (PIBT.getMinDistToGoal E a.id v o) 1)
    else
      (Plan.getRelativePosition E.G a.v_now v).bind fun target_dir =>
        .ok (PIBT.getMinDistToGoal E a.id v target_dir)).bind fun d =>
  if v ≠ a.v_now then
    (Plan.getRelativePosition E.G a.v_now v).bind fun target_dir =>
    (SAFE_VALUE a.ott_now).bind fun o =>
      let angle_diff := Plan.getAngleDifference o target_dir
      .ok (if angle_diff = 0 then float_add d 1
           else if angle_diff = 90 then float_add d 2
           else if angle_diff = 180 then float_add d 3
           else d)
  else .ok d

/-- The comparator `compare` of `funcPIBT` on two candidates. -/
def PIBT.funcPIBT_compare (E : Env) (s : PIBT) (ai v u : Nat) : Outcome Bool :=
  (PIBT.funcPIBT_d E s ai v).bind fun d_v =>
  (PIBT.funcPIBT_d E s ai u).bind fun d_u =>
    .ok (if d_v ≠ d_u then decide (d_v < d_u)
         else if s.occupied_now v ≠ none ∧ s.occupied_now u = none then false
         else if s.occupied_now v = none ∧ s.occupied_now u ≠ none then true
         else false)

/-- Succeeds when every computation of the list does. -/
def all_ok {α : Type} : List (Outcome α) → Outcome Unit
  | [] => .ok ()
  | x :: xs => x.bind fun _ => all_ok xs

/-- The call `std::sort(C.begin(), C.end(), compare)` of `funcPIBT`.  With fewer than two
candidates no comparison is made; otherwise every candidate enters at least one comparison,
so the call stops exactly when the cost of some candidate does. -/
def PIBT.sort_candidates (E : Env) (s : PIBT) (ai : Nat) (C : List Nat) : Outcome (List Nat) :=
  if C.length < 2 then .ok C
  else (all_ok (C.map (PIBT.funcPIBT_d E s ai))).bind fun _ =>
    .ok (std_sort (fun v u =>
      match PIBT.funcPIBT_compare E s ai v u with
      | .ok b => b
      | _ => false) C)

/-- `PIBT::getPushCount`. -/
def PIBT.getPushCount (E : Env) (s : PIBT) (pushed_agent_id pusher_id : Nat) : Int :=
  if pushed_agent_id < E.num ∧ pusher_id < E.num then
    s.push_count_table pushed_agent_id pusher_id
  else 0

/-- `PIBT::updatePushCount`. -/
def PIBT.updatePushCount (E : Env) (s : PIBT) (pushed_agent_id pusher_id : Nat) : PIBT :=
  if pushed_agent_id < E.num ∧ pusher_id < E.num then
    s.setPushCount pushed_agent_id pusher_id (s.push_count_table pushed_agent_id pusher_id + 1)
  else s

/-- `PIBT::PushEscapeTrigger`: returns the candidate list and the new state. -/
def PIBT.PushEscapeTrigger (E : Env) (s : PIBT) (C : List Nat)
    (pushed_agent_id pusher_id : Nat) : List Nat × PIBT :=
  let push_time := PIBT.getPushCount E s pushed_agent_id pusher_id
  if push_time ≥ 2 ∧ C.length > 1 then
    let r := E.shuffle s.MT C
    (r.1, ({ s with MT := r.2 } : PIBT).setPushCount pushed_agent_id pusher_id 0)
  else (C, s)

/-- Assignment `a->v_next = x`. -/
def PIBT.set_v_next (s : PIBT) (a : Nat) (x : Option Nat) : PIBT :=
  s.setAgent a { s.agents a with v_next := x }

/-- Assignment `a->ott_next = x`. -/
def PIBT.set_ott_next (s : PIBT) (a : Nat) (x : Option Orientation) : PIBT :=
  s.setAgent a { s.agents a with ott_next := x }

/-- Assignment `a->ott_now = x`. -/
def PIBT.set_ott_now (s : PIBT) (a : Nat) (x : Option Orientation) : PIBT :=
  s.setAgent a { s.agents a with ott_now := x }

/-- Assignment `a->swap_completed = x`. -/
def PIBT.set_swap_completed (s : PIBT) (a : Nat) (x : Bool) : PIBT :=
  s.setAgent a { s.agents a with swap_completed := x }

/-- The inner `for` over the neighbours of `v_puller` in the loops of `is_swap_required` and
`is_swap_possible`: the count `n` and the variable `tmp` when it ends. -/
def PIBT.corridor_scan (E : Env) (s : PIBT) (v_pusher v_puller : Nat) (tmp : Option Nat) :
    Nat × Option Nat :=
  (E.G.neighbor v_puller).foldl
    (fun acc u =>
      if u = v_pusher ∨ ((E.G.neighbor u).length = 1 ∧
          (match s.occupied_now u with
            | some a => decide ((s.agents a).g = u)
            | none => false) = true) then (acc.1 - 1, acc.2)
      else (acc.1, some u))
    ((E.G.neighbor v_puller).length, tmp)

/-- The value returned below the `while` of `is_swap_required`. -/
def PIBT.is_swap_required_result (E : Env) (pusher puller v_pusher v_puller : Nat) : Bool :=
  decide (PIBT.getMinDistAllDirections E puller v_pusher <
          PIBT.getMinDistAllDirections E puller v_puller) &&
  (decide (PIBT.getMinDistAllDirections E pusher v_pusher = 0) ||
   decide (PIBT.getMinDistAllDirections E pusher v_puller <
           PIBT.getMinDistAllDirections E pusher v_pusher))

/-- The `while` loop of `is_swap_required` with the `return` that follows it. -/
def PIBT.is_swap_required_loop (E : Env) (s : PIBT) (pusher puller : Nat) :
    Nat → Nat → Nat → Option Nat → Outcome Bool
  | 0, _, _, _ => .starved
  | budget + 1, v_pusher, v_puller, tmp =>
    if PIBT.getMinDistAllDirections E pusher v_puller <
        PIBT.getMinDistAllDirections E pusher v_pusher then
      let r := PIBT.corridor_scan E s v_pusher v_puller tmp
      if r.1 ≥ 2 then .ok false
      else if r.1 ≤ 0 then .ok (PIBT.is_swap_required_result E pusher puller v_pusher v_puller)
      else match r.2 with
        | some t => PIBT.is_swap_required_loop E s pusher puller budget v_puller t (some t)
        | none => .halted
    else .ok (PIBT.is_swap_required_result E pusher puller v_pusher v_puller)

/-- `PIBT::is_swap_required`. -/
def PIBT.is_swap_required (E : Env) (s : PIBT) (pusher puller : Nat)
    (v_pusher_origin v_puller_origin : Nat) : Outcome Bool :=
  PIBT.is_swap_required_loop E s pusher puller (E.G.size + 1) v_pusher_origin v_puller_origin none

/-- The `while` loop of `is_swap_possible` with the `return` that follows it. -/
def PIBT.is_swap_possible_loop (E : Env) (s : PIBT) (v_pusher_origin : Nat) :
    Nat → Nat → Nat → Option Nat → Outcome Bool
  | 0, _, _, _ => .starved
  | budget + 1, v_pusher, v_puller, tmp =>
    if v_puller ≠ v_pusher_origin then
      let r := PIBT.corridor_scan E s v_pusher v_puller tmp
      if r.1 ≥ 2 then .ok true
      else if r.1 ≤ 0 then .ok false
      else match r.2 with
        | some t => PIBT.is_swap_possible_loop E s v_pusher_origin budget v_puller t (some t)
        | none => .halted
    else .ok false

/-- `PIBT::is_swap_possible`. -/
def PIBT.is_swap_possible (E : Env) (s : PIBT) (v_pusher_origin v_puller_origin : Nat) :
    Outcome Bool :=
  PIBT.is_swap_possible_loop E s v_pusher_origin (E.G.size + 1) v_pusher_origin v_puller_origin
    none

/-- The test of `swap_possible_and_required` on the occupant of the best candidate `C[0]`. -/
def PIBT.swap_first_test (E : Env) (s : PIBT) (ai c0 : Nat) : Outcome (Option Nat) :=
  match s.occupied_now c0 with
  | some aj =>
    if (s.agents aj).v_next = none then
      (PIBT.is_swap_required E s (s.agents ai).id (s.agents aj).id (s.agents ai).v_now
        (s.agents aj).v_now).bind fun required =>
        if required then
          (PIBT.is_swap_possible E s (s.agents aj).v_now (s.agents ai).v_now).bind fun possible =>
            .ok (if possible then some aj else none)
        else .ok none
    else .ok none
  | none => .ok none

/-- The `for` loop of `swap_possible_and_required` over the neighbours of `ai->v_now`. -/
def PIBT.swap_neighbor_scan (E : Env) (s : PIBT) (ai c0 : Nat) : List Nat → Outcome (Option Nat)
  | [] => .ok none
  | u :: us =>
    match s.occupied_now u with
    | none => PIBT.swap_neighbor_scan E s ai c0 us
    | some ak =>
      if c0 = (s.agents ak).v_now then PIBT.swap_neighbor_scan E s ai c0 us
      else
        (PIBT.is_swap_required E s (s.agents ak).id (s.agents ai).id (s.agents ai).v_now
          c0).bind fun required =>
          if required then
            (PIBT.is_swap_possible E s c0 (s.agents ai).v_now).bind fun possible =>
              if possible then .ok (some ak) else PIBT.swap_neighbor_scan E s ai c0 us
          else PIBT.swap_neighbor_scan E s ai c0 us

/-- `PIBT::swap_possible_and_required`. -/
def PIBT.swap_possible_and_required (E : Env) (s : PIBT) (ai : Nat) (C : List Nat) :
    Outcome (Option Nat) :=
  match C.head? with
  | none => .halted
  | some c0 =>
    if c0 = (s.agents ai).v_now then .ok none
    else
      (PIBT.swap_first_test E s ai c0).bind fun first =>
        match first with
        | some aj => .ok (some aj)
        | none => PIBT.swap_neighbor_scan E s ai c0 (E.G.neighbor (s.agents ai).v_now)

/-- The first loop of `handleCycleWithOrientation`: the vector `correct_orientations`. -/
def PIBT.chain_orientations (E : Env) (s : PIBT) : List Request → Outcome (List Bool)
  | [] => .ok []
  | r :: rs =>
    (Plan.getRelativePosition E.G (s.agents r.agent).v_now r.requested_node).bind
      fun target_orientation =>
        (PIBT.chain_orientations E s rs).bind fun bs =>
          .ok (decide ((s.agents r.agent).ott_now = some target_orientation) :: bs)

/-- The loop of `handleCycleWithOrientation` that adjusts the headings of a cycle whose agents
do not all face their requested node. -/
def PIBT.chain_adjust (E : Env) : List (Request × Bool) → PIBT → Outcome PIBT
  | [], s => .ok s
  | (r, correct) :: rs, s =>
    if ¬ correct then
      let s := if (s.agents r.agent).ott_now = none
        then s.set_ott_now r.agent (some .Y_MINUS) else s
      (SAFE_VALUE (s.agents r.agent).ott_now).bind fun o =>
      (Plan.computeAction E.G (s.agents r.agent).v_now r.requested_node o).bind fun act =>
        let s := s.set_v_next r.agent (some (s.agents r.agent).v_now)
        let s := s.set_ott_next r.agent (some act.2)
        let s := s.setOccupiedNext (s.agents r.agent).v_now (some r.agent)
        PIBT.chain_adjust E rs s
    else
      let s := s.set_v_next r.agent (some (s.agents r.agent).v_now)
      let s := s.set_ott_next r.agent (s.agents r.agent).ott_now
      let s := s.setOccupiedNext (s.agents r.agent).v_now (some r.agent)
      PIBT.chain_adjust E rs s

/-- The loop of `handleCycleWithOrientation` that moves every agent of the cycle forward. -/
def PIBT.chain_advance : List Request → PIBT → PIBT
  | [], s => s
  | r :: rs, s =>
    let s := s.set_v_next r.agent (some r.requested_node)
    let s := s.set_ott_next r.agent (s.agents r.agent).ott_now
    let s := s.setOccupiedNext r.requested_node (some r.agent)
    PIBT.chain_advance rs s

/-- `PIBT::handleCycleWithOrientation`. -/
def PIBT.handleCycleWithOrientation (E : Env) (s : PIBT) : Outcome PIBT :=
  if s.request_chain.isEmpty then .ok s
  else
    (PIBT.chain_orientations E s s.request_chain).bind fun correct_orientations =>
      let all_oriented_correctly := correct_orientations.all id
      if ¬ all_oriented_correctly then
        PIBT.chain_adjust E (s.request_chain.zip correct_orientations) s
      else .ok (PIBT.chain_advance s.request_chain s)

/-- The candidate list of `funcPIBT` as the `for` loop receives it, with the swap partner and
the state left by the shuffles: neighbours and own vertex, shuffled, sorted, passed through
`PushEscapeTrigger`, reversed when a swap partner exists, reserved node moved to the front. -/
def PIBT.candidates (E : Env) (s : PIBT) (ai : Nat) (aj : Option Nat) (is_initial : Bool) :
    Outcome (List Nat × Option Nat × PIBT) :=
  let C := E.G.neighbor (s.agents ai).v_now ++ [(s.agents ai).v_now]
  let r := E.shuffle s.MT C
  let s : PIBT := { s with MT := r.2 }
  (PIBT.sort_candidates E s ai r.1).bind fun C =>
    let e : List Nat × PIBT :=
      match aj with
      | some j =>
        if ¬ is_initial then PIBT.PushEscapeTrigger E s C (s.agents ai).id (s.agents j).id
        else (C, s)
      | none => (C, s)
    let C := e.1
    let s := e.2
    (PIBT.swap_possible_and_required E s ai C).bind fun swap_agent =>
      let C := if swap_agent ≠ none then C.reverse else C
      let C :=
        match s.reserved_nodes (s.agents ai).id with
        | some reserved => if reserved ∈ C then reserved :: C.erase reserved else C
        | none => C
      .ok (C, swap_agent, s)

/-- The assignments of `funcPIBT` that follow `computeAction` for the agent itself: a
rotation in place, or the forward move. -/
def PIBT.own_action (E : Env) (s : PIBT) (ai : Nat) (aj : Option Nat) (is_initial : Bool)
    (u next_node : Nat) (next_orientation : Orientation) : PIBT :=
  if next_node = (s.agents ai).v_now then
    let s := s.set_v_next ai (some (s.agents ai).v_now)
    let s := s.setOccupiedNext u none
    let s := s.setOccupiedNext (s.agents ai).v_now (some ai)
    let s := s.set_ott_next ai (some next_orientation)
    let s := if (s.agents ai).swap_completed then s.setReserved (s.agents ai).id none else s
    if some next_orientation ≠ (s.agents ai).ott_now then
      s.setReserved (s.agents ai).id (some u)
    else s
  else
    let s := s.set_v_next ai (some next_node)
    let s := s.set_ott_next ai (some next_orientation)
    let s := s.setOccupiedNext next_node (some ai)
    let s := s.setReserved (s.agents ai).id none
    match aj with
    | some j =>
      if ¬ is_initial ∧ some (s.agents ai).v_now ≠ (s.agents ai).v_next then
        PIBT.updatePushCount E s (s.agents ai).id (s.agents j).id
      else s
    | none => s

/-- The rule of `funcPIBT` for a candidate whose occupant stays: the agent stays as well. -/
def PIBT.blocker_rule (s : PIBT) (ai u next_node : Nat) : PIBT :=
  match s.occupied_now u with
  | some al =>
    if (s.agents al).v_next = some (s.agents al).v_now then
      if next_node ≠ (s.agents ai).v_now then
        let s := s.setOccupiedNext (s.agents ai).v_now (some ai)
        let s := s.set_v_next ai (some (s.agents ai).v_now)
        let s := s.set_ott_next ai (s.agents ai).ott_now
        s.setReserved (s.agents ai).id (some u)
      else s
    else s
  | none => s

/-- The assignments of the swap block of `funcPIBT` when the swap partner `sa` has to turn
(or already stands on the agent's vertex): the partner stays on its vertex. -/
def PIBT.partner_turn (s : PIBT) (ai sa : Nat) (next_orientation : Orientation) : PIBT :=
  let s := s.setOccupiedNext (s.agents ai).v_now none
  let s := s.set_v_next sa (some (s.agents sa).v_now)
  let s := s.setOccupiedNext (s.agents sa).v_now (some sa)
  let s := s.set_ott_next sa (some next_orientation)
  let s := s.setReserved (s.agents sa).id none
  if some next_orientation ≠ (s.agents sa).ott_now then
    s.setReserved (s.agents sa).id (some (s.agents ai).v_now)
  else s

/-- The assignments of the swap block of `funcPIBT` when the swap partner `sa` can move
forward. -/
def PIBT.partner_forward (s : PIBT) (sa next_node : Nat) (next_orientation : Orientation) :
    PIBT :=
  let s := s.set_v_next sa (some next_node)
  let s := s.set_ott_next sa (some next_orientation)
  let s := s.setOccupiedNext next_node (some sa)
  let s := s.setReserved (s.agents sa).id none
  s.set_swap_completed sa true

/-- The assignments of the swap block of `funcPIBT` that withdraw the forward move of the swap
partner `sa` because the agent `ai` stays. -/
def PIBT.partner_hold (s : PIBT) (ai sa : Nat) : PIBT :=
  let s := s.setOccupiedNext (s.agents sa).v_now (some sa)
  let s := s.set_v_next sa (some (s.agents sa).v_now)
  let s := s.set_ott_next sa (s.agents sa).ott_now
  s.setReserved (s.agents sa).id (some (s.agents ai).v_now)

/-- The first assignments of the swap block of `funcPIBT`: the swap partner `sa` requests
the vertex of the agent `ai`. -/
def PIBT.partner_request (s : PIBT) (ai sa : Nat) : PIBT :=
  let s := s.set_swap_completed sa false
  let s := s.set_v_next sa (some (s.agents ai).v_now)
  s.setOccupiedNext (s.agents ai).v_now (some sa)

/-- The block of `funcPIBT` that computes the action of the other agent involved in a swap. -/
def PIBT.swap_partner_action (E : Env) (s : PIBT) (ai : Nat) (swap_agent : Option Nat)
    (m : Int) : Outcome PIBT :=
  match swap_agent with
  | none => .ok s
  | some sa =>
    if m = 0 ∧ (s.agents sa).v_next = none ∧
        (s.occupied_next (s.agents ai).v_now = none ∨
         s.occupied_next (s.agents ai).v_now = some ai) then
      let s := PIBT.partner_request s ai sa
      (SAFE_VALUE (s.agents sa).ott_now).bind fun o =>
      (Plan.computeAction E.G (s.agents sa).v_now (s.agents ai).v_now o).bind fun act =>
        let s :=
          if act.1 = (s.agents sa).v_now then PIBT.partner_turn s ai sa act.2
          else PIBT.partner_forward s sa act.1 act.2
        if (s.agents ai).v_next = some (s.agents ai).v_now then
          if act.1 ≠ (s.agents sa).v_now then .ok (PIBT.partner_hold s ai sa)
          else .ok s
        else .ok s
    else .ok s

/-- The part of the loop body of `funcPIBT` below the inherited call: the test of
`cycle_handled`, the agent's own action, the blocker rule and the swap partner's action. -/
def PIBT.decide_action (E : Env) (s : PIBT) (ai : Nat) (aj : Option Nat) (is_initial : Bool)
    (swap_agent : Option Nat) (u : Nat) (m : Int) : Outcome (Bool × PIBT) :=
  if s.cycle_handled then .ok (true, s)
  else
    (SAFE_VALUE (s.agents ai).ott_now).bind fun o =>
    (Plan.computeAction E.G (s.agents ai).v_now u o).bind fun act =>
      let s := PIBT.own_action E s ai aj is_initial u act.1 act.2
      let s := PIBT.blocker_rule s ai u act.1
      (PIBT.swap_partner_action E s ai swap_agent m).bind fun s => .ok (true, s)

/-- The assignments of `funcPIBT` below its loop: no node was secured, the agent stays. -/
def PIBT.fail_stay (s : PIBT) (ai : Nat) : PIBT :=
  let s := s.setOccupiedNext (s.agents ai).v_now (some ai)
  let s := s.set_v_next ai (some (s.agents ai).v_now)
  s.set_ott_next ai (s.agents ai).ott_now

/-- The test `!is_initial && u == initial_requester->v_now`. -/
def PIBT.cycle_test (s : PIBT) (is_initial : Bool) (u : Nat) : Outcome Bool :=
  if is_initial then .ok false
  else match s.initial_requester with
    | some r => .ok (decide (u = (s.agents r).v_now))
    | none => .halted

/-- The loop `for (auto u : C)` of `funcPIBT` with the code below it; `call` is `funcPIBT`
itself, `m` the counter of rejected candidates. -/
def PIBT.candidate_loop (E : Env)
    (call : PIBT → Nat → Option Nat → Bool → Outcome (Bool × PIBT))
    (ai : Nat) (aj : Option Nat) (is_initial : Bool) (swap_agent : Option Nat) :
    List Nat → Int → PIBT → Outcome (Bool × PIBT)
  | [], _, s => .ok (false, PIBT.fail_stay s ai)
  | u :: C, m, s =>
    if s.occupied_next u ≠ none then
      PIBT.candidate_loop E call ai aj is_initial swap_agent C (m + 1) s
    else if (match aj with
        | some j => decide (u = (s.agents j).v_now)
        | none => false) = true then
      PIBT.candidate_loop E call ai aj is_initial swap_agent C (m + 1) s
    else
      let s := s.setOccupiedNext u (some ai)
      let s := s.set_v_next ai (some u)
      (PIBT.cycle_test s is_initial u).bind fun cycle =>
        if cycle then
          if (s.agents ai).ott_now = none then .halted
          else
            let s : PIBT := { s with request_chain := s.request_chain ++ [⟨ai, u⟩] }
            (PIBT.handleCycleWithOrientation E s).bind fun s =>
              .ok (true, { s with cycle_handled := true })
        else
          match s.occupied_now u with
          | some ak =>
            if (s.agents ak).v_next = none then
              let s : PIBT := { s with request_chain := s.request_chain ++ [⟨ai, u⟩] }
              (call s ak (some ai) false).bind fun r =>
                if r.1 then PIBT.decide_action E r.2 ai aj is_initial swap_agent u m
                else
                  let s := r.2
                  let s : PIBT := { s with request_chain := s.request_chain.dropLast }
                  let s := s.setOccupiedNext u none
                  let s := s.set_v_next ai none
                  PIBT.candidate_loop E call ai aj is_initial swap_agent C (m + 1) s
            else PIBT.decide_action E s ai aj is_initial swap_agent u m
          | none => PIBT.decide_action E s ai aj is_initial swap_agent u m

/-- `PIBT::funcPIBT`; the first argument bounds the depth of the recursion. -/
def PIBT.funcPIBT (E : Env) : Nat → PIBT → Nat → Option Nat → Bool → Outcome (Bool × PIBT)
  | 0, _, _, _, _ => .starved
  | depth + 1, s, ai, aj, is_initial =>
    let s : PIBT :=
      if is_initial then
        { s with request_chain := [], cycle_handled := false, initial_requester := some ai }
      else s
    (PIBT.candidates E s ai aj is_initial).bind fun c =>
      PIBT.candidate_loop E (PIBT.funcPIBT E depth) ai aj is_initial c.2.1 c.1 0 c.2.2

/-- The record found at an agent index before `run` has allocated an agent there. -/
def Agent.unallocated : Agent :=
  { id := 0, v_now := 0, v_next := none, g := 0, ott_now := none, ott_next := none,
    elapsed := 0, init_d := 0, tie_breaker := 0, swap_completed := false }

/-- The solver as the constructor `PIBT::PIBT` leaves it. -/
def PIBT.create (E : Env) : PIBT :=
  { agents := fun _ => Agent.unallocated
    A := []
    occupied_now := fun _ => none
    occupied_next := fun _ => none
    reserved_nodes := fun _ => none
    push_count_table := fun _ _ => 0
    request_chain := []
    cycle_detected := false
    cycle_handled := false
    initial_requester := none
    MT := E.seed
    solution := { configs := [], orientations := [] }
    solved := false }

/-- One iteration of the initialisation loop of `run`: agent `i` is created. -/
def PIBT.init_agent (E : Env) (s : PIBT) (i : Nat) : PIBT :=
  let st := E.start i
  let g := E.goal i
  let d : Int := if E.disable_dist_init then 0 else E.pathDist i st .Y_MINUS
  let r := E.getRandomFloat s.MT
  let s : PIBT := { s with MT := r.2 }
  let a : Agent :=
    { id := i, v_now := st, v_next := none, g := g, ott_now := some .Y_MINUS, ott_next := none,
      elapsed := 0, init_d := d, tie_breaker := r.1, swap_completed := true }
  let s := s.setAgent i a
  let s : PIBT := { s with A := s.A ++ [i] }
  s.setOccupiedNow st (some i)

/-- The part of `run` above its main loop: the agents are created and the start configuration
is emitted. -/
def PIBT.run_init (E : Env) : Outcome PIBT :=
  let s := (List.range E.num).foldl (PIBT.init_agent E) (PIBT.create E)
  let initial_config : Config := (List.range E.num).map fun i => some (E.start i)
  let initial_orients := List.replicate E.num Orientation.Y_MINUS
  (s.solution.addWithOrientation initial_config initial_orients).bind fun p =>
    .ok { s with solution := p }

/-- The planning loop of `run`: `funcPIBT` for every agent without a next location. -/
def PIBT.plan_agents (E : Env) : List Nat → PIBT → Outcome PIBT
  | [], s => .ok s
  | a :: rest, s =>
    if (s.agents a).v_next = none then
      (PIBT.funcPIBT E (E.num + 1) s a none true).bind fun r => PIBT.plan_agents E rest r.2
    else PIBT.plan_agents E rest s

/-- The variables that the commit loop of `run` updates besides the solver. -/
structure Commit where
  config : Config
  orients : List Orientation
  check_goal_cond : Bool

/-- One iteration of the commit loop of `run`. -/
def PIBT.commit_agent (s : PIBT) (c : Commit) (a : Nat) : Outcome (PIBT × Commit) :=
  let s := if s.occupied_now (s.agents a).v_now = some a
    then s.setOccupiedNow (s.agents a).v_now none else s
  match (s.agents a).v_next with
  | none => .halted
  | some v_next =>
    let s := s.setOccupiedNext v_next none
    let config := c.config.set (s.agents a).id (some v_next)
    (SAFE_VALUE (s.agents a).ott_next).bind fun o =>
      let orients := c.orients.set (s.agents a).id o
      let s := s.setOccupiedNow v_next (some a)
      let check_goal_cond := c.check_goal_cond && decide (v_next = (s.agents a).g)
      let s := s.setAgent a { s.agents a with
        elapsed := if v_next = (s.agents a).g then 0 else (s.agents a).elapsed + 1 }
      let s := s.setAgent a { s.agents a with v_now := v_next }
      let s := s.set_v_next a none
      let s := s.set_ott_now a (s.agents a).ott_next
      let s := s.set_ott_next a none
      .ok (s, { config := config, orients := orients, check_goal_cond := check_goal_cond })

/-- The commit loop of `run`. -/
def PIBT.commit_agents : List Nat → PIBT → Commit → Outcome (PIBT × Commit)
  | [], s, c => .ok (s, c)
  | a :: rest, s, c => (PIBT.commit_agent s c a).bind fun r => PIBT.commit_agents rest r.1 r.2

/-- One iteration of the main loop of `run` up to the update of the plan: the agents are
sorted and planned, the next configuration is committed and emitted.  Returns the solver and
`check_goal_cond`. -/
def PIBT.timestep (E : Env) (s : PIBT) : Outcome (PIBT × Bool) :=
  let s : PIBT :=
    { s with A := std_sort (fun a b => PIBT.run_compare (s.agents a) (s.agents b)) s.A }
  (PIBT.plan_agents E s.A s).bind fun s =>
    let c : Commit :=
      { config := List.replicate E.num none
        orients := List.replicate E.num Orientation.X_PLUS
        check_goal_cond := true }
    (PIBT.commit_agents s.A s c).bind fun r =>
      (r.1.solution.addWithOrientation r.2.config r.2.orients).bind fun p =>
        .ok ({ r.1 with solution := p }, r.2.check_goal_cond)

/-- The main loop of `run`; `timestep` is the counter of the source, the first argument
bounds the number of iterations. -/
def PIBT.run_loop (E : Env) : Nat → PIBT → Int → Outcome PIBT
  | 0, _, _ => .starved
  | budget + 1, s, timestep =>
    (PIBT.timestep E s).bind fun r =>
      let timestep := timestep + 1
      if r.2 then .ok { r.1 with solved := true }
      else if timestep ≥ E.max_timestep ∨ E.overCompTime timestep = true then .ok r.1
      else PIBT.run_loop E budget r.1 timestep

/-- `PIBT::run`. -/
def PIBT.run (E : Env) : Outcome PIBT :=
  (PIBT.run_init E).bind fun s =>
    (PIBT.run_loop E (E.max_timestep.toNat + 1) s 0).bind fun s =>
      .ok { s with A := [] }

/-- The solver after the initialisation of `run` and `t` iterations of its main loop. -/
def PIBT.after (E : Env) : Nat → Outcome PIBT
  | 0 => PIBT.run_init E
  | t + 1 => (PIBT.after E t).bind fun s => (PIBT.timestep E s).bind fun r => .ok r.1

/-- What `run` hands to its caller: the plan and the flag `solved`. -/
def PIBT.run_result (E : Env) : Outcome (Plan × Bool) :=
  (PIBT.run E).bind fun s => .ok (s.solution, s.solved)

/-! ## Concrete instances -/

/-- A corridor of two vertices `v0 = (0, 0)` and `v1 = (1, 0)` joined by one edge. -/
def corridor2 : Graph :=
  { size := 2
    neighbor := fun v => if v = 0 then [1] else if v = 1 then [0] else []
    pos_x := fun v => v
    pos_y := fun _ => 0 }

/-- The number of elementary actions (quarter turns and forward steps) that take an agent at
vertex `v` of `corridor2` with heading `h` to the vertex `goal`. -/
def corridor2_dist (goal v : Nat) (h : Orientation) : Int :=
  if v = goal then 0
  else 1 + Plan.getAngleDifference h (if goal = 1 then .X_PLUS else .X_MINUS) / 90

/-- Two agents on `corridor2` whose goals are each other's start: agent `0` from `v0` to
`v1`, agent `1` from `v1` to `v0`.  The shuffle is the identity, the wall clock never runs
out. -/
def swap_env (max_timestep : Int) : Env :=
  { G := corridor2
    num := 2
    start := fun i => i
    goal := fun i => 1 - i
    max_timestep := max_timestep
    disable_dist_init := false
    pathDist := fun i v h => corridor2_dist (1 - i) v h
    shuffle := fun mt l => (l, mt)
    getRandomFloat := fun mt => (1 / ((mt : Rat) + 2), mt + 1)
    seed := 0
    overCompTime := fun _ => false }

/-- A corridor of three vertices `v0 = (0, 0)`, `v1 = (1, 0)`, `v2 = (2, 0)`. -/
def corridor3 : Graph :=
  { size := 3
    neighbor := fun v => if v = 0 then [1] else if v = 1 then [0, 2] else if v = 2 then [1] else []
    pos_x := fun v => v
    pos_y := fun _ => 0 }

/-- The number of elementary actions that take an agent at vertex `v` of `corridor3` with
heading `h` to the vertex `goal`. -/
def corridor3_dist (goal v : Nat) (h : Orientation) : Int :=
  if v = goal then 0
  else ((Int.natAbs ((goal : Int) - v) : Nat) : Int) +
    Plan.getAngleDifference h (if v < goal then .X_PLUS else .X_MINUS) / 90

/-- Two agents on `corridor3` that both go one vertex to the right: agent `0` from `v0` to
`v1`, agent `1` from `v1` to `v2`. -/
def follow_env (max_timestep : Int) : Env :=
  { G := corridor3
    num := 2
    start := fun i => i
    goal := fun i => i + 1
    max_timestep := max_timestep
    disable_dist_init := false
    pathDist := fun i v h => corridor3_dist (i + 1) v h
    shuffle := fun mt l => (l, mt)
    getRandomFloat := fun mt => (1 / ((mt : Rat) + 2), mt + 1)
    seed := 0
    overCompTime := fun _ => false }

/-- The plan that `run` returns on `follow_env`: both agents turn, then both move. -/
def follow_plan : Plan :=
  { configs := [[some 0, some 1], [some 0, some 1], [some 1, some 2]]
    orientations := [[.Y_MINUS, .Y_MINUS], [.X_PLUS, .X_PLUS], [.X_PLUS, .X_PLUS]] }

/-- The plan that `run` returns on `swap_env` with `max_timestep = 3`: nobody moves. -/
def swap_plan : Plan :=
  { configs := [[some 0, some 1], [some 0, some 1], [some 0, some 1], [some 0, some 1]]
    orientations := [[.Y_MINUS, .Y_MINUS], [.Y_MINUS, .Y_MINUS], [.Y_MINUS, .Y_MINUS],
      [.Y_MINUS, .Y_MINUS]] }

/-! ## Predicates of the invariants of `funcPIBT` and `run` -/

/-- The agent has a next location but no next heading yet: its next location is a
reservation that `funcPIBT` may still withdraw. -/
def PIBT.tentative (s : PIBT) (a : Nat) : Prop :=
  (s.agents a).v_next ≠ none ∧ (s.agents a).ott_next = none

/-- The agent has its next heading: its action for the timestep is determined. -/
def PIBT.decided (s : PIBT) (a : Nat) : Prop :=
  (s.agents a).ott_next ≠ none

/-- The two records agree on every field that planning does not write. -/
def Agent.static_eq (a b : Agent) : Prop :=
  a.id = b.id ∧ a.v_now = b.v_now ∧ a.g = b.g ∧ a.ott_now = b.ott_now ∧
    a.elapsed = b.elapsed ∧ a.init_d = b.init_d ∧ a.tie_breaker = b.tie_breaker

/-- What planning leaves unchanged between two states of the solver. -/
structure PIBT.Frame (s s' : PIBT) : Prop where
  agents : ∀ a, Agent.static_eq (s'.agents a) (s.agents a)
  occupied_now : s'.occupied_now = s.occupied_now
  order : s'.A = s.A
  solution : s'.solution = s.solution
  solved : s'.solved = s.solved

/-- The facts about the `n` agents that hold throughout `run`: the ids are the indices, every
agent has a heading, and `occupied_now` is the inverse of the positions. -/
structure PIBT.Base (n : Nat) (s : PIBT) : Prop where
  id_eq : ∀ a, a < n → (s.agents a).id = a
  ott_now : ∀ a, a < n → (s.agents a).ott_now ≠ none
  occ_now : ∀ x a, s.occupied_now x = some a ↔ a < n ∧ (s.agents a).v_now = x

/-- The invariant of the planning phase of a timestep.
* `d1`: a decided agent stays, or moves along the edge it faces and keeps its heading;
* `d2`: a decided agent that moves holds the reservation of its target;
* `d3`: the occupant of the target of a decided mover is decided, leaves its vertex and does
  not take the mover's vertex;
* `t1`: the occupant of the target of a tentative agent does not take that agent's vertex;
* `t2`: a tentative agent holds the reservation of its target, unless the occupant of the
  target has been decided to stay. -/
structure PIBT.Inv (G : Graph) (n : Nat) (s : PIBT) : Prop where
  d1 : ∀ a, a < n → ∀ o, (s.agents a).ott_next = some o →
    ∃ w, (s.agents a).v_next = some w ∧ (w = (s.agents a).v_now ∨
      ((s.agents a).ott_now = some o ∧
        Plan.getRelativePosition G (s.agents a).v_now w = .ok o))
  d2 : ∀ a, a < n → s.decided a → ∀ w, (s.agents a).v_next = some w →
    w ≠ (s.agents a).v_now → s.occupied_next w = some a
  d3 : ∀ a, a < n → s.decided a → ∀ w, (s.agents a).v_next = some w →
    w ≠ (s.agents a).v_now → ∀ b, b < n → (s.agents b).v_now = w →
      s.decided b ∧ (s.agents b).v_next ≠ some w ∧
        (s.agents b).v_next ≠ some (s.agents a).v_now
  t1 : ∀ a, a < n → s.tentative a → ∀ u, (s.agents a).v_next = some u →
    ∀ b, b < n → (s.agents b).v_now = u → b ≠ a →
      (s.agents b).v_next ≠ some (s.agents a).v_now
  t2 : ∀ a, a < n → s.tentative a → ∀ u, (s.agents a).v_next = some u →
    s.occupied_next u = some a ∨
      ∃ b, b < n ∧ (s.agents b).v_now = u ∧ s.decided b ∧ (s.agents b).v_next = some u

/-- The relation between the state `s` in which `funcPIBT` works on agent `ai` and a later
state `s'` of the same call: the frame is kept, the tentative agents other than `ai` are the
same with the same records, and a decided agent stays decided. -/
structure PIBT.Ext (n : Nat) (s s' : PIBT) (ai : Nat) : Prop where
  frame : s.Frame s'
  requester : s'.initial_requester = s.initial_requester
  kept : ∀ a, a < n → a ≠ ai → s.tentative a → s'.agents a = s.agents a
  no_new : ∀ a, a < n → a ≠ ai → s'.tentative a → s.tentative a
  mono : ∀ a, a < n → s.decided a → s'.decided a

/-- The weaker relation that holds across a call that handled a cycle: the frame is kept and
an agent with a next location keeps one. -/
structure PIBT.Ext0 (n : Nat) (s s' : PIBT) : Prop where
  frame : s.Frame s'
  planned : ∀ a, a < n → (s.agents a).v_next ≠ none → (s'.agents a).v_next ≠ none

/-- The state in which `funcPIBT` has determined the action of agent `ai`, pushed by `aj`,
without handling a cycle. -/
structure PIBT.Final (G : Graph) (n : Nat) (s : PIBT) (ai : Nat) (aj : Option Nat) : Prop where
  inv : s.Inv G n
  not_handled : s.cycle_handled = false
  decided : s.decided ai
  avoids : ∀ j, aj = some j → (s.agents ai).v_next ≠ some (s.agents j).v_now
  holds : ∀ a, a < n → a ≠ ai → s.tentative a → aj ≠ some a →
    ∀ u, (s.agents a).v_next = some u → s.occupied_next u = some a
  parent : ∀ j, aj = some j →
    s.occupied_next (s.agents ai).v_now = some j ∨
      (s.agents ai).v_next = some (s.agents ai).v_now
  pusher : ∀ j, aj = some j → j < n ∧ j ≠ ai ∧ s.tentative j ∧
    (s.agents j).v_next = some (s.agents ai).v_now
  alone : aj = none → ∀ a, a < n → ¬ s.tentative a
  planned : ∀ a, a < n → s.tentative a → ∀ b, b < n →
    (s.agents a).v_next = some (s.agents b).v_now → (s.agents b).v_next ≠ none

/-- The state in which a call of `funcPIBT` has handled a cycle: no reservation is pending. -/
structure PIBT.FinalC (G : Graph) (n : Nat) (s : PIBT) : Prop where
  inv : s.Inv G n
  handled : s.cycle_handled = true
  none_tentative : ∀ a, a < n → ¬ s.tentative a

/-- The states at the head of the candidate loop of `funcPIBT` for agent `ai`: the agent has
no next location, the request chain lists the tentative agents, each of which holds the
reservation of its target, a vertex other than its own and occupied by a tentative agent or
by `ai`. -/
structure PIBT.Ready (G : Graph) (n : Nat) (s : PIBT) (ai : Nat) (aj : Option Nat)
    (is_initial : Bool) : Prop where
  base : s.Base n
  inv : s.Inv G n
  ai_lt : ai < n
  unplanned : (s.agents ai).v_next = none
  not_handled : s.cycle_handled = false
  chain_sound : ∀ r, r ∈ s.request_chain →
    r.agent < n ∧ s.tentative r.agent ∧ (s.agents r.agent).v_next = some r.requested_node
  chain_complete : ∀ a, a < n → s.tentative a → ∃ r, r ∈ s.request_chain ∧ r.agent = a
  holds : ∀ a, a < n → s.tentative a → ∀ u, (s.agents a).v_next = some u →
    s.occupied_next u = some a
  leaves : ∀ a, a < n → s.tentative a → (s.agents a).v_next ≠ some (s.agents a).v_now
  occupant : ∀ a, a < n → s.tentative a → ∀ b, b < n →
    (s.agents a).v_next = some (s.agents b).v_now → s.tentative b ∨ b = ai
  top : is_initial = true →
    aj = none ∧ s.initial_requester = some ai ∧ ∀ a, a < n → ¬ s.tentative a
  nested : is_initial = false →
    ∃ j r, aj = some j ∧ j < n ∧ s.tentative j ∧
      (s.agents j).v_next = some (s.agents ai).v_now ∧
      s.initial_requester = some r ∧ r < n ∧ s.tentative r ∧
      ∀ t, t < n → s.tentative t → t ≠ r →
        ∃ p, p < n ∧ s.tentative p ∧ (s.agents p).v_next = some (s.agents t).v_now

/-- The states in which `funcPIBT` determines the action of agent `ai` for its candidate `u`,
which it has reserved: the occupant of `u`, if any, is `ai` or a decided agent. -/
structure PIBT.Deciding (G : Graph) (n : Nat) (s : PIBT) (ai u : Nat) (aj : Option Nat) :
    Prop where
  base : s.Base n
  inv : s.Inv G n
  ai_lt : ai < n
  tent : s.tentative ai
  target : (s.agents ai).v_next = some u
  occupant : ∀ b, b < n → (s.agents b).v_now = u →
    b = ai ∨ (s.decided b ∧ (s.agents b).v_next ≠ some (s.agents ai).v_now)
  reservation : s.occupied_next u = some ai ∨
    ∃ b, b < n ∧ (s.agents b).v_now = u ∧ s.decided b ∧ (s.agents b).v_next = some u
  holds : ∀ a, a < n → s.tentative a → a ≠ ai → ∀ w, (s.agents a).v_next = some w →
    s.occupied_next w = some a
  exclusive : ∀ a, a < n → s.tentative a → a ≠ ai → (s.agents a).v_next ≠ some u
  pusher : ∀ j, aj = some j → j < n ∧ j ≠ ai ∧ s.tentative j ∧
    (s.agents j).v_next = some (s.agents ai).v_now ∧ u ≠ (s.agents j).v_now
  alone : aj = none → ∀ a, a < n → s.tentative a → a = ai
  planned : ∀ a, a < n → s.tentative a → ∀ b, b < n →
    (s.agents a).v_next = some (s.agents b).v_now → (s.agents b).v_next ≠ none

/-- The states in which `funcPIBT` calls the cycle handler: every tentative agent is listed
in the request chain, holds the reservation of its target, and the target is the vertex of
another tentative agent. -/
structure PIBT.Cyclic (G : Graph) (n : Nat) (s : PIBT) : Prop where
  base : s.Base n
  inv : s.Inv G n
  chain_sound : ∀ r, r ∈ s.request_chain →
    r.agent < n ∧ s.tentative r.agent ∧ (s.agents r.agent).v_next = some r.requested_node
  chain_complete : ∀ a, a < n → s.tentative a → ∃ r, r ∈ s.request_chain ∧ r.agent = a
  holds : ∀ a, a < n → s.tentative a → ∀ u, (s.agents a).v_next = some u →
    s.occupied_next u = some a
  leaves : ∀ a, a < n → s.tentative a → (s.agents a).v_next ≠ some (s.agents a).v_now
  occupant : ∀ a, a < n → s.tentative a → ∀ b, b < n →
    (s.agents a).v_next = some (s.agents b).v_now → s.tentative b

/-- What a call of `funcPIBT` for agent `ai` establishes when it returns `r` from the state
`s`: either the action of `ai` is determined and the pending reservations are as before
(after a failure the agent stays and the request chain is as before), or a cycle was handled
and no reservation is pending. -/
def PIBT.Post (G : Graph) (n : Nat) (s : PIBT) (ai : Nat) (aj : Option Nat)
    (r : Bool × PIBT) : Prop :=
  (s.Ext n r.2 ai ∧ r.2.Final G n ai aj ∧
    (r.1 = false → r.2.request_chain = s.request_chain ∧
      (r.2.agents ai).v_next = some (s.agents ai).v_now)) ∨
  (r.1 = true ∧ s.Ext0 n r.2 ∧ r.2.FinalC G n ∧ r.2.decided ai)

/-- What a block of `funcPIBT` that writes the record of one agent `x` and `occupied_next`
leaves unchanged. -/
structure PIBT.Touch (s s' : PIBT) (x : Nat) : Prop where
  frame : s.Frame s'
  handled : s'.cycle_handled = s.cycle_handled
  requester : s'.initial_requester = s.initial_requester
  chain : s'.request_chain = s.request_chain
  others : ∀ a, a ≠ x → s'.agents a = s.agents a

/-- The state `s1` is the state `s` after agent `ai` has reserved the candidate `u`. -/
structure PIBT.Reserved (s s1 : PIBT) (ai u : Nat) : Prop where
  frame : s.Frame s1
  handled : s1.cycle_handled = s.cycle_handled
  requester : s1.initial_requester = s.initial_requester
  others : ∀ a, a ≠ ai → s1.agents a = s.agents a
  target : (s1.agents ai).v_next = some u
  heading : (s1.agents ai).ott_next = (s.agents ai).ott_next
  owner : s1.occupied_next u = some ai
  rest : ∀ w, w ≠ u → s1.occupied_next w = s.occupied_next w

/-- The states between two calls of `funcPIBT` by `run`: no reservation is pending. -/
structure PIBT.Top (G : Graph) (n : Nat) (s : PIBT) : Prop where
  base : s.Base n
  inv : s.Inv G n
  none_tentative : ∀ a, a < n → ¬ s.tentative a

/-- The record of an agent is consistent: if it has a next heading, it has a next location,
and it stays or moves along the edge it faces, keeping its heading. -/
def Agent.legal (G : Graph) (x : Agent) : Prop :=
  ∀ o, x.ott_next = some o → ∃ w, x.v_next = some w ∧
    (w = x.v_now ∨ (x.ott_now = some o ∧ Plan.getRelativePosition G x.v_now w = .ok o))

/-- The relation between two states of one planning phase that needs no assumption on the
positions: the frame is kept and every record that was written is consistent. -/
structure PIBT.Step (G : Graph) (s s' : PIBT) : Prop where
  frame : s.Frame s'
  agents : ∀ a, s'.agents a = s.agents a ∨ (s'.agents a).legal G

/-- The part of the planning invariant that needs no assumption on the positions. -/
structure PIBT.Weak (G : Graph) (n : Nat) (s : PIBT) : Prop where
  id_eq : ∀ a, a < n → (s.agents a).id = a
  ott_now : ∀ a, a < n → (s.agents a).ott_now ≠ none
  occ_lt : ∀ x a, s.occupied_now x = some a → a < n
  chain_lt : ∀ r, r ∈ s.request_chain → r.agent < n
  legal : ∀ a, (s.agents a).legal G

/-- What a call of `funcPIBT` establishes without any assumption on the positions; a call
that fails leaves the records with a next location as they were. -/
def PIBT.WPost (G : Graph) (n : Nat) (s : PIBT) (r : Bool × PIBT) : Prop :=
  s.Step G r.2 ∧ r.2.Weak G n ∧
    (r.1 = false → ∀ x, (s.agents x).v_next ≠ none → r.2.agents x = s.agents x)

/-- The record of an agent after the commit loop of `run` has moved it to `w`. -/
def Agent.commit (x : Agent) (w : Nat) : Agent :=
  { x with
    elapsed := if w = x.g then 0 else x.elapsed + 1
    v_now := w
    v_next := none
    ott_now := x.ott_next
    ott_next := none }

/-- The invariant of the commit loop of `run`, started in the state `s0`: `D` is the set of
the agents already committed. -/
structure PIBT.Committing (n : Nat) (s0 : PIBT) (D : Nat → Prop) (s : PIBT) (c : Commit) :
    Prop where
  agents_done : ∀ a, D a → ∃ w, (s0.agents a).v_next = some w ∧
    (s0.agents a).ott_next ≠ none ∧ s.agents a = (s0.agents a).commit w
  agents_rest : ∀ a, ¬ D a → s.agents a = s0.agents a
  config_len : c.config.length = n
  orients_len : c.orients.length = n
  config : ∀ a, D a → a < n → c.config[a]? = some (s0.agents a).v_next
  orients : ∀ a, D a → a < n → c.orients[a]? = (s0.agents a).ott_next
  goal : c.check_goal_cond = true ↔ ∀ a, D a → (s0.agents a).v_next = some (s0.agents a).g
  order : s.A = s0.A
  solution : s.solution = s0.solution
  solved : s.solved = s0.solved
  chain : s.request_chain = s0.request_chain
  occ_lt : (∀ x b, s0.occupied_now x = some b → b < n) →
    ∀ x b, s.occupied_now x = some b → b < n
  occ : s0.Base n →
    (∀ a b w, a < n → b < n → (s0.agents a).v_next = some w → (s0.agents b).v_next = some w →
      a = b) →
    ∀ x b, s.occupied_now x = some b ↔ b < n ∧
      ((D b ∧ (s0.agents b).v_next = some x) ∨
       (¬ D b ∧ (s0.agents b).v_now = x ∧ ∀ p, D p → p < n → (s0.agents p).v_next ≠ some x))

/-- The row `row`, `o` of a plan shows the positions and headings of the agents in `s`. -/
structure PIBT.Shown (n : Nat) (s : PIBT) (row : Config) (o : List Orientation) : Prop where
  config_len : row.length = n
  orients_len : o.length = n
  config : ∀ a, a < n → row[a]? = some (some (s.agents a).v_now)
  orients : ∀ a, a < n → o[a]? = (s.agents a).ott_now

/-- The relation between the states at the start of two successive timesteps: every agent
stays, or moves along the edge it faces and keeps its heading; its counter `elapsed` is reset
on its goal and incremented elsewhere. -/
structure PIBT.Moved (G : Graph) (n : Nat) (s s' : PIBT) : Prop where
  goal : ∀ a, a < n → (s'.agents a).g = (s.agents a).g
  elapsed : ∀ a, a < n → (s'.agents a).elapsed =
    if (s'.agents a).v_now = (s.agents a).g then 0 else (s.agents a).elapsed + 1
  move : ∀ a, a < n → (s'.agents a).v_now = (s.agents a).v_now ∨
    ((s'.agents a).ott_now = (s.agents a).ott_now ∧
      ∃ o, (s'.agents a).ott_now = some o ∧
        Plan.getRelativePosition G (s.agents a).v_now (s'.agents a).v_now = .ok o)

/-- The states between two timesteps of `run`. -/
structure PIBT.Rest (G : Graph) (n : Nat) (s : PIBT) : Prop where
  weak : s.Weak G n
  idle : ∀ a, a < n → (s.agents a).v_next = none ∧ (s.agents a).ott_next = none
  order : s.A.Perm (List.range n)

/-- The state of the initialisation loop of `run` after agents `0 .. k-1` were created. -/
structure PIBT.Created (E : Env) (k : Nat) (s : PIBT) : Prop where
  id_eq : ∀ a, a < k → (s.agents a).id = a
  v_now : ∀ a, a < k → (s.agents a).v_now = E.start a
  goal : ∀ a, a < k → (s.agents a).g = E.goal a
  ott_now : ∀ a, a < k → (s.agents a).ott_now = some .Y_MINUS
  elapsed : ∀ a, a < k → (s.agents a).elapsed = 0
  v_next : ∀ a, (s.agents a).v_next = none
  ott_next : ∀ a, (s.agents a).ott_next = none
  order : s.A = List.range k
  chain : s.request_chain = []
  solution : s.solution = Plan.mk [] []
  solved : s.solved = false
  occ_lt : ∀ x a, s.occupied_now x = some a → a < k ∧ E.start a = x
  occ : (∀ i j, i < k → j < k → i ≠ j → E.start i ≠ E.start j) →
    ∀ x a, a < k → E.start a = x → s.occupied_now x = some a

/-- The plan of `s` has the rows `0 .. t`, and row `k` shows the agents after `k`
timesteps. -/
structure PIBT.Traced (E : Env) (t : Nat) (s : PIBT) : Prop where
  configs_len : s.solution.configs.length = t + 1
  orients_len : s.solution.orientations.length = t + 1
  rows : ∀ k, k ≤ t → ∃ sk, PIBT.after E k = .ok sk ∧
    sk.Shown E.num (s.solution.configs.getD k []) (s.solution.orientations.getD k [])

/-- What holds of the solver after the initialisation and `t` timesteps of `run`. -/
structure PIBT.Sound (E : Env) (t : Nat) (s : PIBT) : Prop where
  rest : s.Rest E.G E.num
  goal : ∀ a, a < E.num → (s.agents a).g = E.goal a
  nonneg : ∀ a, a < E.num → 0 ≤ (s.agents a).elapsed
  solved : s.solved = false
  traced : s.Traced E t
  base : (∀ i j, i < E.num → j < E.num → i ≠ j → E.start i ≠ E.start j) → s.Base E.num

/-- Every agent stands on its goal. -/
def PIBT.at_goals (E : Env) (s : PIBT) : Prop :=
  ∀ a, a < E.num → (s.agents a).v_now = E.goal a

/-! ## The plan validator, the record of invocations, further instances and predicates -/

/-- The L-shaped graph `v0 = (0, 0)`, `v1 = (1, 0)`, `v2 = (1, 1)` with the edges `v0 - v1`
and `v1 - v2`. -/
def corner3 : Graph :=
  { size := 3
    neighbor := fun v => if v = 0 then [1] else if v = 1 then [0, 2] else if v = 2 then [1] else []
    pos_x := fun v => if v = 0 then 0 else 1
    pos_y := fun v => if v = 2 then 1 else 0 }

/-- The number of elementary actions (quarter turns and forward steps) that take an agent at
vertex `v` of `corner3` with heading `h` to `v2`. -/
def corner3_dist (v : Nat) (h : Orientation) : Int :=
  if v = 2 then 0
  else if v = 1 then Plan.getAngleDifference h .Y_PLUS / 90 + 1
  else Plan.getAngleDifference h .X_PLUS / 90 + 3

/-- One agent on `corner3` from `v0` to `v2`; the shuffle is the identity, the wall clock
never runs out. -/
def turn_env (max_timestep : Int) : Env :=
  { G := corner3
    num := 1
    start := fun _ => 0
    goal := fun _ => 2
    max_timestep := max_timestep
    disable_dist_init := false
    pathDist := fun _ v h => corner3_dist v h
    shuffle := fun mt l => (l, mt)
    getRandomFloat := fun mt => (1 / ((mt : Rat) + 2), mt + 1)
    seed := 0
    overCompTime := fun _ => false }

/-- The plan that `run` returns on `turn_env`: a quarter turn, a step, a quarter turn, a
step. -/
def turn_plan : Plan :=
  { configs := [[some 0], [some 0], [some 1], [some 1], [some 2]]
    orientations := [[.Y_MINUS], [.X_PLUS], [.X_PLUS], [.Y_PLUS], [.Y_PLUS]] }

/-- The turn penalty in the words of the specification: `1`, `2`, `3` for an angle of `0`,
`90`, `180` degrees. -/
def turn_penalty_spec (angle : Int) : Int :=
  if angle = 0 then 1 else if angle = 90 then 2 else if angle = 180 then 3 else 0

/-- The cost of the candidate `w` in the words of the specification, for the agent `i` at
`v_now` with heading `h_now`; `h_rel` is the direction from `v_now` to `w`. -/
def cost_spec (E : Env) (i v_now : Nat) (h_now : Orientation) (w : Nat)
    (h_rel : Orientation) : Int :=
  if w = v_now then E.pathDist i v_now h_now + 1
  else E.pathDist i w h_rel + turn_penalty_spec (Plan.getAngleDifference h_now h_rel)

/-- One agent in the middle of `corridor3` whose goal is its start; the distance table has
the entry `0` outside the graph. -/
def idle_env : Env :=
  { G := corridor3
    num := 1
    start := fun _ => 1
    goal := fun _ => 1
    max_timestep := 3
    disable_dist_init := false
    pathDist := fun _ v h => if v < 3 then corridor3_dist 1 v h else 0
    shuffle := fun mt l => (l, mt)
    getRandomFloat := fun mt => (1 / ((mt : Rat) + 2), mt + 1)
    seed := 0
    overCompTime := fun _ => false }

/-- The list `C` with the reserved node moved to the front, as the block of `funcPIBT` on
`reserved_nodes[ai->id]` leaves it. -/
def reservation_bias (reserved : Option Nat) (C : List Nat) : List Nat :=
  match reserved with
  | some r => if r ∈ C then r :: C.erase r else C
  | none => C

/-- The candidate list of `funcPIBT` before the block on `reserved_nodes[ai->id]`: the
neighbours and the own vertex, shuffled, sorted, passed through `PushEscapeTrigger` and
reversed when `swap_agent` is a swap partner. -/
def PIBT.candidates_unbiased (E : Env) (s : PIBT) (ai : Nat) (aj : Option Nat)
    (is_initial : Bool) (swap_agent : Option Nat) : Outcome (List Nat) :=
  let C := E.G.neighbor (s.agents ai).v_now ++ [(s.agents ai).v_now]
  let r := E.shuffle s.MT C
  let s : PIBT := { s with MT := r.2 }
  (PIBT.sort_candidates E s ai r.1).bind fun C =>
    let e : List Nat × PIBT :=
      match aj with
      | some j =>
        if ¬ is_initial then PIBT.PushEscapeTrigger E s C (s.agents ai).id (s.agents j).id
        else (C, s)
      | none => (C, s)
    .ok (if swap_agent ≠ none then e.1.reverse else e.1)

/-- Modelled from the spec: the helper `sameConfig` (its body is not among the sources), by
which `validate` tests that the first configuration equals the starts: the two configurations
have the same size and the same entries. -/
def sameConfig (c1 c2 : Config) : Bool := decide (c1 = c2)

/-- Modelled from the spec: the helper `inArray` (its body is not among the sources), by
which `validate` tests that a vertex is the previous vertex or one of its neighbours:
membership in the list. -/
def inArray (v : Option Nat) (cands : List (Option Nat)) : Bool := decide (v ∈ cands)

/-- `Plan::get(t)`. -/
def Plan.getConfig (p : Plan) (t : Int) : Outcome Config :=
  if ¬ (0 ≤ t ∧ t < (p.configs.length : Int)) then .halted
  else .ok (p.configs.getD t.toNat [])

/-- A `for` loop over `l` in a function that returns `true` below the loop, with a body that
returns `false` from the function or goes on: `body x` says whether the loop goes on. -/
def check_all {α : Type} (body : α → Outcome Bool) : List α → Outcome Bool
  | [] => .ok true
  | x :: xs => (body x).bind fun ok => if ok then check_all body xs else .ok false

/-- The values `lo, lo + 1, .., hi - 1` of a loop counter. -/
def counter_range (lo hi : Nat) : List Nat :=
  (List.range (hi - lo)).map fun k => lo + k

/-- The body of the loop over `j` of `Plan::validate`: the tests for a vertex conflict and for a
swap conflict of the agents `i` and `j`. -/
def Plan.validate_pair (p : Plan) (t : Nat) (v_i_t v_i_t_1 : Option Nat) (j : Nat) :
    Outcome Bool :=
  (p.get t j).bind fun v_j_t =>
  (p.get ((t : Int) - 1) j).bind fun v_j_t_1 =>
    if v_i_t = v_j_t then
      match v_i_t with
      | some _ => .ok false
      | none => .halted
    else if v_i_t = v_j_t_1 ∧ v_i_t_1 = v_j_t then .ok false
    else .ok true

/-- The body of the loop over `i` of `Plan::validate`: the move of agent `i` is along an edge
or a stay, and the agent is in no conflict with the agents behind it. -/
def Plan.validate_agent (G : Graph) (p : Plan) (t num_agents i : Nat) : Outcome Bool :=
  (p.get t i).bind fun v_i_t =>
  (p.get ((t : Int) - 1) i).bind fun v_i_t_1 =>
    match v_i_t_1 with
    | none => .halted
    | some w =>
      let cands := (G.neighbor w).map some ++ [some w]
      if ¬ inArray v_i_t cands then .ok false
      else check_all (Plan.validate_pair p t v_i_t v_i_t_1) (counter_range (i + 1) num_agents)

/-- The body of the loop over `t` of `Plan::validate`. -/
def Plan.validate_step (G : Graph) (p : Plan) (num_agents t : Nat) : Outcome Bool :=
  if (p.configs.getD t []).length ≠ num_agents then .ok false
  else check_all (Plan.validate_agent G p t num_agents) (counter_range 0 num_agents)

/-- `Plan::validate(starts)`; the graph supplies the field `neighbor` of the nodes. -/
def Plan.validate (G : Graph) (p : Plan) (starts : Config) : Outcome Bool :=
  if p.configs.isEmpty then .ok false
  else (p.getConfig 0).bind fun c0 =>
    if ¬ sameConfig starts c0 then .ok false
    else (p.getConfig 0).bind fun c =>
      let num_agents := c.length
      check_all (Plan.validate_step G p num_agents) (counter_range 1 (p.getMakespan + 1).toNat)

/-- Every entry of `occupied_now` names an agent that stands on that vertex. -/
def PIBT.At (s : PIBT) : Prop :=
  ∀ x a, s.occupied_now x = some a → (s.agents a).v_now = x

/-- Every entry of `occupied_next` is the next location of some agent. -/
def PIBT.Owned (n : Nat) (s : PIBT) : Prop :=
  ∀ x, s.occupied_next x ≠ none → ∃ b, b < n ∧ (s.agents b).v_next = some x

/-- The states at the head of the candidate loop of `funcPIBT` for agent `ai`, without any
assumption on the positions: every reservation has an owner, no cycle was handled, every agent
of the request chain has its requested node as next location, and the requested nodes are the
vertices of the agents of the chain and of `ai`. -/
structure PIBT.Linked (G : Graph) (n : Nat) (s : PIBT) (ai : Nat) (ii : Bool) : Prop where
  weak : s.Weak G n
  at_now : s.At
  owned : s.Owned n
  ai_lt : ai < n
  unplanned : (s.agents ai).v_next = none
  not_handled : s.cycle_handled = false
  targets : ∀ r, r ∈ s.request_chain → (s.agents r.agent).v_next = some r.requested_node
  closed : ∀ r, r ∈ s.request_chain → r.requested_node = (s.agents ai).v_now ∨
    ∃ r', r' ∈ s.request_chain ∧ (s.agents r'.agent).v_now = r.requested_node
  rooted : ii = false → ∃ r0, r0 ∈ s.request_chain ∧ s.initial_requester = some r0.agent
  top : ii = true → s.initial_requester = some ai

/-- What a call of `funcPIBT` for agent `ai` establishes when it returns `r` from the state
`s`, without any assumption on the positions: every reservation has an owner, `ai` has a next
location, an agent with a next location keeps one, and keeps its record unless a cycle was
handled; a call that fails restores the request chain. -/
structure PIBT.Returned (n : Nat) (s : PIBT) (ai : Nat) (r : Bool × PIBT) : Prop where
  owned : r.2.Owned n
  planned : (r.2.agents ai).v_next ≠ none
  grows : ∀ x, (s.agents x).v_next ≠ none → (r.2.agents x).v_next ≠ none
  kept : r.2.cycle_handled = false →
    ∀ x, (s.agents x).v_next ≠ none → r.2.agents x = s.agents x
  failed : r.1 = false → r.2.cycle_handled = false ∧ r.2.request_chain = s.request_chain ∧
    r.2.initial_requester = s.initial_requester

/-- The agent has planned to keep its vertex and its heading. -/
def PIBT.stays (s : PIBT) (x : Nat) : Prop :=
  (s.agents x).v_next = some (s.agents x).v_now ∧ (s.agents x).ott_next = (s.agents x).ott_now

/-- Two vertices `v0 = (0, 0)` and `v1 = (1, 0)` without any edge. -/
def islands : Graph :=
  { size := 2
    neighbor := fun _ => []
    pos_x := fun v => v
    pos_y := fun _ => 0 }

/-- Two agents on `islands`, each with the other's vertex as goal, which it cannot reach. -/
def island_env : Env :=
  { G := islands
    num := 2
    start := fun i => i
    goal := fun i => 1 - i
    max_timestep := 3
    disable_dist_init := false
    pathDist := fun _ _ _ => 1
    shuffle := fun mt l => (l, mt)
    getRandomFloat := fun mt => (1 / ((mt : Rat) + 2), mt + 1)
    seed := 0
    overCompTime := fun _ => false }

/-- The second test of the inner `for` of the swap loops: `u` is a dead end occupied by an
agent that stands on its goal. -/
def PIBT.dead_end (E : Env) (s : PIBT) (u : Nat) : Prop :=
  (E.G.neighbor u).length = 1 ∧
    (match s.occupied_now u with
      | some a => decide ((s.agents a).g = u)
      | none => false) = true

/-- The test of the inner `for` of the swap loops: the neighbour `u` of `v_puller` is not
counted, because it is `v_pusher` or a dead end occupied by an agent on its goal. -/
def PIBT.scan_skips (E : Env) (s : PIBT) (v_pusher u : Nat) : Prop :=
  u = v_pusher ∨ PIBT.dead_end E s u

/-- The graph is a simple undirected graph on the vertices below `size`, as the graph of every
grid map is. -/
structure Graph.Simple (G : Graph) : Prop where
  range : ∀ v u, u ∈ G.neighbor v → u < G.size
  symm : ∀ v u, u ∈ G.neighbor v → v ∈ G.neighbor u
  irrefl : ∀ v, v ∉ G.neighbor v

/-- The walk of `is_swap_possible`, last vertex first: every vertex with a successor has no
neighbour besides its predecessor, its successor and occupied dead ends, and no vertex reached
by the walk is such a dead end. -/
def PIBT.Trail (E : Env) (s : PIBT) (origin : Nat) : List Nat → Prop
  | a :: b :: rest =>
    (∀ u, u ∈ E.G.neighbor b → u = rest.headD origin ∨ PIBT.dead_end E s u ∨ u = a) ∧
    ¬ PIBT.dead_end E s a ∧ a < E.G.size ∧ PIBT.Trail E s origin (b :: rest)
  | _ => True

/-- The number of agents below `n` that have no next location. -/
def PIBT.unplanned (n : Nat) (s : PIBT) : Nat :=
  (List.range n).countP fun a => decide ((s.agents a).v_next = none)

/-- One invocation of `funcPIBT` in the record of a planning phase: the agent, the number of
frames of `funcPIBT` on the stack, and the agent's `v_next` at entry and at return. -/
structure Visit where
  agent : Nat
  depth : Nat
  v_next_in : Option Nat
  v_next_out : Option Nat
  deriving DecidableEq, Repr

/-- The loop `for (auto u : C)` of `funcPIBT` as `PIBT.candidate_loop`, returning in addition
the record of the invocations of `funcPIBT` made below it, in the order of their entry. -/
def PIBT.candidate_loop_log (E : Env)
    (call : PIBT → Nat → Option Nat → Bool → Outcome ((Bool × PIBT) × List Visit))
    (ai : Nat) (aj : Option Nat) (is_initial : Bool) (swap_agent : Option Nat) :
    List Nat → Int → PIBT → Outcome ((Bool × PIBT) × List Visit)
  | [], _, s => .ok ((false, PIBT.fail_stay s ai), [])
  | u :: C, m, s =>
    if s.occupied_next u ≠ none then
      PIBT.candidate_loop_log E call ai aj is_initial swap_agent C (m + 1) s
    else if (match aj with
        | some j => decide (u = (s.agents j).v_now)
        | none => false) = true then
      PIBT.candidate_loop_log E call ai aj is_initial swap_agent C (m + 1) s
    else
      let s := s.setOccupiedNext u (some ai)
      let s := s.set_v_next ai (some u)
      (PIBT.cycle_test s is_initial u).bind fun cycle =>
        if cycle then
          if (s.agents ai).ott_now = none then .halted
          else
            let s : PIBT := { s with request_chain := s.request_chain ++ [⟨ai, u⟩] }
            (PIBT.handleCycleWithOrientation E s).bind fun s =>
              .ok ((true, { s with cycle_handled := true }), [])
        else
          match s.occupied_now u with
          | some ak =>
            if (s.agents ak).v_next = none then
              let s : PIBT := { s with request_chain := s.request_chain ++ [⟨ai, u⟩] }
              (call s ak (some ai) false).bind fun r =>
                if r.1.1 then
                  (PIBT.decide_action E r.1.2 ai aj is_initial swap_agent u m).bind fun q =>
                    .ok (q, r.2)
                else
                  let s := r.1.2
                  let s : PIBT := { s with request_chain := s.request_chain.dropLast }
                  let s := s.setOccupiedNext u none
                  let s := s.set_v_next ai none
                  (PIBT.candidate_loop_log E call ai aj is_initial swap_agent C (m + 1) s).bind
                    fun q => .ok (q.1, r.2 ++ q.2)
            else
              (PIBT.decide_action E s ai aj is_initial swap_agent u m).bind fun q => .ok (q, [])
          | none =>
            (PIBT.decide_action E s ai aj is_initial swap_agent u m).bind fun q => .ok (q, [])

/-- `PIBT::funcPIBT` as `PIBT.funcPIBT`, returning in addition the record of its invocations:
its own, made with `level - 1` frames of `funcPIBT` below it, then those of the inherited
calls. -/
def PIBT.funcPIBT_log (E : Env) :
    Nat → Nat → PIBT → Nat → Option Nat → Bool → Outcome ((Bool × PIBT) × List Visit)
  | 0, _, _, _, _, _ => .starved
  | depth + 1, level, s, ai, aj, is_initial =>
    let s0 : PIBT :=
      if is_initial then
        { s with request_chain := [], cycle_handled := false, initial_requester := some ai }
      else s
    (PIBT.candidates E s0 ai aj is_initial).bind fun c =>
      (PIBT.candidate_loop_log E (PIBT.funcPIBT_log E depth (level + 1)) ai aj is_initial c.2.1
        c.1 0 c.2.2).bind fun r =>
        .ok (r.1, ⟨ai, level, (s.agents ai).v_next, (r.1.2.agents ai).v_next⟩ :: r.2)

/-- The planning loop of `run` as `PIBT.plan_agents`, returning in addition the record of all
invocations of `funcPIBT` of the timestep. -/
def PIBT.plan_agents_log (E : Env) : List Nat → PIBT → Outcome (PIBT × List Visit)
  | [], s => .ok (s, [])
  | a :: rest, s =>
    if (s.agents a).v_next = none then
      (PIBT.funcPIBT_log E (E.num + 1) 1 s a none true).bind fun r =>
        (PIBT.plan_agents_log E rest r.1.2).bind fun q => .ok (q.1, r.2 ++ q.2)
    else PIBT.plan_agents_log E rest s

/-- What the record `log` of the invocations of `funcPIBT` made between the states `s` and
`r` satisfies when they were made with at least `lev - 1` frames of `funcPIBT` below them: no
agent occurs twice, every invocation is made for an agent below `n` without a next location,
at a depth of at most `n`, and leaves a next location to it. -/
def PIBT.Logged (n : Nat) (s r : PIBT) (lev : Nat) (log : List Visit) : Prop :=
  (log.map Visit.agent).Nodup ∧ ∀ e, e ∈ log →
    e.agent < n ∧ lev ≤ e.depth ∧ e.depth ≤ n ∧ e.v_next_in = none ∧ e.v_next_out ≠ none ∧
    (s.agents e.agent).v_next = none ∧ (r.agents e.agent).v_next ≠ none

/-- The first part of one iteration of the main loop of `run`, as in `PIBT.timestep`: the
agents are sorted and planned; returns in addition the record of the invocations of
`funcPIBT`. -/
def PIBT.planning_log (E : Env) (s : PIBT) : Outcome (PIBT × List Visit) :=
  let s : PIBT :=
    { s with A := std_sort (fun a b => PIBT.run_compare (s.agents a) (s.agents b)) s.A }
  PIBT.plan_agents_log E s.A s

/-! ## The corridor walks, the events of a call and further instances -/

/-- The row `v0 = (0, 0)`, `v1 = (1, 0)`, `v2 = (2, 0)` with the corridor `v3 = (1, 1)`,
`v4 = (1, 2)` attached to `v1`. -/
def stem : Graph :=
  { size := 5
    neighbor := fun v =>
      if v = 0 then [1] else if v = 1 then [0, 2, 3] else if v = 2 then [1]
      else if v = 3 then [1, 4] else if v = 4 then [3] else []
    pos_x := fun v => if v = 0 then 0 else if v = 2 then 2 else 1
    pos_y := fun v => if v = 3 then 1 else if v = 4 then 2 else 0 }

/-- The neighbour of `v` on the path of `stem` from `v` to `goal`. -/
def stem_hop (goal v : Nat) : Nat :=
  if v = 1 then (if goal = 0 then 0 else if goal = 2 then 2 else 3)
  else if v = 3 then (if goal = 4 then 4 else 1)
  else if v = 4 then 3
  else 1

/-- The heading of the edge of `stem` from `v` to its neighbour `u`. -/
def stem_heading (v u : Nat) : Orientation :=
  if stem.pos_x u > stem.pos_x v then .X_PLUS
  else if stem.pos_x u < stem.pos_x v then .X_MINUS
  else if stem.pos_y u > stem.pos_y v then .Y_PLUS
  else .Y_MINUS

/-- The number of edges of the path of `stem` from `v` to `goal`. -/
def stem_steps (goal : Nat) : Nat → Nat → Nat
  | 0, _ => 0
  | k + 1, v => if v = goal then 0 else 1 + stem_steps goal k (stem_hop goal v)

/-- The number of elementary actions that take an agent at vertex `v` of `stem` with heading
`h` to the vertex `goal`, counting the first turn only. -/
def stem_dist (goal v : Nat) (h : Orientation) : Int :=
  if v = goal then 0
  else (stem_steps goal 4 v : Int) +
    Plan.getAngleDifference h (stem_heading v (stem_hop goal v)) / 90

/-- The agents `0, 1, ...` on `stem` with the given start and goal vertices. -/
def stem_env (starts goals : List Nat) : Env :=
  { G := stem
    num := starts.length
    start := fun i => starts.getD i 0
    goal := fun i => goals.getD i 0
    max_timestep := 6
    disable_dist_init := false
    pathDist := fun i v h => stem_dist (goals.getD i 0) v h
    shuffle := fun mt l => (l, mt)
    getRandomFloat := fun mt => (1 / ((mt : Rat) + 2), mt + 1)
    seed := 0
    overCompTime := fun _ => false }

/-- Four agents on `stem`: agent `0` on `v1` heads for `v0`, where agent `2` heads for `v1`;
agents `1` and `3` fill the corridor. -/
def crowd_env : Env := stem_env [1, 3, 0, 4] [0, 0, 1, 3]

/-- Three agents in a column of `stem`: agent `0` on `v4` and agent `1` on `v3` head for `v1`,
where agent `2` heads for `v0`. -/
def queue_env : Env := stem_env [4, 3, 1] [1, 1, 0]

/-- Three agents in a column of `stem`: agent `0` on `v3` heads for `v4`, agent `1` on `v4`
heads for `v1`, where agent `2` heads for `v0`. -/
def facing_env : Env := stem_env [3, 4, 1] [4, 1, 0]

/-- Every candidate of the list is rejected by the loop of `funcPIBT` for agent `ai` with
pusher `aj`, which takes the state `s` to `s'`: each candidate is skipped, because it is taken
in `occupied_next` or is the vertex of the pusher, or it is occupied by an agent without next
location whose inherited call `call` returns `false`, after which the reservation is
withdrawn. -/
def PIBT.all_rejected (call : PIBT → Nat → Option Nat → Bool → Outcome (Bool × PIBT))
    (ai : Nat) (aj : Option Nat) : List Nat → PIBT → PIBT → Prop
  | [], s, s' => s' = s
  | u :: C, s, s' =>
    (s.occupied_next u ≠ none ∧ PIBT.all_rejected call ai aj C s s') ∨
    (s.occupied_next u = none ∧ (∃ j, aj = some j ∧ u = (s.agents j).v_now) ∧
      PIBT.all_rejected call ai aj C s s') ∨
    (s.occupied_next u = none ∧ (∀ j, aj = some j → u ≠ (s.agents j).v_now) ∧
      ∃ ak r, s.occupied_now u = some ak ∧ ak ≠ ai ∧ (s.agents ak).v_next = none ∧
        call { (s.setOccupiedNext u (some ai)).set_v_next ai (some u) with
          request_chain := s.request_chain ++ [⟨ai, u⟩] } ak (some ai) false = .ok (false, r) ∧
        PIBT.all_rejected call ai aj C
          ((({ r with request_chain := r.request_chain.dropLast } : PIBT).setOccupiedNext u
            none).set_v_next ai none) s')

/-- The agent of the request faces the requested node: its heading is the heading of the edge
from its vertex to that node. -/
def PIBT.faces (E : Env) (s : PIBT) (r : Request) : Prop :=
  ∃ o, (s.agents r.agent).ott_now = some o ∧
    Plan.getRelativePosition E.G (s.agents r.agent).v_now r.requested_node = .ok o

/-- The three assignments that the loops of `handleCycleWithOrientation` make for one agent:
`a->v_next = u`, `a->ott_next = x` and `occupied_next[u] = a`. -/
def PIBT.assign (s : PIBT) (a u : Nat) (x : Option Orientation) : PIBT :=
  ((s.set_v_next a (some u)).set_ott_next a x).setOccupiedNext u (some a)

/-- In the words of the specification: `u` is a degree-1 vertex held by an agent whose goal
is `u`. -/
def PIBT.held_dead_end (E : Env) (s : PIBT) (u : Nat) : Bool :=
  decide ((E.G.neighbor u).length = 1) &&
    (s.occupied_now u).any fun a => decide ((s.agents a).g = u)

/-- In the words of the specification: the neighbours of `v` that remain after discarding the
previous vertex `v_prev` and every degree-1 neighbour held by an agent at its goal. -/
def PIBT.remaining (E : Env) (s : PIBT) (v_prev v : Nat) : List Nat :=
  (E.G.neighbor v).filter fun u => !(decide (u = v_prev) || PIBT.held_dead_end E s u)

/-- In the words of the specification, the corridor walk of `is_swap_possible`: standing on
`v` and coming from `v_prev`, the walk advances along `path` while the vertex is not `origin`
and exactly one neighbour remains, and reaches a vertex other than `origin` with at least two
remaining neighbours. -/
def PIBT.walk_reaches_branch (E : Env) (s : PIBT) (origin : Nat) :
    Nat → Nat → List Nat → Prop
  | v_prev, v, [] => v ≠ origin ∧ 2 ≤ (PIBT.remaining E s v_prev v).length
  | v_prev, v, t :: rest =>
    v ≠ origin ∧ PIBT.remaining E s v_prev v = [t] ∧
      PIBT.walk_reaches_branch E s origin v t rest

/-- The corridor walk of `is_swap_required` with its test of advance, as in the amended
statement of C27: standing on `v` and coming from `v_prev`, the walk advances along `path`
while `v` is closer to the goal of `pusher` than `v_prev` and exactly one neighbour remains,
and meets such a vertex with two or more remaining neighbours. -/
def PIBT.walk_meets_branch (E : Env) (s : PIBT) (pusher : Nat) : Nat → Nat → List Nat → Prop
  | v_prev, v, [] =>
    PIBT.getMinDistAllDirections E pusher v < PIBT.getMinDistAllDirections E pusher v_prev ∧
      2 ≤ (PIBT.remaining E s v_prev v).length
  | v_prev, v, t :: rest =>
    PIBT.getMinDistAllDirections E pusher v < PIBT.getMinDistAllDirections E pusher v_prev ∧
      PIBT.remaining E s v_prev v = [t] ∧ PIBT.walk_meets_branch E s pusher v t rest

/-- The corridor walk of `is_swap_required` with its test of advance, as in the amended
statement of C27, stops at the pair `x = (v_p', v_q')`: it advances along `path` as
`PIBT.walk_meets_branch` does, and at the pair `x` the vertex `v_q'` is not closer to the goal
of `pusher` than `v_p'`, or no neighbour remains. -/
def PIBT.walk_stops_at (E : Env) (s : PIBT) (pusher : Nat) :
    Nat → Nat → List Nat → Nat × Nat → Prop
  | v_prev, v, [], x =>
    x = (v_prev, v) ∧
      (¬ PIBT.getMinDistAllDirections E pusher v <
          PIBT.getMinDistAllDirections E pusher v_prev ∨
        PIBT.remaining E s v_prev v = [])
  | v_prev, v, t :: rest, x =>
    PIBT.getMinDistAllDirections E pusher v < PIBT.getMinDistAllDirections E pusher v_prev ∧
      PIBT.remaining E s v_prev v = [t] ∧ PIBT.walk_stops_at E s pusher v t rest x

/-! ## The operations of `Plan`, the swap walks and the record of the cycles -/

/-- The comparator of `funcPIBT` ranks neither of the candidates `v`, `u` before the other. -/
def PIBT.incomparable (E : Env) (s : PIBT) (ai v u : Nat) : Prop :=
  PIBT.funcPIBT_compare E s ai v u = .ok false ∧ PIBT.funcPIBT_compare E s ai u v = .ok false

/-- `Plan::clear`. -/
def Plan.clear (_p : Plan) : Plan := { configs := [], orientations := [] }

/-- `Plan::add`; the orientation vector it appends is `std::vector<Orientation>(c.size())`,
whose entries are value-initialised. -/
def Plan.add (p : Plan) (c : Config) : Outcome Plan :=
  if ¬ p.configs.isEmpty ∧ (p.configs.headD []).length ≠ c.length then .halted
  else .ok
    { configs := p.configs ++ [c]
      orientations := p.orientations ++ [List.replicate c.length Orientation.X_PLUS] }

/-- `Plan::addOrientation`: it overwrites `orientations.back()`, which is undefined for an
empty vector (the computation stops there). -/
def Plan.addOrientation (p : Plan) (orients : List Orientation) : Outcome Plan :=
  if p.configs.isEmpty then .halted
  else if orients.length ≠ (p.configs.getLastD []).length then .halted
  else if p.orientations.isEmpty then .halted
  else .ok { p with orientations := p.orientations.dropLast ++ [orients] }

/-- `Plan::last()`. -/
def Plan.last (p : Plan) : Outcome Config :=
  if p.empty then .halted else .ok (p.configs.getD p.getMakespan.toNat [])

/-- The loop `for (int t = 1; t < other.size(); ++t) add(other.get(t))` of `operator+` and
`operator+=`, over the values of `t`. -/
def Plan.add_rows (other : Plan) : List Nat → Plan → Outcome Plan
  | [], p => .ok p
  | t :: ts, p =>
    (other.getConfig t).bind fun c => (p.add c).bind fun q => Plan.add_rows other ts q

/-- `Plan::operator+`: the new plan starts from a copy of `configs` alone. -/
def Plan.plus (p other : Plan) : Outcome Plan :=
  p.last.bind fun c1 =>
  (other.getConfig 0).bind fun c2 =>
    if c1.length ≠ c2.length then .halted
    else if c1 ≠ c2 then .halted
    else Plan.add_rows other (counter_range 1 other.configs.length)
      { configs := p.configs, orientations := [] }

/-- `Plan::operator+=`. -/
def Plan.plus_assign (p other : Plan) : Outcome Plan :=
  if p.configs.isEmpty then .ok { p with configs := other.configs }
  else
    p.last.bind fun c1 =>
    (other.getConfig 0).bind fun c2 =>
      if ¬ sameConfig c1 c2 then .halted
      else Plan.add_rows other (counter_range 1 other.configs.length) p

/-- The orientation list is aligned with the configuration list: as many orientation vectors
as configurations, and the `t`-th vector has as many entries as the `t`-th configuration. -/
def Plan.aligned (p : Plan) : Prop :=
  List.Forall₂ (fun (c : Config) (o : List Orientation) => o.length = c.length)
    p.configs p.orientations

/-- The plans obtained from the empty plan by `clear`, `add`, `addWithOrientation`,
`addOrientation`, and `operator+=` applied to a plan that is not empty. -/
inductive Plan.Built : Plan → Prop
  | empty : Plan.Built { configs := [], orientations := [] }
  | clear (p : Plan) : Plan.Built p → Plan.Built p.clear
  | add (p q : Plan) (c : Config) : Plan.Built p → p.add c = .ok q → Plan.Built q
  | addWithOrientation (p q : Plan) (c : Config) (o : List Orientation) :
      Plan.Built p → p.addWithOrientation c o = .ok q → Plan.Built q
  | addOrientation (p q : Plan) (o : List Orientation) :
      Plan.Built p → p.addOrientation o = .ok q → Plan.Built q
  | plus_assign (p q other : Plan) :
      Plan.Built p → p.configs ≠ [] → p.plus_assign other = .ok q → Plan.Built q

/-- The first iterations of the `while` of `is_swap_possible` that run to their end: at the
loop head `(v_prev, v)` the vertex `v` is not `origin` and exactly one neighbour `t` remains,
and the loop goes on from `(v, t)` along the rest of `path`. -/
def PIBT.walk_possible (E : Env) (s : PIBT) (origin : Nat) : Nat → Nat → List Nat → Prop
  | _, _, [] => True
  | v_prev, v, t :: rest =>
    v ≠ origin ∧ PIBT.remaining E s v_prev v = [t] ∧ PIBT.walk_possible E s origin v t rest

/-- The first iterations of the `while` of `is_swap_required` that run to their end: at the
loop head `(v_prev, v)` the vertex `v` is closer to the goal of `pusher` than `v_prev` and
exactly one neighbour `t` remains, and the loop goes on from `(v, t)` along the rest of
`path`. -/
def PIBT.walk_required (E : Env) (s : PIBT) (pusher : Nat) : Nat → Nat → List Nat → Prop
  | _, _, [] => True
  | v_prev, v, t :: rest =>
    PIBT.getMinDistAllDirections E pusher v < PIBT.getMinDistAllDirections E pusher v_prev ∧
      PIBT.remaining E s v_prev v = [t] ∧ PIBT.walk_required E s pusher v t rest

/-- The pair `(v_pusher, v_puller)` at the loop head that a corridor walk reaches from
`(v_prev, v)` along `path`. -/
def corridor_end : Nat → Nat → List Nat → Nat × Nat
  | v_prev, v, [] => (v_prev, v)
  | _, v, t :: rest => corridor_end v t rest

/-- The loop `for (auto u : C)` of `funcPIBT` as `PIBT.candidate_loop`, returning in addition
the states in which `handleCycleWithOrientation` is invoked below it (the request chain of
such a state ends with the entry pushed at the detection of the cycle), in the order of the
invocations. -/
def PIBT.candidate_loop_cyc (E : Env)
    (call : PIBT → Nat → Option Nat → Bool → Outcome ((Bool × PIBT) × List PIBT))
    (ai : Nat) (aj : Option Nat) (is_initial : Bool) (swap_agent : Option Nat) :
    List Nat → Int → PIBT → Outcome ((Bool × PIBT) × List PIBT)
  | [], _, s => .ok ((false, PIBT.fail_stay s ai), [])
  | u :: C, m, s =>
    if s.occupied_next u ≠ none then
      PIBT.candidate_loop_cyc E call ai aj is_initial swap_agent C (m + 1) s
    else if (match aj with
        | some j => decide (u = (s.agents j).v_now)
        | none => false) = true then
      PIBT.candidate_loop_cyc E call ai aj is_initial swap_agent C (m + 1) s
    else
      let s := s.setOccupiedNext u (some ai)
      let s := s.set_v_next ai (some u)
      (PIBT.cycle_test s is_initial u).bind fun cycle =>
        if cycle then
          if (s.agents ai).ott_now = none then .halted
          else
            let s : PIBT := { s with request_chain := s.request_chain ++ [⟨ai, u⟩] }
            (PIBT.handleCycleWithOrientation E s).bind fun s' =>
              .ok ((true, { s' with cycle_handled := true }), [s])
        else
          match s.occupied_now u with
          | some ak =>
            if (s.agents ak).v_next = none then
              let s : PIBT := { s with request_chain := s.request_chain ++ [⟨ai, u⟩] }
              (call s ak (some ai) false).bind fun r =>
                if r.1.1 then
                  (PIBT.decide_action E r.1.2 ai aj is_initial swap_agent u m).bind fun q =>
                    .ok (q, r.2)
                else
                  let s := r.1.2
                  let s : PIBT := { s with request_chain := s.request_chain.dropLast }
                  let s := s.setOccupiedNext u none
                  let s := s.set_v_next ai none
                  (PIBT.candidate_loop_cyc E call ai aj is_initial swap_agent C (m + 1) s).bind
                    fun q => .ok (q.1, r.2 ++ q.2)
            else
              (PIBT.decide_action E s ai aj is_initial swap_agent u m).bind fun q => .ok (q, [])
          | none =>
            (PIBT.decide_action E s ai aj is_initial swap_agent u m).bind fun q => .ok (q, [])

/-- `PIBT::funcPIBT` as `PIBT.funcPIBT`, returning in addition the states in which
`handleCycleWithOrientation` is invoked during the call. -/
def PIBT.funcPIBT_cyc (E : Env) :
    Nat → PIBT → Nat → Option Nat → Bool → Outcome ((Bool × PIBT) × List PIBT)
  | 0, _, _, _, _ => .starved
  | depth + 1, s, ai, aj, is_initial =>
    let s : PIBT :=
      if is_initial then
        { s with request_chain := [], cycle_handled := false, initial_requester := some ai }
      else s
    (PIBT.candidates E s ai aj is_initial).bind fun c =>
      PIBT.candidate_loop_cyc E (PIBT.funcPIBT_cyc E depth) ai aj is_initial c.2.1 c.1 0 c.2.2

/-- The planning loop of `run` as `PIBT.plan_agents`, returning in addition the states in
which `handleCycleWithOrientation` is invoked during the timestep. -/
def PIBT.plan_agents_cyc (E : Env) : List Nat → PIBT → Outcome (PIBT × List PIBT)
  | [], s => .ok (s, [])
  | a :: rest, s =>
    if (s.agents a).v_next = none then
      (PIBT.funcPIBT_cyc E (E.num + 1) s a none true).bind fun r =>
        (PIBT.plan_agents_cyc E rest r.1.2).bind fun q => .ok (q.1, r.2 ++ q.2)
    else PIBT.plan_agents_cyc E rest s

/-- The solver after the sort `std::sort(A.begin(), A.end(), compare)` that opens an iteration
of the main loop of `run`. -/
def PIBT.sorted (s : PIBT) : PIBT :=
  { s with A := std_sort (fun a b => PIBT.run_compare (s.agents a) (s.agents b)) s.A }

/-- The first part of one iteration of the main loop of `run`, as in `PIBT.timestep`: the
agents are sorted and planned; returns in addition the states in which
`handleCycleWithOrientation` is invoked. -/
def PIBT.planning_cycles (E : Env) (s : PIBT) : Outcome (PIBT × List PIBT) :=
  let s : PIBT := PIBT.sorted s
  PIBT.plan_agents_cyc E s.A s

/-- The request chain at the head of the candidate loop of `funcPIBT` for agent `ai` with
pusher `aj` is a path of requests: its agents are pairwise distinct, every entry requests a
neighbour of its agent's vertex, which is the vertex of the next entry's agent, the first
entry is the initial requester's, and the last entry is the pusher's request of the vertex of
`ai`; a pushed agent finds a non-empty chain. -/
structure PIBT.Chained (G : Graph) (s : PIBT) (ai : Nat) (aj : Option Nat) : Prop where
  distinct : (s.request_chain.map Request.agent).Nodup
  edge : ∀ r, r ∈ s.request_chain →
    r.requested_node ∈ G.neighbor (s.agents r.agent).v_now
  link : List.Chain' (fun r r1 : Request => r.requested_node = (s.agents r1.agent).v_now)
    s.request_chain
  first : ∀ r, s.request_chain.head? = some r → s.initial_requester = some r.agent
  last : ∀ r, s.request_chain.getLast? = some r →
    r.requested_node = (s.agents ai).v_now ∧ aj = some r.agent
  pushed : ∀ j, aj = some j → s.request_chain ≠ []

/-- The request chain of the state is a ring of at least three entries: the first entry is
the initial requester's, every entry requests a neighbour of its agent's vertex, which is the
vertex of the next entry's agent, the last entry requests the vertex of the initial
requester, and the agents of the entries are pairwise distinct. -/
structure PIBT.Ring (G : Graph) (s : PIBT) : Prop where
  long : 3 ≤ s.request_chain.length
  first : ∃ r, s.request_chain.head? = some r ∧ s.initial_requester = some r.agent
  edge : ∀ r, r ∈ s.request_chain →
    r.requested_node ∈ G.neighbor (s.agents r.agent).v_now
  link : List.Chain' (fun r r1 : Request => r.requested_node = (s.agents r1.agent).v_now)
    s.request_chain
  closes : ∃ r i, s.request_chain.getLast? = some r ∧ s.initial_requester = some i ∧
    r.requested_node = (s.agents i).v_now
  distinct : (s.request_chain.map Request.agent).Nodup

/-- Adjacent vertices of the graph have different grid positions. -/
def Graph.Placed (G : Graph) : Prop :=
  ∀ v u, u ∈ G.neighbor v → G.pos_x u ≠ G.pos_x v ∨ G.pos_y u ≠ G.pos_y v

/-- The square `v0 = (0, 0)`, `v1 = (1, 0)`, `v2 = (1, 1)`, `v3 = (0, 1)`. -/
def square : Graph :=
  { size := 4
    neighbor := fun v =>
      if v = 0 then [1, 3] else if v = 1 then [0, 2] else if v = 2 then [1, 3]
      else if v = 3 then [2, 0] else []
    pos_x := fun v => if v = 1 ∨ v = 2 then 1 else 0
    pos_y := fun v => if v = 2 ∨ v = 3 then 1 else 0 }

/-- The number of edges of a shortest path of `square` from `v` to `goal`. -/
def square_dist (goal v : Nat) : Int :=
  if v = goal then 0 else if v + goal = 2 ∨ v + goal = 4 then 2 else 1

/-- Four agents on `square`, agent `i` on `v_i` heading for the next vertex of the square. -/
def square_env : Env :=
  { G := square
    num := 4
    start := fun i => i
    goal := fun i => (i + 1) % 4
    max_timestep := 6
    disable_dist_init := false
    pathDist := fun i v _ => square_dist ((i + 1) % 4) v
    shuffle := fun mt l => (l, mt)
    getRandomFloat := fun mt => (1 / ((mt : Rat) + 2), mt + 1)
    seed := 0
    overCompTime := fun _ => false }

/-! ## Costs in `float`, the scenario with a turn and further instances -/

/-- The cost of the candidate `w` as the comparator of `funcPIBT` computes it, in `float`, for
the agent `i` at `v_now` with heading `h_now`; `h_rel` is the direction from `v_now` to `w`.
The table entry is converted to `float`, and `1` for the own vertex, or the turn penalty for
another candidate, is added in `float`. -/
def cost_float (E : Env) (i v_now : Nat) (h_now : Orientation) (w : Nat)
    (h_rel : Orientation) : Int :=
  if w = v_now then float_add (min FLT_MAX (float_of_int (E.pathDist i v_now h_now))) 1
  else float_add (min FLT_MAX (float_of_int (E.pathDist i w h_rel)))
    (turn_penalty_spec (Plan.getAngleDifference h_now h_rel))

/-- One agent in the middle of `corridor3` with a distance table of large entries:
`2 ^ 24 + 1` at `v2` and `2 ^ 24` elsewhere, for every heading. -/
def far_env : Env :=
  { G := corridor3
    num := 1
    start := fun _ => 1
    goal := fun _ => 1
    max_timestep := 3
    disable_dist_init := false
    pathDist := fun _ v _ => if v = 2 then 16777217 else 16777216
    shuffle := fun mt l => (l, mt)
    getRandomFloat := fun mt => (1 / ((mt : Rat) + 2), mt + 1)
    seed := 0
    overCompTime := fun _ => false }

/-- The solver at the start of the scenario with a turn: the state after the initialisation
of `run` on `turn_env`, in which the agent has the heading `X_PLUS` of the scenario and the
plan shows the start configuration `(v0, X_PLUS)`. -/
def turn_start (max_timestep : Int) : Outcome PIBT :=
  (PIBT.run_init (turn_env max_timestep)).bind fun s =>
    .ok { s.set_ott_now 0 (some .X_PLUS) with solution := Plan.mk [[some 0]] [[.X_PLUS]] }

/-- In the words of the specification, the corridor walk from `v`, coming from `v_prev`, by
its rule of advance alone: the walk advances along `path` while exactly one neighbour
remains, and meets a vertex with two or more remaining neighbours. -/
def PIBT.corridor_meets_branch (E : Env) (s : PIBT) : Nat → Nat → List Nat → Prop
  | v_prev, v, [] => 2 ≤ (PIBT.remaining E s v_prev v).length
  | v_prev, v, t :: rest =>
    PIBT.remaining E s v_prev v = [t] ∧ PIBT.corridor_meets_branch E s v t rest

/-- Two agents on `stem`: agent `0` stands on its goal `v3`, agent `1` on `v1` heads for
`v4`. -/
def parked_env : Env := stem_env [3, 1] [3, 4]

/-! ## Basic facts about the action primitive and the comparators -/

@[simp] theorem Outcome.bind_ok {α β : Type} (a : α) (f : α → Outcome β) :
    (Outcome.ok a).bind f = f a := rfl

@[simp] theorem Outcome.bind_halted {α β : Type} (f : α → Outcome β) :
    (Outcome.halted : Outcome α).bind f = .halted := rfl

@[simp] theorem Outcome.bind_starved {α β : Type} (f : α → Outcome β) :
    (Outcome.starved : Outcome α).bind f = .starved := rfl

theorem Outcome.bind_eq_ok {α β : Type} {x : Outcome α} {f : α → Outcome β} {b : β} :
    x.bind f = .ok b ↔ ∃ a, x = .ok a ∧ f a = .ok b := by
  cases x <;> simp [Outcome.bind]

theorem angle_cases (a b : Orientation) :
    Plan.getAngleDifference a b = 0 ∨ Plan.getAngleDifference a b = 90 ∨
      Plan.getAngleDifference a b = 180 := by
  cases a <;> cases b <;> decide

theorem angle_zero_iff (a b : Orientation) : Plan.getAngleDifference a b = 0 ↔ a = b := by
  cases a <;> cases b <;> decide

/-- C7: `getAngleDifference a b` is `min (|A - B|, 360 - |A - B|)` for the angles `A`, `B` of
the table `X_PLUS = 0`, `Y_PLUS = 90`, `X_MINUS = 180`, `Y_MINUS = 270`; it is one of `0`, `90`,
`180`, symmetric, and `0` exactly when the two headings are equal. -/
theorem getAngleDifference_spec (a b : Orientation) :
    Plan.getAngleDifference a b =
        min |dir_to_angle a - dir_to_angle b| (360 - |dir_to_angle a - dir_to_angle b|) ∧
      dir_to_angle .X_PLUS = 0 ∧ dir_to_angle .Y_PLUS = 90 ∧ dir_to_angle .X_MINUS = 180 ∧
      dir_to_angle .Y_MINUS = 270 ∧
      (Plan.getAngleDifference a b = 0 ∨ Plan.getAngleDifference a b = 90 ∨
        Plan.getAngleDifference a b = 180) ∧
      Plan.getAngleDifference a b = Plan.getAngleDifference b a ∧
      (Plan.getAngleDifference a b = 0 ↔ a = b) := by
  refine ⟨?_, rfl, rfl, rfl, rfl, angle_cases a b, ?_, angle_zero_iff a b⟩
  · simp only [Plan.getAngleDifference, Int.natCast_natAbs]
  · cases a <;> cases b <;> decide

theorem relpos_ok_mem {G : Graph} {c t : Nat} {r : Orientation}
    (h : Plan.getRelativePosition G c t = .ok r) : t ∈ G.neighbor c := by
  unfold Plan.getRelativePosition at h
  split at h
  · assumption
  · simp at h

/-- C4: `computeAction` follows the four-case rule: it stays with the heading unchanged when
the target is the current vertex; for a neighbour in direction `h_rel` it moves forward when
the angle difference is `0`, turns to `h_rel` in place when it is `90`, and makes one
counter-clockwise quarter turn in place when it is `180`; `rotateCounterClockwise` maps
`X_PLUS` to `Y_PLUS` to `X_MINUS` to `Y_MINUS` to `X_PLUS`. -/
theorem computeAction_four_cases (G : Graph) (current target : Nat) (h : Orientation) :
    (target = current → Plan.computeAction G current target h = .ok (current, h)) ∧
    (∀ h_rel, target ≠ current → target ∈ G.neighbor current →
        Plan.getRelativePosition G current target = .ok h_rel →
      (Plan.getAngleDifference h h_rel = 0 →
          Plan.computeAction G current target h = .ok (target, h_rel)) ∧
      (Plan.getAngleDifference h h_rel = 90 →
          Plan.computeAction G current target h = .ok (current, h_rel)) ∧
      (Plan.getAngleDifference h h_rel = 180 →
          Plan.computeAction G current target h =
            .ok (current, Plan.rotateCounterClockwise h))) ∧
    Plan.rotateCounterClockwise .X_PLUS = .Y_PLUS ∧
    Plan.rotateCounterClockwise .Y_PLUS = .X_MINUS ∧
    Plan.rotateCounterClockwise .X_MINUS = .Y_MINUS ∧
    Plan.rotateCounterClockwise .Y_MINUS = .X_PLUS := by
  refine ⟨?_, ?_, rfl, rfl, rfl, rfl⟩
  · intro e
    simp [Plan.computeAction, e]
  · intro h_rel hne hmem hrel
    have hne' : ¬ current = target := fun e => hne e.symm
    refine ⟨?_, ?_, ?_⟩ <;> intro hd <;>
      simp [Plan.computeAction, hne', hmem, hrel, hd]

theorem relpos_halted_iff (G : Graph) (c t : Nat) :
    Plan.getRelativePosition G c t = .halted ↔
      t ∉ G.neighbor c ∨ (G.pos_x t = G.pos_x c ∧ G.pos_y t = G.pos_y c) := by
  unfold Plan.getRelativePosition
  by_cases hm : t ∈ G.neighbor c
  · simp only [hm, if_true, not_true, false_or]
    split_ifs <;> simp <;> omega
  · simp [hm]

theorem relpos_not_starved (G : Graph) (c t : Nat) :
    Plan.getRelativePosition G c t ≠ .starved := by
  unfold Plan.getRelativePosition
  split_ifs <;> simp

theorem computeAction_of_relpos {G : Graph} {c t : Nat} {r : Orientation} (h : Orientation)
    (e : c ≠ t) (hr : Plan.getRelativePosition G c t = .ok r) :
    Plan.computeAction G c t h =
      .ok (if Plan.getAngleDifference h r = 0 then (t, r)
        else if Plan.getAngleDifference h r = 90 then (c, r)
        else (c, Plan.rotateCounterClockwise h)) := by
  have hmem := relpos_ok_mem hr
  rcases angle_cases h r with hd | hd | hd <;>
    simp [Plan.computeAction, e, hmem, hr, hd]

/-- C5: `computeAction` halts if and only if the target differs from the current vertex and
either is not in its neighbour list or shares its grid position; on every other input it
returns a result. -/
theorem computeAction_halts_iff (G : Graph) (current target : Nat) (h : Orientation) :
    (Plan.computeAction G current target h = .halted ↔
      target ≠ current ∧ (target ∉ G.neighbor current ∨
        (G.pos_x target = G.pos_x current ∧ G.pos_y target = G.pos_y current))) ∧
    (Plan.computeAction G current target h ≠ .halted →
      ∃ r, Plan.computeAction G current target h = .ok r) := by
  by_cases e : current = target
  · subst e
    simp [Plan.computeAction]
  · have e' : target ≠ current := fun h => e h.symm
    cases hr : Plan.getRelativePosition G current target with
    | ok r =>
      have hh := (relpos_halted_iff G current target).not.mp (by simp [hr])
      rw [computeAction_of_relpos h e hr]
      simp only [reduceCtorEq, false_iff, not_and, ne_eq, not_false_eq_true, forall_const]
      exact ⟨fun _ => hh, ⟨_, rfl⟩⟩
    | halted =>
      have hh := (relpos_halted_iff G current target).mp hr
      have : Plan.computeAction G current target h = .halted := by
        unfold Plan.computeAction
        simp only [e, if_false, hr, Outcome.bind_halted]
        split_ifs <;> rfl
      simp [this, e', hh]
    | starved => exact absurd hr (relpos_not_starved G current target)

theorem relpos_ok_ne {G : Graph} {c t : Nat} {r : Orientation}
    (h : Plan.getRelativePosition G c t = .ok r) : c ≠ t := by
  intro e
  subst e
  have := (relpos_halted_iff G c c).mpr (Or.inr ⟨rfl, rfl⟩)
  rw [this] at h
  exact absurd h (by simp)

theorem computeAction_turn_le (G : Graph) (c t : Nat) (h0 : Orientation) (w : Nat)
    (h1 : Orientation) (hc : Plan.computeAction G c t h0 = .ok (w, h1)) :
    Plan.getAngleDifference h0 h1 ≤ 90 := by
  by_cases e : c = t
  · subst e
    simp only [Plan.computeAction, if_true, Outcome.ok.injEq, Prod.mk.injEq] at hc
    rw [← hc.2]
    cases h0 <;> decide
  · cases hr : Plan.getRelativePosition G c t with
    | ok r =>
      rw [computeAction_of_relpos h0 e hr] at hc
      revert hc
      cases h0 <;> cases r <;>
        simp [Plan.getAngleDifference, dir_to_angle, Plan.rotateCounterClockwise] <;>
        (intro _ hh; subst hh; decide)
    | halted =>
      unfold Plan.computeAction at hc
      simp only [e, if_false, hr, Outcome.bind_halted] at hc
      split_ifs at hc
    | starved => exact absurd hr (relpos_not_starved G c t)

/-- C6: for a neighbour `t` of `v` in direction `h_rel` and `D` the angle difference between
`h` and `h_rel`, repeated invocations of `computeAction (v, t, .)`, each fed the heading
returned by the previous one, return vertex `v` for the first `D / 90` invocations and
`(t, h_rel)` on the next one (and `t` is not `v`); after the case `D = 180` the second
invocation returns heading `h_rel`; a single invocation changes the heading by at most 90
degrees. -/
theorem computeAction_iter_reaches (G : Graph) (v t : Nat) (h h_rel : Orientation)
    (hr : Plan.getRelativePosition G v t = .ok h_rel) :
    (∀ k, k < (Plan.getAngleDifference h h_rel / 90).toNat →
      ∃ h', Plan.computeAction_iter G v t k h = .ok (v, h')) ∧
    Plan.computeAction_iter G v t (Plan.getAngleDifference h h_rel / 90).toNat h =
      .ok (t, h_rel) ∧
    t ≠ v ∧
    (Plan.getAngleDifference h h_rel = 180 →
      ∃ h1, Plan.computeAction G v t h = .ok (v, h1) ∧
        Plan.computeAction G v t h1 = .ok (v, h_rel)) ∧
    (∀ h0 w h1, Plan.computeAction G v t h0 = .ok (w, h1) →
      Plan.getAngleDifference h0 h1 ≤ 90) := by
  have e : v ≠ t := relpos_ok_ne hr
  refine ⟨?_, ?_, fun x => e x.symm, ?_, fun h0 w h1 => computeAction_turn_le G v t h0 w h1⟩
  · intro k hk
    have hk2 : k = 0 ∨ k = 1 := by
      rcases angle_cases h h_rel with hd | hd | hd <;> rw [hd] at hk <;>
        norm_num at hk <;> omega
    rcases hk2 with rfl | rfl <;> revert hk <;> cases h <;> cases h_rel <;>
      simp [Plan.computeAction_iter, computeAction_of_relpos _ e hr, Plan.getAngleDifference,
        dir_to_angle, Plan.rotateCounterClockwise]
  · cases h <;> cases h_rel <;>
      simp [Plan.computeAction_iter, computeAction_of_relpos _ e hr, Plan.getAngleDifference,
        dir_to_angle, Plan.rotateCounterClockwise]
  · intro hd
    cases h <;> cases h_rel <;>
      simp [Plan.getAngleDifference, dir_to_angle] at hd <;>
      simp [computeAction_of_relpos _ e hr, Plan.getAngleDifference,
        dir_to_angle, Plan.rotateCounterClockwise]

/-- C10: the priority comparator of `run` is the lexicographic descending order on
`(elapsed, init_d, tie_breaker)`; it is irreflexive and transitive, and total on agents with
distinct `tie_breaker`. -/
theorem run_compare_lexicographic (a b c : Agent) :
    (PIBT.run_compare a b = true ↔
      a.elapsed > b.elapsed ∨ (a.elapsed = b.elapsed ∧ a.init_d > b.init_d) ∨
        (a.elapsed = b.elapsed ∧ a.init_d = b.init_d ∧ a.tie_breaker > b.tie_breaker)) ∧
    PIBT.run_compare a a = false ∧
    (PIBT.run_compare a b = true → PIBT.run_compare b c = true →
      PIBT.run_compare a c = true) ∧
    (a.tie_breaker ≠ b.tie_breaker →
      PIBT.run_compare a b = true ∨ PIBT.run_compare b a = true) := by
  have key : ∀ x y : Agent, PIBT.run_compare x y = true ↔
      x.elapsed > y.elapsed ∨ (x.elapsed = y.elapsed ∧ x.init_d > y.init_d) ∨
        (x.elapsed = y.elapsed ∧ x.init_d = y.init_d ∧ x.tie_breaker > y.tie_breaker) := by
    intro x y
    unfold PIBT.run_compare
    split_ifs with h1 h2
    · simp only [decide_eq_true_eq]
      constructor
      · exact fun h => Or.inl h
      · rintro (h | h | h)
        · exact h
        · exact absurd h.1 h1
        · exact absurd h.1 h1
    · simp only [not_not] at h1
      simp only [decide_eq_true_eq]
      constructor
      · exact fun h => Or.inr (Or.inl ⟨h1, h⟩)
      · rintro (h | h | h)
        · omega
        · exact h.2
        · exact absurd h.2.1 h2
    · simp only [not_not] at h1 h2
      simp only [decide_eq_true_eq]
      constructor
      · exact fun h => Or.inr (Or.inr ⟨h1, h2, h⟩)
      · rintro (h | h | h)
        · omega
        · omega
        · exact h.2.2
  refine ⟨key a b, ?_, ?_, ?_⟩
  · have := (key a a).not.mpr (by simp)
    simpa using this
  · intro hab hbc
    rw [key] at hab hbc ⊢
    rcases hab with h | h | h <;> rcases hbc with h' | h' | h'
    · exact Or.inl (by omega)
    · exact Or.inl (by omega)
    · exact Or.inl (by omega)
    · exact Or.inl (by omega)
    · exact Or.inr (Or.inl ⟨by omega, by omega⟩)
    · exact Or.inr (Or.inl ⟨by omega, by omega⟩)
    · exact Or.inl (by omega)
    · exact Or.inr (Or.inl ⟨by omega, by omega⟩)
    · exact Or.inr (Or.inr ⟨by omega, by omega, lt_trans h'.2.2 h.2.2⟩)
  · intro hne
    rw [key, key]
    rcases lt_trichotomy a.elapsed b.elapsed with h | h | h
    · exact Or.inr (Or.inl h)
    · rcases lt_trichotomy a.init_d b.init_d with h' | h' | h'
      · exact Or.inr (Or.inr (Or.inl ⟨h.symm, h'⟩))
      · rcases lt_trichotomy a.tie_breaker b.tie_breaker with h'' | h'' | h''
        · exact Or.inr (Or.inr (Or.inr ⟨h.symm, h'.symm, h''⟩))
        · exact absurd h'' hne
        · exact Or.inl (Or.inr (Or.inr ⟨h, h', h''⟩))
      · exact Or.inl (Or.inr (Or.inl ⟨h, h'⟩))
    · exact Or.inl (Or.inl h)

/-- Witness of C4 on the two-vertex corridor: facing away from the neighbour, the agent makes
a counter-clockwise quarter turn in place. -/
theorem computeAction_four_cases_witness :
    Plan.computeAction corridor2 0 1 .X_MINUS = .ok (0, .Y_MINUS) :=
  ((computeAction_four_cases corridor2 0 1 .X_MINUS).2.1 .X_PLUS (by decide) (by decide)
    (by decide)).2.2 (by decide)

/-- Witness of C6 on the two-vertex corridor: facing away from the neighbour, the third
invocation is the forward move. -/
theorem computeAction_iter_reaches_witness :
    Plan.getRelativePosition corridor2 0 1 = .ok .X_PLUS ∧
      Plan.computeAction_iter corridor2 0 1 2 .X_MINUS = .ok (1, .X_PLUS) :=
  ⟨by decide, (computeAction_iter_reaches corridor2 0 1 .X_MINUS .X_PLUS (by decide)).2.1⟩

/-! ## The invariants of `funcPIBT` and `run` -/

@[simp] theorem setAgent_agents (s : PIBT) (i : Nat) (a : Agent) :
    (s.setAgent i a).agents = Function.update s.agents i a := rfl

@[simp] theorem setAgent_occupied_next (s : PIBT) (i : Nat) (a : Agent) :
    (s.setAgent i a).occupied_next = s.occupied_next := rfl

@[simp] theorem setAgent_occupied_now (s : PIBT) (i : Nat) (a : Agent) :
    (s.setAgent i a).occupied_now = s.occupied_now := rfl

@[simp] theorem setAgent_rest (s : PIBT) (i : Nat) (a : Agent) :
    (s.setAgent i a).A = s.A ∧ (s.setAgent i a).solution = s.solution ∧
    (s.setAgent i a).solved = s.solved ∧ (s.setAgent i a).cycle_handled = s.cycle_handled ∧
    (s.setAgent i a).request_chain = s.request_chain ∧
    (s.setAgent i a).initial_requester = s.initial_requester :=
  ⟨rfl, rfl, rfl, rfl, rfl, rfl⟩

theorem tentative_not_decided {s : PIBT} {a : Nat} (h : s.tentative a) : ¬ s.decided a :=
  fun hd => hd h.2

theorem inv_unplanned_ott {G : Graph} {n : Nat} {s : PIBT} (hi : s.Inv G n) {a : Nat}
    (ha : a < n) (h : (s.agents a).v_next = none) : (s.agents a).ott_next = none := by
  cases ho : (s.agents a).ott_next with
  | none => rfl
  | some o =>
    obtain ⟨w, hw, _⟩ := hi.d1 a ha o ho
    rw [h] at hw
    exact absurd hw (by simp)

theorem inv_unplanned_not_decided {G : Graph} {n : Nat} {s : PIBT} (hi : s.Inv G n) {a : Nat}
    (ha : a < n) (h : (s.agents a).v_next = none) : ¬ s.decided a :=
  fun hd => hd (inv_unplanned_ott hi ha h)

theorem base_inj {n : Nat} {s : PIBT} (hb : s.Base n) {a b : Nat} (ha : a < n) (hb' : b < n)
    (h : (s.agents a).v_now = (s.agents b).v_now) : a = b := by
  have h1 := (hb.occ_now (s.agents b).v_now a).mpr ⟨ha, h⟩
  have h2 := (hb.occ_now (s.agents b).v_now b).mpr ⟨hb', rfl⟩
  rw [h1] at h2
  exact Option.some.inj h2

/-- An agent that is not a decided mover becomes a decided stayer; `occupied_next` changes
only at its vertex and at vertices `W` that no decided agent moves to. -/
theorem inv_stay {G : Graph} {n : Nat} {s s' : PIBT} {x : Nat} (W : Nat → Prop)
    (hb : s.Base n) (hi : s.Inv G n) (hx : x < n)
    (hnm : s.decided x → (s.agents x).v_next = some (s.agents x).v_now)
    (hag : ∀ a, a ≠ x → s'.agents a = s.agents a)
    (hst : (s'.agents x).v_now = (s.agents x).v_now)
    (hvn : (s'.agents x).v_next = some (s.agents x).v_now)
    (hon : (s'.agents x).ott_next ≠ none)
    (hocc : ∀ w, w ≠ (s.agents x).v_now → ¬ W w → s'.occupied_next w = s.occupied_next w)
    (hWd : ∀ w, W w → ∀ d, d < n → s.decided d → (s.agents d).v_next = some w →
      w = (s.agents d).v_now)
    (hWt : ∀ w, W w → w ≠ (s.agents x).v_now → ∀ a, a < n → a ≠ x → s.tentative a →
      (s.agents a).v_next = some w →
      s'.occupied_next w = some a ∨
        ∃ b, b < n ∧ b ≠ x ∧ (s.agents b).v_now = w ∧ s.decided b ∧
          (s.agents b).v_next = some w) :
    s'.Inv G n := by
  have hdec : ∀ a, a ≠ x → (s'.decided a ↔ s.decided a) := by
    intro a ha; unfold PIBT.decided; rw [hag a ha]
  have hten : ∀ a, a ≠ x → (s'.tentative a ↔ s.tentative a) := by
    intro a ha; unfold PIBT.tentative; rw [hag a ha]
  have hxt : ¬ s'.tentative x := fun h => hon h.2
  have hvnow : ∀ a, (s'.agents a).v_now = (s.agents a).v_now := by
    intro a
    by_cases ha : a = x
    · rw [ha, hst]
    · rw [hag a ha]
  have hnomove : ∀ a, a < n → s.decided a → ∀ w, (s.agents a).v_next = some w →
      w ≠ (s.agents a).v_now → w ≠ (s.agents x).v_now := by
    intro a ha hd w hw hne e
    have h3 := hi.d3 a ha hd w hw hne x hx e.symm
    exact h3.2.1 (by rw [hnm h3.1, e])
  constructor
  · intro a ha o ho
    by_cases hax : a = x
    · subst hax
      exact ⟨_, hvn, Or.inl hst.symm⟩
    · rw [hag a hax] at ho ⊢
      exact hi.d1 a ha o ho
  · intro a ha hd w hw hne
    by_cases hax : a = x
    · subst hax
      rw [hvn] at hw
      rw [hst] at hne
      exact absurd (Option.some.inj hw).symm hne
    · have hd' := (hdec a hax).mp hd
      rw [hag a hax] at hw hne
      have hwx : w ≠ (s.agents x).v_now := hnomove a ha hd' w hw hne
      have hWw : ¬ W w := fun hW => hne (hWd w hW a ha hd' hw)
      rw [hocc w hwx hWw]
      exact hi.d2 a ha hd' w hw hne
  · intro a ha hd w hw hne b hb' hbw
    by_cases hax : a = x
    · subst hax
      rw [hvn] at hw
      rw [hst] at hne
      exact absurd (Option.some.inj hw).symm hne
    · have hd' := (hdec a hax).mp hd
      rw [hag a hax] at hw hne ⊢
      rw [hvnow b] at hbw
      have h3 := hi.d3 a ha hd' w hw hne b hb' hbw
      have hbx : b ≠ x := by
        intro e; subst e
        exact hnomove a ha hd' w hw hne hbw.symm
      rw [hag b hbx]
      exact ⟨(hdec b hbx).mpr h3.1, h3.2⟩
  · intro a ha ht u hu b hb' hbu hba
    by_cases hax : a = x
    · subst hax; exact absurd ht hxt
    · have ht' := (hten a hax).mp ht
      rw [hag a hax] at hu ⊢
      rw [hvnow b] at hbu
      by_cases hbx : b = x
      · subst hbx
        rw [hvn]
        intro e
        exact hax (base_inj hb ha hb' (Option.some.inj e).symm)
      · rw [hag b hbx]
        exact hi.t1 a ha ht' u hu b hb' hbu hba
  · intro a ha ht u hu
    by_cases hax : a = x
    · subst hax; exact absurd ht hxt
    · have ht' := (hten a hax).mp ht
      rw [hag a hax] at hu
      by_cases hux : u = (s.agents x).v_now
      · right
        exact ⟨x, hx, by rw [hst, hux], hon, by rw [hvn, hux]⟩
      · by_cases hWu : W u
        · rcases hWt u hWu hux a ha hax ht' hu with h | ⟨b, hb1, hbx, hb2, hb3, hb4⟩
          · exact Or.inl h
          · right
            refine ⟨b, hb1, ?_, (hdec b hbx).mpr hb3, ?_⟩
            · rw [hag b hbx]; exact hb2
            · rw [hag b hbx]; exact hb4
        · rw [hocc u hux hWu]
          rcases hi.t2 a ha ht' u hu with h | ⟨b, hb1, hb2, hb3, hb4⟩
          · exact Or.inl h
          · right
            have hbx : b ≠ x := by
              intro e; subst e; exact hux hb2.symm
            refine ⟨b, hb1, ?_, (hdec b hbx).mpr hb3, ?_⟩
            · rw [hag b hbx]; exact hb2
            · rw [hag b hbx]; exact hb4

/-- An agent that is not yet decided becomes a decided mover to `w`, whose occupant (if any)
is decided to leave; `occupied_next` changes only at `w`. -/
theorem inv_move {G : Graph} {n : Nat} {s s' : PIBT} {x w : Nat} {o : Orientation}
    (hi : s.Inv G n) (hx : x < n) (hnd : ¬ s.decided x)
    (hag : ∀ a, a ≠ x → s'.agents a = s.agents a)
    (hst : (s'.agents x).v_now = (s.agents x).v_now)
    (hott : (s'.agents x).ott_now = (s.agents x).ott_now)
    (hvn : (s'.agents x).v_next = some w)
    (hon : (s'.agents x).ott_next = some o)
    (hne : w ≠ (s.agents x).v_now)
    (hrel : (s.agents x).ott_now = some o ∧
      Plan.getRelativePosition G (s.agents x).v_now w = .ok o)
    (hoccw : s'.occupied_next w = some x)
    (hocc : ∀ y, y ≠ w → s'.occupied_next y = s.occupied_next y)
    (H1 : ∀ b, b < n → (s.agents b).v_now = w →
      s.decided b ∧ (s.agents b).v_next ≠ some w ∧ (s.agents b).v_next ≠ some (s.agents x).v_now)
    (H2 : ∀ d, d < n → d ≠ x → s.decided d → (s.agents d).v_next ≠ some w)
    (H4 : ∀ a, a < n → a ≠ x → s.tentative a → (s.agents a).v_next = some (s.agents x).v_now →
      w ≠ (s.agents a).v_now)
    (H5 : ∀ a, a < n → a ≠ x → s.tentative a → (s.agents a).v_next ≠ some w) :
    s'.Inv G n := by
  have hdec : ∀ a, a ≠ x → (s'.decided a ↔ s.decided a) := by
    intro a ha; unfold PIBT.decided; rw [hag a ha]
  have hten : ∀ a, a ≠ x → (s'.tentative a ↔ s.tentative a) := by
    intro a ha; unfold PIBT.tentative; rw [hag a ha]
  have hxd : s'.decided x := by unfold PIBT.decided; rw [hon]; simp
  have hxt : ¬ s'.tentative x := fun h => hxd h.2
  have hvnow : ∀ a, (s'.agents a).v_now = (s.agents a).v_now := by
    intro a
    by_cases ha : a = x
    · rw [ha, hst]
    · rw [hag a ha]
  constructor
  · intro a ha o' ho
    by_cases hax : a = x
    · subst hax
      rw [hon] at ho
      cases ho
      exact ⟨w, hvn, Or.inr (by rw [hott, hst]; exact hrel)⟩
    · rw [hag a hax] at ho ⊢
      exact hi.d1 a ha o' ho
  · intro a ha hd y hy hny
    by_cases hax : a = x
    · subst hax
      rw [hvn] at hy
      cases hy
      exact hoccw
    · have hd' := (hdec a hax).mp hd
      rw [hag a hax] at hy hny
      have hyw : y ≠ w := by
        intro e; subst e; exact H2 a ha hax hd' hy
      rw [hocc y hyw]
      exact hi.d2 a ha hd' y hy hny
  · intro a ha hd y hy hny b hb' hby
    rw [hvnow b] at hby
    by_cases hax : a = x
    · subst hax
      rw [hvn] at hy
      cases hy
      rw [hst]
      have h1 := H1 b hb' hby
      have hbx : b ≠ a := by
        intro e; subst e; exact hnd h1.1
      rw [hag b hbx]
      exact ⟨(hdec b hbx).mpr h1.1, h1.2⟩
    · have hd' := (hdec a hax).mp hd
      rw [hag a hax] at hy hny ⊢
      have h3 := hi.d3 a ha hd' y hy hny b hb' hby
      have hbx : b ≠ x := by
        intro e; subst e; exact hnd h3.1
      rw [hag b hbx]
      exact ⟨(hdec b hbx).mpr h3.1, h3.2⟩
  · intro a ha ht u hu b hb' hbu hba
    by_cases hax : a = x
    · subst hax; exact absurd ht hxt
    · have ht' := (hten a hax).mp ht
      rw [hag a hax] at hu ⊢
      rw [hvnow b] at hbu
      by_cases hbx : b = x
      · subst hbx
        rw [hvn]
        intro e
        rw [← hbu] at hu
        exact H4 a ha hax ht' hu (Option.some.inj e)
      · rw [hag b hbx]
        exact hi.t1 a ha ht' u hu b hb' hbu hba
  · intro a ha ht u hu
    by_cases hax : a = x
    · subst hax; exact absurd ht hxt
    · have ht' := (hten a hax).mp ht
      rw [hag a hax] at hu
      have huw : u ≠ w := by
        intro e; subst e; exact H5 a ha hax ht' hu
      rw [hocc u huw]
      rcases hi.t2 a ha ht' u hu with h | ⟨b, hb1, hb2, hb3, hb4⟩
      · exact Or.inl h
      · right
        have hbx : b ≠ x := by
          intro e; subst e; exact hnd hb3
        refine ⟨b, hb1, ?_, (hdec b hbx).mpr hb3, ?_⟩
        · rw [hag b hbx]; exact hb2
        · rw [hag b hbx]; exact hb4

theorem computeAction_ok_cases {G : Graph} {c t : Nat} {h : Orientation} {act : Nat × Orientation}
    (hc : Plan.computeAction G c t h = .ok act) :
    act.1 = c ∨ (act = (t, h) ∧ t ≠ c ∧ Plan.getRelativePosition G c t = .ok h) := by
  by_cases e : c = t
  · subst e
    simp only [Plan.computeAction, if_true, Outcome.ok.injEq] at hc
    left; rw [← hc]
  · cases hr : Plan.getRelativePosition G c t with
    | ok r =>
      rw [computeAction_of_relpos h e hr] at hc
      simp only [Outcome.ok.injEq] at hc
      by_cases hd : Plan.getAngleDifference h r = 0
      · right
        have hrh : h = r := (angle_zero_iff h r).mp hd
        subst hrh
        simp only [hd, if_true] at hc
        exact ⟨hc.symm, fun e' => e e'.symm, rfl⟩
      · left
        simp only [hd, if_false] at hc
        split_ifs at hc <;> rw [← hc]
    | halted =>
      unfold Plan.computeAction at hc
      simp only [e, if_false, hr, Outcome.bind_halted] at hc
      split_ifs at hc
    | starved => exact absurd hr (relpos_not_starved G c t)

theorem frame_refl (s : PIBT) : s.Frame s :=
  ⟨fun _ => ⟨rfl, rfl, rfl, rfl, rfl, rfl, rfl⟩, rfl, rfl, rfl, rfl⟩

theorem frame_trans {s1 s2 s3 : PIBT} (h12 : s1.Frame s2) (h23 : s2.Frame s3) : s1.Frame s3 := by
  refine ⟨fun a => ?_, h23.occupied_now.trans h12.occupied_now, h23.order.trans h12.order,
    h23.solution.trans h12.solution, h23.solved.trans h12.solved⟩
  obtain ⟨a1, a2, a3, a4, a5, a6, a7⟩ := h12.agents a
  obtain ⟨b1, b2, b3, b4, b5, b6, b7⟩ := h23.agents a
  exact ⟨b1.trans a1, b2.trans a2, b3.trans a3, b4.trans a4, b5.trans a5, b6.trans a6,
    b7.trans a7⟩

theorem base_of_frame {n : Nat} {s s' : PIBT} (hb : s.Base n) (hf : s.Frame s') : s'.Base n := by
  constructor
  · intro a ha
    rw [(hf.agents a).1]; exact hb.id_eq a ha
  · intro a ha
    rw [(hf.agents a).2.2.2.1]; exact hb.ott_now a ha
  · intro x a
    rw [hf.occupied_now, (hf.agents a).2.1]; exact hb.occ_now x a

theorem updatePushCount_proj (E : Env) (t : PIBT) (i j : Nat) :
    (PIBT.updatePushCount E t i j).agents = t.agents ∧
    (PIBT.updatePushCount E t i j).occupied_next = t.occupied_next ∧
    (PIBT.updatePushCount E t i j).occupied_now = t.occupied_now ∧
    (PIBT.updatePushCount E t i j).A = t.A ∧
    (PIBT.updatePushCount E t i j).solution = t.solution ∧
    (PIBT.updatePushCount E t i j).solved = t.solved ∧
    (PIBT.updatePushCount E t i j).cycle_handled = t.cycle_handled ∧
    (PIBT.updatePushCount E t i j).initial_requester = t.initial_requester ∧
    (PIBT.updatePushCount E t i j).request_chain = t.request_chain := by
  unfold PIBT.updatePushCount
  split_ifs <;> simp [PIBT.setPushCount]

theorem own_action_stay (E : Env) (s : PIBT) (ai : Nat) (aj : Option Nat) (is_initial : Bool)
    (u nn : Nat) (no : Orientation) (hnn : nn = (s.agents ai).v_now) :
    s.Touch (PIBT.own_action E s ai aj is_initial u nn no) ai ∧
    ((PIBT.own_action E s ai aj is_initial u nn no).agents ai).v_next =
      some (s.agents ai).v_now ∧
    ((PIBT.own_action E s ai aj is_initial u nn no).agents ai).ott_next = some no ∧
    ∀ w, w ≠ (s.agents ai).v_now → w ≠ u →
      (PIBT.own_action E s ai aj is_initial u nn no).occupied_next w = s.occupied_next w := by
  unfold PIBT.own_action
  rw [if_pos hnn]
  simp only [PIBT.set_v_next, PIBT.set_ott_next, PIBT.setOccupiedNext, PIBT.setReserved,
    PIBT.setAgent, Function.update_same]
  split_ifs <;>
    refine ⟨⟨⟨fun a => ?_, rfl, rfl, rfl, rfl⟩, rfl, rfl, rfl, fun a ha => ?_⟩, ?_, ?_,
      fun w hw1 hw2 => ?_⟩ <;>
    simp [Function.update_apply, Agent.static_eq, *] <;>
    split_ifs <;> subst_vars <;> simp

theorem own_action_move (E : Env) (s : PIBT) (ai : Nat) (aj : Option Nat) (is_initial : Bool)
    (u nn : Nat) (no : Orientation) (hnn : nn ≠ (s.agents ai).v_now) :
    s.Touch (PIBT.own_action E s ai aj is_initial u nn no) ai ∧
    ((PIBT.own_action E s ai aj is_initial u nn no).agents ai).v_next = some nn ∧
    ((PIBT.own_action E s ai aj is_initial u nn no).agents ai).ott_next = some no ∧
    (PIBT.own_action E s ai aj is_initial u nn no).occupied_next nn = some ai ∧
    ∀ w, w ≠ nn →
      (PIBT.own_action E s ai aj is_initial u nn no).occupied_next w = s.occupied_next w := by
  unfold PIBT.own_action
  rw [if_neg hnn]
  simp only [PIBT.set_v_next, PIBT.set_ott_next, PIBT.setOccupiedNext, PIBT.setReserved,
    PIBT.setAgent, Function.update_same]
  have hp := updatePushCount_proj E
  split <;> [split_ifs; skip] <;>
    refine ⟨⟨⟨fun a => ?_, ?_, ?_, ?_, ?_⟩, ?_, ?_, ?_, fun a ha => ?_⟩, ?_, ?_, ?_,
      fun w hw1 => ?_⟩ <;>
    simp [Function.update_apply, Agent.static_eq, hp, *] <;>
    split_ifs <;> subst_vars <;> simp

theorem blocker_rule_effect (s : PIBT) (ai u nn : Nat) :
    ((∃ al, s.occupied_now u = some al ∧ (s.agents al).v_next = some (s.agents al).v_now) ∧
      nn ≠ (s.agents ai).v_now ∧
      s.Touch (PIBT.blocker_rule s ai u nn) ai ∧
      ((PIBT.blocker_rule s ai u nn).agents ai).v_next = some (s.agents ai).v_now ∧
      ((PIBT.blocker_rule s ai u nn).agents ai).ott_next = (s.agents ai).ott_now ∧
      ∀ w, w ≠ (s.agents ai).v_now →
        (PIBT.blocker_rule s ai u nn).occupied_next w = s.occupied_next w) ∨
    ((nn ≠ (s.agents ai).v_now → ∀ al, s.occupied_now u = some al →
        (s.agents al).v_next ≠ some (s.agents al).v_now) ∧
      PIBT.blocker_rule s ai u nn = s) := by
  unfold PIBT.blocker_rule
  cases hocc : s.occupied_now u with
  | none => right; simp
  | some al =>
    simp only
    by_cases hst : (s.agents al).v_next = some (s.agents al).v_now
    · by_cases hnn : nn ≠ (s.agents ai).v_now
      · left
        rw [if_pos hst, if_pos hnn]
        refine ⟨⟨al, rfl, hst⟩, hnn, ?_⟩
        simp only [PIBT.set_v_next, PIBT.set_ott_next, PIBT.setOccupiedNext, PIBT.setReserved,
          PIBT.setAgent, Function.update_same]
        refine ⟨⟨⟨fun a => ?_, rfl, rfl, rfl, rfl⟩, rfl, rfl, rfl, fun a ha => ?_⟩, ?_, ?_,
          fun w hw1 => ?_⟩ <;>
        simp [Function.update_apply, Agent.static_eq, *] <;>
        split_ifs <;> subst_vars <;> simp
      · right
        rw [if_pos hst, if_neg hnn]
        exact ⟨fun h => absurd h hnn, rfl⟩
    · right
      rw [if_neg hst]
      refine ⟨fun _ al' h => ?_, rfl⟩
      cases h
      exact hst

theorem touch_trans {s1 s2 s3 : PIBT} {x : Nat} (h12 : s1.Touch s2 x) (h23 : s2.Touch s3 x) :
    s1.Touch s3 x :=
  ⟨frame_trans h12.frame h23.frame, h23.handled.trans h12.handled,
    h23.requester.trans h12.requester, h23.chain.trans h12.chain,
    fun a ha => (h23.others a ha).trans (h12.others a ha)⟩

/-- The state after the agent's own action and the blocker rule differs from the state
before in the record of the agent and in `occupied_next`; three cases: a turn in place, a
forward move withdrawn because the occupant of the target stays, a forward move. -/
theorem own_blocker_effect (E : Env) (s : PIBT) (ai : Nat) (aj : Option Nat) (is_initial : Bool)
    (u nn : Nat) (no : Orientation) (hu : nn = (s.agents ai).v_now ∨ nn = u) :
    s.Touch (PIBT.blocker_rule (PIBT.own_action E s ai aj is_initial u nn no) ai u nn) ai ∧
    ((((PIBT.blocker_rule (PIBT.own_action E s ai aj is_initial u nn no) ai u nn).agents
          ai).v_next = some (s.agents ai).v_now ∧
        (((PIBT.blocker_rule (PIBT.own_action E s ai aj is_initial u nn no) ai u nn).agents
          ai).ott_next = some no ∨
         ((PIBT.blocker_rule (PIBT.own_action E s ai aj is_initial u nn no) ai u nn).agents
          ai).ott_next = (s.agents ai).ott_now) ∧
        ∀ w, w ≠ (s.agents ai).v_now → w ≠ u →
          (PIBT.blocker_rule (PIBT.own_action E s ai aj is_initial u nn no) ai u
            nn).occupied_next w = s.occupied_next w) ∨
     (nn = u ∧ u ≠ (s.agents ai).v_now ∧
        (∀ al, al ≠ ai → s.occupied_now u = some al →
          (s.agents al).v_next ≠ some (s.agents al).v_now) ∧
        ((PIBT.blocker_rule (PIBT.own_action E s ai aj is_initial u nn no) ai u nn).agents
          ai).v_next = some u ∧
        ((PIBT.blocker_rule (PIBT.own_action E s ai aj is_initial u nn no) ai u nn).agents
          ai).ott_next = some no ∧
        (PIBT.blocker_rule (PIBT.own_action E s ai aj is_initial u nn no) ai u
          nn).occupied_next u = some ai ∧
        ∀ w, w ≠ u →
          (PIBT.blocker_rule (PIBT.own_action E s ai aj is_initial u nn no) ai u
            nn).occupied_next w = s.occupied_next w)) := by
  by_cases hnn : nn = (s.agents ai).v_now
  · obtain ⟨ht, h1, h2, h3⟩ := own_action_stay E s ai aj is_initial u nn no hnn
    have hv : ((PIBT.own_action E s ai aj is_initial u nn no).agents ai).v_now = nn := by
      rw [(ht.frame.agents ai).2.1, hnn]
    rcases blocker_rule_effect (PIBT.own_action E s ai aj is_initial u nn no) ai u nn with
      ⟨_, hne, _⟩ | ⟨_, he⟩
    · exact absurd hv.symm hne
    · rw [he]
      exact ⟨ht, Or.inl ⟨h1, Or.inl h2, h3⟩⟩
  · have hnu : nn = u := hu.resolve_left hnn
    subst hnu
    obtain ⟨ht, h1, h2, h3, h4⟩ := own_action_move E s ai aj is_initial nn nn no hnn
    have hv : ((PIBT.own_action E s ai aj is_initial nn nn no).agents ai).v_now =
        (s.agents ai).v_now := (ht.frame.agents ai).2.1
    have hot : ((PIBT.own_action E s ai aj is_initial nn nn no).agents ai).ott_now =
        (s.agents ai).ott_now := (ht.frame.agents ai).2.2.2.1
    rcases blocker_rule_effect (PIBT.own_action E s ai aj is_initial nn nn no) ai nn nn with
      ⟨_, _, ht2, g1, g2, g3⟩ | ⟨hno, he⟩
    · refine ⟨touch_trans ht ht2, Or.inl ⟨by rw [g1, hv], Or.inr (by rw [g2, hot]), ?_⟩⟩
      intro w hw1 hw2
      rw [g3 w (by rw [hv]; exact hw1), h4 w hw2]
    · rw [he]
      refine ⟨ht, Or.inr ⟨rfl, hnn, ?_, h1, h2, h3, h4⟩⟩
      intro al hal hocc
      have := hno (by rw [hv]; exact hnn) al (by rw [ht.frame.occupied_now]; exact hocc)
      rw [ht.others al hal] at this
      exact this

theorem touch_tentative {s s' : PIBT} {x a : Nat} (ht : s.Touch s' x) (ha : a ≠ x) :
    s'.tentative a ↔ s.tentative a := by
  unfold PIBT.tentative; rw [ht.others a ha]

theorem touch_decided {s s' : PIBT} {x a : Nat} (ht : s.Touch s' x) (ha : a ≠ x) :
    s'.decided a ↔ s.decided a := by
  unfold PIBT.decided; rw [ht.others a ha]

theorem touch_v_now {s s' : PIBT} {x : Nat} (ht : s.Touch s' x) (a : Nat) :
    (s'.agents a).v_now = (s.agents a).v_now := (ht.frame.agents a).2.1

/-- A block that determines the action of `x` gives the relation `Ext`. -/
theorem ext_of_touch {n : Nat} {s s' : PIBT} {x : Nat} (ht : s.Touch s' x)
    (hd : s.decided x → s'.decided x) : s.Ext n s' x := by
  refine ⟨ht.frame, ht.requester, fun a _ hax _ => ht.others a hax,
    fun a _ hax h => (touch_tentative ht hax).mp h, fun a _ h => ?_⟩
  by_cases hax : a = x
  · subst hax; exact hd h
  · exact (touch_decided ht hax).mpr h

theorem deciding_no_mover {G : Graph} {n : Nat} {s : PIBT} {ai u : Nat} {aj : Option Nat}
    (hD : s.Deciding G n ai u aj) :
    ∀ d, d < n → s.decided d → (s.agents d).v_next = some u → u = (s.agents d).v_now := by
  intro d hd hdd hdu
  by_contra hne
  have h2 := hD.inv.d2 d hd hdd u hdu hne
  rcases hD.reservation with h | ⟨b, hb, hbu, hbd, hbs⟩
  · rw [h] at h2
    cases h2
    exact tentative_not_decided hD.tent hdd
  · exact (hD.inv.d3 d hd hdd u hdu hne b hb hbu).2.1 hbs

theorem deciding_untargeted {G : Graph} {n : Nat} {s : PIBT} {ai u : Nat} {aj : Option Nat}
    (hD : s.Deciding G n ai u aj) :
    ∀ d, d < n → d ≠ ai → s.decided d → (s.agents d).v_next ≠ some (s.agents ai).v_now := by
  intro d hd hdai hdd hdv
  have hne : (s.agents ai).v_now ≠ (s.agents d).v_now :=
    fun e => hdai (base_inj hD.base hd hD.ai_lt e.symm)
  exact tentative_not_decided hD.tent
    (hD.inv.d3 d hd hdd _ hdv hne ai hD.ai_lt rfl).1

theorem deciding_parent_unique {G : Graph} {n : Nat} {s : PIBT} {ai u : Nat} {aj : Option Nat}
    (hD : s.Deciding G n ai u aj) {a : Nat} (ha : a < n) (hat : s.tentative a) (hai : a ≠ ai)
    (hv : (s.agents a).v_next = some (s.agents ai).v_now) : aj = some a := by
  cases haj : aj with
  | none => exact absurd (hD.alone haj a ha hat) hai
  | some j =>
    obtain ⟨hj, hjai, hjt, hjv, _⟩ := hD.pusher j haj
    have h1 := hD.holds a ha hat hai _ hv
    have h2 := hD.holds j hj hjt hjai _ hjv
    rw [h1] at h2
    exact h2.symm ▸ rfl

/-- The agent's own action and the blocker rule determine the action of the agent and keep
the invariant. -/
theorem own_blocker_final {E : Env} {n : Nat} {s : PIBT} {ai u : Nat} {aj : Option Nat}
    {is_initial : Bool} {act : Nat × Orientation} {o : Orientation}
    (hD : s.Deciding E.G n ai u aj) (hch : s.cycle_handled = false)
    (ho : (s.agents ai).ott_now = some o)
    (hact : Plan.computeAction E.G (s.agents ai).v_now u o = .ok act) :
    s.Ext n (PIBT.blocker_rule (PIBT.own_action E s ai aj is_initial u act.1 act.2) ai u
      act.1) ai ∧
    (PIBT.blocker_rule (PIBT.own_action E s ai aj is_initial u act.1 act.2) ai u
      act.1).Final E.G n ai aj ∧
    (∀ d, d < n → d ≠ ai →
      (PIBT.blocker_rule (PIBT.own_action E s ai aj is_initial u act.1 act.2) ai u
        act.1).decided d →
      ((PIBT.blocker_rule (PIBT.own_action E s ai aj is_initial u act.1 act.2) ai u
        act.1).agents d).v_next ≠ some (s.agents ai).v_now) ∧
    (PIBT.blocker_rule (PIBT.own_action E s ai aj is_initial u act.1 act.2) ai u
      act.1).Base n := by
  have hcases := computeAction_ok_cases hact
  have hu : act.1 = (s.agents ai).v_now ∨ act.1 = u := by
    rcases hcases with h | ⟨h, _, _⟩
    · exact Or.inl h
    · exact Or.inr (by rw [h])
  obtain ⟨ht, hcase⟩ := own_blocker_effect E s ai aj is_initial u act.1 act.2 hu
  generalize PIBT.blocker_rule (PIBT.own_action E s ai aj is_initial u act.1 act.2) ai u
      act.1 = s2 at ht hcase ⊢
  have hnd : ¬ s.decided ai := tentative_not_decided hD.tent
  have hbase2 : s2.Base n := base_of_frame hD.base ht.frame
  have hunt : ∀ d, d < n → d ≠ ai → s2.decided d →
      (s2.agents d).v_next ≠ some (s.agents ai).v_now := by
    intro d hd hdai hdd
    rw [ht.others d hdai]
    exact deciding_untargeted hD d hd hdai ((touch_decided ht hdai).mp hdd)
  have hinv2 : s2.Inv E.G n ∧ s2.decided ai ∧
      (∀ j, aj = some j → (s2.agents ai).v_next ≠ some (s.agents j).v_now) ∧
      (∀ a, a < n → a ≠ ai → s.tentative a → aj ≠ some a →
        ∀ w, (s.agents a).v_next = some w → s2.occupied_next w = s.occupied_next w) ∧
      (∀ j, aj = some j → s2.occupied_next (s.agents ai).v_now = some j ∨
        (s2.agents ai).v_next = some (s.agents ai).v_now) := by
    rcases hcase with ⟨hvn, hon, hocc⟩ | ⟨hnu, hune, hnoblock, hvn, hon, hoccu, hocc⟩
    · have hon' : (s2.agents ai).ott_next ≠ none := by
        rcases hon with h | h
        · rw [h]; simp
        · rw [h, ho]; simp
      refine ⟨?_, hon', ?_, ?_, fun j _ => Or.inr hvn⟩
      · refine inv_stay (fun w => w = u) hD.base hD.inv hD.ai_lt (fun h => absurd h hnd)
          ht.others (touch_v_now ht ai) hvn hon' hocc ?_ ?_
        · intro w hw d hd hdd hdw
          subst hw
          exact deciding_no_mover hD d hd hdd hdw
        · intro w hw _ a ha hax hta hva
          subst hw
          exact absurd hva (hD.exclusive a ha hta hax)
      · intro j hj
        rw [hvn]
        obtain ⟨hjn, hjai, _⟩ := hD.pusher j hj
        intro e
        exact hjai (base_inj hD.base hjn hD.ai_lt (Option.some.inj e).symm)
      · intro a ha hai hta haj w hw
        apply hocc
        · intro e
          subst e
          exact haj (deciding_parent_unique hD ha hta hai hw)
        · intro e
          subst e
          exact hD.exclusive a ha hta hai hw
    · have hact' : act = (u, o) ∧ Plan.getRelativePosition E.G (s.agents ai).v_now u = .ok o := by
        rcases hcases with h | ⟨h, _, h3⟩
        · exact absurd (hnu ▸ h) hune
        · exact ⟨h, h3⟩
      have hon2 : (s2.agents ai).ott_next = some o := by rw [hon, hact'.1]
      have hocc_u : ∀ b, b < n → (s.agents b).v_now = u →
          s.decided b ∧ (s.agents b).v_next ≠ some u ∧
            (s.agents b).v_next ≠ some (s.agents ai).v_now := by
        intro b hb hbu
        have hbai : b ≠ ai := by
          intro e; subst e; exact hune hbu.symm
        rcases hD.occupant b hb hbu with h | ⟨h1, h2⟩
        · exact absurd h hbai
        · refine ⟨h1, ?_, h2⟩
          have := hnoblock b hbai ((hD.base.occ_now u b).mpr ⟨hb, hbu⟩)
          rw [hbu] at this
          exact this
      refine ⟨?_, by unfold PIBT.decided; rw [hon2]; simp, ?_, ?_, ?_⟩
      · refine inv_move hD.inv hD.ai_lt hnd ht.others (touch_v_now ht ai)
          (ht.frame.agents ai).2.2.2.1 hvn hon2 hune ⟨ho, hact'.2⟩ hoccu hocc hocc_u ?_ ?_ ?_
        · intro d hd hdai hdd hdu
          have hud := deciding_no_mover hD d hd hdd hdu
          exact (hocc_u d hd hud.symm).2.1 hdu
        · intro a ha hai hta hva
          have haj := deciding_parent_unique hD ha hta hai hva
          exact (hD.pusher a haj).2.2.2.2
        · intro a ha hai hta
          exact hD.exclusive a ha hta hai
      · intro j hj
        rw [hvn]
        intro e
        exact (hD.pusher j hj).2.2.2.2 (Option.some.inj e)
      · intro a ha hai hta _ w hw
        apply hocc
        intro e
        subst e
        exact hD.exclusive a ha hta hai hw
      · intro j hj
        left
        obtain ⟨hjn, hjai, hjt, hjv, _⟩ := hD.pusher j hj
        rw [hocc _ (fun e => hune e.symm)]
        exact hD.holds j hjn hjt hjai _ hjv
  obtain ⟨hi2, hd2, hav, hho, hpar⟩ := hinv2
  refine ⟨ext_of_touch ht (fun h => absurd h hnd), ?_, hunt, hbase2⟩
  constructor
  · exact hi2
  · rw [ht.handled]; exact hch
  · exact hd2
  · intro j hj
    rw [touch_v_now ht j]
    exact hav j hj
  · intro a ha hai hta haj w hw
    have hta' := (touch_tentative ht hai).mp hta
    rw [ht.others a hai] at hw
    rw [hho a ha hai hta' haj w hw]
    exact hD.holds a ha hta' hai w hw
  · intro j hj
    rw [touch_v_now ht ai]
    exact hpar j hj
  · intro j hj
    obtain ⟨hjn, hjai, hjt, hjv, _⟩ := hD.pusher j hj
    refine ⟨hjn, hjai, (touch_tentative ht hjai).mpr hjt, ?_⟩
    rw [ht.others j hjai, touch_v_now ht ai]
    exact hjv
  · intro haj a ha hta
    by_cases hai : a = ai
    · subst hai; exact tentative_not_decided hta hd2
    · exact hai (hD.alone haj a ha ((touch_tentative ht hai).mp hta))
  · intro a ha hta b hb hab
    have hai : a ≠ ai := by
      intro e; subst e; exact tentative_not_decided hta hd2
    have hta' := (touch_tentative ht hai).mp hta
    rw [ht.others a hai, touch_v_now ht b] at hab
    by_cases hbi : b = ai
    · subst hbi
      intro e
      have := hi2.d1 b hb
      unfold PIBT.decided at hd2
      cases hob : (s2.agents b).ott_next with
      | none => exact hd2 hob
      | some o' =>
        obtain ⟨w, hw, _⟩ := this o' hob
        rw [e] at hw
        exact absurd hw (by simp)
    · rw [ht.others b hbi]
      exact hD.planned a ha hta' b hb hab

theorem safe_value_ok {α : Type} {x : Option α} {v : α} (h : SAFE_VALUE x = .ok v) :
    x = some v := by
  cases x with
  | none => simp [SAFE_VALUE] at h
  | some w => simp only [SAFE_VALUE, Outcome.ok.injEq] at h; rw [h]

theorem partner_request_effect (s : PIBT) (ai sa : Nat) (hne : sa ≠ ai) :
    s.Touch (PIBT.partner_request s ai sa) sa ∧
    ((PIBT.partner_request s ai sa).agents sa).ott_next = (s.agents sa).ott_next ∧
    ∀ w, w ≠ (s.agents ai).v_now →
      (PIBT.partner_request s ai sa).occupied_next w = s.occupied_next w := by
  have hne' : ai ≠ sa := fun e => hne e.symm
  unfold PIBT.partner_request
  simp only [PIBT.set_v_next, PIBT.set_swap_completed, PIBT.setOccupiedNext,
    PIBT.setAgent, Function.update_same, Function.update_noteq hne']
  refine ⟨⟨⟨fun a => ?_, rfl, rfl, rfl, rfl⟩, rfl, rfl, rfl, fun a ha => ?_⟩, ?_,
      fun w hw1 => ?_⟩ <;>
    simp [Function.update_apply, Agent.static_eq, *] <;>
    split_ifs <;> subst_vars <;> simp

theorem partner_turn_effect (s : PIBT) (ai sa : Nat) (no : Orientation) (hne : sa ≠ ai) :
    s.Touch (PIBT.partner_turn s ai sa no) sa ∧
    ((PIBT.partner_turn s ai sa no).agents sa).v_next = some (s.agents sa).v_now ∧
    ((PIBT.partner_turn s ai sa no).agents sa).ott_next = some no ∧
    ∀ w, w ≠ (s.agents sa).v_now → w ≠ (s.agents ai).v_now →
      (PIBT.partner_turn s ai sa no).occupied_next w = s.occupied_next w := by
  have hne' : ai ≠ sa := fun e => hne e.symm
  unfold PIBT.partner_turn
  simp only [PIBT.set_v_next, PIBT.set_ott_next, PIBT.setOccupiedNext, PIBT.setReserved,
    PIBT.setAgent, Function.update_same, Function.update_noteq hne']
  split_ifs <;>
    refine ⟨⟨⟨fun a => ?_, rfl, rfl, rfl, rfl⟩, rfl, rfl, rfl, fun a ha => ?_⟩, ?_, ?_,
      fun w hw1 hw2 => ?_⟩ <;>
    simp [Function.update_apply, Agent.static_eq, *] <;>
    split_ifs <;> subst_vars <;> simp

theorem partner_forward_effect (s : PIBT) (sa nn : Nat) (no : Orientation) :
    s.Touch (PIBT.partner_forward s sa nn no) sa ∧
    ((PIBT.partner_forward s sa nn no).agents sa).v_next = some nn ∧
    ((PIBT.partner_forward s sa nn no).agents sa).ott_next = some no ∧
    (PIBT.partner_forward s sa nn no).occupied_next nn = some sa ∧
    ∀ w, w ≠ nn → (PIBT.partner_forward s sa nn no).occupied_next w = s.occupied_next w := by
  unfold PIBT.partner_forward
  simp only [PIBT.set_v_next, PIBT.set_ott_next, PIBT.setOccupiedNext, PIBT.setReserved,
    PIBT.set_swap_completed, PIBT.setAgent, Function.update_same]
  refine ⟨⟨⟨fun a => ?_, rfl, rfl, rfl, rfl⟩, rfl, rfl, rfl, fun a ha => ?_⟩, ?_, ?_, ?_,
      fun w hw1 => ?_⟩ <;>
    simp [Function.update_apply, Agent.static_eq, *] <;>
    split_ifs <;> subst_vars <;> simp

theorem partner_hold_effect (s : PIBT) (ai sa : Nat) :
    s.Touch (PIBT.partner_hold s ai sa) sa ∧
    ((PIBT.partner_hold s ai sa).agents sa).v_next = some (s.agents sa).v_now ∧
    ((PIBT.partner_hold s ai sa).agents sa).ott_next = (s.agents sa).ott_now ∧
    ∀ w, w ≠ (s.agents sa).v_now →
      (PIBT.partner_hold s ai sa).occupied_next w = s.occupied_next w := by
  unfold PIBT.partner_hold
  simp only [PIBT.set_v_next, PIBT.set_ott_next, PIBT.setOccupiedNext, PIBT.setReserved,
    PIBT.setAgent, Function.update_same]
  refine ⟨⟨⟨fun a => ?_, rfl, rfl, rfl, rfl⟩, rfl, rfl, rfl, fun a ha => ?_⟩, ?_, ?_,
      fun w hw1 => ?_⟩ <;>
    simp [Function.update_apply, Agent.static_eq, *] <;>
    split_ifs <;> subst_vars <;> simp

/-- The effect of the block of `funcPIBT` for the swap partner: nothing, or the partner `sa`
is planned: it stays, or it moves to the vertex `act.1` that `computeAction` gave it. -/
theorem swap_partner_effect {E : Env} {s s3 : PIBT} {ai : Nat} {swap_agent : Option Nat}
    {m : Int} (hai : (s.agents ai).v_next ≠ none)
    (h : PIBT.swap_partner_action E s ai swap_agent m = .ok s3) :
    s3 = s ∨ ∃ sa o act, swap_agent = some sa ∧ sa ≠ ai ∧ (s.agents sa).v_next = none ∧
      (s.occupied_next (s.agents ai).v_now = none ∨
        s.occupied_next (s.agents ai).v_now = some ai) ∧
      (s.agents sa).ott_now = some o ∧
      Plan.computeAction E.G (s.agents sa).v_now (s.agents ai).v_now o = .ok act ∧
      s.Touch s3 sa ∧
      (((s3.agents sa).v_next = some (s.agents sa).v_now ∧ (s3.agents sa).ott_next ≠ none ∧
          ∀ w, w ≠ (s.agents sa).v_now → w ≠ (s.agents ai).v_now →
            s3.occupied_next w = s.occupied_next w) ∨
       (act.1 ≠ (s.agents sa).v_now ∧ (s.agents ai).v_next ≠ some (s.agents ai).v_now ∧
          (s3.agents sa).v_next = some act.1 ∧ (s3.agents sa).ott_next = some act.2 ∧
          s3.occupied_next act.1 = some sa ∧
          ∀ w, w ≠ act.1 → w ≠ (s.agents ai).v_now →
            s3.occupied_next w = s.occupied_next w)) := by
  unfold PIBT.swap_partner_action at h
  cases hsw : swap_agent with
  | none =>
    rw [hsw] at h
    simp only [Outcome.ok.injEq] at h
    exact Or.inl h.symm
  | some sa =>
    rw [hsw] at h
    simp only at h
    split_ifs at h with hc
    · right
      obtain ⟨_, hsan, hocc⟩ := hc
      have hne : sa ≠ ai := by
        intro e; subst e; exact hai hsan
      obtain ⟨t0, q0, r0⟩ := partner_request_effect s ai sa hne
      generalize PIBT.partner_request s ai sa = s0 at h t0 q0 r0
      have hvs : (s0.agents sa).v_now = (s.agents sa).v_now := touch_v_now t0 sa
      have hva : (s0.agents ai).v_now = (s.agents ai).v_now := touch_v_now t0 ai
      have hos : (s0.agents sa).ott_now = (s.agents sa).ott_now := (t0.frame.agents sa).2.2.2.1
      rw [hvs, hva, hos] at h
      obtain ⟨o, ho, h1⟩ := Outcome.bind_eq_ok.mp h
      have ho' := safe_value_ok ho
      obtain ⟨act, hact, h2⟩ := Outcome.bind_eq_ok.mp h1
      refine ⟨sa, o, act, rfl, hne, hsan, hocc, ho', hact, ?_⟩
      clear h h1
      by_cases hst : act.1 = (s.agents sa).v_now
      · rw [if_pos hst] at h2
        obtain ⟨t1, a1, b1, c1⟩ := partner_turn_effect s0 ai sa act.2 hne
        generalize PIBT.partner_turn s0 ai sa act.2 = s1 at h2 t1 a1 b1 c1
        have hvs1 : (s1.agents sa).v_now = (s.agents sa).v_now := by
          rw [touch_v_now t1 sa, hvs]
        rw [hvs1] at h2
        simp only [ne_eq, hst, not_true, if_false, ite_self, Outcome.ok.injEq] at h2
        subst h2
        refine ⟨touch_trans t0 t1, Or.inl ⟨by rw [a1, hvs], by rw [b1]; simp, ?_⟩⟩
        intro w hw1 hw2
        rw [c1 w (by rw [hvs]; exact hw1) (by rw [hva]; exact hw2), r0 w hw2]
      · rw [if_neg hst] at h2
        have hact1 : act.1 = (s.agents ai).v_now := by
          rcases computeAction_ok_cases hact with h | ⟨h, _, _⟩
          · exact absurd h hst
          · rw [h]
        obtain ⟨t1, a1, b1, c1, d1⟩ := partner_forward_effect s0 sa act.1 act.2
        generalize PIBT.partner_forward s0 sa act.1 act.2 = s1 at h2 t1 a1 b1 c1 d1
        have hvs1 : (s1.agents sa).v_now = (s.agents sa).v_now := by
          rw [touch_v_now t1 sa, hvs]
        have hai1 : s1.agents ai = s.agents ai := by
          rw [t1.others ai (fun e => hne e.symm), t0.others ai (fun e => hne e.symm)]
        rw [hai1, hvs1] at h2
        simp only [ne_eq, hst, not_false_eq_true, if_true] at h2
        by_cases hstay : (s.agents ai).v_next = some (s.agents ai).v_now
        · rw [if_pos hstay] at h2
          simp only [Outcome.ok.injEq] at h2
          obtain ⟨t2, a2, b2, c2⟩ := partner_hold_effect s1 ai sa
          rw [h2] at t2 a2 b2 c2
          refine ⟨touch_trans (touch_trans t0 t1) t2, Or.inl ⟨by rw [a2, hvs1], ?_, ?_⟩⟩
          · rw [b2, (t1.frame.agents sa).2.2.2.1, hos, ho']; simp
          · intro w hw1 hw2
            rw [c2 w (by rw [hvs1]; exact hw1), d1 w (by rw [hact1]; exact hw2), r0 w hw2]
        · rw [if_neg hstay] at h2
          simp only [Outcome.ok.injEq] at h2
          subst h2
          refine ⟨touch_trans t0 t1, Or.inr ⟨hst, hstay, a1, b1, c1, ?_⟩⟩
          intro w hw1 hw2
          rw [d1 w hw1, r0 w hw2]
    · simp only [Outcome.ok.injEq] at h
      exact Or.inl h.symm

theorem ext_refl (n : Nat) (s : PIBT) (ai : Nat) : s.Ext n s ai :=
  ⟨frame_refl s, rfl, fun _ _ _ _ => rfl, fun _ _ _ h => h, fun _ _ h => h⟩

theorem ext_trans {n : Nat} {s1 s2 s3 : PIBT} {ai : Nat} (h12 : s1.Ext n s2 ai)
    (h23 : s2.Ext n s3 ai) : s1.Ext n s3 ai := by
  refine ⟨frame_trans h12.frame h23.frame, h23.requester.trans h12.requester, ?_, ?_, ?_⟩
  · intro a ha hai ht
    have e := h12.kept a ha hai ht
    have ht2 : s2.tentative a := by unfold PIBT.tentative; rw [e]; exact ht
    rw [h23.kept a ha hai ht2, e]
  · intro a ha hai ht
    exact h12.no_new a ha hai (h23.no_new a ha hai ht)
  · intro a ha hd
    exact h23.mono a ha (h12.mono a ha hd)

/-- A block that plans an agent `x` that had no next location gives the relation `Ext` for
every agent `ai`. -/
theorem ext_of_touch_other {n : Nat} {s s' : PIBT} {x : Nat} (ai : Nat) (ht : s.Touch s' x)
    (hx : ¬ s.tentative x) (hx' : ¬ s'.tentative x) (hd : s.decided x → s'.decided x) :
    s.Ext n s' ai := by
  refine ⟨ht.frame, ht.requester, fun a _ _ hta => ?_, fun a _ _ hta => ?_, fun a _ h => ?_⟩
  · by_cases hax : a = x
    · subst hax; exact absurd hta hx
    · exact ht.others a hax
  · by_cases hax : a = x
    · subst hax; exact absurd hta hx'
    · exact (touch_tentative ht hax).mp hta
  · by_cases hax : a = x
    · subst hax; exact hd h
    · exact (touch_decided ht hax).mpr h

theorem decided_planned {G : Graph} {n : Nat} {s : PIBT} (hi : s.Inv G n) {a : Nat} (ha : a < n)
    (hd : s.decided a) : ∃ w, (s.agents a).v_next = some w := by
  unfold PIBT.decided at hd
  cases ho : (s.agents a).ott_next with
  | none => exact absurd ho hd
  | some o =>
    obtain ⟨w, hw, _⟩ := hi.d1 a ha o ho
    exact ⟨w, hw⟩

/-- The swap block of `funcPIBT` keeps the invariant and the facts that hold once the action
of the agent is determined. -/
theorem swap_partner_final {E : Env} {n : Nat} {s s3 : PIBT} {ai : Nat} {aj : Option Nat}
    {swap_agent : Option Nat} {m : Int}
    (hb : s.Base n) (hF : s.Final E.G n ai aj) (hai : ai < n)
    (hunt : ∀ d, d < n → d ≠ ai → s.decided d →
      (s.agents d).v_next ≠ some (s.agents ai).v_now)
    (hprov : ∀ sa, swap_agent = some sa → sa < n)
    (h : PIBT.swap_partner_action E s ai swap_agent m = .ok s3) :
    s.Ext n s3 ai ∧ s3.Final E.G n ai aj ∧ s3.Base n := by
  obtain ⟨u', hu'⟩ := decided_planned hF.inv hai hF.decided
  have haip : (s.agents ai).v_next ≠ none := by rw [hu']; simp
  rcases swap_partner_effect haip h with h0 | ⟨sa, o, act, hsw, hne, hsan, hocc, ho, hact, ht,
    hcase⟩
  · rw [h0]
    exact ⟨ext_refl n s ai, hF, hb⟩
  have hsa : sa < n := hprov sa hsw
  have hsnd : ¬ s.decided sa := inv_unplanned_not_decided hF.inv hsa hsan
  have hsnt : ¬ s.tentative sa := fun h => h.1 hsan
  have hne' : ai ≠ sa := fun e => hne e.symm
  have hvnow : ∀ a, (s3.agents a).v_now = (s.agents a).v_now := touch_v_now ht
  -- a tentative agent that targets the vertex of `ai` forces `ai` to stay
  have hpar : ∀ a, a < n → s.tentative a → (s.agents a).v_next = some (s.agents ai).v_now →
      (s.agents ai).v_next = some (s.agents ai).v_now := by
    intro a ha hta hva
    have haai : a ≠ ai := by
      intro e; subst e; exact tentative_not_decided hta hF.decided
    have hon : s.occupied_next (s.agents ai).v_now ≠ some a := by
      rcases hocc with h | h <;> rw [h]
      · simp
      · intro e; exact haai (Option.some.inj e).symm
    by_cases haj : aj = some a
    · rcases hF.parent a haj with h | h
      · exact absurd h hon
      · exact h
    · exact absurd (hF.holds a ha haai hta haj _ hva) hon
  have hnosa : ∀ a, a < n → s.tentative a → (s.agents a).v_next ≠ some (s.agents sa).v_now := by
    intro a ha hta hva
    exact hF.planned a ha hta sa hsa hva hsan
  have hinv3 : s3.Inv E.G n ∧ s3.decided sa ∧
      (∀ a, a < n → s.tentative a → ∀ w, (s.agents a).v_next = some w →
        w ≠ (s.agents ai).v_now → s3.occupied_next w = s.occupied_next w) ∧
      ((s.agents ai).v_next ≠ some (s.agents ai).v_now →
        ∀ a, a < n → s.tentative a → (s.agents a).v_next ≠ some (s.agents ai).v_now) := by
    rcases hcase with ⟨hvn, hon, hocc3⟩ | ⟨hmv, hnstay, hvn, hon, hoccw, hocc3⟩
    · refine ⟨?_, hon, ?_, ?_⟩
      · refine inv_stay (fun w => w = (s.agents ai).v_now) hb hF.inv hsa
          (fun h => absurd h hsnd) ht.others (hvnow sa) hvn hon ?_ ?_ ?_
        · intro w hw1 hw2
          exact hocc3 w hw1 hw2
        · intro w hw d hd hdd hdw
          subst hw
          by_cases hdai : d = ai
          · rw [hdai]
          · exact absurd hdw (hunt d hd hdai hdd)
        · intro w hw _ a ha _ hta hva
          subst hw
          right
          exact ⟨ai, hai, hne', rfl, hF.decided, hpar a ha hta hva⟩
      · intro a ha hta w hw hwai
        apply hocc3 w _ hwai
        intro e
        subst e
        exact hnosa a ha hta hw
      · intro hns a ha hta hva
        exact hns (hpar a ha hta hva)
    · have hact' : act = ((s.agents ai).v_now, o) ∧
          Plan.getRelativePosition E.G (s.agents sa).v_now (s.agents ai).v_now = .ok o := by
        rcases computeAction_ok_cases hact with h | ⟨h, _, h3⟩
        · exact absurd h hmv
        · exact ⟨h, h3⟩
      have hact1 : act.1 = (s.agents ai).v_now := by rw [hact'.1]
      have hsad : s3.decided sa := by unfold PIBT.decided; rw [hon]; simp
      rw [hact1] at hvn hoccw hocc3 hmv
      refine ⟨?_, hsad, ?_, ?_⟩
      · refine inv_move hF.inv hsa hsnd ht.others (hvnow sa) (ht.frame.agents sa).2.2.2.1 hvn
          (by rw [hon, hact'.1]) hmv ⟨ho, hact'.2⟩ hoccw (fun y hy => hocc3 y hy hy) ?_ ?_ ?_ ?_
        · intro b hb' hbv
          have hbai : b = ai := base_inj hb hb' hai hbv
          subst hbai
          refine ⟨hF.decided, hnstay, ?_⟩
          intro e
          have hne2 : (s.agents sa).v_now ≠ (s.agents b).v_now :=
            fun e2 => hne (base_inj hb hsa hb' e2)
          exact hsnd (hF.inv.d3 b hb' hF.decided _ e hne2 sa hsa rfl).1
        · intro d hd hdsa hdd hdv
          by_cases hdai : d = ai
          · subst hdai; exact hnstay hdv
          · exact hunt d hd hdai hdd hdv
        · intro a ha _ hta hva
          exact absurd hva (hnosa a ha hta)
        · intro a ha _ hta hva
          exact hnstay (hpar a ha hta hva)
      · intro a ha hta w hw hwai
        exact hocc3 w hwai hwai
      · intro _ a ha hta hva
        exact hnstay (hpar a ha hta hva)
  obtain ⟨hi3, hsad, hkeep, hmove⟩ := hinv3
  have hsnt3 : ¬ s3.tentative sa := fun h => tentative_not_decided h hsad
  have hext : s.Ext n s3 ai :=
    ext_of_touch_other ai ht hsnt hsnt3 (fun h => absurd h hsnd)
  refine ⟨hext, ?_, base_of_frame hb ht.frame⟩
  have hten : ∀ a, s3.tentative a → a ≠ sa ∧ s.tentative a := by
    intro a hta
    have hasa : a ≠ sa := by
      intro e; subst e; exact hsnt3 hta
    exact ⟨hasa, (touch_tentative ht hasa).mp hta⟩
  constructor
  · exact hi3
  · rw [ht.handled]; exact hF.not_handled
  · exact (touch_decided ht hne').mpr hF.decided
  · intro j hj
    rw [ht.others ai hne', hvnow j]
    exact hF.avoids j hj
  · intro a ha haai hta haj w hw
    obtain ⟨hasa, hta'⟩ := hten a hta
    rw [ht.others a hasa] at hw
    have hwai : w ≠ (s.agents ai).v_now := by
      intro e
      subst e
      have hon := hF.holds a ha haai hta' haj _ hw
      rcases hocc with h | h <;> rw [h] at hon
      · exact absurd hon (by simp)
      · exact haai (Option.some.inj hon).symm
    rw [hkeep a ha hta' w hw hwai]
    exact hF.holds a ha haai hta' haj w hw
  · intro j hj
    right
    obtain ⟨hjn, hjai, hjt, hjv⟩ := hF.pusher j hj
    rw [ht.others ai hne']
    exact hpar j hjn hjt hjv
  · intro j hj
    obtain ⟨hjn, hjai, hjt, hjv⟩ := hF.pusher j hj
    have hjsa : j ≠ sa := by
      intro e; subst e; exact hsnt hjt
    refine ⟨hjn, hjai, (touch_tentative ht hjsa).mpr hjt, ?_⟩
    rw [ht.others j hjsa, hvnow ai]
    exact hjv
  · intro haj a ha hta
    exact hF.alone haj a ha (hten a hta).2
  · intro a ha hta b hb' hab
    obtain ⟨hasa, hta'⟩ := hten a hta
    rw [ht.others a hasa, hvnow b] at hab
    by_cases hbsa : b = sa
    · subst hbsa
      obtain ⟨w, hw⟩ := decided_planned hi3 hb' hsad
      rw [hw]; simp
    · rw [ht.others b hbsa]
      exact hF.planned a ha hta' b hb' hab

/-- The part of the loop body of `funcPIBT` that determines the action of the agent returns
`true` and establishes `Final`. -/
theorem decide_action_post {E : Env} {n : Nat} {s : PIBT} {ai u : Nat} {aj : Option Nat}
    {is_initial : Bool} {swap_agent : Option Nat} {m : Int} {r : Bool × PIBT}
    (hD : s.Deciding E.G n ai u aj) (hch : s.cycle_handled = false)
    (hprov : ∀ sa, swap_agent = some sa → sa < n)
    (h : PIBT.decide_action E s ai aj is_initial swap_agent u m = .ok r) :
    r.1 = true ∧ s.Ext n r.2 ai ∧ r.2.Final E.G n ai aj := by
  unfold PIBT.decide_action at h
  rw [hch] at h
  simp only [Bool.false_eq_true, if_false] at h
  obtain ⟨o, ho, h1⟩ := Outcome.bind_eq_ok.mp h
  obtain ⟨act, hact, h2⟩ := Outcome.bind_eq_ok.mp h1
  obtain ⟨s3, hs3, h3⟩ := Outcome.bind_eq_ok.mp h2
  simp only [Outcome.ok.injEq] at h3
  subst h3
  obtain ⟨hext, hF, hunt, hb2⟩ := @own_blocker_final E n s ai u aj is_initial act o hD hch
    (safe_value_ok ho) hact
  have hunt' : ∀ d, d < n → d ≠ ai →
      (PIBT.blocker_rule (PIBT.own_action E s ai aj is_initial u act.1 act.2) ai u
        act.1).decided d →
      ((PIBT.blocker_rule (PIBT.own_action E s ai aj is_initial u act.1 act.2) ai u
        act.1).agents d).v_next ≠
        some ((PIBT.blocker_rule (PIBT.own_action E s ai aj is_initial u act.1 act.2) ai u
        act.1).agents ai).v_now := by
    intro d hd hdai hdd
    rw [(hext.frame.agents ai).2.1]
    exact hunt d hd hdai hdd
  obtain ⟨hext3, hF3, _⟩ := swap_partner_final hb2 hF hD.ai_lt hunt' hprov hs3
  exact ⟨rfl, ext_trans hext hext3, hF3⟩

/-- One iteration of the loop of the cycle handler that keeps the agents of the cycle on
their vertices. -/
theorem chain_adjust_step {E : Env} {s s' : PIBT} {r : Request} {c : Bool}
    {rest : List (Request × Bool)} (hott : (s.agents r.agent).ott_now ≠ none)
    (h : PIBT.chain_adjust E ((r, c) :: rest) s = .ok s') :
    ∃ s1, PIBT.chain_adjust E rest s1 = .ok s' ∧ s.Touch s1 r.agent ∧
      (s1.agents r.agent).v_next = some (s.agents r.agent).v_now ∧
      (s1.agents r.agent).ott_next ≠ none ∧
      ∀ w, w ≠ (s.agents r.agent).v_now → s1.occupied_next w = s.occupied_next w := by
  unfold PIBT.chain_adjust at h
  by_cases hc : c = true
  · subst hc
    simp only [not_true, if_false] at h
    refine ⟨_, h, ?_⟩
    simp only [PIBT.set_v_next, PIBT.set_ott_next, PIBT.setOccupiedNext, PIBT.setAgent,
      Function.update_same]
    refine ⟨⟨⟨fun a => ?_, rfl, rfl, rfl, rfl⟩, rfl, rfl, rfl, fun a ha => ?_⟩, ?_, ?_,
        fun w hw1 => ?_⟩ <;>
      simp [Function.update_apply, Agent.static_eq, *] <;>
      split_ifs <;> subst_vars <;> simp
  · simp only [hc, not_false_eq_true, if_true, hott, if_false] at h
    obtain ⟨o, ho, h1⟩ := Outcome.bind_eq_ok.mp h
    obtain ⟨act, hact, h2⟩ := Outcome.bind_eq_ok.mp h1
    refine ⟨_, h2, ?_⟩
    simp only [PIBT.set_v_next, PIBT.set_ott_next, PIBT.setOccupiedNext, PIBT.setAgent,
      Function.update_same]
    refine ⟨⟨⟨fun a => ?_, rfl, rfl, rfl, rfl⟩, rfl, rfl, rfl, fun a ha => ?_⟩, ?_, ?_,
        fun w hw1 => ?_⟩ <;>
      simp [Function.update_apply, Agent.static_eq, *] <;>
      split_ifs <;> subst_vars <;> simp

/-- The loop of the cycle handler that keeps the agents of the cycle on their vertices makes
each of them a decided stayer and keeps the invariant. -/
theorem chain_adjust_post {E : Env} {n : Nat} :
    ∀ (l : List (Request × Bool)) (s s' : PIBT), s.Base n → s.Inv E.G n →
      (∀ p, p ∈ l → p.1.agent < n ∧
        (s.decided p.1.agent → (s.agents p.1.agent).v_next = some (s.agents p.1.agent).v_now)) →
      PIBT.chain_adjust E l s = .ok s' →
      s.Frame s' ∧ s'.Inv E.G n ∧ s'.cycle_handled = s.cycle_handled ∧
      (∀ a, a < n → s'.tentative a → s.tentative a ∧ ∀ p, p ∈ l → p.1.agent ≠ a) ∧
      (∀ a, a < n → (s.agents a).v_next ≠ none → (s'.agents a).v_next ≠ none) := by
  intro l
  induction l with
  | nil =>
    intro s s' _ hi _ h
    simp only [PIBT.chain_adjust, Outcome.ok.injEq] at h
    subst h
    exact ⟨frame_refl s, hi, rfl, fun a _ ht => ⟨ht, fun p hp => absurd hp (by simp)⟩,
      fun _ _ h => h⟩
  | cons p rest ih =>
    intro s s' hb hi hl h
    obtain ⟨r, c⟩ := p
    have hr := hl (r, c) (by simp)
    obtain ⟨s1, h1, ht, hvn, hon, hocc⟩ := chain_adjust_step (hb.ott_now _ hr.1) h
    have hi1 : s1.Inv E.G n := by
      refine inv_stay (fun _ => False) hb hi hr.1 hr.2 ht.others (touch_v_now ht _) hvn hon
        (fun w hw _ => hocc w hw) (fun w hw => absurd hw id) (fun w hw => absurd hw id)
    have hb1 : s1.Base n := base_of_frame hb ht.frame
    have hl1 : ∀ p, p ∈ rest → p.1.agent < n ∧
        (s1.decided p.1.agent →
          (s1.agents p.1.agent).v_next = some (s1.agents p.1.agent).v_now) := by
      intro p hp
      have hp' := hl p (List.mem_cons_of_mem _ hp)
      refine ⟨hp'.1, fun hd => ?_⟩
      by_cases e : p.1.agent = r.agent
      · rw [e, hvn, touch_v_now ht]
      · rw [ht.others _ e]
        exact hp'.2 ((touch_decided ht e).mp hd)
    obtain ⟨hf, hi', hch, hten, hpl⟩ := ih s1 s' hb1 hi1 hl1 h1
    refine ⟨frame_trans ht.frame hf, hi', hch.trans ht.handled, ?_, ?_⟩
    · intro a ha hta
      obtain ⟨hta1, hrest⟩ := hten a ha hta
      have har : a ≠ r.agent := by
        intro e
        subst e
        exact hon hta1.2
      refine ⟨(touch_tentative ht har).mp hta1, ?_⟩
      intro p hp
      rcases List.mem_cons.mp hp with e | e
      · rw [e]; exact fun e' => har e'.symm
      · exact hrest p e
    · intro a ha hpa
      apply hpl a ha
      by_cases e : a = r.agent
      · rw [e, hvn]; simp
      · rw [ht.others a e]; exact hpa

theorem chain_orientations_spec {E : Env} {s : PIBT} :
    ∀ (l : List Request) (bs : List Bool), PIBT.chain_orientations E s l = .ok bs →
      bs.all id = true → ∀ r, r ∈ l → ∃ o,
        Plan.getRelativePosition E.G (s.agents r.agent).v_now r.requested_node = .ok o ∧
        (s.agents r.agent).ott_now = some o := by
  intro l
  induction l with
  | nil => intro bs _ _ r hr; exact absurd hr (by simp)
  | cons x rest ih =>
    intro bs h hall r hr
    unfold PIBT.chain_orientations at h
    obtain ⟨o, ho, h1⟩ := Outcome.bind_eq_ok.mp h
    obtain ⟨bs', hbs', h2⟩ := Outcome.bind_eq_ok.mp h1
    simp only [Outcome.ok.injEq] at h2
    subst h2
    simp only [List.all_cons, id_eq, Bool.and_eq_true, decide_eq_true_eq] at hall
    rcases List.mem_cons.mp hr with e | e
    · subst e
      exact ⟨o, ho, hall.1⟩
    · exact ih bs' hbs' hall.2 r e

theorem chain_orientations_length {E : Env} {s : PIBT} :
    ∀ (l : List Request) (bs : List Bool), PIBT.chain_orientations E s l = .ok bs →
      bs.length = l.length := by
  intro l
  induction l with
  | nil =>
    intro bs h
    simp only [PIBT.chain_orientations, Outcome.ok.injEq] at h
    rw [← h]; rfl
  | cons x rest ih =>
    intro bs h
    unfold PIBT.chain_orientations at h
    obtain ⟨o, _, h1⟩ := Outcome.bind_eq_ok.mp h
    obtain ⟨bs', hbs', h2⟩ := Outcome.bind_eq_ok.mp h1
    simp only [Outcome.ok.injEq] at h2
    subst h2
    simp [ih bs' hbs']

theorem mem_zip_of_length {α β : Type} :
    ∀ (l : List α) (bs : List β), bs.length = l.length → ∀ r, r ∈ l →
      ∃ c, (r, c) ∈ l.zip bs := by
  intro l
  induction l with
  | nil => intro bs _ r hr; exact absurd hr (by simp)
  | cons x rest ih =>
    intro bs hlen r hr
    cases bs with
    | nil => simp at hlen
    | cons b bs' =>
      simp only [List.length_cons, add_left_inj] at hlen
      rcases List.mem_cons.mp hr with e | e
      · exact ⟨b, by simp [e]⟩
      · obtain ⟨c, hc⟩ := ih bs' hlen r e
        exact ⟨c, by simp [hc]⟩

/-- The loop of the cycle handler that moves the agents of the cycle forward gives every
listed agent its heading as next heading and changes nothing else, when every listed agent
already has the requested node as next location and holds its reservation. -/
theorem chain_advance_effect :
    ∀ (l : List Request) (s : PIBT),
      (∀ r, r ∈ l → (s.agents r.agent).v_next = some r.requested_node ∧
        s.occupied_next r.requested_node = some r.agent) →
      s.Frame (PIBT.chain_advance l s) ∧
      (PIBT.chain_advance l s).cycle_handled = s.cycle_handled ∧
      (PIBT.chain_advance l s).occupied_next = s.occupied_next ∧
      (∀ a, (∃ r, r ∈ l ∧ r.agent = a) →
        ((PIBT.chain_advance l s).agents a).v_next = (s.agents a).v_next ∧
        ((PIBT.chain_advance l s).agents a).ott_next = (s.agents a).ott_now) ∧
      (∀ a, (∀ r, r ∈ l → r.agent ≠ a) → (PIBT.chain_advance l s).agents a = s.agents a) := by
  intro l
  induction l with
  | nil =>
    intro s _
    exact ⟨frame_refl s, rfl, rfl, fun a ⟨r, hr, _⟩ => absurd hr (by simp), fun _ _ => rfl⟩
  | cons x rest ih =>
    intro s hl
    obtain ⟨hx1, hx2⟩ := hl x (by simp)
    have hstep : ∃ s1, PIBT.chain_advance (x :: rest) s = PIBT.chain_advance rest s1 ∧
        s.Touch s1 x.agent ∧ s1.occupied_next = s.occupied_next ∧
        (s1.agents x.agent).v_next = (s.agents x.agent).v_next ∧
        (s1.agents x.agent).ott_next = (s.agents x.agent).ott_now := by
      refine ⟨_, rfl, ?_⟩
      simp only [PIBT.set_v_next, PIBT.set_ott_next, PIBT.setOccupiedNext, PIBT.setAgent,
        Function.update_same]
      refine ⟨⟨⟨fun a => ?_, rfl, rfl, rfl, rfl⟩, rfl, rfl, rfl, fun a ha => ?_⟩, ?_, ?_, ?_⟩
      · simp only [Function.update_apply, Agent.static_eq]
        split_ifs <;> subst_vars <;> simp
      · simp [Function.update_apply, ha]
      · funext w
        simp only [Function.update_apply]
        split_ifs with e
        · rw [e, hx2]
        · rfl
      · simp [hx1]
      · simp
    obtain ⟨s1, he, ht, hocc, hv1, ho1⟩ := hstep
    rw [he]
    have hl1 : ∀ r, r ∈ rest → (s1.agents r.agent).v_next = some r.requested_node ∧
        s1.occupied_next r.requested_node = some r.agent := by
      intro r hr
      obtain ⟨h1, h2⟩ := hl r (List.mem_cons_of_mem _ hr)
      rw [hocc]
      refine ⟨?_, h2⟩
      by_cases e : r.agent = x.agent
      · rw [e, hv1, ← e]; exact h1
      · rw [ht.others _ e]; exact h1
    obtain ⟨hf, hch, hon, hin, hout⟩ := ih s1 hl1
    refine ⟨frame_trans ht.frame hf, hch.trans ht.handled, hon.trans hocc, ?_, ?_⟩
    · intro a ⟨r, hr, hra⟩
      have hs1 : (s1.agents a).v_next = (s.agents a).v_next ∧
          (s1.agents a).ott_now = (s.agents a).ott_now := by
        refine ⟨?_, (ht.frame.agents a).2.2.2.1⟩
        by_cases e : a = x.agent
        · rw [e, hv1]
        · rw [ht.others a e]
      by_cases hin' : ∃ r', r' ∈ rest ∧ r'.agent = a
      · obtain ⟨g1, g2⟩ := hin a hin'
        rw [g1, g2]
        exact hs1
      · have hnot : ∀ r', r' ∈ rest → r'.agent ≠ a := fun r' h1 h2 => hin' ⟨r', h1, h2⟩
        rw [hout a hnot]
        have hax : a = x.agent := by
          rcases List.mem_cons.mp hr with e | e
          · rw [← hra, e]
          · exact absurd hra (hnot r e)
        rw [hax]
        exact ⟨hv1, ho1⟩
    · intro a ha
      rw [hout a (fun r hr => ha r (List.mem_cons_of_mem _ hr))]
      exact ht.others a (fun e => ha x (by simp) e.symm)

/-- The cycle handler decides every tentative agent and keeps the invariant. -/
theorem handleCycle_post {E : Env} {n : Nat} {s s' : PIBT} (hC : s.Cyclic E.G n)
    (h : PIBT.handleCycleWithOrientation E s = .ok s') :
    s.Frame s' ∧ s'.Inv E.G n ∧ s'.cycle_handled = s.cycle_handled ∧
    (∀ a, a < n → ¬ s'.tentative a) ∧
    (∀ a, a < n → (s.agents a).v_next ≠ none → (s'.agents a).v_next ≠ none) := by
  unfold PIBT.handleCycleWithOrientation at h
  split_ifs at h with hemp
  · simp only [Outcome.ok.injEq] at h
    subst h
    refine ⟨frame_refl s, hC.inv, rfl, ?_, fun _ _ h => h⟩
    intro a ha hta
    obtain ⟨r, hr, _⟩ := hC.chain_complete a ha hta
    rw [List.isEmpty_iff.mp hemp] at hr
    exact absurd hr (by simp)
  · obtain ⟨bs, hbs, h1⟩ := Outcome.bind_eq_ok.mp h
    simp only at h1
    split_ifs at h1 with hall
    · -- every agent of the cycle faces its requested node: everybody moves
      simp only [Outcome.ok.injEq] at h1
      have hall' : bs.all id = true := by simpa using hall
      have hrel := chain_orientations_spec _ bs hbs hall'
      have hl : ∀ r, r ∈ s.request_chain →
          (s.agents r.agent).v_next = some r.requested_node ∧
          s.occupied_next r.requested_node = some r.agent := by
        intro r hr
        obtain ⟨g1, g2, g3⟩ := hC.chain_sound r hr
        exact ⟨g3, hC.holds r.agent g1 g2 _ g3⟩
      obtain ⟨hf, hch, hon, hin, hout⟩ := chain_advance_effect _ s hl
      rw [h1] at hf hch hon hin hout
      -- the records of `s'`
      have htent : ∀ a, a < n → s.tentative a →
          (s'.agents a).v_next = (s.agents a).v_next ∧
          (s'.agents a).ott_next = (s.agents a).ott_now := by
        intro a ha hta
        exact hin a (hC.chain_complete a ha hta)
      have hother : ∀ a, a < n → ¬ s.tentative a → s'.agents a = s.agents a := by
        intro a ha hta
        apply hout
        intro r hr hra
        obtain ⟨_, g2, _⟩ := hC.chain_sound r hr
        rw [hra] at g2
        exact hta g2
      have hvnow : ∀ a, (s'.agents a).v_now = (s.agents a).v_now := fun a => (hf.agents a).2.1
      have hott : ∀ a, (s'.agents a).ott_now = (s.agents a).ott_now :=
        fun a => (hf.agents a).2.2.2.1
      have hnt : ∀ a, a < n → ¬ s'.tentative a := by
        intro a ha hta'
        by_cases hta : s.tentative a
        · have := (htent a ha hta).2
          rw [hta'.2] at this
          exact hC.base.ott_now a ha this.symm
        · rw [PIBT.tentative, hother a ha hta] at hta'
          exact hta hta'
      have hdt : ∀ a, a < n → s.tentative a → s'.decided a := by
        intro a ha hta
        unfold PIBT.decided
        rw [(htent a ha hta).2]
        exact hC.base.ott_now a ha
      refine ⟨hf, ?_, hch, hnt, ?_⟩
      · constructor
        · intro a ha o ho
          by_cases hta : s.tentative a
          · obtain ⟨g1, g2⟩ := htent a ha hta
            obtain ⟨r, hr, hra⟩ := hC.chain_complete a ha hta
            obtain ⟨o', ho1, ho2⟩ := hrel r hr
            obtain ⟨_, _, g3⟩ := hC.chain_sound r hr
            rw [hra] at ho1 ho2 g3
            rw [g2, ho2] at ho
            cases ho
            refine ⟨r.requested_node, by rw [g1, g3], Or.inr ?_⟩
            rw [hott a, hvnow a]
            exact ⟨ho2, ho1⟩
          · rw [hother a ha hta] at ho ⊢
            exact hC.inv.d1 a ha o ho
        · intro a ha hd w hw hne
          rw [hon]
          by_cases hta : s.tentative a
          · rw [(htent a ha hta).1] at hw
            exact hC.holds a ha hta w hw
          · rw [hother a ha hta] at hw hne
            have hd0 : s.decided a := by
              unfold PIBT.decided at hd ⊢
              rw [hother a ha hta] at hd
              exact hd
            exact hC.inv.d2 a ha hd0 w hw hne
        · intro a ha hd w hw hne b hb hbw
          rw [hvnow b] at hbw
          rw [hvnow a] at hne ⊢
          by_cases hta : s.tentative a
          · rw [(htent a ha hta).1] at hw
            have htb : s.tentative b := hC.occupant a ha hta b hb (by rw [hw, hbw])
            have hba : b ≠ a := by
              intro e; subst e; exact hne hbw.symm
            refine ⟨hdt b hb htb, ?_, ?_⟩ <;> rw [(htent b hb htb).1]
            · rw [← hbw]
              exact hC.leaves b hb htb
            · exact hC.inv.t1 a ha hta w hw b hb hbw hba
          · rw [hother a ha hta] at hw
            have hd0 : s.decided a := by
              unfold PIBT.decided at hd ⊢
              rw [hother a ha hta] at hd
              exact hd
            obtain ⟨g1, g2, g3⟩ := hC.inv.d3 a ha hd0 w hw hne b hb hbw
            have htb : ¬ s.tentative b := fun h => tentative_not_decided h g1
            rw [PIBT.decided, hother b hb htb]
            exact ⟨g1, g2, g3⟩
        · intro a ha hta
          exact absurd hta (hnt a ha)
        · intro a ha hta
          exact absurd hta (hnt a ha)
      · intro a ha hpa
        by_cases hta : s.tentative a
        · rw [(htent a ha hta).1]; exact hpa
        · rw [hother a ha hta]; exact hpa
    · -- some agent of the cycle does not face its requested node: everybody stays
      have hl : ∀ p, p ∈ s.request_chain.zip bs → p.1.agent < n ∧
          (s.decided p.1.agent →
            (s.agents p.1.agent).v_next = some (s.agents p.1.agent).v_now) := by
        intro p hp
        have hm : p.1 ∈ s.request_chain := (@List.of_mem_zip _ _ p.1 p.2 _ _ hp).1
        obtain ⟨g1, g2, _⟩ := hC.chain_sound p.1 hm
        exact ⟨g1, fun hd => absurd hd (tentative_not_decided g2)⟩
      obtain ⟨hf, hi', hch, hten, hpl⟩ := chain_adjust_post _ s s' hC.base hC.inv hl h1
      refine ⟨hf, hi', hch, ?_, hpl⟩
      intro a ha hta
      obtain ⟨hta0, hnot⟩ := hten a ha hta
      obtain ⟨r, hr, hra⟩ := hC.chain_complete a ha hta0
      obtain ⟨c, hc⟩ := mem_zip_of_length _ bs (chain_orientations_length _ bs hbs) r hr
      exact hnot (r, c) hc hra

theorem reserve_reserved (s : PIBT) (ai u : Nat) (chain : List Request) :
    s.Reserved ({ (s.setOccupiedNext u (some ai)).set_v_next ai (some u) with
      request_chain := chain }) ai u := by
  simp only [PIBT.set_v_next, PIBT.setOccupiedNext, PIBT.setAgent]
  refine ⟨⟨fun a => ?_, rfl, rfl, rfl, rfl⟩, rfl, rfl, fun a ha => ?_, ?_, ?_, ?_,
      fun w hw => ?_⟩ <;>
    simp [Function.update_apply, Agent.static_eq, *] <;>
    split_ifs <;> subst_vars <;> simp

/-- In the states of the candidate loop, the pusher is the only tentative agent whose target
is the vertex of the agent. -/
theorem ready_parent_unique {G : Graph} {n : Nat} {s : PIBT} {ai : Nat} {aj : Option Nat}
    {ii : Bool} (hR : s.Ready G n ai aj ii) {a : Nat} (ha : a < n) (hta : s.tentative a)
    (hv : (s.agents a).v_next = some (s.agents ai).v_now) : aj = some a := by
  cases hii : ii with
  | true => exact absurd hta ((hR.top hii).2.2 a ha)
  | false =>
    obtain ⟨j, r, hj, hjn, hjt, hjv, _⟩ := hR.nested hii
    have h1 := hR.holds a ha hta _ hv
    have h2 := hR.holds j hjn hjt _ hjv
    rw [h1] at h2
    rw [hj, Option.some.inj h2]

theorem ready_not_decided {G : Graph} {n : Nat} {s : PIBT} {ai : Nat} {aj : Option Nat}
    {ii : Bool} (hR : s.Ready G n ai aj ii) : ¬ s.decided ai :=
  inv_unplanned_not_decided hR.inv hR.ai_lt hR.unplanned

theorem ready_not_tentative {G : Graph} {n : Nat} {s : PIBT} {ai : Nat} {aj : Option Nat}
    {ii : Bool} (hR : s.Ready G n ai aj ii) : ¬ s.tentative ai :=
  fun h => h.1 hR.unplanned

/-- No planned agent other than the agent itself has the vertex of the agent as next location
unless it is the pusher. -/
theorem ready_untargeted {G : Graph} {n : Nat} {s : PIBT} {ai : Nat} {aj : Option Nat}
    {ii : Bool} (hR : s.Ready G n ai aj ii) {b : Nat} (hb : b < n) (hbai : b ≠ ai)
    (hv : (s.agents b).v_next = some (s.agents ai).v_now) : aj = some b := by
  by_cases hd : s.decided b
  · have hne : (s.agents ai).v_now ≠ (s.agents b).v_now :=
      fun e => hbai (base_inj hR.base hb hR.ai_lt e.symm)
    exact absurd (hR.inv.d3 b hb hd _ hv hne ai hR.ai_lt rfl).1 (ready_not_decided hR)
  · have hbt : s.tentative b := by
      refine ⟨by rw [hv]; simp, ?_⟩
      unfold PIBT.decided at hd
      exact not_not.mp hd
    exact ready_parent_unique hR hb hbt hv

/-- The state after the reservation of a candidate `u` that is free in `occupied_next` and is
not the vertex of the pusher. -/
theorem reserved_facts {G : Graph} {n : Nat} {s s1 : PIBT} {ai u : Nat} {aj : Option Nat}
    {ii : Bool} (hR : s.Ready G n ai aj ii) (hS : s.Reserved s1 ai u)
    (hfree : s.occupied_next u = none) (hskip : ∀ j, aj = some j → u ≠ (s.agents j).v_now) :
    s1.Base n ∧ s1.Inv G n ∧ s1.tentative ai ∧
    (∀ a, a ≠ ai → (s1.tentative a ↔ s.tentative a)) ∧
    (∀ a, s1.decided a ↔ s.decided a) ∧
    (∀ a, a < n → s1.tentative a → ∀ w, (s1.agents a).v_next = some w →
      s1.occupied_next w = some a) ∧
    (∀ a, a < n → s.tentative a → (s.agents a).v_next ≠ some u) := by
  have hnd := ready_not_decided hR
  have hott : (s1.agents ai).ott_next = none := by
    rw [hS.heading]; exact inv_unplanned_ott hR.inv hR.ai_lt hR.unplanned
  have hten : ∀ a, a ≠ ai → (s1.tentative a ↔ s.tentative a) := by
    intro a ha; unfold PIBT.tentative; rw [hS.others a ha]
  have hdec : ∀ a, s1.decided a ↔ s.decided a := by
    intro a
    by_cases ha : a = ai
    · subst ha
      unfold PIBT.decided
      rw [hS.heading]
    · unfold PIBT.decided; rw [hS.others a ha]
  have hvnow : ∀ a, (s1.agents a).v_now = (s.agents a).v_now := fun a => (hS.frame.agents a).2.1
  have hex : ∀ a, a < n → s.tentative a → (s.agents a).v_next ≠ some u := by
    intro a ha hta hv
    have := hR.holds a ha hta u hv
    rw [hfree] at this
    exact absurd this (by simp)
  have hai_t : s1.tentative ai := ⟨by rw [hS.target]; simp, hott⟩
  have hold : ∀ a, a < n → s1.tentative a → ∀ w, (s1.agents a).v_next = some w →
      s1.occupied_next w = some a := by
    intro a ha hta w hw
    by_cases hai : a = ai
    · subst hai
      rw [hS.target] at hw
      cases hw
      exact hS.owner
    · have hta' := (hten a hai).mp hta
      rw [hS.others a hai] at hw
      have hwu : w ≠ u := by
        intro e; subst e; exact hex a ha hta' hw
      rw [hS.rest w hwu]
      exact hR.holds a ha hta' w hw
  refine ⟨base_of_frame hR.base hS.frame, ?_, hai_t, hten, hdec, hold, hex⟩
  constructor
  · intro a ha o ho
    by_cases hai : a = ai
    · subst hai
      rw [hott] at ho
      exact absurd ho (by simp)
    · rw [hS.others a hai] at ho ⊢
      exact hR.inv.d1 a ha o ho
  · intro a ha hd w hw hne
    have hd' := (hdec a).mp hd
    have hai : a ≠ ai := by
      intro e; subst e; exact hnd hd'
    rw [hS.others a hai] at hw hne
    have h2 := hR.inv.d2 a ha hd' w hw hne
    have hwu : w ≠ u := by
      intro e; subst e; rw [hfree] at h2; exact absurd h2 (by simp)
    rw [hS.rest w hwu]
    exact h2
  · intro a ha hd w hw hne b hb hbw
    have hd' := (hdec a).mp hd
    have hai : a ≠ ai := by
      intro e; subst e; exact hnd hd'
    rw [hS.others a hai] at hw hne ⊢
    rw [hvnow b] at hbw
    obtain ⟨g1, g2, g3⟩ := hR.inv.d3 a ha hd' w hw hne b hb hbw
    have hbai : b ≠ ai := by
      intro e; subst e; exact hnd g1
    rw [hS.others b hbai]
    exact ⟨(hdec b).mpr g1, g2, g3⟩
  · intro a ha hta w hw b hb hbw hba
    rw [hvnow b] at hbw
    rw [hvnow a]
    by_cases hai : a = ai
    · subst hai
      rw [hS.target] at hw
      cases hw
      rw [hS.others b hba]
      intro hv
      have hj := ready_untargeted hR hb hba hv
      exact hskip b hj hbw.symm
    · have hta' := (hten a hai).mp hta
      rw [hS.others a hai] at hw
      by_cases hbai : b = ai
      · subst hbai
        rw [hS.target]
        intro e
        have e' : u = (s.agents a).v_now := Option.some.inj e
        rw [← hbw] at hw
        exact hskip a (ready_parent_unique hR ha hta' hw) e'
      · rw [hS.others b hbai]
        exact hR.inv.t1 a ha hta' w hw b hb hbw hba
  · intro a ha hta w hw
    exact Or.inl (hold a ha hta w hw)

theorem ready_pusher {G : Graph} {n : Nat} {s : PIBT} {ai : Nat} {aj : Option Nat}
    {ii : Bool} (hR : s.Ready G n ai aj ii) {j : Nat} (hj : aj = some j) :
    j < n ∧ j ≠ ai ∧ s.tentative j ∧ (s.agents j).v_next = some (s.agents ai).v_now := by
  cases hii : ii with
  | true =>
    rw [(hR.top hii).1] at hj
    exact absurd hj (by simp)
  | false =>
    obtain ⟨j', r, hj', hjn, hjt, hjv, _⟩ := hR.nested hii
    rw [hj'] at hj
    cases hj
    refine ⟨hjn, ?_, hjt, hjv⟩
    intro e
    subst e
    exact ready_not_tentative hR hjt

theorem ready_alone {G : Graph} {n : Nat} {s : PIBT} {ai : Nat} {aj : Option Nat}
    {ii : Bool} (hR : s.Ready G n ai aj ii) (haj : aj = none) :
    ∀ a, a < n → ¬ s.tentative a := by
  cases hii : ii with
  | true => exact (hR.top hii).2.2
  | false =>
    obtain ⟨j', r, hj', _⟩ := hR.nested hii
    rw [hj'] at haj
    exact absurd haj (by simp)

/-- The occupant of a free candidate that is not the vertex of the initial requester is not
tentative. -/
theorem ready_occupant_settled {G : Graph} {n : Nat} {s : PIBT} {ai u : Nat} {aj : Option Nat}
    {ii : Bool} (hR : s.Ready G n ai aj ii) (hfree : s.occupied_next u = none)
    (hnc : ii = false → ∀ r, s.initial_requester = some r → u ≠ (s.agents r).v_now)
    {b : Nat} (hb : b < n) (hbu : (s.agents b).v_now = u) : ¬ s.tentative b := by
  intro hbt
  cases hii : ii with
  | true => exact (hR.top hii).2.2 b hb hbt
  | false =>
    obtain ⟨j, r, _, _, _, _, hr, hrn, hrt, hR1⟩ := hR.nested hii
    have hbr : b ≠ r := by
      intro e
      subst e
      exact hnc hii b hr hbu.symm
    obtain ⟨p, hp, hpt, hpv⟩ := hR1 b hb hbt hbr
    rw [hbu] at hpv
    have := hR.holds p hp hpt u hpv
    rw [hfree] at this
    exact absurd this (by simp)

/-- The state in which `funcPIBT` calls the cycle handler. -/
theorem cyclic_of_reserved {G : Graph} {n : Nat} {s s2 : PIBT} {ai u r : Nat}
    {aj : Option Nat} {ii : Bool}
    (hR : s.Ready G n ai aj ii) (hS : s.Reserved s2 ai u)
    (hchain : s2.request_chain = s.request_chain ++ [⟨ai, u⟩])
    (hfree : s.occupied_next u = none) (hskip : ∀ j, aj = some j → u ≠ (s.agents j).v_now)
    (hii : ii = false) (hr : s.initial_requester = some r) (hur : u = (s.agents r).v_now) :
    s2.Cyclic G n := by
  obtain ⟨hb2, hi2, hait, hten, hdec, hold, hex⟩ := reserved_facts hR hS hfree hskip
  obtain ⟨j, r', _, _, _, _, hr', hrn, hrt, _⟩ := hR.nested hii
  rw [hr] at hr'
  cases hr'
  have hrai : r ≠ ai := by
    intro e; subst e; exact ready_not_tentative hR hrt
  have hvnow : ∀ a, (s2.agents a).v_now = (s.agents a).v_now := fun a => (hS.frame.agents a).2.1
  constructor
  · exact hb2
  · exact hi2
  · intro x hx
    rw [hchain] at hx
    rcases List.mem_append.mp hx with h | h
    · obtain ⟨g1, g2, g3⟩ := hR.chain_sound x h
      have hxa : x.agent ≠ ai := by
        intro e; rw [e] at g2; exact ready_not_tentative hR g2
      exact ⟨g1, (hten _ hxa).mpr g2, by rw [hS.others _ hxa]; exact g3⟩
    · simp only [List.mem_singleton] at h
      subst h
      exact ⟨hR.ai_lt, hait, hS.target⟩
  · intro a ha hta
    rw [hchain]
    by_cases hai : a = ai
    · exact ⟨⟨ai, u⟩, by simp, hai.symm⟩
    · obtain ⟨x, hx, hxa⟩ := hR.chain_complete a ha ((hten a hai).mp hta)
      exact ⟨x, List.mem_append_left _ hx, hxa⟩
  · exact hold
  · intro a ha hta
    rw [hvnow a]
    by_cases hai : a = ai
    · subst hai
      rw [hS.target, hur]
      intro e
      exact hrai (base_inj hR.base hrn ha (Option.some.inj e))
    · rw [hS.others a hai]
      exact hR.leaves a ha ((hten a hai).mp hta)
  · intro a ha hta b hb hab
    rw [hvnow b] at hab
    by_cases hai : a = ai
    · subst hai
      rw [hS.target, hur] at hab
      have hbr : b = r := (base_inj hR.base hrn hb (Option.some.inj hab)).symm
      rw [hbr]
      exact (hten r hrai).mpr hrt
    · rw [hS.others a hai] at hab
      rcases hR.occupant a ha ((hten a hai).mp hta) b hb hab with h | h
      · have hbai : b ≠ ai := by
          intro e; subst e; exact ready_not_tentative hR h
        exact (hten b hbai).mpr h
      · rw [h]; exact hait

/-- The state in which `funcPIBT` calls itself for the occupant `ak` of the candidate. -/
theorem ready_child {G : Graph} {n : Nat} {s s2 : PIBT} {ai u ak : Nat}
    {aj : Option Nat} {ii : Bool}
    (hR : s.Ready G n ai aj ii) (hS : s.Reserved s2 ai u)
    (hchain : s2.request_chain = s.request_chain ++ [⟨ai, u⟩])
    (hfree : s.occupied_next u = none) (hskip : ∀ j, aj = some j → u ≠ (s.agents j).v_now)
    (hak : s.occupied_now u = some ak) (hakn : (s2.agents ak).v_next = none) :
    s2.Ready G n ak (some ai) false := by
  obtain ⟨hb2, hi2, hait, hten, hdec, hold, hex⟩ := reserved_facts hR hS hfree hskip
  obtain ⟨hakl, haku⟩ := (hR.base.occ_now u ak).mp hak
  have hakai : ak ≠ ai := by
    intro e
    rw [e, hS.target] at hakn
    exact absurd hakn (by simp)
  have hvnow : ∀ a, (s2.agents a).v_now = (s.agents a).v_now := fun a => (hS.frame.agents a).2.1
  have huai : u ≠ (s.agents ai).v_now := by
    intro e
    exact hakai (base_inj hR.base hakl hR.ai_lt (haku.trans e))
  constructor
  · exact hb2
  · exact hi2
  · exact hakl
  · exact hakn
  · rw [hS.handled]; exact hR.not_handled
  · intro x hx
    rw [hchain] at hx
    rcases List.mem_append.mp hx with h | h
    · obtain ⟨g1, g2, g3⟩ := hR.chain_sound x h
      have hxa : x.agent ≠ ai := by
        intro e; rw [e] at g2; exact ready_not_tentative hR g2
      exact ⟨g1, (hten _ hxa).mpr g2, by rw [hS.others _ hxa]; exact g3⟩
    · simp only [List.mem_singleton] at h
      subst h
      exact ⟨hR.ai_lt, hait, hS.target⟩
  · intro a ha hta
    rw [hchain]
    by_cases hai : a = ai
    · exact ⟨⟨ai, u⟩, by simp, hai.symm⟩
    · obtain ⟨x, hx, hxa⟩ := hR.chain_complete a ha ((hten a hai).mp hta)
      exact ⟨x, List.mem_append_left _ hx, hxa⟩
  · exact hold
  · intro a ha hta
    rw [hvnow a]
    by_cases hai : a = ai
    · subst hai
      rw [hS.target]
      exact fun e => huai (Option.some.inj e)
    · rw [hS.others a hai]
      exact hR.leaves a ha ((hten a hai).mp hta)
  · intro a ha hta b hb hab
    rw [hvnow b] at hab
    by_cases hai : a = ai
    · subst hai
      rw [hS.target] at hab
      right
      exact base_inj hR.base hb hakl ((Option.some.inj hab).symm.trans haku.symm)
    · rw [hS.others a hai] at hab
      left
      rcases hR.occupant a ha ((hten a hai).mp hta) b hb hab with h | h
      · have hbai : b ≠ ai := by
          intro e; subst e; exact ready_not_tentative hR h
        exact (hten b hbai).mpr h
      · rw [h]; exact hait
  · intro h
    exact absurd h (by simp)
  · intro _
    have htarget : (s2.agents ai).v_next = some (s2.agents ak).v_now := by
      rw [hS.target, hvnow ak, haku]
    cases hii : ii with
    | true =>
      obtain ⟨_, hreq, hnone⟩ := hR.top hii
      refine ⟨ai, ai, rfl, hR.ai_lt, hait, htarget, by rw [hS.requester, hreq], hR.ai_lt,
        hait, ?_⟩
      intro t ht htt hne
      exact absurd ((hten t hne).mp htt) (hnone t ht)
    | false =>
      obtain ⟨j, r, hj, hjn, hjt, hjv, hr, hrn, hrt, hR1⟩ := hR.nested hii
      have hrai : r ≠ ai := by
        intro e; subst e; exact ready_not_tentative hR hrt
      have hjai : j ≠ ai := by
        intro e; subst e; exact ready_not_tentative hR hjt
      refine ⟨ai, r, rfl, hR.ai_lt, hait, htarget, by rw [hS.requester, hr], hrn,
        (hten r hrai).mpr hrt, ?_⟩
      intro t ht htt hne
      rw [hvnow t]
      by_cases htai : t = ai
      · subst htai
        exact ⟨j, hjn, (hten j hjai).mpr hjt, by rw [hS.others j hjai]; exact hjv⟩
      · obtain ⟨p, hp, hpt, hpv⟩ := hR1 t ht ((hten t htai).mp htt) hne
        have hpai : p ≠ ai := by
          intro e; subst e; exact ready_not_tentative hR hpt
        exact ⟨p, hp, (hten p hpai).mpr hpt, by rw [hS.others p hpai]; exact hpv⟩

/-- The state in which `funcPIBT` determines the action of the agent for a candidate whose
occupant, if any, already has a next location. -/
theorem deciding_direct {G : Graph} {n : Nat} {s s1 : PIBT} {ai u : Nat}
    {aj : Option Nat} {ii : Bool}
    (hR : s.Ready G n ai aj ii) (hS : s.Reserved s1 ai u)
    (hfree : s.occupied_next u = none) (hskip : ∀ j, aj = some j → u ≠ (s.agents j).v_now)
    (hnc : ii = false → ∀ r, s.initial_requester = some r → u ≠ (s.agents r).v_now)
    (hocc : ∀ b, s.occupied_now u = some b → (s1.agents b).v_next ≠ none) :
    s1.Deciding G n ai u aj := by
  obtain ⟨hb1, hi1, hait, hten, hdec, hold, hex⟩ := reserved_facts hR hS hfree hskip
  have hvnow : ∀ a, (s1.agents a).v_now = (s.agents a).v_now := fun a => (hS.frame.agents a).2.1
  have hoccb : ∀ b, b < n → (s.agents b).v_now = u → b ≠ ai →
      s.decided b ∧ (s.agents b).v_next ≠ some (s.agents ai).v_now := by
    intro b hb hbu hbai
    have hp := hocc b ((hR.base.occ_now u b).mpr ⟨hb, hbu⟩)
    rw [hS.others b hbai] at hp
    have hnt := ready_occupant_settled hR hfree hnc hb hbu
    refine ⟨?_, ?_⟩
    · unfold PIBT.decided
      intro e
      exact hnt ⟨hp, e⟩
    · intro hv
      exact hskip b (ready_untargeted hR hb hbai hv) hbu.symm
  constructor
  · exact hb1
  · exact hi1
  · exact hR.ai_lt
  · exact hait
  · exact hS.target
  · intro b hb hbu
    rw [hvnow b] at hbu
    by_cases hbai : b = ai
    · exact Or.inl hbai
    · right
      obtain ⟨g1, g2⟩ := hoccb b hb hbu hbai
      rw [hS.others b hbai, hvnow ai]
      exact ⟨(hdec b).mpr g1, g2⟩
  · exact Or.inl hS.owner
  · intro a ha hta _ w hw
    exact hold a ha hta w hw
  · intro a ha hta hai
    rw [hS.others a hai]
    exact hex a ha ((hten a hai).mp hta)
  · intro j hj
    obtain ⟨hjn, hjai, hjt, hjv⟩ := ready_pusher hR hj
    refine ⟨hjn, hjai, (hten j hjai).mpr hjt, ?_, ?_⟩
    · rw [hS.others j hjai, hvnow ai]; exact hjv
    · rw [hvnow j]; exact hskip j hj
  · intro haj a ha hta
    by_contra hai
    exact ready_alone hR haj a ha ((hten a hai).mp hta)
  · intro a ha hta b hb hab
    rw [hvnow b] at hab
    by_cases hai : a = ai
    · subst hai
      rw [hS.target] at hab
      by_cases hba : b = a
      · rw [hba, hS.target]; simp
      · exact hocc b ((hR.base.occ_now u b).mpr ⟨hb, (Option.some.inj hab).symm⟩)
    · rw [hS.others a hai] at hab
      rcases hR.occupant a ha ((hten a hai).mp hta) b hb hab with h | h
      · have hbai : b ≠ ai := by
          intro e; subst e; exact ready_not_tentative hR h
        rw [hS.others b hbai]
        exact h.1
      · rw [h, hS.target]; simp

theorem ext_planned {n : Nat} {s s' : PIBT} {ai : Nat} (hE : s.Ext n s' ai)
    {a : Nat} (ha : a < n) (hai : a ≠ ai) (hp : (s.agents a).v_next ≠ none)
    (hd : ∀ b, b < n → s'.decided b → (s'.agents b).v_next ≠ none) :
    (s'.agents a).v_next ≠ none := by
  by_cases ht : s.tentative a
  · rw [hE.kept a ha hai ht]; exact hp
  · have hda : s.decided a := by
      unfold PIBT.decided
      intro e
      exact ht ⟨hp, e⟩
    exact hd a ha (hE.mono a ha hda)

theorem fail_stay_effect (s : PIBT) (ai : Nat) :
    s.Frame (PIBT.fail_stay s ai) ∧
    (PIBT.fail_stay s ai).cycle_handled = s.cycle_handled ∧
    (PIBT.fail_stay s ai).initial_requester = s.initial_requester ∧
    (PIBT.fail_stay s ai).request_chain = s.request_chain ∧
    (∀ a, a ≠ ai → (PIBT.fail_stay s ai).agents a = s.agents a) ∧
    ((PIBT.fail_stay s ai).agents ai).v_next = some (s.agents ai).v_now ∧
    ((PIBT.fail_stay s ai).agents ai).ott_next = (s.agents ai).ott_now ∧
    (∀ w, w ≠ (s.agents ai).v_now →
      (PIBT.fail_stay s ai).occupied_next w = s.occupied_next w) := by
  refine ⟨⟨fun a => ?_, ?_, ?_, ?_, ?_⟩, ?_, ?_, ?_, fun a ha => ?_, ?_, ?_,
      fun w hw => ?_⟩ <;>
    simp [PIBT.fail_stay, PIBT.set_v_next, PIBT.set_ott_next, PIBT.setOccupiedNext,
      PIBT.setAgent, Function.update_apply, Agent.static_eq, *] <;>
    try (split_ifs <;> subst_vars <;> simp)

/-- When no candidate is left the agent stays, which ends the call without a cycle. -/
theorem fail_stay_post {G : Graph} {n : Nat} {s : PIBT} {ai : Nat} {aj : Option Nat}
    {ii : Bool} (hR : s.Ready G n ai aj ii) :
    PIBT.Post G n s ai aj (false, PIBT.fail_stay s ai) := by
  obtain ⟨hfr, hch, hrq, hrc, hoth, hvn, hon, hocc⟩ := fail_stay_effect s ai
  generalize PIBT.fail_stay s ai = s' at *
  have hvnow : ∀ a, (s'.agents a).v_now = (s.agents a).v_now := fun a => (hfr.agents a).2.1
  have hdai : s'.decided ai := by
    unfold PIBT.decided
    rw [hon]
    exact hR.base.ott_now ai hR.ai_lt
  have hten : ∀ a, a ≠ ai → (s'.tentative a ↔ s.tentative a) := by
    intro a ha; unfold PIBT.tentative; rw [hoth a ha]
  have hnt : ¬ s'.tentative ai := fun h => tentative_not_decided h hdai
  have hI : s'.Inv G n := by
    refine inv_stay (fun _ => False) hR.base hR.inv hR.ai_lt
      (fun h => absurd h (ready_not_decided hR)) hoth (hvnow ai) hvn ?_
      (fun w hw _ => hocc w hw) (fun w hw => absurd hw id) (fun w hw => absurd hw id)
    rw [hon]
    exact hR.base.ott_now ai hR.ai_lt
  left
  refine ⟨⟨hfr, hrq, fun a _ hai _ => hoth a hai, fun a _ hai h => (hten a hai).mp h, ?_⟩,
    ⟨hI, by rw [hch]; exact hR.not_handled, hdai, ?_, ?_, ?_, ?_, ?_, ?_⟩,
    fun _ => ⟨hrc, hvn⟩⟩
  · intro a ha hd
    by_cases hai : a = ai
    · rw [hai]; exact hdai
    · unfold PIBT.decided; rw [hoth a hai]; exact hd
  · intro j hj
    obtain ⟨hjn, hjai, _, _⟩ := ready_pusher hR hj
    rw [hvn, hvnow j]
    intro e
    exact hjai (base_inj hR.base hjn hR.ai_lt (Option.some.inj e).symm)
  · intro a ha hai hta haj u hu
    have hts := (hten a hai).mp hta
    rw [hoth a hai] at hu
    have huai : u ≠ (s.agents ai).v_now := by
      intro e
      rw [e] at hu
      exact haj (ready_parent_unique hR ha hts hu)
    rw [hocc u huai]
    exact hR.holds a ha hts u hu
  · intro j _
    right
    rw [hvn, hvnow ai]
  · intro j hj
    obtain ⟨hjn, hjai, hjt, hjv⟩ := ready_pusher hR hj
    exact ⟨hjn, hjai, (hten j hjai).mpr hjt, by rw [hoth j hjai, hvnow ai]; exact hjv⟩
  · intro haj a ha hta
    by_cases hai : a = ai
    · rw [hai] at hta; exact hnt hta
    · exact ready_alone hR haj a ha ((hten a hai).mp hta)
  · intro a ha hta b hb hab
    have hai : a ≠ ai := by
      intro e; rw [e] at hta; exact hnt hta
    rw [hoth a hai, hvnow b] at hab
    rcases hR.occupant a ha ((hten a hai).mp hta) b hb hab with h | h
    · have hbai : b ≠ ai := by
        intro e; subst e; exact ready_not_tentative hR h
      rw [hoth b hbai]
      exact h.1
    · rw [h, hvn]; simp

/-- The relation between the state at the head of the candidate loop and the state after
the call for the occupant of the reserved candidate has returned. -/
theorem ext_after_child {G : Graph} {n : Nat} {s s2 s3 : PIBT} {ai u ak : Nat}
    {aj : Option Nat} {ii : Bool}
    (hR : s.Ready G n ai aj ii) (hS : s.Reserved s2 ai u)
    (hfree : s.occupied_next u = none) (hskip : ∀ j, aj = some j → u ≠ (s.agents j).v_now)
    (hakn : (s2.agents ak).v_next = none) (hakl : ak < n)
    (hE : s2.Ext n s3 ak) (hdk : s3.decided ak) :
    s.Ext n s3 ai ∧ s3.agents ai = s2.agents ai ∧ ak ≠ ai ∧
    (∀ a, a < n → a ≠ ai → s3.tentative a → a ≠ ak ∧ s.tentative a ∧
      s3.agents a = s.agents a) := by
  obtain ⟨hb2, hi2, hait, hten, hdec, hold, hex⟩ := reserved_facts hR hS hfree hskip
  have hakai : ak ≠ ai := by
    intro e
    rw [e, hS.target] at hakn
    exact absurd hakn (by simp)
  have haks : ¬ s.tentative ak := by
    intro h
    apply h.1
    rw [← hS.others ak hakai]
    exact hakn
  have hnew : ∀ a, a < n → a ≠ ai → s3.tentative a → a ≠ ak ∧ s.tentative a ∧
      s3.agents a = s.agents a := by
    intro a ha hai hta
    have hak : a ≠ ak := by
      intro e; rw [e] at hta; exact tentative_not_decided hta hdk
    have h2 := hE.no_new a ha hak hta
    exact ⟨hak, (hten a hai).mp h2, by rw [hE.kept a ha hak h2, hS.others a hai]⟩
  refine ⟨⟨frame_trans hS.frame hE.frame, hE.requester.trans hS.requester, ?_,
    fun a ha hai hta => (hnew a ha hai hta).2.1, ?_⟩,
    hE.kept ai hR.ai_lt hakai.symm hait, hakai, hnew⟩
  · intro a ha hai hta
    have hak : a ≠ ak := by
      intro e; rw [e] at hta; exact haks hta
    rw [hE.kept a ha hak ((hten a hai).mpr hta), hS.others a hai]
  · intro a ha hd
    exact hE.mono a ha ((hdec a).mpr hd)

/-- After the call for the occupant of the candidate has determined the action of the
occupant, the agent determines its own. -/
theorem deciding_after_child {G : Graph} {n : Nat} {s s2 s3 : PIBT} {ai u ak : Nat}
    {aj : Option Nat} {ii : Bool}
    (hR : s.Ready G n ai aj ii) (hS : s.Reserved s2 ai u)
    (hfree : s.occupied_next u = none) (hskip : ∀ j, aj = some j → u ≠ (s.agents j).v_now)
    (hak : s.occupied_now u = some ak) (hakn : (s2.agents ak).v_next = none)
    (hE : s2.Ext n s3 ak) (hF : s3.Final G n ak (some ai)) :
    s3.Deciding G n ai u aj := by
  obtain ⟨hb2, hi2, hait, hten, hdec, hold, hex⟩ := reserved_facts hR hS hfree hskip
  obtain ⟨hakl, haku⟩ := (hR.base.occ_now u ak).mp hak
  obtain ⟨hE3, hai3, hakai, hnew⟩ := ext_after_child hR hS hfree hskip hakn hakl hE hF.decided
  have hvnow : ∀ a, (s3.agents a).v_now = (s.agents a).v_now :=
    fun a => (hE3.frame.agents a).2.1
  have hb3 : s3.Base n := base_of_frame hR.base hE3.frame
  have hait3 : s3.tentative ai := by
    unfold PIBT.tentative; rw [hai3]; exact hait
  constructor
  · exact hb3
  · exact hF.inv
  · exact hR.ai_lt
  · exact hait3
  · rw [hai3]; exact hS.target
  · intro b hb hbu
    rw [hvnow b] at hbu
    right
    have hbk : b = ak := base_inj hR.base hb hakl (hbu.trans haku.symm)
    rw [hbk]
    exact ⟨hF.decided, hF.avoids ai rfl⟩
  · rcases hF.parent ai rfl with h | h
    · left
      rw [hvnow ak, haku] at h
      exact h
    · right
      refine ⟨ak, hakl, by rw [hvnow ak]; exact haku, hF.decided, ?_⟩
      rw [h, hvnow ak, haku]
  · intro a ha hta hai w hw
    have hak := (hnew a ha hai hta).1
    exact hF.holds a ha hak hta (fun e => hai (Option.some.inj e).symm) w hw
  · intro a ha hta hai
    obtain ⟨_, hts, he⟩ := hnew a ha hai hta
    rw [he]
    exact hex a ha hts
  · intro j hj
    obtain ⟨hjn, hjai, hjt, hjv⟩ := ready_pusher hR hj
    have he := hE3.kept j hjn hjai hjt
    refine ⟨hjn, hjai, ?_, ?_, ?_⟩
    · unfold PIBT.tentative; rw [he]; exact hjt
    · rw [he, hvnow ai]; exact hjv
    · rw [hvnow j]; exact hskip j hj
  · intro haj a ha hta
    by_contra hai
    exact ready_alone hR haj a ha (hnew a ha hai hta).2.1
  · exact hF.planned

theorem withdraw_effect (s3 : PIBT) (ai u : Nat) :
    s3.Frame ((({ s3 with request_chain := s3.request_chain.dropLast } : PIBT).setOccupiedNext
      u none).set_v_next ai none) ∧
    ((({ s3 with request_chain := s3.request_chain.dropLast } : PIBT).setOccupiedNext
      u none).set_v_next ai none).cycle_handled = s3.cycle_handled ∧
    ((({ s3 with request_chain := s3.request_chain.dropLast } : PIBT).setOccupiedNext
      u none).set_v_next ai none).initial_requester = s3.initial_requester ∧
    ((({ s3 with request_chain := s3.request_chain.dropLast } : PIBT).setOccupiedNext
      u none).set_v_next ai none).request_chain = s3.request_chain.dropLast ∧
    (∀ a, a ≠ ai → ((({ s3 with request_chain := s3.request_chain.dropLast } :
      PIBT).setOccupiedNext u none).set_v_next ai none).agents a = s3.agents a) ∧
    (((({ s3 with request_chain := s3.request_chain.dropLast } : PIBT).setOccupiedNext
      u none).set_v_next ai none).agents ai).v_next = none ∧
    (((({ s3 with request_chain := s3.request_chain.dropLast } : PIBT).setOccupiedNext
      u none).set_v_next ai none).agents ai).ott_next = (s3.agents ai).ott_next ∧
    (∀ w, w ≠ u → ((({ s3 with request_chain := s3.request_chain.dropLast } :
      PIBT).setOccupiedNext u none).set_v_next ai none).occupied_next w =
        s3.occupied_next w) := by
  refine ⟨⟨fun a => ?_, ?_, ?_, ?_, ?_⟩, ?_, ?_, ?_, fun a ha => ?_, ?_, ?_,
      fun w hw => ?_⟩ <;>
    simp [PIBT.set_v_next, PIBT.setOccupiedNext, PIBT.setAgent, Function.update_apply,
      Agent.static_eq, *] <;>
    try (split_ifs <;> subst_vars <;> simp)

/-- After the call for the occupant of the candidate has failed, the agent withdraws its
reservation and the loop goes on from a state like the one before the reservation. -/
theorem ready_backtrack {G : Graph} {n : Nat} {s s2 s3 : PIBT} {ai u ak : Nat}
    {aj : Option Nat} {ii : Bool}
    (hR : s.Ready G n ai aj ii) (hS : s.Reserved s2 ai u)
    (hchain : s2.request_chain = s.request_chain ++ [⟨ai, u⟩])
    (hfree : s.occupied_next u = none) (hskip : ∀ j, aj = some j → u ≠ (s.agents j).v_now)
    (hak : s.occupied_now u = some ak) (hakn : (s2.agents ak).v_next = none)
    (hE : s2.Ext n s3 ak) (hF : s3.Final G n ak (some ai))
    (hc3 : s3.request_chain = s2.request_chain)
    (hv3 : (s3.agents ak).v_next = some (s2.agents ak).v_now) :
    (((({ s3 with request_chain := s3.request_chain.dropLast } : PIBT).setOccupiedNext u
      none).set_v_next ai none).Ready G n ai aj ii) ∧
    s.Ext n ((({ s3 with request_chain := s3.request_chain.dropLast } : PIBT).setOccupiedNext u
      none).set_v_next ai none) ai ∧
    ((({ s3 with request_chain := s3.request_chain.dropLast } : PIBT).setOccupiedNext u
      none).set_v_next ai none).request_chain = s.request_chain := by
  obtain ⟨hb2, hi2, hait, hten, hdec, hold, hex⟩ := reserved_facts hR hS hfree hskip
  obtain ⟨hakl, haku⟩ := (hR.base.occ_now u ak).mp hak
  obtain ⟨hE3, hai3, hakai, hnew⟩ := ext_after_child hR hS hfree hskip hakn hakl hE hF.decided
  have hb3 : s3.Base n := base_of_frame hR.base hE3.frame
  have hvnow3 : ∀ a, (s3.agents a).v_now = (s.agents a).v_now :=
    fun a => (hE3.frame.agents a).2.1
  have hv3u : (s3.agents ak).v_next = some u := by
    rw [hv3, (hS.frame.agents ak).2.1, haku]
  have hait3 : s3.tentative ai := by
    unfold PIBT.tentative; rw [hai3]; exact hait
  obtain ⟨hfr, hch, hrq, hrc, hoth, hvn, hon, hocc⟩ := withdraw_effect s3 ai u
  generalize ((({ s3 with request_chain := s3.request_chain.dropLast } : PIBT).setOccupiedNext u
        none).set_v_next ai none) = s4 at *
  have hvnow : ∀ a, (s4.agents a).v_now = (s.agents a).v_now := by
    intro a; rw [(hfr.agents a).2.1]; exact hvnow3 a
  have hnt4 : ¬ s4.tentative ai := fun h => h.1 hvn
  have hnd4 : ¬ s4.decided ai := by
    unfold PIBT.decided
    rw [hon]
    exact fun h => h hait3.2
  have hten4 : ∀ a, a ≠ ai → (s4.tentative a ↔ s3.tentative a) := by
    intro a ha; unfold PIBT.tentative; rw [hoth a ha]
  have hdec4 : ∀ a, a ≠ ai → (s4.decided a ↔ s3.decided a) := by
    intro a ha; unfold PIBT.decided; rw [hoth a ha]
  have hne4 : ∀ a, s4.tentative a → a ≠ ai := by
    intro a h e; rw [e] at h; exact hnt4 h
  have hnd4' : ∀ a, s4.decided a → a ≠ ai := by
    intro a h e; rw [e] at h; exact hnd4 h
  -- a tentative agent of the new state is one of the old state, with the same record
  have hback : ∀ a, a < n → s4.tentative a → a ≠ ai ∧ a ≠ ak ∧ s.tentative a ∧
      s4.agents a = s.agents a := by
    intro a ha hta
    have hai := hne4 a hta
    obtain ⟨g1, g2, g3⟩ := hnew a ha hai ((hten4 a hai).mp hta)
    exact ⟨hai, g1, g2, by rw [hoth a hai, g3]⟩
  have hfwd : ∀ a, a < n → s.tentative a → a ≠ ai ∧ s4.tentative a ∧
      s4.agents a = s.agents a := by
    intro a ha hta
    have hai : a ≠ ai := by
      intro e; rw [e] at hta; exact ready_not_tentative hR hta
    have he : s4.agents a = s.agents a := by rw [hoth a hai, hE3.kept a ha hai hta]
    exact ⟨hai, by unfold PIBT.tentative; rw [he]; exact hta, he⟩
  have hE4 : s.Ext n s4 ai := by
    refine ⟨frame_trans hE3.frame hfr, hrq.trans hE3.requester, ?_, ?_, ?_⟩
    · intro a ha _ hta
      exact (hfwd a ha hta).2.2
    · intro a ha _ hta
      exact (hback a ha hta).2.2.1
    · intro a ha hd
      have hai : a ≠ ai := by
        intro e; rw [e] at hd; exact ready_not_decided hR hd
      exact (hdec4 a hai).mpr (hE3.mono a ha hd)
  have hI4 : s4.Inv G n := by
    constructor
    · intro a ha o ho
      have hai : a ≠ ai := by
        intro e
        rw [e, hon, hait3.2] at ho
        exact absurd ho (by simp)
      rw [hoth a hai] at ho ⊢
      exact hF.inv.d1 a ha o ho
    · intro a ha hd w hw hne
      have hai := hnd4' a hd
      have hd3 := (hdec4 a hai).mp hd
      rw [hoth a hai] at hw hne
      have hwu : w ≠ u := by
        intro e
        have := (hF.inv.d3 a ha hd3 w hw hne ak hakl (by rw [hvnow3 ak, haku, e])).2.1
        rw [e] at this
        exact this hv3u
      rw [hocc w hwu]
      exact hF.inv.d2 a ha hd3 w hw hne
    · intro a ha hd w hw hne b hb hbw
      have hai := hnd4' a hd
      have hd3 := (hdec4 a hai).mp hd
      rw [hoth a hai] at hw hne ⊢
      rw [hvnow b, ← hvnow3 b] at hbw
      obtain ⟨g1, g2, g3⟩ := hF.inv.d3 a ha hd3 w hw hne b hb hbw
      have hbai : b ≠ ai := by
        intro e; rw [e] at g1; exact tentative_not_decided hait3 g1
      rw [hoth b hbai]
      exact ⟨(hdec4 b hbai).mpr g1, g2, g3⟩
    · intro a ha hta w hw b hb hbw hba
      have hai := hne4 a hta
      rw [hoth a hai] at hw ⊢
      by_cases hbai : b = ai
      · rw [hbai, hvn]; simp
      · rw [hoth b hbai] at hbw ⊢
        exact hF.inv.t1 a ha ((hten4 a hai).mp hta) w hw b hb hbw hba
    · intro a ha hta w hw
      obtain ⟨hai, hak', hts, he⟩ := hback a ha hta
      have hwu : w ≠ u := by
        intro e
        rw [he, e] at hw
        exact hex a ha hts hw
      rw [hoth a hai] at hw
      rcases hF.inv.t2 a ha ((hten4 a hai).mp hta) w hw with h | ⟨b, hb, hbw, hbd, hbv⟩
      · left; rw [hocc w hwu]; exact h
      · right
        have hbai : b ≠ ai := by
          intro e; rw [e] at hbd; exact tentative_not_decided hait3 hbd
        exact ⟨b, hb, by rw [hoth b hbai]; exact hbw, (hdec4 b hbai).mpr hbd,
          by rw [hoth b hbai]; exact hbv⟩
  have hrc4 : s4.request_chain = s.request_chain := by
    rw [hrc, hc3, hchain, List.dropLast_concat]
  refine ⟨?_, hE4, hrc4⟩
  constructor
  · exact base_of_frame hb3 hfr
  · exact hI4
  · exact hR.ai_lt
  · exact hvn
  · rw [hch]; exact hF.not_handled
  · intro x hx
    rw [hrc4] at hx
    obtain ⟨g1, g2, g3⟩ := hR.chain_sound x hx
    obtain ⟨_, h1, h2⟩ := hfwd _ g1 g2
    exact ⟨g1, h1, by rw [h2]; exact g3⟩
  · intro a ha hta
    rw [hrc4]
    exact hR.chain_complete a ha (hback a ha hta).2.2.1
  · intro a ha hta w hw
    obtain ⟨hai, hak', hts, he⟩ := hback a ha hta
    have hwu : w ≠ u := by
      intro e
      rw [he, e] at hw
      exact hex a ha hts hw
    rw [hocc w hwu]
    rw [hoth a hai] at hw
    exact hF.holds a ha hak' ((hten4 a hai).mp hta)
      (fun e => hai (Option.some.inj e).symm) w hw
  · intro a ha hta
    obtain ⟨_, _, hts, he⟩ := hback a ha hta
    rw [he]
    exact hR.leaves a ha hts
  · intro a ha hta b hb hab
    obtain ⟨_, _, hts, he⟩ := hback a ha hta
    rw [he, hvnow b] at hab
    rcases hR.occupant a ha hts b hb hab with h | h
    · exact Or.inl (hfwd b hb h).2.1
    · exact Or.inr h
  · intro hii
    obtain ⟨g1, g2, g3⟩ := hR.top hii
    exact ⟨g1, by rw [hE4.requester]; exact g2,
      fun a ha hta => g3 a ha (hback a ha hta).2.2.1⟩
  · intro hii
    obtain ⟨j, r, hj, hjn, hjt, hjv, hr, hrn, hrt, hR1⟩ := hR.nested hii
    refine ⟨j, r, hj, hjn, (hfwd j hjn hjt).2.1, ?_, by rw [hE4.requester]; exact hr, hrn,
      (hfwd r hrn hrt).2.1, ?_⟩
    · rw [(hfwd j hjn hjt).2.2, hvnow ai]; exact hjv
    · intro t ht htt hne
      obtain ⟨p, hp, hpt, hpv⟩ := hR1 t ht (hback t ht htt).2.2.1 hne
      exact ⟨p, hp, (hfwd p hp hpt).2.1, by rw [(hfwd p hp hpt).2.2, hvnow t]; exact hpv⟩

theorem cycle_test_true {s : PIBT} {ii : Bool} {u : Nat}
    (h : PIBT.cycle_test s ii u = .ok true) :
    ii = false ∧ ∃ r, s.initial_requester = some r ∧ u = (s.agents r).v_now := by
  unfold PIBT.cycle_test at h
  cases ii with
  | true => simp at h
  | false =>
    cases hr : s.initial_requester with
    | none => rw [hr] at h; simp at h
    | some r =>
      rw [hr] at h
      simp at h
      exact ⟨rfl, r, rfl, h⟩

theorem cycle_test_false {s : PIBT} {ii : Bool} {u : Nat}
    (h : PIBT.cycle_test s ii u = .ok false) :
    ii = false → ∀ r, s.initial_requester = some r → u ≠ (s.agents r).v_now := by
  intro hii r hr
  unfold PIBT.cycle_test at h
  rw [hii, hr] at h
  simp at h
  exact h

theorem reserved_push {s s1 : PIBT} {ai u : Nat} (h : s.Reserved s1 ai u)
    (c : List Request) : s.Reserved { s1 with request_chain := c } ai u :=
  ⟨⟨h.frame.agents, h.frame.occupied_now, h.frame.order, h.frame.solution, h.frame.solved⟩,
    h.handled, h.requester, h.others, h.target, h.heading, h.owner, h.rest⟩

theorem ext_of_reserved {G : Graph} {n : Nat} {s s1 : PIBT} {ai u : Nat} {aj : Option Nat}
    {ii : Bool} (hR : s.Ready G n ai aj ii) (hS : s.Reserved s1 ai u) : s.Ext n s1 ai := by
  refine ⟨hS.frame, hS.requester, fun a _ hai _ => hS.others a hai, ?_, ?_⟩
  · intro a _ hai hta
    unfold PIBT.tentative at hta ⊢
    rw [hS.others a hai] at hta
    exact hta
  · intro a _ hd
    unfold PIBT.decided at hd ⊢
    by_cases hai : a = ai
    · rw [hai] at hd; exact absurd hd (ready_not_decided hR)
    · rw [hS.others a hai]; exact hd

theorem inv_congr {G : Graph} {n : Nat} {s s' : PIBT} (ha : s'.agents = s.agents)
    (ho : s'.occupied_next = s.occupied_next) (h : s.Inv G n) : s'.Inv G n := by
  obtain ⟨d1, d2, d3, t1, t2⟩ := h
  constructor <;> simp only [PIBT.decided, PIBT.tentative, ha, ho] at * <;> assumption

/-- The result of a call is related to an earlier state of the candidate loop as it is to
the state from which the loop went on. -/
theorem post_of_ext {G : Graph} {n : Nat} {s s4 : PIBT} {ai : Nat} {aj : Option Nat}
    {ii : Bool} {r : Bool × PIBT} (hR : s.Ready G n ai aj ii) (hE : s.Ext n s4 ai)
    (hc : s4.request_chain = s.request_chain) (hi4 : s4.Inv G n)
    (hP : PIBT.Post G n s4 ai aj r) : PIBT.Post G n s ai aj r := by
  rcases hP with ⟨hE', hF, hf⟩ | ⟨h1, hE0, hFC, hd⟩
  · left
    refine ⟨ext_trans hE hE', hF, fun h => ?_⟩
    obtain ⟨g1, g2⟩ := hf h
    exact ⟨g1.trans hc, by rw [g2, (hE.frame.agents ai).2.1]⟩
  · right
    refine ⟨h1, ⟨frame_trans hE.frame hE0.frame, ?_⟩, hFC, hd⟩
    intro a ha hp
    have hai : a ≠ ai := by
      intro e; rw [e] at hp; exact hp hR.unplanned
    apply hE0.planned a ha
    apply ext_planned hE ha hai hp
    intro b hb hdb
    obtain ⟨w, hw⟩ := decided_planned hi4 hb hdb
    rw [hw]; simp

theorem candidate_loop_post {E : Env} {n : Nat}
    {call : PIBT → Nat → Option Nat → Bool → Outcome (Bool × PIBT)}
    {ai : Nat} {aj : Option Nat} {ii : Bool} {swap_agent : Option Nat}
    (hcall : ∀ s ak j r, s.Ready E.G n ak (some j) false →
      call s ak (some j) false = .ok r → PIBT.Post E.G n s ak (some j) r)
    (hprov : ∀ sa, swap_agent = some sa → sa < n) :
    ∀ (C : List Nat) (m : Int) (s : PIBT) (r : Bool × PIBT),
      s.Ready E.G n ai aj ii →
      PIBT.candidate_loop E call ai aj ii swap_agent C m s = .ok r →
      PIBT.Post E.G n s ai aj r := by
  intro C
  induction C with
  | nil =>
    intro m s r hR h
    unfold PIBT.candidate_loop at h
    simp only [Outcome.ok.injEq] at h
    rw [← h]
    exact fail_stay_post hR
  | cons u C ih =>
    intro m s r hR h
    unfold PIBT.candidate_loop at h
    split_ifs at h with h1 h2
    · exact ih _ _ _ hR h
    · exact ih _ _ _ hR h
    · have hfree : s.occupied_next u = none := not_not.mp h1
      have hskip : ∀ j, aj = some j → u ≠ (s.agents j).v_now := by
        intro j hj e
        apply h2
        rw [hj]
        simp [e]
      have hS1 : s.Reserved ((s.setOccupiedNext u (some ai)).set_v_next ai (some u)) ai u :=
        reserve_reserved s ai u s.request_chain
      have hc1 : ((s.setOccupiedNext u (some ai)).set_v_next ai (some u)).request_chain =
          s.request_chain := rfl
      dsimp only at h
      generalize (s.setOccupiedNext u (some ai)).set_v_next ai (some u) = s1 at h hS1 hc1
      have hS2 := reserved_push hS1 (s1.request_chain ++ [⟨ai, u⟩])
      have hchain : ({ s1 with request_chain := s1.request_chain ++ [⟨ai, u⟩] } :
          PIBT).request_chain = s.request_chain ++ [⟨ai, u⟩] := by
        show s1.request_chain ++ _ = _
        rw [hc1]
      have hon1 : s1.occupied_now = s.occupied_now := hS1.frame.occupied_now
      have hE1 : s.Ext n s1 ai := ext_of_reserved hR hS1
      have hch1 : s1.cycle_handled = false := by rw [hS1.handled]; exact hR.not_handled
      obtain ⟨cycle, hcyc, h⟩ := Outcome.bind_eq_ok.mp h
      cases cycle with
      | true =>
        obtain ⟨hii, r0, hr0, hur⟩ := cycle_test_true hcyc
        rw [hS1.requester] at hr0
        rw [(hS1.frame.agents r0).2.1] at hur
        have hC := cyclic_of_reserved hR hS2 hchain hfree hskip hii hr0 hur
        simp only [if_true] at h
        split_ifs at h with ho
        obtain ⟨s', hs', h⟩ := Outcome.bind_eq_ok.mp h
        obtain ⟨hfr, hi', _, hnt, hpl⟩ := handleCycle_post hC hs'
        simp only [Outcome.ok.injEq] at h
        rw [← h]
        have hfr' := frame_trans hS2.frame hfr
        have hi'' : PIBT.Inv E.G n ({ s' with cycle_handled := true } : PIBT) :=
          @inv_congr _ _ s' _ rfl rfl hi'
        right
        refine ⟨rfl, ⟨⟨hfr'.agents, hfr'.occupied_now, hfr'.order, hfr'.solution,
          hfr'.solved⟩, ?_⟩, ⟨hi'', rfl, hnt⟩, ?_⟩
        · intro a ha hp
          apply hpl a ha
          have hai : a ≠ ai := by
            intro e; rw [e] at hp; exact hp hR.unplanned
          show (s1.agents a).v_next ≠ none
          rw [hS1.others a hai]
          exact hp
        · have hp : (s'.agents ai).v_next ≠ none := by
            apply hpl ai hR.ai_lt
            show (s1.agents ai).v_next ≠ none
            rw [hS1.target]; simp
          show (s'.agents ai).ott_next ≠ none
          intro e
          exact hnt ai hR.ai_lt ⟨hp, e⟩
      | false =>
        have hnc := cycle_test_false hcyc
        rw [hS1.requester] at hnc
        have hnc' : ii = false → ∀ r, s.initial_requester = some r → u ≠ (s.agents r).v_now := by
          intro hii r0 hr0
          have := hnc hii r0 hr0
          rw [(hS1.frame.agents r0).2.1] at this
          exact this
        simp only [Bool.false_eq_true, if_false] at h
        cases hak1 : s1.occupied_now u with
        | none =>
          rw [hak1] at h
          have hak : s.occupied_now u = none := by rw [← hon1]; exact hak1
          simp only at h
          have hD := deciding_direct hR hS1 hfree hskip hnc'
            (fun b hb => by rw [hak] at hb; exact absurd hb (by simp))
          obtain ⟨g1, g2, g3⟩ := decide_action_post hD hch1 hprov h
          left
          exact ⟨ext_trans hE1 g2, g3, fun e => by rw [g1] at e; exact absurd e (by simp)⟩
        | some ak =>
          rw [hak1] at h
          have hak : s.occupied_now u = some ak := by rw [← hon1]; exact hak1
          simp only at h
          split_ifs at h with hakn
          · have hRc := ready_child hR hS2 hchain hfree hskip hak hakn
            obtain ⟨hakl, haku⟩ := (hR.base.occ_now u ak).mp hak
            obtain ⟨r1, hr1, h⟩ := Outcome.bind_eq_ok.mp h
            have hP := hcall _ _ _ _ hRc hr1
            generalize ({ s1 with request_chain := s1.request_chain ++ [⟨ai, u⟩] } : PIBT) = s2
              at hS2 hchain hRc hr1 hP
            have hakn2 : (s2.agents ak).v_next = none := hRc.unplanned
            rcases hP with ⟨hE, hF, hf⟩ | ⟨ht, hE0, hFC, hdk⟩
            · split_ifs at h with hr
              · have hD := deciding_after_child hR hS2 hfree hskip hak hakn2 hE hF
                obtain ⟨g1, g2, g3⟩ := decide_action_post hD hF.not_handled hprov h
                obtain ⟨hE3, _⟩ := ext_after_child hR hS2 hfree hskip hakn2 hakl hE hF.decided
                left
                exact ⟨ext_trans hE3 g2, g3, fun e => by rw [g1] at e; exact absurd e (by simp)⟩
              · obtain ⟨hc3, hv3⟩ := hf (by simpa using hr)
                obtain ⟨hR4, hE4, hc4⟩ :=
                  ready_backtrack hR hS2 hchain hfree hskip hak hakn2 hE hF hc3 hv3
                exact post_of_ext hR hE4 hc4 hR4.inv (ih _ _ _ hR4 h)
            · rw [ht] at h
              simp only [if_true] at h
              unfold PIBT.decide_action at h
              rw [hFC.handled] at h
              simp only [if_true, Outcome.ok.injEq] at h
              rw [← h]
              right
              refine ⟨rfl, ⟨frame_trans hS2.frame hE0.frame, ?_⟩, hFC, ?_⟩
              · intro a ha hp
                apply hE0.planned a ha
                have hai : a ≠ ai := by
                  intro e; rw [e] at hp; exact hp hR.unplanned
                rw [hS2.others a hai]
                exact hp
              · have hp : (r1.2.agents ai).v_next ≠ none := by
                  apply hE0.planned ai hR.ai_lt
                  rw [hS2.target]; simp
                show (r1.2.agents ai).ott_next ≠ none
                intro e
                exact hFC.none_tentative ai hR.ai_lt ⟨hp, e⟩
          · have hD := deciding_direct hR hS1 hfree hskip hnc'
              (fun b hb => by rw [hak] at hb; cases hb; exact hakn)
            obtain ⟨g1, g2, g3⟩ := decide_action_post hD hch1 hprov h
            left
            exact ⟨ext_trans hE1 g2, g3, fun e => by rw [g1] at e; exact absurd e (by simp)⟩

theorem swap_first_test_some {E : Env} {s : PIBT} {ai c0 sa : Nat}
    (h : PIBT.swap_first_test E s ai c0 = .ok (some sa)) : s.occupied_now c0 = some sa := by
  unfold PIBT.swap_first_test at h
  cases ho : s.occupied_now c0 with
  | none => rw [ho] at h; simp at h
  | some aj =>
    rw [ho] at h
    simp only at h
    split_ifs at h with h1
    · obtain ⟨rq, _, h⟩ := Outcome.bind_eq_ok.mp h
      split_ifs at h with h2
      · obtain ⟨ps, _, h⟩ := Outcome.bind_eq_ok.mp h
        simp only [Outcome.ok.injEq] at h
        split_ifs at h
        · rw [Option.some.inj h]
      · simp at h
    · simp at h

theorem swap_neighbor_scan_some {E : Env} {s : PIBT} {ai c0 sa : Nat} :
    ∀ l, PIBT.swap_neighbor_scan E s ai c0 l = .ok (some sa) →
      ∃ x, s.occupied_now x = some sa := by
  intro l
  induction l with
  | nil =>
    intro h
    unfold PIBT.swap_neighbor_scan at h
    simp at h
  | cons u us ih =>
    intro h
    unfold PIBT.swap_neighbor_scan at h
    cases ho : s.occupied_now u with
    | none => rw [ho] at h; exact ih h
    | some ak =>
      rw [ho] at h
      simp only at h
      split_ifs at h with h1
      · exact ih h
      · obtain ⟨rq, _, h⟩ := Outcome.bind_eq_ok.mp h
        split_ifs at h with h2
        · obtain ⟨ps, _, h⟩ := Outcome.bind_eq_ok.mp h
          split_ifs at h with h3
          · simp only [Outcome.ok.injEq] at h
            exact ⟨u, by rw [ho, Option.some.inj h]⟩
          · exact ih h
        · exact ih h

theorem swap_possible_and_required_some {E : Env} {s : PIBT} {ai sa : Nat} {C : List Nat}
    (h : PIBT.swap_possible_and_required E s ai C = .ok (some sa)) :
    ∃ x, s.occupied_now x = some sa := by
  unfold PIBT.swap_possible_and_required at h
  cases hc : C.head? with
  | none => rw [hc] at h; simp at h
  | some c0 =>
    rw [hc] at h
    simp only at h
    split_ifs at h with h1
    · simp at h
    · obtain ⟨first, hf, h⟩ := Outcome.bind_eq_ok.mp h
      cases first with
      | none => exact swap_neighbor_scan_some _ h
      | some aj =>
        simp only [Outcome.ok.injEq] at h
        rw [Option.some.inj h] at hf
        exact ⟨c0, swap_first_test_some hf⟩

theorem pushEscape_state (E : Env) (s : PIBT) (C : List Nat) (a b : Nat) :
    ∃ mt pc, (PIBT.PushEscapeTrigger E s C a b).2 =
      { s with MT := mt, push_count_table := pc } := by
  unfold PIBT.PushEscapeTrigger
  dsimp only
  split_ifs
  · exact ⟨_, _, rfl⟩
  · exact ⟨s.MT, s.push_count_table, rfl⟩

/-- The computation of the candidate list changes nothing but the random engine and the
push counts, and a swap partner is the occupant of a vertex. -/
theorem candidates_effect {E : Env} {s : PIBT} {ai : Nat} {aj : Option Nat} {ii : Bool}
    {c : List Nat × Option Nat × PIBT} (h : PIBT.candidates E s ai aj ii = .ok c) :
    (∃ mt pc, c.2.2 = { s with MT := mt, push_count_table := pc }) ∧
    ∀ sa, c.2.1 = some sa → ∃ x, s.occupied_now x = some sa := by
  have fin : ∀ (s1 : PIBT) (C1 : List Nat) (sw : Option Nat),
      (∃ mt pc, s1 = ({ s with MT := mt, push_count_table := pc } : PIBT)) →
      PIBT.swap_possible_and_required E s1 ai C1 = .ok sw →
      ∀ sa, sw = some sa → ∃ x, s.occupied_now x = some sa := by
    intro s1 C1 sw ⟨mt, pc, e⟩ hsw sa hsa
    rw [hsa] at hsw
    obtain ⟨x, hx⟩ := swap_possible_and_required_some hsw
    rw [e] at hx
    exact ⟨x, hx⟩
  unfold PIBT.candidates at h
  cases aj with
  | none =>
    dsimp only at h
    obtain ⟨C, _, h⟩ := Outcome.bind_eq_ok.mp h
    obtain ⟨sw, hsw, h⟩ := Outcome.bind_eq_ok.mp h
    simp only [Outcome.ok.injEq] at h
    rw [← h]
    exact ⟨⟨_, s.push_count_table, rfl⟩, fin _ _ _ ⟨_, s.push_count_table, rfl⟩ hsw⟩
  | some j =>
    cases ii with
    | true =>
      simp only [not_true_eq_false, if_false] at h
      obtain ⟨C, _, h⟩ := Outcome.bind_eq_ok.mp h
      obtain ⟨sw, hsw, h⟩ := Outcome.bind_eq_ok.mp h
      simp only [Outcome.ok.injEq] at h
      rw [← h]
      exact ⟨⟨_, s.push_count_table, rfl⟩, fin _ _ _ ⟨_, s.push_count_table, rfl⟩ hsw⟩
    | false =>
      simp only [Bool.false_eq_true, not_false_eq_true, if_true] at h
      obtain ⟨C, _, h⟩ := Outcome.bind_eq_ok.mp h
      obtain ⟨sw, hsw, h⟩ := Outcome.bind_eq_ok.mp h
      simp only [Outcome.ok.injEq] at h
      rw [← h]
      obtain ⟨mt, pc, e⟩ := pushEscape_state E ({ s with MT := (E.shuffle s.MT
            (E.G.neighbor (s.agents ai).v_now ++ [(s.agents ai).v_now])).2 } : PIBT) C
            (s.agents ai).id (s.agents j).id
      exact ⟨⟨mt, pc, e.trans rfl⟩, fin _ _ _ ⟨mt, pc, e.trans rfl⟩ hsw⟩

/-- The invariant does not depend on the random engine and the push counts. -/
theorem ready_engine {G : Graph} {n : Nat} {s : PIBT} {ai : Nat} {aj : Option Nat} {ii : Bool}
    (hR : s.Ready G n ai aj ii) (mt : Nat) (pc : Nat → Nat → Int) :
    ({ s with MT := mt, push_count_table := pc } : PIBT).Ready G n ai aj ii :=
  ⟨⟨hR.base.id_eq, hR.base.ott_now, hR.base.occ_now⟩,
    ⟨hR.inv.d1, hR.inv.d2, hR.inv.d3, hR.inv.t1, hR.inv.t2⟩, hR.ai_lt, hR.unplanned,
    hR.not_handled, hR.chain_sound, hR.chain_complete, hR.holds, hR.leaves, hR.occupant,
    hR.top, hR.nested⟩

/-- The postcondition does not depend on the random engine and the push counts of the state
before the call. -/
theorem post_engine {G : Graph} {n : Nat} {s : PIBT} {ai : Nat} {aj : Option Nat}
    {r : Bool × PIBT} {mt : Nat} {pc : Nat → Nat → Int}
    (hP : PIBT.Post G n ({ s with MT := mt, push_count_table := pc } : PIBT) ai aj r) :
    PIBT.Post G n s ai aj r := by
  rcases hP with ⟨hE, hF, hf⟩ | ⟨h1, hE0, hFC, hd⟩
  · left
    exact ⟨⟨⟨hE.frame.agents, hE.frame.occupied_now, hE.frame.order, hE.frame.solution,
      hE.frame.solved⟩, hE.requester, hE.kept, hE.no_new, hE.mono⟩, hF, hf⟩
  · right
    exact ⟨h1, ⟨⟨hE0.frame.agents, hE0.frame.occupied_now, hE0.frame.order,
      hE0.frame.solution, hE0.frame.solved⟩, hE0.planned⟩, hFC, hd⟩

/-- A nested call of `funcPIBT` establishes its postcondition. -/
theorem funcPIBT_nested (E : Env) (n : Nat) :
    ∀ (depth : Nat) (s : PIBT) (ai j : Nat) (r : Bool × PIBT),
      s.Ready E.G n ai (some j) false →
      PIBT.funcPIBT E depth s ai (some j) false = .ok r →
      PIBT.Post E.G n s ai (some j) r := by
  intro depth
  induction depth with
  | zero =>
    intro s ai j r _ h
    unfold PIBT.funcPIBT at h
    exact absurd h (by simp)
  | succ d ih =>
    intro s ai j r hR h
    unfold PIBT.funcPIBT at h
    simp only [Bool.false_eq_true, if_false] at h
    obtain ⟨c, hc, h⟩ := Outcome.bind_eq_ok.mp h
    obtain ⟨⟨mt, pc, e⟩, hprov⟩ := candidates_effect hc
    have hprov' : ∀ sa, c.2.1 = some sa → sa < n := by
      intro sa hsa
      obtain ⟨x, hx⟩ := hprov sa hsa
      exact ((hR.base.occ_now x sa).mp hx).1
    have hR' := ready_engine hR mt pc
    rw [← e] at hR'
    have hP := candidate_loop_post (fun s ak j r => ih s ak j r) hprov' c.1 0 c.2.2 r hR' h
    rw [e] at hP
    exact post_engine hP

theorem ready_top {G : Graph} {n : Nat} {s : PIBT} {ai : Nat} (hT : s.Top G n) (hai : ai < n)
    (hun : (s.agents ai).v_next = none) :
    ({ s with request_chain := [], cycle_handled := false, initial_requester := some ai } :
      PIBT).Ready G n ai none true :=
  ⟨⟨hT.base.id_eq, hT.base.ott_now, hT.base.occ_now⟩,
    ⟨hT.inv.d1, hT.inv.d2, hT.inv.d3, hT.inv.t1, hT.inv.t2⟩, hai, hun, rfl,
    fun r hr => absurd hr (List.not_mem_nil r),
    fun a ha hta => absurd hta (hT.none_tentative a ha),
    fun a ha hta => absurd hta (hT.none_tentative a ha),
    fun a ha hta => absurd hta (hT.none_tentative a ha),
    fun a ha hta => absurd hta (hT.none_tentative a ha),
    fun _ => ⟨rfl, rfl, hT.none_tentative⟩,
    fun h => absurd h (by simp)⟩

/-- A call of `funcPIBT` by `run` determines the action of the agent and leaves no
reservation pending. -/
theorem funcPIBT_top {E : Env} {n : Nat} {depth : Nat} {s : PIBT} {ai : Nat}
    {r : Bool × PIBT} (hT : s.Top E.G n) (hai : ai < n) (hun : (s.agents ai).v_next = none)
    (h : PIBT.funcPIBT E depth s ai none true = .ok r) :
    r.2.Top E.G n ∧ s.Frame r.2 ∧ r.2.decided ai ∧
    (∀ a, a < n → (s.agents a).v_next ≠ none → (r.2.agents a).v_next ≠ none) := by
  cases depth with
  | zero =>
    unfold PIBT.funcPIBT at h
    exact absurd h (by simp)
  | succ d =>
    unfold PIBT.funcPIBT at h
    simp only [if_true] at h
    obtain ⟨c, hc, h⟩ := Outcome.bind_eq_ok.mp h
    obtain ⟨⟨mt, pc, e⟩, hprov⟩ := candidates_effect hc
    have hprov' : ∀ sa, c.2.1 = some sa → sa < n := by
      intro sa hsa
      obtain ⟨x, hx⟩ := hprov sa hsa
      exact ((hT.base.occ_now x sa).mp hx).1
    have hR := ready_top hT hai hun
    have hR' := ready_engine hR mt pc
    rw [← e] at hR'
    have hP := candidate_loop_post (fun s ak j r => funcPIBT_nested E n d s ak j r) hprov'
      c.1 0 c.2.2 r hR' h
    rw [e] at hP
    have hP' := post_engine hP
    rcases hP' with ⟨hE, hF, _⟩ | ⟨_, hE0, hFC, hd⟩
    · have hfr : s.Frame r.2 := ⟨hE.frame.agents, hE.frame.occupied_now, hE.frame.order,
        hE.frame.solution, hE.frame.solved⟩
      refine ⟨⟨base_of_frame hT.base hfr, hF.inv, hF.alone rfl⟩, hfr, hF.decided, ?_⟩
      intro a ha hp
      have hne : a ≠ ai := by
        intro e'; rw [e'] at hp; exact hp hun
      apply ext_planned hE ha hne hp
      intro b hb hdb
      obtain ⟨w, hw⟩ := decided_planned hF.inv hb hdb
      rw [hw]; simp
    · have hfr : s.Frame r.2 := ⟨hE0.frame.agents, hE0.frame.occupied_now, hE0.frame.order,
        hE0.frame.solution, hE0.frame.solved⟩
      exact ⟨⟨base_of_frame hT.base hfr, hFC.inv, hFC.none_tentative⟩, hfr, hd, hE0.planned⟩

/-- The planning loop of `run` gives every agent of the list a next location and leaves no
reservation pending. -/
theorem plan_agents_post {E : Env} {n : Nat} :
    ∀ (l : List Nat) (s s' : PIBT), s.Top E.G n → (∀ a, a ∈ l → a < n) →
      PIBT.plan_agents E l s = .ok s' →
      s'.Top E.G n ∧ s.Frame s' ∧
      (∀ a, a < n → (s.agents a).v_next ≠ none → (s'.agents a).v_next ≠ none) ∧
      (∀ a, a ∈ l → (s'.agents a).v_next ≠ none) := by
  intro l
  induction l with
  | nil =>
    intro s s' hT _ h
    unfold PIBT.plan_agents at h
    simp only [Outcome.ok.injEq] at h
    rw [← h]
    exact ⟨hT, frame_refl s, fun _ _ h => h, fun a ha => absurd ha (List.not_mem_nil a)⟩
  | cons x rest ih =>
    intro s s' hT hl h
    unfold PIBT.plan_agents at h
    have hx : x < n := hl x (List.mem_cons_self x rest)
    have hrest : ∀ a, a ∈ rest → a < n := fun a ha => hl a (List.mem_cons_of_mem x ha)
    split_ifs at h with hun
    · obtain ⟨r, hr, h⟩ := Outcome.bind_eq_ok.mp h
      obtain ⟨hT1, hf1, hd1, hp1⟩ := funcPIBT_top hT hx hun hr
      obtain ⟨hT2, hf2, hp2, hall⟩ := ih r.2 s' hT1 hrest h
      refine ⟨hT2, frame_trans hf1 hf2, fun a ha hp => hp2 a ha (hp1 a ha hp), ?_⟩
      intro a ha
      rcases List.mem_cons.mp ha with e | e
      · rw [e]
        apply hp2 x hx
        obtain ⟨w, hw⟩ := decided_planned hT1.inv hx hd1
        rw [hw]; simp
      · exact hall a e
    · obtain ⟨hT2, hf2, hp2, hall⟩ := ih s s' hT hrest h
      refine ⟨hT2, hf2, hp2, ?_⟩
      intro a ha
      rcases List.mem_cons.mp ha with e | e
      · rw [e]; exact hp2 x hx hun
      · exact hall a e

theorem legal_stay {G : Graph} {x : Agent} (h : x.v_next = some x.v_now) : x.legal G :=
  fun _ _ => ⟨x.v_now, h, Or.inl rfl⟩

theorem legal_idle {G : Graph} {x : Agent} (h : x.ott_next = none) : x.legal G := by
  intro o ho
  rw [h] at ho
  exact absurd ho (by simp)

theorem step_refl (G : Graph) (s : PIBT) : s.Step G s :=
  ⟨frame_refl s, fun _ => Or.inl rfl⟩

theorem step_trans {G : Graph} {s1 s2 s3 : PIBT} (h12 : s1.Step G s2) (h23 : s2.Step G s3) :
    s1.Step G s3 := by
  refine ⟨frame_trans h12.frame h23.frame, fun a => ?_⟩
  rcases h23.agents a with e | h
  · rcases h12.agents a with e' | h'
    · exact Or.inl (e.trans e')
    · right; rw [e]; exact h'
  · exact Or.inr h

theorem step_of_touch {G : Graph} {s s' : PIBT} {x : Nat} (ht : s.Touch s' x)
    (hx : (s'.agents x).legal G) : s.Step G s' := by
  refine ⟨ht.frame, fun a => ?_⟩
  by_cases e : a = x
  · rw [e]; exact Or.inr hx
  · exact Or.inl (ht.others a e)

theorem weak_of_step {G : Graph} {n : Nat} {s s' : PIBT} (hw : s.Weak G n)
    (hs : s.Step G s') (hc : ∀ r, r ∈ s'.request_chain → r.agent < n) : s'.Weak G n := by
  refine ⟨fun a ha => ?_, fun a ha => ?_, fun x a h => ?_, hc, fun a => ?_⟩
  · rw [(hs.frame.agents a).1]; exact hw.id_eq a ha
  · rw [(hs.frame.agents a).2.2.2.1]; exact hw.ott_now a ha
  · rw [hs.frame.occupied_now] at h; exact hw.occ_lt x a h
  · rcases hs.agents a with e | h
    · rw [e]; exact hw.legal a
    · exact h

/-- The agent's own action with the blocker rule writes a consistent record. -/
theorem own_blocker_weak {E : Env} {s : PIBT} {ai : Nat} (aj : Option Nat) (ii : Bool)
    {u : Nat} {o : Orientation} {act : Nat × Orientation}
    (ho : (s.agents ai).ott_now = some o)
    (hact : Plan.computeAction E.G (s.agents ai).v_now u o = .ok act) :
    s.Touch (PIBT.blocker_rule (PIBT.own_action E s ai aj ii u act.1 act.2) ai u act.1) ai ∧
    ((PIBT.blocker_rule (PIBT.own_action E s ai aj ii u act.1 act.2) ai u act.1).agents
      ai).legal E.G ∧
    ((PIBT.blocker_rule (PIBT.own_action E s ai aj ii u act.1 act.2) ai u act.1).agents
      ai).v_next ≠ none := by
  have hcases := computeAction_ok_cases hact
  have hu : act.1 = (s.agents ai).v_now ∨ act.1 = u := by
    rcases hcases with h | ⟨h, _, _⟩
    · exact Or.inl h
    · right; rw [h]
  obtain ⟨ht, hc⟩ := own_blocker_effect E s ai aj ii u act.1 act.2 hu
  refine ⟨ht, ?_, ?_⟩
  · rcases hc with ⟨h1, _, _⟩ | ⟨h1, h2, _, h3, h4, _⟩
    · apply legal_stay
      rw [h1, touch_v_now ht]
    · intro o' ho'
      rw [h4] at ho'
      rcases hcases with h | ⟨h, _, hrel⟩
      · exact absurd (h1 ▸ h) h2
      · refine ⟨u, h3, Or.inr ?_⟩
        rw [touch_v_now ht, (ht.frame.agents ai).2.2.2.1, ho]
        have e2 : act.2 = o := by rw [h]
        rw [← Option.some.inj ho', e2]
        exact ⟨rfl, hrel⟩
  · rcases hc with ⟨h1, _, _⟩ | ⟨_, _, _, h3, _⟩
    · rw [h1]; simp
    · rw [h3]; simp

/-- The block for the swap partner writes a consistent record. -/
theorem swap_partner_weak {E : Env} {s s3 : PIBT} {ai : Nat} {swap_agent : Option Nat}
    {m : Int} (hai : (s.agents ai).v_next ≠ none)
    (h : PIBT.swap_partner_action E s ai swap_agent m = .ok s3) :
    s.Step E.G s3 ∧ s3.request_chain = s.request_chain := by
  rcases swap_partner_effect hai h with e | ⟨sa, o, act, _, _, _, _, ho, hact, ht, hc⟩
  · rw [e]; exact ⟨step_refl _ _, rfl⟩
  · refine ⟨step_of_touch ht ?_, ht.chain⟩
    rcases hc with ⟨h1, _, _⟩ | ⟨h1, _, h3, h4, _⟩
    · apply legal_stay
      rw [h1, touch_v_now ht]
    · intro o' ho'
      rw [h4] at ho'
      rcases computeAction_ok_cases hact with h | ⟨h, _, hrel⟩
      · exact absurd h h1
      · refine ⟨act.1, h3, Or.inr ?_⟩
        rw [touch_v_now ht, (ht.frame.agents sa).2.2.2.1, ho]
        have e1 : act.1 = (s.agents ai).v_now := by rw [h]
        have e2 : act.2 = o := by rw [h]
        rw [← Option.some.inj ho', e2, e1]
        exact ⟨rfl, hrel⟩

theorem decide_action_weak {E : Env} {s : PIBT} {ai u : Nat} {aj : Option Nat}
    {ii : Bool} {swap_agent : Option Nat} {m : Int} {r : Bool × PIBT}
    (h : PIBT.decide_action E s ai aj ii swap_agent u m = .ok r) :
    r.1 = true ∧ s.Step E.G r.2 ∧ r.2.request_chain = s.request_chain := by
  unfold PIBT.decide_action at h
  split_ifs at h with hch
  · simp only [Outcome.ok.injEq] at h
    rw [← h]
    exact ⟨rfl, step_refl _ _, rfl⟩
  · obtain ⟨o, ho, h1⟩ := Outcome.bind_eq_ok.mp h
    obtain ⟨act, hact, h2⟩ := Outcome.bind_eq_ok.mp h1
    obtain ⟨s3, hs3, h3⟩ := Outcome.bind_eq_ok.mp h2
    simp only [Outcome.ok.injEq] at h3
    rw [← h3]
    obtain ⟨ht, hl, hp⟩ := own_blocker_weak aj ii (safe_value_ok ho) hact
    obtain ⟨hs, hc⟩ := swap_partner_weak hp hs3
    exact ⟨rfl, step_trans (step_of_touch ht hl) hs, hc.trans ht.chain⟩

theorem chain_adjust_weak {E : Env} :
    ∀ (l : List (Request × Bool)) (s s' : PIBT),
      (∀ p, p ∈ l → (s.agents p.1.agent).ott_now ≠ none) →
      PIBT.chain_adjust E l s = .ok s' →
      s.Step E.G s' ∧ s'.request_chain = s.request_chain := by
  intro l
  induction l with
  | nil =>
    intro s s' _ h
    simp only [PIBT.chain_adjust, Outcome.ok.injEq] at h
    rw [← h]
    exact ⟨step_refl _ _, rfl⟩
  | cons p rest ih =>
    intro s s' hl h
    obtain ⟨r, c⟩ := p
    obtain ⟨s1, h1, ht, hvn, _, _⟩ := chain_adjust_step (hl (r, c) (by simp)) h
    have hl1 : ∀ p, p ∈ rest → (s1.agents p.1.agent).ott_now ≠ none := by
      intro p hp
      rw [(ht.frame.agents p.1.agent).2.2.2.1]
      exact hl p (List.mem_cons_of_mem _ hp)
    obtain ⟨hs, hc⟩ := ih s1 s' hl1 h1
    refine ⟨step_trans (step_of_touch ht ?_) hs, hc.trans ht.chain⟩
    apply legal_stay
    rw [hvn, touch_v_now ht]

theorem chain_advance_weak {G : Graph} :
    ∀ (l : List Request) (s : PIBT),
      (∀ r, r ∈ l → ∃ o, Plan.getRelativePosition G (s.agents r.agent).v_now
        r.requested_node = .ok o ∧ (s.agents r.agent).ott_now = some o) →
      s.Step G (PIBT.chain_advance l s) ∧
      (PIBT.chain_advance l s).request_chain = s.request_chain := by
  intro l
  induction l with
  | nil =>
    intro s _
    exact ⟨step_refl _ _, rfl⟩
  | cons r rest ih =>
    intro s hl
    unfold PIBT.chain_advance
    obtain ⟨o, hrel, ho⟩ := hl r (by simp)
    have hT : s.Touch (((s.set_v_next r.agent (some r.requested_node)).set_ott_next r.agent
        ((s.set_v_next r.agent (some r.requested_node)).agents r.agent).ott_now).setOccupiedNext
        r.requested_node (some r.agent)) r.agent ∧
      ((((s.set_v_next r.agent (some r.requested_node)).set_ott_next r.agent
        ((s.set_v_next r.agent (some r.requested_node)).agents r.agent).ott_now).setOccupiedNext
        r.requested_node (some r.agent)).agents r.agent).v_next = some r.requested_node ∧
      ((((s.set_v_next r.agent (some r.requested_node)).set_ott_next r.agent
        ((s.set_v_next r.agent (some r.requested_node)).agents r.agent).ott_now).setOccupiedNext
        r.requested_node (some r.agent)).agents r.agent).ott_next =
          (s.agents r.agent).ott_now := by
      refine ⟨⟨⟨fun a => ?_, ?_, ?_, ?_, ?_⟩, ?_, ?_, ?_, fun a ha => ?_⟩, ?_, ?_⟩ <;>
        simp [PIBT.set_v_next, PIBT.set_ott_next, PIBT.setOccupiedNext, PIBT.setAgent,
          Function.update_apply, Agent.static_eq] <;>
        try (split_ifs <;> subst_vars <;> simp)
      all_goals (intro e; exact absurd e ha)
    obtain ⟨ht, hv, hon⟩ := hT
    dsimp only
    generalize (((s.set_v_next r.agent (some r.requested_node)).set_ott_next r.agent
        ((s.set_v_next r.agent (some r.requested_node)).agents r.agent).ott_now).setOccupiedNext
        r.requested_node (some r.agent)) = s1 at ht hv hon ⊢
    have hl1 : ∀ r', r' ∈ rest → ∃ o, Plan.getRelativePosition G (s1.agents r'.agent).v_now
        r'.requested_node = .ok o ∧ (s1.agents r'.agent).ott_now = some o := by
      intro r' hr'
      rw [touch_v_now ht, (ht.frame.agents r'.agent).2.2.2.1]
      exact hl r' (List.mem_cons_of_mem _ hr')
    obtain ⟨hs, hc⟩ := ih s1 hl1
    refine ⟨step_trans (step_of_touch ht ?_) hs, hc.trans ht.chain⟩
    intro o' ho'
    rw [hon, ho] at ho'
    refine ⟨r.requested_node, hv, Or.inr ?_⟩
    rw [touch_v_now ht, (ht.frame.agents r.agent).2.2.2.1, ho, ← Option.some.inj ho']
    exact ⟨rfl, hrel⟩

theorem handleCycle_weak {E : Env} {n : Nat} {s s' : PIBT} (hw : s.Weak E.G n)
    (h : PIBT.handleCycleWithOrientation E s = .ok s') :
    s.Step E.G s' ∧ s'.request_chain = s.request_chain := by
  unfold PIBT.handleCycleWithOrientation at h
  split_ifs at h with hemp
  · simp only [Outcome.ok.injEq] at h
    rw [← h]
    exact ⟨step_refl _ _, rfl⟩
  · obtain ⟨bs, hbs, h1⟩ := Outcome.bind_eq_ok.mp h
    dsimp only at h1
    split_ifs at h1 with hall
    · simp only [Outcome.ok.injEq] at h1
      rw [← h1]
      exact chain_advance_weak _ _ (chain_orientations_spec _ _ hbs hall)
    · apply chain_adjust_weak _ _ _ _ h1
      intro p hp
      exact hw.ott_now _ (hw.chain_lt _ (List.of_mem_zip hp).1)

theorem idle_of_unplanned {G : Graph} {x : Agent} (hl : x.legal G) (h : x.v_next = none) :
    x.ott_next = none := by
  cases ho : x.ott_next with
  | none => rfl
  | some o =>
    obtain ⟨w, hw, _⟩ := hl o ho
    rw [h] at hw
    exact absurd hw (by simp)

theorem step_congr {G : Graph} {s s' t : PIBT} (ha : s'.agents = s.agents)
    (h1 : s'.occupied_now = s.occupied_now) (h2 : s'.A = s.A)
    (h3 : s'.solution = s.solution) (h4 : s'.solved = s.solved) (h : s'.Step G t) :
    s.Step G t := by
  refine ⟨⟨fun a => ?_, ?_, ?_, ?_, ?_⟩, fun a => ?_⟩
  · rw [← ha]; exact h.frame.agents a
  · rw [← h1]; exact h.frame.occupied_now
  · rw [← h2]; exact h.frame.order
  · rw [← h3]; exact h.frame.solution
  · rw [← h4]; exact h.frame.solved
  · rw [← ha]; exact h.agents a

theorem step_congr_right {G : Graph} {s t t' : PIBT} (ha : t'.agents = t.agents)
    (h1 : t'.occupied_now = t.occupied_now) (h2 : t'.A = t.A)
    (h3 : t'.solution = t.solution) (h4 : t'.solved = t.solved) (h : s.Step G t) :
    s.Step G t' := by
  refine ⟨⟨fun a => ?_, ?_, ?_, ?_, ?_⟩, fun a => ?_⟩
  · rw [ha]; exact h.frame.agents a
  · rw [h1]; exact h.frame.occupied_now
  · rw [h2]; exact h.frame.order
  · rw [h3]; exact h.frame.solution
  · rw [h4]; exact h.frame.solved
  · rw [ha]; exact h.agents a

theorem weak_congr {G : Graph} {n : Nat} {s s' : PIBT} (ha : s'.agents = s.agents)
    (h1 : s'.occupied_now = s.occupied_now)
    (hc : ∀ r, r ∈ s'.request_chain → r.agent < n) (h : s.Weak G n) : s'.Weak G n := by
  refine ⟨?_, ?_, ?_, hc, ?_⟩
  · rw [ha]; exact h.id_eq
  · rw [ha]; exact h.ott_now
  · rw [h1]; exact h.occ_lt
  · rw [ha]; exact h.legal

theorem step_of_reserved {G : Graph} {s s1 : PIBT} {ai u : Nat} (hS : s.Reserved s1 ai u)
    (hidle : (s.agents ai).ott_next = none) : s.Step G s1 := by
  refine ⟨hS.frame, fun a => ?_⟩
  by_cases e : a = ai
  · right
    rw [e]
    apply legal_idle
    rw [hS.heading]; exact hidle
  · exact Or.inl (hS.others a e)

theorem candidate_loop_weak {E : Env} {n : Nat}
    {call : PIBT → Nat → Option Nat → Bool → Outcome (Bool × PIBT)}
    {ai : Nat} {aj : Option Nat} {ii : Bool} {swap_agent : Option Nat}
    (hcall : ∀ s ak j r, s.Weak E.G n → ak < n → (s.agents ak).v_next = none →
      call s ak (some j) false = .ok r → PIBT.WPost E.G n s r)
    (hai : ai < n) :
    ∀ (C : List Nat) (m : Int) (s : PIBT) (r : Bool × PIBT),
      s.Weak E.G n → (s.agents ai).v_next = none →
      PIBT.candidate_loop E call ai aj ii swap_agent C m s = .ok r →
      PIBT.WPost E.G n s r := by
  intro C
  induction C with
  | nil =>
    intro m s r hw hun h
    unfold PIBT.candidate_loop at h
    simp only [Outcome.ok.injEq] at h
    rw [← h]
    obtain ⟨hfr, _, _, hrc, hoth, hvn, _, _⟩ := fail_stay_effect s ai
    have hs : s.Step E.G (PIBT.fail_stay s ai) := by
      refine ⟨hfr, fun a => ?_⟩
      by_cases e : a = ai
      · right
        rw [e]
        apply legal_stay
        rw [hvn, (hfr.agents ai).2.1]
      · exact Or.inl (hoth a e)
    refine ⟨hs, weak_of_step hw hs (by rw [hrc]; exact hw.chain_lt), fun _ x hx => ?_⟩
    apply hoth
    intro e
    rw [e] at hx
    exact hx hun
  | cons u C ih =>
    intro m s r hw hun h
    unfold PIBT.candidate_loop at h
    split_ifs at h with h1 h2
    · exact ih _ _ _ hw hun h
    · exact ih _ _ _ hw hun h
    · have hidle := idle_of_unplanned (hw.legal ai) hun
      have hS1 : s.Reserved ((s.setOccupiedNext u (some ai)).set_v_next ai (some u)) ai u :=
        reserve_reserved s ai u s.request_chain
      have hc1 : ((s.setOccupiedNext u (some ai)).set_v_next ai (some u)).request_chain =
          s.request_chain := rfl
      dsimp only at h
      generalize (s.setOccupiedNext u (some ai)).set_v_next ai (some u) = s1 at h hS1 hc1
      have hS2 := reserved_push hS1 (s1.request_chain ++ [⟨ai, u⟩])
      have hon1 : s1.occupied_now = s.occupied_now := hS1.frame.occupied_now
      have hst1 : s.Step E.G s1 := step_of_reserved hS1 hidle
      have hw1 : s1.Weak E.G n := weak_of_step hw hst1 (by rw [hc1]; exact hw.chain_lt)
      have hst2 := @step_of_reserved E.G _ _ _ _ hS2 hidle
      have hw2 : PIBT.Weak E.G n
          ({ s1 with request_chain := s1.request_chain ++ [⟨ai, u⟩] } : PIBT) := by
        apply weak_of_step hw hst2
        intro x hx
        rcases List.mem_append.mp hx with hx | hx
        · rw [hc1] at hx; exact hw.chain_lt x hx
        · simp only [List.mem_singleton] at hx
          rw [hx]; exact hai
      obtain ⟨cycle, hcyc, h⟩ := Outcome.bind_eq_ok.mp h
      cases cycle with
      | true =>
        simp only [if_true] at h
        split_ifs at h with ho
        obtain ⟨s', hs', h⟩ := Outcome.bind_eq_ok.mp h
        obtain ⟨hst, hc⟩ := handleCycle_weak hw2 hs'
        simp only [Outcome.ok.injEq] at h
        rw [← h]
        have hst' : s.Step E.G ({ s' with cycle_handled := true } : PIBT) :=
          @step_congr_right E.G s s' _ rfl rfl rfl rfl rfl (step_trans hst2 hst)
        refine ⟨hst', weak_of_step hw hst' ?_, fun e => absurd e (by simp)⟩
        show ∀ r, r ∈ s'.request_chain → r.agent < n
        rw [hc]
        exact hw2.chain_lt
      | false =>
        simp only [Bool.false_eq_true, if_false] at h
        have hdirect : ∀ r, PIBT.decide_action E s1 ai aj ii swap_agent u m = .ok r →
            PIBT.WPost E.G n s r := by
          intro r h
          obtain ⟨g1, g2, g3⟩ := decide_action_weak h
          have hst := step_trans hst1 g2
          exact ⟨hst, weak_of_step hw hst (by rw [g3]; exact hw1.chain_lt),
            fun e => by rw [g1] at e; exact absurd e (by simp)⟩
        cases hak1 : s1.occupied_now u with
        | none =>
          rw [hak1] at h
          exact hdirect r h
        | some ak =>
          rw [hak1] at h
          have hak : s.occupied_now u = some ak := by rw [← hon1]; exact hak1
          simp only at h
          split_ifs at h with hakn
          · obtain ⟨r1, hr1, h⟩ := Outcome.bind_eq_ok.mp h
            have hP := hcall _ _ _ _ hw2 (hw.occ_lt u ak hak) hakn hr1
            generalize ({ s1 with request_chain := s1.request_chain ++ [⟨ai, u⟩] } : PIBT) = s2
              at hS2 hst2 hw2 hr1 hP
            obtain ⟨hstc, hwc, hfalse⟩ := hP
            split_ifs at h with hr
            · obtain ⟨g1, g2, g3⟩ := decide_action_weak h
              have hst := step_trans (step_trans hst2 hstc) g2
              exact ⟨hst, weak_of_step hw hst (by rw [g3]; exact hwc.chain_lt),
                fun e => by rw [g1] at e; exact absurd e (by simp)⟩
            · have hkeep := hfalse (by simpa using hr)
              have hai2 : r1.2.agents ai = s2.agents ai := by
                apply hkeep
                rw [hS2.target]; simp
              obtain ⟨hfr, _, _, hrc, hoth, hvn, hon, _⟩ := withdraw_effect r1.2 ai u
              generalize ((({ r1.2 with request_chain := r1.2.request_chain.dropLast } :
                PIBT).setOccupiedNext u none).set_v_next ai none) = s4 at *
              have hst4 : r1.2.Step E.G s4 := by
                refine ⟨hfr, fun a => ?_⟩
                by_cases e : a = ai
                · right
                  rw [e]
                  apply legal_idle
                  rw [hon, hai2, hS2.heading]; exact hidle
                · exact Or.inl (hoth a e)
              have hw4 : s4.Weak E.G n := by
                apply weak_of_step hwc hst4
                intro x hx
                rw [hrc] at hx
                exact hwc.chain_lt x (List.mem_of_mem_dropLast hx)
              obtain ⟨g1, g2, g3⟩ := ih _ _ _ hw4 hvn h
              refine ⟨step_trans (step_trans (step_trans hst2 hstc) hst4) g1, g2, ?_⟩
              intro e x hx
              have hxai : x ≠ ai := by
                intro e'; rw [e'] at hx; exact hx hun
              have e2 : s2.agents x = s.agents x := hS2.others x hxai
              have e3 : r1.2.agents x = s2.agents x := hkeep x (by rw [e2]; exact hx)
              have e4 : s4.agents x = r1.2.agents x := hoth x hxai
              rw [g3 e x (by rw [e4, e3, e2]; exact hx), e4, e3, e2]
          · exact hdirect r h

/-- A call of `funcPIBT` keeps the position-independent part of the invariant. -/
theorem funcPIBT_weak (E : Env) (n : Nat) :
    ∀ (depth : Nat) (s : PIBT) (ai : Nat) (aj : Option Nat) (ii : Bool) (r : Bool × PIBT),
      s.Weak E.G n → ai < n → (s.agents ai).v_next = none →
      PIBT.funcPIBT E depth s ai aj ii = .ok r → PIBT.WPost E.G n s r := by
  intro depth
  induction depth with
  | zero =>
    intro s ai aj ii r _ _ _ h
    unfold PIBT.funcPIBT at h
    exact absurd h (by simp)
  | succ d ih =>
    intro s ai aj ii r hw hai hun h
    unfold PIBT.funcPIBT at h
    dsimp only at h
    obtain ⟨c, hc, h⟩ := Outcome.bind_eq_ok.mp h
    obtain ⟨⟨mt, pc, e⟩, _⟩ := candidates_effect hc
    have key : ∀ s0 : PIBT, s0.agents = s.agents → s0.occupied_now = s.occupied_now →
        s0.A = s.A → s0.solution = s.solution → s0.solved = s.solved →
        (∀ r, r ∈ s0.request_chain → r.agent < n) →
        c.2.2 = ({ s0 with MT := mt, push_count_table := pc } : PIBT) →
        PIBT.WPost E.G n s r := by
      intro s0 ha h1 h2 h3 h4 hch e0
      have hw0 : c.2.2.Weak E.G n := by
        rw [e0]
        exact @weak_congr E.G n s _ ha h1 hch hw
      have hun0 : (c.2.2.agents ai).v_next = none := by
        rw [e0]
        show (s0.agents ai).v_next = none
        rw [ha]; exact hun
      obtain ⟨g1, g2, g3⟩ := candidate_loop_weak
        (fun s ak j r hw hak hun h => ih s ak (some j) false r hw hak hun h) hai
        c.1 0 c.2.2 r hw0 hun0 h
      have hag : c.2.2.agents = s.agents := by rw [e0]; exact ha
      refine ⟨step_congr hag (by rw [e0]; exact h1) (by rw [e0]; exact h2)
        (by rw [e0]; exact h3) (by rw [e0]; exact h4) g1, g2, ?_⟩
      intro hf x hx
      rw [← hag] at hx ⊢
      exact g3 hf x hx
    cases ii with
    | true =>
      simp only [if_true] at e
      exact key
        { s with request_chain := [], cycle_handled := false, initial_requester := some ai }
        rfl rfl rfl rfl rfl (fun r hr => absurd hr (List.not_mem_nil r)) e
    | false =>
      simp only [Bool.false_eq_true, if_false] at e
      exact key s rfl rfl rfl rfl rfl hw.chain_lt e

theorem plan_agents_weak {E : Env} {n : Nat} :
    ∀ (l : List Nat) (s s' : PIBT), s.Weak E.G n → (∀ a, a ∈ l → a < n) →
      PIBT.plan_agents E l s = .ok s' → s.Step E.G s' ∧ s'.Weak E.G n := by
  intro l
  induction l with
  | nil =>
    intro s s' hw _ h
    unfold PIBT.plan_agents at h
    simp only [Outcome.ok.injEq] at h
    rw [← h]
    exact ⟨step_refl _ _, hw⟩
  | cons x rest ih =>
    intro s s' hw hl h
    unfold PIBT.plan_agents at h
    have hx : x < n := hl x (List.mem_cons_self x rest)
    have hrest : ∀ a, a ∈ rest → a < n := fun a ha => hl a (List.mem_cons_of_mem x ha)
    split_ifs at h with hun
    · obtain ⟨r, hr, h⟩ := Outcome.bind_eq_ok.mp h
      obtain ⟨g1, g2, _⟩ := funcPIBT_weak E n _ _ _ _ _ _ hw hx hun hr
      obtain ⟨k1, k2⟩ := ih r.2 s' g2 hrest h
      exact ⟨step_trans g1 k1, k2⟩
    · exact ih s s' hw hrest h

/-- What one iteration of the commit loop does to the state and to the variables of the
loop. -/
theorem commit_agent_effect {s : PIBT} {c : Commit} {a : Nat} {r : PIBT × Commit}
    (h : PIBT.commit_agent s c a = .ok r) :
    ∃ w o, (s.agents a).v_next = some w ∧ (s.agents a).ott_next = some o ∧
      r.1.agents a = (s.agents a).commit w ∧
      (∀ b, b ≠ a → r.1.agents b = s.agents b) ∧
      r.1.occupied_now w = some a ∧
      (∀ x, x ≠ w → r.1.occupied_now x =
        if x = (s.agents a).v_now ∧ s.occupied_now x = some a then none
        else s.occupied_now x) ∧
      r.1.A = s.A ∧ r.1.solution = s.solution ∧ r.1.solved = s.solved ∧
      r.1.request_chain = s.request_chain ∧
      r.2.config = c.config.set (s.agents a).id (some w) ∧
      r.2.orients = c.orients.set (s.agents a).id o ∧
      r.2.check_goal_cond = (c.check_goal_cond && decide (w = (s.agents a).g)) := by
  unfold PIBT.commit_agent at h
  have hpre : ∀ s1 : PIBT,
      s1 = (if s.occupied_now (s.agents a).v_now = some a
        then s.setOccupiedNow (s.agents a).v_now none else s) →
      s1.agents = s.agents ∧ s1.A = s.A ∧ s1.solution = s.solution ∧ s1.solved = s.solved ∧
      s1.request_chain = s.request_chain ∧
      ∀ x, s1.occupied_now x =
        if x = (s.agents a).v_now ∧ s.occupied_now x = some a then none
        else s.occupied_now x := by
    intro s1 e
    rw [e]
    split_ifs with h1
    · refine ⟨rfl, rfl, rfl, rfl, rfl, fun x => ?_⟩
      simp only [PIBT.setOccupiedNow, Function.update_apply]
      by_cases h2 : x = (s.agents a).v_now
      · simp [h2, h1]
      · simp [h2]
    · refine ⟨rfl, rfl, rfl, rfl, rfl, fun x => ?_⟩
      by_cases h2 : x = (s.agents a).v_now
      · simp [h2, h1]
      · simp [h2]
  obtain ⟨e1, e2, e3, e4, e5, e6⟩ := hpre _ rfl
  dsimp only at h
  generalize (if s.occupied_now (s.agents a).v_now = some a
        then s.setOccupiedNow (s.agents a).v_now none else s) = s1 at h e1 e2 e3 e4 e5 e6
  have hcore : ∃ w o, (s1.agents a).v_next = some w ∧ (s1.agents a).ott_next = some o ∧
      r.1.agents a = (s1.agents a).commit w ∧
      (∀ b, b ≠ a → r.1.agents b = s1.agents b) ∧
      r.1.occupied_now w = some a ∧
      (∀ x, x ≠ w → r.1.occupied_now x = s1.occupied_now x) ∧
      r.1.A = s1.A ∧ r.1.solution = s1.solution ∧ r.1.solved = s1.solved ∧
      r.1.request_chain = s1.request_chain ∧
      r.2.config = c.config.set (s1.agents a).id (some w) ∧
      r.2.orients = c.orients.set (s1.agents a).id o ∧
      r.2.check_goal_cond = (c.check_goal_cond && decide (w = (s1.agents a).g)) := by
    cases hv : (s1.agents a).v_next with
    | none => rw [hv] at h; simp at h
    | some w =>
      rw [hv] at h
      dsimp only at h
      have hag2 : (s1.setOccupiedNext w none).agents = s1.agents := rfl
      rw [hag2] at h
      cases ho : (s1.agents a).ott_next with
      | none => rw [ho] at h; simp [SAFE_VALUE] at h
      | some o =>
        rw [ho] at h
        simp only [SAFE_VALUE, Outcome.bind_ok, Outcome.ok.injEq] at h
        rw [← h]
        refine ⟨w, o, rfl, rfl, ?_, ?_, ?_, ?_, ?_, ?_, ?_, ?_, ?_, ?_, ?_⟩ <;>
          simp [PIBT.set_v_next, PIBT.set_ott_next, PIBT.set_ott_now, PIBT.setAgent,
            PIBT.setOccupiedNow, PIBT.setOccupiedNext, Agent.commit, Function.update_apply,
            hv, ho]
        all_goals (intro b hb; simp [hb])
  obtain ⟨w, o, h1, h2, h3, h4, h5, h6, h7, h8, h9, h10, h11, h12, h13⟩ := hcore
  rw [e1] at h1 h2 h3 h4 h11 h12 h13
  exact ⟨w, o, h1, h2, h3, h4, h5, fun x hx => by rw [h6 x hx, e6 x], h7.trans e2,
    h8.trans e3, h9.trans e4, h10.trans e5, h11, h12, h13⟩

theorem commit_step {n : Nat} {s0 s : PIBT} {D : Nat → Prop} {c : Commit} {a : Nat}
    {r : PIBT × Commit} (hC : PIBT.Committing n s0 D s c) (ha : a < n) (hD : ¬ D a)
    (hid : (s0.agents a).id = a) (h : PIBT.commit_agent s c a = .ok r) :
    PIBT.Committing n s0 (fun b => D b ∨ b = a) r.1 r.2 := by
  obtain ⟨w, o, h1, h2, h3, h4, h5, h6, h7, h8, h9, h10, h11, h12, h13⟩ :=
    commit_agent_effect h
  have hsa : s.agents a = s0.agents a := hC.agents_rest a hD
  rw [hsa] at h1 h2 h3 h6 h11 h12 h13
  rw [hid] at h11 h12
  constructor
  · intro b hb
    rcases hb with hb | hb
    · have hne : b ≠ a := by
        intro e; rw [e] at hb; exact hD hb
      rw [h4 b hne]
      exact hC.agents_done b hb
    · rw [hb]
      exact ⟨w, h1, by rw [h2]; simp, h3⟩
  · intro b hb
    have hne : b ≠ a := fun e => hb (Or.inr e)
    rw [h4 b hne]
    exact hC.agents_rest b (fun e => hb (Or.inl e))
  · rw [h11, List.length_set]; exact hC.config_len
  · rw [h12, List.length_set]; exact hC.orients_len
  · intro b hb hbn
    rw [h11]
    by_cases hne : b = a
    · rw [hne, h1]
      have : a < c.config.length := by rw [hC.config_len]; exact ha
      simp [this]
    · rcases hb with hb | hb
      · rw [List.getElem?_set_ne (fun e => hne e.symm)]
        exact hC.config b hb hbn
      · exact absurd hb hne
  · intro b hb hbn
    rw [h12]
    by_cases hne : b = a
    · rw [hne, h2]
      have : a < c.orients.length := by rw [hC.orients_len]; exact ha
      simp [this]
    · rcases hb with hb | hb
      · rw [List.getElem?_set_ne (fun e => hne e.symm)]
        exact hC.orients b hb hbn
      · exact absurd hb hne
  · rw [h13]
    simp only [Bool.and_eq_true, decide_eq_true_eq]
    constructor
    · intro ⟨g1, g2⟩ b hb
      rcases hb with hb | hb
      · exact hC.goal.mp g1 b hb
      · rw [hb, h1, g2]
    · intro hall
      refine ⟨hC.goal.mpr (fun b hb => hall b (Or.inl hb)), ?_⟩
      have := hall a (Or.inr rfl)
      rw [h1] at this
      exact Option.some.inj this
  · exact h7.trans hC.order
  · exact h8.trans hC.solution
  · exact h9.trans hC.solved
  · exact h10.trans hC.chain
  · intro h0 x b hxb
    by_cases hx : x = w
    · rw [hx, h5] at hxb
      rw [← Option.some.inj hxb]; exact ha
    · rw [h6 x hx] at hxb
      split_ifs at hxb
      exact hC.occ_lt h0 x b hxb
  · intro hb hd x b
    have hocc := hC.occ hb hd
    by_cases hx : x = w
    · rw [hx, h5]
      constructor
      · intro e
        have e' : b = a := (Option.some.inj e).symm
        rw [e']
        exact ⟨ha, Or.inl ⟨Or.inr rfl, h1⟩⟩
      · intro ⟨hbn, hc⟩
        rcases hc with ⟨_, hv⟩ | ⟨_, _, hp⟩
        · rw [hd b a w hbn ha hv h1]
        · exact absurd h1 (hp a (Or.inr rfl) ha)
    · rw [h6 x hx]
      by_cases hclr : x = (s0.agents a).v_now ∧ s.occupied_now x = some a
      · rw [if_pos hclr]
        obtain ⟨hxa, hsx⟩ := hclr
        have hs := (hocc x a).mp hsx
        constructor
        · intro e; exact absurd e (by simp)
        · intro ⟨hbn, hc⟩
          exfalso
          rcases hc with ⟨hdb, hv⟩ | ⟨hdb, hvb, _⟩
          · rcases hdb with hdb | hdb
            · rcases hs.2 with ⟨g, _⟩ | ⟨_, _, g⟩
              · exact hD g
              · exact g b hdb hbn hv
            · rw [hdb, h1] at hv
              exact hx (Option.some.inj hv).symm
          · apply hdb
            right
            exact base_inj hb hbn ha (hvb.trans hxa)
      · rw [if_neg hclr, hocc x b]
        constructor
        · intro ⟨hbn, hc⟩
          refine ⟨hbn, ?_⟩
          rcases hc with ⟨hdb, hv⟩ | ⟨hdb, hvb, hp⟩
          · exact Or.inl ⟨Or.inl hdb, hv⟩
          · right
            refine ⟨?_, hvb, ?_⟩
            · intro e
              rcases e with e | e
              · exact hdb e
              · apply hclr
                rw [e] at hvb hdb
                refine ⟨hvb.symm, (hocc x a).mpr ⟨ha, Or.inr ⟨hdb, hvb, hp⟩⟩⟩
            · intro p hp' hpn
              rcases hp' with hp' | hp'
              · exact hp p hp' hpn
              · rw [hp', h1]
                exact fun e => hx (Option.some.inj e).symm
        · intro ⟨hbn, hc⟩
          refine ⟨hbn, ?_⟩
          rcases hc with ⟨hdb, hv⟩ | ⟨hdb, hvb, hp⟩
          · rcases hdb with hdb | hdb
            · exact Or.inl ⟨hdb, hv⟩
            · rw [hdb, h1] at hv
              exact absurd (Option.some.inj hv).symm hx
          · exact Or.inr ⟨fun e => hdb (Or.inl e), hvb, fun p hp' hpn => hp p (Or.inl hp') hpn⟩

theorem committing_congr {n : Nat} {s0 s : PIBT} {D D' : Nat → Prop} {c : Commit}
    (h : ∀ a, D a ↔ D' a) (hC : PIBT.Committing n s0 D s c) : PIBT.Committing n s0 D' s c := by
  have e : D = D' := funext fun a => propext (h a)
  rw [← e]
  exact hC

/-- The commit loop keeps its invariant. -/
theorem commit_agents_inv {n : Nat} {s0 : PIBT} (hid : ∀ a, a < n → (s0.agents a).id = a) :
    ∀ (l : List Nat) (D : Nat → Prop) (s : PIBT) (c : Commit) (r : PIBT × Commit),
      PIBT.Committing n s0 D s c → (∀ a, a ∈ l → a < n ∧ ¬ D a) → l.Nodup →
      PIBT.commit_agents l s c = .ok r →
      PIBT.Committing n s0 (fun b => D b ∨ b ∈ l) r.1 r.2 := by
  intro l
  induction l with
  | nil =>
    intro D s c r hC _ _ h
    unfold PIBT.commit_agents at h
    simp only [Outcome.ok.injEq] at h
    rw [← h]
    exact committing_congr (fun a => by simp) hC
  | cons a rest ih =>
    intro D s c r hC hl hnd h
    unfold PIBT.commit_agents at h
    obtain ⟨r1, hr1, h⟩ := Outcome.bind_eq_ok.mp h
    obtain ⟨han, haD⟩ := hl a (List.mem_cons_self a rest)
    have hC1 := commit_step hC han haD (hid a han) hr1
    have hnd' := List.nodup_cons.mp hnd
    have hl1 : ∀ b, b ∈ rest → b < n ∧ ¬ (D b ∨ b = a) := by
      intro b hb
      obtain ⟨g1, g2⟩ := hl b (List.mem_cons_of_mem a hb)
      refine ⟨g1, fun e => ?_⟩
      rcases e with e | e
      · exact g2 e
      · rw [e] at hb; exact hnd'.1 hb
    have := ih _ _ _ _ hC1 hl1 hnd'.2 h
    refine committing_congr (fun b => ?_) this
    simp only [List.mem_cons]
    tauto

theorem committing_start {n : Nat} {s0 : PIBT} :
    PIBT.Committing n s0 (fun _ => False) s0
      { config := List.replicate n none, orients := List.replicate n Orientation.X_PLUS,
        check_goal_cond := true } := by
  constructor
  · intro a h; exact absurd h id
  · intro a _; rfl
  · simp
  · simp
  · intro a h; exact absurd h id
  · intro a h; exact absurd h id
  · simp
  · rfl
  · rfl
  · rfl
  · rfl
  · exact fun h => h
  · intro hb _ x b
    rw [hb.occ_now x b]
    constructor
    · intro ⟨g1, g2⟩
      exact ⟨g1, Or.inr ⟨id, g2, fun p hp => absurd hp id⟩⟩
    · intro ⟨g1, g2⟩
      rcases g2 with ⟨g, _⟩ | ⟨_, g, _⟩
      · exact absurd g id
      · exact ⟨g1, g⟩

theorem insert_sorted_perm {α : Type} (lt : α → α → Bool) (x : α) :
    ∀ l : List α, (insert_sorted lt x l).Perm (x :: l) := by
  intro l
  induction l with
  | nil => exact List.Perm.refl _
  | cons y ys ih =>
    unfold insert_sorted
    split_ifs
    · exact (List.Perm.cons y ih).trans (List.Perm.swap x y ys)
    · exact List.Perm.refl _

theorem std_sort_perm {α : Type} (lt : α → α → Bool) :
    ∀ l : List α, (std_sort lt l).Perm l := by
  intro l
  induction l with
  | nil => exact List.Perm.refl _
  | cons x xs ih =>
    unfold std_sort
    exact (insert_sorted_perm lt x _).trans (List.Perm.cons x ih)

theorem top_of_idle {G : Graph} {n : Nat} {s : PIBT} (hb : s.Base n)
    (hidle : ∀ a, a < n → (s.agents a).v_next = none ∧ (s.agents a).ott_next = none) :
    s.Top G n := by
  have hnd : ∀ a, a < n → ¬ s.decided a := fun a ha h => h (hidle a ha).2
  have hnt : ∀ a, a < n → ¬ s.tentative a := fun a ha h => h.1 (hidle a ha).1
  refine ⟨hb, ⟨?_, ?_, ?_, ?_, ?_⟩, hnt⟩
  · intro a ha o ho
    rw [(hidle a ha).2] at ho
    exact absurd ho (by simp)
  · intro a ha hd; exact absurd hd (hnd a ha)
  · intro a ha hd; exact absurd hd (hnd a ha)
  · intro a ha ht; exact absurd ht (hnt a ha)
  · intro a ha ht; exact absurd ht (hnt a ha)

theorem top_decided {G : Graph} {n : Nat} {s : PIBT} (hT : s.Top G n) {a : Nat} (ha : a < n)
    (hp : (s.agents a).v_next ≠ none) : s.decided a := by
  unfold PIBT.decided
  intro e
  exact hT.none_tentative a ha ⟨hp, e⟩

/-- When no reservation is pending, two agents do not have the same next location. -/
theorem planned_distinct {G : Graph} {n : Nat} {s : PIBT} (hT : s.Top G n) :
    ∀ a b w, a < n → b < n → (s.agents a).v_next = some w → (s.agents b).v_next = some w →
      a = b := by
  intro a b w ha hb hva hvb
  have hda : s.decided a := top_decided hT ha (by rw [hva]; simp)
  have hdb : s.decided b := top_decided hT hb (by rw [hvb]; simp)
  by_cases h1 : w = (s.agents a).v_now
  · by_cases h2 : w = (s.agents b).v_now
    · exact base_inj hT.base ha hb (h1.symm.trans h2)
    · exact absurd hva (hT.inv.d3 b hb hdb w hvb h2 a ha h1.symm).2.1
  · by_cases h2 : w = (s.agents b).v_now
    · exact absurd hvb (hT.inv.d3 a ha hda w hva h1 b hb h2.symm).2.1
    · have e1 := hT.inv.d2 a ha hda w hva h1
      have e2 := hT.inv.d2 b hb hdb w hvb h2
      rw [e1] at e2
      exact Option.some.inj e2

/-- When no reservation is pending, two agents do not exchange their vertices. -/
theorem planned_noswap {G : Graph} {n : Nat} {s : PIBT} (hT : s.Top G n) :
    ∀ a b, a < n → b < n → a ≠ b → (s.agents a).v_next = some (s.agents b).v_now →
      (s.agents b).v_next = some (s.agents a).v_now → False := by
  intro a b ha hb hab hva hvb
  have hda : s.decided a := top_decided hT ha (by rw [hva]; simp)
  have hne : (s.agents b).v_now ≠ (s.agents a).v_now :=
    fun e => hab (base_inj hT.base ha hb e.symm)
  exact (hT.inv.d3 a ha hda _ hva hne b hb rfl).2.2 hvb

theorem base_congr {n : Nat} {s s' : PIBT} (ha : s'.agents = s.agents)
    (h1 : s'.occupied_now = s.occupied_now) (h : s.Base n) : s'.Base n := by
  refine ⟨?_, ?_, ?_⟩
  · rw [ha]; exact h.id_eq
  · rw [ha]; exact h.ott_now
  · rw [ha, h1]; exact h.occ_now

/-- One timestep of `run`: what the planning and the commit loop establish. -/
theorem timestep_post {E : Env} {s : PIBT} {r : PIBT × Bool}
    (hR : s.Rest E.G E.num) (h : PIBT.timestep E s = .ok r) :
    r.1.Rest E.G E.num ∧ s.Moved E.G E.num r.1 ∧ r.1.solved = s.solved ∧
    (∃ row o, r.1.solution =
        Plan.mk (s.solution.configs ++ [row]) (s.solution.orientations ++ [o]) ∧
      r.1.Shown E.num row o) ∧
    (r.2 = true ↔ ∀ a, a < E.num → (r.1.agents a).v_now = (s.agents a).g) ∧
    (s.Base E.num → r.1.Base E.num ∧ ∀ a b, a < E.num → b < E.num → a ≠ b →
      ¬ ((r.1.agents a).v_now = (s.agents b).v_now ∧
         (r.1.agents b).v_now = (s.agents a).v_now)) := by
  unfold PIBT.timestep at h
  dsimp only at h
  obtain ⟨s1, hs1, h⟩ := Outcome.bind_eq_ok.mp h
  obtain ⟨q, hq, h⟩ := Outcome.bind_eq_ok.mp h
  obtain ⟨p, hp, h⟩ := Outcome.bind_eq_ok.mp h
  simp only [Outcome.ok.injEq] at h
  have hperm : (std_sort (fun a b => PIBT.run_compare (s.agents a) (s.agents b)) s.A).Perm
      (List.range E.num) := (std_sort_perm _ _).trans hR.order
  have hmem : ∀ a, a ∈ std_sort (fun a b => PIBT.run_compare (s.agents a) (s.agents b)) s.A ↔
      a < E.num := by
    intro a; rw [hperm.mem_iff, List.mem_range]
  have hnd : (std_sort (fun a b => PIBT.run_compare (s.agents a) (s.agents b)) s.A).Nodup :=
    hperm.nodup_iff.mpr (List.nodup_range E.num)
  generalize hsA : std_sort (fun a b => PIBT.run_compare (s.agents a) (s.agents b)) s.A = sA
    at hs1 hperm hmem hnd
  have hws : PIBT.Weak E.G E.num ({ s with A := sA } : PIBT) :=
    @weak_congr E.G E.num s _ rfl rfl hR.weak.chain_lt hR.weak
  obtain ⟨hst, hw1⟩ := plan_agents_weak sA _ s1 hws (fun a ha => (hmem a).mp ha) hs1
  have hA1 : s1.A = sA := hst.frame.order
  have hstat : ∀ a, Agent.static_eq (s1.agents a) (s.agents a) := hst.frame.agents
  have hC0 := commit_agents_inv hw1.id_eq s1.A (fun _ => False) s1 _ q committing_start
    (fun a ha => ⟨(hmem a).mp (by rw [← hA1]; exact ha), id⟩) (by rw [hA1]; exact hnd) hq
  have hC : PIBT.Committing E.num s1 (fun b => b < E.num) q.1 q.2 :=
    committing_congr (fun b => by rw [hA1, hmem]; simp) hC0
  have hp' : p = Plan.mk (q.1.solution.configs ++ [q.2.config])
      (q.1.solution.orientations ++ [q.2.orients]) := by
    unfold Plan.addWithOrientation at hp
    split_ifs at hp
    simp only [Outcome.ok.injEq] at hp
    exact hp.symm
  have hr1 : r.1.agents = q.1.agents ∧ r.1.occupied_now = q.1.occupied_now ∧ r.1.A = q.1.A ∧
      r.1.solved = q.1.solved ∧ r.1.request_chain = q.1.request_chain ∧ r.1.solution = p ∧
      r.2 = q.2.check_goal_cond := by
    rw [← h]
    exact ⟨rfl, rfl, rfl, rfl, rfl, rfl, rfl⟩
  obtain ⟨e1, e2, e3, e4, e5, e6, e7⟩ := hr1
  have key : ∀ a, a < E.num → ∃ w o, (s1.agents a).v_next = some w ∧
      (s1.agents a).ott_next = some o ∧ r.1.agents a = (s1.agents a).commit w := by
    intro a ha
    obtain ⟨w, g1, g2, g3⟩ := hC.agents_done a ha
    cases ho : (s1.agents a).ott_next with
    | none => exact absurd ho g2
    | some o => exact ⟨w, o, g1, rfl, by rw [e1, g3]⟩
  refine ⟨⟨⟨?_, ?_, ?_, ?_, ?_⟩, ?_, ?_⟩, ⟨?_, ?_, ?_⟩, ?_, ?_, ?_, ?_⟩
  · intro a ha
    obtain ⟨w, o, _, _, g3⟩ := key a ha
    rw [g3]
    exact hw1.id_eq a ha
  · intro a ha
    obtain ⟨w, o, _, g2, g3⟩ := key a ha
    rw [g3]
    show (s1.agents a).ott_next ≠ none
    rw [g2]; simp
  · rw [e2]
    exact hC.occ_lt hw1.occ_lt
  · rw [e5, hC.chain]
    exact hw1.chain_lt
  · intro a
    by_cases ha : a < E.num
    · obtain ⟨w, o, _, _, g3⟩ := key a ha
      rw [g3]
      exact legal_idle rfl
    · rw [e1, hC.agents_rest a ha]
      exact hw1.legal a
  · intro a ha
    obtain ⟨w, o, _, _, g3⟩ := key a ha
    rw [g3]
    exact ⟨rfl, rfl⟩
  · rw [e3, hC.order, hA1]
    exact hperm
  · intro a ha
    obtain ⟨w, o, _, _, g3⟩ := key a ha
    rw [g3]
    exact (hstat a).2.2.1
  · intro a ha
    obtain ⟨w, o, _, _, g3⟩ := key a ha
    rw [g3]
    show (if w = (s1.agents a).g then 0 else (s1.agents a).elapsed + 1) = _
    rw [(hstat a).2.2.1, (hstat a).2.2.2.2.1]
    rfl
  · intro a ha
    obtain ⟨w, o, g1, g2, g3⟩ := key a ha
    rw [g3]
    show w = (s.agents a).v_now ∨ ((s1.agents a).ott_next = (s.agents a).ott_now ∧
      ∃ o', (s1.agents a).ott_next = some o' ∧
        Plan.getRelativePosition E.G (s.agents a).v_now w = .ok o')
    obtain ⟨w', hw', hc⟩ := hw1.legal a o g2
    rw [g1] at hw'
    rw [← Option.some.inj hw', (hstat a).2.1, (hstat a).2.2.2.1] at hc
    rcases hc with hc | ⟨hc1, hc2⟩
    · exact Or.inl hc
    · exact Or.inr ⟨by rw [g2, hc1], o, g2, hc2⟩
  · rw [e4, hC.solved]
    exact hst.frame.solved
  · refine ⟨q.2.config, q.2.orients, ?_, hC.config_len, hC.orients_len, ?_, ?_⟩
    · rw [e6, hp', hC.solution, hst.frame.solution]
    · intro a ha
      obtain ⟨w, o, g1, _, g3⟩ := key a ha
      rw [hC.config a ha ha, g1, g3]
      rfl
    · intro a ha
      obtain ⟨w, o, _, _, g3⟩ := key a ha
      rw [hC.orients a ha ha, g3]
      rfl
  · rw [e7, hC.goal]
    constructor
    · intro hall a ha
      obtain ⟨w, o, g1, _, g3⟩ := key a ha
      have := hall a ha
      rw [g1] at this
      rw [g3, ← (hstat a).2.2.1, ← Option.some.inj this]
      rfl
    · intro hall a ha
      obtain ⟨w, o, g1, _, g3⟩ := key a ha
      have := hall a ha
      rw [g3, ← (hstat a).2.2.1] at this
      rw [g1]
      exact congrArg some this
  · intro hb
    have hbs : PIBT.Base E.num ({ s with A := sA } : PIBT) := @base_congr E.num s _ rfl rfl hb
    have hT := @top_of_idle E.G _ _ hbs hR.idle
    obtain ⟨hT1, _, _, _⟩ := plan_agents_post sA _ s1 hT (fun a ha => (hmem a).mp ha) hs1
    have hocc := hC.occ hT1.base (planned_distinct hT1)
    have hvnow : ∀ a, a < E.num → ∃ w, (s1.agents a).v_next = some w ∧
        (r.1.agents a).v_now = w := by
      intro a ha
      obtain ⟨w, o, g1, _, g3⟩ := key a ha
      exact ⟨w, g1, by rw [g3]; rfl⟩
    refine ⟨⟨?_, ?_, ?_⟩, ?_⟩
    · intro a ha
      obtain ⟨w, o, _, _, g3⟩ := key a ha
      rw [g3]
      exact hw1.id_eq a ha
    · intro a ha
      obtain ⟨w, o, _, g2, g3⟩ := key a ha
      rw [g3]
      show (s1.agents a).ott_next ≠ none
      rw [g2]; simp
    · intro x b
      rw [e2, hocc x b]
      constructor
      · intro ⟨hbn, hc⟩
        refine ⟨hbn, ?_⟩
        rcases hc with ⟨_, hv⟩ | ⟨hn, _⟩
        · obtain ⟨w, g1, g2⟩ := hvnow b hbn
          rw [g2]
          rw [g1] at hv
          exact Option.some.inj hv
        · exact absurd hbn hn
      · intro ⟨hbn, hv⟩
        refine ⟨hbn, Or.inl ⟨hbn, ?_⟩⟩
        obtain ⟨w, g1, g2⟩ := hvnow b hbn
        rw [g1, ← hv, g2]
    · intro a b ha hb' hab ⟨h1, h2⟩
      obtain ⟨wa, g1, g2⟩ := hvnow a ha
      obtain ⟨wb, k1, k2⟩ := hvnow b hb'
      apply planned_noswap hT1 a b ha hb' hab
      · rw [g1, ← g2, h1, (hstat b).2.1]
      · rw [k1, ← k2, h2, (hstat a).2.1]

theorem created_zero (E : Env) : PIBT.Created E 0 (PIBT.create E) := by
  constructor <;> intros <;> first | rfl | omega | (simp [PIBT.create] at *)

theorem created_succ {E : Env} {k : Nat} {s : PIBT} (h : PIBT.Created E k s) :
    PIBT.Created E (k + 1) (PIBT.init_agent E s k) := by
  have hag : ∀ a, a ≠ k → (PIBT.init_agent E s k).agents a = s.agents a := by
    intro a ha
    simp [PIBT.init_agent, PIBT.setAgent, PIBT.setOccupiedNow, Function.update_apply, ha]
  have hk : (PIBT.init_agent E s k).agents k =
      { id := k, v_now := E.start k, v_next := none, g := E.goal k,
        ott_now := some .Y_MINUS, ott_next := none, elapsed := 0,
        init_d := if E.disable_dist_init then 0 else E.pathDist k (E.start k) .Y_MINUS,
        tie_breaker := (E.getRandomFloat s.MT).1, swap_completed := true } := by
    simp [PIBT.init_agent, PIBT.setAgent, PIBT.setOccupiedNow]
  have hocc : ∀ x, (PIBT.init_agent E s k).occupied_now x =
      if x = E.start k then some k else s.occupied_now x := by
    intro x
    simp [PIBT.init_agent, PIBT.setAgent, PIBT.setOccupiedNow, Function.update_apply]
  have hcase : ∀ a, a < k + 1 → a < k ∨ a = k := fun a ha => by omega
  constructor
  · intro a ha
    rcases hcase a ha with g | g
    · rw [hag a (by omega)]; exact h.id_eq a g
    · rw [g, hk]
  · intro a ha
    rcases hcase a ha with g | g
    · rw [hag a (by omega)]; exact h.v_now a g
    · rw [g, hk]
  · intro a ha
    rcases hcase a ha with g | g
    · rw [hag a (by omega)]; exact h.goal a g
    · rw [g, hk]
  · intro a ha
    rcases hcase a ha with g | g
    · rw [hag a (by omega)]; exact h.ott_now a g
    · rw [g, hk]
  · intro a ha
    rcases hcase a ha with g | g
    · rw [hag a (by omega)]; exact h.elapsed a g
    · rw [g, hk]
  · intro a
    by_cases g : a = k
    · rw [g, hk]
    · rw [hag a g]; exact h.v_next a
  · intro a
    by_cases g : a = k
    · rw [g, hk]
    · rw [hag a g]; exact h.ott_next a
  · show s.A ++ [k] = List.range (k + 1)
    rw [h.order, List.range_succ]
  · exact h.chain
  · exact h.solution
  · exact h.solved
  · intro x a hx
    rw [hocc x] at hx
    split_ifs at hx with hxk
    · rw [← Option.some.inj hx]
      exact ⟨by omega, hxk.symm⟩
    · obtain ⟨g1, g2⟩ := h.occ_lt x a hx
      exact ⟨by omega, g2⟩
  · intro hd x a ha hx
    rw [hocc x]
    rcases hcase a ha with g | g
    · have hne : x ≠ E.start k := by
        rw [← hx]
        exact hd a k ha (by omega) (by omega)
      rw [if_neg hne]
      exact h.occ (fun i j hi hj => hd i j (by omega) (by omega)) x a g hx
    · rw [g] at hx ⊢
      rw [if_pos hx.symm]

theorem created_fold (E : Env) :
    ∀ k, PIBT.Created E k ((List.range k).foldl (PIBT.init_agent E) (PIBT.create E)) := by
  intro k
  induction k with
  | zero => exact created_zero E
  | succ k ih =>
    rw [List.range_succ, List.foldl_append]
    exact created_succ ih

/-- The initialisation of `run` always succeeds; it creates the agents on their starts, and
emits the start configuration. -/
theorem run_init_post (E : Env) :
    ∃ s, PIBT.run_init E = .ok s ∧ PIBT.Created E E.num { s with solution := Plan.mk [] [] } ∧
      s.solution = Plan.mk [(List.range E.num).map fun i => some (E.start i)]
        [List.replicate E.num Orientation.Y_MINUS] := by
  have hc := created_fold E E.num
  unfold PIBT.run_init
  dsimp only
  generalize (List.range E.num).foldl (PIBT.init_agent E) (PIBT.create E) = s at hc
  unfold Plan.addWithOrientation
  rw [hc.solution]
  simp only [List.isEmpty_nil, Bool.not_true, Bool.false_eq_true, false_and, if_false,
    not_false_eq_true, List.length_map, List.length_range, List.length_replicate, ne_eq,
    not_true_eq_false, Outcome.bind_ok, List.nil_append, not_true]
  refine ⟨_, rfl, ?_, rfl⟩
  exact ⟨hc.id_eq, hc.v_now, hc.goal, hc.ott_now, hc.elapsed, hc.v_next, hc.ott_next,
    hc.order, hc.chain, rfl, hc.solved, hc.occ_lt, hc.occ⟩

theorem after_zero_sound {E : Env} {s : PIBT} (h : PIBT.after E 0 = .ok s) :
    s.Sound E 0 ∧ (∀ a, a < E.num → (s.agents a).v_now = E.start a) ∧
    (∀ a, a < E.num → (s.agents a).elapsed = 0) := by
  obtain ⟨s0, hs0, hc, hsol⟩ := run_init_post E
  have e : s0 = s := by
    unfold PIBT.after at h
    rw [hs0] at h
    simp only [Outcome.ok.injEq] at h
    exact h
  subst e
  have hshown : s0.Shown E.num ((List.range E.num).map fun i => some (E.start i))
      (List.replicate E.num Orientation.Y_MINUS) := by
    refine ⟨by simp, by simp, ?_, ?_⟩
    · intro a ha
      rw [List.getElem?_map, List.getElem?_range ha]
      show some (some (E.start a)) = some (some (s0.agents a).v_now)
      have := hc.v_now a ha
      rw [show (s0.agents a).v_now = E.start a from this]
    · intro a ha
      rw [List.getElem?_replicate, if_pos ha]
      exact (hc.ott_now a ha).symm
  refine ⟨⟨⟨⟨hc.id_eq, ?_, ?_, ?_, ?_⟩, ?_, ?_⟩, hc.goal, ?_, hc.solved, ⟨?_, ?_, ?_⟩, ?_⟩,
    hc.v_now, hc.elapsed⟩
  · intro a ha
    have := hc.ott_now a ha
    show (s0.agents a).ott_now ≠ none
    rw [show (s0.agents a).ott_now = some .Y_MINUS from this]; simp
  · intro x a hx
    exact (hc.occ_lt x a hx).1
  · intro r hr
    have : s0.request_chain = [] := hc.chain
    rw [this] at hr
    exact absurd hr (List.not_mem_nil r)
  · intro a
    exact legal_idle (hc.ott_next a)
  · intro a _
    exact ⟨hc.v_next a, hc.ott_next a⟩
  · have : s0.A = List.range E.num := hc.order
    rw [this]
  · intro a ha
    have := hc.elapsed a ha
    show 0 ≤ (s0.agents a).elapsed
    rw [show (s0.agents a).elapsed = 0 from this]
  · rw [hsol]; rfl
  · rw [hsol]; rfl
  · intro k hk
    have hk0 : k = 0 := by omega
    subst hk0
    refine ⟨s0, h, ?_⟩
    rw [hsol]
    exact hshown
  · intro hd
    refine ⟨hc.id_eq, ?_, ?_⟩
    · intro a ha
      have := hc.ott_now a ha
      show (s0.agents a).ott_now ≠ none
      rw [show (s0.agents a).ott_now = some .Y_MINUS from this]; simp
    · intro x a
      constructor
      · intro hx
        obtain ⟨g1, g2⟩ := hc.occ_lt x a hx
        exact ⟨g1, (hc.v_now a g1).trans g2⟩
      · intro ⟨g1, g2⟩
        exact hc.occ hd x a g1 ((hc.v_now a g1).symm.trans g2)

theorem after_succ {E : Env} {t : Nat} {s' : PIBT} (h : PIBT.after E (t + 1) = .ok s') :
    ∃ s b, PIBT.after E t = .ok s ∧ PIBT.timestep E s = .ok (s', b) := by
  rw [PIBT.after] at h
  obtain ⟨s, hs, h⟩ := Outcome.bind_eq_ok.mp h
  obtain ⟨r, hr, h⟩ := Outcome.bind_eq_ok.mp h
  simp only [Outcome.ok.injEq] at h
  refine ⟨s, r.2, hs, ?_⟩
  rw [hr, ← h]

theorem after_of_timestep {E : Env} {t : Nat} {s : PIBT} {r : PIBT × Bool}
    (hs : PIBT.after E t = .ok s) (hr : PIBT.timestep E s = .ok r) :
    PIBT.after E (t + 1) = .ok r.1 := by
  rw [PIBT.after, hs, Outcome.bind_ok, hr, Outcome.bind_ok]

/-- One timestep keeps what holds after `t` timesteps. -/
theorem sound_step {E : Env} {t : Nat} {s : PIBT} {r : PIBT × Bool} (hS : s.Sound E t)
    (hs : PIBT.after E t = .ok s) (hr : PIBT.timestep E s = .ok r) :
    r.1.Sound E (t + 1) ∧ s.Moved E.G E.num r.1 ∧
    (r.2 = true ↔ ∀ a, a < E.num → (r.1.agents a).v_now = E.goal a) ∧
    ((∀ i j, i < E.num → j < E.num → i ≠ j → E.start i ≠ E.start j) →
      ∀ a b, a < E.num → b < E.num → a ≠ b →
        ¬ ((r.1.agents a).v_now = (s.agents b).v_now ∧
           (r.1.agents b).v_now = (s.agents a).v_now)) := by
  obtain ⟨hR, hM, hsol, ⟨row, o, hplan, hshown⟩, hgoal, hbase⟩ := timestep_post hS.rest hr
  have hcl := hS.traced.configs_len
  have hol := hS.traced.orients_len
  refine ⟨⟨hR, ?_, ?_, ?_, ⟨?_, ?_, ?_⟩, ?_⟩, hM, ?_, ?_⟩
  · intro a ha
    rw [hM.goal a ha]; exact hS.goal a ha
  · intro a ha
    rw [hM.elapsed a ha]
    have := hS.nonneg a ha
    split_ifs <;> omega
  · rw [hsol]; exact hS.solved
  · rw [hplan]
    simp [hcl]
  · rw [hplan]
    simp [hol]
  · intro k hk
    rw [hplan]
    by_cases hkt : k ≤ t
    · obtain ⟨sk, g1, g2⟩ := hS.traced.rows k hkt
      refine ⟨sk, g1, ?_⟩
      show sk.Shown E.num ((s.solution.configs ++ [row]).getD k [])
        ((s.solution.orientations ++ [o]).getD k [])
      rw [List.getD_append _ _ _ _ (by omega), List.getD_append _ _ _ _ (by omega)]
      exact g2
    · have hk1 : k = t + 1 := by omega
      subst hk1
      refine ⟨r.1, after_of_timestep hs hr, ?_⟩
      show r.1.Shown E.num ((s.solution.configs ++ [row]).getD (t + 1) [])
        ((s.solution.orientations ++ [o]).getD (t + 1) [])
      rw [List.getD_append_right _ _ _ _ (by omega),
        List.getD_append_right _ _ _ _ (by omega), hcl, hol]
      simpa using hshown
  · intro hd
    exact (hbase (hS.base hd)).1
  · rw [hgoal]
    constructor
    · intro h a ha
      rw [h a ha]; exact hS.goal a ha
    · intro h a ha
      rw [h a ha]; exact (hS.goal a ha).symm
  · intro hd
    exact (hbase (hS.base hd)).2

/-- The solver after `t` timesteps. -/
theorem after_sound (E : Env) : ∀ (t : Nat) (s : PIBT), PIBT.after E t = .ok s → s.Sound E t := by
  intro t
  induction t with
  | zero => intro s h; exact (after_zero_sound h).1
  | succ t ih =>
    intro s' h
    obtain ⟨s, b, hs, hr⟩ := after_succ h
    exact (sound_step (ih s hs) hs hr).1

theorem timestep_of_after {E : Env} {t : Nat} {s sk : PIBT} (hs : PIBT.after E t = .ok s)
    (hk : PIBT.after E (t + 1) = .ok sk) : ∃ b, PIBT.timestep E s = .ok (sk, b) := by
  obtain ⟨s', b, hs', hr⟩ := after_succ hk
  rw [hs] at hs'
  simp only [Outcome.ok.injEq] at hs'
  rw [← hs'] at hr
  exact ⟨b, hr⟩

/-- The main loop of `run`, entered after `t` timesteps, stops after some timestep `T > t`:
the first one after which every agent stands on its goal, or else the first one at which the
counter reaches `max_timestep` or the clock runs out. -/
theorem run_loop_post (E : Env) :
    ∀ (budget t : Nat) (s r : PIBT), PIBT.after E t = .ok s →
      PIBT.run_loop E budget s (t : Int) = .ok r →
      ∃ T sT, t < T ∧ PIBT.after E T = .ok sT ∧ r.solution = sT.solution ∧
        (r.solved = true ↔ sT.at_goals E) ∧
        (∀ k sk, t < k → k < T → PIBT.after E k = .ok sk →
          ¬ sk.at_goals E ∧ (k : Int) < E.max_timestep ∧ E.overCompTime k = false) ∧
        (¬ sT.at_goals E → (T : Int) ≥ E.max_timestep ∨ E.overCompTime T = true) := by
  intro budget
  induction budget with
  | zero =>
    intro t s r _ h
    unfold PIBT.run_loop at h
    exact absurd h (by simp)
  | succ b ih =>
    intro t s r hs h
    unfold PIBT.run_loop at h
    obtain ⟨r1, hr1, h⟩ := Outcome.bind_eq_ok.mp h
    dsimp only at h
    have hS := after_sound E t s hs
    obtain ⟨hS1, _, hgoal, _⟩ := sound_step hS hs hr1
    have hafter := after_of_timestep hs hr1
    have hcast : (t : Int) + 1 = ((t + 1 : Nat) : Int) := by push_cast; rfl
    rw [hcast] at h
    split_ifs at h with h1 h2
    · simp only [Outcome.ok.injEq] at h
      refine ⟨t + 1, r1.1, by omega, hafter, by rw [← h], ?_, ?_, ?_⟩
      · rw [← h]
        exact ⟨fun _ => hgoal.mp h1, fun _ => rfl⟩
      · intro k sk hk1 hk2
        omega
      · intro hng
        exact absurd (hgoal.mp h1) hng
    · simp only [Outcome.ok.injEq] at h
      have hng : ¬ r1.1.at_goals E := fun hg => h1 (hgoal.mpr hg)
      refine ⟨t + 1, r1.1, by omega, hafter, by rw [← h], ?_, ?_, ?_⟩
      · rw [← h, hS1.solved]
        exact ⟨fun e => absurd e (by simp), fun e => absurd e hng⟩
      · intro k sk hk1 hk2
        omega
      · intro _
        exact h2
    · obtain ⟨T, sT, g1, g2, g3, g4, g5, g6⟩ := ih (t + 1) r1.1 r hafter h
      have hng : ¬ r1.1.at_goals E := fun hg => h1 (hgoal.mpr hg)
      refine ⟨T, sT, by omega, g2, g3, g4, ?_, g6⟩
      intro k sk hk1 hk2 hsk
      by_cases hk : k = t + 1
      · subst hk
        rw [hafter] at hsk
        simp only [Outcome.ok.injEq] at hsk
        rw [← hsk]
        push_neg at h2
        refine ⟨hng, h2.1, ?_⟩
        have := h2.2
        simpa using this
      · exact g5 k sk (by omega) hk2 hsk

/-- The budget of the main loop is enough: when every timestep it executes returns, the loop
returns. -/
theorem run_loop_total (E : Env) :
    ∀ (budget t : Nat) (s : PIBT), PIBT.after E t = .ok s →
      (∀ k : Nat, t < k → (k ≤ t + 1 ∨ (k : Int) ≤ E.max_timestep) →
        ∃ sk, PIBT.after E k = .ok sk) →
      1 ≤ budget → E.max_timestep ≤ (t : Int) + budget →
      ∃ r, PIBT.run_loop E budget s (t : Int) = .ok r := by
  intro budget
  induction budget with
  | zero => intro t s _ _ h; omega
  | succ b ih =>
    intro t s hs hall _ hmax
    obtain ⟨sk, hsk⟩ := hall (t + 1) (by omega) (Or.inl (le_refl _))
    obtain ⟨bk, hr1⟩ := timestep_of_after hs hsk
    unfold PIBT.run_loop
    rw [hr1]
    simp only [Outcome.bind_ok]
    have hcast : (t : Int) + 1 = ((t + 1 : Nat) : Int) := by push_cast; rfl
    rw [hcast]
    split_ifs with h1 h2
    · exact ⟨_, rfl⟩
    · exact ⟨_, rfl⟩
    · push_neg at h2
      have hlt := h2.1
      apply ih (t + 1) sk hsk
      · intro k hk1 hk2
        apply hall k (by omega)
        rcases hk2 with hk2 | hk2
        · right
          have : k = t + 1 + 1 := by omega
          rw [this]
          push_cast at hlt ⊢
          omega
        · exact Or.inr hk2
      · push_cast at hlt hmax
        omega
      · push_cast at hmax ⊢
        omega

/-- What `run` returns: the plan after some timestep `T ≥ 1`. -/
theorem run_result_post {E : Env} {res : Plan × Bool} (h : PIBT.run_result E = .ok res) :
    ∃ T sT, 0 < T ∧ PIBT.after E T = .ok sT ∧ res.1 = sT.solution ∧
      (res.2 = true ↔ sT.at_goals E) ∧
      (∀ k sk, 0 < k → k < T → PIBT.after E k = .ok sk →
        ¬ sk.at_goals E ∧ (k : Int) < E.max_timestep ∧ E.overCompTime k = false) ∧
      (¬ sT.at_goals E → (T : Int) ≥ E.max_timestep ∨ E.overCompTime T = true) := by
  unfold PIBT.run_result at h
  obtain ⟨r, hr, h⟩ := Outcome.bind_eq_ok.mp h
  unfold PIBT.run at hr
  obtain ⟨s0, hs0, hr⟩ := Outcome.bind_eq_ok.mp hr
  obtain ⟨r', hr', hr⟩ := Outcome.bind_eq_ok.mp hr
  simp only [Outcome.ok.injEq] at h hr
  have h0 : PIBT.after E 0 = .ok s0 := hs0
  obtain ⟨T, sT, g1, g2, g3, g4, g5, g6⟩ := run_loop_post E _ 0 s0 r' h0 hr'
  refine ⟨T, sT, g1, g2, ?_, ?_, g5, g6⟩
  · rw [← h, ← hr]
    exact g3
  · rw [← h, ← hr]
    exact g4

/-- The entries of the plan read by `Plan::get` and `Plan::getOrientation`. -/
theorem traced_get {E : Env} {T : Nat} {s : PIBT} (hT : s.Traced E T) {k a : Nat}
    (hk : k ≤ T) (ha : a < E.num) :
    ∃ sk h, PIBT.after E k = .ok sk ∧
      s.solution.get (k : Int) (a : Int) = .ok (some (sk.agents a).v_now) ∧
      s.solution.getOrientation (k : Int) (a : Int) = .ok h ∧
      (sk.agents a).ott_now = some h := by
  obtain ⟨sk, hsk, hshown⟩ := hT.rows k hk
  obtain ⟨s0, _, hshown0⟩ := hT.rows 0 (Nat.zero_le T)
  have hhead : (s.solution.configs.headD []).length = E.num := by
    have : s.solution.configs.headD [] = s.solution.configs.getD 0 [] := by
      cases s.solution.configs <;> simp
    rw [this]; exact hshown0.config_len
  have hhead' : (s.solution.orientations.headD []).length = E.num := by
    have : s.solution.orientations.headD [] = s.solution.orientations.getD 0 [] := by
      cases s.solution.orientations <;> simp
    rw [this]; exact hshown0.orients_len
  have hne : s.solution.configs.isEmpty = false := by
    cases hc : s.solution.configs with
    | nil => have := hT.configs_len; rw [hc] at this; simp at this
    | cons x xs => rfl
  have hne' : s.solution.orientations.isEmpty = false := by
    cases hc : s.solution.orientations with
    | nil => have := hT.orients_len; rw [hc] at this; simp at this
    | cons x xs => rfl
  have hott := hshown.orients a ha
  cases ho : (sk.agents a).ott_now with
  | none =>
    have hS := after_sound E k sk hsk
    exact absurd ho (hS.rest.weak.ott_now a ha)
  | some h =>
    refine ⟨sk, h, hsk, ?_, ?_, ho⟩
    · unfold Plan.get Plan.empty
      rw [hne, hT.configs_len, hhead]
      have c1 : (0 : Int) ≤ (k : Int) ∧ (k : Int) < ((T + 1 : Nat) : Int) := by
        constructor <;> omega
      have c2 : (0 : Int) ≤ (a : Int) ∧ (a : Int) < (E.num : Int) := by
        constructor <;> omega
      simp only [Bool.false_eq_true, if_false, c1, c2, not_true, and_self, Int.toNat_ofNat,
        hshown.config a ha]
    · unfold Plan.getOrientation
      rw [hne', hT.orients_len, hhead']
      have c1 : (0 : Int) ≤ (k : Int) ∧ (k : Int) < ((T + 1 : Nat) : Int) := by
        constructor <;> omega
      have c2 : (0 : Int) ≤ (a : Int) ∧ (a : Int) < (E.num : Int) := by
        constructor <;> omega
      simp only [Bool.false_eq_true, if_false, c1, c2, not_true, and_self, Int.toNat_ofNat,
        hott, ho]

theorem after_unique {E : Env} {k : Nat} {s s' : PIBT} (h : PIBT.after E k = .ok s)
    (h' : PIBT.after E k = .ok s') : s' = s := by
  rw [h] at h'
  simp only [Outcome.ok.injEq] at h'
  exact h'.symm

theorem int_of_bounds {t : Int} {n : Nat} (h0 : 0 ≤ t) (h1 : t < (n : Int)) :
    ∃ k : Nat, t = (k : Int) ∧ k < n := by
  obtain ⟨k, hk⟩ := Int.eq_ofNat_of_zero_le h0
  refine ⟨k, hk, ?_⟩
  rw [hk] at h1
  exact_mod_cast h1

/-- The rows `k` and `k + 1` of the plan that `run` returns show two successive states. -/
theorem result_rows {E : Env} {res : Plan × Bool} (hrun : PIBT.run_result E = .ok res) :
    ∃ T sT, PIBT.after E T = .ok sT ∧ res.1 = sT.solution ∧ sT.Sound E T ∧
      res.1.size = ((T + 1 : Nat) : Int) := by
  obtain ⟨T, sT, _, g2, g3, _⟩ := run_result_post hrun
  have hS := after_sound E T sT g2
  refine ⟨T, sT, g2, g3, hS, ?_⟩
  unfold Plan.size
  rw [g3, hS.traced.configs_len]

/-- C1: on an instance with pairwise distinct starts, no configuration of the plan that
`run` returns has two agents on one vertex. -/
theorem run_vertex_conflict_free (E : Env) (res : Plan × Bool)
    (hstart : ∀ i j, i < E.num → j < E.num → i ≠ j → E.start i ≠ E.start j)
    (hrun : PIBT.run_result E = .ok res) (t i j : Int)
    (ht : 0 ≤ t ∧ t < res.1.size) (hi : 0 ≤ i ∧ i < E.num) (hj : 0 ≤ j ∧ j < E.num)
    (hij : i ≠ j) :
    ∃ vi vj, res.1.get t i = .ok (some vi) ∧ res.1.get t j = .ok (some vj) ∧ vi ≠ vj := by
  obtain ⟨T, sT, _, hres, hS, hsize⟩ := result_rows hrun
  rw [hsize] at ht
  obtain ⟨k, hk, hkT⟩ := int_of_bounds ht.1 ht.2
  obtain ⟨a, ha, haN⟩ := int_of_bounds hi.1 hi.2
  obtain ⟨b, hb, hbN⟩ := int_of_bounds hj.1 hj.2
  subst hk ha hb
  obtain ⟨sk, _, hsk, hga, _, _⟩ := traced_get hS.traced (by omega : k ≤ T) haN
  obtain ⟨sk', _, hsk', hgb, _, _⟩ := traced_get hS.traced (by omega : k ≤ T) hbN
  rw [after_unique hsk hsk'] at hgb
  rw [hres]
  refine ⟨_, _, hga, hgb, ?_⟩
  intro e
  have hbase := (after_sound E k sk hsk).base hstart
  exact hij (by rw [base_inj hbase haN hbN e])

/-- C2: on an instance with pairwise distinct starts, no two agents exchange their vertices
between two successive configurations of the plan that `run` returns. -/
theorem run_swap_conflict_free (E : Env) (res : Plan × Bool)
    (hstart : ∀ i j, i < E.num → j < E.num → i ≠ j → E.start i ≠ E.start j)
    (hrun : PIBT.run_result E = .ok res) (t i j : Int)
    (ht : 0 ≤ t ∧ t + 1 < res.1.size) (hi : 0 ≤ i ∧ i < E.num) (hj : 0 ≤ j ∧ j < E.num)
    (hij : i ≠ j) :
    ∃ vi vj vi' vj', res.1.get t i = .ok (some vi) ∧ res.1.get t j = .ok (some vj) ∧
      res.1.get (t + 1) i = .ok (some vi') ∧ res.1.get (t + 1) j = .ok (some vj') ∧
      ¬ (vi = vj' ∧ vj = vi') := by
  obtain ⟨T, sT, _, hres, hS, hsize⟩ := result_rows hrun
  rw [hsize] at ht
  obtain ⟨k, hk, hkT⟩ := int_of_bounds ht.1 (by omega : t < ((T : Nat) : Int))
  obtain ⟨a, ha, haN⟩ := int_of_bounds hi.1 hi.2
  obtain ⟨b, hb, hbN⟩ := int_of_bounds hj.1 hj.2
  subst hk ha hb
  obtain ⟨sk, _, hsk, hga, _, _⟩ := traced_get hS.traced (by omega : k ≤ T) haN
  obtain ⟨sk', _, hsk', hgb, _, _⟩ := traced_get hS.traced (by omega : k ≤ T) hbN
  obtain ⟨s1, _, hs1, hga1, _, _⟩ := traced_get hS.traced (by omega : k + 1 ≤ T) haN
  obtain ⟨s1', _, hs1', hgb1, _, _⟩ := traced_get hS.traced (by omega : k + 1 ≤ T) hbN
  rw [after_unique hsk hsk'] at hgb
  rw [after_unique hs1 hs1'] at hgb1
  have hcast : ((k + 1 : Nat) : Int) = (k : Int) + 1 := by push_cast; rfl
  rw [hcast] at hga1 hgb1
  rw [hres]
  refine ⟨_, _, _, _, hga, hgb, hga1, hgb1, ?_⟩
  obtain ⟨bk, hr⟩ := timestep_of_after hsk hs1
  have hns := (sound_step (after_sound E k sk hsk) hsk hr).2.2.2 hstart a b haN hbN
    (fun e => hij (by rw [e]))
  intro ⟨e1, e2⟩
  exact hns ⟨e2.symm, e1.symm⟩

/-- C3: between two successive configurations of the plan that `run` returns an agent keeps
its vertex or moves to a neighbour of it, and when it moves, its heading is the direction of
the move, at both timesteps. -/
theorem run_moves_along_heading (E : Env) (res : Plan × Bool)
    (hrun : PIBT.run_result E = .ok res) (t i : Int)
    (ht : 0 ≤ t ∧ t + 1 < res.1.size) (hi : 0 ≤ i ∧ i < E.num) :
    ∃ v v' h h', res.1.get t i = .ok (some v) ∧ res.1.get (t + 1) i = .ok (some v') ∧
      res.1.getOrientation t i = .ok h ∧ res.1.getOrientation (t + 1) i = .ok h' ∧
      (v' = v ∨ v' ∈ E.G.neighbor v) ∧
      (v' ≠ v → Plan.getRelativePosition E.G v v' = .ok h' ∧ h' = h) := by
  obtain ⟨T, sT, _, hres, hS, hsize⟩ := result_rows hrun
  rw [hsize] at ht
  obtain ⟨k, hk, hkT⟩ := int_of_bounds ht.1 (by omega : t < ((T : Nat) : Int))
  obtain ⟨a, ha, haN⟩ := int_of_bounds hi.1 hi.2
  subst hk ha
  obtain ⟨sk, h, hsk, hga, hoa, hh⟩ := traced_get hS.traced (by omega : k ≤ T) haN
  obtain ⟨s1, h', hs1, hga1, hoa1, hh'⟩ := traced_get hS.traced (by omega : k + 1 ≤ T) haN
  have hcast : ((k + 1 : Nat) : Int) = (k : Int) + 1 := by push_cast; rfl
  rw [hcast] at hga1 hoa1
  rw [hres]
  refine ⟨_, _, h, h', hga, hga1, hoa, hoa1, ?_⟩
  obtain ⟨bk, hr⟩ := timestep_of_after hsk hs1
  have hM := (sound_step (after_sound E k sk hsk) hsk hr).2.1
  rcases hM.move a haN with e | ⟨e1, o, e2, e3⟩
  · exact ⟨Or.inl e, fun hne => absurd e hne⟩
  · have ho : o = h' := by
      rw [hh'] at e2
      exact (Option.some.inj e2).symm
    have hhh : h' = h := by
      rw [hh', hh] at e1
      exact Option.some.inj e1
    rw [ho] at e3
    exact ⟨Or.inr (relpos_ok_mem e3), fun _ => ⟨e3, hhh⟩⟩

theorem follow_run : PIBT.run_result (follow_env 6) = .ok (follow_plan, true) := by
  decide!

theorem swap_run : PIBT.run_result (swap_env 3) = .ok (swap_plan, false) := by
  decide!

theorem follow_start :
    ∀ i j, i < (follow_env 6).num → j < (follow_env 6).num → i ≠ j →
      (follow_env 6).start i ≠ (follow_env 6).start j :=
  fun _ _ _ _ h => h

/-- C8, amended: with `max_timestep ≥ 1` and the wall clock ignored, `run` stops after the
first timestep `T ≥ 1` whose configuration has every agent on its goal, with `solved = true`,
or else after timestep `T = max_timestep` with `solved = false`; the plan has the `T + 1`
rows `0 .. T`, the first one the start configuration; and `run` returns whenever the
timesteps up to `max_timestep` do. -/
theorem run_stops_within_budget (E : Env) (hmax : 1 ≤ E.max_timestep)
    (hclock : ∀ t, E.overCompTime t = false) :
    (∀ res, PIBT.run_result E = .ok res →
      ∃ T : Nat, 1 ≤ T ∧ (T : Int) ≤ E.max_timestep ∧ res.1.size = (T : Int) + 1 ∧
        (∀ a : Nat, a < E.num → res.1.get 0 (a : Int) = .ok (some (E.start a))) ∧
        (res.2 = true ↔
          ∀ a : Nat, a < E.num → res.1.get (T : Int) (a : Int) = .ok (some (E.goal a))) ∧
        (∀ k : Nat, 1 ≤ k → k < T →
          ¬ ∀ a : Nat, a < E.num → res.1.get (k : Int) (a : Int) = .ok (some (E.goal a))) ∧
        (res.2 = false → (T : Int) = E.max_timestep)) ∧
    ((∀ k : Nat, (k : Int) ≤ E.max_timestep → ∃ s, PIBT.after E k = .ok s) →
      ∃ res, PIBT.run_result E = .ok res) := by
  constructor
  · intro res hrun
    obtain ⟨T, sT, hT0, hsT, hres, hsolved, hinter, hlast⟩ := run_result_post hrun
    have hS := after_sound E T sT hsT
    have hget : ∀ k, k ≤ T → ∃ sk, PIBT.after E k = .ok sk ∧
        ∀ a : Nat, a < E.num → res.1.get (k : Int) (a : Int) =
          .ok (some (sk.agents a).v_now) := by
      intro k hk
      obtain ⟨sk, hsk, _⟩ := hS.traced.rows k hk
      refine ⟨sk, hsk, fun a ha => ?_⟩
      obtain ⟨sk', _, hsk', hg, _, _⟩ := traced_get hS.traced hk ha
      rw [after_unique hsk hsk'] at hg
      rw [hres]
      exact hg
    have hgoals : ∀ k sk, PIBT.after E k = .ok sk →
        (∀ a : Nat, a < E.num → res.1.get (k : Int) (a : Int) =
          .ok (some (sk.agents a).v_now)) →
        (sk.at_goals E ↔ ∀ a : Nat, a < E.num →
          res.1.get (k : Int) (a : Int) = .ok (some (E.goal a))) := by
      intro k sk _ hg
      constructor
      · intro h a ha
        rw [hg a ha, h a ha]
      · intro h a ha
        have := h a ha
        rw [hg a ha] at this
        simp only [Outcome.ok.injEq, Option.some.injEq] at this
        exact this
    have hle : (T : Int) ≤ E.max_timestep := by
      by_cases h1 : T = 1
      · rw [h1]; exact_mod_cast hmax
      · obtain ⟨sk, hsk, _⟩ := hget (T - 1) (by omega)
        have := (hinter (T - 1) sk (by omega) (by omega) hsk).2.1
        have hc : ((T - 1 : Nat) : Int) = (T : Int) - 1 := by omega
        rw [hc] at this
        omega
    refine ⟨T, hT0, hle, ?_, ?_, ?_, ?_, ?_⟩
    · unfold Plan.size
      rw [hres, hS.traced.configs_len]
      push_cast; rfl
    · intro a ha
      obtain ⟨s0, hs0, hg⟩ := hget 0 (Nat.zero_le T)
      have := hg a ha
      rw [(after_zero_sound hs0).2.1 a ha] at this
      exact this
    · obtain ⟨sk, hsk, hg⟩ := hget T (le_refl T)
      rw [after_unique hsT hsk] at hg
      rw [hsolved]
      exact hgoals T sT hsT hg
    · intro k hk1 hk2
      obtain ⟨sk, hsk, hg⟩ := hget k (by omega)
      rw [← hgoals k sk hsk hg]
      exact (hinter k sk (by omega) hk2 hsk).1
    · intro hf
      have hng : ¬ sT.at_goals E := by
        intro hg
        rw [hsolved.mpr hg] at hf
        exact absurd hf (by simp)
      rcases hlast hng with h | h
      · omega
      · rw [hclock] at h
        exact absurd h (by simp)
  · intro hall
    obtain ⟨s0, hs0, _⟩ := run_init_post E
    have h0 : PIBT.after E 0 = .ok s0 := hs0
    have htotal := run_loop_total E (E.max_timestep.toNat + 1) 0 s0 h0
      (fun k hk1 hk2 => by
        apply hall k
        rcases hk2 with hk2 | hk2
        · have : k = 1 := by omega
          rw [this]
          exact_mod_cast hmax
        · exact hk2)
      (by omega) (by push_cast; omega)
    obtain ⟨r, hr⟩ := htotal
    refine ⟨(r.solution, r.solved), ?_⟩
    unfold PIBT.run_result PIBT.run
    rw [hs0]
    simp only [Outcome.bind_ok]
    have hr' : PIBT.run_loop E (E.max_timestep.toNat + 1) s0 0 = .ok r := by
      simpa using hr
    rw [hr']
    rfl

/-- C9, amended: after every timestep `t + 1 ≥ 1` the counter `elapsed` of an agent is `0`
exactly when the agent stands on its goal, and otherwise it is one greater than after the
timestep before; the vertex meant is the one in row `t + 1` of the plan. -/
theorem elapsed_after_timestep (E : Env) (t : Nat) (s' : PIBT)
    (h : PIBT.after E (t + 1) = .ok s') :
    ∃ s, PIBT.after E t = .ok s ∧ ∀ a : Nat, a < E.num →
      ((s'.agents a).elapsed = 0 ↔ (s'.agents a).v_now = E.goal a) ∧
      ((s'.agents a).v_now ≠ E.goal a → (s'.agents a).elapsed = (s.agents a).elapsed + 1) ∧
      s'.solution.get ((t + 1 : Nat) : Int) (a : Int) = .ok (some (s'.agents a).v_now) := by
  obtain ⟨s, b, hs, hr⟩ := after_succ h
  have hS := after_sound E t s hs
  obtain ⟨hS1, hM, _, _⟩ := sound_step hS hs hr
  refine ⟨s, hs, fun a ha => ?_⟩
  have he := hM.elapsed a ha
  rw [hS.goal a ha] at he
  have hnn := hS.nonneg a ha
  refine ⟨?_, ?_, ?_⟩
  · constructor
    · intro h0
      by_contra hne
      rw [if_neg hne, h0] at he
      omega
    · intro hg
      rw [he, if_pos hg]
  · intro hne
    rw [he, if_neg hne]
  · obtain ⟨sk, _, hsk, hg, _, _⟩ := traced_get hS1.traced (le_refl (t + 1)) ha
    rw [after_unique h hsk] at hg
    exact hg

/-- Witness of C1 on `follow_env`: after the second timestep the two agents stand on
different vertices. -/
theorem run_vertex_conflict_free_witness :
    PIBT.run_result (follow_env 6) = .ok (follow_plan, true) ∧
      ∃ vi vj, follow_plan.get 2 0 = .ok (some vi) ∧ follow_plan.get 2 1 = .ok (some vj) ∧
        vi ≠ vj :=
  ⟨follow_run, run_vertex_conflict_free (follow_env 6) (follow_plan, true) follow_start
    follow_run 2 0 1 (by decide) (by decide) (by decide) (by decide)⟩

/-- Witness of C2 on `follow_env`: in the second timestep agent `0` takes the vertex that
agent `1` leaves, and agent `1` does not take the vertex of agent `0`. -/
theorem run_swap_conflict_free_witness :
    PIBT.run_result (follow_env 6) = .ok (follow_plan, true) ∧
      ∃ vi vj vi' vj', follow_plan.get 1 0 = .ok (some vi) ∧
        follow_plan.get 1 1 = .ok (some vj) ∧ follow_plan.get (1 + 1) 0 = .ok (some vi') ∧
        follow_plan.get (1 + 1) 1 = .ok (some vj') ∧ ¬ (vi = vj' ∧ vj = vi') :=
  ⟨follow_run, run_swap_conflict_free (follow_env 6) (follow_plan, true) follow_start
    follow_run 1 0 1 (by decide) (by decide) (by decide) (by decide)⟩

/-- Witness of C3 on `follow_env`: in the second timestep agent `0` moves to a neighbour of
its vertex, along its heading. -/
theorem run_moves_along_heading_witness :
    PIBT.run_result (follow_env 6) = .ok (follow_plan, true) ∧
      ∃ v v' h h', follow_plan.get 1 0 = .ok (some v) ∧
        follow_plan.get (1 + 1) 0 = .ok (some v') ∧
        follow_plan.getOrientation 1 0 = .ok h ∧
        follow_plan.getOrientation (1 + 1) 0 = .ok h' ∧
        (v' = v ∨ v' ∈ (follow_env 6).G.neighbor v) ∧
        (v' ≠ v → Plan.getRelativePosition (follow_env 6).G v v' = .ok h' ∧ h' = h) :=
  ⟨follow_run, run_moves_along_heading (follow_env 6) (follow_plan, true) follow_run 1 0
    (by decide) (by decide)⟩

/-- Counterexample to C8 as stated: with `max_timestep = 0` the run on `swap_env` ends
unsolved with a plan of two rows, not `max_timestep + 1 = 1`. -/
theorem run_plan_length_counterexample :
    ∃ res, PIBT.run_result (swap_env 0) = .ok res ∧ res.2 = false ∧
      res.1.size ≠ (swap_env 0).max_timestep + 1 :=
  ⟨(Plan.mk [[some 0, some 1], [some 0, some 1]] [[.Y_MINUS, .Y_MINUS], [.Y_MINUS, .Y_MINUS]],
    false), by decide!, rfl, by decide⟩

/-- Witness of C8 (amended) on `swap_env` with `max_timestep = 3`: the run ends unsolved and
its plan has `max_timestep + 1` rows. -/
theorem run_stops_within_budget_witness :
    PIBT.run_result (swap_env 3) = .ok (swap_plan, false) ∧
      swap_plan.size = (swap_env 3).max_timestep + 1 := by
  refine ⟨swap_run, ?_⟩
  obtain ⟨T, _, _, hsize, _, _, _, hlast⟩ :=
    (run_stops_within_budget (swap_env 3) (by decide) (fun _ => rfl)).1 (swap_plan, false)
      swap_run
  rw [← hlast rfl]
  exact hsize

/-- Counterexample to C9 as stated: at timestep `0` agent `0` of `swap_env` has
`elapsed = 0` although the vertex it has in row `0` of the plan is not its goal. -/
theorem elapsed_at_start_counterexample :
    ∃ s, PIBT.after (swap_env 3) 0 = .ok s ∧ (s.agents 0).elapsed = 0 ∧
      (s.agents 0).v_now ≠ (swap_env 3).goal 0 ∧
      s.solution.get 0 0 = .ok (some (s.agents 0).v_now) := by
  obtain ⟨s, hs, _⟩ := run_init_post (swap_env 3)
  have h0 : PIBT.after (swap_env 3) 0 = .ok s := hs
  obtain ⟨hS, hv, he⟩ := after_zero_sound h0
  have h2 : (0 : Nat) < (swap_env 3).num := by decide
  refine ⟨s, h0, he 0 h2, ?_, ?_⟩
  · rw [hv 0 h2]
    decide
  · obtain ⟨sk, _, hsk, hg, _, _⟩ := traced_get hS.traced (le_refl 0) h2
    rw [after_unique h0 hsk] at hg
    exact hg

/-- Witness of C9 (amended) on `follow_env`: after the first timestep agent `0` is not on
its goal and its counter is one greater than before. -/
theorem elapsed_after_timestep_witness :
    ∃ s s', PIBT.after (follow_env 6) 0 = .ok s ∧ PIBT.after (follow_env 6) (0 + 1) = .ok s' ∧
      (s'.agents 0).elapsed = (s.agents 0).elapsed + 1 := by
  have h1 : (PIBT.after (follow_env 6) (0 + 1)).bind
      (fun s => Outcome.ok (s.agents 0).v_now) = .ok 0 := by decide!
  obtain ⟨s', hs', hv⟩ := Outcome.bind_eq_ok.mp h1
  simp only [Outcome.ok.injEq] at hv
  obtain ⟨s, hs, hall⟩ := elapsed_after_timestep (follow_env 6) 0 s' hs'
  refine ⟨s, s', hs, hs', (hall 0 (by decide)).2.1 ?_⟩
  rw [hv]
  decide

/-! ## The tables between the timesteps, the plan container, the candidate order and the
invocations of `funcPIBT` -/

/-- C11: between the timesteps of `run` (after the initialisation and after every commit
loop), on an instance with pairwise distinct starts, `occupied_now` is the inverse of the
positions of the agents: `occupied_now[v] = a` exactly when `a` is an agent and
`a.v_now = v`. -/
theorem occupied_now_inverse (E : Env)
    (hstart : ∀ i j, i < E.num → j < E.num → i ≠ j → E.start i ≠ E.start j)
    (t : Nat) (s : PIBT) (h : PIBT.after E t = .ok s) (v a : Nat) :
    s.occupied_now v = some a ↔ a < E.num ∧ (s.agents a).v_now = v :=
  ((after_sound E t s h).base hstart).occ_now v a

/-- Witness of C11 on `follow_env`: after the second timestep agent `1` is the occupant of
`v2` and `v0` is free. -/
theorem occupied_now_inverse_witness :
    ∃ s, PIBT.after (follow_env 6) 2 = .ok s ∧ s.occupied_now 2 = some 1 ∧
      s.occupied_now 0 = none := by
  have h1 : (PIBT.after (follow_env 6) 2).bind
      (fun s => Outcome.ok ((s.agents 1).v_now, s.occupied_now 0)) = .ok (2, none) := by
    decide!
  obtain ⟨s, hs, hv⟩ := Outcome.bind_eq_ok.mp h1
  simp only [Outcome.ok.injEq, Prod.mk.injEq] at hv
  refine ⟨s, hs, ?_, hv.2⟩
  exact (occupied_now_inverse (follow_env 6) follow_start 2 s hs 2 1).mpr ⟨by decide, hv.1⟩

/-- C16: `addWithOrientation` halts exactly when the plan is not empty and the size of `c`
differs from the size of the first configuration, or the size of `c` differs from the size
of `orients`; otherwise it appends `c` and `orients`, keeps the earlier rows, and `size` and
`getMakespan` grow by one. -/
theorem addWithOrientation_spec (p : Plan) (row : Config) (orients : List Orientation) :
    (p.addWithOrientation row orients = .halted ↔
      (p.empty = false ∧ (p.configs.headD []).length ≠ row.length) ∨
        row.length ≠ orients.length) ∧
    (p.addWithOrientation row orients ≠ .halted →
      ∃ q, p.addWithOrientation row orients = .ok q ∧
        q.configs = p.configs ++ [row] ∧ q.orientations = p.orientations ++ [orients] ∧
        q.configs.getLast? = some row ∧ q.orientations.getLast? = some orients ∧
        (∀ t, t < p.configs.length → q.configs.getD t [] = p.configs.getD t []) ∧
        (∀ t, t < p.orientations.length →
          q.orientations.getD t [] = p.orientations.getD t []) ∧
        q.size = p.size + 1 ∧ q.getMakespan = p.getMakespan + 1) := by
  unfold Plan.addWithOrientation Plan.empty
  by_cases h1 : ¬ p.configs.isEmpty = true ∧ (p.configs.headD []).length ≠ row.length
  · rw [if_pos h1]
    refine ⟨⟨fun _ => Or.inl ⟨by simpa using h1.1, h1.2⟩, fun _ => rfl⟩,
      fun h => absurd rfl h⟩
  · rw [if_neg h1]
    by_cases h2 : row.length ≠ orients.length
    · rw [if_pos h2]
      exact ⟨⟨fun _ => Or.inr h2, fun _ => rfl⟩, fun h => absurd rfl h⟩
    · rw [if_neg h2]
      refine ⟨⟨fun h => absurd h (by simp), fun h => ?_⟩, fun _ => ⟨_, rfl, rfl, rfl, ?_, ?_,
        ?_, ?_, ?_, ?_⟩⟩
      · rcases h with h | h
        · exact absurd ⟨by simpa using h.1, h.2⟩ h1
        · exact absurd h h2
      · simp
      · simp
      · intro t ht
        exact List.getD_append _ _ _ _ ht
      · intro t ht
        exact List.getD_append _ _ _ _ ht
      · unfold Plan.size
        simp
      · unfold Plan.getMakespan Plan.size
        simp

/-- On the L-shaped graph `run` itself creates the agent with the heading `Y_MINUS`: a quarter
turn to `X_PLUS` on `v0` precedes the three timesteps of the scenario. -/
theorem turn_run : PIBT.run_result (turn_env 10) = .ok (turn_plan, true) := by
  decide!

/-- C15: scenario 'single agent, requires turn'.  On the L-shaped graph, with the distance
table of the true orientation-aware distances, the agent stands on `v0` with heading `X_PLUS`
and goal `v2`; from this start configuration the main loop of `run` emits exactly three
timesteps, `(v1, X_PLUS)`, then `(v1, Y_PLUS)`, then `(v2, Y_PLUS)`, and reports solved. -/
theorem turn_scenario :
    ((turn_start 10).bind fun s =>
      .ok ((s.agents 0).v_now, (s.agents 0).ott_now, (s.agents 0).g, s.solution)) =
      .ok (0, some .X_PLUS, 2, Plan.mk [[some 0]] [[.X_PLUS]]) ∧
    ((turn_start 10).bind fun s =>
      (PIBT.run_loop (turn_env 10) ((turn_env 10).max_timestep.toNat + 1) s 0).bind fun r =>
        .ok (r.solution, r.solved)) =
      .ok (Plan.mk [[some 0], [some 1], [some 1], [some 2]]
        [[.X_PLUS], [.X_PLUS], [.Y_PLUS], [.Y_PLUS]], true) := by
  refine ⟨by decide!, by decide!⟩

theorem float_of_int_exact {x : Int} (h1 : -16777216 < x) (h2 : x < 16777216) :
    float_of_int x = x := by
  unfold float_of_int
  rw [if_pos ⟨h1, h2⟩]

/-- Values of the conversion to `float` and of the `float` addition above `2 ^ 24`: odd
integers are rounded to a neighbour with even significand, and adding `1` to `2 ^ 24` changes
nothing. -/
theorem float_samples :
    float_of_int 16777216 = 16777216 ∧ float_of_int 16777217 = 16777216 ∧
    float_of_int 16777218 = 16777218 ∧ float_of_int 16777219 = 16777220 ∧
    float_of_int 33554433 = 33554432 ∧ float_of_int 33554435 = 33554436 ∧
    float_of_int 2147483647 = 2147483648 ∧ float_of_int (-16777217) = -16777216 ∧
    float_add 16777216 1 = 16777216 ∧ float_add 16777216 2 = 16777218 ∧
    float_add 16777216 3 = 16777220 := by
  refine ⟨by decide, by decide, by decide, by decide, by decide, by decide, by decide,
    by decide, by decide, by decide, by decide⟩

/-- The value of `getMinDistToGoal`: the table entry converted to `float`, below the initial
value `FLT_MAX` of the running minimum. -/
theorem getMinDistToGoal_capped (E : Env) (a v : Nat) (d : Orientation) :
    PIBT.getMinDistToGoal E a v d = min FLT_MAX (float_of_int (E.pathDist a v d)) := by
  unfold PIBT.getMinDistToGoal all_orientations
  simp only [List.foldl]
  generalize FLT_MAX = M
  generalize float_of_int (E.pathDist a v d) = x
  omega

theorem getMinDistToGoal_eq (E : Env) (i w : Nat) (h : Orientation)
    (h1 : -16777216 < E.pathDist i w h) (h2 : E.pathDist i w h < 16777216) :
    PIBT.getMinDistToGoal E i w h = E.pathDist i w h := by
  rw [getMinDistToGoal_capped, float_of_int_exact h1 h2]
  apply min_eq_right
  unfold FLT_MAX
  omega

theorem funcPIBT_d_cost (E : Env) (s : PIBT) (ai v : Nat) (h_now h_v : Orientation)
    (ho : (s.agents ai).ott_now = some h_now)
    (hv : v ≠ (s.agents ai).v_now →
      Plan.getRelativePosition E.G (s.agents ai).v_now v = .ok h_v) :
    PIBT.funcPIBT_d E s ai v =
      .ok (cost_float E (s.agents ai).id (s.agents ai).v_now h_now v h_v) := by
  unfold PIBT.funcPIBT_d cost_float
  by_cases h : v = (s.agents ai).v_now
  · simp only [h, if_true, ho, SAFE_VALUE, Outcome.bind_ok, ne_eq, not_true_eq_false, if_false]
    rw [getMinDistToGoal_capped]
  · simp only [if_neg h, hv h, ho, SAFE_VALUE, Outcome.bind_ok, ne_eq, h, not_false_eq_true,
      if_true, if_false]
    rw [getMinDistToGoal_capped]
    unfold turn_penalty_spec
    rcases angle_cases h_now h_v with e | e | e <;> simp [e]

/-- On a distance table whose entries `d` satisfy `-2 ^ 24 < d ≤ 2 ^ 24 - 4` the costs that
the comparator computes in `float` are the exact costs of the specification. -/
theorem cost_float_exact (E : Env) (i v_now : Nat) (h_now : Orientation) (w : Nat)
    (h_rel : Orientation)
    (hb : ∀ i w h, -16777216 < E.pathDist i w h ∧ E.pathDist i w h ≤ 16777212) :
    cost_float E i v_now h_now w h_rel = cost_spec E i v_now h_now w h_rel := by
  have hm : ∀ w h, min FLT_MAX (float_of_int (E.pathDist i w h)) = E.pathDist i w h := by
    intro w h
    rw [← getMinDistToGoal_capped]
    exact getMinDistToGoal_eq E i w h (hb i w h).1 (by have := (hb i w h).2; omega)
  unfold cost_float cost_spec float_add
  split_ifs
  · rw [hm]
    obtain ⟨b1, b2⟩ := hb i v_now h_now
    exact float_of_int_exact (by omega) (by omega)
  · rw [hm]
    obtain ⟨b1, b2⟩ := hb i w h_rel
    unfold turn_penalty_spec
    rcases angle_cases h_now h_rel with e | e | e <;> simp only [e] <;>
      exact float_of_int_exact (by simp; omega) (by simp; omega)

theorem compare_by_cost {E : Env} {s : PIBT} {ai v u : Nat} {dv du : Int}
    (hv : PIBT.funcPIBT_d E s ai v = .ok dv) (hu : PIBT.funcPIBT_d E s ai u = .ok du) :
    ∃ b, PIBT.funcPIBT_compare E s ai v u = .ok b ∧
      (b = true ↔
        dv < du ∨ (dv = du ∧ s.occupied_now v = none ∧ s.occupied_now u ≠ none)) := by
  unfold PIBT.funcPIBT_compare
  rw [hv, hu]
  simp only [Outcome.bind_ok]
  refine ⟨_, rfl, ?_⟩
  by_cases hne : dv = du
  · subst hne
    simp only [ne_eq, not_true_eq_false, if_false, lt_self_iff_false, false_or, true_and]
    by_cases h1 : s.occupied_now v = none <;> by_cases h2 : s.occupied_now u = none <;>
      simp [h1, h2]
  · simp only [ne_eq, hne, not_false_eq_true, if_true, decide_eq_true_eq, false_and, or_false]

theorem far_start :
    (PIBT.after far_env 0).bind (fun s => Outcome.ok
      ((s.agents 0).ott_now, (s.agents 0).v_now, (s.agents 0).id,
        PIBT.funcPIBT_compare far_env s 0 0 2)) =
      .ok (some .Y_MINUS, 1, 0, .ok false) := by
  decide!

/-- Counterexample to C18 as stated: on `far_env` the agent stands on `v1` with heading
`Y_MINUS`; the table entries of the candidates `v0` and `v2` are `2 ^ 24` and `2 ^ 24 + 1`,
so that the cost of `v0` is below the cost of `v2`, but `getMinDistToGoal` returns `2 ^ 24`
for both, the comparator computes the same `float` for both and ranks `v0` not before `v2`. -/
theorem compare_rounding_counterexample :
    ∃ s, PIBT.after far_env 0 = .ok s ∧
      (s.agents 0).ott_now = some .Y_MINUS ∧ (s.agents 0).v_now = 1 ∧ (s.agents 0).id = 0 ∧
      Plan.getRelativePosition far_env.G 1 0 = .ok .X_MINUS ∧
      Plan.getRelativePosition far_env.G 1 2 = .ok .X_PLUS ∧
      cost_spec far_env 0 1 .Y_MINUS 0 .X_MINUS < cost_spec far_env 0 1 .Y_MINUS 2 .X_PLUS ∧
      PIBT.funcPIBT_compare far_env s 0 0 2 = .ok false ∧
      far_env.pathDist 0 2 .X_PLUS = 16777217 ∧
      PIBT.getMinDistToGoal far_env 0 2 .X_PLUS = 16777216 := by
  obtain ⟨s, hs, hv⟩ := Outcome.bind_eq_ok.mp far_start
  simp only [Outcome.ok.injEq, Prod.mk.injEq] at hv
  obtain ⟨ho, hnow, hid, hc⟩ := hv
  exact ⟨s, hs, ho, hnow, hid, by decide, by decide, by decide, hc, by decide, by decide⟩

/-- C18, amended: the comparator of `funcPIBT` ranks the candidate `v` before the candidate
`u` exactly when `cost v < cost u`, or the costs are equal and `v` is free in `occupied_now`
while `u` is occupied, where the costs are the `float` values that the code computes: the
table entry converted to `float`, which is what `getMinDistToGoal` returns for every heading,
plus `1` for the own vertex, or plus `1`, `2`, `3` for an angle of `0`, `90`, `180` degrees
between `h_now` and `h_rel` for another candidate, added in `float`.  When every table entry
`d` satisfies `-2 ^ 24 < d ≤ 2 ^ 24 - 4`, nothing is rounded: `getMinDistToGoal` returns the
table entry and the costs are `dist(i, v_now, h_now) + 1` and `dist(i, w, h_rel) + p`, as in
the specification. -/
theorem funcPIBT_compare_cost (E : Env) (s : PIBT) (ai v u : Nat) (h_now h_v h_u : Orientation)
    (ho : (s.agents ai).ott_now = some h_now)
    (hv : v ≠ (s.agents ai).v_now →
      Plan.getRelativePosition E.G (s.agents ai).v_now v = .ok h_v)
    (hu : u ≠ (s.agents ai).v_now →
      Plan.getRelativePosition E.G (s.agents ai).v_now u = .ok h_u) :
    (∀ i w h, PIBT.getMinDistToGoal E i w h = min FLT_MAX (float_of_int (E.pathDist i w h))) ∧
    (∃ b, PIBT.funcPIBT_compare E s ai v u = .ok b ∧
      (b = true ↔
        cost_float E (s.agents ai).id (s.agents ai).v_now h_now v h_v <
            cost_float E (s.agents ai).id (s.agents ai).v_now h_now u h_u ∨
          (cost_float E (s.agents ai).id (s.agents ai).v_now h_now v h_v =
              cost_float E (s.agents ai).id (s.agents ai).v_now h_now u h_u ∧
            s.occupied_now v = none ∧ s.occupied_now u ≠ none))) ∧
    ((∀ i w h, -16777216 < E.pathDist i w h ∧ E.pathDist i w h ≤ 16777212) →
      (∀ i w h, PIBT.getMinDistToGoal E i w h = E.pathDist i w h) ∧
      ∃ b, PIBT.funcPIBT_compare E s ai v u = .ok b ∧
        (b = true ↔
          cost_spec E (s.agents ai).id (s.agents ai).v_now h_now v h_v <
              cost_spec E (s.agents ai).id (s.agents ai).v_now h_now u h_u ∨
            (cost_spec E (s.agents ai).id (s.agents ai).v_now h_now v h_v =
                cost_spec E (s.agents ai).id (s.agents ai).v_now h_now u h_u ∧
              s.occupied_now v = none ∧ s.occupied_now u ≠ none))) := by
  have hc := compare_by_cost (funcPIBT_d_cost E s ai v h_now h_v ho hv)
    (funcPIBT_d_cost E s ai u h_now h_u ho hu)
  refine ⟨getMinDistToGoal_capped E, hc, fun hb => ⟨fun i w h => ?_, ?_⟩⟩
  · exact getMinDistToGoal_eq E i w h (hb i w h).1 (by have := (hb i w h).2; omega)
  · rw [cost_float_exact E _ _ _ v h_v hb, cost_float_exact E _ _ _ u h_u hb] at hc
    exact hc

theorem idle_dist_small :
    ∀ i w h, -16777216 < idle_env.pathDist i w h ∧ idle_env.pathDist i w h ≤ 16777212 := by
  intro i w h
  show -16777216 < (if w < 3 then corridor3_dist 1 w h else 0) ∧
    (if w < 3 then corridor3_dist 1 w h else 0) ≤ 16777212
  split_ifs with hw
  · interval_cases w <;> cases h <;> decide
  · decide

theorem idle_start :
    (PIBT.after idle_env 0).bind (fun s => Outcome.ok
      ((s.agents 0).ott_now, (s.agents 0).v_now, s.occupied_now 0, s.occupied_now 2)) =
      .ok (some .Y_MINUS, 1, none, none) := by
  decide!

/-- Witness of C18 on `idle_env`: the comparator at the start of the run, on the own vertex
`v1` and the neighbour `v0`; the table entries are small, and the costs are the exact ones. -/
theorem funcPIBT_compare_cost_witness :
    ∃ s, PIBT.after idle_env 0 = .ok s ∧
      (∀ i w h, PIBT.getMinDistToGoal idle_env i w h = idle_env.pathDist i w h) ∧
      ∃ b, PIBT.funcPIBT_compare idle_env s 0 1 0 = .ok b ∧
        (b = true ↔
          cost_spec idle_env (s.agents 0).id (s.agents 0).v_now .Y_MINUS 1 .X_MINUS <
              cost_spec idle_env (s.agents 0).id (s.agents 0).v_now .Y_MINUS 0 .X_MINUS ∨
            (cost_spec idle_env (s.agents 0).id (s.agents 0).v_now .Y_MINUS 1 .X_MINUS =
                cost_spec idle_env (s.agents 0).id (s.agents 0).v_now .Y_MINUS 0 .X_MINUS ∧
              s.occupied_now 1 = none ∧ s.occupied_now 0 ≠ none)) := by
  obtain ⟨s, hs, hv⟩ := Outcome.bind_eq_ok.mp idle_start
  simp only [Outcome.ok.injEq, Prod.mk.injEq] at hv
  obtain ⟨ho, hnow, -, -⟩ := hv
  have hrel : (0 : Nat) ≠ (s.agents 0).v_now →
      Plan.getRelativePosition idle_env.G (s.agents 0).v_now 0 = .ok .X_MINUS := by
    intro _
    rw [hnow]
    decide
  have hown : (1 : Nat) ≠ (s.agents 0).v_now →
      Plan.getRelativePosition idle_env.G (s.agents 0).v_now 1 = .ok .X_MINUS := by
    intro h
    exact absurd hnow.symm h
  exact ⟨s, hs, (funcPIBT_compare_cost idle_env s 0 1 0 .Y_MINUS .X_MINUS .X_MINUS
    ho hown hrel).2.2 idle_dist_small⟩

theorem compare_eq_ok {E : Env} {s : PIBT} {ai v u : Nat} {b : Bool} :
    PIBT.funcPIBT_compare E s ai v u = .ok b ↔
      ∃ dv du, PIBT.funcPIBT_d E s ai v = .ok dv ∧ PIBT.funcPIBT_d E s ai u = .ok du ∧
        b = (if dv ≠ du then decide (dv < du)
          else if s.occupied_now v ≠ none ∧ s.occupied_now u = none then false
          else if s.occupied_now v = none ∧ s.occupied_now u ≠ none then true
          else false) := by
  unfold PIBT.funcPIBT_compare
  constructor
  · intro h
    obtain ⟨dv, hdv, h⟩ := Outcome.bind_eq_ok.mp h
    obtain ⟨du, hdu, h⟩ := Outcome.bind_eq_ok.mp h
    exact ⟨dv, du, hdv, hdu, (Outcome.ok.inj h).symm⟩
  · rintro ⟨dv, du, hdv, hdu, rfl⟩
    rw [hdv, hdu]
    rfl

theorem compare_true_iff {E : Env} {s : PIBT} {ai v u : Nat} :
    PIBT.funcPIBT_compare E s ai v u = .ok true ↔
      ∃ dv du, PIBT.funcPIBT_d E s ai v = .ok dv ∧ PIBT.funcPIBT_d E s ai u = .ok du ∧
        (dv < du ∨ (dv = du ∧ s.occupied_now v = none ∧ s.occupied_now u ≠ none)) := by
  rw [compare_eq_ok]
  constructor
  · rintro ⟨dv, du, hdv, hdu, h⟩
    refine ⟨dv, du, hdv, hdu, ?_⟩
    by_cases hne : dv = du
    · subst hne
      right
      by_cases h1 : s.occupied_now v = none <;> by_cases h2 : s.occupied_now u = none <;>
        simp [h1, h2] at h ⊢
    · left
      simpa [hne] using h.symm
  · rintro ⟨dv, du, hdv, hdu, h⟩
    refine ⟨dv, du, hdv, hdu, ?_⟩
    rcases h with h | ⟨rfl, h1, h2⟩
    · have hne : dv ≠ du := ne_of_lt h
      simp [hne, h]
    · simp [h1, h2]

theorem sort_candidates_perm {E : Env} {s : PIBT} {ai : Nat} {C C1 : List Nat}
    (h : PIBT.sort_candidates E s ai C = .ok C1) : C1.Perm C := by
  unfold PIBT.sort_candidates at h
  split_ifs at h
  · exact (Outcome.ok.inj h) ▸ List.Perm.refl _
  · obtain ⟨_, _, h⟩ := Outcome.bind_eq_ok.mp h
    exact (Outcome.ok.inj h) ▸ std_sort_perm _ _

theorem pushEscape_perm {E : Env} (hshuffle : ∀ mt l, (E.shuffle mt l).1.Perm l)
    (s : PIBT) (C : List Nat) (i j : Nat) :
    (PIBT.PushEscapeTrigger E s C i j).1.Perm C ∧
      (PIBT.PushEscapeTrigger E s C i j).2.reserved_nodes = s.reserved_nodes ∧
      (PIBT.PushEscapeTrigger E s C i j).2.agents = s.agents := by
  unfold PIBT.PushEscapeTrigger
  dsimp only
  split_ifs
  · exact ⟨hshuffle _ _, rfl, rfl⟩
  · exact ⟨List.Perm.refl _, rfl, rfl⟩

theorem filter_ne_erase (r : Nat) : ∀ l : List Nat,
    (l.erase r).filter (fun x => decide (x ≠ r)) = l.filter (fun x => decide (x ≠ r)) := by
  intro l
  induction l with
  | nil => rfl
  | cons y ys ih =>
    by_cases h : y = r
    · subst h
      simp
    · rw [List.erase_cons_tail (by simpa using h), List.filter_cons, List.filter_cons, ih]

theorem candidates_tail {E : Env} {s : PIBT} {ai : Nat} (e : List Nat × PIBT)
    (c : List Nat × Option Nat × PIBT) (C1 : List Nat)
    (pe : e.1.Perm C1 ∧ e.2.reserved_nodes = s.reserved_nodes ∧ e.2.agents = s.agents)
    (h : ((PIBT.swap_possible_and_required E e.2 ai e.1).bind fun swap_agent =>
      Outcome.ok
        (match e.2.reserved_nodes (e.2.agents ai).id with
          | some reserved =>
            if reserved ∈ (if swap_agent ≠ none then e.1.reverse else e.1) then
              reserved :: (if swap_agent ≠ none then e.1.reverse else e.1).erase reserved
            else (if swap_agent ≠ none then e.1.reverse else e.1)
          | none => (if swap_agent ≠ none then e.1.reverse else e.1),
          swap_agent, e.2)) = .ok c) :
    (if c.2.1 ≠ none then e.1.reverse else e.1).Perm C1 ∧
      c.1 = reservation_bias (s.reserved_nodes (s.agents ai).id)
        (if c.2.1 ≠ none then e.1.reverse else e.1) := by
  obtain ⟨sa, -, h⟩ := Outcome.bind_eq_ok.mp h
  have hc := Outcome.ok.inj h
  subst hc
  dsimp only
  refine ⟨?_, ?_⟩
  · split_ifs
    · exact (List.reverse_perm _).trans pe.1
    · exact pe.1
  · rw [pe.2.1, pe.2.2]
    rfl

theorem candidates_split {E : Env} {s : PIBT} {ai : Nat} {aj : Option Nat} {ii : Bool}
    {c : List Nat × Option Nat × PIBT} (hshuffle : ∀ mt l, (E.shuffle mt l).1.Perm l)
    (h : PIBT.candidates E s ai aj ii = .ok c) :
    ∃ C0, PIBT.candidates_unbiased E s ai aj ii c.2.1 = .ok C0 ∧
      C0.Perm (E.G.neighbor (s.agents ai).v_now ++ [(s.agents ai).v_now]) ∧
      c.1 = reservation_bias (s.reserved_nodes (s.agents ai).id) C0 := by
  unfold PIBT.candidates at h
  unfold PIBT.candidates_unbiased
  dsimp only at h ⊢
  obtain ⟨C1, hC1, h⟩ := Outcome.bind_eq_ok.mp h
  rw [hC1]
  simp only [Outcome.bind_ok]
  have p1 : C1.Perm (E.G.neighbor (s.agents ai).v_now ++ [(s.agents ai).v_now]) :=
    (sort_candidates_perm hC1).trans (hshuffle _ _)
  have fin : ∀ e : List Nat × PIBT,
      (e.1.Perm C1 ∧ e.2.reserved_nodes = s.reserved_nodes ∧ e.2.agents = s.agents) →
      ((PIBT.swap_possible_and_required E e.2 ai e.1).bind fun swap_agent =>
        Outcome.ok
          (match e.2.reserved_nodes (e.2.agents ai).id with
            | some reserved =>
              if reserved ∈ (if swap_agent ≠ none then e.1.reverse else e.1) then
                reserved :: (if swap_agent ≠ none then e.1.reverse else e.1).erase reserved
              else (if swap_agent ≠ none then e.1.reverse else e.1)
            | none => (if swap_agent ≠ none then e.1.reverse else e.1),
            swap_agent, e.2)) = .ok c →
      ∃ C0, Outcome.ok (if c.2.1 ≠ none then e.1.reverse else e.1) = Outcome.ok C0 ∧
        C0.Perm (E.G.neighbor (s.agents ai).v_now ++ [(s.agents ai).v_now]) ∧
        c.1 = reservation_bias (s.reserved_nodes (s.agents ai).id) C0 := by
    intro e pe he
    have t := @candidates_tail E s ai e c C1 pe he
    exact ⟨_, rfl, t.1.trans p1, t.2⟩
  cases aj with
  | none => exact fin _ ⟨List.Perm.refl _, rfl, rfl⟩ h
  | some j =>
    cases ii with
    | true => exact fin _ ⟨List.Perm.refl _, rfl, rfl⟩ h
    | false => exact fin _ (pushEscape_perm hshuffle _ _ _ _) h

/-- C20: the candidate list that the loop of `funcPIBT` iterates over is a permutation of the
neighbours of `v_now` followed by `v_now`, provided `std::shuffle` permutes its argument; and
if `reserved_nodes[i]` is set and occurs among the candidates, the list is the reserved node
followed by the list built by shuffle, sort, push-escape and reversal without the first
occurrence of that node, so that the other candidates keep their relative order; otherwise it
is that list itself. -/
theorem candidates_permutation (E : Env) (s : PIBT) (ai : Nat) (aj : Option Nat) (ii : Bool)
    (c : List Nat × Option Nat × PIBT) (hshuffle : ∀ mt l, (E.shuffle mt l).1.Perm l)
    (h : PIBT.candidates E s ai aj ii = .ok c) :
    c.1.Perm (E.G.neighbor (s.agents ai).v_now ++ [(s.agents ai).v_now]) ∧
    ∃ C0, PIBT.candidates_unbiased E s ai aj ii c.2.1 = .ok C0 ∧
      C0.Perm (E.G.neighbor (s.agents ai).v_now ++ [(s.agents ai).v_now]) ∧
      (∀ r, s.reserved_nodes (s.agents ai).id = some r →
        r ∈ E.G.neighbor (s.agents ai).v_now ++ [(s.agents ai).v_now] →
          c.1 = r :: C0.erase r ∧ c.1.head? = some r ∧
          c.1.filter (fun x => decide (x ≠ r)) = C0.filter (fun x => decide (x ≠ r))) ∧
      ((∀ r, s.reserved_nodes (s.agents ai).id = some r →
        r ∉ E.G.neighbor (s.agents ai).v_now ++ [(s.agents ai).v_now]) → c.1 = C0) := by
  obtain ⟨C0, hC0, p0, hc⟩ := candidates_split hshuffle h
  have key : ∀ r, s.reserved_nodes (s.agents ai).id = some r →
      r ∈ E.G.neighbor (s.agents ai).v_now ++ [(s.agents ai).v_now] → c.1 = r :: C0.erase r := by
    intro r hr hmem
    rw [hc, hr]
    unfold reservation_bias
    simp only
    rw [if_pos (p0.mem_iff.mpr hmem)]
  refine ⟨?_, C0, hC0, p0, ?_, ?_⟩
  · rw [hc]
    unfold reservation_bias
    cases hr : s.reserved_nodes (s.agents ai).id with
    | none => exact p0
    | some r =>
      simp only
      split_ifs with hm
      · exact (List.perm_cons_erase hm).symm.trans p0
      · exact p0
  · intro r hr hmem
    have e := key r hr hmem
    refine ⟨e, by rw [e]; rfl, ?_⟩
    rw [e, List.filter_cons]
    simp only [ne_eq, not_true_eq_false, decide_False, Bool.false_eq_true, if_false]
    exact filter_ne_erase r C0
  · intro hno
    rw [hc]
    unfold reservation_bias
    cases hr : s.reserved_nodes (s.agents ai).id with
    | none => rfl
    | some r =>
      simp only
      rw [if_neg (fun hm => hno r hr (p0.mem_iff.mp hm))]

theorem follow_candidates :
    (PIBT.after (follow_env 6) 0).bind (fun s =>
      (PIBT.candidates (follow_env 6) s 0 none true).bind fun c => Outcome.ok c.1) =
      .ok [1, 0] := by
  decide!

/-- Witness of C20 on `follow_env`: the candidates of agent `0` at the start of the run. -/
theorem candidates_permutation_witness :
    ∃ s c, PIBT.after (follow_env 6) 0 = .ok s ∧
      PIBT.candidates (follow_env 6) s 0 none true = .ok c ∧ c.1 = [1, 0] ∧
      c.1.Perm ((follow_env 6).G.neighbor (s.agents 0).v_now ++ [(s.agents 0).v_now]) := by
  obtain ⟨s, hs, hv⟩ := Outcome.bind_eq_ok.mp follow_candidates
  obtain ⟨c, hc, hv⟩ := Outcome.bind_eq_ok.mp hv
  exact ⟨s, c, hs, hc, Outcome.ok.inj hv,
    (candidates_permutation (follow_env 6) s 0 none true c (fun _ l => List.Perm.refl l) hc).1⟩

theorem check_all_true {α : Type} (body : α → Outcome Bool) :
    ∀ l : List α, check_all body l = .ok true ↔ ∀ x, x ∈ l → body x = .ok true := by
  intro l
  induction l with
  | nil => simp [check_all]
  | cons x xs ih =>
    unfold check_all
    constructor
    · intro h
      obtain ⟨b, hb, h⟩ := Outcome.bind_eq_ok.mp h
      cases b with
      | false => simp at h
      | true =>
        simp only [if_true] at h
        intro y hy
        rcases List.mem_cons.mp hy with rfl | hy
        · exact hb
        · exact ih.mp h y hy
    · intro h
      rw [h x (List.mem_cons_self _ _)]
      simp only [Outcome.bind_ok, if_true]
      exact ih.mpr fun y hy => h y (List.mem_cons_of_mem _ hy)

theorem mem_counter_range {lo hi x : Nat} : x ∈ counter_range lo hi ↔ lo ≤ x ∧ x < hi := by
  unfold counter_range
  simp only [List.mem_map, List.mem_range]
  constructor
  · rintro ⟨k, hk, rfl⟩
    omega
  · rintro ⟨h1, h2⟩
    exact ⟨x - lo, by omega, by omega⟩

theorem get_of_bounds (p : Plan) (t i : Nat) (v : Option Nat) (ht : t < p.configs.length)
    (hi : i < (p.configs.headD []).length) (hv : (p.configs.getD t [])[i]? = some v) :
    p.get t i = .ok v := by
  unfold Plan.get Plan.empty
  have hne : p.configs.isEmpty = false := by
    cases hc : p.configs with
    | nil => rw [hc] at ht; exact absurd ht (by simp)
    | cons _ _ => rfl
  rw [hne]
  simp only [Bool.false_eq_true, if_false]
  rw [if_neg (by simp only [not_not]; omega), if_neg (by simp only [not_not]; omega)]
  simp only [Int.toNat_ofNat, hv]

theorem get_ok_iff (p : Plan) (t i : Nat) (v : Option Nat) :
    p.get t i = .ok v ↔ t < p.configs.length ∧ i < (p.configs.headD []).length ∧
      (p.configs.getD t [])[i]? = some v := by
  constructor
  · intro h
    unfold Plan.get at h
    split_ifs at h with h1 h2 h3
    have ht : t < p.configs.length := by omega
    have hi : i < (p.configs.headD []).length := by omega
    refine ⟨ht, hi, ?_⟩
    simp only [Int.toNat_ofNat] at h
    cases hx : (p.configs.getD t [])[i]? with
    | none => rw [hx] at h; simp at h
    | some w => rw [hx] at h; exact congrArg some (Outcome.ok.inj h)
  · rintro ⟨ht, hi, hv⟩
    exact get_of_bounds p t i v ht hi hv

theorem validate_pair_true (p : Plan) (t : Nat) (vi vi1 : Option Nat) (j : Nat) :
    Plan.validate_pair p t vi vi1 j = .ok true ↔
      ∃ vj vj1, p.get t j = .ok vj ∧ p.get ((t : Int) - 1) j = .ok vj1 ∧ vi ≠ vj ∧
        ¬ (vi = vj1 ∧ vi1 = vj) := by
  unfold Plan.validate_pair
  constructor
  · intro h
    obtain ⟨vj, hvj, h⟩ := Outcome.bind_eq_ok.mp h
    obtain ⟨vj1, hvj1, h⟩ := Outcome.bind_eq_ok.mp h
    refine ⟨vj, vj1, hvj, hvj1, ?_⟩
    by_cases e : vi = vj
    · rw [if_pos e] at h
      cases vi <;> simp at h
    · rw [if_neg e] at h
      by_cases e2 : vi = vj1 ∧ vi1 = vj
      · rw [if_pos e2] at h
        simp at h
      · exact ⟨e, e2⟩
  · rintro ⟨vj, vj1, hvj, hvj1, e, e2⟩
    rw [hvj, hvj1]
    simp only [Outcome.bind_ok]
    rw [if_neg e, if_neg e2]

theorem validate_agent_true (G : Graph) (p : Plan) (t n i : Nat) :
    Plan.validate_agent G p t n i = .ok true ↔
      ∃ v w, p.get t i = .ok (some v) ∧ p.get ((t : Int) - 1) i = .ok (some w) ∧
        (v = w ∨ v ∈ G.neighbor w) ∧
        ∀ j, i < j → j < n → Plan.validate_pair p t (some v) (some w) j = .ok true := by
  unfold Plan.validate_agent
  constructor
  · intro h
    obtain ⟨vi, hvi, h⟩ := Outcome.bind_eq_ok.mp h
    obtain ⟨vi1, hvi1, h⟩ := Outcome.bind_eq_ok.mp h
    cases vi1 with
    | none => simp at h
    | some w =>
      dsimp only at h
      by_cases hin : inArray vi ((G.neighbor w).map some ++ [some w]) = true
      · rw [if_neg (by simpa using hin)] at h
        unfold inArray at hin
        have hmem := of_decide_eq_true hin
        have hv : ∃ v, vi = some v ∧ (v = w ∨ v ∈ G.neighbor w) := by
          rcases List.mem_append.mp hmem with hm | hm
          · obtain ⟨v, hv, rfl⟩ := List.mem_map.mp hm
            exact ⟨v, rfl, Or.inr hv⟩
          · rw [List.mem_singleton] at hm
            exact ⟨w, hm, Or.inl rfl⟩
        obtain ⟨v, rfl, hvw⟩ := hv
        refine ⟨v, w, hvi, hvi1, hvw, fun j h1 h2 => ?_⟩
        exact (check_all_true _ _).mp h j (mem_counter_range.mpr ⟨h1, h2⟩)
      · rw [if_pos (by simpa using hin)] at h
        simp at h
  · rintro ⟨v, w, hvi, hvi1, hvw, hp⟩
    rw [hvi, hvi1]
    simp only [Outcome.bind_ok]
    have hin : inArray (some v) ((G.neighbor w).map some ++ [some w]) = true := by
      unfold inArray
      apply decide_eq_true
      rcases hvw with rfl | hm
      · exact List.mem_append.mpr (Or.inr (List.mem_singleton.mpr rfl))
      · exact List.mem_append.mpr (Or.inl (List.mem_map.mpr ⟨v, hm, rfl⟩))
    rw [if_neg (by simpa using hin)]
    exact (check_all_true _ _).mpr fun j hj =>
      hp j (mem_counter_range.mp hj).1 (mem_counter_range.mp hj).2

theorem validate_step_true (G : Graph) (p : Plan) (n t : Nat) :
    Plan.validate_step G p n t = .ok true ↔
      (p.configs.getD t []).length = n ∧
        ∀ i, i < n → Plan.validate_agent G p t n i = .ok true := by
  unfold Plan.validate_step
  constructor
  · intro h
    by_cases e : (p.configs.getD t []).length = n
    · rw [if_neg (by simpa using e)] at h
      exact ⟨e, fun i hi => (check_all_true _ _).mp h i (mem_counter_range.mpr ⟨by omega, hi⟩)⟩
    · rw [if_pos e] at h
      simp at h
  · rintro ⟨e, h⟩
    rw [if_neg (by simpa using e)]
    exact (check_all_true _ _).mpr fun i hi => h i (mem_counter_range.mp hi).2

theorem validate_true (G : Graph) (p : Plan) (starts : Config) :
    Plan.validate G p starts = .ok true ↔
      p.configs ≠ [] ∧ p.configs.headD [] = starts ∧
        ∀ t, 1 ≤ t → t < p.configs.length →
          Plan.validate_step G p (p.configs.headD []).length t = .ok true := by
  unfold Plan.validate Plan.getConfig
  cases hc : p.configs with
  | nil => simp
  | cons c0 rest =>
    have hm : (Plan.getMakespan p + 1).toNat = (c0 :: rest).length := by
      unfold Plan.getMakespan Plan.size
      rw [hc]
      simp
    rw [hm]
    simp only [List.isEmpty_cons, Bool.false_eq_true, if_false, List.length_cons, Nat.cast_add,
      Nat.cast_one, le_refl, true_and, Int.toNat_zero, List.getD_cons_zero, Outcome.bind_ok,
      ne_eq, not_false_eq_true, List.headD_cons, reduceCtorEq]
    rw [if_neg (by simp only [not_not]; omega)]
    simp only [Outcome.bind_ok]
    unfold sameConfig
    by_cases e : starts = c0
    · subst e
      simp only [decide_True, not_true_eq_false, if_false, Outcome.bind_ok, true_and]
      rw [check_all_true]
      constructor
      · intro h t h1 h2
        exact h t (mem_counter_range.mpr ⟨h1, h2⟩)
      · intro h t ht
        exact h t (mem_counter_range.mp ht).1 (mem_counter_range.mp ht).2
    · have e' : ¬ c0 = starts := fun h => e h.symm
      simp [e, e']

/-- C17: `validate(starts)` returns `true` exactly when the plan is not empty, its first
configuration equals `starts`, and for every timestep `t` from `1` to the makespan the
configuration has as many agents as configuration `0`, every agent stands on a vertex that is
its vertex at `t - 1` or a neighbour of it, no two agents share a vertex at `t`, and no two
agents exchange their vertices between `t - 1` and `t`. -/
theorem validate_iff (G : Graph) (p : Plan) (starts : Config) :
    Plan.validate G p starts = .ok true ↔
      p.empty = false ∧ p.configs.head? = some starts ∧
      ∀ t : Nat, 1 ≤ t → (t : Int) ≤ p.getMakespan →
        (p.configs.getD t []).length = (p.configs.getD 0 []).length ∧
        (∀ i, i < (p.configs.getD 0 []).length → ∃ v w,
          (p.configs.getD t [])[i]? = some (some v) ∧
          (p.configs.getD (t - 1) [])[i]? = some (some w) ∧ (v = w ∨ v ∈ G.neighbor w)) ∧
        (∀ i j, i < j → j < (p.configs.getD 0 []).length →
          (p.configs.getD t [])[i]? ≠ (p.configs.getD t [])[j]?) ∧
        (∀ i j, i < j → j < (p.configs.getD 0 []).length →
          ¬ ((p.configs.getD t [])[i]? = (p.configs.getD (t - 1) [])[j]? ∧
             (p.configs.getD (t - 1) [])[i]? = (p.configs.getD t [])[j]?)) := by
  rw [validate_true]
  have hmk : ∀ t : Nat, (t : Int) ≤ p.getMakespan ↔ t < p.configs.length := by
    intro t
    unfold Plan.getMakespan Plan.size
    omega
  have h0 : p.configs.getD 0 [] = p.configs.headD [] := by
    cases p.configs <;> rfl
  have hpred : ∀ t : Nat, 1 ≤ t → ((t : Int) - 1) = ((t - 1 : Nat) : Int) := by
    intro t ht
    omega
  rw [h0]
  constructor
  · rintro ⟨hne, hhead, hsteps⟩
    refine ⟨?_, ?_, ?_⟩
    · unfold Plan.empty
      cases hc : p.configs with
      | nil => exact absurd hc hne
      | cons _ _ => rfl
    · cases hc : p.configs with
      | nil => exact absurd hc hne
      | cons c0 rest =>
        rw [hc] at hhead
        exact congrArg some hhead
    · intro t h1 h2
      have ht := (hmk t).mp h2
      obtain ⟨hsize, hag⟩ := (validate_step_true G p _ t).mp (hsteps t h1 ht)
      have agent : ∀ i, i < (p.configs.headD []).length → ∃ v w,
          (p.configs.getD t [])[i]? = some (some v) ∧
          (p.configs.getD (t - 1) [])[i]? = some (some w) ∧ (v = w ∨ v ∈ G.neighbor w) ∧
          ∀ j, i < j → j < (p.configs.headD []).length →
            (p.configs.getD t [])[j]? ≠ some (some v) ∧
            ¬ ((p.configs.getD (t - 1) [])[j]? = some (some v) ∧
              (p.configs.getD t [])[j]? = some (some w)) := by
        intro i hi
        obtain ⟨v, w, hv, hw, hvw, hp⟩ := (validate_agent_true G p t _ i).mp (hag i hi)
        rw [hpred t h1] at hw
        refine ⟨v, w, ((get_ok_iff p t i _).mp hv).2.2, ((get_ok_iff p (t - 1) i _).mp hw).2.2,
          hvw, ?_⟩
        intro j hij hj
        obtain ⟨vj, vj1, hvj, hvj1, n1, n2⟩ := (validate_pair_true p t _ _ j).mp (hp j hij hj)
        rw [hpred t h1] at hvj1
        have ej := ((get_ok_iff p t j _).mp hvj).2.2
        have ej1 := ((get_ok_iff p (t - 1) j _).mp hvj1).2.2
        rw [ej, ej1]
        refine ⟨fun h => n1 (Option.some.inj h).symm, fun h => n2 ⟨?_, ?_⟩⟩
        · exact (Option.some.inj h.1).symm
        · exact (Option.some.inj h.2).symm
      refine ⟨hsize, fun i hi => ?_, fun i j hij hj => ?_, fun i j hij hj => ?_⟩
      · obtain ⟨v, w, hv, hw, hvw, -⟩ := agent i hi
        exact ⟨v, w, hv, hw, hvw⟩
      · obtain ⟨v, w, hv, -, -, hp⟩ := agent i (by omega)
        rw [hv]
        exact fun h => (hp j hij hj).1 h.symm
      · obtain ⟨v, w, hv, hw, -, hp⟩ := agent i (by omega)
        rw [hv, hw]
        exact fun h => (hp j hij hj).2 ⟨h.1.symm, h.2.symm⟩
  · rintro ⟨hne, hhead, hsteps⟩
    have hne' : p.configs ≠ [] := by
      intro hc
      rw [hc] at hhead
      simp at hhead
    refine ⟨hne', ?_, ?_⟩
    · cases hc : p.configs with
      | nil => exact absurd hc hne'
      | cons c0 rest =>
        rw [hc] at hhead
        exact Option.some.inj hhead
    · intro t h1 ht
      obtain ⟨hsize, hmove, hvc, hsc⟩ := hsteps t h1 ((hmk t).mpr ht)
      refine (validate_step_true G p _ t).mpr ⟨hsize, fun i hi => ?_⟩
      obtain ⟨v, w, hv, hw, hvw⟩ := hmove i hi
      have ht1 : t - 1 < p.configs.length := by omega
      refine (validate_agent_true G p t _ i).mpr ⟨v, w, (get_ok_iff p t i _).mpr ⟨ht, hi, hv⟩,
        ?_, hvw, fun j hij hj => ?_⟩
      · rw [hpred t h1]
        exact (get_ok_iff p (t - 1) i _).mpr ⟨ht1, hi, hw⟩
      · obtain ⟨vj, wj, hvj, hwj, -⟩ := hmove j hj
        refine (validate_pair_true p t _ _ j).mpr ⟨some vj, some wj,
          (get_ok_iff p t j _).mpr ⟨ht, hj, hvj⟩, ?_, ?_, ?_⟩
        · rw [hpred t h1]
          exact (get_ok_iff p (t - 1) j _).mpr ⟨ht1, hj, hwj⟩
        · intro h
          exact hvc i j hij hj (by rw [hv, hvj, h])
        · intro h
          exact hsc i j hij hj ⟨by rw [hv, hwj, h.1], by rw [hw, hvj, h.2]⟩

/-- The plan of `follow_env` passes `validate` on the starts of the instance. -/
theorem validate_follow_plan :
    Plan.validate corridor3 follow_plan [some 0, some 1] = .ok true := by
  decide

theorem at_of_frame {s s' : PIBT} (hf : s.Frame s') (h : s.At) : s'.At := by
  intro x a hx
  rw [hf.occupied_now] at hx
  rw [(hf.agents a).2.1]
  exact h x a hx

theorem owned_of_reserved {n : Nat} {s s1 : PIBT} {ai u : Nat} (hO : s.Owned n)
    (hS : s.Reserved s1 ai u) (hai : ai < n) (hun : (s.agents ai).v_next = none) :
    s1.Owned n := by
  intro x hx
  by_cases e : x = u
  · exact ⟨ai, hai, by rw [e]; exact hS.target⟩
  · rw [hS.rest x e] at hx
    obtain ⟨b, hb, hv⟩ := hO x hx
    have hne : b ≠ ai := by
      intro e'
      rw [e', hun] at hv
      exact absurd hv (by simp)
    exact ⟨b, hb, by rw [hS.others b hne]; exact hv⟩

theorem owned_fail_stay {n : Nat} {s : PIBT} {ai : Nat} (hO : s.Owned n) (hai : ai < n)
    (hun : (s.agents ai).v_next = none) : (PIBT.fail_stay s ai).Owned n := by
  obtain ⟨_, _, _, _, hoth, hvn, _, hrest⟩ := fail_stay_effect s ai
  intro x hx
  by_cases e : x = (s.agents ai).v_now
  · exact ⟨ai, hai, by rw [e]; exact hvn⟩
  · rw [hrest x e] at hx
    obtain ⟨b, hb, hv⟩ := hO x hx
    have hne : b ≠ ai := by
      intro e'
      rw [e', hun] at hv
      exact absurd hv (by simp)
    exact ⟨b, hb, by rw [hoth b hne]; exact hv⟩

theorem withdraw_clears (s3 : PIBT) (ai u : Nat) :
    ((({ s3 with request_chain := s3.request_chain.dropLast } : PIBT).setOccupiedNext
      u none).set_v_next ai none).occupied_next u = none := by
  simp [PIBT.set_v_next, PIBT.setOccupiedNext, PIBT.setAgent]

theorem own_action_stay_clears (E : Env) (s : PIBT) (ai : Nat) (aj : Option Nat)
    (is_initial : Bool) (u nn : Nat) (no : Orientation) (hnn : nn = (s.agents ai).v_now)
    (hu : u ≠ (s.agents ai).v_now) :
    (PIBT.own_action E s ai aj is_initial u nn no).occupied_next u = none := by
  unfold PIBT.own_action
  rw [if_pos hnn]
  simp only [PIBT.set_v_next, PIBT.set_ott_next, PIBT.setOccupiedNext, PIBT.setReserved,
    PIBT.setAgent, Function.update_apply]
  split_ifs <;> simp_all [Function.update_apply]

theorem partner_request_target (s : PIBT) (ai sa : Nat) (hne : sa ≠ ai) :
    ((PIBT.partner_request s ai sa).agents sa).v_next = some (s.agents ai).v_now ∧
      (PIBT.partner_request s ai sa).occupied_next (s.agents ai).v_now = some sa := by
  have hne' : ¬ ai = sa := fun e => hne e.symm
  unfold PIBT.partner_request
  constructor <;>
    simp [PIBT.set_v_next, PIBT.set_swap_completed, PIBT.setOccupiedNext, PIBT.setAgent,
      Function.update_apply, hne, hne']

theorem partner_turn_clears (s : PIBT) (ai sa : Nat) (no : Orientation)
    (hv : (s.agents ai).v_now ≠ (s.agents sa).v_now) :
    (PIBT.partner_turn s ai sa no).occupied_next (s.agents ai).v_now = none := by
  unfold PIBT.partner_turn
  simp only [PIBT.set_v_next, PIBT.set_ott_next, PIBT.setOccupiedNext, PIBT.setReserved,
    PIBT.setAgent, Function.update_apply]
  split_ifs <;> simp_all [Function.update_apply]

/-- The agent's own action with the blocker rule leaves an owner to every reservation. -/
theorem own_blocker_owned {E : Env} {n : Nat} {s : PIBT} {ai : Nat} (aj : Option Nat)
    (ii : Bool) {u : Nat} {o : Orientation} {act : Nat × Orientation}
    (hO : s.Owned n) (hat : s.At) (hw : ∀ x a, s.occupied_now x = some a → a < n)
    (hai : ai < n) (hv : (s.agents ai).v_next = some u)
    (hact : Plan.computeAction E.G (s.agents ai).v_now u o = .ok act) :
    (PIBT.blocker_rule (PIBT.own_action E s ai aj ii u act.1 act.2) ai u act.1).Owned n := by
  have old : ∀ x, x ≠ u → s.occupied_next x ≠ none →
      ∃ b, b < n ∧ b ≠ ai ∧ (s.agents b).v_next = some x := by
    intro x hx h
    obtain ⟨b, hb, hvb⟩ := hO x h
    refine ⟨b, hb, ?_, hvb⟩
    intro e
    rw [e, hv] at hvb
    exact hx (Option.some.inj hvb).symm
  rcases computeAction_ok_cases hact with hst | ⟨hmv, hne, _⟩
  · -- the agent stays
    obtain ⟨t1, a1, _, c1⟩ := own_action_stay E s ai aj ii u act.1 act.2 hst
    have d1 := own_action_stay_clears E s ai aj ii u act.1 act.2 hst
    rcases blocker_rule_effect (PIBT.own_action E s ai aj ii u act.1 act.2) ai u act.1 with
      ⟨_, hnn, _⟩ | ⟨_, e⟩
    · rw [touch_v_now t1] at hnn
      exact absurd hst hnn
    · rw [e]
      intro x hx
      by_cases e1 : x = (s.agents ai).v_now
      · exact ⟨ai, hai, by rw [a1, e1]⟩
      · by_cases e2 : x = u
        · rw [e2] at hx e1
          exact absurd (d1 e1) hx
        · rw [c1 x e1 e2] at hx
          obtain ⟨b, hb, hbne, hvb⟩ := old x e2 hx
          exact ⟨b, hb, by rw [t1.others b hbne]; exact hvb⟩
  · -- the agent moves to `u`
    have h1 : act.1 = u := by rw [hmv]
    have hnn : act.1 ≠ (s.agents ai).v_now := by rw [h1]; exact hne
    obtain ⟨t1, a1, _, c1, d1⟩ := own_action_move E s ai aj ii u act.1 act.2 hnn
    have hO1 : (PIBT.own_action E s ai aj ii u act.1 act.2).Owned n := by
      intro x hx
      by_cases e2 : x = u
      · exact ⟨ai, hai, by rw [a1, h1, e2]⟩
      · rw [d1 x (by rw [h1]; exact e2)] at hx
        obtain ⟨b, hb, hbne, hvb⟩ := old x e2 hx
        exact ⟨b, hb, by rw [t1.others b hbne]; exact hvb⟩
    rcases blocker_rule_effect (PIBT.own_action E s ai aj ii u act.1 act.2) ai u act.1 with
      ⟨⟨al, hal, hstay⟩, _, t2, a2, _, c2⟩ | ⟨_, e⟩
    · generalize PIBT.own_action E s ai aj ii u act.1 act.2 = s1 at *
      generalize PIBT.blocker_rule s1 ai u act.1 = s2 at *
      have hal0 : s.occupied_now u = some al := by
        rw [← t1.frame.occupied_now]; exact hal
      have haln : al < n := hw u al hal0
      have hvnow : (s.agents al).v_now = u := hat u al hal0
      -- after the blocker rule the occupant of `u` stays on `u`
      have hal2 : (s2.agents al).v_next = some u := by
        by_cases e : al = ai
        · rw [e, a2, touch_v_now t1, ← e, hvnow]
        · rw [t2.others al e, hstay, touch_v_now t1, hvnow]
      intro x hx
      by_cases e1 : x = (s.agents ai).v_now
      · exact ⟨ai, hai, by rw [a2, touch_v_now t1, e1]⟩
      · by_cases e2 : x = u
        · exact ⟨al, haln, by rw [e2]; exact hal2⟩
        · rw [c2 x (by rw [touch_v_now t1]; exact e1), d1 x (by rw [h1]; exact e2)] at hx
          obtain ⟨b, hb, hbne, hvb⟩ := old x e2 hx
          exact ⟨b, hb, by rw [t2.others b hbne, t1.others b hbne]; exact hvb⟩
    · rw [e]
      exact hO1

/-- The block for the swap partner leaves an owner to every reservation; it writes the
record of an agent that had no next location. -/
theorem swap_partner_owned {E : Env} {n : Nat} {s s3 : PIBT} {ai : Nat}
    {swap_agent : Option Nat} {m : Int} (hO : s.Owned n) (hain : ai < n)
    (hai : (s.agents ai).v_next ≠ none) (hsw : ∀ sa, swap_agent = some sa → sa < n)
    (h : PIBT.swap_partner_action E s ai swap_agent m = .ok s3) :
    s3.Owned n ∧ s3.cycle_handled = s.cycle_handled ∧
      s3.request_chain = s.request_chain ∧ s3.initial_requester = s.initial_requester ∧
      (∀ x, (s.agents x).v_next ≠ none → s3.agents x = s.agents x) ∧
      (∀ x, (s3.agents x).v_next = none → (s.agents x).v_next = none) := by
  unfold PIBT.swap_partner_action at h
  cases hsw' : swap_agent with
  | none =>
    rw [hsw'] at h
    simp only [Outcome.ok.injEq] at h
    rw [← h]
    exact ⟨hO, rfl, rfl, rfl, fun _ _ => rfl, fun _ hx => hx⟩
  | some sa =>
    rw [hsw'] at h
    simp only at h
    split_ifs at h with hc
    · obtain ⟨_, hsan, _⟩ := hc
      have hsalt : sa < n := hsw sa hsw'
      have hne : sa ≠ ai := by
        intro e; subst e; exact hai hsan
      have old : ∀ x, s.occupied_next x ≠ none →
          ∃ b, b < n ∧ b ≠ sa ∧ (s.agents b).v_next = some x := by
        intro x hx
        obtain ⟨b, hb, hvb⟩ := hO x hx
        refine ⟨b, hb, ?_, hvb⟩
        intro e
        rw [e, hsan] at hvb
        exact absurd hvb (by simp)
      obtain ⟨t0, _, r0⟩ := partner_request_effect s ai sa hne
      obtain ⟨v0, w0⟩ := partner_request_target s ai sa hne
      generalize PIBT.partner_request s ai sa = s0 at h t0 r0 v0 w0
      have hvs : (s0.agents sa).v_now = (s.agents sa).v_now := touch_v_now t0 sa
      have hva : (s0.agents ai).v_now = (s.agents ai).v_now := touch_v_now t0 ai
      have hos : (s0.agents sa).ott_now = (s.agents sa).ott_now := (t0.frame.agents sa).2.2.2.1
      rw [hvs, hva, hos] at h
      obtain ⟨o, ho, h1⟩ := Outcome.bind_eq_ok.mp h
      obtain ⟨act, hact, h2⟩ := Outcome.bind_eq_ok.mp h1
      clear h h1
      have fin : ∀ s', s.Touch s' sa → s'.Owned n → (s'.agents sa).v_next ≠ none →
          s'.Owned n ∧ s'.cycle_handled = s.cycle_handled ∧
          s'.request_chain = s.request_chain ∧ s'.initial_requester = s.initial_requester ∧
          (∀ x, (s.agents x).v_next ≠ none → s'.agents x = s.agents x) ∧
          (∀ x, (s'.agents x).v_next = none → (s.agents x).v_next = none) := by
        intro s' ht hO' hv'
        refine ⟨hO', ht.handled, ht.chain, ht.requester, fun x hx => ?_, fun x hx => ?_⟩
        · apply ht.others
          intro e
          rw [e] at hx
          exact hx hsan
        · by_cases e : x = sa
          · rw [e]; exact hsan
          · rw [← ht.others x e]; exact hx
      by_cases hst : act.1 = (s.agents sa).v_now
      · rw [if_pos hst] at h2
        obtain ⟨t1, a1, _, c1⟩ := partner_turn_effect s0 ai sa act.2 hne
        have d1 := partner_turn_clears s0 ai sa act.2
        generalize PIBT.partner_turn s0 ai sa act.2 = s1 at h2 t1 a1 c1 d1
        have hvs1 : (s1.agents sa).v_now = (s.agents sa).v_now := by
          rw [touch_v_now t1 sa, hvs]
        rw [hvs1] at h2
        simp only [ne_eq, hst, not_true, if_false, ite_self, Outcome.ok.injEq] at h2
        subst h2
        refine fin s1 (touch_trans t0 t1) ?_ (by rw [a1]; simp)
        intro x hx
        by_cases e1 : x = (s.agents sa).v_now
        · exact ⟨sa, hsalt, by rw [a1, hvs, e1]⟩
        · by_cases e2 : x = (s.agents ai).v_now
          · rw [e2] at hx e1
            have := d1 (by rw [hva, hvs]; exact e1)
            rw [hva] at this
            exact absurd this hx
          · rw [c1 x (by rw [hvs]; exact e1) (by rw [hva]; exact e2), r0 x e2] at hx
            obtain ⟨b, hb, hbne, hvb⟩ := old x hx
            exact ⟨b, hb, by rw [t1.others b hbne, t0.others b hbne]; exact hvb⟩
      · rw [if_neg hst] at h2
        have hact1 : act.1 = (s.agents ai).v_now := by
          rcases computeAction_ok_cases hact with h | ⟨h, _, _⟩
          · exact absurd h hst
          · rw [h]
        obtain ⟨t1, a1, _, c1, d1⟩ := partner_forward_effect s0 sa act.1 act.2
        generalize PIBT.partner_forward s0 sa act.1 act.2 = s1 at h2 t1 a1 c1 d1
        have hvs1 : (s1.agents sa).v_now = (s.agents sa).v_now := by
          rw [touch_v_now t1 sa, hvs]
        have hai1 : s1.agents ai = s.agents ai := by
          rw [t1.others ai (fun e => hne e.symm), t0.others ai (fun e => hne e.symm)]
        have hO1 : s1.Owned n := by
          intro x hx
          by_cases e2 : x = (s.agents ai).v_now
          · exact ⟨sa, hsalt, by rw [a1, hact1, e2]⟩
          · rw [d1 x (by rw [hact1]; exact e2), r0 x e2] at hx
            obtain ⟨b, hb, hbne, hvb⟩ := old x hx
            exact ⟨b, hb, by rw [t1.others b hbne, t0.others b hbne]; exact hvb⟩
        rw [hai1, hvs1] at h2
        simp only [ne_eq, hst, not_false_eq_true, if_true] at h2
        by_cases hstay : (s.agents ai).v_next = some (s.agents ai).v_now
        · rw [if_pos hstay] at h2
          simp only [Outcome.ok.injEq] at h2
          obtain ⟨t2, a2, _, c2⟩ := partner_hold_effect s1 ai sa
          rw [h2] at t2 a2 c2
          refine fin s3 (touch_trans (touch_trans t0 t1) t2) ?_ (by rw [a2]; simp)
          intro x hx
          by_cases e1 : x = (s.agents sa).v_now
          · exact ⟨sa, hsalt, by rw [a2, hvs1, e1]⟩
          · rw [c2 x (by rw [hvs1]; exact e1)] at hx
            obtain ⟨b, hb, hvb⟩ := hO1 x hx
            by_cases e : b = sa
            · rw [e, a1, hact1] at hvb
              refine ⟨ai, hain, ?_⟩
              rw [t2.others ai (fun e => hne e.symm), hai1, hstay]
              exact hvb
            · exact ⟨b, hb, by rw [t2.others b e]; exact hvb⟩
        · rw [if_neg hstay] at h2
          simp only [Outcome.ok.injEq] at h2
          subst h2
          exact fin s1 (touch_trans t0 t1) hO1 (by rw [a1]; simp)
    · simp only [Outcome.ok.injEq] at h
      rw [← h]
      exact ⟨hO, rfl, rfl, rfl, fun _ _ => rfl, fun _ hx => hx⟩

theorem decide_action_owned {E : Env} {n : Nat} {s : PIBT} {ai u : Nat} {aj : Option Nat}
    {ii : Bool} {swap_agent : Option Nat} {m : Int} {r : Bool × PIBT}
    (hO : s.Owned n) (hat : s.At) (hw : s.Weak E.G n) (hai : ai < n)
    (hv : (s.agents ai).v_next = some u) (hsw : ∀ sa, swap_agent = some sa → sa < n)
    (h : PIBT.decide_action E s ai aj ii swap_agent u m = .ok r) :
    r.1 = true ∧ r.2.Owned n ∧ (r.2.agents ai).v_next ≠ none ∧
      r.2.cycle_handled = s.cycle_handled ∧
      (∀ x, (s.agents x).v_next ≠ none → x ≠ ai → r.2.agents x = s.agents x) ∧
      (∀ x, (r.2.agents x).v_next = none → (s.agents x).v_next = none) := by
  unfold PIBT.decide_action at h
  split_ifs at h with hch
  · simp only [Outcome.ok.injEq] at h
    rw [← h]
    exact ⟨rfl, hO, by rw [hv]; simp, rfl, fun _ _ _ => rfl, fun _ hx => hx⟩
  · obtain ⟨o, ho, h1⟩ := Outcome.bind_eq_ok.mp h
    obtain ⟨act, hact, h2⟩ := Outcome.bind_eq_ok.mp h1
    obtain ⟨s3, hs3, h3⟩ := Outcome.bind_eq_ok.mp h2
    simp only [Outcome.ok.injEq] at h3
    rw [← h3]
    obtain ⟨ht, _, hp⟩ := own_blocker_weak aj ii (safe_value_ok ho) hact
    have hO1 := own_blocker_owned aj ii hO hat hw.occ_lt hai hv hact
    generalize PIBT.blocker_rule (PIBT.own_action E s ai aj ii u act.1 act.2) ai u act.1 = s1
      at hs3 ht hp hO1
    obtain ⟨g1, g2, _, _, g5, g6⟩ := swap_partner_owned hO1 hai hp hsw hs3
    refine ⟨rfl, g1, ?_, g2.trans ht.handled, fun x hx hne => ?_, fun x hx => ?_⟩
    · show (s3.agents ai).v_next ≠ none
      rw [g5 ai hp]; exact hp
    · show s3.agents x = s.agents x
      rw [g5 x (by rw [ht.others x hne]; exact hx), ht.others x hne]
    · have := g6 x hx
      by_cases e : x = ai
      · rw [e] at this; exact absurd this hp
      · rw [← ht.others x e]; exact this

/-- The loop of the cycle handler that adjusts the headings makes every listed agent stay,
writes no other record, and reserves only the vertices of the listed agents. -/
theorem chain_adjust_stays {E : Env} :
    ∀ (l : List (Request × Bool)) (s s' : PIBT),
      (∀ p, p ∈ l → (s.agents p.1.agent).ott_now ≠ none) →
      PIBT.chain_adjust E l s = .ok s' →
      (∀ a, (∃ p, p ∈ l ∧ p.1.agent = a) →
        (s'.agents a).v_next = some (s.agents a).v_now) ∧
      (∀ a, (∀ p, p ∈ l → p.1.agent ≠ a) → s'.agents a = s.agents a) ∧
      (∀ x, s'.occupied_next x ≠ none →
        s.occupied_next x ≠ none ∨ ∃ p, p ∈ l ∧ (s.agents p.1.agent).v_now = x) := by
  intro l
  induction l with
  | nil =>
    intro s s' _ h
    simp only [PIBT.chain_adjust, Outcome.ok.injEq] at h
    rw [← h]
    refine ⟨fun a ⟨p, hp, _⟩ => absurd hp (List.not_mem_nil p), fun _ _ => rfl,
      fun x hx => Or.inl hx⟩
  | cons p rest ih =>
    intro s s' hl h
    obtain ⟨r, c⟩ := p
    obtain ⟨s1, h1, ht, hvn, _, hocc⟩ := chain_adjust_step (hl (r, c) (by simp)) h
    have hl1 : ∀ p, p ∈ rest → (s1.agents p.1.agent).ott_now ≠ none := by
      intro p hp
      rw [(ht.frame.agents p.1.agent).2.2.2.1]
      exact hl p (List.mem_cons_of_mem _ hp)
    obtain ⟨g1, g2, g3⟩ := ih s1 s' hl1 h1
    refine ⟨fun a ha => ?_, fun a ha => ?_, fun x hx => ?_⟩
    · by_cases hin : ∃ p, p ∈ rest ∧ p.1.agent = a
      · rw [g1 a hin, touch_v_now ht]
      · have hnot : ∀ p, p ∈ rest → p.1.agent ≠ a := fun p hp e => hin ⟨p, hp, e⟩
        obtain ⟨p, hp, hpa⟩ := ha
        rcases List.mem_cons.mp hp with e | e
        · rw [e] at hpa
          simp only at hpa
          rw [g2 a hnot, ← hpa, hvn]
        · exact absurd hpa (hnot p e)
    · have hne : a ≠ r.agent := fun e => ha (r, c) (by simp) e.symm
      rw [g2 a (fun p hp => ha p (List.mem_cons_of_mem _ hp)), ht.others a hne]
    · rcases g3 x hx with h' | ⟨p, hp, hpx⟩
      · by_cases e : x = (s.agents r.agent).v_now
        · exact Or.inr ⟨(r, c), by simp, e.symm⟩
        · rw [hocc x e] at h'
          exact Or.inl h'
      · rw [touch_v_now ht] at hpx
        exact Or.inr ⟨p, List.mem_cons_of_mem _ hp, hpx⟩

/-- The loop of the cycle handler that moves the agents forward keeps the next location of
every agent, when every listed agent has the requested node as next location, and reserves
only requested nodes. -/
theorem chain_advance_keeps :
    ∀ (l : List Request) (s : PIBT),
      (∀ r, r ∈ l → (s.agents r.agent).v_next = some r.requested_node) →
      (∀ a, ((PIBT.chain_advance l s).agents a).v_next = (s.agents a).v_next) ∧
      (∀ x, (PIBT.chain_advance l s).occupied_next x ≠ none →
        s.occupied_next x ≠ none ∨ ∃ r, r ∈ l ∧ r.requested_node = x) := by
  intro l
  induction l with
  | nil =>
    intro s _
    exact ⟨fun _ => rfl, fun x hx => Or.inl hx⟩
  | cons r rest ih =>
    intro s hl
    unfold PIBT.chain_advance
    have hr := hl r (by simp)
    have hT : (∀ a, ((((s.set_v_next r.agent (some r.requested_node)).set_ott_next r.agent
        ((s.set_v_next r.agent (some r.requested_node)).agents r.agent).ott_now).setOccupiedNext
        r.requested_node (some r.agent)).agents a).v_next = (s.agents a).v_next) ∧
      (∀ x, x ≠ r.requested_node →
        (((s.set_v_next r.agent (some r.requested_node)).set_ott_next r.agent
        ((s.set_v_next r.agent (some r.requested_node)).agents r.agent).ott_now).setOccupiedNext
        r.requested_node (some r.agent)).occupied_next x = s.occupied_next x) := by
      refine ⟨fun a => ?_, fun x hx => ?_⟩
      · simp only [PIBT.set_v_next, PIBT.set_ott_next, PIBT.setOccupiedNext, PIBT.setAgent,
          Function.update_apply]
        split_ifs with e <;> simp_all
      · simp [PIBT.set_v_next, PIBT.set_ott_next, PIBT.setOccupiedNext, PIBT.setAgent,
          Function.update_apply, hx]
    obtain ⟨hv, hon⟩ := hT
    dsimp only
    generalize (((s.set_v_next r.agent (some r.requested_node)).set_ott_next r.agent
        ((s.set_v_next r.agent (some r.requested_node)).agents r.agent).ott_now).setOccupiedNext
        r.requested_node (some r.agent)) = s1 at hv hon ⊢
    have hl1 : ∀ r', r' ∈ rest → (s1.agents r'.agent).v_next = some r'.requested_node := by
      intro r' hr'
      rw [hv]
      exact hl r' (List.mem_cons_of_mem _ hr')
    obtain ⟨g1, g2⟩ := ih s1 hl1
    refine ⟨fun a => by rw [g1, hv], fun x hx => ?_⟩
    rcases g2 x hx with h' | ⟨r', hr', e⟩
    · by_cases e : x = r.requested_node
      · exact Or.inr ⟨r, by simp, e.symm⟩
      · rw [hon x e] at h'
        exact Or.inl h'
    · exact Or.inr ⟨r', List.mem_cons_of_mem _ hr', e⟩

/-- The cycle handler leaves an owner to every reservation and a next location to every
agent that had one, when every agent of the chain has its requested node as next location and
every requested node is the vertex of an agent of the chain. -/
theorem handleCycle_owned {E : Env} {n : Nat} {s s' : PIBT} (hw : s.Weak E.G n)
    (hO : s.Owned n)
    (htar : ∀ r, r ∈ s.request_chain → (s.agents r.agent).v_next = some r.requested_node)
    (hcl : ∀ r, r ∈ s.request_chain →
      ∃ r', r' ∈ s.request_chain ∧ (s.agents r'.agent).v_now = r.requested_node)
    (h : PIBT.handleCycleWithOrientation E s = .ok s') :
    s'.Owned n ∧ ∀ x, (s.agents x).v_next ≠ none → (s'.agents x).v_next ≠ none := by
  unfold PIBT.handleCycleWithOrientation at h
  split_ifs at h with hemp
  · simp only [Outcome.ok.injEq] at h
    rw [← h]
    exact ⟨hO, fun _ hx => hx⟩
  · obtain ⟨bs, hbs, h1⟩ := Outcome.bind_eq_ok.mp h
    dsimp only at h1
    split_ifs at h1 with hall
    · simp only [Outcome.ok.injEq] at h1
      rw [← h1]
      obtain ⟨g1, g2⟩ := chain_advance_keeps s.request_chain s htar
      refine ⟨fun x hx => ?_, fun x hx => by rw [g1]; exact hx⟩
      rcases g2 x hx with h' | ⟨r, hr, e⟩
      · obtain ⟨b, hb, hvb⟩ := hO x h'
        exact ⟨b, hb, by rw [g1]; exact hvb⟩
      · exact ⟨r.agent, hw.chain_lt r hr, by rw [g1, htar r hr, e]⟩
    · have hott : ∀ p, p ∈ s.request_chain.zip bs → (s.agents p.1.agent).ott_now ≠ none :=
        fun p hp => hw.ott_now _ (hw.chain_lt _ (List.of_mem_zip hp).1)
      obtain ⟨g1, g2, g3⟩ := chain_adjust_stays _ s s' hott h1
      have hlen := chain_orientations_length _ _ hbs
      have inzip : ∀ r, r ∈ s.request_chain →
          ∃ p, p ∈ s.request_chain.zip bs ∧ p.1.agent = r.agent := by
        intro r hr
        obtain ⟨c, hc⟩ := mem_zip_of_length _ _ hlen r hr
        exact ⟨(r, c), hc, rfl⟩
      have stays : ∀ r, r ∈ s.request_chain →
          (s'.agents r.agent).v_next = some (s.agents r.agent).v_now :=
        fun r hr => g1 r.agent (inzip r hr)
      refine ⟨fun x hx => ?_, fun x hx => ?_⟩
      · rcases g3 x hx with h' | ⟨p, hp, e⟩
        · obtain ⟨b, hb, hvb⟩ := hO x h'
          by_cases hin : ∃ r, r ∈ s.request_chain ∧ r.agent = b
          · obtain ⟨r, hr, hrb⟩ := hin
            have := htar r hr
            rw [hrb, hvb] at this
            obtain ⟨r', hr', e'⟩ := hcl r hr
            refine ⟨r'.agent, hw.chain_lt r' hr', ?_⟩
            rw [stays r' hr', e', ← Option.some.inj this]
          · refine ⟨b, hb, ?_⟩
            rw [g2 b (fun p hp e => hin ⟨p.1, (List.of_mem_zip hp).1, e⟩)]
            exact hvb
        · have hp1 := (List.of_mem_zip hp).1
          exact ⟨p.1.agent, hw.chain_lt _ hp1, by rw [stays _ hp1, e]⟩
      · by_cases hin : ∃ r, r ∈ s.request_chain ∧ r.agent = x
        · obtain ⟨r, hr, hrx⟩ := hin
          rw [← hrx, stays r hr]
          simp
        · rw [g2 x (fun p hp e => hin ⟨p.1, (List.of_mem_zip hp).1, e⟩)]
          exact hx

theorem returned_fail_stay {G : Graph} {n : Nat} {s : PIBT} {ai : Nat} {ii : Bool}
    (hL : s.Linked G n ai ii) : s.Returned n ai (false, PIBT.fail_stay s ai) := by
  obtain ⟨_, hch, hrq, hrc, hoth, hvn, _, _⟩ := fail_stay_effect s ai
  have hne : ∀ x, (s.agents x).v_next ≠ none → x ≠ ai := by
    intro x hx e
    rw [e] at hx
    exact hx hL.unplanned
  refine ⟨owned_fail_stay hL.owned hL.ai_lt hL.unplanned, ?_, fun x hx => ?_,
    fun _ x hx => hoth x (hne x hx), fun _ => ⟨hch.trans hL.not_handled, hrc, hrq⟩⟩
  · show ((PIBT.fail_stay s ai).agents ai).v_next ≠ none
    rw [hvn]; simp
  · show ((PIBT.fail_stay s ai).agents x).v_next ≠ none
    rw [hoth x (hne x hx)]; exact hx

/-- The state of the nested call: the agent `ai` has reserved `u`, whose occupant `ak` has no
next location, and has pushed its request. -/
theorem linked_child {G : Graph} {n : Nat} {s s2 : PIBT} {ai u ak : Nat} {ii : Bool}
    (hL : s.Linked G n ai ii) (hS : s.Reserved s2 ai u)
    (hc2 : s2.request_chain = s.request_chain ++ [⟨ai, u⟩]) (hw2 : s2.Weak G n)
    (hak : s.occupied_now u = some ak) (hakn : (s2.agents ak).v_next = none) :
    s2.Linked G n ak false := by
  have hvnow : ∀ x, (s2.agents x).v_now = (s.agents x).v_now := fun x => (hS.frame.agents x).2.1
  have hne : ∀ x, (s.agents x).v_next ≠ none → x ≠ ai := by
    intro x hx e
    rw [e] at hx
    exact hx hL.unplanned
  have hmem : ∀ r, r ∈ s2.request_chain → r ∈ s.request_chain ∨ r = ⟨ai, u⟩ := by
    intro r hr
    rw [hc2] at hr
    rcases List.mem_append.mp hr with h | h
    · left; exact h
    · right; simpa using h
  have hin : ∀ r, r ∈ s.request_chain → r ∈ s2.request_chain := by
    intro r hr
    rw [hc2]
    exact List.mem_append_left _ hr
  have hlast : (⟨ai, u⟩ : Request) ∈ s2.request_chain := by
    rw [hc2]
    exact List.mem_append_right _ (List.mem_singleton.mpr rfl)
  refine ⟨hw2, at_of_frame hS.frame hL.at_now,
    owned_of_reserved hL.owned hS hL.ai_lt hL.unplanned, hL.weak.occ_lt u ak hak, hakn,
    hS.handled.trans hL.not_handled, ?_, ?_, ?_, ?_⟩
  · intro r hr
    rcases hmem r hr with h | h
    · have := hL.targets r h
      rw [hS.others r.agent (hne _ (by rw [this]; simp))]
      exact this
    · rw [h]; exact hS.target
  · intro r hr
    rcases hmem r hr with h | h
    · rcases hL.closed r h with e | ⟨r', hr', e⟩
      · exact Or.inr ⟨⟨ai, u⟩, hlast, by rw [hvnow]; exact e.symm⟩
      · exact Or.inr ⟨r', hin r' hr', by rw [hvnow]; exact e⟩
    · left
      rw [h, hvnow]
      exact (hL.at_now u ak hak).symm
  · intro _
    cases hii : ii with
    | true => exact ⟨⟨ai, u⟩, hlast, by rw [hS.requester]; exact hL.top hii⟩
    | false =>
      obtain ⟨r0, hr0, e⟩ := hL.rooted hii
      exact ⟨r0, hin r0 hr0, by rw [hS.requester]; exact e⟩
  · intro h
    exact absurd h (by simp)

/-- The call that detects a cycle: the handler leaves an owner to every reservation. -/
theorem returned_cycle {E : Env} {n : Nat} {s s2 s' : PIBT} {ai u : Nat} {ii : Bool}
    (hL : s.Linked E.G n ai ii) (hS : s.Reserved s2 ai u)
    (hc2 : s2.request_chain = s.request_chain ++ [⟨ai, u⟩]) (hw2 : s2.Weak E.G n)
    (hcyc : PIBT.cycle_test s2 ii u = .ok true)
    (h : PIBT.handleCycleWithOrientation E s2 = .ok s') :
    s.Returned n ai (true, { s' with cycle_handled := true }) := by
  obtain ⟨hii, rq, hrq, hu⟩ := cycle_test_true hcyc
  have hvnow : ∀ x, (s2.agents x).v_now = (s.agents x).v_now := fun x => (hS.frame.agents x).2.1
  have hne : ∀ x, (s.agents x).v_next ≠ none → x ≠ ai := by
    intro x hx e
    rw [e] at hx
    exact hx hL.unplanned
  have hmem : ∀ r, r ∈ s2.request_chain → r ∈ s.request_chain ∨ r = ⟨ai, u⟩ := by
    intro r hr
    rw [hc2] at hr
    rcases List.mem_append.mp hr with h | h
    · left; exact h
    · right; simpa using h
  have hin : ∀ r, r ∈ s.request_chain → r ∈ s2.request_chain := by
    intro r hr
    rw [hc2]
    exact List.mem_append_left _ hr
  have hlast : (⟨ai, u⟩ : Request) ∈ s2.request_chain := by
    rw [hc2]
    exact List.mem_append_right _ (List.mem_singleton.mpr rfl)
  have htar : ∀ r, r ∈ s2.request_chain →
      (s2.agents r.agent).v_next = some r.requested_node := by
    intro r hr
    rcases hmem r hr with h | h
    · have := hL.targets r h
      rw [hS.others r.agent (hne _ (by rw [this]; simp))]
      exact this
    · rw [h]; exact hS.target
  have hcl : ∀ r, r ∈ s2.request_chain →
      ∃ r', r' ∈ s2.request_chain ∧ (s2.agents r'.agent).v_now = r.requested_node := by
    intro r hr
    rcases hmem r hr with h | h
    · rcases hL.closed r h with e | ⟨r', hr', e⟩
      · exact ⟨⟨ai, u⟩, hlast, by rw [hvnow]; exact e.symm⟩
      · exact ⟨r', hin r' hr', by rw [hvnow]; exact e⟩
    · obtain ⟨r0, hr0, e⟩ := hL.rooted hii
      rw [hS.requester, e] at hrq
      have e0 : r0.agent = rq := Option.some.inj hrq
      refine ⟨r0, hin r0 hr0, ?_⟩
      rw [h, e0]
      exact hu.symm
  obtain ⟨gO, gG⟩ := handleCycle_owned hw2
    (owned_of_reserved hL.owned hS hL.ai_lt hL.unplanned) htar hcl h
  refine ⟨gO, ?_, fun x hx => ?_, fun hh => absurd hh (by simp), fun hh => absurd hh (by simp)⟩
  · exact gG ai (by rw [hS.target]; simp)
  · exact gG x (by rw [hS.others x (hne x hx)]; exact hx)

/-- The agent determines its action for a candidate it has reserved, without a nested call. -/
theorem returned_direct {E : Env} {n : Nat} {s s1 : PIBT} {ai u : Nat} {aj : Option Nat}
    {ii : Bool} {swap_agent : Option Nat} {m : Int} {r : Bool × PIBT}
    (hL : s.Linked E.G n ai ii) (hS : s.Reserved s1 ai u) (hw1 : s1.Weak E.G n)
    (hsw : ∀ sa, swap_agent = some sa → sa < n)
    (h : PIBT.decide_action E s1 ai aj ii swap_agent u m = .ok r) :
    s.Returned n ai r := by
  have hne : ∀ x, (s.agents x).v_next ≠ none → x ≠ ai := by
    intro x hx e
    rw [e] at hx
    exact hx hL.unplanned
  obtain ⟨g1, g2, g3, _, g5, _⟩ := decide_action_owned
    (owned_of_reserved hL.owned hS hL.ai_lt hL.unplanned) (at_of_frame hS.frame hL.at_now)
    hw1 hL.ai_lt hS.target hsw h
  have same : ∀ x, (s.agents x).v_next ≠ none → r.2.agents x = s.agents x := by
    intro x hx
    rw [g5 x (by rw [hS.others x (hne x hx)]; exact hx) (hne x hx), hS.others x (hne x hx)]
  refine ⟨g2, g3, fun x hx => by rw [same x hx]; exact hx, fun _ => same,
    fun hh => ?_⟩
  rw [g1] at hh
  exact absurd hh (by simp)

/-- The agent determines its action after the nested call for the occupant of its candidate
has succeeded. -/
theorem returned_after_child {E : Env} {n : Nat} {s s2 : PIBT} {ai u ak : Nat}
    {aj : Option Nat} {ii : Bool} {swap_agent : Option Nat} {m : Int} {r1 r : Bool × PIBT}
    (hL : s.Linked E.G n ai ii) (hS : s.Reserved s2 ai u)
    (hP : PIBT.WPost E.G n s2 r1) (hR : s2.Returned n ak r1)
    (hsw : ∀ sa, swap_agent = some sa → sa < n)
    (h : PIBT.decide_action E r1.2 ai aj ii swap_agent u m = .ok r) :
    s.Returned n ai r := by
  have hne : ∀ x, (s.agents x).v_next ≠ none → x ≠ ai := by
    intro x hx e
    rw [e] at hx
    exact hx hL.unplanned
  have hp2 : ∀ x, (s.agents x).v_next ≠ none → (s2.agents x).v_next ≠ none := by
    intro x hx
    rw [hS.others x (hne x hx)]; exact hx
  have hai2 : (s2.agents ai).v_next ≠ none := by rw [hS.target]; simp
  by_cases hch : r1.2.cycle_handled = true
  · unfold PIBT.decide_action at h
    rw [if_pos hch] at h
    simp only [Outcome.ok.injEq] at h
    rw [← h]
    refine ⟨hR.owned, hR.grows ai hai2, fun x hx => hR.grows x (hp2 x hx), fun hh => ?_,
      fun hh => absurd hh (by simp)⟩
    rw [hch] at hh
    exact absurd hh (by simp)
  · have hch' : r1.2.cycle_handled = false := by simpa using hch
    have hkeep := hR.kept hch'
    have hv : (r1.2.agents ai).v_next = some u := by
      rw [hkeep ai hai2]; exact hS.target
    obtain ⟨g1, g2, g3, _, g5, _⟩ := decide_action_owned hR.owned
      (at_of_frame hP.1.frame (at_of_frame hS.frame hL.at_now)) hP.2.1 hL.ai_lt hv hsw h
    have same : ∀ x, (s.agents x).v_next ≠ none → r.2.agents x = s.agents x := by
      intro x hx
      have e1 : r1.2.agents x = s2.agents x := hkeep x (hp2 x hx)
      have e2 : s2.agents x = s.agents x := hS.others x (hne x hx)
      rw [g5 x (by rw [e1, e2]; exact hx) (hne x hx), e1, e2]
    refine ⟨g2, g3, fun x hx => by rw [same x hx]; exact hx, fun _ => same, fun hh => ?_⟩
    rw [g1] at hh
    exact absurd hh (by simp)

/-- The state in which the agent goes on with its next candidate after the nested call for
the occupant of `u` has failed and the reservation of `u` was withdrawn. -/
theorem linked_backtrack {E : Env} {n : Nat} {s s2 s4 : PIBT} {ai u ak : Nat} {ii : Bool}
    {r1 : Bool × PIBT}
    (hL : s.Linked E.G n ai ii) (hS : s.Reserved s2 ai u)
    (hc2 : s2.request_chain = s.request_chain ++ [⟨ai, u⟩])
    (hP : PIBT.WPost E.G n s2 r1) (hR : s2.Returned n ak r1) (hr : r1.1 = false)
    (hs4 : s4 = (({ r1.2 with request_chain := r1.2.request_chain.dropLast } :
      PIBT).setOccupiedNext u none).set_v_next ai none) :
    s4.Linked E.G n ai ii ∧ s4.request_chain = s.request_chain ∧
      s4.initial_requester = s.initial_requester ∧
      ∀ x, (s.agents x).v_next ≠ none → s4.agents x = s.agents x := by
  have hne : ∀ x, (s.agents x).v_next ≠ none → x ≠ ai := by
    intro x hx e
    rw [e] at hx
    exact hx hL.unplanned
  have hidle := idle_of_unplanned (hL.weak.legal ai) hL.unplanned
  obtain ⟨hnh, hchain, hreq⟩ := hR.failed hr
  have hkeep := hR.kept hnh
  have hai2 : (s2.agents ai).v_next ≠ none := by rw [hS.target]; simp
  have hair : r1.2.agents ai = s2.agents ai := hkeep ai hai2
  obtain ⟨hfr, hh, hrq, hrc, hoth, hvn, hon, hrest⟩ := withdraw_effect r1.2 ai u
  have hclr := withdraw_clears r1.2 ai u
  rw [← hs4] at hfr hh hrq hrc hoth hvn hon hrest hclr
  have hst4 : r1.2.Step E.G s4 := by
    refine ⟨hfr, fun a => ?_⟩
    by_cases e : a = ai
    · right
      rw [e]
      apply legal_idle
      rw [hon, hair, hS.heading]; exact hidle
    · exact Or.inl (hoth a e)
  have hc4 : s4.request_chain = s.request_chain := by
    rw [hrc, hchain, hc2, List.dropLast_concat]
  have hw4 : s4.Weak E.G n := by
    apply weak_of_step hP.2.1 hst4
    intro x hx
    rw [hc4] at hx
    exact hL.weak.chain_lt x hx
  have hf4 : s.Frame s4 := frame_trans (frame_trans hS.frame hP.1.frame) hfr
  have hvnow : ∀ x, (s4.agents x).v_now = (s.agents x).v_now := fun x => (hf4.agents x).2.1
  have hsame : ∀ x, (s.agents x).v_next ≠ none → s4.agents x = s.agents x := by
    intro x hx
    have hxne := hne x hx
    rw [hoth x hxne, hkeep x (by rw [hS.others x hxne]; exact hx), hS.others x hxne]
  have hrq4 : s4.initial_requester = s.initial_requester := by
    rw [hrq, hreq, hS.requester]
  refine ⟨⟨hw4, at_of_frame hf4 hL.at_now, ?_, hL.ai_lt, hvn, hh.trans hnh, ?_, ?_, ?_, ?_⟩,
    hc4, hrq4, hsame⟩
  · intro x hx
    by_cases e : x = u
    · rw [e] at hx
      exact absurd hclr hx
    · rw [hrest x e] at hx
      obtain ⟨b, hb, hvb⟩ := hR.owned x hx
      have hbne : b ≠ ai := by
        intro e'
        rw [e', hair, hS.target] at hvb
        exact e (Option.some.inj hvb).symm
      exact ⟨b, hb, by rw [hoth b hbne]; exact hvb⟩
  · intro r hr'
    rw [hc4] at hr'
    have := hL.targets r hr'
    rw [hsame r.agent (by rw [this]; simp)]
    exact this
  · intro r hr'
    rw [hc4] at hr'
    rcases hL.closed r hr' with e | ⟨r', h', e⟩
    · left; rw [hvnow]; exact e
    · right
      exact ⟨r', by rw [hc4]; exact h', by rw [hvnow]; exact e⟩
  · intro hii
    obtain ⟨r0, hr0, e⟩ := hL.rooted hii
    exact ⟨r0, by rw [hc4]; exact hr0, by rw [hrq4]; exact e⟩
  · intro hii
    rw [hrq4]
    exact hL.top hii

theorem returned_of_backtrack {n : Nat} {s s4 : PIBT} {ai : Nat} {r : Bool × PIBT}
    (hc4 : s4.request_chain = s.request_chain)
    (hrq4 : s4.initial_requester = s.initial_requester)
    (hsame : ∀ x, (s.agents x).v_next ≠ none → s4.agents x = s.agents x)
    (hR : s4.Returned n ai r) : s.Returned n ai r := by
  have hp : ∀ x, (s.agents x).v_next ≠ none → (s4.agents x).v_next ≠ none := by
    intro x hx
    rw [hsame x hx]; exact hx
  refine ⟨hR.owned, hR.planned, fun x hx => hR.grows x (hp x hx), fun hh x hx => ?_,
    fun hh => ?_⟩
  · rw [hR.kept hh x (hp x hx), hsame x hx]
  · obtain ⟨g1, g2, g3⟩ := hR.failed hh
    exact ⟨g1, g2.trans hc4, g3.trans hrq4⟩

/-- The candidate loop of `funcPIBT` leaves an owner to every reservation and a next location
to the agent, and keeps the agents that have a next location. -/
theorem candidate_loop_linked {E : Env} {n : Nat}
    {call : PIBT → Nat → Option Nat → Bool → Outcome (Bool × PIBT)}
    {ai : Nat} {aj : Option Nat} {ii : Bool} {swap_agent : Option Nat}
    (hcall : ∀ s ak j r, s.Linked E.G n ak false → call s ak (some j) false = .ok r →
      PIBT.WPost E.G n s r ∧ s.Returned n ak r)
    (hsw : ∀ sa, swap_agent = some sa → sa < n) :
    ∀ (C : List Nat) (m : Int) (s : PIBT) (r : Bool × PIBT),
      s.Linked E.G n ai ii →
      PIBT.candidate_loop E call ai aj ii swap_agent C m s = .ok r →
      s.Returned n ai r := by
  intro C
  induction C with
  | nil =>
    intro m s r hL h
    unfold PIBT.candidate_loop at h
    simp only [Outcome.ok.injEq] at h
    rw [← h]
    exact returned_fail_stay hL
  | cons u C ih =>
    intro m s r hL h
    unfold PIBT.candidate_loop at h
    split_ifs at h with h1 h2
    · exact ih _ _ _ hL h
    · exact ih _ _ _ hL h
    · have hw := hL.weak
      have hun := hL.unplanned
      have hai := hL.ai_lt
      have hidle := idle_of_unplanned (hw.legal ai) hun
      have hS1 : s.Reserved ((s.setOccupiedNext u (some ai)).set_v_next ai (some u)) ai u :=
        reserve_reserved s ai u s.request_chain
      have hc1 : ((s.setOccupiedNext u (some ai)).set_v_next ai (some u)).request_chain =
          s.request_chain := rfl
      dsimp only at h
      generalize (s.setOccupiedNext u (some ai)).set_v_next ai (some u) = s1 at h hS1 hc1
      have hS2 := reserved_push hS1 (s1.request_chain ++ [⟨ai, u⟩])
      have hc2 : ({ s1 with request_chain := s1.request_chain ++ [⟨ai, u⟩] } :
          PIBT).request_chain = s.request_chain ++ [⟨ai, u⟩] := by
        show s1.request_chain ++ [⟨ai, u⟩] = s.request_chain ++ [⟨ai, u⟩]
        rw [hc1]
      have hon1 : s1.occupied_now = s.occupied_now := hS1.frame.occupied_now
      have hst1 : s.Step E.G s1 := step_of_reserved hS1 hidle
      have hw1 : s1.Weak E.G n := weak_of_step hw hst1 (by rw [hc1]; exact hw.chain_lt)
      have hst2 := @step_of_reserved E.G _ _ _ _ hS2 hidle
      have hw2 : PIBT.Weak E.G n
          ({ s1 with request_chain := s1.request_chain ++ [⟨ai, u⟩] } : PIBT) := by
        apply weak_of_step hw hst2
        intro x hx
        rcases List.mem_append.mp hx with hx | hx
        · rw [hc1] at hx; exact hw.chain_lt x hx
        · simp only [List.mem_singleton] at hx
          rw [hx]; exact hai
      obtain ⟨cycle, hcyc, h⟩ := Outcome.bind_eq_ok.mp h
      cases cycle with
      | true =>
        simp only [if_true] at h
        split_ifs at h with ho
        obtain ⟨s', hs', h⟩ := Outcome.bind_eq_ok.mp h
        simp only [Outcome.ok.injEq] at h
        rw [← h]
        have hcyc2 : PIBT.cycle_test
            ({ s1 with request_chain := s1.request_chain ++ [⟨ai, u⟩] } : PIBT) ii u =
            .ok true := hcyc
        exact returned_cycle hL hS2 hc2 hw2 hcyc2 hs'
      | false =>
        simp only [Bool.false_eq_true, if_false] at h
        cases hak1 : s1.occupied_now u with
        | none =>
          rw [hak1] at h
          exact returned_direct hL hS1 hw1 hsw h
        | some ak =>
          rw [hak1] at h
          have hak : s.occupied_now u = some ak := by rw [← hon1]; exact hak1
          simp only at h
          split_ifs at h with hakn
          · obtain ⟨r1, hr1, h⟩ := Outcome.bind_eq_ok.mp h
            have hL2 := linked_child hL hS2 hc2 hw2 hak hakn
            obtain ⟨hP, hR⟩ := hcall _ _ _ _ hL2 hr1
            generalize ({ s1 with request_chain := s1.request_chain ++ [⟨ai, u⟩] } : PIBT) = s2
              at hS2 hc2 hw2 hr1 hL2 hP hR
            split_ifs at h with hr
            · exact returned_after_child hL hS2 hP hR hsw h
            · have hr' : r1.1 = false := by simpa using hr
              obtain ⟨hL4, hc4, hrq4, hsame⟩ := linked_backtrack hL hS2 hc2 hP hR hr' rfl
              exact returned_of_backtrack hc4 hrq4 hsame (ih _ _ _ hL4 h)
          · exact returned_direct hL hS1 hw1 hsw h

theorem linked_congr {G : Graph} {n : Nat} {s s' : PIBT} {ai : Nat} {ii : Bool}
    (ha : s'.agents = s.agents) (h1 : s'.occupied_now = s.occupied_now)
    (h2 : s'.occupied_next = s.occupied_next) (h3 : s'.request_chain = s.request_chain)
    (h4 : s'.cycle_handled = s.cycle_handled)
    (h5 : s'.initial_requester = s.initial_requester) (hL : s.Linked G n ai ii) :
    s'.Linked G n ai ii := by
  refine ⟨weak_congr ha h1 (by rw [h3]; exact hL.weak.chain_lt) hL.weak, ?_, ?_, hL.ai_lt,
    by rw [ha]; exact hL.unplanned, h4.trans hL.not_handled, ?_, ?_, ?_, ?_⟩
  · intro x a hx
    rw [h1] at hx
    rw [ha]
    exact hL.at_now x a hx
  · intro x hx
    rw [h2] at hx
    rw [ha]
    exact hL.owned x hx
  · rw [h3, ha]; exact hL.targets
  · rw [h3, ha]; exact hL.closed
  · rw [h3, h5]; exact hL.rooted
  · rw [h5]; exact hL.top

theorem returned_congr {n : Nat} {s s' : PIBT} {ai : Nat} {r : Bool × PIBT}
    (ha : s'.agents = s.agents) (h3 : s'.request_chain = s.request_chain)
    (h5 : s'.initial_requester = s.initial_requester) (hR : s'.Returned n ai r) :
    s.Returned n ai r := by
  refine ⟨hR.owned, hR.planned, ?_, ?_, ?_⟩
  · rw [← ha]; exact hR.grows
  · rw [← ha]; exact hR.kept
  · rw [← h3, ← h5]; exact hR.failed

/-- A nested call of `funcPIBT` leaves an owner to every reservation. -/
theorem funcPIBT_linked (E : Env) (n : Nat) :
    ∀ (depth : Nat) (s : PIBT) (ak : Nat) (aj : Option Nat) (r : Bool × PIBT),
      s.Linked E.G n ak false → PIBT.funcPIBT E depth s ak aj false = .ok r →
      PIBT.WPost E.G n s r ∧ s.Returned n ak r := by
  intro depth
  induction depth with
  | zero =>
    intro s ak aj r _ h
    unfold PIBT.funcPIBT at h
    exact absurd h (by simp)
  | succ d ih =>
    intro s ak aj r hL h
    refine ⟨funcPIBT_weak E n _ s ak aj false r hL.weak hL.ai_lt hL.unplanned h, ?_⟩
    unfold PIBT.funcPIBT at h
    simp only [Bool.false_eq_true, if_false] at h
    obtain ⟨c, hc, h⟩ := Outcome.bind_eq_ok.mp h
    obtain ⟨⟨mt, pc, e⟩, hsa⟩ := candidates_effect hc
    have hsw : ∀ sa, c.2.1 = some sa → sa < n := by
      intro sa hs
      obtain ⟨x, hx⟩ := hsa sa hs
      exact hL.weak.occ_lt x sa hx
    have hL0 : c.2.2.Linked E.G n ak false := by
      rw [e]
      exact @linked_congr E.G n s _ ak false rfl rfl rfl rfl rfl rfl hL
    have hR := candidate_loop_linked
      (fun s ak j r hL h => ih s ak (some j) r hL h) hsw c.1 0 c.2.2 r hL0 h
    have hag : c.2.2.agents = s.agents := by rw [e]
    have hch : c.2.2.request_chain = s.request_chain := by rw [e]
    have hrq : c.2.2.initial_requester = s.initial_requester := by rw [e]
    exact returned_congr hag hch hrq hR

/-- A call of `funcPIBT` by `run` leaves an owner to every reservation and a next location to
the agent, and keeps the agents that have a next location. -/
theorem funcPIBT_top_linked (E : Env) (n : Nat) (depth : Nat) (s : PIBT) (ai : Nat)
    (r : Bool × PIBT) (hw : s.Weak E.G n) (hat : s.At) (hO : s.Owned n) (hai : ai < n)
    (hun : (s.agents ai).v_next = none)
    (h : PIBT.funcPIBT E depth s ai none true = .ok r) :
    PIBT.WPost E.G n s r ∧ r.2.Owned n ∧ (r.2.agents ai).v_next ≠ none ∧
      ∀ x, (s.agents x).v_next ≠ none → (r.2.agents x).v_next ≠ none := by
  refine ⟨funcPIBT_weak E n _ s ai none true r hw hai hun h, ?_⟩
  cases depth with
  | zero =>
    unfold PIBT.funcPIBT at h
    exact absurd h (by simp)
  | succ d =>
    unfold PIBT.funcPIBT at h
    simp only [if_true] at h
    obtain ⟨c, hc, h⟩ := Outcome.bind_eq_ok.mp h
    obtain ⟨⟨mt, pc, e⟩, hsa⟩ := candidates_effect hc
    have hsw : ∀ sa, c.2.1 = some sa → sa < n := by
      intro sa hs
      obtain ⟨x, hx⟩ := hsa sa hs
      exact hw.occ_lt x sa hx
    have hL0 : c.2.2.Linked E.G n ai true := by
      rw [e]
      refine ⟨@weak_congr E.G n s _ rfl rfl (fun r hr => absurd hr (List.not_mem_nil r)) hw,
        hat, hO, hai, hun, rfl, fun r hr => absurd hr (List.not_mem_nil r),
        fun r hr => absurd hr (List.not_mem_nil r), fun hh => absurd hh (by simp),
        fun _ => rfl⟩
    have hR := candidate_loop_linked
      (fun s ak j r hL h => funcPIBT_linked E n d s ak (some j) r hL h) hsw c.1 0 c.2.2 r hL0 h
    have hag : c.2.2.agents = s.agents := by rw [e]
    refine ⟨hR.owned, hR.planned, ?_⟩
    rw [← hag]
    exact hR.grows

/-- The planning loop of `run` leaves an owner to every reservation and gives a next location
to every agent it visits. -/
theorem plan_agents_linked {E : Env} {n : Nat} :
    ∀ (l : List Nat) (s s' : PIBT), s.Weak E.G n → s.At → s.Owned n → (∀ a, a ∈ l → a < n) →
      PIBT.plan_agents E l s = .ok s' →
      s'.Owned n ∧ (∀ x, (s.agents x).v_next ≠ none → (s'.agents x).v_next ≠ none) ∧
        ∀ a, a ∈ l → (s'.agents a).v_next ≠ none := by
  intro l
  induction l with
  | nil =>
    intro s s' _ _ hO _ h
    unfold PIBT.plan_agents at h
    simp only [Outcome.ok.injEq] at h
    rw [← h]
    exact ⟨hO, fun _ hx => hx, fun a ha => absurd ha (List.not_mem_nil a)⟩
  | cons x rest ih =>
    intro s s' hw hat hO hl h
    unfold PIBT.plan_agents at h
    have hx : x < n := hl x (List.mem_cons_self x rest)
    have hrest : ∀ a, a ∈ rest → a < n := fun a ha => hl a (List.mem_cons_of_mem x ha)
    split_ifs at h with hun
    · obtain ⟨r, hr, h⟩ := Outcome.bind_eq_ok.mp h
      obtain ⟨⟨g1, g2, _⟩, g3, g4, g5⟩ := funcPIBT_top_linked E n _ s x r hw hat hO hx hun hr
      obtain ⟨k1, k2, k3⟩ := ih r.2 s' g2 (at_of_frame g1.frame hat) g3 hrest h
      refine ⟨k1, fun y hy => k2 y (g5 y hy), fun a ha => ?_⟩
      rcases List.mem_cons.mp ha with e | e
      · rw [e]; exact k2 x g4
      · exact k3 a e
    · obtain ⟨k1, k2, k3⟩ := ih s s' hw hat hO hrest h
      refine ⟨k1, k2, fun a ha => ?_⟩
      rcases List.mem_cons.mp ha with e | e
      · rw [e]; exact k2 x hun
      · exact k3 a e

/-- One iteration of the commit loop clears the reservation of the next location of the agent
and no other entry of `occupied_next`. -/
theorem commit_agent_clears {s : PIBT} {c : Commit} {a : Nat} {r : PIBT × Commit}
    (h : PIBT.commit_agent s c a = .ok r) :
    ∃ w, (s.agents a).v_next = some w ∧ r.1.occupied_next w = none ∧
      ∀ x, x ≠ w → r.1.occupied_next x = s.occupied_next x := by
  unfold PIBT.commit_agent at h
  have hpre : ∀ s1 : PIBT,
      s1 = (if s.occupied_now (s.agents a).v_now = some a
        then s.setOccupiedNow (s.agents a).v_now none else s) →
      s1.agents = s.agents ∧ s1.occupied_next = s.occupied_next := by
    intro s1 e
    rw [e]
    split_ifs <;> exact ⟨rfl, rfl⟩
  obtain ⟨e1, e2⟩ := hpre _ rfl
  dsimp only at h
  generalize (if s.occupied_now (s.agents a).v_now = some a
        then s.setOccupiedNow (s.agents a).v_now none else s) = s1 at h e1 e2
  rw [← e1, ← e2]
  cases hv : (s1.agents a).v_next with
  | none => rw [hv] at h; simp at h
  | some w =>
    rw [hv] at h
    dsimp only at h
    have hag2 : (s1.setOccupiedNext w none).agents = s1.agents := rfl
    rw [hag2] at h
    cases ho : (s1.agents a).ott_next with
    | none => rw [ho] at h; simp [SAFE_VALUE] at h
    | some o =>
      rw [ho] at h
      simp only [SAFE_VALUE, Outcome.bind_ok, Outcome.ok.injEq] at h
      rw [← h]
      refine ⟨w, rfl, ?_, fun x hx => ?_⟩ <;>
        simp [PIBT.set_v_next, PIBT.set_ott_next, PIBT.set_ott_now, PIBT.setAgent,
          PIBT.setOccupiedNow, PIBT.setOccupiedNext, Function.update_apply]
      intro e
      exact absurd e hx

/-- The commit loop keeps the owners of the reservations among the agents it has not yet
visited, and keeps the entries of `occupied_now` on the vertices of their agents. -/
theorem commit_agents_tables {n : Nat} :
    ∀ (l : List Nat) (s : PIBT) (c : Commit) (r : PIBT × Commit),
      s.Owned n → s.At → PIBT.commit_agents l s c = .ok r → r.1.Owned n ∧ r.1.At := by
  intro l
  induction l with
  | nil =>
    intro s c r hO hat h
    unfold PIBT.commit_agents at h
    simp only [Outcome.ok.injEq] at h
    rw [← h]
    exact ⟨hO, hat⟩
  | cons a rest ih =>
    intro s c r hO hat h
    unfold PIBT.commit_agents at h
    obtain ⟨r1, hr1, h⟩ := Outcome.bind_eq_ok.mp h
    obtain ⟨w, hw, hclr, hrest⟩ := commit_agent_clears hr1
    obtain ⟨w', o, h1, _, h3, h4, h5, h6, _⟩ := commit_agent_effect hr1
    have ew : w' = w := by
      rw [hw] at h1
      exact (Option.some.inj h1).symm
    subst ew
    apply ih r1.1 r1.2 r _ _ h
    · intro x hx
      by_cases e : x = w'
      · rw [e] at hx
        exact absurd hclr hx
      · rw [hrest x e] at hx
        obtain ⟨b, hb, hvb⟩ := hO x hx
        have hne : b ≠ a := by
          intro e'
          rw [e', hw] at hvb
          exact e (Option.some.inj hvb).symm
        exact ⟨b, hb, by rw [h4 b hne]; exact hvb⟩
    · intro x b hx
      by_cases e : x = w'
      · rw [e, h5] at hx
        have eb : a = b := Option.some.inj hx
        rw [← eb, h3, e]
        rfl
      · rw [h6 x e] at hx
        split_ifs at hx with hc
        have hb := hat x b hx
        have hne : b ≠ a := by
          intro e'
          rw [e'] at hx hb
          exact hc ⟨hb.symm, hx⟩
        rw [h4 b hne]
        exact hb

/-- One timestep of `run` empties `occupied_next` and keeps the entries of `occupied_now` on
the vertices of their agents. -/
theorem timestep_tables {E : Env} {s : PIBT} {r : PIBT × Bool}
    (hR : s.Rest E.G E.num) (hat : s.At) (hempty : ∀ x, s.occupied_next x = none)
    (h : PIBT.timestep E s = .ok r) :
    r.1.At ∧ ∀ x, r.1.occupied_next x = none := by
  have hRest := (timestep_post hR h).1
  unfold PIBT.timestep at h
  dsimp only at h
  obtain ⟨s1, hs1, h⟩ := Outcome.bind_eq_ok.mp h
  obtain ⟨q, hq, h⟩ := Outcome.bind_eq_ok.mp h
  obtain ⟨p, hp, h⟩ := Outcome.bind_eq_ok.mp h
  simp only [Outcome.ok.injEq] at h
  have hperm : (std_sort (fun a b => PIBT.run_compare (s.agents a) (s.agents b)) s.A).Perm
      (List.range E.num) := (std_sort_perm _ _).trans hR.order
  have hmem : ∀ a, a ∈ std_sort (fun a b => PIBT.run_compare (s.agents a) (s.agents b)) s.A →
      a < E.num := by
    intro a ha
    rw [hperm.mem_iff, List.mem_range] at ha
    exact ha
  generalize std_sort (fun a b => PIBT.run_compare (s.agents a) (s.agents b)) s.A = sA
    at hs1 hmem
  have hws : PIBT.Weak E.G E.num ({ s with A := sA } : PIBT) :=
    @weak_congr E.G E.num s _ rfl rfl hR.weak.chain_lt hR.weak
  have hO0 : PIBT.Owned E.num ({ s with A := sA } : PIBT) := by
    intro x hx
    exact absurd (hempty x) hx
  obtain ⟨hst, _⟩ := plan_agents_weak sA _ s1 hws hmem hs1
  obtain ⟨hO1, _, _⟩ := plan_agents_linked sA _ s1 hws hat hO0 hmem hs1
  have hat1 : s1.At := at_of_frame hst.frame hat
  obtain ⟨hO2, hat2⟩ := commit_agents_tables s1.A s1 _ q hO1 hat1 hq
  have e1 : r.1.agents = q.1.agents := by rw [← h]
  have e2 : r.1.occupied_now = q.1.occupied_now := by rw [← h]
  have e3 : r.1.occupied_next = q.1.occupied_next := by rw [← h]
  refine ⟨?_, fun x => ?_⟩
  · intro x a hx
    rw [e2] at hx
    rw [e1]
    exact hat2 x a hx
  · by_contra hx
    rw [e3] at hx
    obtain ⟨b, hb, hvb⟩ := hO2 x hx
    rw [← e1, (hRest.idle b hb).1] at hvb
    exact absurd hvb (by simp)

theorem init_fold_tables (E : Env) :
    ∀ (l : List Nat) (s : PIBT),
      (l.foldl (PIBT.init_agent E) s).occupied_next = s.occupied_next := by
  intro l
  induction l with
  | nil => intro s; rfl
  | cons i rest ih =>
    intro s
    rw [List.foldl_cons, ih]
    rfl

/-- Between the timesteps of `run` every entry of `occupied_now` names an agent on that
vertex and `occupied_next` is empty. -/
theorem after_tables (E : Env) :
    ∀ (t : Nat) (s : PIBT), PIBT.after E t = .ok s →
      s.At ∧ ∀ x, s.occupied_next x = none := by
  intro t
  induction t with
  | zero =>
    intro s h
    obtain ⟨s0, hs0, hc, _⟩ := run_init_post E
    have e : s0 = s := by
      unfold PIBT.after at h
      rw [hs0] at h
      exact Outcome.ok.inj h
    subst e
    refine ⟨fun x a hx => ?_, fun x => ?_⟩
    · obtain ⟨ha, hst⟩ := hc.occ_lt x a hx
      rw [← hst]
      exact hc.v_now a ha
    · unfold PIBT.run_init at hs0
      dsimp only at hs0
      obtain ⟨p, _, hs0⟩ := Outcome.bind_eq_ok.mp hs0
      simp only [Outcome.ok.injEq] at hs0
      rw [← hs0]
      show ((List.range E.num).foldl (PIBT.init_agent E) (PIBT.create E)).occupied_next x = none
      rw [init_fold_tables]
      rfl
  | succ t ih =>
    intro s' h
    obtain ⟨s, b, hs, hr⟩ := after_succ h
    obtain ⟨g1, g2⟩ := ih s hs
    exact timestep_tables (after_sound E t s hs).rest g1 g2 hr

theorem follow_after :
    (PIBT.after (follow_env 6) 2).bind (fun s => Outcome.ok ((s.agents 1).v_now,
      s.occupied_now 0)) = .ok (2, none) := by
  decide!

/-- C12: at the end of every timestep of `run` (and after the initialisation) every entry of
`occupied_next` is empty, and `v_next` and `ott_next` of every agent are unset. -/
theorem occupied_next_cleared (E : Env) (t : Nat) (s : PIBT) (h : PIBT.after E t = .ok s) :
    (∀ x, s.occupied_next x = none) ∧
      ∀ a, a < E.num → (s.agents a).v_next = none ∧ (s.agents a).ott_next = none :=
  ⟨(after_tables E t s h).2, (after_sound E t s h).rest.idle⟩

/-- Witness of C12 on `follow_env`, after the second timestep. -/
theorem occupied_next_cleared_witness :
    ∃ s, PIBT.after (follow_env 6) 2 = .ok s ∧ (∀ x, s.occupied_next x = none) ∧
      ∀ a, a < (follow_env 6).num → (s.agents a).v_next = none ∧ (s.agents a).ott_next = none := by
  obtain ⟨s, hs, _⟩ := Outcome.bind_eq_ok.mp follow_after
  exact ⟨s, hs, occupied_next_cleared (follow_env 6) 2 s hs⟩

/-- On a vertex without neighbours the candidate list is the vertex itself, and there is no
swap partner. -/
theorem candidates_isolated {E : Env} (hshuffle : ∀ mt l, (E.shuffle mt l).1.Perm l)
    (s : PIBT) (ai : Nat) (aj : Option Nat) (ii : Bool)
    (hn : E.G.neighbor (s.agents ai).v_now = []) :
    ∃ mt, PIBT.candidates E s ai aj ii =
      .ok ([(s.agents ai).v_now], none, { s with MT := mt }) := by
  refine ⟨(E.shuffle s.MT [(s.agents ai).v_now]).2, ?_⟩
  have hp : (E.shuffle s.MT [(s.agents ai).v_now]).1 = [(s.agents ai).v_now] :=
    List.perm_singleton.mp (hshuffle _ _)
  unfold PIBT.candidates
  rw [hn]
  simp only [List.nil_append]
  rw [hp]
  have hsort : ∀ s' : PIBT, PIBT.sort_candidates E s' ai [(s.agents ai).v_now] =
      .ok [(s.agents ai).v_now] := by
    intro s'
    unfold PIBT.sort_candidates
    simp
  rw [hsort]
  simp only [Outcome.bind_ok]
  have hpush : ∀ (s' : PIBT) (i j : Nat),
      PIBT.PushEscapeTrigger E s' [(s.agents ai).v_now] i j = ([(s.agents ai).v_now], s') := by
    intro s' i j
    unfold PIBT.PushEscapeTrigger
    simp
  have hswap : ∀ s' : PIBT, s'.agents = s.agents →
      PIBT.swap_possible_and_required E s' ai [(s.agents ai).v_now] = .ok none := by
    intro s' ha
    unfold PIBT.swap_possible_and_required
    simp [ha]
  have e1 : ∀ x : Nat, x ∈ [(s.agents ai).v_now] →
      x :: [(s.agents ai).v_now].erase x = [(s.agents ai).v_now] := by
    intro x hx
    rw [List.mem_singleton] at hx
    subst hx
    simp
  cases aj with
  | none =>
    simp only
    rw [hswap { s with MT := (E.shuffle s.MT [(s.agents ai).v_now]).2 } rfl]
    simp only [Outcome.bind_ok, ne_eq, not_true_eq_false, if_false]
    cases s.reserved_nodes (s.agents ai).id with
    | none => rfl
    | some x =>
      simp only
      split_ifs with hx
      · rw [e1 x hx]
      · rfl
  | some j =>
    cases ii with
    | true =>
      simp only [not_true_eq_false, if_false]
      rw [hswap { s with MT := (E.shuffle s.MT [(s.agents ai).v_now]).2 } rfl]
      simp only [Outcome.bind_ok, ne_eq, not_true_eq_false, if_false]
      cases s.reserved_nodes (s.agents ai).id with
      | none => rfl
      | some x =>
        simp only
        split_ifs with hx
        · rw [e1 x hx]
        · rfl
    | false =>
      simp only [Bool.false_eq_true, not_false_eq_true, if_true]
      rw [hpush]
      simp only
      rw [hswap { s with MT := (E.shuffle s.MT [(s.agents ai).v_now]).2 } rfl]
      simp only [Outcome.bind_ok, ne_eq, not_true_eq_false, if_false]
      cases s.reserved_nodes (s.agents ai).id with
      | none => rfl
      | some x =>
        simp only
        split_ifs with hx
        · rw [e1 x hx]
        · rfl

/-- On its own vertex as candidate the agent keeps its vertex and its heading. -/
theorem decide_action_own_vertex {E : Env} {s1 : PIBT} {ai : Nat} (aj : Option Nat) (ii : Bool)
    (m : Int) {o : Orientation} (hch : s1.cycle_handled = false)
    (ho : (s1.agents ai).ott_now = some o) :
    PIBT.decide_action E s1 ai aj ii none (s1.agents ai).v_now m =
      .ok (true, PIBT.own_action E s1 ai aj ii (s1.agents ai).v_now (s1.agents ai).v_now o) := by
  unfold PIBT.decide_action
  rw [if_neg (by rw [hch]; simp), ho]
  simp only [SAFE_VALUE, Outcome.bind_ok]
  have hact : Plan.computeAction E.G (s1.agents ai).v_now (s1.agents ai).v_now o =
      .ok ((s1.agents ai).v_now, o) := by
    unfold Plan.computeAction
    simp
  rw [hact]
  simp only [Outcome.bind_ok]
  obtain ⟨t1, _, _, _⟩ := own_action_stay E s1 ai aj ii (s1.agents ai).v_now
    (s1.agents ai).v_now o rfl
  rcases blocker_rule_effect
    (PIBT.own_action E s1 ai aj ii (s1.agents ai).v_now (s1.agents ai).v_now o) ai
    (s1.agents ai).v_now (s1.agents ai).v_now with ⟨_, hnn, _⟩ | ⟨_, e⟩
  · rw [touch_v_now t1] at hnn
    exact absurd rfl hnn
  · rw [e]
    rfl

/-- A nested call for an agent on a vertex without neighbours that is already reserved fails
at once: the agent stays. -/
theorem funcPIBT_isolated_nested {E : Env} (hshuffle : ∀ mt l, (E.shuffle mt l).1.Perm l)
    (d : Nat) (s : PIBT) (ak j : Nat) (hn : E.G.neighbor (s.agents ak).v_now = [])
    (hocc : s.occupied_next (s.agents ak).v_now ≠ none) :
    ∃ mt, PIBT.funcPIBT E (d + 1) s ak (some j) false =
      .ok (false, PIBT.fail_stay { s with MT := mt } ak) := by
  obtain ⟨mt, hc⟩ := candidates_isolated hshuffle s ak (some j) false hn
  refine ⟨mt, ?_⟩
  unfold PIBT.funcPIBT
  simp only [Bool.false_eq_true, if_false]
  rw [hc]
  simp only [Outcome.bind_ok]
  unfold PIBT.candidate_loop
  rw [if_pos hocc]
  unfold PIBT.candidate_loop
  rfl

/-- The candidate loop of a call by `run` for an agent on a vertex without neighbours: the
loop returns, the agent stays with its heading, and so does the occupant of the vertex if it
is another agent without a next location; no other record is written. -/
theorem candidate_loop_isolated {E : Env} {n : Nat}
    (hshuffle : ∀ mt l, (E.shuffle mt l).1.Perm l) (d : Nat) (s : PIBT) (ai u : Nat)
    (hw : s.Weak E.G n) (hat : s.At) (hu : u = (s.agents ai).v_now)
    (hn : E.G.neighbor u = []) (hai : ai < n) (hun : (s.agents ai).v_next = none)
    (hch : s.cycle_handled = false) :
    ∃ r, PIBT.candidate_loop E (PIBT.funcPIBT E (d + 1)) ai none true none [u] 0 s = .ok r ∧
      (∀ x, r.2.agents x = s.agents x ∨ ((s.agents x).v_next = none ∧
        (r.2.agents x).v_next = some (s.agents x).v_now ∧
        (r.2.agents x).ott_next = (s.agents x).ott_now)) ∧
      (r.2.agents ai).v_next ≠ none := by
  have fail : ∀ s' : PIBT, (∀ x, x ≠ ai → s'.agents x = s.agents x ∨
      ((s.agents x).v_next = none ∧ (s'.agents x).v_next = some (s.agents x).v_now ∧
        (s'.agents x).ott_next = (s.agents x).ott_now)) →
      (s'.agents ai).v_now = (s.agents ai).v_now →
      (s'.agents ai).ott_now = (s.agents ai).ott_now →
      (∀ x, (PIBT.fail_stay s' ai).agents x = s.agents x ∨ ((s.agents x).v_next = none ∧
        ((PIBT.fail_stay s' ai).agents x).v_next = some (s.agents x).v_now ∧
        ((PIBT.fail_stay s' ai).agents x).ott_next = (s.agents x).ott_now)) ∧
      ((PIBT.fail_stay s' ai).agents ai).v_next ≠ none := by
    intro s' hoth' hv' ho'
    obtain ⟨_, _, _, _, hoth, hvn, hon, _⟩ := fail_stay_effect s' ai
    refine ⟨fun x => ?_, by rw [hvn]; simp⟩
    by_cases e : x = ai
    · right
      rw [e]
      exact ⟨hun, by rw [hvn, hv'], by rw [hon, ho']⟩
    · rw [hoth x e]
      exact hoth' x e
  by_cases h1 : s.occupied_next u = none
  · unfold PIBT.candidate_loop
    rw [if_neg (by rw [h1]; simp)]
    simp only [Bool.false_eq_true, if_false]
    have hS1 : s.Reserved ((s.setOccupiedNext u (some ai)).set_v_next ai (some u)) ai u :=
      reserve_reserved s ai u s.request_chain
    generalize (s.setOccupiedNext u (some ai)).set_v_next ai (some u) = s1 at hS1 ⊢
    have hcyc : PIBT.cycle_test s1 true u = .ok false := by
      unfold PIBT.cycle_test
      simp
    rw [hcyc]
    simp only [Outcome.bind_ok, Bool.false_eq_true, if_false]
    have hu1 : u = (s1.agents ai).v_now := by rw [(hS1.frame.agents ai).2.1]; exact hu
    have hch1 : s1.cycle_handled = false := hS1.handled.trans hch
    obtain ⟨o, ho⟩ : ∃ o, (s1.agents ai).ott_now = some o := by
      cases h : (s1.agents ai).ott_now with
      | none =>
        rw [(hS1.frame.agents ai).2.2.2.1] at h
        exact absurd h (hw.ott_now ai hai)
      | some o => exact ⟨o, rfl⟩
    have direct : ∃ r, PIBT.decide_action E s1 ai none true none u 0 = .ok r ∧
        (∀ x, r.2.agents x = s.agents x ∨ ((s.agents x).v_next = none ∧
          (r.2.agents x).v_next = some (s.agents x).v_now ∧
          (r.2.agents x).ott_next = (s.agents x).ott_now)) ∧
        (r.2.agents ai).v_next ≠ none := by
      rw [hu1, decide_action_own_vertex none true 0 hch1 ho]
      refine ⟨_, rfl, ?_⟩
      obtain ⟨t1, a1, b1, _⟩ := own_action_stay E s1 ai none true (s1.agents ai).v_now
        (s1.agents ai).v_now o rfl
      refine ⟨fun x => ?_, by rw [a1]; simp⟩
      by_cases e : x = ai
      · right
        rw [e]
        refine ⟨hun, ?_, ?_⟩
        · show ((PIBT.own_action E s1 ai none true (s1.agents ai).v_now (s1.agents ai).v_now
            o).agents ai).v_next = _
          rw [a1, (hS1.frame.agents ai).2.1]
        · show ((PIBT.own_action E s1 ai none true (s1.agents ai).v_now (s1.agents ai).v_now
            o).agents ai).ott_next = _
          rw [b1, ← ho, (hS1.frame.agents ai).2.2.2.1]
      · left
        show (PIBT.own_action E s1 ai none true (s1.agents ai).v_now (s1.agents ai).v_now
            o).agents x = _
        rw [t1.others x e, hS1.others x e]
    cases hak1 : s1.occupied_now u with
    | none => exact direct
    | some ak =>
      simp only
      by_cases hakn : (s1.agents ak).v_next = none
      · rw [if_pos hakn]
        have hak : s.occupied_now u = some ak := by
          rw [← hS1.frame.occupied_now]; exact hak1
        have hne : ak ≠ ai := by
          intro e
          rw [e, hS1.target] at hakn
          exact absurd hakn (by simp)
        have hvk : (s.agents ak).v_now = u := hat u ak hak
        have hS2 := reserved_push hS1 (s1.request_chain ++ [⟨ai, u⟩])
        generalize ({ s1 with request_chain := s1.request_chain ++ [⟨ai, u⟩] } : PIBT) = s2
          at hS2 ⊢
        have hvk2 : (s2.agents ak).v_now = u := by rw [(hS2.frame.agents ak).2.1]; exact hvk
        obtain ⟨mt, hcall⟩ := funcPIBT_isolated_nested hshuffle d s2 ak ai
          (by rw [hvk2]; exact hn) (by rw [hvk2, hS2.owner]; simp)
        rw [hcall]
        simp only [Outcome.bind_ok, Bool.false_eq_true, if_false]
        obtain ⟨hfr3, _, _, _, hoth3, hvn3, hon3, _⟩ :=
          fail_stay_effect ({ s2 with MT := mt } : PIBT) ak
        generalize PIBT.fail_stay ({ s2 with MT := mt } : PIBT) ak = s3
          at hfr3 hoth3 hvn3 hon3 ⊢
        have f3 : ∀ a, Agent.static_eq (s3.agents a) (s2.agents a) := hfr3.agents
        have o3 : ∀ a, a ≠ ak → s3.agents a = s2.agents a := hoth3
        have v3 : (s3.agents ak).v_next = some (s2.agents ak).v_now := hvn3
        have n3 : (s3.agents ak).ott_next = (s2.agents ak).ott_now := hon3
        obtain ⟨hfr4, _, _, _, hoth4, _, _, _⟩ := withdraw_effect s3 ai u
        generalize ((({ s3 with request_chain := s3.request_chain.dropLast } :
          PIBT).setOccupiedNext u none).set_v_next ai none) = s4 at hfr4 hoth4 ⊢
        unfold PIBT.candidate_loop
        refine ⟨_, rfl, ?_⟩
        apply fail s4
        · intro x hx
          rw [hoth4 x hx]
          by_cases e : x = ak
          · right
            rw [e]
            refine ⟨?_, ?_, ?_⟩
            · rw [← hS1.others ak hne]; exact hakn
            · rw [v3, (hS2.frame.agents ak).2.1]
            · rw [n3, (hS2.frame.agents ak).2.2.2.1]
          · left
            rw [o3 x e, hS2.others x hx]
        · rw [(hfr4.agents ai).2.1, (f3 ai).2.1, (hS2.frame.agents ai).2.1]
        · rw [(hfr4.agents ai).2.2.2.1, (f3 ai).2.2.2.1, (hS2.frame.agents ai).2.2.2.1]
      · rw [if_neg hakn]
        exact direct
  · unfold PIBT.candidate_loop
    rw [if_pos h1]
    unfold PIBT.candidate_loop
    refine ⟨_, rfl, ?_⟩
    exact fail s (fun x _ => Or.inl rfl) rfl rfl

/-- A call of `funcPIBT` by `run` for an agent on a vertex without neighbours returns; the
agent stays with its heading, and so does the occupant of the vertex if it is another agent
without a next location; no other record is written. -/
theorem funcPIBT_isolated {E : Env} {n : Nat} (hshuffle : ∀ mt l, (E.shuffle mt l).1.Perm l)
    (d : Nat) (s : PIBT) (ai : Nat) (hw : s.Weak E.G n) (hat : s.At)
    (hn : E.G.neighbor (s.agents ai).v_now = []) (hai : ai < n)
    (hun : (s.agents ai).v_next = none) :
    ∃ r, PIBT.funcPIBT E (d + 2) s ai none true = .ok r ∧
      (∀ x, r.2.agents x = s.agents x ∨ ((s.agents x).v_next = none ∧
        (r.2.agents x).v_next = some (s.agents x).v_now ∧
        (r.2.agents x).ott_next = (s.agents x).ott_now)) ∧
      (r.2.agents ai).v_next ≠ none := by
  unfold PIBT.funcPIBT
  simp only [if_true]
  have hn0 : E.G.neighbor ((PIBT.agents { s with request_chain := [], cycle_handled := false, initial_requester := some ai } ai).v_now) = [] := hn
  obtain ⟨mt, hc⟩ := candidates_isolated hshuffle _ ai none true hn0
  rw [hc]
  simp only [Outcome.bind_ok]
  refine candidate_loop_isolated hshuffle d _ ai (s.agents ai).v_now ?_ hat rfl hn hai hun rfl
  exact @weak_congr E.G n s _ rfl rfl (fun r hr => absurd hr (List.not_mem_nil r)) hw

/-- The planning loop of `run` when every agent stands on a vertex without neighbours: the
loop returns and every agent it visits stays with its heading. -/
theorem plan_agents_isolated {E : Env} (hshuffle : ∀ mt l, (E.shuffle mt l).1.Perm l) :
    ∀ (l : List Nat) (s : PIBT), s.Weak E.G E.num → s.At →
      (∀ a, a < E.num → E.G.neighbor (s.agents a).v_now = []) →
      (∀ x, x < E.num → (s.agents x).v_next = none ∨ s.stays x) →
      (∀ a, a ∈ l → a < E.num) →
      ∃ s', PIBT.plan_agents E l s = .ok s' ∧
        (∀ x, x < E.num → (s'.agents x).v_next = none ∨ s'.stays x) ∧
        (∀ x, x < E.num → s.stays x → s'.stays x) ∧ ∀ a, a ∈ l → s'.stays a := by
  intro l
  induction l with
  | nil =>
    intro s _ _ _ hq _
    exact ⟨s, rfl, hq, fun _ _ h => h, fun a ha => absurd ha (List.not_mem_nil a)⟩
  | cons a rest ih =>
    intro s hw hat hiso hq hl
    have ha : a < E.num := hl a (List.mem_cons_self a rest)
    have hrest : ∀ b, b ∈ rest → b < E.num := fun b hb => hl b (List.mem_cons_of_mem a hb)
    unfold PIBT.plan_agents
    by_cases hun : (s.agents a).v_next = none
    · rw [if_pos hun]
      have hd : E.num + 1 = (E.num - 1) + 2 := by omega
      rw [hd]
      obtain ⟨r, hr, hx, hp⟩ := funcPIBT_isolated hshuffle (E.num - 1) s a hw hat
        (hiso a ha) ha hun
      rw [hr]
      simp only [Outcome.bind_ok]
      obtain ⟨hst, hw1, _⟩ := funcPIBT_weak E E.num _ s a none true r hw ha hun hr
      have hv : ∀ x, (r.2.agents x).v_now = (s.agents x).v_now := fun x =>
        (hst.frame.agents x).2.1
      have ho : ∀ x, (r.2.agents x).ott_now = (s.agents x).ott_now := fun x =>
        (hst.frame.agents x).2.2.2.1
      have hkeep : ∀ x, s.stays x → r.2.stays x := by
        intro x hs
        rcases hx x with e | ⟨e, _⟩
        · unfold PIBT.stays
          rw [e]; exact hs
        · have := hs.1
          rw [e] at this
          exact absurd this (by simp)
      have hq1 : ∀ x, x < E.num → (r.2.agents x).v_next = none ∨ r.2.stays x := by
        intro x hxn
        rcases hx x with e | ⟨_, e1, e2⟩
        · rcases hq x hxn with h | h
          · left; rw [e]; exact h
          · right; exact hkeep x h
        · right
          exact ⟨by rw [e1, hv], by rw [e2, ho]⟩
      obtain ⟨s', hs', k1, k2, k3⟩ := ih r.2 hw1 (at_of_frame hst.frame hat)
        (fun b hb => by rw [hv]; exact hiso b hb) hq1 hrest
      refine ⟨s', hs', k1, fun x hxn h => k2 x hxn (hkeep x h), fun b hb => ?_⟩
      rcases List.mem_cons.mp hb with e | e
      · rw [e]
        apply k2 a ha
        rcases hq1 a ha with h | h
        · exact absurd h hp
        · exact h
      · exact k3 b e
    · rw [if_neg hun]
      obtain ⟨s', hs', k1, k2, k3⟩ := ih s hw hat hiso hq hrest
      refine ⟨s', hs', k1, k2, fun b hb => ?_⟩
      rcases List.mem_cons.mp hb with e | e
      · rw [e]
        apply k2 a ha
        rcases hq a ha with h | h
        · exact absurd h hun
        · exact h
      · exact k3 b e

/-- One iteration of the commit loop returns for an agent that has a next location and a next
heading. -/
theorem commit_agent_total (s : PIBT) (c : Commit) (a : Nat)
    (hv : (s.agents a).v_next ≠ none) (ho : (s.agents a).ott_next ≠ none) :
    ∃ r, PIBT.commit_agent s c a = .ok r := by
  unfold PIBT.commit_agent
  have hpre : (if s.occupied_now (s.agents a).v_now = some a
        then s.setOccupiedNow (s.agents a).v_now none else s).agents = s.agents := by
    split_ifs <;> rfl
  dsimp only
  generalize (if s.occupied_now (s.agents a).v_now = some a
        then s.setOccupiedNow (s.agents a).v_now none else s) = s1 at hpre ⊢
  rw [← hpre] at hv ho
  cases hv' : (s1.agents a).v_next with
  | none => exact absurd hv' hv
  | some w =>
    dsimp only
    have hag2 : (s1.setOccupiedNext w none).agents = s1.agents := rfl
    rw [hag2]
    cases ho' : (s1.agents a).ott_next with
    | none => exact absurd ho' ho
    | some o =>
      simp only [SAFE_VALUE, Outcome.bind_ok]
      exact ⟨_, rfl⟩

/-- The commit loop returns when every agent it visits has a next location and a next
heading. -/
theorem commit_agents_total :
    ∀ (l : List Nat) (s : PIBT) (c : Commit), l.Nodup →
      (∀ a, a ∈ l → (s.agents a).v_next ≠ none ∧ (s.agents a).ott_next ≠ none) →
      ∃ r, PIBT.commit_agents l s c = .ok r := by
  intro l
  induction l with
  | nil =>
    intro s c _ _
    exact ⟨_, rfl⟩
  | cons a rest ih =>
    intro s c hnd hl
    unfold PIBT.commit_agents
    obtain ⟨g1, g2⟩ := hl a (List.mem_cons_self a rest)
    obtain ⟨r1, hr1⟩ := commit_agent_total s c a g1 g2
    rw [hr1]
    simp only [Outcome.bind_ok]
    obtain ⟨_, _, _, _, _, h4, _⟩ := commit_agent_effect hr1
    have hnd' := List.nodup_cons.mp hnd
    apply ih r1.1 r1.2 hnd'.2
    intro b hb
    have hne : b ≠ a := by
      intro e
      rw [e] at hb
      exact hnd'.1 hb
    rw [h4 b hne]
    exact hl b (List.mem_cons_of_mem a hb)

/-- One timestep of `run` when every agent stands on a vertex without neighbours: the
timestep returns and every agent keeps its vertex and its heading. -/
theorem timestep_isolated {E : Env} (hshuffle : ∀ mt l, (E.shuffle mt l).1.Perm l)
    {s : PIBT} (hR : s.Rest E.G E.num) (hat : s.At)
    (hiso : ∀ a, a < E.num → E.G.neighbor (s.agents a).v_now = [])
    (hhead : (s.solution.configs.headD []).length = E.num) :
    ∃ r, PIBT.timestep E s = .ok r ∧ ∀ a, a < E.num →
      (r.1.agents a).v_now = (s.agents a).v_now ∧
      (r.1.agents a).ott_now = (s.agents a).ott_now := by
  unfold PIBT.timestep
  dsimp only
  have hperm : (std_sort (fun a b => PIBT.run_compare (s.agents a) (s.agents b)) s.A).Perm
      (List.range E.num) := (std_sort_perm _ _).trans hR.order
  have hmem : ∀ a, a ∈ std_sort (fun a b => PIBT.run_compare (s.agents a) (s.agents b)) s.A ↔
      a < E.num := by
    intro a; rw [hperm.mem_iff, List.mem_range]
  have hnd : (std_sort (fun a b => PIBT.run_compare (s.agents a) (s.agents b)) s.A).Nodup :=
    hperm.nodup_iff.mpr (List.nodup_range E.num)
  generalize std_sort (fun a b => PIBT.run_compare (s.agents a) (s.agents b)) s.A = sA
    at hmem hnd
  have hws : PIBT.Weak E.G E.num ({ s with A := sA } : PIBT) :=
    @weak_congr E.G E.num s _ rfl rfl hR.weak.chain_lt hR.weak
  obtain ⟨s1, hs1, _, _, hstay⟩ := plan_agents_isolated hshuffle sA ({ s with A := sA } : PIBT)
    hws hat hiso (fun x hx => Or.inl (hR.idle x hx).1) (fun a ha => (hmem a).mp ha)
  rw [hs1]
  simp only [Outcome.bind_ok]
  obtain ⟨hst, hw1⟩ := plan_agents_weak sA _ s1 hws (fun a ha => (hmem a).mp ha) hs1
  have hA1 : s1.A = sA := hst.frame.order
  have hstat : ∀ a, Agent.static_eq (s1.agents a) (s.agents a) := hst.frame.agents
  have hall : ∀ a, a < E.num → s1.stays a := fun a ha => hstay a ((hmem a).mpr ha)
  have hset : ∀ a, a ∈ s1.A →
      (s1.agents a).v_next ≠ none ∧ (s1.agents a).ott_next ≠ none := by
    intro a ha
    rw [hA1] at ha
    have han := (hmem a).mp ha
    obtain ⟨g1, g2⟩ := hall a han
    exact ⟨by rw [g1]; simp, by rw [g2]; exact hw1.ott_now a han⟩
  obtain ⟨q, hq⟩ := commit_agents_total s1.A s1
    { config := List.replicate E.num none, orients := List.replicate E.num Orientation.X_PLUS,
      check_goal_cond := true } (by rw [hA1]; exact hnd) hset
  rw [hq]
  simp only [Outcome.bind_ok]
  have hC0 := commit_agents_inv hw1.id_eq s1.A (fun _ => False) s1 _ q committing_start
    (fun a ha => ⟨(hmem a).mp (by rw [← hA1]; exact ha), id⟩) (by rw [hA1]; exact hnd) hq
  have hC : PIBT.Committing E.num s1 (fun b => b < E.num) q.1 q.2 :=
    committing_congr (fun b => by rw [hA1, hmem]; simp) hC0
  have hadd : ∃ p, q.1.solution.addWithOrientation q.2.config q.2.orients = .ok p := by
    unfold Plan.addWithOrientation
    rw [if_neg, if_neg]
    · exact ⟨_, rfl⟩
    · rw [hC.config_len, hC.orients_len]
      simp
    · rw [hC.solution, hst.frame.solution]
      show ¬ (¬ s.solution.configs.isEmpty = true ∧
        (s.solution.configs.headD []).length ≠ q.2.config.length)
      rw [hhead, hC.config_len]
      simp
  obtain ⟨p, hp⟩ := hadd
  rw [hp]
  simp only [Outcome.bind_ok]
  refine ⟨_, rfl, fun a ha => ?_⟩
  obtain ⟨w, g1, _, g3⟩ := hC.agents_done a ha
  obtain ⟨k1, k2⟩ := hall a ha
  show (q.1.agents a).v_now = _ ∧ (q.1.agents a).ott_now = _
  rw [g3]
  rw [k1] at g1
  constructor
  · show w = (s.agents a).v_now
    rw [← Option.some.inj g1, (hstat a).2.1]
  · show (s1.agents a).ott_next = (s.agents a).ott_now
    rw [k2, (hstat a).2.2.2.1]

theorem shown_unique {n : Nat} {s s' : PIBT} {row row' : Config} {o o' : List Orientation}
    (h : s.Shown n row o) (h' : s'.Shown n row' o')
    (hv : ∀ a, a < n → (s'.agents a).v_now = (s.agents a).v_now)
    (ho : ∀ a, a < n → (s'.agents a).ott_now = (s.agents a).ott_now) :
    row' = row ∧ o' = o := by
  constructor
  · apply List.ext_getElem?
    intro a
    by_cases ha : a < n
    · rw [h.config a ha, h'.config a ha, hv a ha]
    · rw [List.getElem?_eq_none (by rw [h'.config_len]; omega),
        List.getElem?_eq_none (by rw [h.config_len]; omega)]
  · apply List.ext_getElem?
    intro a
    by_cases ha : a < n
    · rw [h.orients a ha, h'.orients a ha, ho a ha]
    · rw [List.getElem?_eq_none (by rw [h'.orients_len]; omega),
        List.getElem?_eq_none (by rw [h.orients_len]; omega)]

/-- C14: in a state between two timesteps of `run` in which every agent stands on a vertex
without neighbours (so that its only candidate is its own vertex), one more timestep returns,
every agent keeps its vertex and its heading, and the configuration and the headings that the
timestep emits are those of the timestep before; `std::shuffle` is taken to permute its
argument. -/
theorem stay_idempotent (E : Env) (hshuffle : ∀ mt l, (E.shuffle mt l).1.Perm l) (t : Nat)
    (s : PIBT) (h : PIBT.after E t = .ok s)
    (hiso : ∀ a, a < E.num → E.G.neighbor (s.agents a).v_now = []) :
    ∃ s', PIBT.after E (t + 1) = .ok s' ∧
      (∀ a, a < E.num → (s'.agents a).v_now = (s.agents a).v_now ∧
        (s'.agents a).ott_now = (s.agents a).ott_now) ∧
      s'.solution.configs.getD (t + 1) [] = s.solution.configs.getD t [] ∧
      s'.solution.orientations.getD (t + 1) [] = s.solution.orientations.getD t [] := by
  have hS := after_sound E t s h
  obtain ⟨s0, _, hshown0⟩ := hS.traced.rows 0 (Nat.zero_le t)
  have hhead : (s.solution.configs.headD []).length = E.num := by
    have : s.solution.configs.headD [] = s.solution.configs.getD 0 [] := by
      cases s.solution.configs <;> simp
    rw [this]; exact hshown0.config_len
  obtain ⟨r, hr, hkeep⟩ := timestep_isolated hshuffle hS.rest (after_tables E t s h).1 hiso hhead
  have h' := after_of_timestep h hr
  have hS' := after_sound E (t + 1) r.1 h'
  obtain ⟨sk, hsk, hrow⟩ := hS.traced.rows t (Nat.le_refl t)
  obtain ⟨sk', hsk', hrow'⟩ := hS'.traced.rows (t + 1) (Nat.le_refl _)
  have e1 : sk = s := after_unique h hsk
  have e2 : sk' = r.1 := after_unique h' hsk'
  rw [e1] at hrow
  rw [e2] at hrow'
  obtain ⟨g1, g2⟩ := shown_unique hrow hrow' (fun a ha => (hkeep a ha).1)
    (fun a ha => (hkeep a ha).2)
  exact ⟨r.1, h', hkeep, g1, g2⟩

/-- Witness of C14 on `island_env`: the first timestep repeats the start configuration. -/
theorem stay_idempotent_witness :
    ∃ s s', PIBT.after island_env 0 = .ok s ∧ PIBT.after island_env 1 = .ok s' ∧
      (∀ a, a < island_env.num → (s'.agents a).v_now = (s.agents a).v_now ∧
        (s'.agents a).ott_now = (s.agents a).ott_now) ∧
      s'.solution.configs.getD 1 [] = s.solution.configs.getD 0 [] ∧
      s'.solution.orientations.getD 1 [] = s.solution.orientations.getD 0 [] := by
  obtain ⟨s, hs, _⟩ := run_init_post island_env
  have h0 : PIBT.after island_env 0 = .ok s := hs
  obtain ⟨s', h1, h2, h3, h4⟩ := stay_idempotent island_env (fun _ l => List.Perm.refl l) 0 s h0
    (fun _ _ => rfl)
  exact ⟨s, s', h0, h1, h2, h3, h4⟩

theorem scan_fold (p : Nat → Prop) [DecidablePred p] :
    ∀ (l : List Nat) (c : Nat) (tmp : Option Nat),
      (l.foldl (fun (acc : Nat × Option Nat) u =>
          if p u then (acc.1 - 1, acc.2) else (acc.1, some u)) (c, tmp)).1 =
        c - (l.filter (fun u => decide (p u))).length ∧
      ((l.filter (fun u => decide (¬ p u))) = [] →
        (l.foldl (fun (acc : Nat × Option Nat) u =>
          if p u then (acc.1 - 1, acc.2) else (acc.1, some u)) (c, tmp)).2 = tmp) ∧
      (∀ t, (l.filter (fun u => decide (¬ p u))).getLast? = some t →
        (l.foldl (fun (acc : Nat × Option Nat) u =>
          if p u then (acc.1 - 1, acc.2) else (acc.1, some u)) (c, tmp)).2 = some t) := by
  intro l
  induction l with
  | nil =>
    intro c tmp
    simp
  | cons x xs ih =>
    intro c tmp
    rw [List.foldl_cons]
    by_cases hp : p x
    · rw [if_pos hp]
      obtain ⟨g1, g2, g3⟩ := ih (c - 1) tmp
      refine ⟨?_, ?_, ?_⟩
      · rw [g1]
        simp only [List.filter_cons, hp, decide_True, if_true, List.length_cons]
        omega
      · intro h
        apply g2
        simpa [List.filter_cons, hp] using h
      · intro t h
        apply g3
        simpa [List.filter_cons, hp] using h
    · rw [if_neg hp]
      obtain ⟨g1, g2, g3⟩ := ih c (some x)
      refine ⟨?_, ?_, ?_⟩
      · rw [g1]
        simp [List.filter_cons, hp]
      · intro h
        simp [List.filter_cons, hp] at h
      · intro t h
        simp only [List.filter_cons, hp, not_false_eq_true, decide_True, if_true] at h
        cases hxs : xs.filter (fun u => decide (¬ p u)) with
        | nil =>
          rw [hxs] at h
          simp only [List.getLast?_singleton, Option.some.injEq] at h
          rw [g2 hxs, h]
        | cons y ys =>
          rw [hxs] at h
          apply g3
          rw [hxs]
          rw [List.getLast?_cons_cons] at h
          exact h

/-- When the inner `for` of the swap loops counts exactly one neighbour of `v_puller`, `tmp`
is that neighbour, and every other neighbour is skipped. -/
theorem corridor_scan_one {E : Env} {s : PIBT} {v_pusher v_puller : Nat} {tmp : Option Nat}
    (h1 : ¬ (PIBT.corridor_scan E s v_pusher v_puller tmp).1 ≥ 2)
    (h0 : ¬ (PIBT.corridor_scan E s v_pusher v_puller tmp).1 ≤ 0) :
    ∃ t, (PIBT.corridor_scan E s v_pusher v_puller tmp).2 = some t ∧
      t ∈ E.G.neighbor v_puller ∧ ¬ PIBT.scan_skips E s v_pusher t ∧
      ∀ u, u ∈ E.G.neighbor v_puller → PIBT.scan_skips E s v_pusher u ∨ u = t := by
  have hdec : DecidablePred (PIBT.scan_skips E s v_pusher) := fun u =>
    Classical.propDecidable _
  obtain ⟨g1, _, g3⟩ := @scan_fold (PIBT.scan_skips E s v_pusher) hdec (E.G.neighbor v_puller)
    (E.G.neighbor v_puller).length tmp
  have e : PIBT.corridor_scan E s v_pusher v_puller tmp =
      (E.G.neighbor v_puller).foldl (fun (acc : Nat × Option Nat) u =>
          if PIBT.scan_skips E s v_pusher u then (acc.1 - 1, acc.2) else (acc.1, some u))
        ((E.G.neighbor v_puller).length, tmp) := by
    unfold PIBT.corridor_scan
    congr 1
    funext acc u
    by_cases hc : PIBT.scan_skips E s v_pusher u
    · rw [if_pos hc]
      exact if_pos hc
    · rw [if_neg hc]
      exact if_neg hc
  rw [e] at h1 h0 ⊢
  rw [g1] at h1 h0
  have hlen := @List.length_eq_countP_add_countP Nat
    (fun u => decide (PIBT.scan_skips E s v_pusher u)) (E.G.neighbor v_puller)
  rw [← List.countP_eq_length_filter] at h1 h0
  have hone : List.countP (fun u => decide ¬ (decide (PIBT.scan_skips E s v_pusher u) = true))
      (E.G.neighbor v_puller) = 1 := by omega
  rw [List.countP_eq_length_filter] at hone
  obtain ⟨t, ht⟩ := List.length_eq_one.mp hone
  have hf : List.filter (fun u => decide ¬ PIBT.scan_skips E s v_pusher u)
      (E.G.neighbor v_puller) = [t] := by
    rw [← ht]
    congr
    funext u
    simp
  have hmem : t ∈ List.filter (fun u => decide ¬ PIBT.scan_skips E s v_pusher u)
      (E.G.neighbor v_puller) := by
    rw [hf]
    exact List.mem_singleton_self t
  have hmem2 := List.mem_filter.mp hmem
  refine ⟨t, g3 t (by rw [hf]; rfl), hmem2.1, of_decide_eq_true hmem2.2, fun u hu => ?_⟩
  by_cases hs : PIBT.scan_skips E s v_pusher u
  · exact Or.inl hs
  · right
    have : u ∈ List.filter (fun u => decide ¬ PIBT.scan_skips E s v_pusher u)
        (E.G.neighbor v_puller) := List.mem_filter.mpr ⟨hu, decide_eq_true hs⟩
    rw [hf] at this
    exact List.mem_singleton.mp this

theorem nodup_range_length {l : List Nat} {n : Nat} (hd : l.Nodup) (hr : ∀ x, x ∈ l → x < n) :
    l.length ≤ n := by
  have hs : l ⊆ List.range n := fun x hx => List.mem_range.mpr (hr x hx)
  have := (List.subperm_of_subset hd hs).length_le
  rwa [List.length_range] at this

theorem trail_range {E : Env} {s : PIBT} {origin : Nat} :
    ∀ l : List Nat, PIBT.Trail E s origin l → ∀ x, x ∈ l.dropLast → x < E.G.size := by
  intro l
  induction l with
  | nil => intro _ x hx; simp at hx
  | cons a l ih =>
    cases l with
    | nil => intro _ x hx; simp at hx
    | cons b rest =>
      intro h x hx
      rw [List.dropLast_cons₂] at hx
      rcases List.mem_cons.mp hx with e | hx
      · rw [e]
        exact h.2.2.1
      · exact ih h.2.2.2 x hx

theorem trail_neighbors {E : Env} {s : PIBT} {origin : Nat} :
    ∀ (rest : List Nat) (b : Nat), PIBT.Trail E s origin (b :: rest) →
      ∀ x, x ∈ rest → ∀ u, u ∈ E.G.neighbor x →
        u = origin ∨ PIBT.dead_end E s u ∨ u ∈ b :: rest := by
  intro rest
  induction rest with
  | nil => intro _ _ x hx; simp at hx
  | cons c rest ih =>
    intro b h x hx u hu
    rcases List.mem_cons.mp hx with e | hx
    · subst e
      rcases h.1 u hu with g | g | g
      · cases rest with
        | nil => exact Or.inl g
        | cons d rest =>
          right; right
          rw [g]
          simp
      · exact Or.inr (Or.inl g)
      · right; right
        rw [g]
        simp
    · rcases ih c h.2.2.2 x hx u hu with g | g | g
      · exact Or.inl g
      · exact Or.inr (Or.inl g)
      · exact Or.inr (Or.inr (List.mem_cons_of_mem _ g))

/-- The `while` loop of `is_swap_possible` stops within `size + 1` iterations on a simple
undirected graph: its walk never meets a vertex twice. -/
theorem is_swap_possible_loop_returns (E : Env) (s : PIBT) (origin : Nat) (hG : E.G.Simple) :
    ∀ (budget v_pusher v_puller : Nat) (tmp : Option Nat) (l : List Nat),
      PIBT.Trail E s origin (v_puller :: l) → (v_puller :: l).Nodup →
      v_pusher = l.headD origin → (∀ x, x ∈ l → x ≠ origin) →
      E.G.size + 1 ≤ budget + l.length →
      PIBT.is_swap_possible_loop E s origin budget v_pusher v_puller tmp ≠ .starved := by
  intro budget
  induction budget with
  | zero =>
    intro v_pusher v_puller tmp l hT hN _ _ hb
    exfalso
    have h1 := trail_range _ hT
    have h2 : (v_puller :: l).dropLast.Nodup := hN.sublist (List.dropLast_sublist _)
    have h3 := nodup_range_length h2 h1
    rw [List.length_dropLast, List.length_cons] at h3
    simp only [Nat.add_sub_cancel] at h3
    omega
  | succ budget ih =>
    intro v_pusher v_puller tmp l hT hN hp ho hb
    rw [PIBT.is_swap_possible_loop]
    split_ifs with h1
    · simp only
      split_ifs with h2 h3
      · exact fun h => Outcome.noConfusion h
      · exact fun h => Outcome.noConfusion h
      · obtain ⟨t, e, ht, hs, hall⟩ := corridor_scan_one h2 h3
        rw [e]
        simp only
        have hne : t ≠ v_pusher := fun e => hs (Or.inl e)
        have hnd : ¬ PIBT.dead_end E s t := fun e => hs (Or.inr e)
        apply ih v_puller t (some t) (v_puller :: l)
        · refine ⟨fun u hu => ?_, hnd, hG.range _ _ ht, hT⟩
          rcases hall u hu with g | g
          · rcases g with g | g
            · left
              rw [g, hp]
            · exact Or.inr (Or.inl g)
          · exact Or.inr (Or.inr g)
        · refine List.nodup_cons.mpr ⟨fun hmem => ?_, hN⟩
          rcases List.mem_cons.mp hmem with e1 | hmem
          · exact hG.irrefl v_puller (e1 ▸ ht)
          · cases l with
            | nil => simp at hmem
            | cons b rest =>
              rcases List.mem_cons.mp hmem with e1 | hmem
              · exact hne (by rw [e1, hp]; rfl)
              · rcases trail_neighbors rest b hT.2.2.2 t hmem v_puller
                  (hG.symm _ _ ht) with g | g | g
                · exact h1 g
                · exact hT.2.1 g
                · exact (List.nodup_cons.mp hN).1 g
        · rfl
        · intro x hx
          rcases List.mem_cons.mp hx with e1 | hx
          · rw [e1]
            exact h1
          · exact ho x hx
        · rw [List.length_cons]
          omega
    · exact fun h => Outcome.noConfusion h

/-- `is_swap_possible` returns or aborts on a simple undirected graph. -/
theorem is_swap_possible_returns (E : Env) (s : PIBT) (hG : E.G.Simple) (vp vq : Nat) :
    PIBT.is_swap_possible E s vp vq ≠ .starved := by
  unfold PIBT.is_swap_possible
  apply is_swap_possible_loop_returns E s vp hG (E.G.size + 1) vp vq none []
  · trivial
  · simp
  · rfl
  · intro x hx
    simp at hx
  · simp

/-- The `while` loop of `is_swap_required` stops within `size + 1` iterations: the distance
of `v_pusher` to the goal of the pusher decreases with every iteration. -/
theorem is_swap_required_loop_returns (E : Env) (s : PIBT) (pusher puller : Nat)
    (hG : E.G.Simple) :
    ∀ (budget v_pusher v_puller : Nat) (tmp : Option Nat) (l : List Nat),
      l.Nodup → (∀ x, x ∈ l → x < E.G.size ∧
        PIBT.getMinDistAllDirections E pusher v_pusher ≤
          PIBT.getMinDistAllDirections E pusher x) →
      v_puller < E.G.size → E.G.size + 1 ≤ budget + l.length →
      PIBT.is_swap_required_loop E s pusher puller budget v_pusher v_puller tmp ≠ .starved := by
  intro budget
  induction budget with
  | zero =>
    intro v_pusher v_puller tmp l hN hl _ hb
    exfalso
    have h3 := nodup_range_length hN (fun x hx => (hl x hx).1)
    omega
  | succ budget ih =>
    intro v_pusher v_puller tmp l hN hl hq hb
    rw [PIBT.is_swap_required_loop]
    split_ifs with h1
    · simp only
      split_ifs with h2 h3
      · exact fun h => Outcome.noConfusion h
      · exact fun h => Outcome.noConfusion h
      · obtain ⟨t, e, ht, hs, hall⟩ := corridor_scan_one h2 h3
        rw [e]
        simp only
        apply ih v_puller t (some t) (v_puller :: l)
        · refine List.nodup_cons.mpr ⟨fun hmem => ?_, hN⟩
          have := (hl _ hmem).2
          omega
        · intro x hx
          rcases List.mem_cons.mp hx with e1 | hx
          · rw [e1]
            exact ⟨hq, le_refl _⟩
          · exact ⟨(hl x hx).1, le_of_lt (lt_of_lt_of_le h1 (hl x hx).2)⟩
        · exact hG.range _ _ ht
        · rw [List.length_cons]
          omega
    · exact fun h => Outcome.noConfusion h

/-- `is_swap_required` returns or aborts when the puller stands on a vertex of the graph. -/
theorem is_swap_required_returns (E : Env) (s : PIBT) (hG : E.G.Simple)
    (pusher puller vp vq : Nat) (hq : vq < E.G.size) :
    PIBT.is_swap_required E s pusher puller vp vq ≠ .starved := by
  unfold PIBT.is_swap_required
  apply is_swap_required_loop_returns E s pusher puller hG (E.G.size + 1) vp vq none []
  · exact List.nodup_nil
  · intro x hx
    simp at hx
  · exact hq
  · simp

theorem bind_returns {α β : Type} {x : Outcome α} {f : α → Outcome β}
    (hx : x ≠ .starved) (hf : ∀ a, x = .ok a → f a ≠ .starved) : x.bind f ≠ .starved := by
  cases x with
  | ok a => exact hf a rfl
  | halted => exact fun h => Outcome.noConfusion h
  | starved => exact absurd rfl hx

theorem ok_returns {α : Type} (a : α) : (Outcome.ok a) ≠ .starved :=
  fun h => Outcome.noConfusion h

theorem halted_returns {α : Type} : (Outcome.halted : Outcome α) ≠ .starved :=
  fun h => Outcome.noConfusion h

theorem safe_value_returns {α : Type} (x : Option α) : SAFE_VALUE x ≠ .starved := by
  cases x <;> exact fun h => Outcome.noConfusion h

theorem computeAction_returns (G : Graph) (c t : Nat) (h : Orientation) :
    Plan.computeAction G c t h ≠ .starved := by
  unfold Plan.computeAction
  split_ifs
  · exact ok_returns _
  · refine bind_returns (relpos_not_starved _ _ _) fun r _ => ?_
    dsimp only
    split_ifs <;> first | exact ok_returns _ | exact halted_returns
  · exact halted_returns

theorem funcPIBT_d_returns (E : Env) (s : PIBT) (ai v : Nat) :
    PIBT.funcPIBT_d E s ai v ≠ .starved := by
  unfold PIBT.funcPIBT_d
  dsimp only
  refine bind_returns ?_ fun d _ => ?_
  · split_ifs
    · exact bind_returns (safe_value_returns _) fun _ _ => ok_returns _
    · exact bind_returns (relpos_not_starved _ _ _) fun _ _ => ok_returns _
  · split_ifs
    · exact bind_returns (relpos_not_starved _ _ _) fun _ _ =>
        bind_returns (safe_value_returns _) fun _ _ => ok_returns _
    · exact ok_returns _

theorem all_ok_returns {α : Type} : ∀ l : List (Outcome α),
    (∀ x, x ∈ l → x ≠ .starved) → all_ok l ≠ .starved := by
  intro l
  induction l with
  | nil => intro _; exact ok_returns _
  | cons x xs ih =>
    intro h
    unfold all_ok
    exact bind_returns (h x (List.mem_cons_self _ _)) fun _ _ =>
      ih fun y hy => h y (List.mem_cons_of_mem _ hy)

theorem sort_candidates_returns (E : Env) (s : PIBT) (ai : Nat) (C : List Nat) :
    PIBT.sort_candidates E s ai C ≠ .starved := by
  unfold PIBT.sort_candidates
  split_ifs
  · exact ok_returns _
  · refine bind_returns (all_ok_returns _ fun x hx => ?_) fun _ _ => ok_returns _
    obtain ⟨v, _, e⟩ := List.mem_map.mp hx
    rw [← e]
    exact funcPIBT_d_returns E s ai v

theorem swap_first_test_returns (E : Env) (s : PIBT) (ai c0 : Nat) (hG : E.G.Simple)
    (hat : s.At) (hc0 : c0 < E.G.size) : PIBT.swap_first_test E s ai c0 ≠ .starved := by
  unfold PIBT.swap_first_test
  cases ho : s.occupied_now c0 with
  | none => exact ok_returns _
  | some aj =>
    dsimp only
    split_ifs
    · refine bind_returns (is_swap_required_returns E s hG _ _ _ _ ?_) fun rq _ => ?_
      · rw [hat c0 aj ho]
        exact hc0
      · split_ifs
        · exact bind_returns (is_swap_possible_returns E s hG _ _) fun _ _ => ok_returns _
        · exact ok_returns _
    · exact ok_returns _

theorem swap_neighbor_scan_returns (E : Env) (s : PIBT) (ai c0 : Nat) (hG : E.G.Simple)
    (hc0 : c0 < E.G.size) : ∀ l, PIBT.swap_neighbor_scan E s ai c0 l ≠ .starved := by
  intro l
  induction l with
  | nil =>
    unfold PIBT.swap_neighbor_scan
    exact ok_returns _
  | cons u us ih =>
    unfold PIBT.swap_neighbor_scan
    cases ho : s.occupied_now u with
    | none => exact ih
    | some ak =>
      dsimp only
      split_ifs
      · exact ih
      · refine bind_returns (is_swap_required_returns E s hG _ _ _ _ hc0) fun rq _ => ?_
        split_ifs
        · refine bind_returns (is_swap_possible_returns E s hG _ _) fun ps _ => ?_
          split_ifs
          · exact ok_returns _
          · exact ih
        · exact ih

theorem swap_possible_and_required_returns (E : Env) (s : PIBT) (ai : Nat) (C : List Nat)
    (hG : E.G.Simple) (hat : s.At)
    (hC : ∀ c, c ∈ C → c ≠ (s.agents ai).v_now → c < E.G.size) :
    PIBT.swap_possible_and_required E s ai C ≠ .starved := by
  unfold PIBT.swap_possible_and_required
  cases hc : C.head? with
  | none => exact halted_returns
  | some c0 =>
    dsimp only
    split_ifs with h1
    · exact ok_returns _
    · have hc0 : c0 < E.G.size := hC c0 (List.mem_of_mem_head? hc) h1
      refine bind_returns (swap_first_test_returns E s ai c0 hG hat hc0) fun first _ => ?_
      cases first with
      | some aj => exact ok_returns _
      | none => exact swap_neighbor_scan_returns E s ai c0 hG hc0 _

/-- The candidate list of `funcPIBT` is computed, or the computation aborts, on a simple
undirected graph when the shuffle returns a permutation. -/
theorem candidates_returns (E : Env) (s : PIBT) (ai : Nat) (aj : Option Nat) (ii : Bool)
    (hG : E.G.Simple) (hshuffle : ∀ mt l, (E.shuffle mt l).1.Perm l) (hat : s.At) :
    PIBT.candidates E s ai aj ii ≠ .starved := by
  unfold PIBT.candidates
  dsimp only
  refine bind_returns (sort_candidates_returns _ _ _ _) fun C hC => ?_
  have hp : C.Perm (E.G.neighbor (s.agents ai).v_now ++ [(s.agents ai).v_now]) :=
    (sort_candidates_perm hC).trans (hshuffle _ _)
  have fin : ∀ e : List Nat × PIBT, e.1.Perm C →
      (∃ mt pc, e.2 = ({ s with MT := mt, push_count_table := pc } : PIBT)) →
      PIBT.swap_possible_and_required E e.2 ai e.1 ≠ .starved := by
    intro e he ⟨mt, pc, e2⟩
    apply swap_possible_and_required_returns E e.2 ai e.1 hG
    · rw [e2]
      exact hat
    · intro c hc hne
      rw [e2] at hne
      have := (he.trans hp).subset hc
      rcases List.mem_append.mp this with g | g
      · exact hG.range _ _ g
      · exact absurd (List.mem_singleton.mp g) hne
  refine bind_returns ?_ fun _ _ => ok_returns _
  cases aj with
  | none => exact fin (C, _) (List.Perm.refl _) ⟨_, s.push_count_table, rfl⟩
  | some j =>
    dsimp only
    split_ifs
    · exact fin (C, _) (List.Perm.refl _) ⟨_, s.push_count_table, rfl⟩
    · obtain ⟨mt, pc, e⟩ := pushEscape_state E { s with MT := (E.shuffle s.MT
        (E.G.neighbor (s.agents ai).v_now ++ [(s.agents ai).v_now])).2 } C (s.agents ai).id
        (s.agents j).id
      exact fin _ (pushEscape_perm hshuffle _ _ _ _).1 ⟨mt, pc, e⟩

theorem chain_orientations_returns (E : Env) (s : PIBT) :
    ∀ l, PIBT.chain_orientations E s l ≠ .starved := by
  intro l
  induction l with
  | nil => exact ok_returns _
  | cons r rs ih =>
    unfold PIBT.chain_orientations
    exact bind_returns (relpos_not_starved _ _ _) fun _ _ =>
      bind_returns ih fun _ _ => ok_returns _

theorem chain_adjust_returns (E : Env) :
    ∀ l s, PIBT.chain_adjust E l s ≠ .starved := by
  intro l
  induction l with
  | nil => intro s; exact ok_returns _
  | cons rc rs ih =>
    intro s
    obtain ⟨r, correct⟩ := rc
    unfold PIBT.chain_adjust
    by_cases hc : correct = true
    · rw [if_neg (not_not.mpr hc)]
      exact ih _
    · rw [if_pos hc]
      exact bind_returns (safe_value_returns _) fun _ _ =>
        bind_returns (computeAction_returns _ _ _ _) fun _ _ => ih _

theorem handleCycle_returns (E : Env) (s : PIBT) :
    PIBT.handleCycleWithOrientation E s ≠ .starved := by
  unfold PIBT.handleCycleWithOrientation
  split_ifs
  · exact ok_returns _
  · refine bind_returns (chain_orientations_returns _ _ _) fun _ _ => ?_
    dsimp only
    split_ifs
    · exact ok_returns _
    · exact chain_adjust_returns _ _ _

theorem swap_partner_action_returns (E : Env) (s : PIBT) (ai : Nat) (sw : Option Nat)
    (m : Int) : PIBT.swap_partner_action E s ai sw m ≠ .starved := by
  unfold PIBT.swap_partner_action
  cases sw with
  | none => exact ok_returns _
  | some sa =>
    dsimp only
    split_ifs
    · refine bind_returns (safe_value_returns _) fun _ _ =>
        bind_returns (computeAction_returns _ _ _ _) fun _ _ => ?_
      dsimp only
      split_ifs <;> exact ok_returns _
    · exact ok_returns _

theorem decide_action_returns (E : Env) (s : PIBT) (ai : Nat) (aj : Option Nat) (ii : Bool)
    (sw : Option Nat) (u : Nat) (m : Int) :
    PIBT.decide_action E s ai aj ii sw u m ≠ .starved := by
  unfold PIBT.decide_action
  split_ifs
  · exact ok_returns _
  · exact bind_returns (safe_value_returns _) fun _ _ =>
      bind_returns (computeAction_returns _ _ _ _) fun _ _ =>
        bind_returns (swap_partner_action_returns _ _ _ _ _) fun _ _ => ok_returns _

theorem cycle_test_returns (s : PIBT) (ii : Bool) (u : Nat) :
    PIBT.cycle_test s ii u ≠ .starved := by
  unfold PIBT.cycle_test
  split_ifs
  · exact ok_returns _
  · cases s.initial_requester with
    | none => exact halted_returns
    | some r => exact ok_returns _

theorem countP_lt_of_imp {p q : Nat → Bool} :
    ∀ l : List Nat, (∀ x, x ∈ l → p x = true → q x = true) →
      ∀ a, a ∈ l → q a = true → p a = false → l.countP p < l.countP q := by
  intro l
  induction l with
  | nil => intro _ a ha; simp at ha
  | cons x xs ih =>
    intro himp a ha hq hp
    have hxs : ∀ y, y ∈ xs → p y = true → q y = true :=
      fun y hy => himp y (List.mem_cons_of_mem _ hy)
    rw [List.countP_cons, List.countP_cons]
    have hle : (if p x = true then 1 else 0) ≤ (if q x = true then 1 else 0) := by
      by_cases hpx : p x = true
      · rw [if_pos hpx, if_pos (himp x (List.mem_cons_self _ _) hpx)]
      · rw [if_neg hpx]
        exact Nat.zero_le _
    rcases List.mem_cons.mp ha with e | ha
    · rw [e] at hq hp
      have := @List.countP_mono_left Nat p q xs hxs
      have h0 : (if p x = true then 1 else 0) = 0 := by rw [hp]; rfl
      have h1 : (if q x = true then 1 else 0) = 1 := by rw [hq]; rfl
      omega
    · have := ih hxs a ha hq hp
      omega

theorem unplanned_le (n : Nat) (s : PIBT) : PIBT.unplanned n s ≤ n := by
  unfold PIBT.unplanned
  have := @List.countP_le_length Nat (fun a => decide ((s.agents a).v_next = none))
    (List.range n)
  rwa [List.length_range] at this

theorem unplanned_pos {n : Nat} {s : PIBT} {ai : Nat} (hai : ai < n)
    (hun : (s.agents ai).v_next = none) : 0 < PIBT.unplanned n s := by
  unfold PIBT.unplanned
  exact List.countP_pos_iff.mpr ⟨ai, List.mem_range.mpr hai, decide_eq_true hun⟩

theorem unplanned_mono {n : Nat} {s s' : PIBT}
    (h : ∀ x, (s.agents x).v_next ≠ none → (s'.agents x).v_next ≠ none) :
    PIBT.unplanned n s' ≤ PIBT.unplanned n s := by
  unfold PIBT.unplanned
  apply List.countP_mono_left
  intro x _ hx
  have hx' := of_decide_eq_true hx
  exact decide_eq_true (by_contra fun hc => h x hc hx')

theorem unplanned_lt {n : Nat} {s s' : PIBT} {ai : Nat} (hai : ai < n)
    (hun : (s.agents ai).v_next = none) (hpl : (s'.agents ai).v_next ≠ none)
    (h : ∀ x, (s.agents x).v_next ≠ none → (s'.agents x).v_next ≠ none) :
    PIBT.unplanned n s' < PIBT.unplanned n s := by
  unfold PIBT.unplanned
  apply countP_lt_of_imp _ _ ai (List.mem_range.mpr hai) (decide_eq_true hun)
    (decide_eq_false hpl)
  intro x _ hx
  have hx' := of_decide_eq_true hx
  exact decide_eq_true (by_contra fun hc => h x hc hx')

theorem unplanned_congr {n : Nat} {s s' : PIBT} (h : s'.agents = s.agents) :
    PIBT.unplanned n s' = PIBT.unplanned n s := by
  unfold PIBT.unplanned
  rw [h]

theorem unplanned_reserved {n : Nat} {s s2 : PIBT} {ai u : Nat} (hS : s.Reserved s2 ai u)
    (hai : ai < n) (hun : (s.agents ai).v_next = none) :
    PIBT.unplanned n s2 < PIBT.unplanned n s := by
  apply unplanned_lt hai hun
  · rw [hS.target]
    simp
  · intro x hx
    have hne : x ≠ ai := fun e => hx (e ▸ hun)
    rw [hS.others x hne]
    exact hx

/-- The states that the candidate loop of `funcPIBT` builds from a state at its head: the
reservation of `u`, then the request pushed on the chain. -/
theorem reserve_facts {E : Env} {n : Nat} {s : PIBT} {ai : Nat} {ii : Bool} (u : Nat)
    (hL : s.Linked E.G n ai ii) :
    s.Reserved ((s.setOccupiedNext u (some ai)).set_v_next ai (some u)) ai u ∧
    PIBT.Weak E.G n ((s.setOccupiedNext u (some ai)).set_v_next ai (some u)) ∧
    ((s.setOccupiedNext u (some ai)).set_v_next ai (some u)).occupied_now = s.occupied_now ∧
    s.Reserved ({ (s.setOccupiedNext u (some ai)).set_v_next ai (some u) with
      request_chain := ((s.setOccupiedNext u (some ai)).set_v_next ai (some u)).request_chain
        ++ [⟨ai, u⟩] } : PIBT) ai u ∧
    ({ (s.setOccupiedNext u (some ai)).set_v_next ai (some u) with
      request_chain := ((s.setOccupiedNext u (some ai)).set_v_next ai (some u)).request_chain
        ++ [⟨ai, u⟩] } : PIBT).request_chain = s.request_chain ++ [⟨ai, u⟩] ∧
    PIBT.Weak E.G n ({ (s.setOccupiedNext u (some ai)).set_v_next ai (some u) with
      request_chain := ((s.setOccupiedNext u (some ai)).set_v_next ai (some u)).request_chain
        ++ [⟨ai, u⟩] } : PIBT) := by
  have hw := hL.weak
  have hun := hL.unplanned
  have hai := hL.ai_lt
  have hidle := idle_of_unplanned (hw.legal ai) hun
  have hS1 : s.Reserved ((s.setOccupiedNext u (some ai)).set_v_next ai (some u)) ai u :=
    reserve_reserved s ai u s.request_chain
  have hc1 : ((s.setOccupiedNext u (some ai)).set_v_next ai (some u)).request_chain =
      s.request_chain := rfl
  generalize (s.setOccupiedNext u (some ai)).set_v_next ai (some u) = s1 at hS1 hc1 ⊢
  have hS2 := reserved_push hS1 (s1.request_chain ++ [⟨ai, u⟩])
  have hc2 : ({ s1 with request_chain := s1.request_chain ++ [⟨ai, u⟩] } :
      PIBT).request_chain = s.request_chain ++ [⟨ai, u⟩] := by
    show s1.request_chain ++ [⟨ai, u⟩] = s.request_chain ++ [⟨ai, u⟩]
    rw [hc1]
  have hst1 : s.Step E.G s1 := step_of_reserved hS1 hidle
  have hw1 : s1.Weak E.G n := weak_of_step hw hst1 (by rw [hc1]; exact hw.chain_lt)
  have hst2 := @step_of_reserved E.G _ _ _ _ hS2 hidle
  have hw2 : PIBT.Weak E.G n
      ({ s1 with request_chain := s1.request_chain ++ [⟨ai, u⟩] } : PIBT) := by
    apply weak_of_step hw hst2
    intro x hx
    rcases List.mem_append.mp hx with hx | hx
    · rw [hc1] at hx; exact hw.chain_lt x hx
    · simp only [List.mem_singleton] at hx
      rw [hx]; exact hai
  exact ⟨hS1, hw1, hS1.frame.occupied_now, hS2, hc2, hw2⟩

/-- The candidate loop of `funcPIBT` returns or aborts when the inherited calls do: an
inherited call starts with fewer agents without a next location than the loop. -/
theorem candidate_loop_returns {E : Env} {n d : Nat}
    {call : PIBT → Nat → Option Nat → Bool → Outcome (Bool × PIBT)}
    {ai : Nat} {aj : Option Nat} {ii : Bool} {swap_agent : Option Nat}
    (hcall : ∀ s ak j r, s.Linked E.G n ak false → call s ak (some j) false = .ok r →
      PIBT.WPost E.G n s r ∧ s.Returned n ak r)
    (hns : ∀ s ak j, s.Linked E.G n ak false → PIBT.unplanned n s ≤ d →
      call s ak (some j) false ≠ .starved) :
    ∀ (C : List Nat) (m : Int) (s : PIBT),
      s.Linked E.G n ai ii → PIBT.unplanned n s ≤ d + 1 →
      PIBT.candidate_loop E call ai aj ii swap_agent C m s ≠ .starved := by
  intro C
  induction C with
  | nil =>
    intro m s _ _
    unfold PIBT.candidate_loop
    exact ok_returns _
  | cons u C ih =>
    intro m s hL hmu
    unfold PIBT.candidate_loop
    split_ifs with h1 h2
    · exact ih _ _ hL hmu
    · exact ih _ _ hL hmu
    · obtain ⟨hS1, hw1, hon1, hS2, hc2, hw2⟩ := reserve_facts u hL
      dsimp only
      generalize (s.setOccupiedNext u (some ai)).set_v_next ai (some u) = s1
        at hS1 hw1 hon1 hS2 hc2 hw2
      refine bind_returns (cycle_test_returns _ _ _) fun cycle _ => ?_
      cases cycle with
      | true =>
        simp only [if_true]
        split_ifs
        · exact halted_returns
        · exact bind_returns (handleCycle_returns _ _) fun _ _ => ok_returns _
      | false =>
        simp only [Bool.false_eq_true, if_false]
        cases hak1 : s1.occupied_now u with
        | none => exact decide_action_returns _ _ _ _ _ _ _ _
        | some ak =>
          have hak : s.occupied_now u = some ak := by rw [← hon1]; exact hak1
          simp only
          split_ifs with hakn
          · have hL2 := linked_child hL hS2 hc2 hw2 hak hakn
            generalize ({ s1 with request_chain := s1.request_chain ++ [⟨ai, u⟩] } : PIBT) = s2
              at hS2 hc2 hw2 hL2 ⊢
            have hmu2 := @unplanned_reserved n _ _ _ _ hS2 hL.ai_lt hL.unplanned
            refine bind_returns (hns _ _ _ hL2 (by omega)) fun r1 hr1 => ?_
            obtain ⟨hP, hR⟩ := hcall _ _ _ _ hL2 hr1
            split_ifs with hr
            · exact decide_action_returns _ _ _ _ _ _ _ _
            · have hr' : r1.1 = false := by simpa using hr
              obtain ⟨hL4, _, _, hsame⟩ := linked_backtrack hL hS2 hc2 hP hR hr' rfl
              refine ih _ _ hL4 (le_trans (unplanned_mono fun x hx => ?_) hmu)
              rw [hsame x hx]
              exact hx
          · exact decide_action_returns _ _ _ _ _ _ _ _

/-- An inherited call of `funcPIBT` returns or aborts when the depth bound is at least the
number of agents without a next location. -/
theorem funcPIBT_returns (E : Env) (n : Nat) (hG : E.G.Simple)
    (hshuffle : ∀ mt l, (E.shuffle mt l).1.Perm l) :
    ∀ (d : Nat) (s : PIBT) (ak : Nat) (aj : Option Nat),
      s.Linked E.G n ak false → PIBT.unplanned n s ≤ d →
      PIBT.funcPIBT E d s ak aj false ≠ .starved := by
  intro d
  induction d with
  | zero =>
    intro s ak aj hL hmu
    have := unplanned_pos hL.ai_lt hL.unplanned
    omega
  | succ d ih =>
    intro s ak aj hL hmu
    unfold PIBT.funcPIBT
    simp only [Bool.false_eq_true, if_false]
    refine bind_returns (candidates_returns E s ak aj false hG hshuffle hL.at_now)
      fun c hc => ?_
    obtain ⟨⟨mt, pc, e⟩, hsa⟩ := candidates_effect hc
    have hL0 : c.2.2.Linked E.G n ak false := by
      rw [e]
      exact @linked_congr E.G n s _ ak false rfl rfl rfl rfl rfl rfl hL
    have hag : c.2.2.agents = s.agents := by rw [e]
    exact candidate_loop_returns (fun s ak j r hL h => funcPIBT_linked E n d s ak (some j) r hL h)
      (fun s ak j hL hm => ih s ak (some j) hL hm) c.1 0 c.2.2 hL0
      (by rw [unplanned_congr hag]; exact hmu)

/-- A call of `funcPIBT` by `run` returns or aborts when the depth bound exceeds the number of
agents without a next location. -/
theorem funcPIBT_top_returns (E : Env) (n : Nat) (hG : E.G.Simple)
    (hshuffle : ∀ mt l, (E.shuffle mt l).1.Perm l) (d : Nat) (s : PIBT) (ai : Nat)
    (hw : s.Weak E.G n) (hat : s.At) (hO : s.Owned n) (hai : ai < n)
    (hun : (s.agents ai).v_next = none) (hmu : PIBT.unplanned n s ≤ d + 1) :
    PIBT.funcPIBT E (d + 1) s ai none true ≠ .starved := by
  unfold PIBT.funcPIBT
  simp only [if_true]
  refine bind_returns (candidates_returns E _ ai none true hG hshuffle ?_) fun c hc => ?_
  · exact hat
  obtain ⟨⟨mt, pc, e⟩, hsa⟩ := candidates_effect hc
  have hL0 : c.2.2.Linked E.G n ai true := by
    rw [e]
    refine ⟨@weak_congr E.G n s _ rfl rfl (fun r hr => absurd hr (List.not_mem_nil r)) hw,
      hat, hO, hai, hun, rfl, fun r hr => absurd hr (List.not_mem_nil r),
      fun r hr => absurd hr (List.not_mem_nil r), fun hh => absurd hh (by simp),
      fun _ => rfl⟩
  have hag : c.2.2.agents = s.agents := by rw [e]
  exact candidate_loop_returns (fun s ak j r hL h => funcPIBT_linked E n d s ak (some j) r hL h)
    (fun s ak j hL hm => funcPIBT_returns E n hG hshuffle d s ak (some j) hL hm) c.1 0 c.2.2 hL0
    (by rw [unplanned_congr hag]; exact hmu)

/-- The planning loop of `run` returns or aborts. -/
theorem plan_agents_returns {E : Env} (hG : E.G.Simple)
    (hshuffle : ∀ mt l, (E.shuffle mt l).1.Perm l) :
    ∀ (l : List Nat) (s : PIBT), s.Weak E.G E.num → s.At → s.Owned E.num →
      (∀ a, a ∈ l → a < E.num) → PIBT.plan_agents E l s ≠ .starved := by
  intro l
  induction l with
  | nil =>
    intro s _ _ _ _
    unfold PIBT.plan_agents
    exact ok_returns _
  | cons a rest ih =>
    intro s hw hat hO hl
    unfold PIBT.plan_agents
    have hrest : ∀ b, b ∈ rest → b < E.num := fun b hb => hl b (List.mem_cons_of_mem _ hb)
    split_ifs with hun
    · have ha := hl a (List.mem_cons_self _ _)
      have hmu : PIBT.unplanned E.num s ≤ E.num := unplanned_le _ _
      refine bind_returns ?_ fun r hr => ?_
      · exact funcPIBT_top_returns E E.num hG hshuffle E.num s a hw hat hO ha hun (by omega)
      · obtain ⟨hP, hO1, _, _⟩ := funcPIBT_top_linked E E.num _ s a r hw hat hO ha hun hr
        exact ih r.2 hP.2.1 (at_of_frame hP.1.frame hat) hO1 hrest
    · exact ih s hw hat hO hrest

theorem bind_bind {α β γ : Type} (x : Outcome α) (f : α → Outcome β) (g : β → Outcome γ) :
    (x.bind f).bind g = x.bind fun a => (f a).bind g := by
  cases x <;> rfl

theorem bind_congr_fun {α β : Type} (x : Outcome α) {f g : α → Outcome β}
    (h : ∀ a, f a = g a) : x.bind f = x.bind g := by
  cases x with
  | ok a => exact h a
  | halted => rfl
  | starved => rfl

theorem bind_ok_self {α : Type} (x : Outcome α) : (x.bind fun a => .ok a) = x := by
  cases x <;> rfl

theorem bind_ite_eq {α β : Type} {c : Prop} [Decidable c] {x y : Outcome α} {x' y' : Outcome β}
    {f : α → Outcome β} (hx : x.bind f = x') (hy : y.bind f = y') :
    (if c then x else y).bind f = if c then x' else y' := by
  split_ifs
  · exact hx
  · exact hy

/-- The record does not change the candidate loop. -/
theorem candidate_loop_erase {E : Env}
    {callL : PIBT → Nat → Option Nat → Bool → Outcome ((Bool × PIBT) × List Visit)}
    {call : PIBT → Nat → Option Nat → Bool → Outcome (Bool × PIBT)}
    {ai : Nat} {aj : Option Nat} {ii : Bool} {swap_agent : Option Nat}
    (herase : ∀ s ak j i, ((callL s ak j i).bind fun r => .ok r.1) = call s ak j i) :
    ∀ (C : List Nat) (m : Int) (s : PIBT),
      ((PIBT.candidate_loop_log E callL ai aj ii swap_agent C m s).bind fun r => .ok r.1) =
        PIBT.candidate_loop E call ai aj ii swap_agent C m s := by
  intro C
  induction C with
  | nil =>
    intro m s
    unfold PIBT.candidate_loop_log PIBT.candidate_loop
    rfl
  | cons u C ih =>
    intro m s
    unfold PIBT.candidate_loop_log PIBT.candidate_loop
    refine bind_ite_eq (ih _ _) (bind_ite_eq (ih _ _) ?_)
    · dsimp only
      rw [bind_bind]
      refine bind_congr_fun _ fun cycle => ?_
      cases cycle with
      | true =>
        simp only [if_true]
        split_ifs
        · rfl
        · rw [bind_bind]
          exact bind_congr_fun _ fun _ => rfl
      | false =>
        simp only [Bool.false_eq_true, if_false]
        cases ((s.setOccupiedNext u (some ai)).set_v_next ai (some u)).occupied_now u with
        | none =>
          simp only
          rw [bind_bind]
          exact bind_ok_self _
        | some ak =>
          simp only
          split_ifs
          · rw [← herase, bind_bind, bind_bind]
            refine bind_congr_fun _ fun r => ?_
            simp only [Outcome.bind_ok]
            split_ifs
            · rw [bind_bind]
              exact bind_ok_self _
            · rw [bind_bind]
              exact ih _ _
          · rw [bind_bind]
            exact bind_ok_self _

/-- The record does not change `funcPIBT`. -/
theorem funcPIBT_log_erase (E : Env) :
    ∀ (depth level : Nat) (s : PIBT) (ai : Nat) (aj : Option Nat) (ii : Bool),
      ((PIBT.funcPIBT_log E depth level s ai aj ii).bind fun r => .ok r.1) =
        PIBT.funcPIBT E depth s ai aj ii := by
  intro depth
  induction depth with
  | zero =>
    intro level s ai aj ii
    rfl
  | succ d ih =>
    intro level s ai aj ii
    unfold PIBT.funcPIBT_log PIBT.funcPIBT
    dsimp only
    rw [bind_bind]
    refine bind_congr_fun _ fun c => ?_
    rw [bind_bind]
    exact candidate_loop_erase (fun s ak j i => ih (level + 1) s ak j i) _ _ _

/-- The record does not change the planning loop of `run`. -/
theorem plan_agents_log_erase (E : Env) :
    ∀ (l : List Nat) (s : PIBT),
      ((PIBT.plan_agents_log E l s).bind fun r => .ok r.1) = PIBT.plan_agents E l s := by
  intro l
  induction l with
  | nil =>
    intro s
    rfl
  | cons a rest ih =>
    intro s
    unfold PIBT.plan_agents_log PIBT.plan_agents
    split_ifs
    · rw [← funcPIBT_log_erase E (E.num + 1) 1, bind_bind, bind_bind]
      refine bind_congr_fun _ fun r => ?_
      simp only [Outcome.bind_ok]
      rw [bind_bind]
      exact ih _
    · exact ih _

theorem logged_nil (n : Nat) (s r : PIBT) (lev : Nat) : PIBT.Logged n s r lev [] :=
  ⟨List.nodup_nil, fun e he => absurd he (List.not_mem_nil e)⟩

theorem logged_transport {n lev lev' : Nat} {s s' r r' : PIBT} {log : List Visit}
    (h : PIBT.Logged n s' r' lev' log) (hlev : lev ≤ lev')
    (hs : ∀ e, e ∈ log → (s'.agents e.agent).v_next = none → (s.agents e.agent).v_next = none)
    (hr : ∀ x, (r'.agents x).v_next ≠ none → (r.agents x).v_next ≠ none) :
    PIBT.Logged n s r lev log :=
  ⟨h.1, fun e he =>
    let g := h.2 e he
    ⟨g.1, le_trans hlev g.2.1, g.2.2.1, g.2.2.2.1, g.2.2.2.2.1, hs e he g.2.2.2.2.2.1,
      hr _ g.2.2.2.2.2.2⟩⟩

theorem logged_append {n lev : Nat} {s r : PIBT} {l1 l2 : List Visit}
    (h1 : PIBT.Logged n s r lev l1) (h2 : PIBT.Logged n s r lev l2)
    (hd : ∀ e1, e1 ∈ l1 → ∀ e2, e2 ∈ l2 → e1.agent ≠ e2.agent) :
    PIBT.Logged n s r lev (l1 ++ l2) := by
  refine ⟨?_, fun e he => ?_⟩
  · rw [List.map_append]
    refine List.Nodup.append h1.1 h2.1 ?_
    intro x hx1 hx2
    obtain ⟨e1, he1, e1x⟩ := List.mem_map.mp hx1
    obtain ⟨e2, he2, e2x⟩ := List.mem_map.mp hx2
    exact hd e1 he1 e2 he2 (e1x.trans e2x.symm)
  · rcases List.mem_append.mp he with g | g
    · exact h1.2 e g
    · exact h2.2 e g

theorem logged_length {n lev : Nat} {s r : PIBT} {log : List Visit}
    (h : PIBT.Logged n s r lev log) : log.length ≤ n := by
  have := @nodup_range_length (log.map Visit.agent) n h.1 (fun x hx => by
    obtain ⟨e, he, ex⟩ := List.mem_map.mp hx
    rw [← ex]
    exact (h.2 e he).1)
  rwa [List.length_map] at this

/-- A next location survives the part of the loop body of `funcPIBT` below an inherited call
that succeeded. -/
theorem decide_action_grows {E : Env} {n : Nat} {s s2 : PIBT} {ai u ak : Nat}
    {aj : Option Nat} {ii : Bool} {swap_agent : Option Nat} {m : Int} {r1 r : Bool × PIBT}
    (hS : s.Reserved s2 ai u) (hat2 : s2.At) (hai : ai < n)
    (hP : PIBT.WPost E.G n s2 r1) (hR : s2.Returned n ak r1)
    (hsw : ∀ sa, swap_agent = some sa → sa < n)
    (h : PIBT.decide_action E r1.2 ai aj ii swap_agent u m = .ok r) :
    ∀ x, (r1.2.agents x).v_next ≠ none → (r.2.agents x).v_next ≠ none := by
  by_cases hch : r1.2.cycle_handled = true
  · unfold PIBT.decide_action at h
    rw [if_pos hch] at h
    simp only [Outcome.ok.injEq] at h
    rw [← h]
    exact fun x hx => hx
  · have hch' : r1.2.cycle_handled = false := by simpa using hch
    have hai2 : (s2.agents ai).v_next ≠ none := by rw [hS.target]; simp
    have hv : (r1.2.agents ai).v_next = some u := by
      rw [hR.kept hch' ai hai2]
      exact hS.target
    obtain ⟨_, _, _, _, _, g⟩ := decide_action_owned hR.owned (at_of_frame hP.1.frame hat2)
      hP.2.1 hai hv hsw h
    exact fun x hx hc => hx (g x hc)

theorem backtrack_others (r : PIBT) (ai u x : Nat) (hx : x ≠ ai) :
    ((({ r with request_chain := r.request_chain.dropLast } : PIBT).setOccupiedNext u
      none).set_v_next ai none).agents x = r.agents x := by
  simp [PIBT.set_v_next, PIBT.setAgent, PIBT.setOccupiedNext, Function.update_apply, hx]

/-- The record of the candidate loop of `funcPIBT`: the inherited calls are made one level
deeper, for agents without a next location other than the agent of the loop. -/
theorem candidate_loop_logged {E : Env} {n lev : Nat}
    {callL : PIBT → Nat → Option Nat → Bool → Outcome ((Bool × PIBT) × List Visit)}
    {call : PIBT → Nat → Option Nat → Bool → Outcome (Bool × PIBT)}
    {ai : Nat} {aj : Option Nat} {ii : Bool} {swap_agent : Option Nat}
    (herase : ∀ s ak j i, ((callL s ak j i).bind fun r => .ok r.1) = call s ak j i)
    (hcall : ∀ s ak j r, s.Linked E.G n ak false → call s ak (some j) false = .ok r →
      PIBT.WPost E.G n s r ∧ s.Returned n ak r)
    (hlog : ∀ s ak j rl, s.Linked E.G n ak false → lev + 1 + PIBT.unplanned n s ≤ n + 1 →
      callL s ak (some j) false = .ok rl → PIBT.Logged n s rl.1.2 (lev + 1) rl.2)
    (hsw : ∀ sa, swap_agent = some sa → sa < n) :
    ∀ (C : List Nat) (m : Int) (s : PIBT) (rl : (Bool × PIBT) × List Visit),
      s.Linked E.G n ai ii → lev + PIBT.unplanned n s ≤ n + 1 →
      PIBT.candidate_loop_log E callL ai aj ii swap_agent C m s = .ok rl →
      PIBT.Logged n s rl.1.2 (lev + 1) rl.2 ∧ ∀ e, e ∈ rl.2 → e.agent ≠ ai := by
  intro C
  induction C with
  | nil =>
    intro m s rl _ _ h
    unfold PIBT.candidate_loop_log at h
    simp only [Outcome.ok.injEq] at h
    rw [← h]
    exact ⟨logged_nil _ _ _ _, fun e he => absurd he (List.not_mem_nil e)⟩
  | cons u C ih =>
    intro m s rl hL hmu h
    have hnil : ∀ (q : Bool × PIBT), PIBT.Logged n s q.2 (lev + 1) [] ∧
        ∀ e, e ∈ ([] : List Visit) → e.agent ≠ ai :=
      fun q => ⟨logged_nil _ _ _ _, fun e he => absurd he (List.not_mem_nil e)⟩
    unfold PIBT.candidate_loop_log at h
    split_ifs at h with h1 h2
    · exact ih _ _ _ hL hmu h
    · exact ih _ _ _ hL hmu h
    · obtain ⟨hS1, hw1, hon1, hS2, hc2, hw2⟩ := reserve_facts u hL
      dsimp only at h
      generalize (s.setOccupiedNext u (some ai)).set_v_next ai (some u) = s1
        at h hS1 hw1 hon1 hS2 hc2 hw2
      obtain ⟨cycle, hcyc, h⟩ := Outcome.bind_eq_ok.mp h
      cases cycle with
      | true =>
        simp only [if_true] at h
        split_ifs at h with ho
        obtain ⟨s', hs', h⟩ := Outcome.bind_eq_ok.mp h
        simp only [Outcome.ok.injEq] at h
        rw [← h]
        exact hnil _
      | false =>
        simp only [Bool.false_eq_true, if_false] at h
        cases hak1 : s1.occupied_now u with
        | none =>
          rw [hak1] at h
          obtain ⟨q, _, h⟩ := Outcome.bind_eq_ok.mp h
          simp only [Outcome.ok.injEq] at h
          rw [← h]
          exact hnil _
        | some ak =>
          rw [hak1] at h
          have hak : s.occupied_now u = some ak := by rw [← hon1]; exact hak1
          simp only at h
          split_ifs at h with hakn
          · obtain ⟨rr, hr1L, h⟩ := Outcome.bind_eq_ok.mp h
            have hL2 := linked_child hL hS2 hc2 hw2 hak hakn
            generalize ({ s1 with request_chain := s1.request_chain ++ [⟨ai, u⟩] } : PIBT) = s2
              at hS2 hc2 hw2 hr1L hL2
            have hmu2 := @unplanned_reserved n _ _ _ _ hS2 hL.ai_lt hL.unplanned
            have hr1 : call s2 ak (some ai) false = .ok rr.1 := by
              rw [← herase, hr1L]
              rfl
            obtain ⟨hP, hR⟩ := hcall _ _ _ _ hL2 hr1
            have hG1 := hlog _ _ _ _ hL2 (by omega) hr1L
            have hai2 : (s2.agents ai).v_next ≠ none := by rw [hS2.target]; simp
            have hback : ∀ e, e ∈ rr.2 → (s2.agents e.agent).v_next = none →
                (s.agents e.agent).v_next = none := by
              intro e _ he2
              have hne : e.agent ≠ ai := fun ee => hai2 (ee ▸ he2)
              rw [← hS2.others _ hne]
              exact he2
            have hne1 : ∀ e, e ∈ rr.2 → e.agent ≠ ai :=
              fun e he ee => hai2 (ee ▸ (hG1.2 e he).2.2.2.2.2.1)
            split_ifs at h with hr
            · obtain ⟨q, hq, h⟩ := Outcome.bind_eq_ok.mp h
              simp only [Outcome.ok.injEq] at h
              rw [← h]
              exact ⟨logged_transport hG1 (le_refl _) hback
                (decide_action_grows hS2 hL2.at_now hL.ai_lt hP hR hsw hq), hne1⟩
            · have hr' : rr.1.1 = false := by simpa using hr
              obtain ⟨hL4, hc4, hrq4, hsame⟩ := linked_backtrack hL hS2 hc2 hP hR hr' rfl
              obtain ⟨q, hq, h⟩ := Outcome.bind_eq_ok.mp h
              simp only [Outcome.ok.injEq] at h
              have hq0 : PIBT.candidate_loop E call ai aj ii swap_agent C (m + 1)
                  ((({ rr.1.2 with request_chain := rr.1.2.request_chain.dropLast } :
                    PIBT).setOccupiedNext u none).set_v_next ai none) = .ok q.1 := by
                rw [← candidate_loop_erase herase, hq]
                rfl
              have hR4 := candidate_loop_linked hcall hsw _ _ _ _ hL4 hq0
              have hoth := backtrack_others rr.1.2 ai u
              generalize (({ rr.1.2 with request_chain := rr.1.2.request_chain.dropLast } :
                PIBT).setOccupiedNext u none).set_v_next ai none = s4
                at hL4 hc4 hrq4 hsame hq hR4 hoth
              have hp4 : ∀ x, (s.agents x).v_next ≠ none → (s4.agents x).v_next ≠ none := by
                intro x hx
                rw [hsame x hx]
                exact hx
              obtain ⟨hG2, hne2⟩ := ih _ _ _ hL4
                (le_trans (Nat.add_le_add_left (unplanned_mono hp4) lev) hmu) hq
              have h14 : ∀ e, e ∈ rr.2 → (s4.agents e.agent).v_next ≠ none := by
                intro e he
                rw [hoth _ (hne1 e he)]
                exact (hG1.2 e he).2.2.2.2.2.2
              rw [← h]
              refine ⟨logged_append ?_ ?_ ?_, ?_⟩
              · refine logged_transport hG1 (le_refl _) hback fun x hx => ?_
                by_cases hxa : x = ai
                · rw [hxa]
                  exact hR4.planned
                · refine hR4.grows x ?_
                  rw [hoth x hxa]
                  exact hx
              · refine logged_transport hG2 (le_refl _) (fun e _ he4 => ?_) (fun x hx => hx)
                by_contra hc
                exact hp4 _ hc he4
              · intro e1 he1 e2 he2 ee
                have := h14 e1 he1
                rw [ee] at this
                exact this (hG2.2 e2 he2).2.2.2.2.2.1
              · intro e he
                rcases List.mem_append.mp he with g | g
                · exact hne1 e g
                · exact hne2 e g
          · obtain ⟨q, _, h⟩ := Outcome.bind_eq_ok.mp h
            simp only [Outcome.ok.injEq] at h
            rw [← h]
            exact hnil _

theorem logged_cons {n lev : Nat} {s r : PIBT} {log : List Visit} {e0 : Visit}
    (h : PIBT.Logged n s r lev log) (hne : ∀ e, e ∈ log → e.agent ≠ e0.agent)
    (h0 : e0.agent < n ∧ lev ≤ e0.depth ∧ e0.depth ≤ n ∧ e0.v_next_in = none ∧
      e0.v_next_out ≠ none ∧ (s.agents e0.agent).v_next = none ∧
      (r.agents e0.agent).v_next ≠ none) :
    PIBT.Logged n s r lev (e0 :: log) := by
  refine ⟨?_, fun e he => ?_⟩
  · rw [List.map_cons]
    refine List.nodup_cons.mpr ⟨fun hmem => ?_, h.1⟩
    obtain ⟨e, he, ex⟩ := List.mem_map.mp hmem
    exact hne e he ex
  · rcases List.mem_cons.mp he with g | g
    · rw [g]
      exact h0
    · exact h.2 e g

/-- The record of an inherited call of `funcPIBT` made at level `lev`. -/
theorem funcPIBT_logged (E : Env) (n : Nat) :
    ∀ (d lev : Nat) (s : PIBT) (ak : Nat) (aj : Option Nat)
      (rl : (Bool × PIBT) × List Visit),
      s.Linked E.G n ak false → lev + PIBT.unplanned n s ≤ n + 1 →
      PIBT.funcPIBT_log E d lev s ak aj false = .ok rl → PIBT.Logged n s rl.1.2 lev rl.2 := by
  intro d
  induction d with
  | zero =>
    intro lev s ak aj rl _ _ h
    unfold PIBT.funcPIBT_log at h
    exact absurd h (by simp)
  | succ d ih =>
    intro lev s ak aj rl hL hmu h
    unfold PIBT.funcPIBT_log at h
    simp only [Bool.false_eq_true, if_false] at h
    obtain ⟨c, hc, h⟩ := Outcome.bind_eq_ok.mp h
    obtain ⟨q, hq, h⟩ := Outcome.bind_eq_ok.mp h
    simp only [Outcome.ok.injEq] at h
    obtain ⟨⟨mt, pc, e⟩, hsa⟩ := candidates_effect hc
    have hsw : ∀ sa, c.2.1 = some sa → sa < n := by
      intro sa hs
      obtain ⟨x, hx⟩ := hsa sa hs
      exact hL.weak.occ_lt x sa hx
    have hL0 : c.2.2.Linked E.G n ak false := by
      rw [e]
      exact @linked_congr E.G n s _ ak false rfl rfl rfl rfl rfl rfl hL
    have hag : c.2.2.agents = s.agents := by rw [e]
    have herase := fun s ak j i => funcPIBT_log_erase E d (lev + 1) s ak j i
    have hcall : ∀ s ak j r, s.Linked E.G n ak false →
        PIBT.funcPIBT E d s ak (some j) false = .ok r →
        PIBT.WPost E.G n s r ∧ s.Returned n ak r :=
      fun s ak j r hL h => funcPIBT_linked E n d s ak (some j) r hL h
    have hq0 : PIBT.candidate_loop E (PIBT.funcPIBT E d) ak aj false c.2.1 c.1 0 c.2.2 =
        .ok q.1 := by
      rw [← candidate_loop_erase herase, hq]
      rfl
    have hR := candidate_loop_linked hcall hsw _ _ _ _ hL0 hq0
    obtain ⟨hG, hne⟩ := candidate_loop_logged herase hcall
      (fun s ak j rl hL hm h => ih (lev + 1) s ak (some j) rl hL hm h) hsw c.1 0 c.2.2 q hL0
      (by rw [unplanned_congr hag]; exact hmu) hq
    have hpos := @unplanned_pos n s ak hL.ai_lt hL.unplanned
    rw [← h]
    refine logged_cons (logged_transport hG (Nat.le_succ lev) (fun e _ he => ?_)
      (fun x hx => hx)) hne ⟨hL.ai_lt, le_refl _, by show lev ≤ n; omega, hL.unplanned,
        hR.planned, hL.unplanned, hR.planned⟩
    rw [← hag]
    exact he

/-- The record of a call of `funcPIBT` by `run`. -/
theorem funcPIBT_top_logged (E : Env) (n : Nat) (d lev : Nat) (s : PIBT) (ai : Nat)
    (rl : (Bool × PIBT) × List Visit) (hw : s.Weak E.G n) (hat : s.At) (hO : s.Owned n)
    (hai : ai < n) (hun : (s.agents ai).v_next = none)
    (hmu : lev + PIBT.unplanned n s ≤ n + 1)
    (h : PIBT.funcPIBT_log E d lev s ai none true = .ok rl) :
    PIBT.Logged n s rl.1.2 lev rl.2 := by
  cases d with
  | zero =>
    unfold PIBT.funcPIBT_log at h
    exact absurd h (by simp)
  | succ d =>
    unfold PIBT.funcPIBT_log at h
    simp only [if_true] at h
    obtain ⟨c, hc, h⟩ := Outcome.bind_eq_ok.mp h
    obtain ⟨q, hq, h⟩ := Outcome.bind_eq_ok.mp h
    simp only [Outcome.ok.injEq] at h
    obtain ⟨⟨mt, pc, e⟩, hsa⟩ := candidates_effect hc
    have hsw : ∀ sa, c.2.1 = some sa → sa < n := by
      intro sa hs
      obtain ⟨x, hx⟩ := hsa sa hs
      exact hw.occ_lt x sa hx
    have hL0 : c.2.2.Linked E.G n ai true := by
      rw [e]
      refine ⟨@weak_congr E.G n s _ rfl rfl (fun r hr => absurd hr (List.not_mem_nil r)) hw,
        hat, hO, hai, hun, rfl, fun r hr => absurd hr (List.not_mem_nil r),
        fun r hr => absurd hr (List.not_mem_nil r), fun hh => absurd hh (by simp),
        fun _ => rfl⟩
    have hag : c.2.2.agents = s.agents := by rw [e]
    have herase := fun s ak j i => funcPIBT_log_erase E d (lev + 1) s ak j i
    have hcall : ∀ s ak j r, s.Linked E.G n ak false →
        PIBT.funcPIBT E d s ak (some j) false = .ok r →
        PIBT.WPost E.G n s r ∧ s.Returned n ak r :=
      fun s ak j r hL h => funcPIBT_linked E n d s ak (some j) r hL h
    have hq0 : PIBT.candidate_loop E (PIBT.funcPIBT E d) ai none true c.2.1 c.1 0 c.2.2 =
        .ok q.1 := by
      rw [← candidate_loop_erase herase, hq]
      rfl
    have hR := candidate_loop_linked hcall hsw _ _ _ _ hL0 hq0
    obtain ⟨hG, hne⟩ := candidate_loop_logged herase hcall
      (fun s ak j rl hL hm h => funcPIBT_logged E n d (lev + 1) s ak (some j) rl hL hm h) hsw
      c.1 0 c.2.2 q hL0 (by rw [unplanned_congr hag]; exact hmu) hq
    have hpos := @unplanned_pos n s ai hai hun
    rw [← h]
    refine logged_cons (logged_transport hG (Nat.le_succ lev) (fun e _ he => ?_)
      (fun x hx => hx)) hne ⟨hai, le_refl _, by show lev ≤ n; omega, hun,
        hR.planned, hun, hR.planned⟩
    rw [← hag]
    exact he

/-- The record of the planning loop of `run`. -/
theorem plan_agents_logged {E : Env} :
    ∀ (l : List Nat) (s : PIBT) (rl : PIBT × List Visit), s.Weak E.G E.num → s.At →
      s.Owned E.num → (∀ a, a ∈ l → a < E.num) → PIBT.plan_agents_log E l s = .ok rl →
      PIBT.Logged E.num s rl.1 1 rl.2 := by
  intro l
  induction l with
  | nil =>
    intro s rl _ _ _ _ h
    unfold PIBT.plan_agents_log at h
    simp only [Outcome.ok.injEq] at h
    rw [← h]
    exact logged_nil _ _ _ _
  | cons a rest ih =>
    intro s rl hw hat hO hl h
    unfold PIBT.plan_agents_log at h
    have hrest : ∀ b, b ∈ rest → b < E.num := fun b hb => hl b (List.mem_cons_of_mem _ hb)
    split_ifs at h with hun
    · have ha := hl a (List.mem_cons_self _ _)
      obtain ⟨rr, hrr, h⟩ := Outcome.bind_eq_ok.mp h
      obtain ⟨q, hq, h⟩ := Outcome.bind_eq_ok.mp h
      simp only [Outcome.ok.injEq] at h
      have hr : PIBT.funcPIBT E (E.num + 1) s a none true = .ok rr.1 := by
        rw [← funcPIBT_log_erase E (E.num + 1) 1, hrr]
        rfl
      obtain ⟨hP, hO1, _, hgrow⟩ := funcPIBT_top_linked E E.num _ s a rr.1 hw hat hO ha hun hr
      have hat1 := at_of_frame hP.1.frame hat
      have hmu : 1 + PIBT.unplanned E.num s ≤ E.num + 1 := by
        have := unplanned_le E.num s
        omega
      have hG1 := funcPIBT_top_logged E E.num _ 1 s a rr hw hat hO ha hun hmu hrr
      have hG2 := ih rr.1.2 q hP.2.1 hat1 hO1 hrest hq
      have hq0 : PIBT.plan_agents E rest rr.1.2 = .ok q.1 := by
        rw [← plan_agents_log_erase, hq]
        rfl
      obtain ⟨_, hgrow2, _⟩ := plan_agents_linked rest rr.1.2 q.1 hP.2.1 hat1 hO1 hrest hq0
      rw [← h]
      refine logged_append ?_ ?_ ?_
      · exact logged_transport hG1 (le_refl _) (fun e _ he => he) hgrow2
      · refine logged_transport hG2 (le_refl _) (fun e _ he => ?_) (fun x hx => hx)
        by_contra hc
        exact hgrow _ hc he
      · intro e1 he1 e2 he2 ee
        have := (hG1.2 e1 he1).2.2.2.2.2.2
        rw [ee] at this
        exact this (hG2.2 e2 he2).2.2.2.2.2.1
    · exact ih s rl hw hat hO hrest h

theorem commit_agent_returns (s : PIBT) (c : Commit) (a : Nat) :
    PIBT.commit_agent s c a ≠ .starved := by
  unfold PIBT.commit_agent
  dsimp only
  split
  · exact halted_returns
  · exact bind_returns (safe_value_returns _) fun _ _ => ok_returns _

theorem commit_agents_returns :
    ∀ (l : List Nat) (s : PIBT) (c : Commit), PIBT.commit_agents l s c ≠ .starved := by
  intro l
  induction l with
  | nil =>
    intro s c
    exact ok_returns _
  | cons a rest ih =>
    intro s c
    unfold PIBT.commit_agents
    exact bind_returns (commit_agent_returns _ _ _) fun _ _ => ih _ _

theorem addWithOrientation_returns (p : Plan) (c : Config) (o : List Orientation) :
    p.addWithOrientation c o ≠ .starved := by
  unfold Plan.addWithOrientation
  split_ifs
  · exact halted_returns
  · exact halted_returns
  · exact ok_returns _

theorem corridor3_simple : corridor3.Simple := by
  refine ⟨fun v u h => ?_, fun v u h => ?_, fun v h => ?_⟩
  · simp only [corridor3] at h ⊢
    split_ifs at h <;> simp at h <;> omega
  · simp only [corridor3] at h ⊢
    split_ifs at h with h0 h1 h2
    · simp at h
      simp [h, h0]
    · simp at h
      rcases h with h | h <;> simp [h, h1]
    · simp at h
      simp [h, h2]
    · simp at h
  · simp only [corridor3] at h
    split_ifs at h <;> simp at h <;> omega

theorem follow_record :
    (PIBT.after (follow_env 6) 1).bind (fun s =>
      (PIBT.planning_log (follow_env 6) s).bind fun rl => Outcome.ok rl.2) =
      .ok [⟨0, 1, none, some 1⟩, ⟨1, 2, none, some 2⟩] := by
  decide!

/-- C13: in every timestep of `run`, `funcPIBT` is entered at most once per agent: in the
record of the invocations of `funcPIBT` that the planning loop makes from a state between two
timesteps, no agent occurs twice, every invocation is made for an agent whose `v_next` is
unset and returns with that agent's `v_next` set, so that there are at most `N` invocations,
none with more than `N` frames of `funcPIBT` on the stack; the record does not change the
planning loop; and on a simple undirected graph, with `std::shuffle` a permutation, the
timestep terminates (it returns or aborts). -/
theorem funcPIBT_once_per_agent (E : Env) (t : Nat) (s : PIBT) (h : PIBT.after E t = .ok s) :
    ((PIBT.planning_log E s).bind (fun rl => .ok rl.1) =
      PIBT.plan_agents E (std_sort (fun a b => PIBT.run_compare (s.agents a) (s.agents b)) s.A)
        { s with A := std_sort (fun a b => PIBT.run_compare (s.agents a) (s.agents b)) s.A }) ∧
    (∀ rl, PIBT.planning_log E s = .ok rl →
      (rl.2.map Visit.agent).Nodup ∧ rl.2.length ≤ E.num ∧
      ∀ e, e ∈ rl.2 → e.agent < E.num ∧ 1 ≤ e.depth ∧ e.depth ≤ E.num ∧
        e.v_next_in = none ∧ e.v_next_out ≠ none) ∧
    (E.G.Simple → (∀ mt l, (E.shuffle mt l).1.Perm l) → PIBT.timestep E s ≠ .starved) := by
  have hR := (after_sound E t s h).rest
  obtain ⟨hat, hempty⟩ := after_tables E t s h
  have hperm : (std_sort (fun a b => PIBT.run_compare (s.agents a) (s.agents b)) s.A).Perm
      (List.range E.num) := (std_sort_perm _ _).trans hR.order
  have hmem : ∀ a, a ∈ std_sort (fun a b => PIBT.run_compare (s.agents a) (s.agents b)) s.A →
      a < E.num := by
    intro a ha
    rw [hperm.mem_iff, List.mem_range] at ha
    exact ha
  unfold PIBT.planning_log PIBT.timestep
  dsimp only
  generalize std_sort (fun a b => PIBT.run_compare (s.agents a) (s.agents b)) s.A = sA
    at hmem
  have hws : PIBT.Weak E.G E.num ({ s with A := sA } : PIBT) :=
    @weak_congr E.G E.num s _ rfl rfl hR.weak.chain_lt hR.weak
  have hO0 : PIBT.Owned E.num ({ s with A := sA } : PIBT) := by
    intro x hx
    exact absurd (hempty x) hx
  refine ⟨plan_agents_log_erase E sA _, fun rl hrl => ?_, fun hG hshuffle => ?_⟩
  · have hG := plan_agents_logged sA _ rl hws hat hO0 hmem hrl
    exact ⟨hG.1, logged_length hG, fun e he =>
      ⟨(hG.2 e he).1, (hG.2 e he).2.1, (hG.2 e he).2.2.1, (hG.2 e he).2.2.2.1,
        (hG.2 e he).2.2.2.2.1⟩⟩
  · exact bind_returns (plan_agents_returns hG hshuffle sA _ hws hat hO0 hmem) fun _ _ =>
      bind_returns (commit_agents_returns _ _ _) fun _ _ =>
        bind_returns (addWithOrientation_returns _ _ _) fun _ _ => ok_returns _

/-- Witness of C13 on `follow_env`, in the second timestep: agent `0` is planned first and
inherits its priority to agent `1`, which is planned at depth `2 = N`. -/
theorem funcPIBT_once_per_agent_witness :
    ∃ s rl, PIBT.after (follow_env 6) 1 = .ok s ∧
      PIBT.planning_log (follow_env 6) s = .ok rl ∧
      rl.2 = [⟨0, 1, none, some 1⟩, ⟨1, 2, none, some 2⟩] ∧
      ((rl.2.map Visit.agent).Nodup ∧ rl.2.length ≤ (follow_env 6).num ∧
        ∀ e, e ∈ rl.2 → e.agent < (follow_env 6).num ∧ 1 ≤ e.depth ∧
          e.depth ≤ (follow_env 6).num ∧ e.v_next_in = none ∧ e.v_next_out ≠ none) ∧
      PIBT.timestep (follow_env 6) s ≠ .starved := by
  obtain ⟨s, hs, hv⟩ := Outcome.bind_eq_ok.mp follow_record
  obtain ⟨rl, hrl, hv⟩ := Outcome.bind_eq_ok.mp hv
  exact ⟨s, rl, hs, hrl, Outcome.ok.inj hv,
    (funcPIBT_once_per_agent (follow_env 6) 1 s hs).2.1 rl hrl,
    (funcPIBT_once_per_agent (follow_env 6) 1 s hs).2.2 corridor3_simple
      (fun _ l => List.Perm.refl l)⟩

/-! ## The candidate loop of `funcPIBT`, the cycle handler and the swap tests -/

theorem crowd_candidates_start :
    (PIBT.after crowd_env 0).bind (fun s =>
      (PIBT.candidates crowd_env { s with request_chain := [], cycle_handled := false, initial_requester := some 0 } 0 none true).bind fun c =>
        Outcome.ok (c.1, c.2.1)) = .ok ([3, 2, 1, 0], some 2) := by
  decide!

theorem crowd_candidates_next :
    (PIBT.after crowd_env 1).bind (fun s =>
      (PIBT.candidates crowd_env { s with request_chain := [], cycle_handled := false, initial_requester := some 0 } 0 none true).bind fun c =>
        Outcome.ok (c.1, c.2.1)) = .ok ([2, 3, 1, 0], some 2) := by
  decide!

theorem setPushCount_apply (s : PIBT) (i j : Nat) (x : Int) (a b : Nat) :
    (s.setPushCount i j x).push_count_table a b =
      if a = i ∧ b = j then x else s.push_count_table a b := by
  unfold PIBT.setPushCount
  by_cases ha : a = i
  · by_cases hb : b = j
    · subst ha hb
      simp
    · subst ha
      simp [hb, Function.update_noteq hb]
  · simp [ha, Function.update_noteq ha]

theorem updatePushCount_apply (E : Env) (s : PIBT) (i j a b : Nat) :
    (PIBT.updatePushCount E s i j).push_count_table a b =
      if a = i ∧ b = j ∧ i < E.num ∧ j < E.num then s.push_count_table a b + 1
      else s.push_count_table a b := by
  unfold PIBT.updatePushCount
  by_cases hr : i < E.num ∧ j < E.num
  · rw [if_pos hr, setPushCount_apply]
    by_cases hab : a = i ∧ b = j
    · rw [if_pos hab, if_pos ⟨hab.1, hab.2, hr.1, hr.2⟩, hab.1, hab.2]
    · rw [if_neg hab, if_neg fun h => hab ⟨h.1, h.2.1⟩]
  · rw [if_neg hr, if_neg fun h => hr ⟨h.2.2.1, h.2.2.2⟩]

/-- C25: `PushEscapeTrigger(C, pushed, pusher)`: if the push count of the pair is at least `2`
and `C` has more than one element, the result is the shuffled `C`, a permutation of `C`, and
the entry of the pair becomes `0`; otherwise `C` and the whole solver are unchanged; in both
cases every other entry of the table is unchanged.  For agents `pushed, pusher < N` the push
count is the entry of the table, and after two increments of a non-negative entry the next
trigger reshuffles and resets the entry, and a further trigger changes nothing.  `std::shuffle`
is taken to permute its argument. -/
theorem pushEscape_spec (E : Env) (hshuffle : ∀ mt l, (E.shuffle mt l).1.Perm l) (s : PIBT)
    (C : List Nat) (i j : Nat) :
    (PIBT.getPushCount E s i j ≥ 2 ∧ C.length > 1 →
      (PIBT.PushEscapeTrigger E s C i j).1 = (E.shuffle s.MT C).1 ∧
      (PIBT.PushEscapeTrigger E s C i j).1.Perm C ∧
      (PIBT.PushEscapeTrigger E s C i j).2.push_count_table i j = 0) ∧
    (¬ (PIBT.getPushCount E s i j ≥ 2 ∧ C.length > 1) →
      PIBT.PushEscapeTrigger E s C i j = (C, s)) ∧
    (∀ a b, ¬ (a = i ∧ b = j) →
      (PIBT.PushEscapeTrigger E s C i j).2.push_count_table a b = s.push_count_table a b) ∧
    (i < E.num → j < E.num → PIBT.getPushCount E s i j = s.push_count_table i j) ∧
    (i < E.num → j < E.num → 0 ≤ s.push_count_table i j → C.length > 1 →
      (PIBT.PushEscapeTrigger E (PIBT.updatePushCount E (PIBT.updatePushCount E s i j) i j)
        C i j).1 = (E.shuffle s.MT C).1 ∧
      (PIBT.PushEscapeTrigger E (PIBT.updatePushCount E (PIBT.updatePushCount E s i j) i j)
        C i j).2.push_count_table i j = 0 ∧
      PIBT.PushEscapeTrigger E
        (PIBT.PushEscapeTrigger E (PIBT.updatePushCount E (PIBT.updatePushCount E s i j) i j)
          C i j).2
        (PIBT.PushEscapeTrigger E (PIBT.updatePushCount E (PIBT.updatePushCount E s i j) i j)
          C i j).1 i j =
        PIBT.PushEscapeTrigger E (PIBT.updatePushCount E (PIBT.updatePushCount E s i j) i j)
          C i j) := by
  have fire : ∀ (t : PIBT) (D : List Nat), PIBT.getPushCount E t i j ≥ 2 ∧ D.length > 1 →
      PIBT.PushEscapeTrigger E t D i j =
        ((E.shuffle t.MT D).1,
          ({ t with MT := (E.shuffle t.MT D).2 } : PIBT).setPushCount i j 0) := by
    intro t D h
    unfold PIBT.PushEscapeTrigger
    dsimp only
    rw [if_pos h]
  have idle : ∀ (t : PIBT) (D : List Nat), ¬ (PIBT.getPushCount E t i j ≥ 2 ∧ D.length > 1) →
      PIBT.PushEscapeTrigger E t D i j = (D, t) := by
    intro t D h
    unfold PIBT.PushEscapeTrigger
    dsimp only
    rw [if_neg h]
  have count : ∀ t : PIBT, i < E.num → j < E.num →
      PIBT.getPushCount E t i j = t.push_count_table i j := by
    intro t hi hj
    unfold PIBT.getPushCount
    rw [if_pos ⟨hi, hj⟩]
  refine ⟨fun h => ?_, idle s C, fun a b hab => ?_, count s, fun hi hj h0 hC => ?_⟩
  · rw [fire s C h]
    exact ⟨rfl, hshuffle _ _, by rw [setPushCount_apply, if_pos ⟨rfl, rfl⟩]⟩
  · by_cases h : PIBT.getPushCount E s i j ≥ 2 ∧ C.length > 1
    · rw [fire s C h]
      show (({ s with MT := (E.shuffle s.MT C).2 } : PIBT).setPushCount i j 0).push_count_table
        a b = s.push_count_table a b
      rw [setPushCount_apply, if_neg hab]
    · rw [idle s C h]
  · have h2 : (PIBT.updatePushCount E (PIBT.updatePushCount E s i j) i j).push_count_table
        i j = s.push_count_table i j + 1 + 1 := by
      rw [updatePushCount_apply, if_pos ⟨rfl, rfl, hi, hj⟩, updatePushCount_apply,
        if_pos ⟨rfl, rfl, hi, hj⟩]
    have hmt : (PIBT.updatePushCount E (PIBT.updatePushCount E s i j) i j).MT = s.MT := by
      unfold PIBT.updatePushCount
      rw [if_pos ⟨hi, hj⟩, if_pos ⟨hi, hj⟩]
      rfl
    have hf : PIBT.getPushCount E (PIBT.updatePushCount E (PIBT.updatePushCount E s i j) i j)
        i j ≥ 2 ∧ C.length > 1 := by
      rw [count _ hi hj, h2]
      exact ⟨by omega, hC⟩
    rw [fire _ C hf, hmt]
    refine ⟨rfl, by rw [setPushCount_apply, if_pos ⟨rfl, rfl⟩], idle _ _ fun h => ?_⟩
    rw [count _ hi hj, setPushCount_apply, if_pos ⟨rfl, rfl⟩] at h
    omega

/-- Witness of C25 on `follow_env`, whose shuffle is the identity, with the freshly created
solver and the pair `(0, 1)`. -/
theorem pushEscape_spec_witness :
    (PIBT.PushEscapeTrigger (follow_env 6)
        (PIBT.updatePushCount (follow_env 6)
          (PIBT.updatePushCount (follow_env 6) (PIBT.create (follow_env 6)) 0 1) 0 1)
        [0, 1] 0 1).1 = [0, 1] ∧
      (PIBT.PushEscapeTrigger (follow_env 6)
        (PIBT.updatePushCount (follow_env 6)
          (PIBT.updatePushCount (follow_env 6) (PIBT.create (follow_env 6)) 0 1) 0 1)
        [0, 1] 0 1).2.push_count_table 0 1 = 0 := by
  have h := (pushEscape_spec (follow_env 6) (fun _ l => List.Perm.refl l)
    (PIBT.create (follow_env 6)) [0, 1] 0 1).2.2.2.2 (by decide) (by decide) (by decide)
    (by decide)
  exact ⟨h.1, h.2.1⟩

/-- The candidate list before the block on `reserved_nodes[ai->id]` is the ordered list,
reversed when there is a swap partner. -/
theorem candidates_unbiased_reverse (E : Env) (s : PIBT) (ai : Nat) (aj : Option Nat)
    (ii : Bool) (sw : Option Nat) :
    PIBT.candidates_unbiased E s ai aj ii sw =
      (PIBT.candidates_unbiased E s ai aj ii none).bind fun C =>
        .ok (if sw ≠ none then C.reverse else C) := by
  unfold PIBT.candidates_unbiased
  dsimp only
  rw [bind_bind]
  refine bind_congr_fun _ fun C => ?_
  simp

theorem pushEscape_frame (E : Env) (s : PIBT) (C : List Nat) (i j : Nat) :
    (PIBT.PushEscapeTrigger E s C i j).2.reserved_nodes = s.reserved_nodes ∧
      (PIBT.PushEscapeTrigger E s C i j).2.agents = s.agents := by
  unfold PIBT.PushEscapeTrigger
  dsimp only
  split_ifs
  · exact ⟨rfl, rfl⟩
  · exact ⟨rfl, rfl⟩

theorem candidates_order {E : Env} {s : PIBT} {ai : Nat} {aj : Option Nat} {ii : Bool}
    {c : List Nat × Option Nat × PIBT} (h : PIBT.candidates E s ai aj ii = .ok c) :
    ∃ C, PIBT.candidates_unbiased E s ai aj ii none = .ok C ∧
      c.1 = reservation_bias (s.reserved_nodes (s.agents ai).id)
        (if c.2.1 ≠ none then C.reverse else C) := by
  unfold PIBT.candidates at h
  unfold PIBT.candidates_unbiased
  dsimp only at h ⊢
  obtain ⟨C1, hC1, h⟩ := Outcome.bind_eq_ok.mp h
  rw [hC1]
  simp only [Outcome.bind_ok]
  have fin : ∀ e : List Nat × PIBT,
      (e.1.Perm e.1 ∧ e.2.reserved_nodes = s.reserved_nodes ∧ e.2.agents = s.agents) →
      ((PIBT.swap_possible_and_required E e.2 ai e.1).bind fun swap_agent =>
        Outcome.ok
          (match e.2.reserved_nodes (e.2.agents ai).id with
            | some reserved =>
              if reserved ∈ (if swap_agent ≠ none then e.1.reverse else e.1) then
                reserved :: (if swap_agent ≠ none then e.1.reverse else e.1).erase reserved
              else (if swap_agent ≠ none then e.1.reverse else e.1)
            | none => (if swap_agent ≠ none then e.1.reverse else e.1),
            swap_agent, e.2)) = .ok c →
      ∃ C, Outcome.ok (if (none : Option Nat) ≠ none then e.1.reverse else e.1) =
          Outcome.ok C ∧
        c.1 = reservation_bias (s.reserved_nodes (s.agents ai).id)
          (if c.2.1 ≠ none then C.reverse else C) := by
    intro e pe he
    have t := @candidates_tail E s ai e c e.1 pe he
    exact ⟨e.1, by simp, t.2⟩
  cases aj with
  | none => exact fin _ ⟨List.Perm.refl _, rfl, rfl⟩ h
  | some j =>
    cases ii with
    | true => exact fin _ ⟨List.Perm.refl _, rfl, rfl⟩ h
    | false =>
      exact fin _ ⟨List.Perm.refl _, (pushEscape_frame E _ _ _ _).1,
        (pushEscape_frame E _ _ _ _).2⟩ h

/-- On `crowd_env` agent `0`, the first agent planned in the second timestep, has the swap
partner `2` and the reserved node `v2`: its ordered candidate list is `[0, 1, 2, 3]`, with `v3`
the least preferred, but the list it iterates over is `[2, 3, 1, 0]`, so that the first
candidate it tries is `v2`. -/
theorem candidates_reversed_counterexample :
    (PIBT.after crowd_env 1).bind (fun s =>
      (PIBT.planning_log crowd_env s).bind fun rl =>
      (PIBT.candidates crowd_env { s with request_chain := [], cycle_handled := false, initial_requester := some 0 } 0 none true).bind fun c =>
      (PIBT.candidates_unbiased crowd_env { s with request_chain := [], cycle_handled := false, initial_requester := some 0 } 0 none true none).bind fun C =>
        Outcome.ok (rl.2.head?.map Visit.agent, c.2.1, s.reserved_nodes 0, C, c.1)) =
      .ok (some 0, some 2, some 2, [0, 1, 2, 3], [2, 3, 1, 0]) := by
  decide!

/-- C21, amended: whenever `swap_possible_and_required` returns a swap partner for agent `i`
in `funcPIBT`, the ordered candidate list `C` is fully reversed before the reserved node is
moved to the front: the list agent `i` iterates over is the reversed list with
`reserved_nodes[i]`, if set and among the candidates, moved to the front.  So without such a
reserved node the first candidate agent `i` tries is the least preferred of `C` and the last
one the most preferred; with it, the reserved node is tried first and the other candidates
follow in reversed order. -/
theorem candidates_reversed (E : Env) (s : PIBT) (ai : Nat) (aj : Option Nat) (ii : Bool)
    (c : List Nat × Option Nat × PIBT) (h : PIBT.candidates E s ai aj ii = .ok c)
    (hsw : c.2.1 ≠ none) :
    ∃ C, PIBT.candidates_unbiased E s ai aj ii none = .ok C ∧
      c.1 = reservation_bias (s.reserved_nodes (s.agents ai).id) C.reverse ∧
      ((∀ r, s.reserved_nodes (s.agents ai).id = some r → r ∉ C) →
        c.1 = C.reverse ∧ c.1.head? = C.getLast? ∧ c.1.getLast? = C.head?) ∧
      (∀ r, s.reserved_nodes (s.agents ai).id = some r → r ∈ C →
        c.1 = r :: C.reverse.erase r) := by
  obtain ⟨C, hC, hc⟩ := candidates_order h
  rw [if_pos hsw] at hc
  refine ⟨C, hC, hc, fun hr => ?_, fun r hr hmem => ?_⟩
  · have e : c.1 = C.reverse := by
      rw [hc]
      unfold reservation_bias
      cases hres : s.reserved_nodes (s.agents ai).id with
      | none => rfl
      | some r =>
        simp only
        rw [if_neg]
        rw [List.mem_reverse]
        exact hr r hres
    refine ⟨e, ?_, ?_⟩
    · rw [e, List.head?_reverse]
    · rw [e, List.getLast?_reverse]
  · rw [hc, hr]
    unfold reservation_bias
    simp only
    rw [if_pos (List.mem_reverse.mpr hmem)]

theorem crowd_order_start :
    (PIBT.after crowd_env 0).bind (fun s =>
      (PIBT.candidates crowd_env { s with request_chain := [], cycle_handled := false, initial_requester := some 0 } 0 none true).bind fun c =>
        Outcome.ok (c.2.1, s.reserved_nodes (s.agents 0).id, c.1)) =
      .ok (some 2, none, [3, 2, 1, 0]) := by
  decide!

/-- Witness of C21 on `crowd_env`: in the first timestep agent `0` has the swap partner `2` and
no reserved node, and iterates over the reversed list `[3, 2, 1, 0]`. -/
theorem candidates_reversed_witness :
    ∃ s c C, PIBT.after crowd_env 0 = .ok s ∧
      PIBT.candidates crowd_env { s with request_chain := [], cycle_handled := false, initial_requester := some 0 } 0 none true = .ok c ∧
      c.2.1 = some 2 ∧ c.1 = [3, 2, 1, 0] ∧
      PIBT.candidates_unbiased crowd_env { s with request_chain := [], cycle_handled := false, initial_requester := some 0 } 0 none true none = .ok C ∧
      c.1 = C.reverse ∧ c.1.head? = C.getLast? ∧ c.1.getLast? = C.head? := by
  obtain ⟨s, hs, hv⟩ := Outcome.bind_eq_ok.mp crowd_order_start
  obtain ⟨c, hc, hv⟩ := Outcome.bind_eq_ok.mp hv
  have hv := Outcome.ok.inj hv
  simp only [Prod.mk.injEq] at hv
  obtain ⟨C, hC, _, hrev, _⟩ := candidates_reversed crowd_env _ 0 none true c hc
    (by rw [hv.1]; simp)
  have hnone : ∀ r, s.reserved_nodes (s.agents 0).id = some r → r ∉ C := by
    intro r hr
    rw [hv.2.1] at hr
    exact absurd hr (by simp)
  exact ⟨s, c, C, hs, hc, hv.1, hv.2.2, hC, hrev hnone⟩

/-- On `swap_env`, after the first call `funcPIBT(a)` of `run` (for agent `0`), agent `1`,
whose inherited call failed, has `v_next = v1` while `occupied_next[v1]` is empty: its caller
released the entry when it backtracked. -/
theorem occupied_next_agrees_counterexample :
    (PIBT.after (swap_env 3) 0).bind (fun s =>
      (PIBT.planning_log (swap_env 3) s).bind fun rl =>
      (PIBT.funcPIBT (swap_env 3) ((swap_env 3).num + 1)
        { s with A := std_sort (fun a b => PIBT.run_compare (s.agents a) (s.agents b)) s.A }
        0 none true).bind fun r =>
        Outcome.ok (rl.2.head?.map Visit.agent, r.1, (r.2.agents 1).v_now,
          (r.2.agents 1).v_next, r.2.occupied_next 1)) =
      .ok (some 0, true, 1, some 1, none) := by
  decide!

/-- C23, amended: after every call `funcPIBT(a)` of `run` has returned, on an instance with
pairwise distinct starts, `occupied_next` agrees with the choices of the agents that move: for
every agent `b` whose `v_next` is set to a vertex other than `b.v_now`,
`occupied_next[b.v_next] = b`.  (An agent that stays may have lost the entry of its own
vertex.)  The state after the calls for a prefix `l1` of the sorted agents is the result of
the planning loop on `l1`. -/
theorem occupied_next_of_movers (E : Env)
    (hstart : ∀ i j, i < E.num → j < E.num → i ≠ j → E.start i ≠ E.start j)
    (t : Nat) (s : PIBT) (h : PIBT.after E t = .ok s) (l1 l2 : List Nat)
    (hl : std_sort (fun a b => PIBT.run_compare (s.agents a) (s.agents b)) s.A = l1 ++ l2)
    (s1 : PIBT)
    (h1 : PIBT.plan_agents E l1
      { s with A := std_sort (fun a b => PIBT.run_compare (s.agents a) (s.agents b)) s.A } =
        .ok s1) :
    ∀ b w, b < E.num → (s1.agents b).v_next = some w → w ≠ (s1.agents b).v_now →
      s1.occupied_next w = some b := by
  have hS := after_sound E t s h
  have hR := hS.rest
  have hb := hS.base hstart
  have hperm : (std_sort (fun a b => PIBT.run_compare (s.agents a) (s.agents b)) s.A).Perm
      (List.range E.num) := (std_sort_perm _ _).trans hR.order
  have hmem : ∀ a, a ∈ l1 → a < E.num := by
    intro a ha
    have : a ∈ std_sort (fun a b => PIBT.run_compare (s.agents a) (s.agents b)) s.A := by
      rw [hl]
      exact List.mem_append_left _ ha
    rw [hperm.mem_iff, List.mem_range] at this
    exact this
  generalize std_sort (fun a b => PIBT.run_compare (s.agents a) (s.agents b)) s.A = sA at h1
  have hb0 : PIBT.Base E.num ({ s with A := sA } : PIBT) := ⟨hb.id_eq, hb.ott_now, hb.occ_now⟩
  have hT0 : PIBT.Top E.G E.num ({ s with A := sA } : PIBT) := top_of_idle hb0 hR.idle
  obtain ⟨hT1, _, _, _⟩ := plan_agents_post l1 _ s1 hT0 hmem h1
  intro b w hbn hv hw
  have hdec : s1.decided b := by
    by_contra hnd
    exact hT1.none_tentative b hbn ⟨by rw [hv]; simp, by simpa [PIBT.decided] using hnd⟩
  exact hT1.inv.d2 b hbn hdec w hv hw

theorem follow_movers :
    (PIBT.after (follow_env 6) 1).bind (fun s =>
      (PIBT.plan_agents (follow_env 6) [0]
        { s with A := std_sort (fun a b => PIBT.run_compare (s.agents a) (s.agents b)) s.A }).bind
        fun s1 => Outcome.ok
          (std_sort (fun a b => PIBT.run_compare (s.agents a) (s.agents b)) s.A,
            (s1.agents 0).v_now, (s1.agents 0).v_next, (s1.agents 1).v_now,
            (s1.agents 1).v_next)) =
      .ok ([0, 1], 0, some 1, 1, some 2) := by
  decide!

/-- Witness of C23 on `follow_env`: in the second timestep the call for agent `0` plans both
agents to move, and each holds the entry of its target. -/
theorem occupied_next_of_movers_witness :
    ∃ s s1, PIBT.after (follow_env 6) 1 = .ok s ∧
      PIBT.plan_agents (follow_env 6) [0]
        { s with A := std_sort (fun a b => PIBT.run_compare (s.agents a) (s.agents b)) s.A } =
          .ok s1 ∧
      (s1.agents 0).v_next = some 1 ∧ s1.occupied_next 1 = some 0 ∧
      (s1.agents 1).v_next = some 2 ∧ s1.occupied_next 2 = some 1 := by
  obtain ⟨s, hs, hv⟩ := Outcome.bind_eq_ok.mp follow_movers
  obtain ⟨s1, hs1, hv⟩ := Outcome.bind_eq_ok.mp hv
  have hv := Outcome.ok.inj hv
  simp only [Prod.mk.injEq] at hv
  obtain ⟨hA, h0, h0n, h1, h1n⟩ := hv
  have hstart : ∀ i j, i < (follow_env 6).num → j < (follow_env 6).num → i ≠ j →
      (follow_env 6).start i ≠ (follow_env 6).start j := by
    intro i j _ _ hij
    exact hij
  have key := occupied_next_of_movers (follow_env 6) hstart 1 s hs [0] [1] hA s1 hs1
  exact ⟨s, s1, hs, hs1, h0n, key 0 1 (by decide) h0n (by rw [h0]; decide), h1n,
    key 1 2 (by decide) h1n (by rw [h1]; decide)⟩

theorem decide_action_true {E : Env} {s : PIBT} {ai u : Nat} {aj sw : Option Nat} {ii : Bool}
    {m : Int} {r : Bool × PIBT} (h : PIBT.decide_action E s ai aj ii sw u m = .ok r) :
    r.1 = true := by
  unfold PIBT.decide_action at h
  split_ifs at h
  · rw [← Outcome.ok.inj h]
  · obtain ⟨o, _, h⟩ := Outcome.bind_eq_ok.mp h
    obtain ⟨act, _, h⟩ := Outcome.bind_eq_ok.mp h
    obtain ⟨s3, _, h⟩ := Outcome.bind_eq_ok.mp h
    rw [← Outcome.ok.inj h]

theorem fail_stay_facts (s : PIBT) (ai : Nat) :
    ((PIBT.fail_stay s ai).agents ai).v_next = some ((PIBT.fail_stay s ai).agents ai).v_now ∧
    ((PIBT.fail_stay s ai).agents ai).ott_next = ((PIBT.fail_stay s ai).agents ai).ott_now ∧
    (PIBT.fail_stay s ai).occupied_next ((PIBT.fail_stay s ai).agents ai).v_now = some ai := by
  simp [PIBT.fail_stay, PIBT.set_v_next, PIBT.set_ott_next, PIBT.setAgent,
    PIBT.setOccupiedNext]

/-- The candidate loop of `funcPIBT` returns `false` only after it has rejected every
candidate, and then it has made the agent stay. -/
theorem candidate_loop_false {E : Env}
    {call : PIBT → Nat → Option Nat → Bool → Outcome (Bool × PIBT)}
    {ai : Nat} {aj : Option Nat} {ii : Bool} {sw : Option Nat} :
    ∀ (C : List Nat) (m : Int) (s : PIBT) (r : Bool × PIBT),
      PIBT.candidate_loop E call ai aj ii sw C m s = .ok r → r.1 = false →
      ∃ s', PIBT.all_rejected call ai aj C s s' ∧ r.2 = PIBT.fail_stay s' ai := by
  intro C
  induction C with
  | nil =>
    intro m s r h _
    unfold PIBT.candidate_loop at h
    exact ⟨s, rfl, by rw [← Outcome.ok.inj h]⟩
  | cons u C ih =>
    intro m s r h hr
    unfold PIBT.candidate_loop at h
    unfold PIBT.all_rejected
    split_ifs at h with h1 h2
    · obtain ⟨s', hs', e⟩ := ih _ _ _ h hr
      exact ⟨s', Or.inl ⟨h1, hs'⟩, e⟩
    · obtain ⟨s', hs', e⟩ := ih _ _ _ h hr
      refine ⟨s', Or.inr (Or.inl ⟨not_not.mp h1, ?_, hs'⟩), e⟩
      cases aj with
      | none => simp at h2
      | some j => exact ⟨j, rfl, of_decide_eq_true h2⟩
    · have hskip : ∀ j, aj = some j → u ≠ (s.agents j).v_now := by
        intro j hj
        subst hj
        intro e
        exact h2 (decide_eq_true e)
      dsimp only at h
      obtain ⟨cycle, hcyc, h⟩ := Outcome.bind_eq_ok.mp h
      cases cycle with
      | true =>
        exfalso
        simp only [if_true] at h
        split_ifs at h with ho
        obtain ⟨t, _, h⟩ := Outcome.bind_eq_ok.mp h
        rw [← Outcome.ok.inj h] at hr
        exact absurd hr (by simp)
      | false =>
        simp only [Bool.false_eq_true, if_false] at h
        have hon : ((s.setOccupiedNext u (some ai)).set_v_next ai (some u)).occupied_now =
            s.occupied_now := rfl
        rw [hon] at h
        cases hak : s.occupied_now u with
        | none =>
          rw [hak] at h
          exact absurd (decide_action_true h) (by rw [hr]; simp)
        | some ak =>
          rw [hak] at h
          simp only at h
          split_ifs at h with hakn
          · obtain ⟨r1, hr1, h⟩ := Outcome.bind_eq_ok.mp h
            split_ifs at h with hr1t
            · exact absurd (decide_action_true h) (by rw [hr]; simp)
            · obtain ⟨s', hs', e⟩ := ih _ _ _ h hr
              have hne : ak ≠ ai := by
                intro e1
                rw [e1] at hakn
                simp [PIBT.set_v_next, PIBT.setAgent] at hakn
              have hun : (s.agents ak).v_next = none := by
                simpa [PIBT.set_v_next, PIBT.setAgent, PIBT.setOccupiedNext,
                  Function.update_noteq hne] using hakn
              have hr1f : r1 = (false, r1.2) := by
                cases r1 with
                | mk b t =>
                  simp only [Bool.not_eq_true] at hr1t
                  simp only at hr1t ⊢
                  rw [hr1t]
              refine ⟨s', Or.inr (Or.inr ⟨not_not.mp h1, hskip, ak, r1.2, rfl, hne, hun, ?_,
                hs'⟩), e⟩
              rw [← hr1f]
              exact hr1
          · exact absurd (decide_action_true h) (by rw [hr]; simp)

/-- C22: `funcPIBT(ai, aj, is_initial)` returns `false` only when every candidate was skipped
(already taken in `occupied_next`, or equal to the pusher's `v_now`) or had its inherited call
fail; and whenever it returns `false`, on return `ai.v_next = ai.v_now`,
`ai.ott_next = ai.ott_now` and `occupied_next[ai.v_now] = ai`. -/
theorem funcPIBT_false (E : Env) (depth : Nat) (s : PIBT) (ai : Nat) (aj : Option Nat)
    (ii : Bool) (r : Bool × PIBT) (h : PIBT.funcPIBT E depth s ai aj ii = .ok r)
    (hr : r.1 = false) :
    (∃ d c s', depth = d + 1 ∧
      PIBT.candidates E (if ii then { s with request_chain := [], cycle_handled := false, initial_requester := some ai } else s) ai aj ii = .ok c ∧
      PIBT.all_rejected (PIBT.funcPIBT E d) ai aj c.1 c.2.2 s' ∧
      r.2 = PIBT.fail_stay s' ai) ∧
    (r.2.agents ai).v_next = some (r.2.agents ai).v_now ∧
    (r.2.agents ai).ott_next = (r.2.agents ai).ott_now ∧
    r.2.occupied_next (r.2.agents ai).v_now = some ai := by
  cases depth with
  | zero =>
    unfold PIBT.funcPIBT at h
    exact absurd h (by simp)
  | succ d =>
    unfold PIBT.funcPIBT at h
    dsimp only at h
    obtain ⟨c, hc, h⟩ := Outcome.bind_eq_ok.mp h
    obtain ⟨s', hs', e⟩ := candidate_loop_false _ _ _ _ h hr
    refine ⟨⟨d, c, s', rfl, hc, hs', e⟩, ?_⟩
    rw [e]
    exact fail_stay_facts s' ai

theorem swap_nested_fails :
    (PIBT.after (swap_env 3) 0).bind (fun s =>
      (PIBT.funcPIBT (swap_env 3) 2
        { (s.setOccupiedNext 1 (some 0)).set_v_next 0 (some 1) with
          request_chain := [⟨0, 1⟩], initial_requester := some 0 } 1 (some 0) false).bind
        fun r => Outcome.ok (r.1, (r.2.agents 1).v_now, (r.2.agents 1).ott_now)) =
      .ok (false, 1, some .Y_MINUS) := by
  decide!

/-- Witness of C22 on `swap_env`: in the first timestep agent `0` reserves `v1` and calls
`funcPIBT` for its occupant, agent `1`, whose candidates `v0` (the vertex of the pusher) and
`v1` (taken by agent `0`) are both skipped. -/
theorem funcPIBT_false_witness :
    ∃ s r, PIBT.after (swap_env 3) 0 = .ok s ∧
      PIBT.funcPIBT (swap_env 3) 2
        { (s.setOccupiedNext 1 (some 0)).set_v_next 0 (some 1) with
          request_chain := [⟨0, 1⟩], initial_requester := some 0 } 1 (some 0) false = .ok r ∧
      r.1 = false ∧ (r.2.agents 1).v_next = some 1 ∧
      (r.2.agents 1).ott_next = some .Y_MINUS ∧ r.2.occupied_next 1 = some 1 := by
  obtain ⟨s, hs, hv⟩ := Outcome.bind_eq_ok.mp swap_nested_fails
  obtain ⟨r, hr, hv⟩ := Outcome.bind_eq_ok.mp hv
  have hv := Outcome.ok.inj hv
  simp only [Prod.mk.injEq] at hv
  obtain ⟨_, g1, g2, g3⟩ := funcPIBT_false (swap_env 3) 2 _ 1 (some 0) false r hr hv.1
  rw [hv.2.1] at g1 g3
  rw [hv.2.2] at g2
  exact ⟨s, r, hs, hr, hv.1, g1, g2, g3⟩

/-- The first loop of `handleCycleWithOrientation` marks the requests whose agent faces the
requested node. -/
theorem chain_orientations_faces {E : Env} {s : PIBT} :
    ∀ l : List Request,
      (∀ r, r ∈ l → ∃ o,
        Plan.getRelativePosition E.G (s.agents r.agent).v_now r.requested_node = .ok o) →
      ∃ bs, PIBT.chain_orientations E s l = .ok bs ∧ bs.length = l.length ∧
        (bs.all id = true ↔ ∀ r, r ∈ l → PIBT.faces E s r) ∧
        ∀ p, p ∈ l.zip bs → (p.2 = true ↔ PIBT.faces E s p.1) := by
  intro l
  induction l with
  | nil =>
    intro _
    refine ⟨[], rfl, rfl, ?_, ?_⟩
    · simp
    · intro p hp
      simp at hp
  | cons r rs ih =>
    intro hrel
    obtain ⟨o, ho⟩ := hrel r (List.mem_cons_self _ _)
    obtain ⟨bs, hbs, hlen, hall, hzip⟩ := ih fun x hx => hrel x (List.mem_cons_of_mem _ hx)
    have hb : (decide ((s.agents r.agent).ott_now = some o) = true ↔ PIBT.faces E s r) := by
      rw [decide_eq_true_iff]
      constructor
      · intro h
        exact ⟨o, h, ho⟩
      · rintro ⟨o', h1, h2⟩
        rw [ho] at h2
        rw [h1, Outcome.ok.inj h2]
    refine ⟨decide ((s.agents r.agent).ott_now = some o) :: bs, ?_, ?_, ?_, ?_⟩
    · unfold PIBT.chain_orientations
      rw [ho, hbs]
      rfl
    · rw [List.length_cons, List.length_cons, hlen]
    · rw [List.all_cons, Bool.and_eq_true, hall]
      simp only [id_eq, List.mem_cons, forall_eq_or_imp]
      rw [hb]
    · intro p hp
      rw [List.zip_cons_cons] at hp
      rcases List.mem_cons.mp hp with e | hp
      · rw [e]
        exact hb
      · exact hzip p hp

theorem assign_effect (s : PIBT) (a u : Nat) (x : Option Orientation) :
    ((s.assign a u x).agents a).v_next = some u ∧ ((s.assign a u x).agents a).ott_next = x ∧
    (s.assign a u x).occupied_next u = some a ∧
    (∀ b, b ≠ a → (s.assign a u x).agents b = s.agents b) ∧
    (∀ b, ((s.assign a u x).agents b).v_now = (s.agents b).v_now ∧
      ((s.assign a u x).agents b).ott_now = (s.agents b).ott_now) ∧
    (∀ w, w ≠ u → (s.assign a u x).occupied_next w = s.occupied_next w) := by
  refine ⟨?_, ?_, ?_, fun b hb => ?_, fun b => ?_, fun w hw => ?_⟩
  · simp [PIBT.assign, PIBT.set_v_next, PIBT.set_ott_next, PIBT.setAgent,
      PIBT.setOccupiedNext]
  · simp [PIBT.assign, PIBT.set_v_next, PIBT.set_ott_next, PIBT.setAgent,
      PIBT.setOccupiedNext]
  · simp [PIBT.assign, PIBT.set_v_next, PIBT.set_ott_next, PIBT.setAgent,
      PIBT.setOccupiedNext]
  · simp [PIBT.assign, PIBT.set_v_next, PIBT.set_ott_next, PIBT.setAgent,
      PIBT.setOccupiedNext, Function.update_noteq hb]
  · by_cases hb : b = a
    · subst hb
      simp [PIBT.assign, PIBT.set_v_next, PIBT.set_ott_next, PIBT.setAgent,
        PIBT.setOccupiedNext]
    · simp [PIBT.assign, PIBT.set_v_next, PIBT.set_ott_next, PIBT.setAgent,
        PIBT.setOccupiedNext, Function.update_noteq hb]
  · simp [PIBT.assign, PIBT.set_v_next, PIBT.set_ott_next, PIBT.setAgent,
      PIBT.setOccupiedNext, Function.update_noteq hw]

theorem chain_advance_cons (r : Request) (rs : List Request) (s : PIBT) :
    PIBT.chain_advance (r :: rs) s =
      PIBT.chain_advance rs (s.assign r.agent r.requested_node (s.agents r.agent).ott_now) := by
  rw [PIBT.chain_advance]
  congr 1
  simp [PIBT.assign, PIBT.set_v_next, PIBT.set_ott_next, PIBT.setAgent, PIBT.setOccupiedNext]

theorem chain_adjust_hold (E : Env) (r : Request) (rs : List (Request × Bool)) (s : PIBT) :
    PIBT.chain_adjust E ((r, true) :: rs) s =
      PIBT.chain_adjust E rs
        (s.assign r.agent (s.agents r.agent).v_now (s.agents r.agent).ott_now) := by
  rw [PIBT.chain_adjust]
  simp only [not_true_eq_false, if_false]
  congr 1
  simp [PIBT.assign, PIBT.set_v_next, PIBT.set_ott_next, PIBT.setAgent, PIBT.setOccupiedNext]

theorem chain_adjust_turn (E : Env) (r : Request) (rs : List (Request × Bool)) (s : PIBT)
    (o : Orientation) (act : Nat × Orientation) (ho : (s.agents r.agent).ott_now = some o)
    (hact : Plan.computeAction E.G (s.agents r.agent).v_now r.requested_node o = .ok act) :
    PIBT.chain_adjust E ((r, false) :: rs) s =
      PIBT.chain_adjust E rs (s.assign r.agent (s.agents r.agent).v_now (some act.2)) := by
  rw [PIBT.chain_adjust]
  simp only [Bool.false_eq_true, not_false_eq_true, if_true]
  rw [if_neg (by rw [ho]; simp), ho]
  simp only [SAFE_VALUE, Outcome.bind_ok]
  rw [hact]
  simp only [Outcome.bind_ok]
  congr 1
  simp [PIBT.assign, PIBT.set_v_next, PIBT.set_ott_next, PIBT.setAgent, PIBT.setOccupiedNext]

/-- The loop of `handleCycleWithOrientation` that moves the agents forward, on requests with
pairwise distinct agents and pairwise distinct requested nodes. -/
theorem chain_advance_spec :
    ∀ (l : List Request) (s : PIBT),
      (∀ b, ((PIBT.chain_advance l s).agents b).v_now = (s.agents b).v_now ∧
        ((PIBT.chain_advance l s).agents b).ott_now = (s.agents b).ott_now) ∧
      (∀ b, (∀ r, r ∈ l → r.agent ≠ b) → (PIBT.chain_advance l s).agents b = s.agents b) ∧
      (∀ w, (∀ r, r ∈ l → r.requested_node ≠ w) →
        (PIBT.chain_advance l s).occupied_next w = s.occupied_next w) ∧
      ((l.map fun r => r.agent).Nodup → (l.map fun r => r.requested_node).Nodup →
        ∀ r, r ∈ l →
          ((PIBT.chain_advance l s).agents r.agent).v_next = some r.requested_node ∧
          ((PIBT.chain_advance l s).agents r.agent).ott_next = (s.agents r.agent).ott_now ∧
          (PIBT.chain_advance l s).occupied_next r.requested_node = some r.agent) := by
  intro l
  induction l with
  | nil =>
    intro s
    refine ⟨fun b => ⟨rfl, rfl⟩, fun b _ => rfl, fun w _ => rfl, fun _ _ r hr => ?_⟩
    exact absurd hr (List.not_mem_nil r)
  | cons r rs ih =>
    intro s
    rw [chain_advance_cons]
    obtain ⟨m1, m2, m3, m4, m5, m6⟩ :=
      assign_effect s r.agent r.requested_node (s.agents r.agent).ott_now
    generalize s.assign r.agent r.requested_node (s.agents r.agent).ott_now = s1
      at m1 m2 m3 m4 m5 m6
    obtain ⟨i1, i2, i3, i4⟩ := ih s1
    refine ⟨fun b => ?_, fun b hb => ?_, fun w hw => ?_, fun ha hq x hx => ?_⟩
    · exact ⟨(i1 b).1.trans (m5 b).1, (i1 b).2.trans (m5 b).2⟩
    · rw [i2 b fun x hx => hb x (List.mem_cons_of_mem _ hx)]
      exact m4 b fun e => hb r (List.mem_cons_self _ _) e.symm
    · rw [i3 w fun x hx => hw x (List.mem_cons_of_mem _ hx)]
      exact m6 w fun e => hw r (List.mem_cons_self _ _) e.symm
    · rw [List.map_cons, List.nodup_cons] at ha hq
      rcases List.mem_cons.mp hx with e | hx
      · subst e
        have ha' : ∀ y, y ∈ rs → y.agent ≠ x.agent := fun y hy e =>
          ha.1 (List.mem_map.mpr ⟨y, hy, e⟩)
        have hq' : ∀ y, y ∈ rs → y.requested_node ≠ x.requested_node := fun y hy e =>
          hq.1 (List.mem_map.mpr ⟨y, hy, e⟩)
        rw [i2 _ ha', i3 _ hq']
        exact ⟨m1, m2, m3⟩
      · obtain ⟨g1, g2, g3⟩ := i4 ha.2 hq.2 x hx
        exact ⟨g1, g2.trans (m5 _).2, g3⟩

/-- The loop of `handleCycleWithOrientation` that makes the agents stay, on requests whose
agents have headings and stand on pairwise distinct vertices. -/
theorem chain_adjust_spec {E : Env} :
    ∀ (l : List (Request × Bool)) (s : PIBT),
      (l.map fun p => (s.agents p.1.agent).v_now).Nodup →
      (∀ p, p ∈ l → (s.agents p.1.agent).ott_now ≠ none) →
      (∀ p, p ∈ l → p.2 = false → ∀ o, (s.agents p.1.agent).ott_now = some o →
        ∃ act, Plan.computeAction E.G (s.agents p.1.agent).v_now p.1.requested_node o =
          .ok act) →
      ∃ s', PIBT.chain_adjust E l s = .ok s' ∧
        (∀ b, (s'.agents b).v_now = (s.agents b).v_now ∧
          (s'.agents b).ott_now = (s.agents b).ott_now) ∧
        (∀ b, (∀ p, p ∈ l → p.1.agent ≠ b) → s'.agents b = s.agents b) ∧
        (∀ w, (∀ p, p ∈ l → (s.agents p.1.agent).v_now ≠ w) →
          s'.occupied_next w = s.occupied_next w) ∧
        ∀ p, p ∈ l →
          (s'.agents p.1.agent).v_next = some (s.agents p.1.agent).v_now ∧
          s'.occupied_next (s.agents p.1.agent).v_now = some p.1.agent ∧
          (p.2 = true → (s'.agents p.1.agent).ott_next = (s.agents p.1.agent).ott_now) ∧
          (p.2 = false → ∃ o act, (s.agents p.1.agent).ott_now = some o ∧
            Plan.computeAction E.G (s.agents p.1.agent).v_now p.1.requested_node o =
              .ok act ∧ (s'.agents p.1.agent).ott_next = some act.2) := by
  intro l
  induction l with
  | nil =>
    intro s _ _ _
    exact ⟨s, rfl, fun b => ⟨rfl, rfl⟩, fun b _ => rfl, fun w _ => rfl,
      fun p hp => absurd hp (List.not_mem_nil p)⟩
  | cons p rs ih =>
    intro s hnd hott hact
    obtain ⟨r, c⟩ := p
    have step : ∀ x : Option Orientation,
        PIBT.chain_adjust E ((r, c) :: rs) s =
          PIBT.chain_adjust E rs (s.assign r.agent (s.agents r.agent).v_now x) →
        ((c = true → x = (s.agents r.agent).ott_now) ∧
          (c = false → ∃ o act, (s.agents r.agent).ott_now = some o ∧
            Plan.computeAction E.G (s.agents r.agent).v_now r.requested_node o = .ok act ∧
            x = some act.2)) →
        ∃ s', PIBT.chain_adjust E ((r, c) :: rs) s = .ok s' ∧
        (∀ b, (s'.agents b).v_now = (s.agents b).v_now ∧
          (s'.agents b).ott_now = (s.agents b).ott_now) ∧
        (∀ b, (∀ p, p ∈ (r, c) :: rs → p.1.agent ≠ b) → s'.agents b = s.agents b) ∧
        (∀ w, (∀ p, p ∈ (r, c) :: rs → (s.agents p.1.agent).v_now ≠ w) →
          s'.occupied_next w = s.occupied_next w) ∧
        ∀ p, p ∈ (r, c) :: rs →
          (s'.agents p.1.agent).v_next = some (s.agents p.1.agent).v_now ∧
          s'.occupied_next (s.agents p.1.agent).v_now = some p.1.agent ∧
          (p.2 = true → (s'.agents p.1.agent).ott_next = (s.agents p.1.agent).ott_now) ∧
          (p.2 = false → ∃ o act, (s.agents p.1.agent).ott_now = some o ∧
            Plan.computeAction E.G (s.agents p.1.agent).v_now p.1.requested_node o =
              .ok act ∧ (s'.agents p.1.agent).ott_next = some act.2) := by
      intro x hstep hx
      obtain ⟨m1, m2, m3, m4, m5, m6⟩ := assign_effect s r.agent (s.agents r.agent).v_now x
      generalize s.assign r.agent (s.agents r.agent).v_now x = s1
        at hstep m1 m2 m3 m4 m5 m6
      rw [List.map_cons, List.nodup_cons] at hnd
      have hmap : (rs.map fun p => (s1.agents p.1.agent).v_now) =
          rs.map fun p => (s.agents p.1.agent).v_now :=
        List.map_congr_left fun p _ => (m5 p.1.agent).1
      obtain ⟨s', hs', i1, i2, i3, i4⟩ := ih s1 (by rw [hmap]; exact hnd.2)
        (fun p hp => by rw [(m5 _).2]; exact hott p (List.mem_cons_of_mem _ hp))
        (fun p hp hc o ho => by
          rw [(m5 _).1]
          rw [(m5 _).2] at ho
          exact hact p (List.mem_cons_of_mem _ hp) hc o ho)
      have hfar : ∀ q, q ∈ rs → (s.agents q.1.agent).v_now ≠ (s.agents r.agent).v_now :=
        fun q hq e => hnd.1 (List.mem_map.mpr ⟨q, hq, e⟩)
      have hfar' : ∀ q, q ∈ rs → q.1.agent ≠ r.agent := fun q hq e =>
        hfar q hq (by rw [e])
      refine ⟨s', by rw [hstep]; exact hs', fun b => ?_, fun b hb => ?_, fun w hw => ?_,
        fun q hq => ?_⟩
      · exact ⟨(i1 b).1.trans (m5 b).1, (i1 b).2.trans (m5 b).2⟩
      · rw [i2 b fun q hq => hb q (List.mem_cons_of_mem _ hq)]
        exact m4 b fun e => hb (r, c) (List.mem_cons_self _ _) e.symm
      · rw [i3 w fun q hq => by
          rw [(m5 _).1]
          exact hw q (List.mem_cons_of_mem _ hq)]
        exact m6 w fun e => hw (r, c) (List.mem_cons_self _ _) e.symm
      · rcases List.mem_cons.mp hq with e | hq
        · subst e
          have k2 := i2 r.agent hfar'
          have k3 := i3 (s.agents r.agent).v_now fun q hq => by
            rw [(m5 _).1]
            exact hfar q hq
          refine ⟨by rw [k2]; exact m1, by rw [k3]; exact m3, fun hc => ?_, fun hc => ?_⟩
          · rw [k2, m2]
            exact hx.1 hc
          · obtain ⟨o, act, h1, h2, h3⟩ := hx.2 hc
            exact ⟨o, act, h1, h2, by rw [k2, m2]; exact h3⟩
        · obtain ⟨g1, g2, g3, g4⟩ := i4 q hq
          rw [(m5 _).1] at g1 g2
          refine ⟨g1, g2, fun hc => ?_, fun hc => ?_⟩
          · rw [g3 hc]
            exact (m5 _).2
          · obtain ⟨o, act, h1, h2, h3⟩ := g4 hc
            rw [(m5 _).1] at h2
            rw [(m5 _).2] at h1
            exact ⟨o, act, h1, h2, h3⟩
    cases c with
    | true =>
      exact step _ (chain_adjust_hold E r rs s)
        ⟨fun _ => rfl, fun hc => absurd hc (by simp)⟩
    | false =>
      cases ho : (s.agents r.agent).ott_now with
      | none => exact absurd ho (hott (r, false) (List.mem_cons_self _ _))
      | some o =>
        obtain ⟨act, ha⟩ := hact (r, false) (List.mem_cons_self _ _) rfl o ho
        exact step _ (chain_adjust_turn E r rs s o act ho ha)
          ⟨fun hc => absurd hc (by simp), fun _ => ⟨o, act, ho, ha, rfl⟩⟩

/-- C24: `handleCycleWithOrientation` on a non-empty request chain of requests
`(a_k, u_k)` whose agents have headings and stand on pairwise distinct vertices, with
pairwise distinct requested nodes, each a neighbour of its agent's vertex at another grid
position: if every `a_k` faces `u_k`, it sets `a_k.v_next = u_k`, `a_k.ott_next = a_k.ott_now`
and `occupied_next[u_k] = a_k` for every `k`; otherwise it sets `a_k.v_next = a_k.v_now` and
`occupied_next[a_k.v_now] = a_k` for every `k`, with `ott_next` the heading returned by
`computeAction(a_k.v_now, u_k, a_k.ott_now)` for the agents that do not face their node and
`ott_now` for the others. -/
theorem handleCycle_spec (E : Env) (s : PIBT) (hne : s.request_chain ≠ [])
    (hnow : (s.request_chain.map fun r => (s.agents r.agent).v_now).Nodup)
    (hreq : (s.request_chain.map fun r => r.requested_node).Nodup)
    (hott : ∀ r, r ∈ s.request_chain → (s.agents r.agent).ott_now ≠ none)
    (hrel : ∀ r, r ∈ s.request_chain → ∃ o,
      Plan.getRelativePosition E.G (s.agents r.agent).v_now r.requested_node = .ok o) :
    ∃ s', PIBT.handleCycleWithOrientation E s = .ok s' ∧
      ((∀ r, r ∈ s.request_chain → PIBT.faces E s r) →
        ∀ r, r ∈ s.request_chain →
          (s'.agents r.agent).v_next = some r.requested_node ∧
          (s'.agents r.agent).ott_next = (s.agents r.agent).ott_now ∧
          s'.occupied_next r.requested_node = some r.agent) ∧
      (¬ (∀ r, r ∈ s.request_chain → PIBT.faces E s r) →
        ∀ r, r ∈ s.request_chain →
          (s'.agents r.agent).v_next = some (s.agents r.agent).v_now ∧
          s'.occupied_next (s.agents r.agent).v_now = some r.agent ∧
          (PIBT.faces E s r → (s'.agents r.agent).ott_next = (s.agents r.agent).ott_now) ∧
          (¬ PIBT.faces E s r → ∃ o act, (s.agents r.agent).ott_now = some o ∧
            Plan.computeAction E.G (s.agents r.agent).v_now r.requested_node o = .ok act ∧
            (s'.agents r.agent).ott_next = some act.2)) := by
  obtain ⟨bs, hbs, hlen, hall, hzip⟩ := chain_orientations_faces s.request_chain hrel
  have hemp : s.request_chain.isEmpty = false := by
    cases hc : s.request_chain with
    | nil => exact absurd hc hne
    | cons _ _ => rfl
  unfold PIBT.handleCycleWithOrientation
  rw [hemp]
  simp only [Bool.false_eq_true, if_false]
  rw [hbs]
  simp only [Outcome.bind_ok]
  by_cases ha : bs.all id = true
  · rw [if_neg (not_not.mpr ha)]
    have hagents : (s.request_chain.map fun r => r.agent).Nodup := by
      have e : (s.request_chain.map fun r => (s.agents r.agent).v_now) =
          (s.request_chain.map fun r => r.agent).map fun a => (s.agents a).v_now := by
        rw [List.map_map]
        rfl
      rw [e] at hnow
      exact List.Nodup.of_map _ hnow
    refine ⟨_, rfl, fun _ r hr => ?_, fun hn => absurd (hall.mp ha) hn⟩
    exact (chain_advance_spec s.request_chain s).2.2.2 hagents hreq r hr
  · rw [if_pos ha]
    have hfst : (s.request_chain.zip bs).map Prod.fst = s.request_chain :=
      List.map_fst_zip _ _ (le_of_eq hlen.symm)
    have hmem : ∀ p, p ∈ s.request_chain.zip bs → p.1 ∈ s.request_chain := by
      intro p hp
      rw [← hfst]
      exact List.mem_map_of_mem _ hp
    have hnd : ((s.request_chain.zip bs).map fun p => (s.agents p.1.agent).v_now).Nodup := by
      have e : ((s.request_chain.zip bs).map fun p => (s.agents p.1.agent).v_now) =
          ((s.request_chain.zip bs).map Prod.fst).map fun r => (s.agents r.agent).v_now := by
        rw [List.map_map]
        rfl
      rw [e, hfst]
      exact hnow
    obtain ⟨s', hs', _, _, _, i4⟩ := @chain_adjust_spec E (s.request_chain.zip bs) s hnd
      (fun p hp => hott p.1 (hmem p hp))
      (fun p hp _ o _ => by
        obtain ⟨o', ho'⟩ := hrel p.1 (hmem p hp)
        exact ⟨_, computeAction_of_relpos o (relpos_ok_ne ho') ho'⟩)
    refine ⟨s', hs', fun hf => absurd (hall.mpr hf) ha, fun _ r hr => ?_⟩
    obtain ⟨b, hb⟩ := mem_zip_of_length s.request_chain bs hlen r hr
    obtain ⟨g1, g2, g3, g4⟩ := i4 (r, b) hb
    have hfb := hzip (r, b) hb
    refine ⟨g1, g2, fun hf => g3 (hfb.mpr hf), fun hf => g4 ?_⟩
    cases hbv : b with
    | false => rfl
    | true => exact absurd (hfb.mp hbv) hf

theorem swap_positions :
    (PIBT.after (swap_env 3) 0).bind (fun s =>
      Outcome.ok ((s.agents 0).v_now, (s.agents 1).v_now, (s.agents 0).ott_now,
        (s.agents 1).ott_now)) = .ok (0, 1, some .Y_MINUS, some .Y_MINUS) := by
  decide!

/-- Witness of C24 on the start of `swap_env` with the chain of the two requests
`(agent 0, v1)` and `(agent 1, v0)`: both agents face `Y_MINUS`, so both stay and turn, agent
`0` to `X_PLUS` and agent `1` to `X_MINUS`. -/
theorem handleCycle_spec_witness :
    ∃ s s', PIBT.after (swap_env 3) 0 = .ok s ∧
      PIBT.handleCycleWithOrientation (swap_env 3)
        { s with request_chain := [⟨0, 1⟩, ⟨1, 0⟩] } = .ok s' ∧
      (s'.agents 0).v_next = some 0 ∧ s'.occupied_next 0 = some 0 ∧
      (s'.agents 0).ott_next = some .X_PLUS ∧
      (s'.agents 1).v_next = some 1 ∧ s'.occupied_next 1 = some 1 ∧
      (s'.agents 1).ott_next = some .X_MINUS := by
  obtain ⟨s, hs, hv⟩ := Outcome.bind_eq_ok.mp swap_positions
  have hv := Outcome.ok.inj hv
  simp only [Prod.mk.injEq] at hv
  obtain ⟨p0, p1, o0, o1⟩ := hv
  have hmem : ∀ r : Request, r ∈ ([⟨0, 1⟩, ⟨1, 0⟩] : List Request) →
      r = ⟨0, 1⟩ ∨ r = ⟨1, 0⟩ := by
    intro r hr
    simpa using hr
  have hnf0 : ¬ PIBT.faces (swap_env 3)
      ({ s with request_chain := [⟨0, 1⟩, ⟨1, 0⟩] } : PIBT) ⟨0, 1⟩ := by
    rintro ⟨o, h1, h2⟩
    simp only at h1 h2
    rw [p0] at h2
    rw [o0] at h1
    rw [← Option.some.inj h1] at h2
    exact absurd h2 (by decide)
  have hnf1 : ¬ PIBT.faces (swap_env 3)
      ({ s with request_chain := [⟨0, 1⟩, ⟨1, 0⟩] } : PIBT) ⟨1, 0⟩ := by
    rintro ⟨o, h1, h2⟩
    simp only at h1 h2
    rw [p1] at h2
    rw [o1] at h1
    rw [← Option.some.inj h1] at h2
    exact absurd h2 (by decide)
  obtain ⟨s', hs', _, hstay⟩ := handleCycle_spec (swap_env 3)
    ({ s with request_chain := [⟨0, 1⟩, ⟨1, 0⟩] } : PIBT) (by simp)
    (by
      show ([(s.agents 0).v_now, (s.agents 1).v_now] : List Nat).Nodup
      rw [p0, p1]
      decide)
    (by
      show ([1, 0] : List Nat).Nodup
      decide)
    (by
      intro r hr
      rcases hmem r hr with e | e <;> subst e
      · show (s.agents 0).ott_now ≠ none
        rw [o0]
        simp
      · show (s.agents 1).ott_now ≠ none
        rw [o1]
        simp)
    (by
      intro r hr
      rcases hmem r hr with e | e <;> subst e
      · show ∃ o, Plan.getRelativePosition (swap_env 3).G (s.agents 0).v_now 1 = .ok o
        rw [p0]
        exact ⟨.X_PLUS, by decide⟩
      · show ∃ o, Plan.getRelativePosition (swap_env 3).G (s.agents 1).v_now 0 = .ok o
        rw [p1]
        exact ⟨.X_MINUS, by decide⟩)
  have hn : ¬ ∀ r, r ∈ ({ s with request_chain := [⟨0, 1⟩, ⟨1, 0⟩] } : PIBT).request_chain →
      PIBT.faces (swap_env 3) ({ s with request_chain := [⟨0, 1⟩, ⟨1, 0⟩] } : PIBT) r :=
    fun h => hnf0 (h ⟨0, 1⟩ (List.mem_cons_self _ _))
  obtain ⟨a1, a2, _, a4⟩ := hstay hn ⟨0, 1⟩ (List.mem_cons_self _ _)
  obtain ⟨b1, b2, _, b4⟩ := hstay hn ⟨1, 0⟩ (List.mem_cons_of_mem _ (List.mem_cons_self _ _))
  obtain ⟨oa, acta, ha1, ha2, ha3⟩ := a4 hnf0
  obtain ⟨ob, actb, hb1, hb2, hb3⟩ := b4 hnf1
  simp only at a1 a2 b1 b2 ha1 ha2 ha3 hb1 hb2 hb3
  rw [p0] at a1 a2 ha2
  rw [p1] at b1 b2 hb2
  rw [o0] at ha1
  rw [o1] at hb1
  rw [← Option.some.inj ha1] at ha2
  rw [← Option.some.inj hb1] at hb2
  have ea : acta = (0, .X_PLUS) := by
    have : Plan.computeAction (swap_env 3).G 0 1 .Y_MINUS = .ok (0, .X_PLUS) := by decide
    rw [this] at ha2
    exact (Outcome.ok.inj ha2).symm
  have eb : actb = (1, .X_MINUS) := by
    have : Plan.computeAction (swap_env 3).G 1 0 .Y_MINUS = .ok (1, .X_MINUS) := by decide
    rw [this] at hb2
    exact (Outcome.ok.inj hb2).symm
  rw [ea] at ha3
  rw [eb] at hb3
  exact ⟨s, s', hs, hs', a1, a2, ha3, b1, b2, hb3⟩

theorem decide_action_unfold {E : Env} {s : PIBT} {ai u : Nat} {aj sw : Option Nat}
    {ii : Bool} {m : Int} {r : Bool × PIBT} (hch : s.cycle_handled = false)
    (h : PIBT.decide_action E s ai aj ii sw u m = .ok r) :
    ∃ o act s3, (s.agents ai).ott_now = some o ∧
      Plan.computeAction E.G (s.agents ai).v_now u o = .ok act ∧
      PIBT.swap_partner_action E
        (PIBT.blocker_rule (PIBT.own_action E s ai aj ii u act.1 act.2) ai u act.1) ai sw m =
          .ok s3 ∧ r = (true, s3) := by
  unfold PIBT.decide_action at h
  rw [hch] at h
  simp only [Bool.false_eq_true, if_false] at h
  obtain ⟨o, ho, h⟩ := Outcome.bind_eq_ok.mp h
  obtain ⟨act, hact, h⟩ := Outcome.bind_eq_ok.mp h
  obtain ⟨s3, hs3, h⟩ := Outcome.bind_eq_ok.mp h
  exact ⟨o, act, s3, safe_value_ok ho, hact, hs3, (Outcome.ok.inj h).symm⟩

theorem blocker_rule_table (s : PIBT) (ai u nn : Nat) :
    (PIBT.blocker_rule s ai u nn).push_count_table = s.push_count_table := by
  unfold PIBT.blocker_rule
  cases s.occupied_now u with
  | none => rfl
  | some al =>
    simp only
    split_ifs <;> rfl

theorem partner_tables (s : PIBT) (ai sa nn : Nat) (no : Orientation) :
    (PIBT.partner_request s ai sa).push_count_table = s.push_count_table ∧
    (PIBT.partner_turn s ai sa no).push_count_table = s.push_count_table ∧
    (PIBT.partner_forward s sa nn no).push_count_table = s.push_count_table ∧
    (PIBT.partner_hold s ai sa).push_count_table = s.push_count_table := by
  refine ⟨rfl, ?_, rfl, rfl⟩
  unfold PIBT.partner_turn
  dsimp only
  split_ifs <;> rfl

theorem swap_partner_table {E : Env} {s s3 : PIBT} {ai : Nat} {sw : Option Nat} {m : Int}
    (h : PIBT.swap_partner_action E s ai sw m = .ok s3) :
    s3.push_count_table = s.push_count_table := by
  unfold PIBT.swap_partner_action at h
  cases sw with
  | none =>
    rw [← Outcome.ok.inj h]
  | some sa =>
    simp only at h
    split_ifs at h with hc
    · obtain ⟨o, _, h⟩ := Outcome.bind_eq_ok.mp h
      obtain ⟨act, _, h⟩ := Outcome.bind_eq_ok.mp h
      have e1 := (partner_tables s ai sa act.1 act.2).1
      generalize PIBT.partner_request s ai sa = s1 at h e1
      have e2 : (if act.1 = (s1.agents sa).v_now then PIBT.partner_turn s1 ai sa act.2
          else PIBT.partner_forward s1 sa act.1 act.2).push_count_table =
          s1.push_count_table := by
        split_ifs
        · exact (partner_tables s1 ai sa act.1 act.2).2.1
        · exact (partner_tables s1 ai sa act.1 act.2).2.2.1
      generalize (if act.1 = (s1.agents sa).v_now then PIBT.partner_turn s1 ai sa act.2
          else PIBT.partner_forward s1 sa act.1 act.2) = s2 at h e2
      split_ifs at h <;> rw [← Outcome.ok.inj h]
      · rw [(partner_tables s2 ai sa act.1 act.2).2.2.2, e2, e1]
      · rw [e2, e1]
      · rw [e2, e1]
    · rw [← Outcome.ok.inj h]

theorem own_action_table (E : Env) (s : PIBT) (ai : Nat) (aj : Option Nat) (ii : Bool)
    (u nn : Nat) (no : Orientation) :
    (nn = (s.agents ai).v_now ∨ aj = none ∨ ii = true →
      (PIBT.own_action E s ai aj ii u nn no).push_count_table = s.push_count_table) ∧
    (∀ j, nn ≠ (s.agents ai).v_now → aj = some j → ii = false →
      (PIBT.own_action E s ai aj ii u nn no).push_count_table =
        (PIBT.updatePushCount E s (s.agents ai).id (s.agents j).id).push_count_table) := by
  refine ⟨fun h => ?_, fun j hnn haj hii => ?_⟩
  · unfold PIBT.own_action
    by_cases hnn : nn = (s.agents ai).v_now
    · rw [if_pos hnn]
      dsimp only
      split_ifs <;> rfl
    · rw [if_neg hnn]
      rcases h with h | h | h
      · exact absurd h hnn
      · subst h
        rfl
      · subst h
        cases aj with
        | none => rfl
        | some j =>
          simp only [not_true_eq_false, false_and, if_false]
          rfl
  · have hnn' : ¬ (s.agents ai).v_now = nn := fun e => hnn e.symm
    unfold PIBT.own_action
    rw [if_neg hnn]
    subst haj hii
    by_cases hj : j = ai
    · subst hj
      simp [PIBT.updatePushCount, PIBT.set_v_next, PIBT.set_ott_next, PIBT.setAgent,
        PIBT.setOccupiedNext, PIBT.setReserved, PIBT.setPushCount, hnn']
      split_ifs <;> rfl
    · simp [PIBT.updatePushCount, PIBT.set_v_next, PIBT.set_ott_next, PIBT.setAgent,
        PIBT.setOccupiedNext, PIBT.setReserved, PIBT.setPushCount, hnn',
        Function.update_noteq hj]
      split_ifs <;> rfl

/-- The record of agent `ai` after the agent's own action was a forward move and the
blocker rule was applied: the agent stays exactly when the occupant of `u` stays. -/
theorem own_blocker_forward (E : Env) (s : PIBT) (ai : Nat) (aj : Option Nat) (ii : Bool)
    (u nn : Nat) (no : Orientation) (hnn : nn ≠ (s.agents ai).v_now) :
    s.Touch (PIBT.blocker_rule (PIBT.own_action E s ai aj ii u nn no) ai u nn) ai ∧
    ((∃ al, s.occupied_now u = some al ∧ al ≠ ai ∧
        (s.agents al).v_next = some (s.agents al).v_now) →
      ((PIBT.blocker_rule (PIBT.own_action E s ai aj ii u nn no) ai u nn).agents ai).v_next =
        some (s.agents ai).v_now ∧
      ((PIBT.blocker_rule (PIBT.own_action E s ai aj ii u nn no) ai u nn).agents ai).ott_next =
        (s.agents ai).ott_now) ∧
    (¬ (∃ al, s.occupied_now u = some al ∧ al ≠ ai ∧
        (s.agents al).v_next = some (s.agents al).v_now) →
      ((PIBT.blocker_rule (PIBT.own_action E s ai aj ii u nn no) ai u nn).agents ai).v_next =
        some nn ∧
      ((PIBT.blocker_rule (PIBT.own_action E s ai aj ii u nn no) ai u nn).agents ai).ott_next =
        some no) := by
  obtain ⟨hT, hv, ho, _, _⟩ := own_action_move E s ai aj ii u nn no hnn
  have hnow : ((PIBT.own_action E s ai aj ii u nn no).agents ai).v_now = (s.agents ai).v_now :=
    (hT.frame.agents ai).2.1
  have hott : ((PIBT.own_action E s ai aj ii u nn no).agents ai).ott_now =
      (s.agents ai).ott_now := (hT.frame.agents ai).2.2.2.1
  have hocc := hT.frame.occupied_now
  have hoth := hT.others
  generalize PIBT.own_action E s ai aj ii u nn no = s1 at hT hv ho hnow hott hocc hoth
  have hiff : (∃ al, s1.occupied_now u = some al ∧
      (s1.agents al).v_next = some (s1.agents al).v_now) ↔
      ∃ al, s.occupied_now u = some al ∧ al ≠ ai ∧
        (s.agents al).v_next = some (s.agents al).v_now := by
    constructor
    · rintro ⟨al, h1, h2⟩
      have hne : al ≠ ai := by
        intro e
        subst e
        rw [hv, hnow] at h2
        exact hnn (Option.some.inj h2)
      rw [hoth al hne] at h2
      rw [hocc] at h1
      exact ⟨al, h1, hne, h2⟩
    · rintro ⟨al, h1, hne, h2⟩
      refine ⟨al, by rw [hocc]; exact h1, ?_⟩
      rw [hoth al hne]
      exact h2
  rcases blocker_rule_effect s1 ai u nn with ⟨hex, _, hT2, g1, g2, _⟩ | ⟨hno, e⟩
  · refine ⟨touch_trans hT hT2, fun _ => ⟨by rw [g1, hnow], by rw [g2, hott]⟩, fun hn => ?_⟩
    exact absurd (hiff.mp hex) hn
  · rw [e]
    refine ⟨hT, fun hex => ?_, fun _ => ⟨hv, ho⟩⟩
    obtain ⟨al, h1, h2⟩ := hiff.mpr hex
    exact absurd h2 (hno (by rw [hnow]; exact hnn) al h1)

/-- The swap block leaves the record of the agent `ai` itself. -/
theorem swap_partner_self {E : Env} {s s3 : PIBT} {ai : Nat} {swap_agent : Option Nat}
    {m : Int} (hai : (s.agents ai).v_next ≠ none)
    (h : PIBT.swap_partner_action E s ai swap_agent m = .ok s3) :
    s3.agents ai = s.agents ai := by
  rcases swap_partner_effect hai h with e | ⟨sa, _, _, _, hne, _, _, _, _, hT, _⟩
  · rw [e]
  · exact hT.others ai (Ne.symm hne)

/-- C26, amended: the part of `funcPIBT` below the inherited call changes `push_count_table`
only when the call has a pusher `j`, is not the initial one and the action computed for the
chosen candidate is a forward move; the entry of the pair of identifiers is then incremented
by exactly one (when both are below the number of agents) and nothing else changes. The next
vertex of the agent on return is the vertex of that move unless an agent other than `ai`
occupies the candidate and stays: then the agent stays on its vertex as well, although the
entry was incremented. -/
theorem push_count_forward {E : Env} {s : PIBT} {ai u : Nat} {aj sw : Option Nat}
    {ii : Bool} {m : Int} {r : Bool × PIBT}
    (h : PIBT.decide_action E s ai aj ii sw u m = .ok r) :
    r.2.push_count_table = s.push_count_table ∨
    ∃ j o act, aj = some j ∧ ii = false ∧ s.cycle_handled = false ∧
      (s.agents ai).ott_now = some o ∧
      Plan.computeAction E.G (s.agents ai).v_now u o = .ok act ∧
      act.1 ≠ (s.agents ai).v_now ∧
      (∀ a b, r.2.push_count_table a b =
        if a = (s.agents ai).id ∧ b = (s.agents j).id ∧
            (s.agents ai).id < E.num ∧ (s.agents j).id < E.num
        then s.push_count_table a b + 1 else s.push_count_table a b) ∧
      ((∃ al, s.occupied_now u = some al ∧ al ≠ ai ∧
          (s.agents al).v_next = some (s.agents al).v_now) →
        (r.2.agents ai).v_next = some (s.agents ai).v_now) ∧
      (¬ (∃ al, s.occupied_now u = some al ∧ al ≠ ai ∧
          (s.agents al).v_next = some (s.agents al).v_now) →
        (r.2.agents ai).v_next = some act.1) := by
  by_cases hch : s.cycle_handled = true
  · left
    unfold PIBT.decide_action at h
    rw [if_pos hch] at h
    rw [← Outcome.ok.inj h]
  have hch : s.cycle_handled = false := by simpa using hch
  obtain ⟨o, act, s3, ho, hact, hs3, hr⟩ := decide_action_unfold hch h
  subst hr
  have htab : s3.push_count_table =
      (PIBT.own_action E s ai aj ii u act.1 act.2).push_count_table :=
    (swap_partner_table hs3).trans (blocker_rule_table _ ai u act.1)
  obtain ⟨hstay, hmove⟩ := own_action_table E s ai aj ii u act.1 act.2
  by_cases hc : act.1 = (s.agents ai).v_now ∨ aj = none ∨ ii = true
  · exact Or.inl (htab.trans (hstay hc))
  · have hnn : act.1 ≠ (s.agents ai).v_now := fun e => hc (Or.inl e)
    have hii : ii = false := by
      cases ii
      · rfl
      · exact absurd (Or.inr (Or.inr rfl)) hc
    obtain ⟨j, hj⟩ : ∃ j, aj = some j := by
      cases aj with
      | none => exact absurd (Or.inr (Or.inl rfl)) hc
      | some j => exact ⟨j, rfl⟩
    obtain ⟨hT, hblock, hfree⟩ := own_blocker_forward E s ai aj ii u act.1 act.2 hnn
    have hset : ((PIBT.blocker_rule (PIBT.own_action E s ai aj ii u act.1 act.2) ai u
        act.1).agents ai).v_next ≠ none := by
      by_cases hex : ∃ al, s.occupied_now u = some al ∧ al ≠ ai ∧
          (s.agents al).v_next = some (s.agents al).v_now
      · rw [(hblock hex).1]
        exact Option.some_ne_none _
      · rw [(hfree hex).1]
        exact Option.some_ne_none _
    have hself := swap_partner_self hset hs3
    refine Or.inr ⟨j, o, act, hj, hii, hch, ho, hact, hnn, fun a b => ?_, fun hex => ?_,
      fun hex => ?_⟩
    · show s3.push_count_table a b = _
      rw [htab, hmove j hnn hj hii, updatePushCount_apply]
    · show (s3.agents ai).v_next = _
      rw [hself]
      exact (hblock hex).1
    · show (s3.agents ai).v_next = _
      rw [hself]
      exact (hfree hex).1

/-- On `queue_env` (agents `0`, `1`, `2` on `v4`, `v3`, `v1` of the stem, in a queue towards
`v1`), the planning of the first timestep calls `funcPIBT` for agent `1` from the call for
agent `0`; the forward move of agent `1` towards `v1` increments `push_count_table[1][0]` by
one, and since agent `2` on `v1` then decides to turn, agent `1` stays on `v3`: its
`v_next` is `v3`, its vertex before and after the timestep. -/
theorem push_count_moves_counterexample :
    (PIBT.after queue_env 0).bind (fun s =>
      (PIBT.planning_log queue_env s).bind fun rl =>
      (PIBT.after queue_env 1).bind fun s1 =>
        Outcome.ok (rl.2.map (fun v => (v.agent, v.depth)),
          rl.1.push_count_table 1 0 - s.push_count_table 1 0, (rl.1.agents 1).v_now,
          (rl.1.agents 1).v_next, (s1.agents 1).v_now)) =
      .ok ([(0, 1), (1, 2), (2, 3)], 1, 3, some 3, 3) := by
  decide!

theorem queue_pushed :
    (PIBT.after queue_env 0).bind (fun s =>
      (PIBT.decide_action queue_env (s.set_v_next 2 (some 1)) 1 (some 0) false none 1 0).bind
        fun r => Outcome.ok (r.2.push_count_table 1 0, (r.2.agents 1).v_next)) =
      .ok (1, some 3) := by
  decide!

/-- Witness of C26 on `queue_env`: agent `1` on `v3`, pushed by agent `0`, chooses `v1`
whose occupant, agent `2`, stays. -/
theorem push_count_forward_witness :
    ∃ s r, PIBT.after queue_env 0 = .ok s ∧
      PIBT.decide_action queue_env (s.set_v_next 2 (some 1)) 1 (some 0) false none 1 0 =
        .ok r ∧
      r.2.push_count_table 1 0 = 1 ∧ (r.2.agents 1).v_next = some 3 ∧
      (r.2.push_count_table = (s.set_v_next 2 (some 1)).push_count_table ∨
        ∃ j o act, some 0 = some j ∧ false = false ∧
          (s.set_v_next 2 (some 1)).cycle_handled = false ∧
          ((s.set_v_next 2 (some 1)).agents 1).ott_now = some o ∧
          Plan.computeAction queue_env.G ((s.set_v_next 2 (some 1)).agents 1).v_now 1 o =
            .ok act ∧
          act.1 ≠ ((s.set_v_next 2 (some 1)).agents 1).v_now ∧
          (∀ a b, r.2.push_count_table a b =
            if a = ((s.set_v_next 2 (some 1)).agents 1).id ∧
                b = ((s.set_v_next 2 (some 1)).agents j).id ∧
                ((s.set_v_next 2 (some 1)).agents 1).id < queue_env.num ∧
                ((s.set_v_next 2 (some 1)).agents j).id < queue_env.num
            then (s.set_v_next 2 (some 1)).push_count_table a b + 1
            else (s.set_v_next 2 (some 1)).push_count_table a b) ∧
          ((∃ al, (s.set_v_next 2 (some 1)).occupied_now 1 = some al ∧ al ≠ 1 ∧
              ((s.set_v_next 2 (some 1)).agents al).v_next =
                some ((s.set_v_next 2 (some 1)).agents al).v_now) →
            (r.2.agents 1).v_next = some ((s.set_v_next 2 (some 1)).agents 1).v_now) ∧
          (¬ (∃ al, (s.set_v_next 2 (some 1)).occupied_now 1 = some al ∧ al ≠ 1 ∧
              ((s.set_v_next 2 (some 1)).agents al).v_next =
                some ((s.set_v_next 2 (some 1)).agents al).v_now) →
            (r.2.agents 1).v_next = some act.1)) := by
  obtain ⟨s, hs, hv⟩ := Outcome.bind_eq_ok.mp queue_pushed
  obtain ⟨r, hr, hv⟩ := Outcome.bind_eq_ok.mp hv
  have hv := Outcome.ok.inj hv
  simp only [Prod.mk.injEq] at hv
  exact ⟨s, r, hs, hr, hv.1, hv.2, push_count_forward hr⟩

/-- The swap block of `funcPIBT` when its test succeeds, as one expression. -/
theorem swap_partner_runs {E : Env} {s s3 : PIBT} {ai sa : Nat} (hne : sa ≠ ai)
    (hsa : (s.agents sa).v_next = none)
    (hocc : s.occupied_next (s.agents ai).v_now = none ∨
      s.occupied_next (s.agents ai).v_now = some ai)
    (h : PIBT.swap_partner_action E s ai (some sa) 0 = .ok s3) :
    ∃ o act, (s.agents sa).ott_now = some o ∧
      Plan.computeAction E.G (s.agents sa).v_now (s.agents ai).v_now o = .ok act ∧
      s3 = if act.1 = (s.agents sa).v_now then
          PIBT.partner_turn (PIBT.partner_request s ai sa) ai sa act.2
        else if (s.agents ai).v_next = some (s.agents ai).v_now then
          PIBT.partner_hold (PIBT.partner_forward (PIBT.partner_request s ai sa) sa act.1 act.2)
            ai sa
        else PIBT.partner_forward (PIBT.partner_request s ai sa) sa act.1 act.2 := by
  unfold PIBT.swap_partner_action at h
  simp only at h
  rw [if_pos ⟨trivial, hsa, hocc⟩] at h
  obtain ⟨t0, q0, r0⟩ := partner_request_effect s ai sa hne
  generalize PIBT.partner_request s ai sa = s0 at h t0 q0 r0
  have hvs : (s0.agents sa).v_now = (s.agents sa).v_now := touch_v_now t0 sa
  have hva : (s0.agents ai).v_now = (s.agents ai).v_now := touch_v_now t0 ai
  have hos : (s0.agents sa).ott_now = (s.agents sa).ott_now := (t0.frame.agents sa).2.2.2.1
  rw [hvs, hva, hos] at h
  obtain ⟨o, ho, h1⟩ := Outcome.bind_eq_ok.mp h
  obtain ⟨act, hact, h2⟩ := Outcome.bind_eq_ok.mp h1
  refine ⟨o, act, safe_value_ok ho, hact, ?_⟩
  clear h h1
  by_cases hst : act.1 = (s.agents sa).v_now
  · rw [if_pos hst] at h2
    rw [if_pos hst]
    have t1 := (partner_turn_effect s0 ai sa act.2 hne).1
    generalize PIBT.partner_turn s0 ai sa act.2 = s1 at h2 t1
    have hvs1 : (s1.agents sa).v_now = (s.agents sa).v_now := by
      rw [touch_v_now t1 sa, hvs]
    rw [hvs1] at h2
    simp only [ne_eq, hst, not_true, if_false, ite_self, Outcome.ok.injEq] at h2
    exact h2.symm
  · rw [if_neg hst] at h2
    rw [if_neg hst]
    have t1 := (partner_forward_effect s0 sa act.1 act.2).1
    generalize PIBT.partner_forward s0 sa act.1 act.2 = s1 at h2 t1
    have hvs1 : (s1.agents sa).v_now = (s.agents sa).v_now := by
      rw [touch_v_now t1 sa, hvs]
    have hai1 : s1.agents ai = s.agents ai := by
      rw [t1.others ai (fun e => hne e.symm), t0.others ai (fun e => hne e.symm)]
    rw [hai1, hvs1] at h2
    simp only [ne_eq, hst, not_false_eq_true, if_true] at h2
    by_cases hstay : (s.agents ai).v_next = some (s.agents ai).v_now
    · rw [if_pos hstay] at h2
      rw [if_pos hstay]
      exact (Outcome.ok.inj h2).symm
    · rw [if_neg hstay] at h2
      rw [if_neg hstay]
      exact (Outcome.ok.inj h2).symm

/-- The action returned by `computeAction` is the current vertex or the target. -/
theorem computeAction_target {G : Graph} {c t : Nat} {h : Orientation} {act : Nat × Orientation}
    (hc : Plan.computeAction G c t h = .ok act) : act.1 = c ∨ act.1 = t := by
  rcases computeAction_ok_cases hc with e | ⟨e, _, _⟩
  · exact Or.inl e
  · exact Or.inr (by rw [e])

/-- What the blocker rule writes when it applies. -/
theorem blocker_rule_holds (s : PIBT) (ai u nn al : Nat) (hal : s.occupied_now u = some al)
    (hst : (s.agents al).v_next = some (s.agents al).v_now)
    (hnn : nn ≠ (s.agents ai).v_now) :
    (PIBT.blocker_rule s ai u nn).occupied_next (s.agents ai).v_now = some ai ∧
    (PIBT.blocker_rule s ai u nn).reserved_nodes (s.agents ai).id = some u := by
  unfold PIBT.blocker_rule
  rw [hal]
  simp only
  rw [if_pos hst, if_pos hnn]
  simp [PIBT.set_v_next, PIBT.set_ott_next, PIBT.setOccupiedNext, PIBT.setReserved,
    PIBT.setAgent]

/-- The table `reserved_nodes` after the assignments of the swap block, away from the entry
of the swap partner. -/
theorem partner_reserved (s : PIBT) (ai sa nn k : Nat) (no : Orientation)
    (hk : k ≠ (s.agents sa).id) :
    (PIBT.partner_request s ai sa).reserved_nodes = s.reserved_nodes ∧
    (PIBT.partner_turn s ai sa no).reserved_nodes k = s.reserved_nodes k ∧
    (PIBT.partner_forward s sa nn no).reserved_nodes k = s.reserved_nodes k ∧
    (PIBT.partner_hold s ai sa).reserved_nodes k = s.reserved_nodes k := by
  refine ⟨rfl, ?_, ?_, ?_⟩
  · unfold PIBT.partner_turn
    simp only [PIBT.set_v_next, PIBT.set_ott_next, PIBT.setOccupiedNext, PIBT.setReserved,
      PIBT.setAgent, Function.update_same]
    split_ifs <;> simp [Function.update_apply, hk]
  · unfold PIBT.partner_forward
    simp [PIBT.set_v_next, PIBT.set_ott_next, PIBT.setOccupiedNext, PIBT.setReserved,
      PIBT.set_swap_completed, PIBT.setAgent, Function.update_apply, hk]
  · unfold PIBT.partner_hold
    simp [PIBT.set_v_next, PIBT.set_ott_next, PIBT.setOccupiedNext, PIBT.setReserved,
      PIBT.setAgent, Function.update_apply, hk]

/-- The entry of `occupied_next` for the vertex of the agent `ai` after the assignments of
the swap block. -/
theorem partner_occupied (s : PIBT) (ai sa : Nat) (no : Orientation) (hne : sa ≠ ai) :
    (PIBT.partner_request s ai sa).occupied_next (s.agents ai).v_now = some sa ∧
    ((PIBT.partner_turn s ai sa no).occupied_next (s.agents ai).v_now = some sa ∨
      (PIBT.partner_turn s ai sa no).occupied_next (s.agents ai).v_now = none) ∧
    (PIBT.partner_forward s sa (s.agents ai).v_now no).occupied_next (s.agents ai).v_now =
      some sa ∧
    (s.occupied_next (s.agents ai).v_now = some sa →
      (PIBT.partner_hold s ai sa).occupied_next (s.agents ai).v_now = some sa) := by
  have hne' : ai ≠ sa := fun e => hne e.symm
  refine ⟨?_, ?_, ?_, ?_⟩
  · unfold PIBT.partner_request
    simp [PIBT.set_v_next, PIBT.set_swap_completed, PIBT.setOccupiedNext, PIBT.setAgent,
      Function.update_noteq hne']
  · unfold PIBT.partner_turn
    simp only [PIBT.set_v_next, PIBT.set_ott_next, PIBT.setOccupiedNext, PIBT.setReserved,
      PIBT.setAgent, Function.update_same, Function.update_noteq hne']
    split_ifs <;> simp [Function.update_apply] <;> exact em _
  · unfold PIBT.partner_forward
    simp [PIBT.set_v_next, PIBT.set_ott_next, PIBT.setOccupiedNext, PIBT.setReserved,
      PIBT.set_swap_completed, PIBT.setAgent]
  · intro h
    unfold PIBT.partner_hold
    simp only [PIBT.set_v_next, PIBT.set_ott_next, PIBT.setOccupiedNext, PIBT.setReserved,
      PIBT.setAgent, Function.update_same, Function.update_noteq hne']
    simp [Function.update_apply, h]

/-- The swap block of `funcPIBT` when the agent `ai` stays on its vertex and holds the entry
of `occupied_next` for it: if the block runs, the partner stays as well, and the entry of
`occupied_next` for the vertex of `ai` becomes the partner or empty. -/
theorem swap_partner_staying {E : Env} {s s3 : PIBT} {ai : Nat} {sw : Option Nat} {m : Int}
    (hst : (s.agents ai).v_next = some (s.agents ai).v_now)
    (hocc : s.occupied_next (s.agents ai).v_now = some ai)
    (hid : ∀ sa, sw = some sa → sa ≠ ai → (s.agents sa).id ≠ (s.agents ai).id)
    (h : PIBT.swap_partner_action E s ai sw m = .ok s3) :
    s3.agents ai = s.agents ai ∧
    s3.reserved_nodes (s.agents ai).id = s.reserved_nodes (s.agents ai).id ∧
    ((m ≠ 0 ∨ ∀ sa, sw = some sa → (s.agents sa).v_next ≠ none) →
      s3.occupied_next (s.agents ai).v_now = some ai) ∧
    (∀ sa, m = 0 → sw = some sa → (s.agents sa).v_next = none →
      sa ≠ ai ∧ (s3.agents sa).v_next = some (s.agents sa).v_now ∧
      (s3.occupied_next (s.agents ai).v_now = some sa ∨
        s3.occupied_next (s.agents ai).v_now = none)) := by
  have hset : (s.agents ai).v_next ≠ none := by
    rw [hst]
    exact Option.some_ne_none _
  have hself := swap_partner_self hset h
  by_cases hrun : ∃ sa, m = 0 ∧ sw = some sa ∧ (s.agents sa).v_next = none
  · obtain ⟨sa, hm, hsw, hsa⟩ := hrun
    subst hm
    subst hsw
    have hne : sa ≠ ai := by
      intro e
      rw [e] at hsa
      exact hset hsa
    have hk : (s.agents ai).id ≠ (s.agents sa).id := fun e => hid sa rfl hne e.symm
    obtain ⟨o, act, ho, hact, e3⟩ := swap_partner_runs hne hsa (Or.inr hocc) h
    obtain ⟨t0, _, _⟩ := partner_request_effect s ai sa hne
    have hr0 := (partner_reserved s ai sa 0 (s.agents ai).id act.2 hk).1
    have ho0 := (partner_occupied s ai sa act.2 hne).1
    have hv0 := touch_v_now t0
    have hi0 : ((PIBT.partner_request s ai sa).agents sa).id = (s.agents sa).id :=
      (t0.frame.agents sa).1
    generalize PIBT.partner_request s ai sa = s0 at e3 hr0 ho0 hv0 hi0
    have hk0 : (s.agents ai).id ≠ (s0.agents sa).id := by rw [hi0]; exact hk
    have key : s3.reserved_nodes (s.agents ai).id = s.reserved_nodes (s.agents ai).id ∧
        (s3.agents sa).v_next = some (s.agents sa).v_now ∧
        (s3.occupied_next (s.agents ai).v_now = some sa ∨
          s3.occupied_next (s.agents ai).v_now = none) := by
      by_cases hturn : act.1 = (s.agents sa).v_now
      · rw [if_pos hturn] at e3
        obtain ⟨_, a1, _, _⟩ := partner_turn_effect s0 ai sa act.2 hne
        have r1 := (partner_reserved s0 ai sa 0 (s.agents ai).id act.2 hk0).2.1
        have o1 := (partner_occupied s0 ai sa act.2 hne).2.1
        rw [← e3, hv0 ai] at o1
        rw [← e3] at a1 r1
        exact ⟨by rw [r1, hr0], by rw [a1, hv0 sa], o1⟩
      · rw [if_neg hturn, if_pos hst] at e3
        have hto : act.1 = (s.agents ai).v_now := by
          rcases computeAction_target hact with e | e
          · exact absurd e hturn
          · exact e
        obtain ⟨t1, _, _, _, _⟩ := partner_forward_effect s0 sa act.1 act.2
        have r1 := (partner_reserved s0 ai sa act.1 (s.agents ai).id act.2 hk0).2.2.1
        have o1 := (partner_occupied s0 ai sa act.2 hne).2.2.1
        rw [hv0 ai, ← hto] at o1
        have hv1 := touch_v_now t1
        have hi1 : ((PIBT.partner_forward s0 sa act.1 act.2).agents sa).id = (s0.agents sa).id :=
          (t1.frame.agents sa).1
        generalize PIBT.partner_forward s0 sa act.1 act.2 = s1 at e3 r1 o1 hv1 hi1
        obtain ⟨_, a2, _, _⟩ := partner_hold_effect s1 ai sa
        have r2 := (partner_reserved s1 ai sa 0 (s.agents ai).id act.2
          (by rw [hi1]; exact hk0)).2.2.2
        have o2 := (partner_occupied s1 ai sa act.2 hne).2.2.2
        rw [hv1 ai, hv0 ai, ← hto] at o2
        have o2 := o2 o1
        rw [← e3] at a2 r2 o2
        rw [hto] at o2
        exact ⟨by rw [r2, r1, hr0], by rw [a2, hv1 sa, hv0 sa], Or.inl o2⟩
    refine ⟨hself, key.1, fun hc => ?_, fun sa' _ hsw' _ => ?_⟩
    · rcases hc with hc | hc
      · exact absurd rfl hc
      · exact absurd hsa (hc sa rfl)
    · cases Option.some.inj hsw'
      exact ⟨hne, key.2⟩
  · have e3 : s3 = s := by
      unfold PIBT.swap_partner_action at h
      cases sw with
      | none => exact (Outcome.ok.inj h).symm
      | some sa =>
        simp only at h
        rw [if_neg fun hc => hrun ⟨sa, hc.1, rfl, hc.2.1⟩] at h
        exact (Outcome.ok.inj h).symm
    rw [e3]
    exact ⟨rfl, rfl, fun _ => hocc, fun sa hm hsw hsa => absurd ⟨sa, hm, hsw, hsa⟩ hrun⟩

/-- C30, amended: let `funcPIBT` for agent `ai` reach its normal path (no cycle handled) with
the candidate `u`, let `computeAction(ai.v_now, u, ai.ott_now)` be a forward move, and let
the agent `al ≠ ai` occupying `u` in `occupied_now` have `v_next = v_now`. Then the call
returns success with `ai.v_next = ai.v_now`, `ai.ott_next = ai.ott_now` and
`reserved_nodes[ai] = u` (the identifier of a swap partner being another one). If the swap
block does not run (`m ≠ 0`, no swap partner, or a swap partner that already has a `v_next`),
`occupied_next[ai.v_now] = ai` on return; if it runs, the swap partner `sa` stays on its
vertex as well and `occupied_next[ai.v_now]` is `sa` or empty on return. -/
theorem blocker_still_rotating {E : Env} {s : PIBT} {ai u al : Nat} {aj sw : Option Nat}
    {ii : Bool} {m : Int} {r : Bool × PIBT} {o : Orientation} {act : Nat × Orientation}
    (hch : s.cycle_handled = false) (ho : (s.agents ai).ott_now = some o)
    (hact : Plan.computeAction E.G (s.agents ai).v_now u o = .ok act)
    (hfw : act.1 ≠ (s.agents ai).v_now)
    (hal : s.occupied_now u = some al) (hne : al ≠ ai)
    (hstay : (s.agents al).v_next = some (s.agents al).v_now)
    (hid : ∀ sa, sw = some sa → sa ≠ ai → (s.agents sa).id ≠ (s.agents ai).id)
    (h : PIBT.decide_action E s ai aj ii sw u m = .ok r) :
    r.1 = true ∧ (r.2.agents ai).v_next = some (s.agents ai).v_now ∧
    (r.2.agents ai).ott_next = (s.agents ai).ott_now ∧
    r.2.reserved_nodes (s.agents ai).id = some u ∧
    ((m ≠ 0 ∨ ∀ sa, sw = some sa → sa = ai ∨ (s.agents sa).v_next ≠ none) →
      r.2.occupied_next (s.agents ai).v_now = some ai) ∧
    (∀ sa, m = 0 → sw = some sa → sa ≠ ai → (s.agents sa).v_next = none →
      (r.2.agents sa).v_next = some (s.agents sa).v_now ∧
      (r.2.occupied_next (s.agents ai).v_now = some sa ∨
        r.2.occupied_next (s.agents ai).v_now = none)) := by
  obtain ⟨o', act', s3, ho', hact', hs3, hr⟩ := decide_action_unfold hch h
  subst hr
  rw [ho] at ho'
  cases Option.some.inj ho'
  rw [hact] at hact'
  cases Outcome.ok.inj hact'
  obtain ⟨hT2, hblock, _⟩ := own_blocker_forward E s ai aj ii u act.1 act.2 hfw
  obtain ⟨hv2, ho2⟩ := hblock ⟨al, hal, hne, hstay⟩
  obtain ⟨hT1, _⟩ := own_action_move E s ai aj ii u act.1 act.2 hfw
  have hnow1 : ((PIBT.own_action E s ai aj ii u act.1 act.2).agents ai).v_now =
      (s.agents ai).v_now := touch_v_now hT1 ai
  have hid1 : ((PIBT.own_action E s ai aj ii u act.1 act.2).agents ai).id =
      (s.agents ai).id := (hT1.frame.agents ai).1
  obtain ⟨hocc2, hres2⟩ := blocker_rule_holds (PIBT.own_action E s ai aj ii u act.1 act.2)
    ai u act.1 al (by rw [hT1.frame.occupied_now]; exact hal)
    (by rw [hT1.others al hne]; exact hstay) (by rw [hnow1]; exact hfw)
  rw [hnow1] at hocc2
  rw [hid1] at hres2
  have hnow2 := touch_v_now hT2
  have hid2 : ∀ a, ((PIBT.blocker_rule (PIBT.own_action E s ai aj ii u act.1 act.2) ai u
      act.1).agents a).id = (s.agents a).id := fun a => (hT2.frame.agents a).1
  have hoth2 := hT2.others
  generalize PIBT.blocker_rule (PIBT.own_action E s ai aj ii u act.1 act.2) ai u act.1 = s2
    at hs3 hv2 ho2 hocc2 hres2 hnow2 hid2 hoth2
  obtain ⟨g1, g2, g3, g4⟩ := @swap_partner_staying E s2 s3 ai sw m
    (by rw [hv2, hnow2 ai]) (by rw [hnow2 ai]; exact hocc2)
    (fun sa hsw hsa => by rw [hid2 sa, hid2 ai]; exact hid sa hsw hsa) hs3
  rw [hnow2 ai] at g3 g4
  rw [hid2 ai] at g2
  refine ⟨rfl, ?_, ?_, ?_, fun hc => ?_, fun sa hm hsw hsa hnone => ?_⟩
  · show (s3.agents ai).v_next = _
    rw [g1, hv2]
  · show (s3.agents ai).ott_next = _
    rw [g1, ho2]
  · show s3.reserved_nodes _ = _
    rw [g2, hres2]
  · show s3.occupied_next _ = _
    refine g3 ?_
    rcases hc with hc | hc
    · exact Or.inl hc
    · refine Or.inr fun sa hsw => ?_
      rcases hc sa hsw with e | e
      · rw [e, hv2]
        exact Option.some_ne_none _
      · by_cases hsa : sa = ai
        · rw [hsa, hv2]
          exact Option.some_ne_none _
        · rw [hoth2 sa hsa]
          exact e
  · show (s3.agents sa).v_next = _ ∧ (s3.occupied_next _ = _ ∨ s3.occupied_next _ = _)
    obtain ⟨_, k1, k2⟩ := g4 sa hm hsw (by rw [hoth2 sa hsa]; exact hnone)
    rw [hnow2 sa] at k1
    exact ⟨k1, k2⟩

/-- On `facing_env` the first call `funcPIBT(a)` of `run` is made for agent `0` on `v3`
(heading `Y_MINUS`, which faces `v1`). It chooses `v1`, whose occupant, agent `2`, decides to
turn in the inherited call (`v_next = v_now = v1`), so agent `0` stays and
`reserved_nodes[0] = v1`; the swap block then plans the swap partner, agent `1`, and on
return `occupied_next[v3]` is agent `1`, not agent `0`. -/
theorem blocker_entry_counterexample :
    (PIBT.after facing_env 0).bind (fun s =>
      (PIBT.planning_log facing_env s).bind fun rl =>
      (PIBT.funcPIBT facing_env (facing_env.num + 1)
        { s with A := std_sort (fun a b => PIBT.run_compare (s.agents a) (s.agents b)) s.A }
        0 none true).bind fun r =>
        Outcome.ok (rl.2.head?.map Visit.agent, (r.1, r.2.cycle_handled),
          [(r.2.agents 0).v_now, (r.2.agents 2).v_now],
          [(r.2.agents 0).v_next, (r.2.agents 2).v_next, r.2.occupied_now 1,
            r.2.reserved_nodes 0, r.2.occupied_next 3])) =
      .ok (some 0, (true, false), [3, 1], [some 3, some 1, some 2, some 1, some 1]) := by
  decide!

theorem facing_blocked_entry :
    (PIBT.after facing_env 0).bind (fun s =>
      (Plan.computeAction facing_env.G ((s.set_v_next 2 (some 1)).agents 0).v_now 1
          .Y_MINUS).bind fun act =>
        Outcome.ok ((s.set_v_next 2 (some 1)).cycle_handled,
          ((s.set_v_next 2 (some 1)).agents 0).ott_now, act)) =
      .ok (false, some .Y_MINUS, (1, .Y_MINUS)) := by
  decide!

theorem facing_blocked_state :
    (PIBT.after facing_env 0).bind (fun s =>
      Outcome.ok ((s.set_v_next 2 (some 1)).occupied_now 1,
        ((s.set_v_next 2 (some 1)).agents 2).v_next,
        [((s.set_v_next 2 (some 1)).agents 0).v_now,
          ((s.set_v_next 2 (some 1)).agents 1).v_now,
          ((s.set_v_next 2 (some 1)).agents 2).v_now,
          ((s.set_v_next 2 (some 1)).agents 0).id,
          ((s.set_v_next 2 (some 1)).agents 1).id],
        ((s.set_v_next 2 (some 1)).agents 1).v_next)) =
      .ok (some 2, some 1, [3, 4, 1, 0, 1], none) := by
  decide!

theorem facing_blocked_call :
    (PIBT.after facing_env 0).bind (fun s =>
      (PIBT.decide_action facing_env (s.set_v_next 2 (some 1)) 0 none true (some 1) 1 0).bind
        fun r => Outcome.ok (r.2.occupied_next 3)) = .ok (some 1) := by
  decide!

/-- Witness of C30 on `facing_env`: agent `0` on `v3` chooses `v1`, whose occupant, agent
`2`, stays; agent `0` and its swap partner, agent `1` on `v4`, stay as well and
`occupied_next[v3]` becomes agent `1`. -/
theorem blocker_still_rotating_witness :
    ∃ s r, PIBT.after facing_env 0 = .ok s ∧
      PIBT.decide_action facing_env (s.set_v_next 2 (some 1)) 0 none true (some 1) 1 0 =
        .ok r ∧
      r.1 = true ∧ (r.2.agents 0).v_next = some 3 ∧ (r.2.agents 0).ott_next = some .Y_MINUS ∧
      r.2.reserved_nodes 0 = some 1 ∧ (r.2.agents 1).v_next = some 4 ∧
      r.2.occupied_next 3 = some 1 := by
  obtain ⟨s, hs, hv⟩ := Outcome.bind_eq_ok.mp facing_blocked_call
  obtain ⟨r, hr, hv⟩ := Outcome.bind_eq_ok.mp hv
  have hv := Outcome.ok.inj hv
  obtain ⟨s', hs', he⟩ := Outcome.bind_eq_ok.mp facing_blocked_entry
  cases Outcome.ok.inj (hs.symm.trans hs')
  obtain ⟨act, hact, he⟩ := Outcome.bind_eq_ok.mp he
  have he := Outcome.ok.inj he
  simp only [Prod.mk.injEq] at he
  rw [he.2.2] at hact
  obtain ⟨s', hs', hm⟩ := Outcome.bind_eq_ok.mp facing_blocked_state
  cases Outcome.ok.inj (hs.symm.trans hs')
  have hm := Outcome.ok.inj hm
  simp only [Prod.mk.injEq, List.cons.injEq, and_true] at hm
  obtain ⟨hocc, hn2, ⟨hv0, hv1, hv2, hi0, hi1⟩, hn1⟩ := hm
  obtain ⟨g1, g2, g3, g4, _, g6⟩ := @blocker_still_rotating facing_env
    (s.set_v_next 2 (some 1)) 0 1 2 none (some 1) true 0 r .Y_MINUS (1, .Y_MINUS)
    he.1 he.2.1 hact (by rw [hv0]; decide) hocc (by decide) (by rw [hn2, hv2])
    (fun sa hsw _ => by cases Option.some.inj hsw; rw [hi0, hi1]; decide) hr
  obtain ⟨k1, _⟩ := g6 1 rfl rfl (by decide) hn1
  rw [hv0] at g2
  rw [he.2.1] at g3
  rw [hi0] at g4
  rw [hv1] at k1
  exact ⟨s, r, hs, hr, g1, g2, g3, g4, k1, hv⟩

theorem held_dead_end_iff (E : Env) (s : PIBT) (u : Nat) :
    PIBT.held_dead_end E s u = true ↔ PIBT.dead_end E s u := by
  unfold PIBT.held_dead_end PIBT.dead_end
  cases s.occupied_now u <;> simp

theorem remaining_keeps (E : Env) (s : PIBT) (v_prev u : Nat) :
    (!(decide (u = v_prev) || PIBT.held_dead_end E s u)) = true ↔
      ¬ PIBT.scan_skips E s v_prev u := by
  unfold PIBT.scan_skips
  rw [← held_dead_end_iff]
  cases PIBT.held_dead_end E s u <;> simp

/-- The inner `for` of the swap loops counts the remaining neighbours and leaves the last
of them in `tmp`. -/
theorem corridor_scan_remaining (E : Env) (s : PIBT) (v_pusher v_puller : Nat)
    (tmp : Option Nat) :
    (PIBT.corridor_scan E s v_pusher v_puller tmp).1 =
      (PIBT.remaining E s v_pusher v_puller).length ∧
    ∀ t, (PIBT.remaining E s v_pusher v_puller).getLast? = some t →
      (PIBT.corridor_scan E s v_pusher v_puller tmp).2 = some t := by
  have hdec : DecidablePred (PIBT.scan_skips E s v_pusher) := fun u =>
    Classical.propDecidable _
  obtain ⟨g1, _, g3⟩ := @scan_fold (PIBT.scan_skips E s v_pusher) hdec (E.G.neighbor v_puller)
    (E.G.neighbor v_puller).length tmp
  have e : PIBT.corridor_scan E s v_pusher v_puller tmp =
      (E.G.neighbor v_puller).foldl (fun (acc : Nat × Option Nat) u =>
          if PIBT.scan_skips E s v_pusher u then (acc.1 - 1, acc.2) else (acc.1, some u))
        ((E.G.neighbor v_puller).length, tmp) := by
    unfold PIBT.corridor_scan
    congr 1
    funext acc u
    by_cases hc : PIBT.scan_skips E s v_pusher u
    · rw [if_pos hc]
      exact if_pos hc
    · rw [if_neg hc]
      exact if_neg hc
  have hrem : PIBT.remaining E s v_pusher v_puller =
      List.filter (fun u => decide ¬ PIBT.scan_skips E s v_pusher u)
        (E.G.neighbor v_puller) := by
    unfold PIBT.remaining
    apply List.filter_congr
    intro u _
    by_cases hc : PIBT.scan_skips E s v_pusher u
    · rw [decide_eq_false (not_not.mpr hc)]
      exact Bool.eq_false_iff.mpr fun h => (remaining_keeps E s v_pusher u).mp h hc
    · rw [decide_eq_true hc]
      exact (remaining_keeps E s v_pusher u).mpr hc
  rw [e, hrem]
  refine ⟨?_, g3⟩
  rw [g1]
  have hlen := @List.length_eq_countP_add_countP Nat
    (fun u => decide (PIBT.scan_skips E s v_pusher u)) (E.G.neighbor v_puller)
  rw [← List.countP_eq_length_filter, ← List.countP_eq_length_filter]
  have hc : List.countP (fun u => decide ¬ (decide (PIBT.scan_skips E s v_pusher u) = true))
      (E.G.neighbor v_puller) =
      List.countP (fun u => decide ¬ PIBT.scan_skips E s v_pusher u)
        (E.G.neighbor v_puller) := by
    congr
    funext u
    simp
  omega

/-- One iteration of the `while` of `is_swap_possible`, by the number of remaining
neighbours. -/
theorem is_swap_possible_step (E : Env) (s : PIBT) (origin budget v_pusher v_puller : Nat)
    (tmp : Option Nat) :
    (v_puller = origin →
      PIBT.is_swap_possible_loop E s origin (budget + 1) v_pusher v_puller tmp = .ok false) ∧
    (v_puller ≠ origin → 2 ≤ (PIBT.remaining E s v_pusher v_puller).length →
      PIBT.is_swap_possible_loop E s origin (budget + 1) v_pusher v_puller tmp = .ok true) ∧
    (v_puller ≠ origin → PIBT.remaining E s v_pusher v_puller = [] →
      PIBT.is_swap_possible_loop E s origin (budget + 1) v_pusher v_puller tmp = .ok false) ∧
    (∀ t, v_puller ≠ origin → PIBT.remaining E s v_pusher v_puller = [t] →
      PIBT.is_swap_possible_loop E s origin (budget + 1) v_pusher v_puller tmp =
        PIBT.is_swap_possible_loop E s origin budget v_puller t (some t)) := by
  obtain ⟨h1, h2⟩ := corridor_scan_remaining E s v_pusher v_puller tmp
  refine ⟨fun h => ?_, fun h hl => ?_, fun h hl => ?_, fun t h hl => ?_⟩
  · unfold PIBT.is_swap_possible_loop
    rw [if_neg (not_not.mpr h)]
  · unfold PIBT.is_swap_possible_loop
    rw [if_pos h]
    simp only
    rw [if_pos (by rw [h1]; exact hl)]
  · unfold PIBT.is_swap_possible_loop
    rw [if_pos h]
    simp only
    rw [h1, hl]
    simp
  · have h3 := h2 t (by rw [hl]; rfl)
    rw [PIBT.is_swap_possible_loop, if_pos h]
    simp only
    rw [h1, hl, h3]
    simp

theorem walk_reaches_branch_origin {E : Env} {s : PIBT} {origin v_prev v : Nat}
    {path : List Nat} (h : PIBT.walk_reaches_branch E s origin v_prev v path) : v ≠ origin := by
  cases path with
  | nil => exact h.1
  | cons t rest => exact h.1

/-- The `while` of `is_swap_possible` decides whether the corridor walk reaches a branching
vertex, unless it runs out of iterations. -/
theorem is_swap_possible_loop_walk (E : Env) (s : PIBT) (origin : Nat) :
    ∀ (budget v_pusher v_puller : Nat) (tmp : Option Nat),
      PIBT.is_swap_possible_loop E s origin budget v_pusher v_puller tmp = .starved ∨
      (PIBT.is_swap_possible_loop E s origin budget v_pusher v_puller tmp = .ok true ∧
        ∃ path, PIBT.walk_reaches_branch E s origin v_pusher v_puller path) ∨
      (PIBT.is_swap_possible_loop E s origin budget v_pusher v_puller tmp = .ok false ∧
        ¬ ∃ path, PIBT.walk_reaches_branch E s origin v_pusher v_puller path) := by
  intro budget
  induction budget with
  | zero =>
    intro v_pusher v_puller tmp
    exact Or.inl rfl
  | succ budget ih =>
    intro v_pusher v_puller tmp
    obtain ⟨h1, h2, h3, h4⟩ := is_swap_possible_step E s origin budget v_pusher v_puller tmp
    by_cases ho : v_puller = origin
    · exact Or.inr (Or.inr ⟨h1 ho, fun ⟨_, hp⟩ => walk_reaches_branch_origin hp ho⟩)
    · cases hl : PIBT.remaining E s v_pusher v_puller with
      | nil =>
        refine Or.inr (Or.inr ⟨h3 ho hl, fun ⟨path, hp⟩ => ?_⟩)
        cases path with
        | nil =>
          have := hp.2
          rw [hl] at this
          exact absurd this (by decide)
        | cons t rest =>
          have := hp.2.1
          rw [hl] at this
          exact List.noConfusion this
      | cons a l =>
        cases l with
        | nil =>
          rw [h4 a ho hl]
          rcases ih v_puller a (some a) with h | ⟨h, path, hp⟩ | ⟨h, hp⟩
          · exact Or.inl h
          · exact Or.inr (Or.inl ⟨h, a :: path, ho, hl, hp⟩)
          · refine Or.inr (Or.inr ⟨h, fun ⟨path, hq⟩ => ?_⟩)
            cases path with
            | nil =>
              have := hq.2
              rw [hl] at this
              simp at this
            | cons t rest =>
              have e := hq.2.1
              rw [hl] at e
              cases e
              exact hp ⟨rest, hq.2.2⟩
        | cons b l =>
          refine Or.inr (Or.inl ⟨h2 ho (by rw [hl]; simp), [], ho, ?_⟩)
          rw [hl]
          simp

/-- C28: on a simple undirected graph `is_swap_possible(v_p, v_q)` returns, and it returns
`true` if and only if the corridor walk that starts at `v_q` coming from `v_p`, and advances
while the vertex is not `v_p` and exactly one neighbour remains after discarding the previous
vertex and the degree-1 neighbours held by an agent at its goal, reaches a vertex with at
least two remaining neighbours. -/
theorem is_swap_possible_spec (E : Env) (s : PIBT) (hG : E.G.Simple) (vp vq : Nat) :
    (PIBT.is_swap_possible E s vp vq = .ok true ∨
      PIBT.is_swap_possible E s vp vq = .ok false) ∧
    (PIBT.is_swap_possible E s vp vq = .ok true ↔
      ∃ path, PIBT.walk_reaches_branch E s vp vp vq path) := by
  have hret := is_swap_possible_returns E s hG vp vq
  unfold PIBT.is_swap_possible at hret ⊢
  rcases is_swap_possible_loop_walk E s vp (E.G.size + 1) vp vq none with h | ⟨h, hp⟩ | ⟨h, hp⟩
  · exact absurd h hret
  · exact ⟨Or.inl h, fun _ => hp, fun _ => h⟩
  · refine ⟨Or.inr h, fun h' => ?_, fun h' => absurd h' hp⟩
    rw [h] at h'
    cases h'

theorem stem_simple : stem.Simple := by
  refine ⟨fun v u h => ?_, fun v u h => ?_, fun v h => ?_⟩
  · simp only [stem] at h ⊢
    split_ifs at h <;> simp at h <;> omega
  · simp only [stem] at h ⊢
    split_ifs at h with h0 h1 h2 h3 h4
    · simp at h
      simp [h, h0]
    · simp at h
      rcases h with h | h | h <;> simp [h, h1]
    · simp at h
      simp [h, h2]
    · simp at h
      rcases h with h | h <;> simp [h, h3]
    · simp at h
      simp [h, h4]
    · simp at h
  · simp only [stem] at h
    split_ifs at h <;> simp at h <;> omega

theorem stem_remaining :
    (PIBT.remaining facing_env (PIBT.create facing_env) 4 3,
      PIBT.remaining facing_env (PIBT.create facing_env) 3 1) = ([1], [0, 2]) := by
  decide!

/-- Witness of C28 on the stem: from `v3`, coming from `v4`, the walk advances to `v1`, where
two neighbours remain. -/
theorem is_swap_possible_spec_witness :
    stem.Simple ∧
      PIBT.walk_reaches_branch facing_env (PIBT.create facing_env) 4 4 3 [1] ∧
      PIBT.is_swap_possible facing_env (PIBT.create facing_env) 4 3 = .ok true := by
  have h := Prod.mk.inj stem_remaining
  have hw : PIBT.walk_reaches_branch facing_env (PIBT.create facing_env) 4 4 3 [1] := by
    refine ⟨by decide, h.1, by decide, ?_⟩
    rw [h.2]
    decide
  exact ⟨stem_simple, hw,
    (is_swap_possible_spec facing_env (PIBT.create facing_env) stem_simple 4 3).2.mpr
      ⟨[1], hw⟩⟩

/-- One iteration of the `while` of `is_swap_required`, by the loop test and the number of
remaining neighbours. -/
theorem is_swap_required_step (E : Env) (s : PIBT) (pusher puller budget v_pusher v_puller : Nat)
    (tmp : Option Nat) :
    (¬ PIBT.getMinDistAllDirections E pusher v_puller <
        PIBT.getMinDistAllDirections E pusher v_pusher →
      PIBT.is_swap_required_loop E s pusher puller (budget + 1) v_pusher v_puller tmp =
        .ok (PIBT.is_swap_required_result E pusher puller v_pusher v_puller)) ∧
    (PIBT.getMinDistAllDirections E pusher v_puller <
        PIBT.getMinDistAllDirections E pusher v_pusher →
      (2 ≤ (PIBT.remaining E s v_pusher v_puller).length →
        PIBT.is_swap_required_loop E s pusher puller (budget + 1) v_pusher v_puller tmp =
          .ok false) ∧
      (PIBT.remaining E s v_pusher v_puller = [] →
        PIBT.is_swap_required_loop E s pusher puller (budget + 1) v_pusher v_puller tmp =
          .ok (PIBT.is_swap_required_result E pusher puller v_pusher v_puller)) ∧
      (∀ t, PIBT.remaining E s v_pusher v_puller = [t] →
        PIBT.is_swap_required_loop E s pusher puller (budget + 1) v_pusher v_puller tmp =
          PIBT.is_swap_required_loop E s pusher puller budget v_puller t (some t))) := by
  obtain ⟨h1, h2⟩ := corridor_scan_remaining E s v_pusher v_puller tmp
  refine ⟨fun h => ?_, fun h => ⟨fun hl => ?_, fun hl => ?_, fun t hl => ?_⟩⟩
  · unfold PIBT.is_swap_required_loop
    rw [if_neg h]
  · unfold PIBT.is_swap_required_loop
    rw [if_pos h]
    simp only
    rw [if_pos (by rw [h1]; exact hl)]
  · unfold PIBT.is_swap_required_loop
    rw [if_pos h]
    simp only
    rw [h1, hl]
    simp
  · have h3 := h2 t (by rw [hl]; rfl)
    rw [PIBT.is_swap_required_loop, if_pos h]
    simp only
    rw [h1, hl, h3]
    simp

theorem walk_meets_branch_guard {E : Env} {s : PIBT} {pusher v_prev v : Nat}
    {path : List Nat} (h : PIBT.walk_meets_branch E s pusher v_prev v path) :
    PIBT.getMinDistAllDirections E pusher v < PIBT.getMinDistAllDirections E pusher v_prev := by
  cases path with
  | nil => exact h.1
  | cons t rest => exact h.1

/-- The `while` of `is_swap_required` follows the corridor walk, unless it runs out of
iterations: the walk meets a branching vertex and the result is `false`, or it stops at one
pair of vertices and the result is the final test on that pair. -/
theorem is_swap_required_loop_walk (E : Env) (s : PIBT) (pusher puller : Nat) :
    ∀ (budget v_pusher v_puller : Nat) (tmp : Option Nat),
      PIBT.is_swap_required_loop E s pusher puller budget v_pusher v_puller tmp = .starved ∨
      (PIBT.is_swap_required_loop E s pusher puller budget v_pusher v_puller tmp = .ok false ∧
        (∃ path, PIBT.walk_meets_branch E s pusher v_pusher v_puller path) ∧
        ¬ ∃ path x, PIBT.walk_stops_at E s pusher v_pusher v_puller path x) ∨
      (∃ path x, PIBT.walk_stops_at E s pusher v_pusher v_puller path x ∧
        PIBT.is_swap_required_loop E s pusher puller budget v_pusher v_puller tmp =
          .ok (PIBT.is_swap_required_result E pusher puller x.1 x.2) ∧
        (∀ path1 x1, PIBT.walk_stops_at E s pusher v_pusher v_puller path1 x1 → x1 = x) ∧
        ¬ ∃ path1, PIBT.walk_meets_branch E s pusher v_pusher v_puller path1) := by
  intro budget
  induction budget with
  | zero =>
    intro v_pusher v_puller tmp
    exact Or.inl rfl
  | succ budget ih =>
    intro v_pusher v_puller tmp
    obtain ⟨h1, h2⟩ := is_swap_required_step E s pusher puller budget v_pusher v_puller tmp
    by_cases hg : PIBT.getMinDistAllDirections E pusher v_puller <
        PIBT.getMinDistAllDirections E pusher v_pusher
    · obtain ⟨k1, k2, k3⟩ := h2 hg
      cases hl : PIBT.remaining E s v_pusher v_puller with
      | nil =>
        refine Or.inr (Or.inr ⟨[], (v_pusher, v_puller), ⟨rfl, Or.inr hl⟩, k2 hl, ?_, ?_⟩)
        · intro path1 x1 hs
          cases path1 with
          | nil => exact hs.1
          | cons t rest =>
            have e := hs.2.1
            rw [hl] at e
            exact List.noConfusion e
        · rintro ⟨path1, hm⟩
          cases path1 with
          | nil =>
            have e := hm.2
            rw [hl] at e
            simp at e
          | cons t rest =>
            have e := hm.2.1
            rw [hl] at e
            exact List.noConfusion e
      | cons a l =>
        cases l with
        | nil =>
          rw [k3 a hl]
          rcases ih v_puller a (some a) with h | ⟨h, ⟨path, hp⟩, hn⟩ | ⟨path, x, hs, h, hu, hn⟩
          · exact Or.inl h
          · refine Or.inr (Or.inl ⟨h, ⟨a :: path, hg, hl, hp⟩, ?_⟩)
            rintro ⟨path1, x1, hs⟩
            cases path1 with
            | nil =>
              rcases hs.2 with e | e
              · exact e hg
              · rw [hl] at e
                exact List.noConfusion e
            | cons t rest =>
              have e := hs.2.1
              rw [hl] at e
              cases e
              exact hn ⟨rest, x1, hs.2.2⟩
          · refine Or.inr (Or.inr ⟨a :: path, x, ⟨hg, hl, hs⟩, h, ?_, ?_⟩)
            · intro path1 x1 hs1
              cases path1 with
              | nil =>
                rcases hs1.2 with e | e
                · exact absurd hg e
                · rw [hl] at e
                  exact List.noConfusion e
              | cons t rest =>
                have e := hs1.2.1
                rw [hl] at e
                cases e
                exact hu rest x1 hs1.2.2
            · rintro ⟨path1, hm⟩
              cases path1 with
              | nil =>
                have e := hm.2
                rw [hl] at e
                simp at e
              | cons t rest =>
                have e := hm.2.1
                rw [hl] at e
                cases e
                exact hn ⟨rest, hm.2.2⟩
        | cons b l =>
          refine Or.inr (Or.inl ⟨k1 (by rw [hl]; simp), ⟨[], hg, by rw [hl]; simp⟩, ?_⟩)
          rintro ⟨path1, x1, hs⟩
          cases path1 with
          | nil =>
            rcases hs.2 with e | e
            · exact e hg
            · rw [hl] at e
              exact List.noConfusion e
          | cons t rest =>
            have e := hs.2.1
            rw [hl] at e
            simp at e
    · refine Or.inr (Or.inr ⟨[], (v_pusher, v_puller), ⟨rfl, Or.inl hg⟩, h1 hg, ?_, ?_⟩)
      · intro path1 x1 hs
        cases path1 with
        | nil => exact hs.1
        | cons t rest => exact absurd hs.1 hg
      · rintro ⟨path1, hm⟩
        exact hg (walk_meets_branch_guard hm)

/-- The value of `getMinDistAllDirections`: the minimum over the four headings of the table
entries converted to `float`, below the initial value `FLT_MAX` of the running minimum. -/
theorem getMinDistAllDirections_capped (E : Env) (a v : Nat) :
    PIBT.getMinDistAllDirections E a v =
      min FLT_MAX (min (min (min (float_of_int (E.pathDist a v .X_PLUS))
        (float_of_int (E.pathDist a v .X_MINUS))) (float_of_int (E.pathDist a v .Y_PLUS)))
        (float_of_int (E.pathDist a v .Y_MINUS))) := by
  unfold PIBT.getMinDistAllDirections all_orientations
  simp only [List.foldl, getMinDistToGoal_capped]
  generalize FLT_MAX = M
  generalize float_of_int (E.pathDist a v .X_PLUS) = x1
  generalize float_of_int (E.pathDist a v .X_MINUS) = x2
  generalize float_of_int (E.pathDist a v .Y_PLUS) = x3
  generalize float_of_int (E.pathDist a v .Y_MINUS) = x4
  omega

theorem parked_pair :
    (PIBT.remaining parked_env (PIBT.create parked_env) 3 1,
      PIBT.is_swap_required parked_env (PIBT.create parked_env) 0 1 3 1,
      [PIBT.getMinDistAllDirections parked_env 0 1, PIBT.getMinDistAllDirections parked_env 0 3,
        PIBT.getMinDistAllDirections parked_env 1 3,
        PIBT.getMinDistAllDirections parked_env 1 1]) = ([0, 2], .ok true, [1, 0, 1, 2]) := by
  decide!

/-- Counterexample to C27 as stated: on `parked_env` the pusher stands on its goal `v3`; the
corridor walk from `v_q = v1`, coming from `v3`, finds the two remaining neighbours `v0` and
`v2` at `v1`, yet `is_swap_required` returns `true`: `v1` is not closer to the goal of the
pusher than `v3`, the loop is not entered, and the final test holds of the pair `(v3, v1)`.
Moreover `getMinDistAllDirections` is not the minimum of the table entries when these are
large: on `far_env` it is `2 ^ 24` at `v2`, where every entry is `2 ^ 24 + 1`. -/
theorem is_swap_required_guard_counterexample :
    PIBT.corridor_meets_branch parked_env (PIBT.create parked_env) 3 1 [] ∧
    PIBT.is_swap_required parked_env (PIBT.create parked_env) 0 1 3 1 = .ok true ∧
    ¬ PIBT.getMinDistAllDirections parked_env 0 1 <
      PIBT.getMinDistAllDirections parked_env 0 3 ∧
    (∀ h, far_env.pathDist 0 2 h = 16777217) ∧
    PIBT.getMinDistAllDirections far_env 0 2 = 16777216 := by
  have h := Prod.mk.inj parked_pair
  have h2 := Prod.mk.inj h.2
  have hd := h2.2
  simp only [List.cons.injEq, and_true] at hd
  obtain ⟨d01, d03, -, -⟩ := hd
  refine ⟨?_, h2.1, ?_, fun _ => rfl, by decide⟩
  · show 2 ≤ (PIBT.remaining parked_env (PIBT.create parked_env) 3 1).length
    rw [h.1]
    decide
  · rw [d01, d03]
    decide

/-- C27, amended: on a simple undirected graph, with `v_q` a vertex of the graph,
`is_swap_required(pusher, puller, v_p, v_q)` returns; it returns `false` if its corridor
walk from `v_q` meets a vertex with two or more remaining neighbours, where the walk advances
from a vertex only while that vertex is closer to the goal of the pusher than the vertex
before it (tested at `v_q` against `v_p` first), and at each vertex discards the vertex it
came from and every degree-1 neighbour held by an agent at its goal; otherwise the walk stops
at a pair `(v_p', v_q')`, where the test of advance fails or no neighbour remains, and the
result is `true` if and only if `d(puller, v_p') < d(puller, v_q')` and
(`d(pusher, v_p') = 0` or `d(pusher, v_q') < d(pusher, v_p')`), where
`d = getMinDistAllDirections` is the minimum over the four headings of the table entries
converted to `float`, which is the minimum of the entries when their magnitude is below
`2 ^ 24`. -/
theorem is_swap_required_spec (E : Env) (s : PIBT) (hG : E.G.Simple)
    (pusher puller vp vq : Nat) (hq : vq < E.G.size) :
    ∃ b, PIBT.is_swap_required E s pusher puller vp vq = .ok b ∧
      ((∃ path, PIBT.walk_meets_branch E s pusher vp vq path) → b = false) ∧
      (∀ path x, PIBT.walk_stops_at E s pusher vp vq path x →
        (b = true ↔
          PIBT.getMinDistAllDirections E puller x.1 <
              PIBT.getMinDistAllDirections E puller x.2 ∧
            (PIBT.getMinDistAllDirections E pusher x.1 = 0 ∨
              PIBT.getMinDistAllDirections E pusher x.2 <
                PIBT.getMinDistAllDirections E pusher x.1))) ∧
      ((∃ path, PIBT.walk_meets_branch E s pusher vp vq path) ∨
        ∃ path x, PIBT.walk_stops_at E s pusher vp vq path x) ∧
      (∀ a v, PIBT.getMinDistAllDirections E a v =
        min FLT_MAX (min (min (min (float_of_int (E.pathDist a v .X_PLUS))
          (float_of_int (E.pathDist a v .X_MINUS))) (float_of_int (E.pathDist a v .Y_PLUS)))
          (float_of_int (E.pathDist a v .Y_MINUS)))) ∧
      (∀ a v, (∀ h, -16777216 < E.pathDist a v h ∧ E.pathDist a v h < 16777216) →
        PIBT.getMinDistAllDirections E a v =
          min (min (min (E.pathDist a v .X_PLUS) (E.pathDist a v .X_MINUS))
            (E.pathDist a v .Y_PLUS)) (E.pathDist a v .Y_MINUS)) := by
  have hd : ∀ a v, (∀ h, -16777216 < E.pathDist a v h ∧ E.pathDist a v h < 16777216) →
      PIBT.getMinDistAllDirections E a v =
        min (min (min (E.pathDist a v .X_PLUS) (E.pathDist a v .X_MINUS))
          (E.pathDist a v .Y_PLUS)) (E.pathDist a v .Y_MINUS) := by
    intro a v hb
    rw [getMinDistAllDirections_capped, float_of_int_exact (hb _).1 (hb _).2,
      float_of_int_exact (hb _).1 (hb _).2, float_of_int_exact (hb _).1 (hb _).2,
      float_of_int_exact (hb _).1 (hb _).2]
    have h1 := hb .X_PLUS
    unfold FLT_MAX
    omega
  have hret := is_swap_required_returns E s hG pusher puller vp vq hq
  unfold PIBT.is_swap_required at hret ⊢
  rcases is_swap_required_loop_walk E s pusher puller (E.G.size + 1) vp vq none with
    h | ⟨h, hm, hn⟩ | ⟨path, x, hs, h, hu, hn⟩
  · exact absurd h hret
  · exact ⟨false, h, fun _ => rfl, fun path x hs => absurd ⟨path, x, hs⟩ hn, Or.inl hm,
      getMinDistAllDirections_capped E, hd⟩
  · refine ⟨_, h, fun hm => absurd hm hn, fun path1 x1 hs1 => ?_, Or.inr ⟨path, x, hs⟩,
      getMinDistAllDirections_capped E, hd⟩
    rw [hu path1 x1 hs1]
    simp [PIBT.is_swap_required_result]

theorem stem_pair :
    (PIBT.remaining facing_env (PIBT.create facing_env) 3 4,
      [PIBT.getMinDistAllDirections facing_env 1 3, PIBT.getMinDistAllDirections facing_env 1 4,
        PIBT.getMinDistAllDirections facing_env 0 3,
        PIBT.getMinDistAllDirections facing_env 0 4]) = ([], [1, 2, 1, 0]) := by
  decide!

/-- Witness of C27 on the stem: the pusher on `v3` heads for `v4`, where the puller stands
with goal `v1`; no neighbour of `v4` remains, the walk stops at `(v3, v4)` and the swap is
required. -/
theorem is_swap_required_spec_witness :
    stem.Simple ∧ 4 < stem.size ∧
      PIBT.walk_stops_at facing_env (PIBT.create facing_env) 0 3 4 [] (3, 4) ∧
      PIBT.is_swap_required facing_env (PIBT.create facing_env) 0 1 3 4 = .ok true := by
  have h := Prod.mk.inj stem_pair
  have hd := h.2
  simp only [List.cons.injEq, and_true] at hd
  obtain ⟨d13, d14, d03, d04⟩ := hd
  have hw : PIBT.walk_stops_at facing_env (PIBT.create facing_env) 0 3 4 [] (3, 4) :=
    ⟨rfl, Or.inr h.1⟩
  obtain ⟨b, hb, _, h2, _, _⟩ := is_swap_required_spec facing_env (PIBT.create facing_env)
    stem_simple 0 1 3 4 (by decide)
  have hb2 : b = true := by
    refine (h2 [] (3, 4) hw).mpr ⟨?_, Or.inr ?_⟩
    · show PIBT.getMinDistAllDirections facing_env 1 3 <
        PIBT.getMinDistAllDirections facing_env 1 4
      rw [d13, d14]
      decide
    · show PIBT.getMinDistAllDirections facing_env 0 4 <
        PIBT.getMinDistAllDirections facing_env 0 3
      rw [d03, d04]
      decide
  rw [hb2] at hb
  exact ⟨stem_simple, by decide, hw, hb⟩

/-! ## The comparator, `Plan`, the swap tests and safety of the planning phase -/

theorem compare_false_iff {E : Env} {s : PIBT} {ai v u : Nat} :
    PIBT.funcPIBT_compare E s ai v u = .ok false ↔
      ∃ dv du, PIBT.funcPIBT_d E s ai v = .ok dv ∧ PIBT.funcPIBT_d E s ai u = .ok du ∧
        ¬ (dv < du ∨ (dv = du ∧ s.occupied_now v = none ∧ s.occupied_now u ≠ none)) := by
  constructor
  · intro h
    obtain ⟨dv, du, hdv, hdu, _⟩ := compare_eq_ok.mp h
    refine ⟨dv, du, hdv, hdu, fun hc => ?_⟩
    have ht := compare_true_iff.mpr ⟨dv, du, hdv, hdu, hc⟩
    rw [h] at ht
    cases ht
  · rintro ⟨dv, du, hdv, hdu, hn⟩
    obtain ⟨b, hb⟩ : ∃ b, PIBT.funcPIBT_compare E s ai v u = .ok b :=
      ⟨_, compare_eq_ok.mpr ⟨dv, du, hdv, hdu, rfl⟩⟩
    cases b with
    | false => exact hb
    | true =>
      obtain ⟨dv', du', hdv', hdu', hc⟩ := compare_true_iff.mp hb
      have e1 : dv' = dv := Outcome.ok.inj (hdv'.symm.trans hdv)
      have e2 : du' = du := Outcome.ok.inj (hdu'.symm.trans hdu)
      subst e1 e2
      exact absurd hc hn

/-- Two candidates with a cost are incomparable exactly when their costs are equal and both
are occupied or both are free. -/
theorem incomparable_iff {E : Env} {s : PIBT} {ai v u : Nat} {dv du : Int}
    (hdv : PIBT.funcPIBT_d E s ai v = .ok dv) (hdu : PIBT.funcPIBT_d E s ai u = .ok du) :
    PIBT.incomparable E s ai v u ↔
      (dv = du ∧ (s.occupied_now v = none ↔ s.occupied_now u = none)) := by
  unfold PIBT.incomparable
  rw [compare_false_iff, compare_false_iff]
  constructor
  · rintro ⟨⟨dv1, du1, h1, h2, n1⟩, ⟨du2, dv2, h3, h4, n2⟩⟩
    have e1 : dv1 = dv := Outcome.ok.inj (h1.symm.trans hdv)
    have e2 : du1 = du := Outcome.ok.inj (h2.symm.trans hdu)
    have e3 : du2 = du := Outcome.ok.inj (h3.symm.trans hdu)
    have e4 : dv2 = dv := Outcome.ok.inj (h4.symm.trans hdv)
    rw [e1, e2] at n1
    rw [e3, e4] at n2
    push_neg at n1 n2
    have e : dv = du := le_antisymm n2.1 n1.1
    refine ⟨e, fun hv => ?_, fun hu => ?_⟩
    · by_contra hu
      exact hu (n1.2 e hv)
    · by_contra hv
      exact hv (n2.2 e.symm hu)
  · rintro ⟨e, hocc⟩
    subst e
    refine ⟨⟨dv, dv, hdv, hdu, ?_⟩, ⟨dv, dv, hdu, hdv, ?_⟩⟩
    · rintro (h | ⟨_, h1, h2⟩)
      · exact lt_irrefl _ h
      · exact h2 (hocc.mp h1)
    · rintro (h | ⟨_, h1, h2⟩)
      · exact lt_irrefl _ h
      · exact h2 (hocc.mpr h1)

/-- C36: for a fixed agent state, distance table and table `occupied_now`, the comparator of
`funcPIBT` is a strict weak ordering of the candidates whose cost is defined (on which the
comparator does not abort): it is irreflexive, asymmetric and transitive, and
incomparability, which holds exactly for candidates of equal cost that are both occupied or
both free, is reflexive, symmetric and transitive. -/
theorem funcPIBT_compare_weak_order (E : Env) (s : PIBT) (ai : Nat) (C : List Nat)
    (hC : ∀ v, v ∈ C → ∃ d, PIBT.funcPIBT_d E s ai v = .ok d) :
    (∀ v, v ∈ C → PIBT.funcPIBT_compare E s ai v v = .ok false) ∧
    (∀ v u, v ∈ C → u ∈ C → PIBT.funcPIBT_compare E s ai v u = .ok true →
      PIBT.funcPIBT_compare E s ai u v = .ok false) ∧
    (∀ v u w, v ∈ C → u ∈ C → w ∈ C → PIBT.funcPIBT_compare E s ai v u = .ok true →
      PIBT.funcPIBT_compare E s ai u w = .ok true →
      PIBT.funcPIBT_compare E s ai v w = .ok true) ∧
    (∀ v u dv du, v ∈ C → u ∈ C → PIBT.funcPIBT_d E s ai v = .ok dv →
      PIBT.funcPIBT_d E s ai u = .ok du →
      (PIBT.incomparable E s ai v u ↔
        (dv = du ∧ (s.occupied_now v = none ↔ s.occupied_now u = none)))) ∧
    (∀ v, v ∈ C → PIBT.incomparable E s ai v v) ∧
    (∀ v u, v ∈ C → u ∈ C → PIBT.incomparable E s ai v u → PIBT.incomparable E s ai u v) ∧
    (∀ v u w, v ∈ C → u ∈ C → w ∈ C → PIBT.incomparable E s ai v u →
      PIBT.incomparable E s ai u w → PIBT.incomparable E s ai v w) := by
  refine ⟨fun v hv => ?_, fun v u _ _ h => ?_, fun v u w _ _ _ h1 h2 => ?_,
    fun v u dv du _ _ hdv hdu => incomparable_iff hdv hdu, fun v hv => ?_,
    fun v u _ _ h => ⟨h.2, h.1⟩, fun v u w hv hu hw h1 h2 => ?_⟩
  · obtain ⟨d, hd⟩ := hC v hv
    exact ((incomparable_iff hd hd).mpr ⟨rfl, Iff.rfl⟩).1
  · obtain ⟨dv, du, hdv, hdu, hc⟩ := compare_true_iff.mp h
    refine compare_false_iff.mpr ⟨du, dv, hdu, hdv, ?_⟩
    rintro (h' | ⟨e, h1, h2⟩)
    · rcases hc with hc | ⟨e, _, _⟩
      · exact lt_asymm hc h'
      · rw [e] at h'
        exact lt_irrefl _ h'
    · rcases hc with hc | ⟨_, h3, _⟩
      · rw [e] at hc
        exact lt_irrefl _ hc
      · exact h2 h3
  · obtain ⟨dv, du, hdv, hdu, c1⟩ := compare_true_iff.mp h1
    obtain ⟨du', dw, hdu', hdw, c2⟩ := compare_true_iff.mp h2
    have e : du' = du := Outcome.ok.inj (hdu'.symm.trans hdu)
    subst e
    refine compare_true_iff.mpr ⟨dv, dw, hdv, hdw, ?_⟩
    rcases c1 with c1 | ⟨e1, _, o2⟩
    · rcases c2 with c2 | ⟨e2, _, _⟩
      · exact Or.inl (lt_trans c1 c2)
      · exact Or.inl (e2 ▸ c1)
    · rcases c2 with c2 | ⟨_, o3, _⟩
      · exact Or.inl (e1 ▸ c2)
      · exact absurd o3 o2
  · obtain ⟨d, hd⟩ := hC v hv
    exact (incomparable_iff hd hd).mpr ⟨rfl, Iff.rfl⟩
  · obtain ⟨dv, hdv⟩ := hC v hv
    obtain ⟨du, hdu⟩ := hC u hu
    obtain ⟨dw, hdw⟩ := hC w hw
    obtain ⟨e1, o1⟩ := (incomparable_iff hdv hdu).mp h1
    obtain ⟨e2, o2⟩ := (incomparable_iff hdu hdw).mp h2
    exact (incomparable_iff hdv hdw).mpr ⟨e1.trans e2, o1.trans o2⟩

theorem idle_costs :
    (PIBT.after idle_env 0).bind (fun s =>
      (PIBT.funcPIBT_d idle_env s 0 0).bind fun d0 =>
      (PIBT.funcPIBT_d idle_env s 0 1).bind fun d1 =>
      (PIBT.funcPIBT_d idle_env s 0 2).bind fun d2 =>
        Outcome.ok ([d0, d1, d2], [s.occupied_now 0, s.occupied_now 1, s.occupied_now 2])) =
      .ok ([5, 1, 5], [none, some 0, none]) := by
  decide!

/-- Witness of C36 on `idle_env`: the neighbours `v0` and `v2` of the agent have the same
cost and are both free, so they are incomparable; the own vertex is ranked before both. -/
theorem funcPIBT_compare_weak_order_witness :
    ∃ s, PIBT.after idle_env 0 = .ok s ∧ PIBT.incomparable idle_env s 0 0 2 ∧
      PIBT.funcPIBT_compare idle_env s 0 1 0 = .ok true ∧
      PIBT.funcPIBT_compare idle_env s 0 0 1 = .ok false := by
  obtain ⟨s, hs, hv⟩ := Outcome.bind_eq_ok.mp idle_costs
  obtain ⟨d0, h0, hv⟩ := Outcome.bind_eq_ok.mp hv
  obtain ⟨d1, h1, hv⟩ := Outcome.bind_eq_ok.mp hv
  obtain ⟨d2, h2, hv⟩ := Outcome.bind_eq_ok.mp hv
  have hv := Outcome.ok.inj hv
  simp only [Prod.mk.injEq, List.cons.injEq, and_true] at hv
  obtain ⟨⟨e0, e1, e2⟩, o0, o1, o2⟩ := hv
  subst e0 e1 e2
  have hC : ∀ v, v ∈ [0, 1, 2] → ∃ d, PIBT.funcPIBT_d idle_env s 0 v = .ok d := by
    intro v hv
    simp only [List.mem_cons, List.mem_singleton, List.not_mem_nil, or_false] at hv
    rcases hv with e | e | e <;> subst e
    · exact ⟨_, h0⟩
    · exact ⟨_, h1⟩
    · exact ⟨_, h2⟩
  obtain ⟨_, g2, _, g4, _⟩ := funcPIBT_compare_weak_order idle_env s 0 [0, 1, 2] hC
  have h10 : PIBT.funcPIBT_compare idle_env s 0 1 0 = .ok true :=
    compare_true_iff.mpr ⟨1, 5, h1, h0, Or.inl (by decide)⟩
  refine ⟨s, hs, (g4 0 2 5 5 (by simp) (by simp) h0 h2).mpr ⟨rfl, ?_⟩, h10,
    g2 1 0 (by simp) (by simp) h10⟩
  rw [o0, o2]

theorem aligned_snoc {cs : List Config} {os : List (List Orientation)} {c : Config}
    {o : List Orientation} :
    Plan.aligned { configs := cs ++ [c], orientations := os ++ [o] } ↔
      Plan.aligned { configs := cs, orientations := os } ∧ o.length = c.length := by
  unfold Plan.aligned
  dsimp only
  rw [← List.forall₂_reverse_iff, List.reverse_append, List.reverse_append]
  simp only [List.reverse_cons, List.reverse_nil, List.nil_append, List.singleton_append,
    List.forall₂_cons, List.forall₂_reverse_iff]
  exact and_comm

theorem aligned_length {p : Plan} (h : p.aligned) : p.orientations.length = p.configs.length :=
  (List.Forall₂.length_eq h).symm

theorem aligned_row {p : Plan} (h : p.aligned) (t : Nat) :
    (p.orientations.getD t []).length = (p.configs.getD t []).length := by
  unfold Plan.aligned at h
  generalize p.configs = cs at h
  generalize p.orientations = os at h
  induction h generalizing t with
  | nil => rfl
  | cons hco _ ih =>
    cases t with
    | zero => exact hco
    | succ t => exact ih t

theorem add_aligned {p q : Plan} {c : Config} (hp : p.aligned) (h : p.add c = .ok q) :
    q.aligned := by
  unfold Plan.add at h
  split_ifs at h
  rw [← Outcome.ok.inj h]
  exact aligned_snoc.mpr ⟨hp, List.length_replicate _ _⟩

theorem addWithOrientation_aligned {p q : Plan} {c : Config} {o : List Orientation}
    (hp : p.aligned) (h : p.addWithOrientation c o = .ok q) : q.aligned := by
  unfold Plan.addWithOrientation at h
  split_ifs at h with h1 h2
  rw [← Outcome.ok.inj h]
  exact aligned_snoc.mpr ⟨hp, (not_not.mp h2).symm⟩

theorem addOrientation_aligned {p q : Plan} {o : List Orientation}
    (hp : p.aligned) (h : p.addOrientation o = .ok q) : q.aligned := by
  unfold Plan.addOrientation at h
  split_ifs at h with h1 h2 h3
  rw [← Outcome.ok.inj h]
  have hc : p.configs ≠ [] := by
    intro e
    rw [e] at h1
    exact h1 rfl
  have ho : p.orientations ≠ [] := by
    intro e
    rw [e] at h3
    exact h3 rfl
  have ec := List.dropLast_append_getLast hc
  have eo := List.dropLast_append_getLast ho
  have hp' : Plan.aligned (Plan.mk (p.configs.dropLast ++ [p.configs.getLast hc])
      (p.orientations.dropLast ++ [p.orientations.getLast ho])) := by
    rw [ec, eo]
    exact hp
  have hlast : (p.configs.getLastD []).length = (p.configs.getLast hc).length := by
    rw [List.getLastD_eq_getLast?, List.getLast?_eq_getLast _ hc]
    rfl
  have hgoal : Plan.aligned (Plan.mk (p.configs.dropLast ++ [p.configs.getLast hc])
      (p.orientations.dropLast ++ [o])) :=
    aligned_snoc.mpr ⟨(aligned_snoc.mp hp').1, by rw [not_not.mp h2, hlast]⟩
  rw [ec] at hgoal
  exact hgoal

theorem add_rows_aligned (other : Plan) :
    ∀ (ts : List Nat) (p q : Plan), p.aligned → Plan.add_rows other ts p = .ok q →
      q.aligned := by
  intro ts
  induction ts with
  | nil =>
    intro p q hp h
    rw [← Outcome.ok.inj h]
    exact hp
  | cons t ts ih =>
    intro p q hp h
    unfold Plan.add_rows at h
    obtain ⟨c, _, h⟩ := Outcome.bind_eq_ok.mp h
    obtain ⟨p1, h1, h⟩ := Outcome.bind_eq_ok.mp h
    exact ih p1 q (add_aligned hp h1) h

theorem add_rows_length (other : Plan) :
    ∀ (ts : List Nat) (p q : Plan), Plan.add_rows other ts p = .ok q →
      q.configs.length = p.configs.length + ts.length ∧
      q.orientations.length = p.orientations.length + ts.length := by
  intro ts
  induction ts with
  | nil =>
    intro p q h
    rw [← Outcome.ok.inj h]
    exact ⟨rfl, rfl⟩
  | cons t ts ih =>
    intro p q h
    unfold Plan.add_rows at h
    obtain ⟨c, _, h⟩ := Outcome.bind_eq_ok.mp h
    obtain ⟨p1, h1, h⟩ := Outcome.bind_eq_ok.mp h
    obtain ⟨g1, g2⟩ := ih p1 q h
    unfold Plan.add at h1
    split_ifs at h1
    rw [← Outcome.ok.inj h1] at g1 g2
    simp only [List.length_append, List.length_singleton, List.length_cons,
      List.length_nil] at g1 g2 ⊢
    omega

theorem plus_assign_aligned {p q other : Plan} (hp : p.aligned) (hne : p.configs ≠ [])
    (h : p.plus_assign other = .ok q) : q.aligned := by
  unfold Plan.plus_assign at h
  have he : p.configs.isEmpty = false := by
    cases hc : p.configs with
    | nil => exact absurd hc hne
    | cons _ _ => rfl
  rw [he] at h
  simp only [Bool.false_eq_true, if_false] at h
  obtain ⟨c1, _, h⟩ := Outcome.bind_eq_ok.mp h
  obtain ⟨c2, _, h⟩ := Outcome.bind_eq_ok.mp h
  split_ifs at h
  exact add_rows_aligned other _ p q hp h

theorem built_aligned {p : Plan} (h : Plan.Built p) : p.aligned := by
  induction h with
  | empty => exact List.Forall₂.nil
  | clear p _ _ => exact List.Forall₂.nil
  | add p q c _ h ih => exact add_aligned ih h
  | addWithOrientation p q c o _ h ih => exact addWithOrientation_aligned ih h
  | addOrientation p q o _ h ih => exact addOrientation_aligned ih h
  | plus_assign p q other _ hne h ih => exact plus_assign_aligned ih hne h

/-- In an aligned plan `getOrientation(t, i)` is defined wherever `get(t, i)` is. -/
theorem aligned_get {p : Plan} (hp : p.aligned) {t i : Int} {v : Option Nat}
    (h : p.get t i = .ok v) : ∃ o, p.getOrientation t i = .ok o := by
  have hlen := aligned_length hp
  have h0 := aligned_row hp 0
  have ht' := aligned_row hp t.toNat
  unfold Plan.get at h
  split_ifs at h with h1 h2 h3
  simp only [not_not] at h2 h3
  have hc : p.configs ≠ [] := by
    intro e
    apply h1
    unfold Plan.empty
    rw [e]
    rfl
  have ho : p.orientations ≠ [] := by
    intro e
    rw [e] at hlen
    exact hc (List.length_eq_zero.mp hlen.symm)
  have hhead : ∀ {α : Type} (l : List (List α)), l.headD [] = l.getD 0 [] := by
    intro α l
    cases l <;> rfl
  rw [hhead] at h3
  cases hg : (p.configs.getD t.toNat [])[i.toNat]? with
  | none =>
    rw [hg] at h
    cases h
  | some w =>
    have hi : i.toNat < (p.configs.getD t.toNat []).length := by
      by_contra hn
      rw [List.getElem?_eq_none (by omega)] at hg
      cases hg
    unfold Plan.getOrientation
    have he : p.orientations.isEmpty = false := by
      cases hq : p.orientations with
      | nil => exact absurd hq ho
      | cons _ _ => rfl
    rw [he]
    simp only [Bool.false_eq_true, if_false]
    rw [if_neg (not_not.mpr ⟨h2.1, by rw [hlen]; exact h2.2⟩)]
    rw [if_neg (not_not.mpr ⟨h3.1, by rw [hhead, h0]; exact h3.2⟩)]
    have hi' : i.toNat < (p.orientations.getD t.toNat []).length := by
      rw [ht']
      exact hi
    rw [List.getElem?_eq_getElem hi']
    exact ⟨_, rfl⟩

/-- The plan returned by `operator+` has the configurations of both operands but orientation
vectors for the appended configurations only. -/
theorem plus_length {p other q : Plan} (h : p.plus other = .ok q) :
    p.configs ≠ [] ∧ q.orientations.length + p.configs.length = q.configs.length := by
  unfold Plan.plus at h
  obtain ⟨c1, hc1, h⟩ := Outcome.bind_eq_ok.mp h
  obtain ⟨c2, _, h⟩ := Outcome.bind_eq_ok.mp h
  split_ifs at h
  obtain ⟨g1, g2⟩ := add_rows_length other _ _ q h
  refine ⟨?_, ?_⟩
  · intro e
    unfold Plan.last Plan.empty at hc1
    rw [e] at hc1
    cases hc1
  · rw [g1, g2]
    simp only [List.length_nil]
    omega

/-- On an empty plan `operator+=` copies the configurations of the other plan and nothing
else. -/
theorem plus_assign_empty {p other q : Plan} (hp : p.configs = [])
    (h : p.plus_assign other = .ok q) :
    q.configs = other.configs ∧ q.orientations = p.orientations := by
  unfold Plan.plus_assign at h
  rw [hp] at h
  simp only [List.isEmpty_nil, if_true] at h
  rw [← Outcome.ok.inj h]
  exact ⟨rfl, rfl⟩

/-- C35, the part that holds: a plan obtained from the empty plan by any sequence of `clear`,
`add`, `addWithOrientation`, `addOrientation` and of `operator+=` applied to a plan that is
not empty has as many orientation vectors as configurations, its `t`-th orientation vector
has as many entries as its `t`-th configuration, and `getOrientation(t, i)` is defined
wherever `get(t, i)` is. The two remaining cases break the alignment: the plan returned by
`operator+` lacks one orientation vector for every configuration of its left operand, and
`operator+=` on an empty plan copies the configurations alone. -/
theorem plan_orientations_aligned (p : Plan) (h : Plan.Built p) :
    p.orientations.length = p.configs.length ∧
    (∀ t, (p.orientations.getD t []).length = (p.configs.getD t []).length) ∧
    (∀ t i v, p.get t i = .ok v → ∃ o, p.getOrientation t i = .ok o) ∧
    (∀ other q, p.plus other = .ok q →
      p.configs ≠ [] ∧ q.orientations.length + p.configs.length = q.configs.length) ∧
    (∀ other q, p.configs = [] → p.plus_assign other = .ok q →
      q.configs = other.configs ∧ q.orientations = []) := by
  have ha := built_aligned h
  refine ⟨aligned_length ha, aligned_row ha, fun t i v hg => aligned_get ha hg,
    fun other q hq => plus_length hq, fun other q he hq => ?_⟩
  obtain ⟨g1, g2⟩ := plus_assign_empty he hq
  refine ⟨g1, ?_⟩
  rw [g2]
  have hl := aligned_length ha
  rw [he] at hl
  exact List.length_eq_zero.mp hl

/-- The plans `[v0]` and `[v0], [v1]` of one agent, each built by `addWithOrientation`:
their sum by `operator+` has two configurations and one orientation vector, so that
`get(1, 0)` is `v1` while `getOrientation(1, 0)` aborts; and `operator+=` on the empty plan
gives a plan with two configurations and no orientation vector, on which `getOrientation(0, 0)`
aborts and `addOrientation` reaches `orientations.back()` of an empty vector. -/
theorem plan_plus_counterexample :
    (Plan.mk [] []).addWithOrientation [some 0] [.X_PLUS] = .ok (Plan.mk [[some 0]] [[.X_PLUS]]) ∧
    (Plan.mk [[some 0]] [[.X_PLUS]]).addWithOrientation [some 1] [.Y_PLUS] =
      .ok (Plan.mk [[some 0], [some 1]] [[.X_PLUS], [.Y_PLUS]]) ∧
    (Plan.mk [[some 0]] [[.X_PLUS]]).plus (Plan.mk [[some 0], [some 1]] [[.X_PLUS], [.Y_PLUS]]) =
      .ok (Plan.mk [[some 0], [some 1]] [[.X_PLUS]]) ∧
    (Plan.mk [[some 0], [some 1]] [[.X_PLUS]]).get 1 0 = .ok (some 1) ∧
    (Plan.mk [[some 0], [some 1]] [[.X_PLUS]]).getOrientation 1 0 = .halted ∧
    (Plan.mk [] []).plus_assign (Plan.mk [[some 0], [some 1]] [[.X_PLUS], [.Y_PLUS]]) =
      .ok (Plan.mk [[some 0], [some 1]] []) ∧
    (Plan.mk [[some 0], [some 1]] []).get 0 0 = .ok (some 0) ∧
    (Plan.mk [[some 0], [some 1]] []).getOrientation 0 0 = .halted ∧
    (Plan.mk [[some 0], [some 1]] []).addOrientation [.X_PLUS] = .halted := by
  refine ⟨by decide, by decide, by decide, by decide, by decide, by decide, by decide,
    by decide, by decide⟩

theorem plan_two_rows :
    (((Plan.mk [] []).addWithOrientation [some 0] [.X_PLUS]).bind fun p =>
      p.addWithOrientation [some 1] [.Y_PLUS]) =
      .ok (Plan.mk [[some 0], [some 1]] [[.X_PLUS], [.Y_PLUS]]) := by
  decide

/-- Witness of C35: the plan `[v0], [v1]` of one agent with the headings `X_PLUS`, `Y_PLUS`,
built by two calls of `addWithOrientation`. -/
theorem plan_orientations_aligned_witness :
    Plan.Built (Plan.mk [[some 0], [some 1]] [[.X_PLUS], [.Y_PLUS]]) ∧
      (Plan.mk [[some 0], [some 1]] [[.X_PLUS], [.Y_PLUS]]).orientations.length = 2 ∧
      ∃ o, (Plan.mk [[some 0], [some 1]] [[.X_PLUS], [.Y_PLUS]]).getOrientation 1 0 = .ok o := by
  obtain ⟨p, hp, hq⟩ := Outcome.bind_eq_ok.mp plan_two_rows
  have hb : Plan.Built (Plan.mk [[some 0], [some 1]] [[.X_PLUS], [.Y_PLUS]]) :=
    Plan.Built.addWithOrientation p _ _ _
      (Plan.Built.addWithOrientation _ p _ _ Plan.Built.empty hp) hq
  obtain ⟨g1, _, g3, _⟩ := plan_orientations_aligned _ hb
  exact ⟨hb, g1, g3 1 0 (some 1) (by decide)⟩

/-- C31: at the start of the commit loop of every timestep of `run`, that is, in the state
`s1` that the planning loop returns for the sorted agents, every agent has a next location;
on an instance with pairwise distinct starts every agent has a next heading as well, so that
the commit loop, whichever values its variables `config`, `orients`, `check_goal_cond` have,
returns without reaching the abort of `SAFE_VALUE` or a null `v_next`. -/
theorem commit_loop_ready (E : Env) (t : Nat) (s : PIBT) (h : PIBT.after E t = .ok s)
    (s1 : PIBT)
    (h1 : PIBT.plan_agents E
      (std_sort (fun a b => PIBT.run_compare (s.agents a) (s.agents b)) s.A)
      { s with A := std_sort (fun a b => PIBT.run_compare (s.agents a) (s.agents b)) s.A } =
        .ok s1) :
    (∀ a, a < E.num → (s1.agents a).v_next ≠ none) ∧
    ((∀ i j, i < E.num → j < E.num → i ≠ j → E.start i ≠ E.start j) →
      (∀ a, a < E.num → (s1.agents a).ott_next ≠ none) ∧
      ∀ c, ∃ r, PIBT.commit_agents s1.A s1 c = .ok r) := by
  have hS := after_sound E t s h
  have hR := hS.rest
  obtain ⟨hat, hfree⟩ := after_tables E t s h
  have hperm : (std_sort (fun a b => PIBT.run_compare (s.agents a) (s.agents b)) s.A).Perm
      (List.range E.num) := (std_sort_perm _ _).trans hR.order
  have hmem : ∀ a, a ∈ std_sort (fun a b => PIBT.run_compare (s.agents a) (s.agents b)) s.A ↔
      a < E.num := by
    intro a
    rw [hperm.mem_iff, List.mem_range]
  have hnd : (std_sort (fun a b => PIBT.run_compare (s.agents a) (s.agents b)) s.A).Nodup :=
    hperm.nodup_iff.mpr (List.nodup_range E.num)
  generalize std_sort (fun a b => PIBT.run_compare (s.agents a) (s.agents b)) s.A = sA
    at h1 hmem hnd
  have hw0 : PIBT.Weak E.G E.num ({ s with A := sA } : PIBT) :=
    @weak_congr E.G E.num s _ rfl rfl hR.weak.chain_lt hR.weak
  have hat0 : PIBT.At ({ s with A := sA } : PIBT) := hat
  have hO0 : PIBT.Owned E.num ({ s with A := sA } : PIBT) := fun x hx => absurd (hfree x) hx
  obtain ⟨_, _, hall⟩ := plan_agents_linked sA _ s1 hw0 hat0 hO0 (fun a ha => (hmem a).mp ha) h1
  have hv : ∀ a, a < E.num → (s1.agents a).v_next ≠ none := fun a ha => hall a ((hmem a).mpr ha)
  refine ⟨hv, fun hstart => ?_⟩
  have hb := hS.base hstart
  have hb0 : PIBT.Base E.num ({ s with A := sA } : PIBT) := ⟨hb.id_eq, hb.ott_now, hb.occ_now⟩
  have hT0 : PIBT.Top E.G E.num ({ s with A := sA } : PIBT) := top_of_idle hb0 hR.idle
  obtain ⟨hT1, hf1, _, _⟩ := plan_agents_post sA _ s1 hT0 (fun a ha => (hmem a).mp ha) h1
  have ho : ∀ a, a < E.num → (s1.agents a).ott_next ≠ none := by
    intro a ha e
    exact hT1.none_tentative a ha ⟨hv a ha, e⟩
  refine ⟨ho, fun c => ?_⟩
  have hA : s1.A = sA := hf1.order
  rw [hA]
  exact commit_agents_total sA s1 c hnd fun a ha => ⟨hv a ((hmem a).mp ha), ho a ((hmem a).mp ha)⟩

theorem follow_planned :
    (PIBT.after (follow_env 6) 1).bind (fun s =>
      (PIBT.plan_agents (follow_env 6)
        (std_sort (fun a b => PIBT.run_compare (s.agents a) (s.agents b)) s.A)
        { s with A := std_sort (fun a b => PIBT.run_compare (s.agents a) (s.agents b)) s.A }).bind
        fun s1 => Outcome.ok
          ([(s1.agents 0).v_next, (s1.agents 1).v_next],
            [(s1.agents 0).ott_next, (s1.agents 1).ott_next])) =
      .ok ([some 1, some 2], [some .X_PLUS, some .X_PLUS]) := by
  decide!

/-- Witness of C31 on `follow_env`: after the planning of the second timestep both agents
have a next location and a next heading, and the commit loop returns. -/
theorem commit_loop_ready_witness :
    ∃ s s1, PIBT.after (follow_env 6) 1 = .ok s ∧
      PIBT.plan_agents (follow_env 6)
        (std_sort (fun a b => PIBT.run_compare (s.agents a) (s.agents b)) s.A)
        { s with A := std_sort (fun a b => PIBT.run_compare (s.agents a) (s.agents b)) s.A } =
          .ok s1 ∧
      (∀ a, a < 2 → (s1.agents a).v_next ≠ none ∧ (s1.agents a).ott_next ≠ none) ∧
      ∀ c, ∃ r, PIBT.commit_agents s1.A s1 c = .ok r := by
  obtain ⟨s, hs, hv⟩ := Outcome.bind_eq_ok.mp follow_planned
  obtain ⟨s1, hs1, _⟩ := Outcome.bind_eq_ok.mp hv
  have hstart : ∀ i j, i < (follow_env 6).num → j < (follow_env 6).num → i ≠ j →
      (follow_env 6).start i ≠ (follow_env 6).start j := by
    intro i j _ _ hij
    exact hij
  obtain ⟨g1, g2⟩ := commit_loop_ready (follow_env 6) 1 s hs s1 hs1
  obtain ⟨g3, g4⟩ := g2 hstart
  exact ⟨s, s1, hs, hs1, fun a ha => ⟨g1 a ha, g3 a ha⟩, g4⟩

/-- More iterations than needed do not change the result of the `while` of
`is_swap_possible`. -/
theorem is_swap_possible_loop_mono (E : Env) (s : PIBT) (origin : Nat) :
    ∀ (budget v_pusher v_puller : Nat) (tmp : Option Nat),
      PIBT.is_swap_possible_loop E s origin budget v_pusher v_puller tmp ≠ .starved →
      PIBT.is_swap_possible_loop E s origin (budget + 1) v_pusher v_puller tmp =
        PIBT.is_swap_possible_loop E s origin budget v_pusher v_puller tmp := by
  intro budget
  induction budget with
  | zero =>
    intro p q tmp h
    exact absurd rfl h
  | succ b ih =>
    intro p q tmp h
    obtain ⟨a1, a2, a3, a4⟩ := is_swap_possible_step E s origin b p q tmp
    obtain ⟨b1, b2, b3, b4⟩ := is_swap_possible_step E s origin (b + 1) p q tmp
    by_cases ho : q = origin
    · rw [a1 ho, b1 ho]
    · cases hl : PIBT.remaining E s p q with
      | nil => rw [a3 ho hl, b3 ho hl]
      | cons x l =>
        cases l with
        | nil =>
          rw [a4 x ho hl] at h ⊢
          rw [b4 x ho hl]
          exact ih q x (some x) h
        | cons y l =>
          have h2 : 2 ≤ (PIBT.remaining E s p q).length := by
            rw [hl]
            simp
          rw [a2 ho h2, b2 ho h2]

theorem is_swap_possible_loop_fuel (E : Env) (s : PIBT) (origin : Nat)
    (budget v_pusher v_puller : Nat) (tmp : Option Nat)
    (h : PIBT.is_swap_possible_loop E s origin budget v_pusher v_puller tmp ≠ .starved) :
    ∀ k, PIBT.is_swap_possible_loop E s origin (budget + k) v_pusher v_puller tmp =
      PIBT.is_swap_possible_loop E s origin budget v_pusher v_puller tmp := by
  intro k
  induction k with
  | zero => rfl
  | succ k ih =>
    rw [← Nat.add_assoc, is_swap_possible_loop_mono E s origin (budget + k) _ _ _
      (by rw [ih]; exact h), ih]

/-- More iterations than needed do not change the result of the `while` of
`is_swap_required`. -/
theorem is_swap_required_loop_mono (E : Env) (s : PIBT) (pusher puller : Nat) :
    ∀ (budget v_pusher v_puller : Nat) (tmp : Option Nat),
      PIBT.is_swap_required_loop E s pusher puller budget v_pusher v_puller tmp ≠ .starved →
      PIBT.is_swap_required_loop E s pusher puller (budget + 1) v_pusher v_puller tmp =
        PIBT.is_swap_required_loop E s pusher puller budget v_pusher v_puller tmp := by
  intro budget
  induction budget with
  | zero =>
    intro p q tmp h
    exact absurd rfl h
  | succ b ih =>
    intro p q tmp h
    obtain ⟨a1, a2⟩ := is_swap_required_step E s pusher puller b p q tmp
    obtain ⟨b1, b2⟩ := is_swap_required_step E s pusher puller (b + 1) p q tmp
    by_cases hg : PIBT.getMinDistAllDirections E pusher q <
        PIBT.getMinDistAllDirections E pusher p
    · obtain ⟨a2, a3, a4⟩ := a2 hg
      obtain ⟨b2, b3, b4⟩ := b2 hg
      cases hl : PIBT.remaining E s p q with
      | nil => rw [a3 hl, b3 hl]
      | cons x l =>
        cases l with
        | nil =>
          rw [a4 x hl] at h ⊢
          rw [b4 x hl]
          exact ih q x (some x) h
        | cons y l =>
          have h2 : 2 ≤ (PIBT.remaining E s p q).length := by
            rw [hl]
            simp
          rw [a2 h2, b2 h2]
    · rw [a1 hg, b1 hg]

theorem is_swap_required_loop_fuel (E : Env) (s : PIBT) (pusher puller : Nat)
    (budget v_pusher v_puller : Nat) (tmp : Option Nat)
    (h : PIBT.is_swap_required_loop E s pusher puller budget v_pusher v_puller tmp ≠
      .starved) :
    ∀ k, PIBT.is_swap_required_loop E s pusher puller (budget + k) v_pusher v_puller tmp =
      PIBT.is_swap_required_loop E s pusher puller budget v_pusher v_puller tmp := by
  intro k
  induction k with
  | zero => rfl
  | succ k ih =>
    rw [← Nat.add_assoc, is_swap_required_loop_mono E s pusher puller (budget + k) _ _ _
      (by rw [ih]; exact h), ih]

/-- `is_swap_possible` returns a value on a simple undirected graph. -/
theorem is_swap_possible_total (E : Env) (s : PIBT) (hG : E.G.Simple) (vp vq : Nat) :
    ∃ b, PIBT.is_swap_possible E s vp vq = .ok b := by
  have hret := is_swap_possible_returns E s hG vp vq
  unfold PIBT.is_swap_possible at hret ⊢
  rcases is_swap_possible_loop_walk E s vp (E.G.size + 1) vp vq none with h | ⟨h, _⟩ | ⟨h, _⟩
  · exact absurd h hret
  · exact ⟨_, h⟩
  · exact ⟨_, h⟩

/-- `is_swap_required` returns a value on a simple undirected graph when `v_puller_origin` is
a vertex. -/
theorem is_swap_required_total (E : Env) (s : PIBT) (hG : E.G.Simple)
    (pusher puller vp vq : Nat) (hq : vq < E.G.size) :
    ∃ b, PIBT.is_swap_required E s pusher puller vp vq = .ok b := by
  have hret := is_swap_required_returns E s hG pusher puller vp vq hq
  unfold PIBT.is_swap_required at hret ⊢
  rcases is_swap_required_loop_walk E s pusher puller (E.G.size + 1) vp vq none with
    h | ⟨h, _⟩ | ⟨_, _, _, h, _⟩
  · exact absurd h hret
  · exact ⟨_, h⟩
  · exact ⟨_, h⟩

theorem swap_first_test_total (E : Env) (s : PIBT) (ai c0 : Nat) (hG : E.G.Simple)
    (hv : ∀ x a, s.occupied_now x = some a → (s.agents a).v_now < E.G.size) :
    ∃ r, PIBT.swap_first_test E s ai c0 = .ok r := by
  unfold PIBT.swap_first_test
  cases ho : s.occupied_now c0 with
  | none => exact ⟨_, rfl⟩
  | some aj =>
    dsimp only
    split_ifs
    · obtain ⟨rq, hrq⟩ := is_swap_required_total E s hG (s.agents ai).id (s.agents aj).id
        (s.agents ai).v_now (s.agents aj).v_now (hv c0 aj ho)
      rw [hrq]
      simp only [Outcome.bind_ok]
      split_ifs
      · obtain ⟨ps, hps⟩ := is_swap_possible_total E s hG (s.agents aj).v_now (s.agents ai).v_now
        rw [hps]
        exact ⟨_, rfl⟩
      · exact ⟨_, rfl⟩
    · exact ⟨_, rfl⟩

theorem swap_neighbor_scan_total (E : Env) (s : PIBT) (ai c0 : Nat) (hG : E.G.Simple)
    (hc0 : c0 < E.G.size) : ∀ l, ∃ r, PIBT.swap_neighbor_scan E s ai c0 l = .ok r := by
  intro l
  induction l with
  | nil => exact ⟨_, rfl⟩
  | cons u us ih =>
    unfold PIBT.swap_neighbor_scan
    cases ho : s.occupied_now u with
    | none => exact ih
    | some ak =>
      dsimp only
      split_ifs
      · exact ih
      · obtain ⟨rq, hrq⟩ := is_swap_required_total E s hG (s.agents ak).id (s.agents ai).id
          (s.agents ai).v_now c0 hc0
        rw [hrq]
        simp only [Outcome.bind_ok]
        split_ifs
        · obtain ⟨ps, hps⟩ := is_swap_possible_total E s hG c0 (s.agents ai).v_now
          rw [hps]
          simp only [Outcome.bind_ok]
          split_ifs
          · exact ⟨_, rfl⟩
          · exact ih
        · exact ih

theorem swap_possible_and_required_total (E : Env) (s : PIBT) (ai : Nat) (C : List Nat)
    (hG : E.G.Simple)
    (hv : ∀ x a, s.occupied_now x = some a → (s.agents a).v_now < E.G.size) (hne : C ≠ [])
    (hC : ∀ c, c ∈ C → c < E.G.size) :
    ∃ r, PIBT.swap_possible_and_required E s ai C = .ok r := by
  unfold PIBT.swap_possible_and_required
  cases hc : C.head? with
  | none =>
    cases C with
    | nil => exact absurd rfl hne
    | cons c cs => cases hc
  | some c0 =>
    dsimp only
    split_ifs with h1
    · exact ⟨_, rfl⟩
    · have hc0 : c0 < E.G.size := hC c0 (List.mem_of_mem_head? hc)
      obtain ⟨first, hf⟩ := swap_first_test_total E s ai c0 hG hv
      rw [hf]
      simp only [Outcome.bind_ok]
      cases first with
      | some aj => exact ⟨_, rfl⟩
      | none => exact swap_neighbor_scan_total E s ai c0 hG hc0 _

theorem remaining_single {E : Env} {s : PIBT} {v_prev v t : Nat}
    (h : PIBT.remaining E s v_prev v = [t]) :
    t ∈ E.G.neighbor v ∧ ¬ PIBT.scan_skips E s v_prev t ∧
      ∀ u, u ∈ E.G.neighbor v → PIBT.scan_skips E s v_prev u ∨ u = t := by
  have hmem : t ∈ PIBT.remaining E s v_prev v := by
    rw [h]
    exact List.mem_singleton_self t
  unfold PIBT.remaining at hmem h
  obtain ⟨h1, h2⟩ := List.mem_filter.mp hmem
  refine ⟨h1, (remaining_keeps E s v_prev t).mp h2, fun u hu => ?_⟩
  by_cases hs : PIBT.scan_skips E s v_prev u
  · exact Or.inl hs
  · right
    have : u ∈ List.filter (fun u => !(decide (u = v_prev) || PIBT.held_dead_end E s u))
        (E.G.neighbor v) := List.mem_filter.mpr ⟨hu, (remaining_keeps E s v_prev u).mpr hs⟩
    rw [h] at this
    exact List.mem_singleton.mp this

/-- The loop of `is_swap_possible` follows a walk: after as many iterations as the walk has
steps it is at the loop head the walk ends on. -/
theorem is_swap_possible_follows (E : Env) (s : PIBT) (origin : Nat) :
    ∀ (path : List Nat) (v_prev v budget : Nat) (tmp : Option Nat),
      PIBT.walk_possible E s origin v_prev v path →
      ∃ tmp1, PIBT.is_swap_possible_loop E s origin (budget + path.length) v_prev v tmp =
        PIBT.is_swap_possible_loop E s origin budget (corridor_end v_prev v path).1
          (corridor_end v_prev v path).2 tmp1 := by
  intro path
  induction path with
  | nil =>
    intro p q b tmp _
    exact ⟨tmp, rfl⟩
  | cons t rest ih =>
    intro p q b tmp h
    obtain ⟨tmp1, h1⟩ := ih q t b (some t) h.2.2
    refine ⟨tmp1, ?_⟩
    rw [List.length_cons, ← Nat.add_assoc,
      (is_swap_possible_step E s origin (b + rest.length) p q tmp).2.2.2 t h.1 h.2.1]
    exact h1

/-- The loop of `is_swap_required` follows a walk: after as many iterations as the walk has
steps it is at the loop head the walk ends on. -/
theorem is_swap_required_follows (E : Env) (s : PIBT) (pusher puller : Nat) :
    ∀ (path : List Nat) (v_prev v budget : Nat) (tmp : Option Nat),
      PIBT.walk_required E s pusher v_prev v path →
      ∃ tmp1, PIBT.is_swap_required_loop E s pusher puller (budget + path.length) v_prev v
          tmp =
        PIBT.is_swap_required_loop E s pusher puller budget (corridor_end v_prev v path).1
          (corridor_end v_prev v path).2 tmp1 := by
  intro path
  induction path with
  | nil =>
    intro p q b tmp _
    exact ⟨tmp, rfl⟩
  | cons t rest ih =>
    intro p q b tmp h
    obtain ⟨tmp1, h1⟩ := ih q t b (some t) h.2.2
    refine ⟨tmp1, ?_⟩
    rw [List.length_cons, ← Nat.add_assoc,
      ((is_swap_required_step E s pusher puller (b + rest.length) p q tmp).2 h.1).2.2 t h.2.1]
    exact h1

/-- Along a walk of `is_swap_required` the distance of `v_pusher` to the goal of the pusher
decreases with every iteration. -/
theorem walk_required_decreases (E : Env) (s : PIBT) (pusher : Nat) :
    ∀ (path : List Nat) (v_prev v : Nat), PIBT.walk_required E s pusher v_prev v path →
      List.Chain' (fun a b => PIBT.getMinDistAllDirections E pusher b <
        PIBT.getMinDistAllDirections E pusher a) (v_prev :: (v :: path).dropLast) := by
  intro path
  induction path with
  | nil =>
    intro p q _
    simp
  | cons t rest ih =>
    intro p q h
    rw [List.dropLast_cons₂]
    exact List.Chain'.cons h.1 (ih q t h.2.2)

/-- A walk of `is_swap_possible` on a simple undirected graph never meets a vertex twice;
`l` lists the vertices met before, the last one first. -/
theorem walk_possible_nodup (E : Env) (s : PIBT) (origin : Nat) (hG : E.G.Simple) :
    ∀ (path : List Nat) (v_prev v : Nat) (l : List Nat),
      PIBT.Trail E s origin (v :: l) → (v :: l).Nodup → v_prev = l.headD origin →
      (∀ x, x ∈ l → x ≠ origin) → PIBT.walk_possible E s origin v_prev v path →
      (l.reverse ++ v :: path).Nodup := by
  intro path
  induction path with
  | nil =>
    intro p q l _ hN _ _ _
    have := List.nodup_reverse.mpr hN
    rwa [List.reverse_cons] at this
  | cons t rest ih =>
    intro p q l hT hN hp ho h
    obtain ⟨h1, hl, hw⟩ := h
    obtain ⟨ht, hs, hall⟩ := remaining_single hl
    have hne : t ≠ p := fun e => hs (Or.inl e)
    have hnd : ¬ PIBT.dead_end E s t := fun e => hs (Or.inr e)
    have key := ih q t (q :: l) ?_ ?_ rfl ?_ hw
    · rw [List.reverse_cons, List.append_assoc] at key
      exact key
    · refine ⟨fun u hu => ?_, hnd, hG.range _ _ ht, hT⟩
      rcases hall u hu with g | g
      · rcases g with g | g
        · left
          rw [g, hp]
        · exact Or.inr (Or.inl g)
      · exact Or.inr (Or.inr g)
    · refine List.nodup_cons.mpr ⟨fun hmem => ?_, hN⟩
      rcases List.mem_cons.mp hmem with e1 | hmem
      · exact hG.irrefl q (e1 ▸ ht)
      · cases l with
        | nil => simp at hmem
        | cons b rest' =>
          rcases List.mem_cons.mp hmem with e1 | hmem
          · exact hne (by rw [e1, hp]; rfl)
          · rcases trail_neighbors rest' b hT.2.2.2 t hmem q (hG.symm _ _ ht) with g | g | g
            · exact h1 g
            · exact hT.2.1 g
            · exact (List.nodup_cons.mp hN).1 g
    · intro x hx
      rcases List.mem_cons.mp hx with e1 | hx
      · rw [e1]
        exact h1
      · exact ho x hx

theorem walk_possible_avoids (E : Env) (s : PIBT) (origin : Nat) :
    ∀ (path : List Nat) (v_prev v : Nat), PIBT.walk_possible E s origin v_prev v path →
      ∀ x, x ∈ (v :: path).dropLast → x ≠ origin := by
  intro path
  induction path with
  | nil =>
    intro p q _ x hx
    simp at hx
  | cons t rest ih =>
    intro p q h x hx
    rw [List.dropLast_cons₂] at hx
    rcases List.mem_cons.mp hx with e | hx
    · rw [e]
      exact h.1
    · exact ih q t h.2.2 x hx

/-- C34: on a simple undirected graph, in a state whose agents stand on vertices,
`swap_possible_and_required` returns for every agent and every non-empty list of candidate
vertices. Its two loops end within `size + 1` iterations (more iterations do not change the
result): along the iterations of `is_swap_required` the distance of `v_pusher` to the goal of
the pusher decreases strictly, and the iterations of `is_swap_possible` never meet a vertex
twice and leave `v_pusher_origin` only at the start. -/
theorem swap_possible_and_required_terminates (E : Env) (s : PIBT) (hG : E.G.Simple)
    (hv : ∀ x a, s.occupied_now x = some a → (s.agents a).v_now < E.G.size) :
    (∀ ai C, C ≠ [] → (∀ c, c ∈ C → c < E.G.size) →
      ∃ r, PIBT.swap_possible_and_required E s ai C = .ok r) ∧
    (∀ pusher puller vp vq, vq < E.G.size →
      (∃ b, PIBT.is_swap_required E s pusher puller vp vq = .ok b) ∧
      ∀ k, PIBT.is_swap_required_loop E s pusher puller (E.G.size + 1 + k) vp vq none =
        PIBT.is_swap_required E s pusher puller vp vq) ∧
    (∀ vp vq,
      (∃ b, PIBT.is_swap_possible E s vp vq = .ok b) ∧
      ∀ k, PIBT.is_swap_possible_loop E s vp (E.G.size + 1 + k) vp vq none =
        PIBT.is_swap_possible E s vp vq) ∧
    (∀ pusher puller vp vq path, PIBT.walk_required E s pusher vp vq path →
      List.Chain' (fun a b => PIBT.getMinDistAllDirections E pusher b <
        PIBT.getMinDistAllDirections E pusher a) (vp :: (vq :: path).dropLast) ∧
      ∀ budget, ∃ tmp1,
        PIBT.is_swap_required_loop E s pusher puller (budget + path.length) vp vq none =
          PIBT.is_swap_required_loop E s pusher puller budget (corridor_end vp vq path).1
            (corridor_end vp vq path).2 tmp1) ∧
    (∀ vp vq path, PIBT.walk_possible E s vp vp vq path →
      (vq :: path).Nodup ∧ (∀ x, x ∈ (vq :: path).dropLast → x ≠ vp) ∧
      ∀ budget, ∃ tmp1,
        PIBT.is_swap_possible_loop E s vp (budget + path.length) vp vq none =
          PIBT.is_swap_possible_loop E s vp budget (corridor_end vp vq path).1
            (corridor_end vp vq path).2 tmp1) := by
  refine ⟨fun ai C hne hC => swap_possible_and_required_total E s ai C hG hv hne hC,
    fun pusher puller vp vq hq => ⟨is_swap_required_total E s hG pusher puller vp vq hq, ?_⟩,
    fun vp vq => ⟨is_swap_possible_total E s hG vp vq, ?_⟩,
    fun pusher puller vp vq path hw => ⟨walk_required_decreases E s pusher path vp vq hw,
      fun b => is_swap_required_follows E s pusher puller path vp vq b none hw⟩,
    fun vp vq path hw => ⟨?_, walk_possible_avoids E s vp path vp vq hw,
      fun b => is_swap_possible_follows E s vp path vp vq b none hw⟩⟩
  · have hret := is_swap_required_returns E s hG pusher puller vp vq hq
    unfold PIBT.is_swap_required at hret ⊢
    exact is_swap_required_loop_fuel E s pusher puller _ vp vq none hret
  · have hret := is_swap_possible_returns E s hG vp vq
    unfold PIBT.is_swap_possible at hret ⊢
    exact is_swap_possible_loop_fuel E s vp _ vp vq none hret
  · have := walk_possible_nodup E s vp hG path vp vq [] trivial (by simp) rfl
      (fun x hx => absurd hx (List.not_mem_nil x)) hw
    simpa using this

theorem facing_partner :
    (PIBT.after facing_env 0).bind (fun s =>
      (PIBT.swap_possible_and_required facing_env s 0 [4, 3, 1]).bind fun r =>
        Outcome.ok (r, PIBT.remaining facing_env s 4 3, PIBT.remaining facing_env s 3 1)) =
      .ok (some 1, [1], [0, 2]) := by
  decide!

theorem facing_positions :
    ∀ a, a < facing_env.num → facing_env.start a < facing_env.G.size := by
  intro a ha
  have h3 : a < 3 := ha
  interval_cases a <;> decide

/-- Witness of C34 on `facing_env` at the start of the run: for agent `0` on `v3` and the
candidates `v4, v3, v1` the function returns agent `1`; the walk of `is_swap_possible` from
`v3`, coming from `v4`, advances to `v1` and meets no vertex twice. -/
theorem swap_possible_and_required_terminates_witness :
    ∃ s, PIBT.after facing_env 0 = .ok s ∧
      PIBT.swap_possible_and_required facing_env s 0 [4, 3, 1] = .ok (some 1) ∧
      PIBT.walk_possible facing_env s 4 4 3 [1] ∧ [3, 1].Nodup ∧
      (∃ b, PIBT.is_swap_possible facing_env s 4 3 = .ok b) ∧
      ∀ ai, ∃ r, PIBT.swap_possible_and_required facing_env s ai [4, 3, 1] = .ok r := by
  obtain ⟨s, hs, hv⟩ := Outcome.bind_eq_ok.mp facing_partner
  obtain ⟨r, hr, hv⟩ := Outcome.bind_eq_ok.mp hv
  have hv := Outcome.ok.inj hv
  simp only [Prod.mk.injEq] at hv
  rw [hv.1] at hr
  obtain ⟨s0, hs0, hc, _⟩ := run_init_post facing_env
  have e : s0 = s := Outcome.ok.inj (hs0.symm.trans hs)
  subst e
  have hpos : ∀ x a, s0.occupied_now x = some a → (s0.agents a).v_now < facing_env.G.size := by
    intro x a hx
    obtain ⟨ha, _⟩ := hc.occ_lt x a hx
    have := hc.v_now a ha
    rw [show (s0.agents a).v_now = facing_env.start a from this]
    exact facing_positions a ha
  obtain ⟨g1, _, g3, _, g5⟩ :=
    swap_possible_and_required_terminates facing_env s0 stem_simple hpos
  have hw : PIBT.walk_possible facing_env s0 4 4 3 [1] := ⟨by decide, hv.2.1, trivial⟩
  exact ⟨s0, hs, hr, hw, (g5 4 3 [1] hw).1, (g3 4 3).1,
    fun ai => g1 ai [4, 3, 1] (by simp) (fun c hc => by
      simp only [List.mem_cons, List.mem_singleton, List.not_mem_nil, or_false] at hc
      rcases hc with e | e | e <;> subst e <;> decide)⟩

theorem bind_safe {α β : Type} {x : Outcome α} {f : α → Outcome β}
    (hx : x ≠ .halted) (hf : ∀ a, x = .ok a → f a ≠ .halted) : x.bind f ≠ .halted := by
  cases x with
  | ok a => exact hf a rfl
  | halted => exact absurd rfl hx
  | starved => exact fun h => Outcome.noConfusion h

theorem ok_safe {α : Type} (a : α) : (Outcome.ok a) ≠ .halted :=
  fun h => Outcome.noConfusion h

theorem safe_of_ok {α : Type} {x : Outcome α} (h : ∃ a, x = .ok a) : x ≠ .halted := by
  obtain ⟨a, e⟩ := h
  rw [e]
  exact ok_safe a

/-- A computation that neither aborts nor runs out of budget returns. -/
theorem ok_of_safe {α : Type} {x : Outcome α} (h1 : x ≠ .halted) (h2 : x ≠ .starved) :
    ∃ a, x = .ok a := by
  cases x with
  | ok a => exact ⟨a, rfl⟩
  | halted => exact absurd rfl h1
  | starved => exact absurd rfl h2

/-- A computation whose erasure does not abort does not abort. -/
theorem safe_of_erase {α β : Type} {x : Outcome α} {g : α → β}
    (h : x ≠ .halted) : (x.bind fun r => .ok (g r)) ≠ .halted :=
  bind_safe h fun _ _ => ok_safe _

/-- `getRelativePosition` returns on a neighbour at another grid position. -/
theorem relpos_total {G : Graph} {c t : Nat} (ht : t ∈ G.neighbor c)
    (hp : G.pos_x t ≠ G.pos_x c ∨ G.pos_y t ≠ G.pos_y c) :
    ∃ o, Plan.getRelativePosition G c t = .ok o := by
  cases h : Plan.getRelativePosition G c t with
  | ok o => exact ⟨o, rfl⟩
  | halted =>
    rcases (relpos_halted_iff G c t).mp h with h1 | ⟨h1, h2⟩
    · exact absurd ht h1
    · rcases hp with hp | hp
      · exact absurd h1 hp
      · exact absurd h2 hp
  | starved => exact absurd h (relpos_not_starved G c t)

/-- `computeAction` returns when the target is the current vertex or a neighbour at another
grid position. -/
theorem computeAction_total {G : Graph} {c t : Nat} (h : Orientation)
    (ht : t = c ∨ ∃ o, Plan.getRelativePosition G c t = .ok o) :
    ∃ act, Plan.computeAction G c t h = .ok act := by
  rcases ht with e | ⟨o, ho⟩
  · subst e
    exact ⟨(t, h), by simp [Plan.computeAction]⟩
  · exact ⟨_, computeAction_of_relpos h (relpos_ok_ne ho) ho⟩

/-- The cost of a candidate is computed when the agent has a heading and the candidate is its
vertex or a neighbour at another grid position. -/
theorem funcPIBT_d_total {E : Env} {s : PIBT} {ai v : Nat}
    (ho : (s.agents ai).ott_now ≠ none)
    (hv : v = (s.agents ai).v_now ∨
      ∃ o, Plan.getRelativePosition E.G (s.agents ai).v_now v = .ok o) :
    ∃ d, PIBT.funcPIBT_d E s ai v = .ok d := by
  obtain ⟨o, ho⟩ := Option.ne_none_iff_exists'.mp ho
  unfold PIBT.funcPIBT_d
  rcases hv with e | ⟨t, ht⟩
  · simp [e, ho, SAFE_VALUE]
  · have hne : v ≠ (s.agents ai).v_now := fun e => relpos_ok_ne ht e.symm
    simp [hne, ho, ht, SAFE_VALUE]

theorem all_ok_total {α : Type} : ∀ l : List (Outcome α),
    (∀ x, x ∈ l → ∃ a, x = .ok a) → all_ok l = .ok () := by
  intro l
  induction l with
  | nil => intro _; rfl
  | cons x xs ih =>
    intro h
    obtain ⟨a, e⟩ := h x (List.mem_cons_self _ _)
    unfold all_ok
    rw [e]
    exact ih fun y hy => h y (List.mem_cons_of_mem _ hy)

/-- The sort of the candidates returns when the cost of every candidate is computed. -/
theorem sort_candidates_total {E : Env} {s : PIBT} {ai : Nat} {C : List Nat}
    (h : ∀ v, v ∈ C → ∃ d, PIBT.funcPIBT_d E s ai v = .ok d) :
    ∃ C1, PIBT.sort_candidates E s ai C = .ok C1 := by
  unfold PIBT.sort_candidates
  split_ifs
  · exact ⟨_, rfl⟩
  · rw [all_ok_total]
    · exact ⟨_, rfl⟩
    · intro x hx
      obtain ⟨v, hv, e⟩ := List.mem_map.mp hx
      rw [← e]
      exact h v hv

theorem is_swap_required_safe (E : Env) (s : PIBT) (p q vp vq : Nat) :
    PIBT.is_swap_required E s p q vp vq ≠ .halted := by
  unfold PIBT.is_swap_required
  rcases is_swap_required_loop_walk E s p q (E.G.size + 1) vp vq none with
    h | ⟨h, _⟩ | ⟨_, _, _, h, _⟩ <;> rw [h] <;> exact fun e => Outcome.noConfusion e

theorem is_swap_possible_safe (E : Env) (s : PIBT) (vp vq : Nat) :
    PIBT.is_swap_possible E s vp vq ≠ .halted := by
  unfold PIBT.is_swap_possible
  rcases is_swap_possible_loop_walk E s vp (E.G.size + 1) vp vq none with
    h | ⟨h, _⟩ | ⟨h, _⟩ <;> rw [h] <;> exact fun e => Outcome.noConfusion e

theorem swap_first_test_safe (E : Env) (s : PIBT) (ai c0 : Nat) :
    PIBT.swap_first_test E s ai c0 ≠ .halted := by
  unfold PIBT.swap_first_test
  cases s.occupied_now c0 with
  | none => exact ok_safe _
  | some aj =>
    dsimp only
    split_ifs
    · refine bind_safe (is_swap_required_safe _ _ _ _ _ _) fun rq _ => ?_
      split_ifs
      · exact bind_safe (is_swap_possible_safe _ _ _ _) fun _ _ => ok_safe _
      · exact ok_safe _
    · exact ok_safe _

theorem swap_neighbor_scan_safe (E : Env) (s : PIBT) (ai c0 : Nat) :
    ∀ l, PIBT.swap_neighbor_scan E s ai c0 l ≠ .halted := by
  intro l
  induction l with
  | nil => exact ok_safe _
  | cons u us ih =>
    unfold PIBT.swap_neighbor_scan
    cases s.occupied_now u with
    | none => exact ih
    | some ak =>
      dsimp only
      split_ifs
      · exact ih
      · refine bind_safe (is_swap_required_safe _ _ _ _ _ _) fun rq _ => ?_
        split_ifs
        · refine bind_safe (is_swap_possible_safe _ _ _ _) fun ps _ => ?_
          split_ifs
          · exact ok_safe _
          · exact ih
        · exact ih

/-- The search for a swap partner does not abort on a non-empty candidate list. -/
theorem swap_possible_and_required_safe (E : Env) (s : PIBT) (ai : Nat) (C : List Nat)
    (hne : C ≠ []) : PIBT.swap_possible_and_required E s ai C ≠ .halted := by
  unfold PIBT.swap_possible_and_required
  cases C with
  | nil => exact absurd rfl hne
  | cons c0 rest =>
    simp only [List.head?_cons]
    split_ifs
    · exact ok_safe _
    · refine bind_safe (swap_first_test_safe _ _ _ _) fun first _ => ?_
      cases first with
      | some aj => exact ok_safe _
      | none => exact swap_neighbor_scan_safe _ _ _ _ _

theorem swap_neighbor_scan_adjacent {E : Env} {s : PIBT} {ai c0 sa : Nat} :
    ∀ l, PIBT.swap_neighbor_scan E s ai c0 l = .ok (some sa) →
      ∃ x, x ∈ l ∧ s.occupied_now x = some sa := by
  intro l
  induction l with
  | nil =>
    intro h
    unfold PIBT.swap_neighbor_scan at h
    simp at h
  | cons u us ih =>
    intro h
    have step : (∃ x, x ∈ us ∧ s.occupied_now x = some sa) →
        ∃ x, x ∈ u :: us ∧ s.occupied_now x = some sa := fun ⟨x, hx, e⟩ =>
      ⟨x, List.mem_cons_of_mem _ hx, e⟩
    unfold PIBT.swap_neighbor_scan at h
    cases ho : s.occupied_now u with
    | none => rw [ho] at h; exact step (ih h)
    | some ak =>
      rw [ho] at h
      simp only at h
      split_ifs at h with h1
      · exact step (ih h)
      · obtain ⟨rq, _, h⟩ := Outcome.bind_eq_ok.mp h
        split_ifs at h with h2
        · obtain ⟨ps, _, h⟩ := Outcome.bind_eq_ok.mp h
          split_ifs at h with h3
          · simp only [Outcome.ok.injEq] at h
            exact ⟨u, List.mem_cons_self _ _, by rw [ho, Option.some.inj h]⟩
          · exact step (ih h)
        · exact step (ih h)

/-- A swap partner stands on a neighbour of the agent's vertex, when the candidates are the
vertex and neighbours of it. -/
theorem swap_partner_adjacent {E : Env} {s : PIBT} {ai sa : Nat} {C : List Nat}
    (hC : ∀ c, c ∈ C → c = (s.agents ai).v_now ∨ c ∈ E.G.neighbor (s.agents ai).v_now)
    (h : PIBT.swap_possible_and_required E s ai C = .ok (some sa)) :
    ∃ x, x ∈ E.G.neighbor (s.agents ai).v_now ∧ s.occupied_now x = some sa := by
  unfold PIBT.swap_possible_and_required at h
  cases hc : C.head? with
  | none => rw [hc] at h; simp at h
  | some c0 =>
    rw [hc] at h
    simp only at h
    split_ifs at h with h1
    · simp at h
    · obtain ⟨first, hf, h⟩ := Outcome.bind_eq_ok.mp h
      cases first with
      | none => exact swap_neighbor_scan_adjacent _ h
      | some aj =>
        simp only [Outcome.ok.injEq] at h
        rw [Option.some.inj h] at hf
        rcases hC c0 (List.mem_of_mem_head? hc) with e | e
        · exact absurd e h1
        · exact ⟨c0, e, swap_first_test_some hf⟩

theorem safe_value_safe {α : Type} {x : Option α} (h : x ≠ none) : SAFE_VALUE x ≠ .halted := by
  cases x with
  | none => exact absurd rfl h
  | some v => exact ok_safe v

theorem partner_request_static (s : PIBT) (ai sa a : Nat) :
    ((PIBT.partner_request s ai sa).agents a).v_now = (s.agents a).v_now ∧
    ((PIBT.partner_request s ai sa).agents a).ott_now = (s.agents a).ott_now := by
  unfold PIBT.partner_request
  simp only [PIBT.set_v_next, PIBT.set_swap_completed, PIBT.setOccupiedNext, PIBT.setAgent]
  by_cases h : a = sa
  · subst h
    simp
  · simp [Function.update_noteq h]

/-- The swap block of `funcPIBT` does not abort when the swap partner has a heading and the
agent's vertex is the partner's or a neighbour of it at another grid position. -/
theorem swap_partner_action_safe {E : Env} {s : PIBT} {ai : Nat} {sw : Option Nat} {m : Int}
    (hsw : ∀ sa, sw = some sa → (s.agents sa).ott_now ≠ none ∧
      ((s.agents ai).v_now = (s.agents sa).v_now ∨
        ∃ o, Plan.getRelativePosition E.G (s.agents sa).v_now (s.agents ai).v_now = .ok o)) :
    PIBT.swap_partner_action E s ai sw m ≠ .halted := by
  unfold PIBT.swap_partner_action
  cases sw with
  | none => exact ok_safe _
  | some sa =>
    obtain ⟨ho, hpos⟩ := hsw sa rfl
    dsimp only
    split_ifs
    · refine bind_safe ?_ fun o _ => bind_safe ?_ fun act _ => ?_
      · rw [(partner_request_static s ai sa sa).2]
        exact safe_value_safe ho
      · rw [(partner_request_static s ai sa sa).1, (partner_request_static s ai sa ai).1]
        exact safe_of_ok (computeAction_total o hpos)
      · dsimp only
        split_ifs <;> exact ok_safe _
    · exact ok_safe _

/-- The part of the loop body of `funcPIBT` below the inherited call does not abort when the
agent has a heading, the candidate is its vertex or a neighbour at another grid position, and
the swap partner has a heading and stands on the agent's vertex or next to it. -/
theorem decide_action_safe {E : Env} {s : PIBT} {ai u : Nat} {aj sw : Option Nat} {ii : Bool}
    {m : Int} (ho : (s.agents ai).ott_now ≠ none)
    (hu : u = (s.agents ai).v_now ∨
      ∃ o, Plan.getRelativePosition E.G (s.agents ai).v_now u = .ok o)
    (hsw : ∀ sa, sw = some sa → (s.agents sa).ott_now ≠ none ∧
      ((s.agents ai).v_now = (s.agents sa).v_now ∨
        ∃ o, Plan.getRelativePosition E.G (s.agents sa).v_now (s.agents ai).v_now = .ok o)) :
    PIBT.decide_action E s ai aj ii sw u m ≠ .halted := by
  unfold PIBT.decide_action
  split_ifs
  · exact ok_safe _
  · refine bind_safe (safe_value_safe ho) fun o _ => ?_
    obtain ⟨act, hact⟩ := computeAction_total o hu
    rw [hact]
    simp only [Outcome.bind_ok]
    refine bind_safe ?_ fun _ _ => ok_safe _
    have hT := (own_blocker_effect E s ai aj ii u act.1 act.2 (computeAction_target hact)).1
    apply swap_partner_action_safe
    intro sa hsa
    obtain ⟨g1, g2⟩ := hsw sa hsa
    rw [(hT.frame.agents sa).2.2.2.1, (hT.frame.agents sa).2.1, (hT.frame.agents ai).2.1]
    exact ⟨g1, g2⟩

/-- The cycle handler returns when the agents of the request chain stand on pairwise distinct
vertices, have headings, and request neighbours at other grid positions. -/
theorem handleCycle_total (E : Env) (s : PIBT)
    (hnow : (s.request_chain.map fun r => (s.agents r.agent).v_now).Nodup)
    (hott : ∀ r, r ∈ s.request_chain → (s.agents r.agent).ott_now ≠ none)
    (hrel : ∀ r, r ∈ s.request_chain → ∃ o,
      Plan.getRelativePosition E.G (s.agents r.agent).v_now r.requested_node = .ok o) :
    ∃ s', PIBT.handleCycleWithOrientation E s = .ok s' := by
  obtain ⟨bs, hbs, hlen, _, _⟩ := chain_orientations_faces s.request_chain hrel
  unfold PIBT.handleCycleWithOrientation
  split_ifs
  · exact ⟨s, rfl⟩
  · rw [hbs]
    simp only [Outcome.bind_ok]
    by_cases ha : bs.all id = true
    · rw [if_neg (not_not.mpr ha)]
      exact ⟨_, rfl⟩
    · rw [if_pos ha]
      have hfst : (s.request_chain.zip bs).map Prod.fst = s.request_chain :=
        List.map_fst_zip _ _ (le_of_eq hlen.symm)
      have hmem : ∀ p, p ∈ s.request_chain.zip bs → p.1 ∈ s.request_chain := by
        intro p hp
        rw [← hfst]
        exact List.mem_map_of_mem _ hp
      have hnd : ((s.request_chain.zip bs).map fun p => (s.agents p.1.agent).v_now).Nodup := by
        have e : ((s.request_chain.zip bs).map fun p => (s.agents p.1.agent).v_now) =
            ((s.request_chain.zip bs).map Prod.fst).map fun r => (s.agents r.agent).v_now := by
          rw [List.map_map]
          rfl
        rw [e, hfst]
        exact hnow
      obtain ⟨s', hs', _⟩ := @chain_adjust_spec E (s.request_chain.zip bs) s hnd
        (fun p hp => hott p.1 (hmem p hp))
        (fun p hp _ o _ => by
          obtain ⟨o', ho'⟩ := hrel p.1 (hmem p hp)
          exact ⟨_, computeAction_of_relpos o (relpos_ok_ne ho') ho'⟩)
      exact ⟨s', hs'⟩

/-- The candidates of `funcPIBT` are the agent's vertex and neighbours of it, and a swap
partner stands on a neighbour. -/
theorem candidates_adjacent {E : Env} {s : PIBT} {ai : Nat} {aj : Option Nat} {ii : Bool}
    {c : List Nat × Option Nat × PIBT} (hshuffle : ∀ mt l, (E.shuffle mt l).1.Perm l)
    (h : PIBT.candidates E s ai aj ii = .ok c) :
    (∀ u, u ∈ c.1 → u = (s.agents ai).v_now ∨ u ∈ E.G.neighbor (s.agents ai).v_now) ∧
    ∀ sa, c.2.1 = some sa →
      ∃ x, x ∈ E.G.neighbor (s.agents ai).v_now ∧ s.occupied_now x = some sa := by
  have hsub : ∀ C0 : List Nat,
      C0.Perm (E.G.neighbor (s.agents ai).v_now ++ [(s.agents ai).v_now]) →
      ∀ u, u ∈ C0 → u = (s.agents ai).v_now ∨ u ∈ E.G.neighbor (s.agents ai).v_now := by
    intro C0 hp u hu
    rcases List.mem_append.mp (hp.subset hu) with g | g
    · exact Or.inr g
    · exact Or.inl (List.mem_singleton.mp g)
  refine ⟨fun u hu => ?_, ?_⟩
  · obtain ⟨C0, _, hp, e⟩ := candidates_split hshuffle h
    rw [e] at hu
    apply hsub C0 hp
    unfold reservation_bias at hu
    cases hr : s.reserved_nodes (s.agents ai).id with
    | none => rw [hr] at hu; exact hu
    | some r =>
      rw [hr] at hu
      simp only at hu
      split_ifs at hu with hm
      · rcases List.mem_cons.mp hu with g | g
        · rw [g]; exact hm
        · exact List.mem_of_mem_erase g
      · exact hu
  · have fin : ∀ (s1 : PIBT) (C1 : List Nat) (sw : Option Nat),
        (∃ mt pc, s1 = ({ s with MT := mt, push_count_table := pc } : PIBT)) →
        C1.Perm (E.G.neighbor (s.agents ai).v_now ++ [(s.agents ai).v_now]) →
        PIBT.swap_possible_and_required E s1 ai C1 = .ok sw →
        ∀ sa, sw = some sa →
          ∃ x, x ∈ E.G.neighbor (s.agents ai).v_now ∧ s.occupied_now x = some sa := by
      intro s1 C1 sw ⟨mt, pc, e⟩ hp hsw sa hsa
      rw [hsa] at hsw
      have hC : ∀ c, c ∈ C1 → c = (s1.agents ai).v_now ∨
          c ∈ E.G.neighbor (s1.agents ai).v_now := by
        rw [e]
        exact hsub C1 hp
      obtain ⟨x, hx, ho⟩ := swap_partner_adjacent hC hsw
      rw [e] at hx ho
      exact ⟨x, hx, ho⟩
    unfold PIBT.candidates at h
    cases aj with
    | none =>
      dsimp only at h
      obtain ⟨C, hC, h⟩ := Outcome.bind_eq_ok.mp h
      obtain ⟨sw, hsw, h⟩ := Outcome.bind_eq_ok.mp h
      simp only [Outcome.ok.injEq] at h
      rw [← h]
      exact fin _ _ _ ⟨_, s.push_count_table, rfl⟩
        ((sort_candidates_perm hC).trans (hshuffle _ _)) hsw
    | some j =>
      cases ii with
      | true =>
        simp only [not_true_eq_false, if_false] at h
        obtain ⟨C, hC, h⟩ := Outcome.bind_eq_ok.mp h
        obtain ⟨sw, hsw, h⟩ := Outcome.bind_eq_ok.mp h
        simp only [Outcome.ok.injEq] at h
        rw [← h]
        exact fin _ _ _ ⟨_, s.push_count_table, rfl⟩
          ((sort_candidates_perm hC).trans (hshuffle _ _)) hsw
      | false =>
        simp only [Bool.false_eq_true, not_false_eq_true, if_true] at h
        obtain ⟨C, hC, h⟩ := Outcome.bind_eq_ok.mp h
        obtain ⟨sw, hsw, h⟩ := Outcome.bind_eq_ok.mp h
        simp only [Outcome.ok.injEq] at h
        rw [← h]
        obtain ⟨mt, pc, e⟩ := pushEscape_state E ({ s with MT := (E.shuffle s.MT
              (E.G.neighbor (s.agents ai).v_now ++ [(s.agents ai).v_now])).2 } : PIBT) C
              (s.agents ai).id (s.agents j).id
        exact fin _ _ _ ⟨mt, pc, e.trans rfl⟩
          ((pushEscape_perm hshuffle _ _ _ _).1.trans
            ((sort_candidates_perm hC).trans (hshuffle _ _))) hsw

/-- The computation of the candidate list does not abort when the agent has a heading and
adjacent vertices have different grid positions. -/
theorem candidates_safe {E : Env} {s : PIBT} {ai : Nat} {aj : Option Nat} {ii : Bool}
    (hP : E.G.Placed) (hshuffle : ∀ mt l, (E.shuffle mt l).1.Perm l)
    (ho : (s.agents ai).ott_now ≠ none) : PIBT.candidates E s ai aj ii ≠ .halted := by
  unfold PIBT.candidates
  dsimp only
  have hd : ∀ v, v ∈ (E.shuffle s.MT
      (E.G.neighbor (s.agents ai).v_now ++ [(s.agents ai).v_now])).1 →
      ∃ d, PIBT.funcPIBT_d E ({ s with MT := (E.shuffle s.MT
        (E.G.neighbor (s.agents ai).v_now ++ [(s.agents ai).v_now])).2 } : PIBT) ai v =
          .ok d := by
    intro v hv
    apply funcPIBT_d_total ho
    rcases List.mem_append.mp ((hshuffle _ _).subset hv) with g | g
    · exact Or.inr (relpos_total g (hP _ _ g))
    · exact Or.inl (List.mem_singleton.mp g)
  obtain ⟨C1, hC1⟩ := sort_candidates_total hd
  rw [hC1]
  simp only [Outcome.bind_ok]
  have hne : C1 ≠ [] := by
    intro e
    have hp := (sort_candidates_perm hC1).trans (hshuffle _ _)
    rw [e] at hp
    have := hp.length_eq
    simp at this
  refine bind_safe ?_ fun _ _ => ok_safe _
  apply swap_possible_and_required_safe
  cases aj with
  | none => exact hne
  | some j =>
    dsimp only
    split_ifs
    · exact hne
    · intro e
      have hp := (pushEscape_perm hshuffle ({ s with MT := (E.shuffle s.MT
        (E.G.neighbor (s.agents ai).v_now ++ [(s.agents ai).v_now])).2 } : PIBT) C1
        (s.agents ai).id (s.agents j).id).1
      rw [e] at hp
      exact hne (List.perm_nil.mp hp.symm)

theorem chained_congr {G : Graph} {s s' : PIBT} {ai : Nat} {aj : Option Nat}
    (hc : s'.request_chain = s.request_chain)
    (hv : ∀ a, (s'.agents a).v_now = (s.agents a).v_now)
    (hr : s'.initial_requester = s.initial_requester) (h : s.Chained G ai aj) :
    s'.Chained G ai aj := by
  obtain ⟨h1, h2, h3, h4, h5, h6⟩ := h
  constructor <;> simp only [hc, hv, hr] <;> assumption

theorem chained_top (G : Graph) {s : PIBT} (ai : Nat) (hc : s.request_chain = []) :
    s.Chained G ai none := by
  constructor <;> simp [hc]

/-- The request chain after the push of the request of `ai` for the neighbour `u`. -/
theorem chain_push {G : Graph} {n : Nat} {s s2 : PIBT} {ai u : Nat} {aj : Option Nat}
    {ii : Bool} (hR : s.Ready G n ai aj ii) (hC : s.Chained G ai aj)
    (hchain : s2.request_chain = s.request_chain ++ [⟨ai, u⟩])
    (hv : ∀ a, (s2.agents a).v_now = (s.agents a).v_now)
    (hr : s2.initial_requester = s.initial_requester)
    (hu : u ∈ G.neighbor (s.agents ai).v_now) :
    (s2.request_chain.map Request.agent).Nodup ∧
    (∀ r, r ∈ s2.request_chain → r.requested_node ∈ G.neighbor (s2.agents r.agent).v_now) ∧
    List.Chain' (fun r r1 : Request => r.requested_node = (s2.agents r1.agent).v_now)
      s2.request_chain ∧
    (∀ r, s2.request_chain.head? = some r → s2.initial_requester = some r.agent) := by
  refine ⟨?_, ?_, ?_, ?_⟩
  · rw [hchain, List.map_append]
    refine List.nodup_append.mpr ⟨hC.distinct, by simp, ?_⟩
    intro a ha hb
    obtain ⟨r, hr1, hr2⟩ := List.mem_map.mp ha
    have e : a = ai := by simpa using hb
    rw [← hr2] at e
    have := (hR.chain_sound r hr1).2.1.1
    rw [e] at this
    exact this hR.unplanned
  · intro r hr1
    rw [hchain] at hr1
    rw [hv]
    rcases List.mem_append.mp hr1 with g | g
    · exact hC.edge r g
    · rw [List.mem_singleton.mp g]
      exact hu
  · rw [hchain]
    refine List.chain'_append.mpr ⟨?_, List.chain'_singleton _, fun x hx y hy => ?_⟩
    · simp only [hv]
      exact hC.link
    · have e : y = ⟨ai, u⟩ := by simpa using hy.symm
      rw [e, hv]
      exact (hC.last x hx).1
  · intro r hr1
    rw [hr]
    rw [hchain] at hr1
    by_cases hnil : s.request_chain = []
    · rw [hnil] at hr1
      have e : r = ⟨ai, u⟩ := by simpa using hr1.symm
      rw [e]
      cases ii with
      | true => exact (hR.top rfl).2.1
      | false =>
        obtain ⟨j, _, haj, _⟩ := hR.nested rfl
        exact absurd hnil (hC.pushed j haj)
    · rw [List.head?_append_of_ne_nil _ hnil] at hr1
      exact hC.first r hr1

/-- The request chain that the pushed agent `ak` finds is a path of requests. -/
theorem chained_child {G : Graph} {n : Nat} {s s2 : PIBT} {ai u ak : Nat} {aj : Option Nat}
    {ii : Bool} (hR : s.Ready G n ai aj ii) (hC : s.Chained G ai aj)
    (hchain : s2.request_chain = s.request_chain ++ [⟨ai, u⟩])
    (hv : ∀ a, (s2.agents a).v_now = (s.agents a).v_now)
    (hr : s2.initial_requester = s.initial_requester)
    (hu : u ∈ G.neighbor (s.agents ai).v_now)
    (hak : (s.agents ak).v_now = u) : s2.Chained G ak (some ai) := by
  obtain ⟨h1, h2, h3, h4⟩ := chain_push hR hC hchain hv hr hu
  refine ⟨h1, h2, h3, h4, fun r hr1 => ?_, fun _ _ => ?_⟩
  · rw [hchain, List.getLast?_concat] at hr1
    rw [← Option.some.inj hr1, hv, hak]
    exact ⟨rfl, rfl⟩
  · rw [hchain]
    simp

/-- The request chain with which the cycle handler is invoked is a ring of at least three
entries. -/
theorem ring_of_chained {G : Graph} {n : Nat} {s s2 : PIBT} {ai u r0 : Nat} {aj : Option Nat}
    (hR : s.Ready G n ai aj false) (hC : s.Chained G ai aj)
    (hchain : s2.request_chain = s.request_chain ++ [⟨ai, u⟩])
    (hv : ∀ a, (s2.agents a).v_now = (s.agents a).v_now)
    (hr : s2.initial_requester = s.initial_requester)
    (hu : u ∈ G.neighbor (s.agents ai).v_now)
    (hskip : ∀ j, aj = some j → u ≠ (s.agents j).v_now)
    (hr0 : s.initial_requester = some r0) (hur : u = (s.agents r0).v_now) : s2.Ring G := by
  obtain ⟨h1, h2, h3, h4⟩ := chain_push hR hC hchain hv hr hu
  obtain ⟨j, _, haj, _⟩ := hR.nested rfl
  have hne := hC.pushed j haj
  refine ⟨?_, ?_, h2, h3, ⟨⟨ai, u⟩, r0, ?_, hr.trans hr0, ?_⟩, h1⟩
  · rw [hchain]
    cases hch : s.request_chain with
    | nil => exact absurd hch hne
    | cons x rest =>
      cases rest with
      | nil =>
        have e1 := hC.first x (by rw [hch]; rfl)
        have e2 := (hC.last x (by rw [hch]; rfl)).2
        rw [hr0] at e1
        have e3 : r0 = x.agent := Option.some.inj e1
        rw [← e3] at e2
        exact absurd hur (hskip r0 e2)
      | cons y rest => simp
  · obtain ⟨x, hx⟩ := Option.ne_none_iff_exists'.mp
      (fun e => hne (List.head?_eq_none_iff.mp e))
    refine ⟨x, ?_, ?_⟩
    · rw [hchain, List.head?_append_of_ne_nil _ hne]
      exact hx
    · rw [hr]
      exact hC.first x hx
  · rw [hchain]
    exact List.getLast?_concat _
  · rw [hv]
    exact hur

/-- In a state in which the cycle handler is invoked, the requested nodes of the chain are
pairwise distinct, as are the vertices of its agents, and no two entries request each
other's vertex. -/
theorem cyclic_targets {G : Graph} {n : Nat} {s : PIBT} (hC : s.Cyclic G n)
    (hd : (s.request_chain.map Request.agent).Nodup) :
    (s.request_chain.map fun r => r.requested_node).Nodup ∧
    (s.request_chain.map fun r => (s.agents r.agent).v_now).Nodup ∧
    ∀ r r1, r ∈ s.request_chain → r1 ∈ s.request_chain →
      ¬ (r.requested_node = (s.agents r1.agent).v_now ∧
        r1.requested_node = (s.agents r.agent).v_now) := by
  have hl : s.request_chain.Nodup := List.Nodup.of_map _ hd
  refine ⟨?_, ?_, ?_⟩
  · refine List.Nodup.map_on (fun r hr r1 hr1 e => ?_) hl
    obtain ⟨a1, a2, a3⟩ := hC.chain_sound r hr
    obtain ⟨b1, b2, b3⟩ := hC.chain_sound r1 hr1
    have g1 := hC.holds _ a1 a2 _ a3
    have g2 := hC.holds _ b1 b2 _ b3
    rw [e, g2] at g1
    exact List.inj_on_of_nodup_map hd hr hr1 (Option.some.inj g1).symm
  · refine List.Nodup.map_on (fun r hr r1 hr1 e => ?_) hl
    exact List.inj_on_of_nodup_map hd hr hr1
      (base_inj hC.base (hC.chain_sound r hr).1 (hC.chain_sound r1 hr1).1 e)
  · rintro r r1 hr hr1 ⟨e1, e2⟩
    obtain ⟨a1, a2, a3⟩ := hC.chain_sound r hr
    obtain ⟨b1, b2, b3⟩ := hC.chain_sound r1 hr1
    have hne : r1.agent ≠ r.agent := by
      intro e
      rw [e] at e1
      rw [e1] at a3
      exact hC.leaves _ a1 a2 a3
    refine hC.inv.t1 _ a1 a2 _ a3 _ b1 e1.symm hne ?_
    rw [b3, e2]

/-- When every agent of a non-empty request chain faces its requested node, the cycle handler
is the loop that moves the agents forward. -/
theorem handleCycle_aligned {E : Env} {s : PIBT} (hne : s.request_chain ≠ [])
    (hf : ∀ r, r ∈ s.request_chain → PIBT.faces E s r) :
    PIBT.handleCycleWithOrientation E s = .ok (PIBT.chain_advance s.request_chain s) := by
  obtain ⟨bs, hbs, _, hall, _⟩ := chain_orientations_faces s.request_chain
    (fun r hr => by
      obtain ⟨o, _, ho⟩ := hf r hr
      exact ⟨o, ho⟩)
  have hemp : s.request_chain.isEmpty = false := by
    cases hc : s.request_chain with
    | nil => exact absurd hc hne
    | cons _ _ => rfl
  unfold PIBT.handleCycleWithOrientation
  rw [hemp]
  simp only [Bool.false_eq_true, if_false]
  rw [hbs]
  simp only [Outcome.bind_ok]
  rw [if_neg (not_not.mpr (hall.mpr hf))]

theorem bind_spec {α β : Type} {x : Outcome α} {f : α → Outcome β} {P : β → Prop}
    (hx : x ≠ .halted)
    (hf : ∀ a, x = .ok a → f a ≠ .halted ∧ ∀ b, f a = .ok b → P b) :
    x.bind f ≠ .halted ∧ ∀ b, x.bind f = .ok b → P b := by
  cases x with
  | ok a => exact hf a rfl
  | halted => exact absurd rfl hx
  | starved => exact ⟨fun h => Outcome.noConfusion h, fun b h => Outcome.noConfusion h⟩

/-- The record of the cycles does not change the candidate loop. -/
theorem candidate_loop_cyc_erase {E : Env}
    {callC : PIBT → Nat → Option Nat → Bool → Outcome ((Bool × PIBT) × List PIBT)}
    {call : PIBT → Nat → Option Nat → Bool → Outcome (Bool × PIBT)}
    {ai : Nat} {aj : Option Nat} {ii : Bool} {swap_agent : Option Nat}
    (herase : ∀ s ak j i, ((callC s ak j i).bind fun r => .ok r.1) = call s ak j i) :
    ∀ (C : List Nat) (m : Int) (s : PIBT),
      ((PIBT.candidate_loop_cyc E callC ai aj ii swap_agent C m s).bind fun r => .ok r.1) =
        PIBT.candidate_loop E call ai aj ii swap_agent C m s := by
  intro C
  induction C with
  | nil =>
    intro m s
    unfold PIBT.candidate_loop_cyc PIBT.candidate_loop
    rfl
  | cons u C ih =>
    intro m s
    unfold PIBT.candidate_loop_cyc PIBT.candidate_loop
    refine bind_ite_eq (ih _ _) (bind_ite_eq (ih _ _) ?_)
    · dsimp only
      rw [bind_bind]
      refine bind_congr_fun _ fun cycle => ?_
      cases cycle with
      | true =>
        simp only [if_true]
        split_ifs
        · rfl
        · rw [bind_bind]
          exact bind_congr_fun _ fun _ => rfl
      | false =>
        simp only [Bool.false_eq_true, if_false]
        cases ((s.setOccupiedNext u (some ai)).set_v_next ai (some u)).occupied_now u with
        | none =>
          simp only
          rw [bind_bind]
          exact bind_ok_self _
        | some ak =>
          simp only
          split_ifs
          · rw [← herase, bind_bind, bind_bind]
            refine bind_congr_fun _ fun r => ?_
            simp only [Outcome.bind_ok]
            split_ifs
            · rw [bind_bind]
              exact bind_ok_self _
            · rw [bind_bind]
              exact ih _ _
          · rw [bind_bind]
            exact bind_ok_self _

/-- The record of the cycles does not change `funcPIBT`. -/
theorem funcPIBT_cyc_erase (E : Env) :
    ∀ (depth : Nat) (s : PIBT) (ai : Nat) (aj : Option Nat) (ii : Bool),
      ((PIBT.funcPIBT_cyc E depth s ai aj ii).bind fun r => .ok r.1) =
        PIBT.funcPIBT E depth s ai aj ii := by
  intro depth
  induction depth with
  | zero =>
    intro s ai aj ii
    rfl
  | succ d ih =>
    intro s ai aj ii
    unfold PIBT.funcPIBT_cyc PIBT.funcPIBT
    dsimp only
    rw [bind_bind]
    exact bind_congr_fun _ fun c => candidate_loop_cyc_erase ih _ _ _

/-- The record of the cycles does not change the planning loop. -/
theorem plan_agents_cyc_erase (E : Env) :
    ∀ (l : List Nat) (s : PIBT),
      ((PIBT.plan_agents_cyc E l s).bind fun r => .ok r.1) = PIBT.plan_agents E l s := by
  intro l
  induction l with
  | nil =>
    intro s
    rfl
  | cons a rest ih =>
    intro s
    unfold PIBT.plan_agents_cyc PIBT.plan_agents
    split_ifs
    · rw [← funcPIBT_cyc_erase, bind_bind, bind_bind]
      refine bind_congr_fun _ fun r => ?_
      simp only [Outcome.bind_ok]
      rw [bind_bind]
      exact ih _
    · exact ih _

theorem cycle_test_safe {G : Graph} {n : Nat} {s s1 : PIBT} {ai u : Nat} {aj : Option Nat}
    {ii : Bool} (hR : s.Ready G n ai aj ii)
    (hr : s1.initial_requester = s.initial_requester) :
    PIBT.cycle_test s1 ii u ≠ .halted := by
  unfold PIBT.cycle_test
  cases ii with
  | true => exact ok_safe _
  | false =>
    obtain ⟨j, r, _, _, _, _, hreq, _⟩ := hR.nested rfl
    rw [hr, hreq]
    exact ok_safe _

/-- The part of the loop body below the inherited call does not abort in a later state of the
call of `funcPIBT` for `ai`, on a candidate and with a swap partner next to the agent. -/
theorem decide_safe_of_frame {E : Env} {n : Nat} {s sd : PIBT} {ai u : Nat}
    {aj sw : Option Nat} {ii : Bool} {m : Int} (hG : E.G.Simple) (hP : E.G.Placed)
    (hb : s.Base n) (hai : ai < n) (hf : s.Frame sd)
    (hu : u = (s.agents ai).v_now ∨ u ∈ E.G.neighbor (s.agents ai).v_now)
    (hsw : ∀ sa, sw = some sa →
      ∃ x, x ∈ E.G.neighbor (s.agents ai).v_now ∧ s.occupied_now x = some sa) :
    PIBT.decide_action E sd ai aj ii sw u m ≠ .halted := by
  apply decide_action_safe
  · rw [(hf.agents ai).2.2.2.1]
    exact hb.ott_now ai hai
  · rw [(hf.agents ai).2.1]
    rcases hu with e | e
    · exact Or.inl e
    · exact Or.inr (relpos_total e (hP _ _ e))
  · intro sa hsa
    obtain ⟨x, hx, ho⟩ := hsw sa hsa
    obtain ⟨hsal, hsav⟩ := (hb.occ_now x sa).mp ho
    rw [(hf.agents sa).2.2.2.1, (hf.agents sa).2.1, (hf.agents ai).2.1, hsav]
    refine ⟨hb.ott_now sa hsal, Or.inr ?_⟩
    have := hG.symm _ _ hx
    exact relpos_total this (hP _ _ this)

/-- The candidate loop of `funcPIBT` does not abort, and every state in which it invokes the
cycle handler has a ring as request chain, provided the inherited calls have these
properties. -/
theorem candidate_loop_ring {E : Env} {n : Nat} (hG : E.G.Simple) (hP : E.G.Placed)
    {callC : PIBT → Nat → Option Nat → Bool → Outcome ((Bool × PIBT) × List PIBT)}
    {call : PIBT → Nat → Option Nat → Bool → Outcome (Bool × PIBT)}
    {ai : Nat} {aj : Option Nat} {ii : Bool} {sw : Option Nat}
    (herase : ∀ s ak j i, ((callC s ak j i).bind fun r => .ok r.1) = call s ak j i)
    (hcall : ∀ s ak j r, s.Ready E.G n ak (some j) false →
      call s ak (some j) false = .ok r → PIBT.Post E.G n s ak (some j) r)
    (hsafe : ∀ s ak j, s.Ready E.G n ak (some j) false → s.Chained E.G ak (some j) →
      callC s ak (some j) false ≠ .halted ∧
      ∀ q, callC s ak (some j) false = .ok q →
        ∀ sc, sc ∈ q.2 → sc.Cyclic E.G n ∧ sc.Ring E.G) :
    ∀ (C : List Nat) (m : Int) (s : PIBT),
      s.Ready E.G n ai aj ii → s.Chained E.G ai aj →
      (∀ u, u ∈ C → u = (s.agents ai).v_now ∨ u ∈ E.G.neighbor (s.agents ai).v_now) →
      (∀ sa, sw = some sa →
        ∃ x, x ∈ E.G.neighbor (s.agents ai).v_now ∧ s.occupied_now x = some sa) →
      PIBT.candidate_loop_cyc E callC ai aj ii sw C m s ≠ .halted ∧
      ∀ q, PIBT.candidate_loop_cyc E callC ai aj ii sw C m s = .ok q →
        ∀ sc, sc ∈ q.2 → sc.Cyclic E.G n ∧ sc.Ring E.G := by
  intro C
  induction C with
  | nil =>
    intro m s _ _ _ _
    unfold PIBT.candidate_loop_cyc
    refine ⟨ok_safe _, fun q hq sc hsc => ?_⟩
    rw [← Outcome.ok.inj hq] at hsc
    exact absurd hsc (List.not_mem_nil sc)
  | cons u C ih =>
    intro m s hR hC hcand hsw
    have hcand' : ∀ w, w ∈ C →
        w = (s.agents ai).v_now ∨ w ∈ E.G.neighbor (s.agents ai).v_now :=
      fun w hw => hcand w (List.mem_cons_of_mem _ hw)
    have hu := hcand u (List.mem_cons_self _ _)
    unfold PIBT.candidate_loop_cyc
    split_ifs with h1 h2
    · exact ih _ _ hR hC hcand' hsw
    · exact ih _ _ hR hC hcand' hsw
    · have hfree : s.occupied_next u = none := not_not.mp h1
      have hskip : ∀ j, aj = some j → u ≠ (s.agents j).v_now := by
        intro j hj e
        apply h2
        rw [hj]
        simp [e]
      have hS1 : s.Reserved ((s.setOccupiedNext u (some ai)).set_v_next ai (some u)) ai u :=
        reserve_reserved s ai u s.request_chain
      have hc1 : ((s.setOccupiedNext u (some ai)).set_v_next ai (some u)).request_chain =
          s.request_chain := rfl
      dsimp only
      generalize (s.setOccupiedNext u (some ai)).set_v_next ai (some u) = s1 at hS1 hc1
      have hS2 := reserved_push hS1 (s1.request_chain ++ [⟨ai, u⟩])
      have hchain : ({ s1 with request_chain := s1.request_chain ++ [⟨ai, u⟩] } :
          PIBT).request_chain = s.request_chain ++ [⟨ai, u⟩] := by
        show s1.request_chain ++ _ = _
        rw [hc1]
      have hon1 : s1.occupied_now = s.occupied_now := hS1.frame.occupied_now
      have hv2 : ∀ a, (({ s1 with request_chain := s1.request_chain ++ [⟨ai, u⟩] } :
          PIBT).agents a).v_now = (s.agents a).v_now := fun a => (hS2.frame.agents a).2.1
      refine bind_spec (cycle_test_safe hR hS1.requester) fun cycle hcyc => ?_
      cases cycle with
      | true =>
        obtain ⟨hii, r0, hr0, hur⟩ := cycle_test_true hcyc
        rw [hS1.requester] at hr0
        rw [(hS1.frame.agents r0).2.1] at hur
        subst hii
        have hCy := cyclic_of_reserved hR hS2 hchain hfree hskip rfl hr0 hur
        have hun : u ∈ E.G.neighbor (s.agents ai).v_now := by
          rcases hu with e | e
          · exfalso
            obtain ⟨j, r, _, _, _, _, hreq, hrl, hrt, _⟩ := hR.nested rfl
            rw [hr0] at hreq
            have e0 : r0 = r := Option.some.inj hreq
            rw [← e0] at hrl hrt
            have := base_inj hR.base hrl hR.ai_lt (hur.symm.trans e)
            rw [this] at hrt
            exact hrt.1 hR.unplanned
          · exact e
        have hRing := ring_of_chained hR hC hchain hv2 hS2.requester hun hskip hr0 hur
        simp only [if_true]
        rw [if_neg (by
          rw [(hS1.frame.agents ai).2.2.2.1]
          exact hR.base.ott_now ai hR.ai_lt)]
        generalize ({ s1 with request_chain := s1.request_chain ++ [⟨ai, u⟩] } : PIBT) = s2
          at hCy hRing
        refine bind_spec ?_ fun s' _ => ⟨ok_safe _, fun b hb sc hsc => ?_⟩
        · apply safe_of_ok
          apply handleCycle_total E s2 (cyclic_targets hCy hRing.distinct).2.1
          · intro r hr
            exact hCy.base.ott_now _ (hCy.chain_sound r hr).1
          · intro r hr
            exact relpos_total (hRing.edge r hr) (hP _ _ (hRing.edge r hr))
        · rw [← Outcome.ok.inj hb] at hsc
          rw [List.mem_singleton.mp hsc]
          exact ⟨hCy, hRing⟩
      | false =>
        simp only [Bool.false_eq_true, if_false]
        cases hak1 : s1.occupied_now u with
        | none =>
          simp only
          refine bind_spec
            (decide_safe_of_frame hG hP hR.base hR.ai_lt hS1.frame hu hsw)
            fun q _ => ⟨ok_safe _, fun b hb sc hsc => ?_⟩
          rw [← Outcome.ok.inj hb] at hsc
          exact absurd hsc (List.not_mem_nil sc)
        | some ak =>
          have hak : s.occupied_now u = some ak := by rw [← hon1]; exact hak1
          simp only
          split_ifs with hakn
          · have hRc := ready_child hR hS2 hchain hfree hskip hak hakn
            obtain ⟨hakl, haku⟩ := (hR.base.occ_now u ak).mp hak
            have hun : u ∈ E.G.neighbor (s.agents ai).v_now := by
              rcases hu with e | e
              · exfalso
                have := base_inj hR.base hakl hR.ai_lt (haku.trans e)
                rw [this] at hakn
                rw [hS1.target] at hakn
                exact absurd hakn (by simp)
              · exact e
            have hCc := chained_child hR hC hchain hv2 hS2.requester hun haku
            generalize ({ s1 with request_chain := s1.request_chain ++ [⟨ai, u⟩] } : PIBT) = s2
              at hS2 hchain hRc hCc hv2
            obtain ⟨hs1, hs2⟩ := hsafe s2 ak ai hRc hCc
            refine bind_spec hs1 fun r1 hr1 => ?_
            have hlog := hs2 r1 hr1
            have her : call s2 ak (some ai) false = .ok r1.1 := by
              rw [← herase, hr1]
              rfl
            have hPo := hcall _ _ _ _ hRc her
            have hakn2 : (s2.agents ak).v_next = none := hRc.unplanned
            have hfr : s.Frame r1.1.2 := by
              rcases hPo with ⟨hE, _, _⟩ | ⟨_, hE0, _, _⟩
              · exact frame_trans hS2.frame hE.frame
              · exact frame_trans hS2.frame hE0.frame
            split_ifs with hr
            · refine bind_spec
                (decide_safe_of_frame hG hP hR.base hR.ai_lt hfr hu hsw)
                fun q _ => ⟨ok_safe _, fun b hb sc hsc => ?_⟩
              rw [← Outcome.ok.inj hb] at hsc
              exact hlog sc hsc
            · rcases hPo with ⟨hE, hF, hf⟩ | ⟨ht, _, _, _⟩
              · obtain ⟨hc3, hv3⟩ := hf (by simpa using hr)
                obtain ⟨hR4, hE4, hc4⟩ :=
                  ready_backtrack hR hS2 hchain hfree hskip hak hakn2 hE hF hc3 hv3
                have hv4 := fun a => (hE4.frame.agents a).2.1
                have hC4 := chained_congr hc4 hv4 hE4.requester hC
                have hih := ih (m + 1) _ hR4 hC4
                  (fun w hw => by rw [hv4]; exact hcand' w hw)
                  (fun sa hsa => by
                    rw [hv4, hE4.frame.occupied_now]
                    exact hsw sa hsa)
                refine bind_spec hih.1 fun q hq => ⟨ok_safe _, fun b hb sc hsc => ?_⟩
                rw [← Outcome.ok.inj hb] at hsc
                rcases List.mem_append.mp hsc with g | g
                · exact hlog sc g
                · exact hih.2 q hq sc g
              · exact absurd ht hr
          · refine bind_spec
              (decide_safe_of_frame hG hP hR.base hR.ai_lt hS1.frame hu hsw)
              fun q _ => ⟨ok_safe _, fun b hb sc hsc => ?_⟩
            rw [← Outcome.ok.inj hb] at hsc
            exact absurd hsc (List.not_mem_nil sc)

/-- An inherited call of `funcPIBT` does not abort, and every state in which it invokes the
cycle handler has a ring as request chain. -/
theorem funcPIBT_cyc_ring {E : Env} {n : Nat} (hG : E.G.Simple) (hP : E.G.Placed)
    (hshuffle : ∀ mt l, (E.shuffle mt l).1.Perm l) :
    ∀ (depth : Nat) (s : PIBT) (ai j : Nat),
      s.Ready E.G n ai (some j) false → s.Chained E.G ai (some j) →
      PIBT.funcPIBT_cyc E depth s ai (some j) false ≠ .halted ∧
      ∀ q, PIBT.funcPIBT_cyc E depth s ai (some j) false = .ok q →
        ∀ sc, sc ∈ q.2 → sc.Cyclic E.G n ∧ sc.Ring E.G := by
  intro depth
  induction depth with
  | zero =>
    intro s ai j _ _
    unfold PIBT.funcPIBT_cyc
    exact ⟨fun h => Outcome.noConfusion h, fun q h => Outcome.noConfusion h⟩
  | succ d ih =>
    intro s ai j hR hC
    unfold PIBT.funcPIBT_cyc
    simp only [Bool.false_eq_true, if_false]
    refine bind_spec (candidates_safe hP hshuffle (hR.base.ott_now ai hR.ai_lt))
      fun c hc => ?_
    obtain ⟨⟨mt, pc, e⟩, _⟩ := candidates_effect hc
    obtain ⟨hca, hcs⟩ := candidates_adjacent hshuffle hc
    rw [e]
    exact candidate_loop_ring hG hP (funcPIBT_cyc_erase E d) (funcPIBT_nested E n d) ih
      c.1 0 _ (ready_engine hR mt pc)
      (@chained_congr E.G s _ ai (some j) rfl (fun _ => rfl) rfl hC) hca hcs

/-- A call of `funcPIBT` by `run` does not abort, and every state in which it invokes the
cycle handler has a ring as request chain. -/
theorem funcPIBT_cyc_top {E : Env} {n : Nat} (hG : E.G.Simple) (hP : E.G.Placed)
    (hshuffle : ∀ mt l, (E.shuffle mt l).1.Perm l) (depth : Nat) {s : PIBT} {ai : Nat}
    (hT : s.Top E.G n) (hai : ai < n) (hun : (s.agents ai).v_next = none) :
    PIBT.funcPIBT_cyc E depth s ai none true ≠ .halted ∧
    ∀ q, PIBT.funcPIBT_cyc E depth s ai none true = .ok q →
      ∀ sc, sc ∈ q.2 → sc.Cyclic E.G n ∧ sc.Ring E.G := by
  cases depth with
  | zero =>
    unfold PIBT.funcPIBT_cyc
    exact ⟨fun h => Outcome.noConfusion h, fun q h => Outcome.noConfusion h⟩
  | succ d =>
    have hR := ready_top hT hai hun
    unfold PIBT.funcPIBT_cyc
    simp only [if_true]
    refine bind_spec (candidates_safe hP hshuffle (hR.base.ott_now ai hR.ai_lt))
      fun c hc => ?_
    obtain ⟨⟨mt, pc, e⟩, _⟩ := candidates_effect hc
    obtain ⟨hca, hcs⟩ := candidates_adjacent hshuffle hc
    rw [e]
    exact candidate_loop_ring hG hP (funcPIBT_cyc_erase E d) (funcPIBT_nested E n d)
      (funcPIBT_cyc_ring hG hP hshuffle d) c.1 0 _ (ready_engine hR mt pc)
      (chained_top E.G ai rfl) hca hcs

/-- The planning loop of `run` does not abort, and every state in which the cycle handler is
invoked has a ring as request chain. -/
theorem plan_agents_cyc_ring {E : Env} {n : Nat} (hG : E.G.Simple) (hP : E.G.Placed)
    (hshuffle : ∀ mt l, (E.shuffle mt l).1.Perm l) :
    ∀ (l : List Nat) (s : PIBT), s.Top E.G n → (∀ a, a ∈ l → a < n) →
      PIBT.plan_agents_cyc E l s ≠ .halted ∧
      ∀ q, PIBT.plan_agents_cyc E l s = .ok q →
        ∀ sc, sc ∈ q.2 → sc.Cyclic E.G n ∧ sc.Ring E.G := by
  intro l
  induction l with
  | nil =>
    intro s _ _
    unfold PIBT.plan_agents_cyc
    refine ⟨ok_safe _, fun q hq sc hsc => ?_⟩
    rw [← Outcome.ok.inj hq] at hsc
    exact absurd hsc (List.not_mem_nil sc)
  | cons a rest ih =>
    intro s hT hl
    have hrest : ∀ b, b ∈ rest → b < n := fun b hb => hl b (List.mem_cons_of_mem _ hb)
    unfold PIBT.plan_agents_cyc
    split_ifs with hun
    · obtain ⟨h1, h2⟩ := funcPIBT_cyc_top hG hP hshuffle (E.num + 1) hT
        (hl a (List.mem_cons_self _ _)) hun
      refine bind_spec h1 fun r hr => ?_
      have her : PIBT.funcPIBT E (E.num + 1) s a none true = .ok r.1 := by
        rw [← funcPIBT_cyc_erase, hr]
        rfl
      have hT1 := (funcPIBT_top hT (hl a (List.mem_cons_self _ _)) hun her).1
      obtain ⟨g1, g2⟩ := ih r.1.2 hT1 hrest
      refine bind_spec g1 fun q hq => ⟨ok_safe _, fun b hb sc hsc => ?_⟩
      rw [← Outcome.ok.inj hb] at hsc
      rcases List.mem_append.mp hsc with g | g
      · exact h2 r hr sc g
      · exact g2 q hq sc g
    · exact ih s hT hrest

/-- The state from which the planning loop of a timestep starts, on an instance with pairwise
distinct starts: no reservation is pending, and the sorted agents are the agents. -/
theorem planning_start {E : Env} {t : Nat} {s : PIBT} (h : PIBT.after E t = .ok s)
    (hstart : ∀ i j, i < E.num → j < E.num → i ≠ j → E.start i ≠ E.start j) :
    PIBT.Top E.G E.num (PIBT.sorted s) ∧
    (∀ a, a ∈ (PIBT.sorted s).A → a < E.num) ∧
    PIBT.Weak E.G E.num (PIBT.sorted s) ∧
    PIBT.At (PIBT.sorted s) ∧
    PIBT.Owned E.num (PIBT.sorted s) := by
  unfold PIBT.sorted
  have hS := after_sound E t s h
  have hR := hS.rest
  obtain ⟨hat, hempty⟩ := after_tables E t s h
  have hb := hS.base hstart
  have hperm : (std_sort (fun a b => PIBT.run_compare (s.agents a) (s.agents b)) s.A).Perm
      (List.range E.num) := (std_sort_perm _ _).trans hR.order
  refine ⟨?_, ?_, ?_, hat, ?_⟩
  · exact top_of_idle ⟨hb.id_eq, hb.ott_now, hb.occ_now⟩ hR.idle
  · intro a ha
    rw [hperm.mem_iff, List.mem_range] at ha
    exact ha
  · exact @weak_congr E.G E.num s _ rfl rfl hR.weak.chain_lt hR.weak
  · intro x hx
    exact absurd (hempty x) hx

/-- The planning loop of a timestep returns on a simple undirected graph whose adjacent
vertices have different grid positions, from pairwise distinct starts. -/
theorem planning_total {E : Env} (hG : E.G.Simple) (hP : E.G.Placed)
    (hshuffle : ∀ mt l, (E.shuffle mt l).1.Perm l)
    (hstart : ∀ i j, i < E.num → j < E.num → i ≠ j → E.start i ≠ E.start j)
    {t : Nat} {s : PIBT} (h : PIBT.after E t = .ok s) :
    ∃ s1, PIBT.plan_agents E (PIBT.sorted s).A (PIBT.sorted s) = .ok s1 := by
  obtain ⟨hT, hmem, hw, hat, hO⟩ := planning_start h hstart
  apply ok_of_safe
  · rw [← plan_agents_cyc_erase]
    exact safe_of_erase (plan_agents_cyc_ring hG hP hshuffle _ _ hT hmem).1
  · exact plan_agents_returns hG hshuffle _ _ hw hat hO hmem

/-- A timestep of `run` returns on a simple undirected graph whose adjacent vertices have
different grid positions, from pairwise distinct starts. -/
theorem timestep_total {E : Env} (hG : E.G.Simple) (hP : E.G.Placed)
    (hshuffle : ∀ mt l, (E.shuffle mt l).1.Perm l)
    (hstart : ∀ i j, i < E.num → j < E.num → i ≠ j → E.start i ≠ E.start j)
    {t : Nat} {s : PIBT} (h : PIBT.after E t = .ok s) :
    ∃ r, PIBT.timestep E s = .ok r := by
  obtain ⟨s1, hs1⟩ := planning_total hG hP hshuffle hstart h
  obtain ⟨hT, hmem, hw, hat, hO⟩ := planning_start h hstart
  obtain ⟨hT1, hfr, _, hpl⟩ := plan_agents_post _ _ _ hT hmem hs1
  have hS := after_sound E t s h
  have hR := hS.rest
  have hperm : (PIBT.sorted s).A.Perm (List.range E.num) :=
    (std_sort_perm _ _).trans hR.order
  have hnd : (PIBT.sorted s).A.Nodup := hperm.nodup_iff.mpr (List.nodup_range E.num)
  have hmem' : ∀ a, a ∈ (PIBT.sorted s).A ↔ a < E.num := by
    intro a; rw [hperm.mem_iff, List.mem_range]
  have hA1 : s1.A = (PIBT.sorted s).A := hfr.order
  have hset : ∀ a, a ∈ s1.A →
      (s1.agents a).v_next ≠ none ∧ (s1.agents a).ott_next ≠ none := by
    intro a ha
    rw [hA1] at ha
    have hv := hpl a ha
    refine ⟨hv, fun e => ?_⟩
    exact hT1.none_tentative a (hmem a ha) ⟨hv, e⟩
  obtain ⟨q, hq⟩ := commit_agents_total s1.A s1
    { config := List.replicate E.num none, orients := List.replicate E.num Orientation.X_PLUS,
      check_goal_cond := true } (by rw [hA1]; exact hnd) hset
  have hC0 := commit_agents_inv hT1.base.id_eq s1.A (fun _ => False) s1 _ q committing_start
    (fun a ha => ⟨(hmem' a).mp (by rw [← hA1]; exact ha), id⟩) (by rw [hA1]; exact hnd) hq
  have hC : PIBT.Committing E.num s1 (fun b => b < E.num) q.1 q.2 :=
    committing_congr (fun b => by rw [hA1, hmem']; simp) hC0
  obtain ⟨s0, _, hshown0⟩ := hS.traced.rows 0 (Nat.zero_le t)
  have hhead : (s.solution.configs.headD []).length = E.num := by
    have : s.solution.configs.headD [] = s.solution.configs.getD 0 [] := by
      cases s.solution.configs <;> simp
    rw [this]; exact hshown0.config_len
  have hadd : ∃ p, q.1.solution.addWithOrientation q.2.config q.2.orients = .ok p := by
    unfold Plan.addWithOrientation
    rw [if_neg, if_neg]
    · exact ⟨_, rfl⟩
    · rw [hC.config_len, hC.orients_len]
      simp
    · rw [hC.solution, hfr.solution]
      show ¬ (¬ s.solution.configs.isEmpty = true ∧
        (s.solution.configs.headD []).length ≠ q.2.config.length)
      rw [hhead, hC.config_len]
      simp
  obtain ⟨p, hp⟩ := hadd
  unfold PIBT.sorted at hs1
  dsimp only at hs1
  unfold PIBT.timestep
  dsimp only
  rw [hs1]
  simp only [Outcome.bind_ok]
  rw [hq]
  simp only [Outcome.bind_ok]
  rw [hp]
  exact ⟨_, rfl⟩

/-- Every timestep of `run` is reached on a simple undirected graph whose adjacent vertices
have different grid positions, from pairwise distinct starts. -/
theorem after_total {E : Env} (hG : E.G.Simple) (hP : E.G.Placed)
    (hshuffle : ∀ mt l, (E.shuffle mt l).1.Perm l)
    (hstart : ∀ i j, i < E.num → j < E.num → i ≠ j → E.start i ≠ E.start j) :
    ∀ t, ∃ s, PIBT.after E t = .ok s := by
  intro t
  induction t with
  | zero =>
    obtain ⟨s0, hs0, _⟩ := run_init_post E
    exact ⟨s0, hs0⟩
  | succ t ih =>
    obtain ⟨s, hs⟩ := ih
    obtain ⟨r, hr⟩ := timestep_total hG hP hshuffle hstart hs
    exact ⟨r.1, after_of_timestep hs hr⟩

/-- `run` returns on a simple undirected graph whose adjacent vertices have different grid
positions, from pairwise distinct starts. -/
theorem run_total {E : Env} (hG : E.G.Simple) (hP : E.G.Placed)
    (hshuffle : ∀ mt l, (E.shuffle mt l).1.Perm l)
    (hstart : ∀ i j, i < E.num → j < E.num → i ≠ j → E.start i ≠ E.start j) :
    ∃ r, PIBT.run E = .ok r := by
  obtain ⟨s0, hs0, _⟩ := run_init_post E
  have h0 : PIBT.after E 0 = .ok s0 := hs0
  obtain ⟨r, hr⟩ := run_loop_total E (E.max_timestep.toNat + 1) 0 s0 h0
    (fun k _ _ => after_total hG hP hshuffle hstart k) (by omega) (by push_cast; omega)
  have hr' : PIBT.run_loop E (E.max_timestep.toNat + 1) s0 0 = .ok r := by
    simpa using hr
  unfold PIBT.run
  rw [hs0]
  simp only [Outcome.bind_ok]
  rw [hr']
  exact ⟨_, rfl⟩

theorem computeAction_halted_iff {G : Graph} (hP : G.Placed) (c t : Nat) (h : Orientation) :
    Plan.computeAction G c t h = .halted ↔ t ≠ c ∧ t ∉ G.neighbor c := by
  constructor
  · intro e
    by_contra hn
    have ht : t = c ∨ ∃ o, Plan.getRelativePosition G c t = .ok o := by
      by_cases h1 : t = c
      · exact Or.inl h1
      · have h2 : t ∈ G.neighbor c := by
          by_contra h2
          exact hn ⟨h1, h2⟩
        exact Or.inr (relpos_total h2 (hP _ _ h2))
    obtain ⟨act, hact⟩ := computeAction_total h ht
    rw [hact] at e
    exact Outcome.noConfusion e
  · rintro ⟨h1, h2⟩
    unfold Plan.computeAction
    rw [if_neg (fun e => h1 e.symm), if_neg h2]

theorem square_simple : square.Simple := by
  refine ⟨fun v u h => ?_, fun v u h => ?_, fun v h => ?_⟩
  · simp only [square] at h ⊢
    split_ifs at h <;> simp at h <;> omega
  · simp only [square] at h ⊢
    split_ifs at h with h0 h1 h2 h3
    · simp at h
      rcases h with h | h <;> simp [h, h0]
    · simp at h
      rcases h with h | h <;> simp [h, h1]
    · simp at h
      rcases h with h | h <;> simp [h, h2]
    · simp at h
      rcases h with h | h <;> simp [h, h3]
    · simp at h
  · simp only [square] at h
    split_ifs at h <;> simp at h <;> omega

theorem square_placed : square.Placed := by
  intro v u h
  simp only [square] at h ⊢
  split_ifs at h with h0 h1 h2 h3
  · simp at h
    rcases h with h | h <;> simp [h, h0]
  · simp at h
    rcases h with h | h <;> simp [h, h1]
  · simp at h
    rcases h with h | h <;> simp [h, h2]
  · simp at h
    rcases h with h | h <;> simp [h, h3]
  · simp at h

/-- C32: on an undirected simple graph whose adjacent vertices have different grid positions
no call reachable from `run` hits the halt for a target that is not a neighbour: on such a
graph `getRelativePosition` aborts exactly when the target is not a neighbour of the source,
and `computeAction` exactly when the target is neither the source nor a neighbour of it; and
from pairwise distinct start vertices, with `std::shuffle` a permutation, `run` returns, every
timestep is reached, and in every timestep the planning loop, which makes all the calls of
`funcPIBT` and `handleCycleWithOrientation`, returns. -/
theorem run_never_halts (E : Env) (hG : E.G.Simple) (hP : E.G.Placed)
    (hshuffle : ∀ mt l, (E.shuffle mt l).1.Perm l)
    (hstart : ∀ i j, i < E.num → j < E.num → i ≠ j → E.start i ≠ E.start j) :
    (∀ c t, Plan.getRelativePosition E.G c t = .halted ↔ t ∉ E.G.neighbor c) ∧
    (∀ c t h, Plan.computeAction E.G c t h = .halted ↔ t ≠ c ∧ t ∉ E.G.neighbor c) ∧
    (∃ r, PIBT.run E = .ok r) ∧
    ∀ t, ∃ s s1, PIBT.after E t = .ok s ∧
      PIBT.plan_agents E (PIBT.sorted s).A (PIBT.sorted s) = .ok s1 := by
  refine ⟨fun c t => ?_, computeAction_halted_iff hP, run_total hG hP hshuffle hstart,
    fun t => ?_⟩
  · rw [relpos_halted_iff]
    constructor
    · rintro (h | ⟨h1, h2⟩)
      · exact h
      · intro hm
        rcases hP _ _ hm with g | g
        · exact g h1
        · exact g h2
    · exact Or.inl
  · obtain ⟨s, hs⟩ := after_total hG hP hshuffle hstart t
    obtain ⟨s1, hs1⟩ := planning_total hG hP hshuffle hstart hs
    exact ⟨s, s1, hs, hs1⟩

/-- Witness of C32 on `square_env`: four agents on the four vertices of a square, each
heading for the next vertex. -/
theorem run_never_halts_witness :
    (∀ c t, Plan.getRelativePosition square_env.G c t = .halted ↔
      t ∉ square_env.G.neighbor c) ∧
    (∀ c t h, Plan.computeAction square_env.G c t h = .halted ↔
      t ≠ c ∧ t ∉ square_env.G.neighbor c) ∧
    (∃ r, PIBT.run square_env = .ok r) ∧
    ∀ t, ∃ s s1, PIBT.after square_env t = .ok s ∧
      PIBT.plan_agents square_env (PIBT.sorted s).A (PIBT.sorted s) = .ok s1 :=
  run_never_halts square_env square_simple square_placed (fun _ _ => List.Perm.refl _)
    (fun _ _ _ _ h => h)

/-- C33: whenever `funcPIBT` detects a cycle and invokes `handleCycleWithOrientation`, the
request chain is a ring of at least three entries: the first entry's agent is the initial
requester, the requested node of each entry is a neighbour of the vertex of that entry's agent
and is the vertex of the next entry's agent, the last entry's requested node is the vertex of
the initial requester, and the agents are pairwise distinct; the handler returns, and when
every agent faces its requested node it assigns to every agent of the chain its requested
node as `v_next`, these are pairwise distinct, and no two agents of the chain exchange their
vertices.  Stated for the states in which the handler is invoked during the planning loop of
any timestep of `run`, on a simple undirected graph whose adjacent vertices have different
grid positions, from pairwise distinct starts, with `std::shuffle` a permutation; the record
of these states does not change the planning loop. -/
theorem request_chain_ring (E : Env) (hG : E.G.Simple) (hP : E.G.Placed)
    (hshuffle : ∀ mt l, (E.shuffle mt l).1.Perm l)
    (hstart : ∀ i j, i < E.num → j < E.num → i ≠ j → E.start i ≠ E.start j)
    (t : Nat) (s : PIBT) (h : PIBT.after E t = .ok s) :
    ((PIBT.planning_cycles E s).bind (fun q => .ok q.1) =
      PIBT.plan_agents E (PIBT.sorted s).A (PIBT.sorted s)) ∧
    ∃ q, PIBT.planning_cycles E s = .ok q ∧ ∀ sc, sc ∈ q.2 →
      sc.Ring E.G ∧
      (∃ s', PIBT.handleCycleWithOrientation E sc = .ok s') ∧
      ((∀ r, r ∈ sc.request_chain → PIBT.faces E sc r) →
        PIBT.handleCycleWithOrientation E sc =
          .ok (PIBT.chain_advance sc.request_chain sc) ∧
        (∀ r, r ∈ sc.request_chain →
          ((PIBT.chain_advance sc.request_chain sc).agents r.agent).v_next =
            some r.requested_node) ∧
        (sc.request_chain.map fun r =>
          ((PIBT.chain_advance sc.request_chain sc).agents r.agent).v_next).Nodup ∧
        ∀ r r1, r ∈ sc.request_chain → r1 ∈ sc.request_chain →
          ¬ (((PIBT.chain_advance sc.request_chain sc).agents r.agent).v_next =
              some (sc.agents r1.agent).v_now ∧
            ((PIBT.chain_advance sc.request_chain sc).agents r1.agent).v_next =
              some (sc.agents r.agent).v_now)) := by
  obtain ⟨hT, hmem, _, _, _⟩ := planning_start h hstart
  obtain ⟨g1, g2⟩ := plan_agents_cyc_ring hG hP hshuffle _ _ hT hmem
  have hpc : PIBT.planning_cycles E s =
      PIBT.plan_agents_cyc E (PIBT.sorted s).A (PIBT.sorted s) := rfl
  rw [hpc]
  have herase : (PIBT.plan_agents_cyc E (PIBT.sorted s).A (PIBT.sorted s)).bind
      (fun q => .ok q.1) = PIBT.plan_agents E (PIBT.sorted s).A (PIBT.sorted s) :=
    plan_agents_cyc_erase E _ _
  obtain ⟨s1, hs1⟩ := planning_total hG hP hshuffle hstart h
  refine ⟨herase, ?_⟩
  have hq : ∃ q, PIBT.plan_agents_cyc E (PIBT.sorted s).A (PIBT.sorted s) = .ok q := by
    apply ok_of_safe g1
    intro e
    rw [e, hs1] at herase
    exact Outcome.noConfusion herase
  obtain ⟨q, hq⟩ := hq
  refine ⟨q, hq, fun sc hsc => ?_⟩
  obtain ⟨hCy, hRing⟩ := g2 q hq sc hsc
  obtain ⟨t1, t2, t3⟩ := cyclic_targets hCy hRing.distinct
  have hne : sc.request_chain ≠ [] := by
    intro e
    have := hRing.long
    rw [e] at this
    simp at this
  refine ⟨hRing, ?_, fun hf => ?_⟩
  · apply handleCycle_total E sc t2
    · intro r hr
      exact hCy.base.ott_now _ (hCy.chain_sound r hr).1
    · intro r hr
      exact relpos_total (hRing.edge r hr) (hP _ _ (hRing.edge r hr))
  · have hv : ∀ r, r ∈ sc.request_chain →
        ((PIBT.chain_advance sc.request_chain sc).agents r.agent).v_next =
          some r.requested_node := fun r hr =>
      ((chain_advance_spec sc.request_chain sc).2.2.2 hRing.distinct t1 r hr).1
    refine ⟨handleCycle_aligned hne hf, hv, ?_, fun r r1 hr hr1 => ?_⟩
    · have e : (sc.request_chain.map fun r =>
          ((PIBT.chain_advance sc.request_chain sc).agents r.agent).v_next) =
          (sc.request_chain.map fun r => r.requested_node).map some := by
        rw [List.map_map]
        exact List.map_congr_left hv
      rw [e]
      exact t1.map (Option.some_injective _)
    · rw [hv r hr, hv r1 hr1]
      rintro ⟨e1, e2⟩
      exact t3 r r1 hr hr1 ⟨Option.some.inj e1, Option.some.inj e2⟩

theorem square_cycle :
    ((PIBT.after square_env 2).bind fun s =>
      (PIBT.planning_cycles square_env s).bind fun q =>
        .ok (q.2.map fun sc => sc.request_chain.map fun r => (r.agent, r.requested_node))) =
      .ok [[(0, 1), (1, 2), (2, 3), (3, 0)]] := by
  decide!

theorem square_facing :
    ((PIBT.after square_env 2).bind fun s =>
      (PIBT.planning_cycles square_env s).bind fun q =>
        .ok (q.2.map fun sc => sc.request_chain.map fun r =>
          ((sc.agents r.agent).ott_now,
            Plan.getRelativePosition square (sc.agents r.agent).v_now r.requested_node))) =
      .ok [[(some .X_PLUS, .ok .X_PLUS), (some .Y_PLUS, .ok .Y_PLUS),
        (some .X_MINUS, .ok .X_MINUS), (some .Y_MINUS, .ok .Y_MINUS)]] := by
  decide!

/-- Witness of C33 on `square_env`, in the third timestep: agent `0` requests `v1`, whose
occupant requests `v2`, whose occupant requests `v3`, whose occupant requests `v0`, the vertex
of the initial requester; every agent faces its requested node, and the handler moves the four
agents around the square. -/
theorem request_chain_ring_witness :
    ∃ s q sc, PIBT.after square_env 2 = .ok s ∧ PIBT.planning_cycles square_env s = .ok q ∧
      q.2 = [sc] ∧
      (sc.request_chain.map fun r => (r.agent, r.requested_node)) =
        [(0, 1), (1, 2), (2, 3), (3, 0)] ∧
      sc.Ring square_env.G ∧
      (∀ r, r ∈ sc.request_chain → PIBT.faces square_env sc r) ∧
      PIBT.handleCycleWithOrientation square_env sc =
        .ok (PIBT.chain_advance sc.request_chain sc) ∧
      (sc.request_chain.map fun r =>
        ((PIBT.chain_advance sc.request_chain sc).agents r.agent).v_next) =
          [some 1, some 2, some 3, some 0] ∧
      (sc.request_chain.map fun r =>
        ((PIBT.chain_advance sc.request_chain sc).agents r.agent).v_next).Nodup := by
  obtain ⟨s, hs, hv⟩ := Outcome.bind_eq_ok.mp square_cycle
  obtain ⟨q, hq, hv⟩ := Outcome.bind_eq_ok.mp hv
  have hv := Outcome.ok.inj hv
  obtain ⟨s', hs', hw⟩ := Outcome.bind_eq_ok.mp square_facing
  obtain ⟨q', hq', hw⟩ := Outcome.bind_eq_ok.mp hw
  have hw := Outcome.ok.inj hw
  cases Outcome.ok.inj (hs.symm.trans hs')
  cases Outcome.ok.inj (hq.symm.trans hq')
  obtain ⟨sc, rest, hsc, hchain, hrest⟩ := List.map_eq_cons_iff.mp hv
  rw [List.map_eq_nil_iff.mp hrest] at hsc
  rw [hsc] at hw
  simp only [List.map_cons, List.map_nil, List.cons.injEq, and_true] at hw
  obtain ⟨_, q1, hq1, hall⟩ := request_chain_ring square_env square_simple square_placed
    (fun _ _ => List.Perm.refl _) (fun _ _ _ _ h => h) 2 s hs
  cases Outcome.ok.inj (hq.symm.trans hq1)
  obtain ⟨hRing, _, hal⟩ := hall sc (by rw [hsc]; exact List.mem_singleton_self sc)
  have hf : ∀ r, r ∈ sc.request_chain → PIBT.faces square_env sc r := by
    intro r hr
    have hm := List.mem_map_of_mem (fun r : Request => ((sc.agents r.agent).ott_now,
      Plan.getRelativePosition square (sc.agents r.agent).v_now r.requested_node)) hr
    rw [hw] at hm
    simp only [List.mem_cons, Prod.mk.injEq, List.mem_singleton, List.not_mem_nil,
      or_false] at hm
    rcases hm with ⟨e1, e2⟩ | ⟨e1, e2⟩ | ⟨e1, e2⟩ | ⟨e1, e2⟩ <;> exact ⟨_, e1, e2⟩
  obtain ⟨k1, k2, k3, _⟩ := hal hf
  refine ⟨s, q, sc, hs, hq, hsc, hchain, hRing, hf, k1, ?_, k3⟩
  have e : (sc.request_chain.map fun r =>
      ((PIBT.chain_advance sc.request_chain sc).agents r.agent).v_next) =
      (sc.request_chain.map fun r => (r.agent, r.requested_node)).map fun p => some p.2 := by
    rw [List.map_map]
    exact List.map_congr_left k2
  rw [e, hchain]
  rfl

end PIBT2
